import Mathlib

/-! The container `taapp::set`: a red-black tree with parent links.

Shallow embedding of `include/taapp/set.h`.

* Node storage is a heap `mem : Nat → Option (rbnode Key)`; a nullable
  `rbnode*` is an `Option Nat` (`none` is `NULL`).
* Every function runs in the `Option` monad: dereferencing `NULL` or an address
  that holds no node yields `none` (undefined behaviour in the source).
* Loops carry a fuel argument that is consumed once per iteration; the public
  operations pass a bound computed from `size_`, and the theorems show that
  the bound is never reached on a reachable set.
* `size_` is a `size_t` in the source.  It is modelled as an unbounded `Nat`:
  a live node occupies more than one byte, so the number of live nodes stays
  below `2^64` and the counter cannot wrap on increment; the decrement in
  `erase` only runs when a node exists.
-/

namespace taapp

/-! ## Data model (`struct rbnode`, the fields of `set`) -/

/-- Colours of `enum Colors`. -/
abbrev BLACK : Bool := false
/-- Colours of `enum Colors`. -/
abbrev RED : Bool := true
/-- Directions of `enum Directions`. -/
abbrev LEFT : Bool := false
/-- Directions of `enum Directions`. -/
abbrev RIGHT : Bool := true

/-- The node record `struct rbnode`. -/
structure rbnode (Key : Type) where
  value : Key
  color : Bool
  parent : Option Nat
  left : Option Nat
  right : Option Nat

/-- The container: `root_`, `size_`, the node heap and the allocator state
(`next` is the first address never handed out). -/
structure set (Key : Type) where
  root_ : Option Nat
  size_ : Nat
  mem : Nat → Option (rbnode Key)
  next : Nat

variable {Key : Type}

/-- The constructor `set() : root_(0), size_(0)`. -/
def set.empty : set Key :=
  { root_ := none, size_ := 0, mem := fun _ => none, next := 0 }

/-- Store a whole node record at address `a`. -/
def set.write (s : set Key) (a : Nat) (n : rbnode Key) : set Key :=
  { s with mem := fun q => if q = a then some n else s.mem q }

/-- Release the storage at address `a` (`allocator_.deallocate(n, 1)`). -/
def set.free (s : set Key) (a : Nat) : set Key :=
  { s with mem := fun q => if q = a then none else s.mem q }

/-- Read through a nullable pointer: `*p`. -/
def deref (s : set Key) (p : Option Nat) : Option (rbnode Key) :=
  match p with
  | none => none
  | some a => s.mem a

/-- The store `p->left = x`. -/
def set_left (s : set Key) (p : Option Nat) (x : Option Nat) : Option (set Key) :=
  match p with
  | none => none
  | some a =>
    match s.mem a with
    | none => none
    | some n => some (s.write a { n with left := x })

/-- The store `p->right = x`. -/
def set_right (s : set Key) (p : Option Nat) (x : Option Nat) : Option (set Key) :=
  match p with
  | none => none
  | some a =>
    match s.mem a with
    | none => none
    | some n => some (s.write a { n with right := x })

/-- The store `p->parent = x`. -/
def set_parent (s : set Key) (p : Option Nat) (x : Option Nat) : Option (set Key) :=
  match p with
  | none => none
  | some a =>
    match s.mem a with
    | none => none
    | some n => some (s.write a { n with parent := x })

/-- The store `p->color = c`. -/
def set_color (s : set Key) (p : Option Nat) (c : Bool) : Option (set Key) :=
  match p with
  | none => none
  | some a =>
    match s.mem a with
    | none => none
    | some n => some (s.write a { n with color := c })

/-! ## Private helpers of `set` -/

/-- Source function `get_child<Direction>(p)`. -/
def get_child (d : Bool) (s : set Key) (p : Option Nat) : Option (Option Nat) :=
  match deref s p with
  | none => none
  | some n => some (if d = LEFT then n.left else n.right)

/-- Source function `set_child<Direction>(root, child)`. -/
def set_child (d : Bool) (s : set Key) (root child : Option Nat) : Option (set Key) :=
  if d = LEFT then set_left s root child else set_right s root child

/-- Source function `is_red(n)`: `n != NULL && n->color == RED`. -/
def is_red (s : set Key) (n : Option Nat) : Option Bool :=
  match n with
  | none => some false
  | some a =>
    match s.mem a with
    | none => none
    | some x => some (x.color == RED)

/-- Source function `replace_child(root, child, new_child)`. -/
def replace_child (s : set Key) (root child new_child : Option Nat) : Option (set Key) :=
  match root with
  | some a =>
    match s.mem a with
    | none => none
    | some n =>
      if n.left = child then set_left s root new_child
      else set_right s root new_child
  | none => some { s with root_ := new_child }

/-- Source function `rotate<Direction>(root)`; returns the new state and the pivot. -/
def rotate (d : Bool) (s : set Key) (root : Option Nat) : Option (set Key × Option Nat) := do
  -- relocate pivot at the original position of root
  let pivot ← get_child (!d) s root
  let rn ← deref s root
  let gp := rn.parent
  let s ← set_parent s pivot gp
  let s ← replace_child s gp root pivot
  -- child of pivot becomes opposite child of root
  let pivot_child ← get_child d s pivot
  let s ← set_child (!d) s root pivot_child
  let s ← (if pivot_child ≠ none then set_parent s pivot_child root else some s)
  -- root becomes child of pivot
  let s ← set_child d s pivot root
  let s ← set_parent s root pivot
  let s ← set_color s root RED
  let s ← set_color s pivot BLACK
  pure (s, pivot)

/-- Source function `double_rotate<Direction>(root)`. -/
def double_rotate (d : Bool) (s : set Key) (root : Option Nat) :
    Option (set Key × Option Nat) := do
  let other ← get_child (!d) s root
  let r ← rotate (!d) s other
  rotate d r.1 root

/-- Source function `balance_insert<Direction>(root, child)`. -/
def balance_insert (d : Bool) (s : set Key) (root child : Option Nat) :
    Option (set Key × Option Nat) := do
  let sibling ← get_child (!d) s root
  let sr ← is_red s sibling
  if sr then
    -- both children of root are red, so do simple color change
    let s ← set_color s root RED
    let s ← set_color s child BLACK
    let s ← set_color s sibling BLACK
    pure (s, root)
  else
    let c1 ← get_child d s child
    let r1 ← is_red s c1
    if r1 then rotate (!d) s root
    else
      let c2 ← get_child (!d) s child
      let r2 ← is_red s c2
      if r2 then double_rotate (!d) s root
      else pure (s, root)

/-- Case 3 and 4 of `balance_erase`: the sibling and both its children are
black. -/
def balance_erase_recolor (s : set Key) (root parent sibling : Option Nat) :
    Option (set Key × Option Nat) :=
  match set_color s sibling RED with
  | none => none
  | some s =>
    match deref s parent with
    | none => none
    | some pn =>
      if pn.color = RED then
        -- case 4: parent is red, sibling and both its children are black
        match set_color s parent BLACK with
        | none => none
        | some s => some (s, s.root_)
      else some (s, root)

/-- Case 5 and 6 of `balance_erase`: the sibling has a red child. -/
def balance_erase_rotate (d : Bool) (s : set Key) (parent sibling : Option Nat) :
    Option (set Key × Option Nat) :=
  match deref s parent with
  | none => none
  | some pn =>
    let color := pn.color
    match get_child (!d) s sibling with
    | none => none
    | some no =>
      match is_red s no with
      | none => none
      | some ro =>
        match (if ro then rotate d s parent else double_rotate d s parent) with
        | none => none
        | some r =>
          match set_color r.1 r.2 color with
          | none => none
          | some s =>
            match deref s r.2 with
            | none => none
            | some pn =>
              match set_color s pn.left BLACK with
              | none => none
              | some s =>
                match deref s r.2 with
                | none => none
                | some pn =>
                  match set_color s pn.right BLACK with
                  | none => none
                  | some s => some (s, s.root_)

/-- The part of `balance_erase` after the red-sibling rotation:
`if(sibling != NULL) … return root`. -/
def balance_erase_black (d : Bool) (s : set Key) (root parent sibling : Option Nat) :
    Option (set Key × Option Nat) :=
  if sibling ≠ none then
    match get_child d s sibling with
    | none => none
    | some nd =>
      match is_red s nd with
      | none => none
      | some rd =>
        -- `!is_red(get_child<Direction>(sibling)) && !is_red(get_child<Opposite>(sibling))`
        match (if rd then some false else
                match get_child (!d) s sibling with
                | none => none
                | some no =>
                  match is_red s no with
                  | none => none
                  | some ro => some (!ro)) with
        | none => none
        | some both =>
          if both then balance_erase_recolor s root parent sibling
          else balance_erase_rotate d s parent sibling
  else some (s, root)

/-- Source function `balance_erase<Direction>(root, child)`.  The argument `child` is not read
by the body. -/
def balance_erase (d : Bool) (s : set Key) (root _child : Option Nat) :
    Option (set Key × Option Nat) :=
  let parent := root
  match get_child (!d) s root with
  | none => none
  | some sibling =>
    match deref s sibling with
    | none => none
    | some sn =>
      if sn.color = RED then
        -- case 2: sibling is red
        match rotate d s root with
        | none => none
        | some r =>
          match get_child (!d) r.1 parent with
          | none => none
          | some sib => balance_erase_black d r.1 r.2 parent sib
      else balance_erase_black d s root parent sibling

/-! ## Iterators -/

/-- The descent loop of `operator++` and `begin`: follow `left` links from `n`
while the next one is not `NULL`; `pred` is the link about to be followed. -/
def leftmost_loop (s : set Key) : Nat → Option Nat → Option Nat → Option (Option Nat)
  | _, n, none => some n
  | 0, _, some _ => none
  | f + 1, _, some a =>
    match s.mem a with
    | none => none
    | some x => leftmost_loop s f (some a) x.left

/-- The ascent loop of `operator++`: move up until `predeccessor` is the left
child of `n`. -/
def ascend_loop (s : set Key) : Nat → Option Nat → Option Nat → Option (Option Nat)
  | _, _, none => some none
  | 0, _, some _ => none
  | f + 1, pred, some a =>
    match s.mem a with
    | none => none
    | some x => if x.left = pred then some (some a) else ascend_loop s f (some a) x.parent

/-- Source operator `iterator::operator++` on the iterator holding `node_`; returns the new
`node_`. -/
def increment (s : set Key) (node_ : Option Nat) : Option (Option Nat) := do
  let pn ← deref s node_
  let n := pn.right
  if n ≠ none then
    let x ← deref s n
    leftmost_loop s s.size_ n x.left
  else
    ascend_loop s s.size_ node_ pn.parent

/-- Source function `begin()`. -/
def begin_ (s : set Key) : Option (Option Nat) :=
  leftmost_loop s s.size_ none s.root_

/-- Source function `end()`: the null iterator. -/
def end_ (_s : set Key) : Option Nat := none

/-! ## Public operations -/

/-- The loop of `find`. -/
def find_loop (lt : Key → Key → Bool) (t : Key) (s : set Key) :
    Nat → Option Nat → Option (Option Nat)
  | _, none => some none
  | 0, some _ => none
  | f + 1, some a =>
    match s.mem a with
    | none => none
    | some x =>
      if lt t x.value then find_loop lt t s f x.left
      else if lt x.value t then find_loop lt t s f x.right
      else some (some a)

/-- Source function `find(t)`; the result is the iterator's `node_`. -/
def find (lt : Key → Key → Bool) (t : Key) (s : set Key) : Option (Option Nat) :=
  find_loop lt t s s.size_ s.root_

/-- The duplicate search of `insert`.  `link` is the value of `*child_link`
(no store happens during the loop); the result is `(pos, n)`. -/
def insert_descend (lt : Key → Key → Bool) (t : Key) (s : set Key) :
    Nat → Option Nat → Option Nat → Option (Option Nat × Option Nat)
  | _, pos, none => some (pos, none)
  | 0, _, some _ => none
  | f + 1, _, some a =>
    match s.mem a with
    | none => none
    | some x =>
      if lt t x.value then insert_descend lt t s f (some a) x.left
      else if lt x.value t then insert_descend lt t s f (some a) x.right
      else some (some a, some a)

/-- The re-balancing loop of `insert`:
`while(parent != NULL && child->color == RED)`. -/
def insert_loop : Nat → set Key → Option Nat → Option Nat → Option (set Key)
  | _, s, none, _ => some s
  | fuel, s, some p, child =>
    match deref s child with
    | none => none
    | some cn =>
      if cn.color = RED then
        match fuel with
        | 0 => none
        | f + 1 =>
          match s.mem p with
          | none => none
          | some pn =>
            match (if pn.left = child then balance_insert LEFT s (some p) child
                   else balance_insert RIGHT s (some p) child) with
            | none => none
            | some r =>
              -- move up to the next level
              match deref r.1 r.2 with
              | none => none
              | some cn2 => insert_loop f r.1 cn2.parent r.2
      else some s

/-- Source function `insert(t)` where `fresh` is what `allocator_.allocate(1)` returns if it is
called.  The five stores that initialise the new node are one record store
(the storage is read only after all five).  Result: the new state and the
pair `(iterator.node_, bool)`. -/
def insert_with (lt : Key → Key → Bool) (t : Key) (s : set Key) (fresh : Option Nat) :
    Option (set Key × (Option Nat × Bool)) := do
  let r ← insert_descend lt t s s.size_ s.root_ s.root_
  let pos := r.1
  if r.2 = none then
    -- need to insert a new value
    let n := fresh
    let a ← n
    let s := { s with next := s.next + 1 }
    if s.root_ = none then
      -- special case: empty tree
      let s := s.write a
        { value := t, color := RED, left := none, right := none, parent := none }
      let s := { s with root_ := n }
      let s ← set_color s s.root_ BLACK
      pure ({ s with size_ := s.size_ + 1 }, (n, decide (n ≠ pos)))
    else
      -- standard BST insertion
      let parent := pos
      let s := s.write a
        { value := t, color := RED, left := none, right := none, parent := parent }
      let nn ← deref s n
      let pn ← deref s parent
      let less := lt nn.value pn.value
      let s ← (if less then set_left s parent n else set_right s parent n)
      -- Walk back up the tree and re-balance
      let child := parent
      let cn ← deref s child
      let s ← insert_loop s.size_ s cn.parent child
      let s ← set_color s s.root_ BLACK
      pure ({ s with size_ := s.size_ + 1 }, (n, decide (n ≠ pos)))
  else
    pure (s, (r.2, decide (r.2 ≠ pos)))

/-- Source function `insert(t)` with the allocator handing out the next unused address. -/
def insert (lt : Key → Key → Bool) (t : Key) (s : set Key) :
    Option (set Key × (Option Nat × Bool)) :=
  insert_with lt t s (some s.next)

/-- The successor search of `erase(iterator)`: the `do … while` over
`successor->left`. -/
def successor_loop (s : set Key) : Nat → Nat → Option Nat
  | 0, _ => none
  | f + 1, a =>
    match s.mem a with
    | none => none
    | some x =>
      match x.left with
      | none => some a
      | some b => successor_loop s f b

/-- The re-balancing loop of `erase(iterator)`: `while(parent != NULL)`. -/
def erase_loop : Nat → set Key → Option Nat → Option Nat → Option (set Key)
  | _, s, none, _ => some s
  | 0, _, some _, _ => none
  | f + 1, s, some p, child =>
    match s.mem p with
    | none => none
    | some pn =>
      match (if pn.left = child then balance_erase LEFT s (some p) child
             else balance_erase RIGHT s (some p) child) with
      | none => none
      | some r =>
        match deref r.1 r.2 with
        | none => none
        | some pn2 => erase_loop f r.1 pn2.parent r.2

/-- The two-children branch of `erase(iterator)`, first half: find the
successor and link it below `parent` and above `child`.  Result: the state,
`successor` and the new `child` (`successor->right`). -/
def erase_splice_left (s : set Key) (root parent child : Option Nat) :
    Option (set Key × Option Nat × Option Nat) :=
  match deref s root with
  | none => none
  | some rn =>
    match rn.right with
    | none => none
    | some r0 =>
      -- find its successor
      match successor_loop s (s.size_ + 1) r0 with
      | none => none
      | some su =>
        let successor := some su
        match replace_child s parent root successor with
        | none => none
        | some s =>
          match set_left s successor child with
          | none => none
          | some s =>
            match set_parent s child successor with
            | none => none
            | some s =>
              match deref s successor with
              | none => none
              | some sn => some (s, successor, sn.right)

/-- The two-children branch of `erase(iterator)`, second half, from
`successor->right = root->right` on.  Result: `(state, parent, color)`. -/
def erase_splice_right (s : set Key) (root successor : Option Nat) :
    Option (set Key × Option Nat × Bool) :=
  match deref s root with
  | none => none
  | some rn =>
    match set_right s successor rn.right with
    | none => none
    | some s =>
      match deref s root with
      | none => none
      | some rn =>
        match set_parent s rn.right successor with
        | none => none
        | some s =>
          match deref s successor with
          | none => none
          | some sn =>
            let parent := sn.parent
            match deref s root with
            | none => none
            | some rn =>
              match set_parent s successor rn.parent with
              | none => none
              | some s =>
                match deref s successor with
                | none => none
                | some sn =>
                  let color := sn.color
                  match deref s root with
                  | none => none
                  | some rn =>
                    match set_color s successor rn.color with
                    | none => none
                    | some s => some (s, parent, color)

/-- The two-children branch of `erase(iterator)`: splice the successor into
the place of `root`.  Result: `(state, root, parent, child, color)` as the
local variables stand after the branch. -/
def erase_splice (s : set Key) (root parent child : Option Nat) :
    Option (set Key × Option Nat × Option Nat × Option Nat × Bool) :=
  match erase_splice_left s root parent child with
  | none => none
  | some l =>
    match erase_splice_right l.1 root l.2.1 with
    | none => none
    | some r => some (r.1, l.2.1, r.2.1, l.2.2, r.2.2)

/-- The `// rebalancing` block of `erase(iterator)`. -/
def erase_rebalance (s : set Key) (parent child : Option Nat) (color : Bool) :
    Option (set Key) :=
  if color = BLACK then
    match is_red s child with
    | none => none
    | some cr =>
      if cr then set_color s child BLACK
      else
        -- case 1: if child is the tree parent, we are done
        erase_loop s.size_ s parent child
  else some s

/-- The `// clean up` block of `erase(iterator)`; `n` is the node removed. -/
def erase_cleanup (s : set Key) (n : Option Nat) : Option (set Key) :=
  let s := { s with size_ := s.size_ - 1 }
  match (if s.root_ ≠ none then set_color s s.root_ BLACK else some s) with
  | none => none
  | some s =>
    match n with
    | none => none
    | some a => some (s.free a)

/-- The unlinking part of `erase(iterator)`, from `rbnode* root = n` to the
end of the rebalancing block. -/
def erase_unlink (s : set Key) (n : Option Nat) : Option (set Key) :=
  let root := n
  match deref s root with
  | none => none
  | some rn =>
    let parent := rn.parent
    let child := rn.left
    let color := rn.color
    match (if child = none then
             -- the node does not have a left child
             some (s, root, parent, rn.right, color)
           else if rn.right ≠ none then
             -- the node has two children
             erase_splice s root parent child
           else some (s, root, parent, child, color)) with
    | none => none
    | some st =>
      match replace_child st.1 st.2.2.1 st.2.1 st.2.2.2.1 with
      | none => none
      | some s =>
        match (if st.2.2.2.1 ≠ none then set_parent s st.2.2.2.1 st.2.2.1 else some s) with
        | none => none
        | some s => erase_rebalance s st.2.2.1 st.2.2.2.1 st.2.2.2.2

/-- Source function `erase(iterator)` on an iterator whose `node_` is `itr`; returns the new
state and the `node_` of the returned iterator. -/
def erase (s : set Key) (itr : Option Nat) : Option (set Key × Option Nat) :=
  -- standard BST deletion
  let n := itr
  match increment s itr with
  | none => none
  | some itr =>
    match erase_unlink s n with
    | none => none
    | some s =>
      match erase_cleanup s n with
      | none => none
      | some s => some (s, itr)

/-- Source function `erase(const Key& k)`; returns the new state and the count removed. -/
def erase_key (lt : Key → Key → Bool) (k : Key) (s : set Key) : Option (set Key × Nat) := do
  let itr ← find lt k s
  let found := decide (itr ≠ none)
  if found then
    let r ← erase s itr
    pure (r.1, if found then 1 else 0)
  else
    pure (s, if found then 1 else 0)

/-- The loop of `clear`. -/
def clear_loop : Nat → set Key → Option Nat → Option (set Key)
  | _, s, none => some s
  | 0, _, some _ => none
  | f + 1, s, some a =>
    match s.mem a with
    | none => none
    | some x =>
      if x.left ≠ none then clear_loop f s x.left
      else if x.right ≠ none then clear_loop f s x.right
      else
        -- n is a leaf
        let parent := x.parent
        let s1 := s.free a
        match parent with
        | none => clear_loop f s1 none
        | some p =>
          match s1.mem p with
          | none => none
          | some pn =>
            match (if pn.left = some a then set_left s1 parent none
                   else set_right s1 parent none) with
            | none => none
            | some s2 => clear_loop f s2 parent

/-- Source function `clear()`. -/
def clear (s : set Key) : Option (set Key) :=
  match clear_loop (2 * s.size_ + 1) s s.root_ with
  | none => none
  | some s1 => some { s1 with root_ := none, size_ := 0 }

/-- Source function `size()`. -/
def size (s : set Key) : Nat := s.size_

/-- Source function `empty()`. -/
def empty (s : set Key) : Bool := s.root_.isNone

end taapp

namespace taapp

variable {Key : Type}

/-! ## Observations on the heap used to state the properties -/

/-- Relation `Reach s p a`: the node at address `a` is reached from the pointer `p` by
following `left` and `right` links through stored nodes. -/
inductive Reach (s : set Key) : Option Nat → Nat → Prop where
  | here {a : Nat} {n : rbnode Key} : s.mem a = some n → Reach s (some a) a
  | left {b a : Nat} {n : rbnode Key} : s.mem b = some n → Reach s n.left a → Reach s (some b) a
  | right {b a : Nat} {n : rbnode Key} : s.mem b = some n → Reach s n.right a → Reach s (some b) a

/-- The address `a` is a node of the tree of `s`. -/
def IsNode (s : set Key) (a : Nat) : Prop := Reach s s.root_ a

/-- Relation `Inorder s p ks`: the subtree at `p` is finite and `ks` is its in-order
key sequence. -/
inductive Inorder (s : set Key) : Option Nat → List Key → Prop where
  | null : Inorder s none []
  | node {a : Nat} {n : rbnode Key} {xs ys : List Key} :
      s.mem a = some n → Inorder s n.left xs → Inorder s n.right ys →
      Inorder s (some a) (xs ++ n.value :: ys)

/-- Relation `BlackPath s p k`: some path from `p` down to a null link passes through
exactly `k` BLACK nodes. -/
inductive BlackPath (s : set Key) : Option Nat → Nat → Prop where
  | null : BlackPath s none 0
  | left {a : Nat} {n : rbnode Key} {k : Nat} :
      s.mem a = some n → BlackPath s n.left k →
      BlackPath s (some a) (k + (if n.color = BLACK then 1 else 0))
  | right {a : Nat} {n : rbnode Key} {k : Nat} :
      s.mem a = some n → BlackPath s n.right k →
      BlackPath s (some a) (k + (if n.color = BLACK then 1 else 0))

/-- The comparator is a strict weak ordering. -/
structure StrictWeak (lt : Key → Key → Bool) : Prop where
  irrefl : ∀ a, lt a a = false
  trans : ∀ a b c, lt a b = true → lt b c = true → lt a c = true
  incomp : ∀ a b c, lt a b = false → lt b a = false → lt b c = false → lt c b = false →
    lt a c = false ∧ lt c a = false

/-- Two keys are equivalent: neither is less than the other. -/
def Equiv (lt : Key → Key → Bool) (a b : Key) : Prop := lt a b = false ∧ lt b a = false

/-- The sets reachable from the empty set by the public mutating operations.
`erase(iterator)` is only applied to an iterator that refers to a node of the
tree.  Each operation returns on every reachable set (`reachable_insert_total`,
`reachable_erase_key_total`, `reachable_erase_total`, `reachable_clear_total`),
so no step of a real run is lost to the fuel of the loops. -/
inductive Reachable (lt : Key → Key → Bool) : set Key → Prop where
  | empty : Reachable lt set.empty
  | insert {s s1 : set Key} {k : Key} {r : Option Nat × Bool} :
      Reachable lt s → insert lt k s = some (s1, r) → Reachable lt s1
  | erase_key {s s1 : set Key} {k : Key} {c : Nat} :
      Reachable lt s → erase_key lt k s = some (s1, c) → Reachable lt s1
  | erase {s s1 : set Key} {a : Nat} {r : Option Nat} :
      Reachable lt s → IsNode s a → erase s (some a) = some (s1, r) → Reachable lt s1
  | clear {s s1 : set Key} :
      Reachable lt s → clear s = some s1 → Reachable lt s1

/-! ## Abstract trees

The tree a heap represents, as an inductive value; node identities are kept so
that the representation relation can speak about addresses. -/

/-- Binary tree of nodes `(address, colour, key)`. -/
inductive NodeTree (Key : Type) where
  | nil : NodeTree Key
  | node (id : Nat) (c : Bool) (l : NodeTree Key) (v : Key) (r : NodeTree Key) : NodeTree Key

namespace NodeTree

/-- The pointer to the tree: the address of its root, `NULL` for `nil`. -/
def root : NodeTree Key → Option Nat
  | nil => none
  | node i _ _ _ _ => some i

/-- In-order list of `(address, key)`. -/
def nodes : NodeTree Key → List (Nat × Key)
  | nil => []
  | node i _ l v r => nodes l ++ (i, v) :: nodes r

/-- In-order list of addresses. -/
def ids (t : NodeTree Key) : List Nat := t.nodes.map Prod.fst

/-- In-order list of keys. -/
def keys (t : NodeTree Key) : List Key := t.nodes.map Prod.snd

/-- Function `is_red` on the abstract tree. -/
def isRed : NodeTree Key → Bool
  | nil => false
  | node _ c _ _ _ => c

/-- Black height measured along the leftmost path. -/
def bh : NodeTree Key → Nat
  | nil => 0
  | node _ c l _ _ => bh l + (if c = BLACK then 1 else 0)

/-- Both subtrees of every node have the same black height. -/
def Bal : NodeTree Key → Prop
  | nil => True
  | node _ _ l _ r => Bal l ∧ Bal r ∧ bh l = bh r

/-- No RED node has a RED child. -/
def RR : NodeTree Key → Prop
  | nil => True
  | node _ c l _ r => (c = RED → l.isRed = false ∧ r.isRed = false) ∧ RR l ∧ RR r

/-- Number of nodes on the longest path to a leaf. -/
def height : NodeTree Key → Nat
  | nil => 0
  | node _ _ l _ r => max (height l) (height r) + 1

/-- Build a node from its child on side `d` and its child on the other side. -/
def mk (d : Bool) (i : Nat) (c : Bool) (a : NodeTree Key) (v : Key) (b : NodeTree Key) : NodeTree Key :=
  if d = LEFT then node i c a v b else node i c b v a

/-- The child on side `d`. -/
def child (d : Bool) : NodeTree Key → NodeTree Key
  | nil => nil
  | node _ _ l _ r => if d = LEFT then l else r

/-- Replace the colour of the root. -/
def paint (c : Bool) : NodeTree Key → NodeTree Key
  | nil => nil
  | node i _ l v r => node i c l v r

/-- Single rotation towards `d`: the child on the other side becomes the root;
the old root is coloured RED and the new root BLACK. -/
def rot (d : Bool) (t : NodeTree Key) : NodeTree Key :=
  match t with
  | nil => nil
  | node r _ _ vr _ =>
    match t.child (!d) with
    | nil => t
    | node p cp pl vp pr =>
      mk d p BLACK (mk d r RED (t.child d) vr ((node p cp pl vp pr).child d)) vp
        ((node p cp pl vp pr).child (!d))

/-- Replace the child on side `d`. -/
def setChild (d : Bool) (t x : NodeTree Key) : NodeTree Key :=
  match t with
  | nil => nil
  | node i c l v r => if d = LEFT then node i c x v r else node i c l v x

/-- Double rotation: rotate the child on the other side away, then the root. -/
def drot (d : Bool) (t : NodeTree Key) : NodeTree Key :=
  rot d (t.setChild (!d) (rot (!d) (t.child (!d))))

end NodeTree

open NodeTree

/-- One step of the path from a node up to the root: the parent node, the side
`dir` on which the path continues below it, and the subtree on the other
side. -/
structure Frame (Key : Type) where
  id : Nat
  c : Bool
  v : Key
  dir : Bool
  sib : NodeTree Key

/-- Put `t` below the frame. -/
def Frame.fill (f : Frame Key) (t : NodeTree Key) : NodeTree Key :=
  NodeTree.mk f.dir f.id f.c t f.v f.sib

/-- Rebuild the whole tree from a path (innermost frame first) and the subtree
at its end. -/
def plug : List (Frame Key) → NodeTree Key → NodeTree Key
  | [], t => t
  | f :: ctx, t => plug ctx (f.fill t)

/-- Address of the innermost frame: the parent pointer of the subtree at the
end of the path. -/
def cpar : List (Frame Key) → Option Nat
  | [] => none
  | f :: _ => some f.id

/-- Nodes of the path that precede the subtree in order. -/
def ctxBefore : List (Frame Key) → List (Nat × Key)
  | [] => []
  | f :: ctx => ctxBefore ctx ++ (if f.dir = LEFT then [] else f.sib.nodes ++ [(f.id, f.v)])

/-- Nodes of the path that follow the subtree in order. -/
def ctxAfter : List (Frame Key) → List (Nat × Key)
  | [] => []
  | f :: ctx => (if f.dir = LEFT then (f.id, f.v) :: f.sib.nodes else []) ++ ctxAfter ctx

/-- Pointer to the whole tree, given the pointer to the subtree at the end of
the path. -/
def croot : List (Frame Key) → Option Nat → Option Nat
  | [], q => q
  | f :: ctx, _ => croot ctx (some f.id)

/-- Addresses of the nodes on and beside a path. -/
def cids (ctx : List (Frame Key)) : List Nat :=
  (ctxBefore ctx ++ ctxAfter ctx).map Prod.fst

/-! ## Representation relation -/

/-- The heap holds the tree `t` below a node whose address is `par`: every
node record has the key, colour, parent and child pointers the tree says. -/
def RepT (mem : Nat → Option (rbnode Key)) : Option Nat → NodeTree Key → Prop
  | _, nil => True
  | par, node i c l v r =>
    mem i = some { value := v, color := c, parent := par, left := l.root, right := r.root } ∧
    RepT mem (some i) l ∧ RepT mem (some i) r

/-- The heap holds the path `ctx` above a subtree whose pointer is `q`. -/
def RepC (mem : Nat → Option (rbnode Key)) : List (Frame Key) → Option Nat → Prop
  | [], _ => True
  | f :: ctx, q =>
    mem f.id = some { value := f.v, color := f.c, parent := cpar ctx,
                      left := if f.dir = LEFT then q else f.sib.root,
                      right := if f.dir = LEFT then f.sib.root else q } ∧
    RepT mem (some f.id) f.sib ∧ RepC mem ctx (some f.id)

/-- Parent pointer of the subtree at the end of a path that hangs below
`top`. -/
def cparT (top : Option Nat) : List (Frame Key) → Option Nat
  | [] => top
  | f :: _ => some f.id

/-- The heap holds the path `ctx`, hanging below the node `top`, above a
subtree whose pointer is `q`. -/
def RepCt (mem : Nat → Option (rbnode Key)) (top : Option Nat) :
    List (Frame Key) → Option Nat → Prop
  | [], _ => True
  | f :: ctx, q =>
    mem f.id = some { value := f.v, color := f.c, parent := cparT top ctx,
                      left := if f.dir = LEFT then q else f.sib.root,
                      right := if f.dir = LEFT then f.sib.root else q } ∧
    RepT mem (some f.id) f.sib ∧ RepCt mem top ctx (some f.id)

/-- The state `s` represents the tree `T`. -/
structure Rep (s : set Key) (T : NodeTree Key) : Prop where
  tree : RepT s.mem none T
  root : s.root_ = T.root
  nodup : T.ids.Nodup

/-- The state `s` represents `T`, its size counter is the number of nodes and
every node lies below the allocator's next address. -/
structure Model (s : set Key) (T : NodeTree Key) : Prop where
  rep : Rep s T
  size : s.size_ = T.ids.length
  fresh : ∀ a ∈ T.ids, a < s.next

/-! ## Abstract counterparts of the operations -/

/-- Descent of `find` and `insert`: the subtree where the search for `k` stops
and the path to it. -/
def zoom (lt : Key → Key → Bool) (k : Key) : NodeTree Key → List (Frame Key) →
    NodeTree Key × List (Frame Key)
  | nil, ctx => (nil, ctx)
  | node i c l v r, ctx =>
    if lt k v then zoom lt k l ({ id := i, c := c, v := v, dir := LEFT, sib := r } :: ctx)
    else if lt v k then zoom lt k r ({ id := i, c := c, v := v, dir := RIGHT, sib := l } :: ctx)
    else (node i c l v r, ctx)

/-- Effect of `balance_insert` on the subtree `f.fill t`. -/
def balI (f : Frame Key) (t : NodeTree Key) : NodeTree Key :=
  if f.sib.isRed then NodeTree.mk f.dir f.id RED (t.paint BLACK) f.v (f.sib.paint BLACK)
  else if (t.child f.dir).isRed then (f.fill t).rot (!f.dir)
  else if (t.child (!f.dir)).isRed then (f.fill t).drot (!f.dir)
  else f.fill t

/-- The re-balancing loop of `insert`, started at the subtree `t` (the loop's
`child`) below the path `ctx`. -/
def insFix : List (Frame Key) → NodeTree Key → NodeTree Key
  | [], t => t
  | f :: ctx, t => if t.isRed then insFix ctx (balI f t) else plug (f :: ctx) t

/-- Effect of `insert` of the key `k` stored at the fresh address `a`. -/
def insT (lt : Key → Key → Bool) (k : Key) (a : Nat) (T : NodeTree Key) : NodeTree Key :=
  match zoom lt k T [] with
  | (node _ _ _ _ _, _) => T
  | (nil, []) => node a BLACK nil k nil
  | (nil, f :: ctx) => (insFix ctx (f.fill (node a RED nil k nil))).paint BLACK

/-- The part of `balance_erase` after the red-sibling rotation, on the subtree
`mk d i c t v sib`; the flag tells that the loop is done. -/
def balEB (d : Bool) (i : Nat) (c : Bool) (v : Key) (t sib : NodeTree Key) : NodeTree Key × Bool :=
  match sib with
  | nil => (NodeTree.mk d i c t v sib, false)
  | node _ _ _ _ _ =>
    if !(sib.child d).isRed && !(sib.child (!d)).isRed then
      if c = RED then (NodeTree.mk d i BLACK t v (sib.paint RED), true)
      else (NodeTree.mk d i c t v (sib.paint RED), false)
    else
      let u := if (sib.child (!d)).isRed then (NodeTree.mk d i c t v sib).rot d
               else (NodeTree.mk d i c t v sib).drot d
      (((u.paint c).setChild LEFT ((u.child LEFT).paint BLACK)).setChild RIGHT
          ((u.child RIGHT).paint BLACK), true)

/-- Effect of `balance_erase` on the subtree `f.fill t`. -/
def balE (f : Frame Key) (t : NodeTree Key) : NodeTree Key × Bool :=
  match f.sib with
  | nil => (f.fill t, false)
  | node si sc sl sv sr =>
    if sc = RED then
      let r := balEB f.dir f.id RED f.v t ((node si sc sl sv sr).child f.dir)
      (NodeTree.mk f.dir si BLACK r.1 sv ((node si sc sl sv sr).child (!f.dir)), r.2)
    else balEB f.dir f.id f.c f.v t f.sib

/-- The re-balancing loop of `erase`, started with the deficient subtree `t`
below the path `ctx`. -/
def eraFix : List (Frame Key) → NodeTree Key → NodeTree Key
  | [], t => t
  | f :: ctx, t => if (balE f t).2 then plug ctx (balE f t).1 else eraFix ctx (balE f t).1

/-- Descent to the leftmost node: the successor search of `erase`. -/
def zoomMin : NodeTree Key → List (Frame Key) → NodeTree Key × List (Frame Key)
  | nil, ctx => (nil, ctx)
  | node i c l v r, ctx =>
    match l with
    | nil => (node i c l v r, ctx)
    | node _ _ _ _ _ => zoomMin l ({ id := i, c := c, v := v, dir := LEFT, sib := r } :: ctx)

/-- The `// rebalancing` block of `erase` for the removed colour `color`. -/
def eraReb (ctx : List (Frame Key)) (child : NodeTree Key) (color : Bool) : NodeTree Key :=
  if color = BLACK then
    if child.isRed then plug ctx (child.paint BLACK) else eraFix ctx child
  else plug ctx child

/-- Where `erase(iterator)` of the node at the root of `t` leaves a gap: the
path to the gap, the subtree `child` that fills it and the colour `color` of
the node taken out of the tree there. -/
def eraPos (ctx : List (Frame Key)) (t : NodeTree Key) :
    List (Frame Key) × NodeTree Key × Bool :=
  match t with
  | nil => (ctx, nil, RED)
  | node _ c l _ r =>
    match l, r with
    | nil, _ => (ctx, r, c)
    | node _ _ _ _ _, nil => (ctx, l, c)
    | node _ _ _ _ _, node _ _ _ _ _ =>
      match zoomMin r [] with
      | (nil, _) => (ctx, nil, RED)
      | (node si sc _ sv sr, cr) =>
        (cr ++ { id := si, c := c, v := sv, dir := RIGHT, sib := l } :: ctx, sr, sc)

/-- The tree after the unlinking and re-balancing part of `erase(iterator)`. -/
def eraU (ctx : List (Frame Key)) (t : NodeTree Key) : NodeTree Key :=
  eraReb (eraPos ctx t).1 (eraPos ctx t).2.1 (eraPos ctx t).2.2

/-- Effect of `erase(iterator)` of the node at the root of `t` below the path `ctx`. -/
def eraT (ctx : List (Frame Key)) (t : NodeTree Key) : NodeTree Key :=
  (eraU ctx t).paint BLACK

end taapp

namespace taapp

variable {Key : Type}
open NodeTree

/-! ## Red-black invariants on trees and paths -/

/-- Colour of the innermost frame of a path; BLACK for the empty path. -/
def cred : List (Frame Key) → Bool
  | [] => false
  | f :: _ => f.c

/-- No RED node of the path has a RED child, the hole left aside. -/
def CtxRR : List (Frame Key) → Prop
  | [] => True
  | f :: ctx => RR f.sib ∧ (f.c = RED → f.sib.isRed = false ∧ cred ctx = false) ∧ CtxRR ctx

/-- The path is balanced for a subtree of black height `n` in its hole. -/
def CtxBal : List (Frame Key) → Nat → Prop
  | [], _ => True
  | f :: ctx, n => Bal f.sib ∧ bh f.sib = n ∧ CtxBal ctx (n + (if f.c = BLACK then 1 else 0))

/-- Both subtrees of the root satisfy `RR`. -/
def RRk : NodeTree Key → Prop
  | nil => True
  | node _ _ l _ r => RR l ∧ RR r

/-- The red-black conditions on a whole tree: black root, no RED node with a
RED child, equal black heights. -/
def Valid (T : NodeTree Key) : Prop := T.isRed = false ∧ RR T ∧ Bal T

/-- Invariant of the re-balancing loop of `insert` at the subtree `t` below the
path `ctx`. -/
def InsInv (ctx : List (Frame Key)) (t : NodeTree Key) : Prop :=
  Bal t ∧ CtxBal ctx (bh t) ∧ CtxRR ctx ∧ RRk t ∧
  (t.isRed = false → RR t) ∧
  (t.isRed = true → ((t.child LEFT).isRed = false ∨ (t.child RIGHT).isRed = false) ∧
    (cred ctx = RED → RR t))

/-- Invariant of the re-balancing loop of `erase`: the subtree `t` below the
path `ctx` is one BLACK node short. -/
def EraInv (ctx : List (Frame Key)) (t : NodeTree Key) : Prop :=
  Bal t ∧ RR t ∧ t.isRed = false ∧ CtxBal ctx (bh t + 1) ∧ CtxRR ctx

/-- Relation `Subtree u t`: the tree `u` occurs in `t`. -/
inductive Subtree : NodeTree Key → NodeTree Key → Prop where
  | refl (t : NodeTree Key) : Subtree t t
  | left {u l r : NodeTree Key} (i : Nat) (c : Bool) (v : Key) :
      Subtree u l → Subtree u (node i c l v r)
  | right {u l r : NodeTree Key} (i : Nat) (c : Bool) (v : Key) :
      Subtree u r → Subtree u (node i c l v r)

/-- The list of keys is strictly increasing for `lt`. -/
def Sorted (lt : Key → Key → Bool) (ks : List Key) : Prop :=
  ks.Pairwise (fun a b => lt a b = true)

end taapp

namespace taapp

/-! ## Concrete sets used as examples -/

/-- The comparator of `set<int>`: `a < b`. -/
def ltN (a b : Nat) : Bool := decide (a < b)

/-- A comparator on key/value pairs that looks at the key only. -/
def ltP (a b : Nat × Nat) : Bool := decide (a.1 < b.1)

/-- The state after `insert(k)`; the state itself if the call did not return. -/
def after_insert {Key : Type} (lt : Key → Key → Bool) (k : Key) (s : set Key) : set Key :=
  match insert lt k s with
  | some r => r.1
  | none => s

/-- The set after inserting 2 and 1. -/
def demo2 : set Nat := after_insert ltN 1 (after_insert ltN 2 set.empty)

/-- The set after inserting 2, 1 and 3. -/
def demo3 : set Nat := after_insert ltN 3 demo2

/-- The set after inserting 2, 1, 3, 4, 5 and 6. -/
def demo6 : set Nat := after_insert ltN 6 (after_insert ltN 5 (after_insert ltN 4 demo3))

/-- The set of pairs after inserting `(1, 10)`. -/
def demoP : set (Nat × Nat) := after_insert ltP (1, 10) set.empty

end taapp

namespace taapp

variable {Key : Type}

/-! ## Observations and runs used for the operations on iterators and sequences -/

/-- Relation `InorderN s p l`: the subtree at `p` is finite and `l` is the
in-order list of its nodes, each with its address and its key. -/
inductive InorderN (s : set Key) : Option Nat → List (Nat × Key) → Prop where
  | null : InorderN s none []
  | node {a : Nat} {n : rbnode Key} {xs ys : List (Nat × Key)} :
      s.mem a = some n → InorderN s n.left xs → InorderN s n.right ys →
      InorderN s (some a) (xs ++ (a, n.value) :: ys)

/-- The loop `while(itr != end) { *itr; ++itr; }` of the iterator test: the
list of the nodes visited from `itr` on, each with the key read there. -/
def walk (s : set Key) : Nat → Option Nat → Option (List (Nat × Key))
  | _, none => some []
  | 0, some _ => none
  | f + 1, some a =>
    match s.mem a with
    | none => none
    | some n =>
      match increment s (some a) with
      | none => none
      | some nx =>
        match walk s f nx with
        | none => none
        | some l => some ((a, n.value) :: l)

/-- One mutating call of a run: `insert(k)` or `erase(k)`. -/
inductive Op (Key : Type) where
  | ins (k : Key) : Op Key
  | era (k : Key) : Op Key

/-- Apply the calls of a list, first to last. -/
def run_ops (lt : Key → Key → Bool) : List (Op Key) → set Key → Option (set Key)
  | [], s => some s
  | Op.ins k :: ops, s =>
    match insert lt k s with
    | none => none
    | some r => run_ops lt ops r.1
  | Op.era k :: ops, s =>
    match erase_key lt k s with
    | none => none
    | some r => run_ops lt ops r.1

/-- The sequence contains an `insert` of a key equivalent to `k` that is not
followed by a later `erase` of a key equivalent to `k`. -/
def Present (lt : Key → Key → Bool) (k : Key) (ops : List (Op Key)) : Prop :=
  ∃ pre k1 post, ops = pre ++ Op.ins k1 :: post ∧ Equiv lt k k1 ∧
    ∀ k2, Op.era k2 ∈ post → ¬ Equiv lt k k2

/-- Relation `PathLen s p h`: some path from `p` down to a null link passes
through exactly `h` nodes. -/
inductive PathLen (s : set Key) : Option Nat → Nat → Prop where
  | null : PathLen s none 0
  | left {a : Nat} {n : rbnode Key} {h : Nat} :
      s.mem a = some n → PathLen s n.left h → PathLen s (some a) (h + 1)
  | right {a : Nat} {n : rbnode Key} {h : Nat} :
      s.mem a = some n → PathLen s n.right h → PathLen s (some a) (h + 1)

/-! ### Allocations -/

/-- The same addresses hold a node in `s1` as in `s`: nothing was allocated or
released in between. -/
def SameDom (s s1 : set Key) : Prop := ∀ a, (s1.mem a).isSome = (s.mem a).isSome

/-- Number of nodes allocated and not yet released.  Every allocation hands out
the address `next` and advances it, so the live nodes lie below `next`. -/
def live (s : set Key) : Nat :=
  ((List.range s.next).filter (fun a => (s.mem a).isSome)).length

/-- The loop of `clear`, returning also the list of the addresses passed to
`allocator_.deallocate`, in the order of the calls. -/
def clear_loop_log : Nat → set Key → Option Nat → Option (set Key × List Nat)
  | _, s, none => some (s, [])
  | 0, _, some _ => none
  | f + 1, s, some a =>
    match s.mem a with
    | none => none
    | some x =>
      if x.left ≠ none then clear_loop_log f s x.left
      else if x.right ≠ none then clear_loop_log f s x.right
      else
        -- n is a leaf
        let parent := x.parent
        let s1 := s.free a
        match parent with
        | none =>
          match clear_loop_log f s1 none with
          | none => none
          | some r => some (r.1, a :: r.2)
        | some p =>
          match s1.mem p with
          | none => none
          | some pn =>
            match (if pn.left = some a then set_left s1 parent none
                   else set_right s1 parent none) with
            | none => none
            | some s2 =>
              match clear_loop_log f s2 parent with
              | none => none
              | some r => some (r.1, a :: r.2)

/-- Source function `clear()`, returning also the list of the addresses
deallocated. -/
def clear_log (s : set Key) : Option (set Key × List Nat) :=
  match clear_loop_log (2 * s.size_ + 1) s s.root_ with
  | none => none
  | some r => some ({ r.1 with root_ := none, size_ := 0 }, r.2)

/-! ### The operations with a bound on the number of loop iterations -/

/-- Source function `insert(t)` with the duplicate search and the re-balancing loop each
limited to `fuel` iterations; `insert` is the same text with `size_` as the
limit.  The allocator hands out the address `next`. -/
def insert_bounded (fuel : Nat) (lt : Key → Key → Bool) (t : Key) (s : set Key) :
    Option (set Key × (Option Nat × Bool)) := do
  let r ← insert_descend lt t s fuel s.root_ s.root_
  let pos := r.1
  if r.2 = none then
    -- need to insert a new value
    let n := some s.next
    let a ← n
    let s := { s with next := s.next + 1 }
    if s.root_ = none then
      -- special case: empty tree
      let s := s.write a
        { value := t, color := RED, left := none, right := none, parent := none }
      let s := { s with root_ := n }
      let s ← set_color s s.root_ BLACK
      pure ({ s with size_ := s.size_ + 1 }, (n, decide (n ≠ pos)))
    else
      -- standard BST insertion
      let parent := pos
      let s := s.write a
        { value := t, color := RED, left := none, right := none, parent := parent }
      let nn ← deref s n
      let pn ← deref s parent
      let less := lt nn.value pn.value
      let s ← (if less then set_left s parent n else set_right s parent n)
      -- Walk back up the tree and re-balance
      let child := parent
      let cn ← deref s child
      let s ← insert_loop fuel s cn.parent child
      let s ← set_color s s.root_ BLACK
      pure ({ s with size_ := s.size_ + 1 }, (n, decide (n ≠ pos)))
  else
    pure (s, (r.2, decide (r.2 ≠ pos)))

/-- The `// rebalancing` block of `erase(iterator)` with the loop limited to
`fuel` iterations. -/
def erase_rebalance_bounded (fuel : Nat) (s : set Key) (parent child : Option Nat)
    (color : Bool) : Option (set Key) :=
  if color = BLACK then
    match is_red s child with
    | none => none
    | some cr =>
      if cr then set_color s child BLACK
      else
        -- case 1: if child is the tree parent, we are done
        erase_loop fuel s parent child
  else some s

/-- The unlinking part of `erase(iterator)` with the re-balancing loop limited
to `fuel` iterations. -/
def erase_unlink_bounded (fuel : Nat) (s : set Key) (n : Option Nat) : Option (set Key) :=
  let root := n
  match deref s root with
  | none => none
  | some rn =>
    let parent := rn.parent
    let child := rn.left
    let color := rn.color
    match (if child = none then
             -- the node does not have a left child
             some (s, root, parent, rn.right, color)
           else if rn.right ≠ none then
             -- the node has two children
             erase_splice s root parent child
           else some (s, root, parent, child, color)) with
    | none => none
    | some st =>
      match replace_child st.1 st.2.2.1 st.2.1 st.2.2.2.1 with
      | none => none
      | some s =>
        match (if st.2.2.2.1 ≠ none then set_parent s st.2.2.2.1 st.2.2.1 else some s) with
        | none => none
        | some s => erase_rebalance_bounded fuel s st.2.2.1 st.2.2.2.1 st.2.2.2.2

/-- Source function `erase(iterator)` with the re-balancing loop limited to `fuel`
iterations. -/
def erase_bounded (fuel : Nat) (s : set Key) (itr : Option Nat) :
    Option (set Key × Option Nat) :=
  -- standard BST deletion
  let n := itr
  match increment s itr with
  | none => none
  | some itr =>
    match erase_unlink_bounded fuel s n with
    | none => none
    | some s =>
      match erase_cleanup s n with
      | none => none
      | some s => some (s, itr)

/-- The red-black conditions on the heap of `s`: the root is BLACK and has no
parent; every child link of a node of the tree refers to a stored node that
points back and that is BLACK if the node is RED; every node has one black
height; the in-order key sequence is strictly increasing; `size()` counts the
nodes. -/
def RedBlack (lt : Key → Key → Bool) (s : set Key) : Prop :=
  (∀ b, s.root_ = some b → ∃ n, s.mem b = some n ∧ n.color = BLACK ∧ n.parent = none) ∧
  (∀ a n, IsNode s a → s.mem a = some n → ∀ b, (n.left = some b ∨ n.right = some b) →
    ∃ m, s.mem b = some m ∧ m.parent = some a ∧ (n.color = RED → m.color = BLACK)) ∧
  (∀ a, IsNode s a → ∃ k, BlackPath s (some a) k ∧ ∀ k1, BlackPath s (some a) k1 → k1 = k) ∧
  (∃ ks, Inorder s s.root_ ks ∧ Sorted lt ks) ∧
  (∃ l : List Nat, l.Nodup ∧ (∀ a, a ∈ l ↔ IsNode s a) ∧ size s = l.length)

/-- The keys read by the loop `while(itr != end) { *itr; ++itr; }` started at
`begin()`. -/
def inorder_keys (s : set Key) : Option (List Key) :=
  match begin_ s with
  | none => none
  | some b =>
    match walk s (size s) b with
    | none => none
    | some l => some (l.map Prod.snd)

/-- The state after `erase(k)`; the state itself if the call did not return. -/
def after_erase_key (lt : Key → Key → Bool) (k : Key) (s : set Key) : set Key :=
  match erase_key lt k s with
  | some r => r.1
  | none => s

/-! ### The scenario: insert 5,3,8,1,4,7,9,2,6,0, then erase 3, 8, 0 -/

/-- The values inserted in the scenario, in order. -/
def scenario_inserts : List Nat := [5, 3, 8, 1, 4, 7, 9, 2, 6, 0]

/-- The calls of the scenario, in order. -/
def scenario : List (Op Nat) :=
  scenario_inserts.map Op.ins ++ [Op.era 3, Op.era 8, Op.era 0]

/-- The empty integer set at the start of the scenario. -/
def sc0 : set Nat := set.empty

/-- The set of the scenario after 1 calls. -/
def sc1 : set Nat := after_insert ltN 5 sc0

/-- The set of the scenario after 2 calls. -/
def sc2 : set Nat := after_insert ltN 3 sc1

/-- The set of the scenario after 3 calls. -/
def sc3 : set Nat := after_insert ltN 8 sc2

/-- The set of the scenario after 4 calls. -/
def sc4 : set Nat := after_insert ltN 1 sc3

/-- The set of the scenario after 5 calls. -/
def sc5 : set Nat := after_insert ltN 4 sc4

/-- The set of the scenario after 6 calls. -/
def sc6 : set Nat := after_insert ltN 7 sc5

/-- The set of the scenario after 7 calls. -/
def sc7 : set Nat := after_insert ltN 9 sc6

/-- The set of the scenario after 8 calls. -/
def sc8 : set Nat := after_insert ltN 2 sc7

/-- The set of the scenario after 9 calls. -/
def sc9 : set Nat := after_insert ltN 6 sc8

/-- The set of the scenario after 10 calls. -/
def sc10 : set Nat := after_insert ltN 0 sc9

/-- The set of the scenario after 11 calls. -/
def sc11 : set Nat := after_erase_key ltN 3 sc10

/-- The set of the scenario after 12 calls. -/
def sc12 : set Nat := after_erase_key ltN 8 sc11

/-- The set of the scenario after 13 calls. -/
def sc13 : set Nat := after_erase_key ltN 0 sc12

end taapp

namespace taapp

variable {Key : Type}
open NodeTree

/-! ## The insertion procedure as the specification words it -/

/-- The insertion fix-up of the specification (section 4.2, step 3) on the new
or recoloured node `z` below the path `p :: g :: ctx` (`p` its parent, `g` its
grandparent): while the parent exists and is RED, if the parent's sibling is
RED recolour parent and sibling BLACK and the grandparent RED and continue from
the grandparent; else rotate (twice for an inner grandchild) and stop.  The
rotation primitive sets the colours as section 4.4 says: outgoing root RED,
new root BLACK. -/
def spec_insert_fixup : List (Frame Key) → NodeTree Key → NodeTree Key
  | p :: g :: ctx, z =>
    if p.c = RED then
      if g.sib.isRed then
        spec_insert_fixup ctx
          (NodeTree.mk g.dir g.id RED (NodeTree.mk p.dir p.id BLACK z p.v p.sib) g.v
            (g.sib.paint BLACK))
      else if p.dir = g.dir then plug ctx ((g.fill (p.fill z)).rot (!g.dir))
      else plug ctx ((g.fill (p.fill z)).drot (!g.dir))
    else plug (p :: g :: ctx) z
  | ctx, z => plug ctx z

/-- The insertion of the specification (section 4.2): descend as in find; an
equivalent key leaves the tree as it is; else link a RED leaf with the fresh
address `a`, run the fix-up from it and colour the root BLACK. -/
def spec_insert (lt : Key → Key → Bool) (k : Key) (a : Nat) (T : NodeTree Key) :
    NodeTree Key :=
  match zoom lt k T [] with
  | (node _ _ _ _ _, _) => T
  | (nil, ctx) => (spec_insert_fixup ctx (node a RED nil k nil)).paint BLACK

/-- The tree of the scenario after 8 calls (insert 5, 3, 8, 1, 4, 7, 9, 2). -/
def sc8_tree : NodeTree Nat :=
  node 0 BLACK
    (node 1 RED (node 3 BLACK nil 1 (node 7 RED nil 2 nil)) 3 (node 4 BLACK nil 4 nil))
    5
    (node 2 BLACK (node 5 RED nil 7 nil) 8 (node 6 RED nil 9 nil))

/-- The tree the specification's procedure gives for `insert(6)` on `sc8_tree`. -/
def sc9_spec_tree : NodeTree Nat :=
  node 0 BLACK
    (node 1 RED (node 3 BLACK nil 1 (node 7 RED nil 2 nil)) 3 (node 4 BLACK nil 4 nil))
    5
    (node 2 RED (node 5 BLACK (node 8 RED nil 6 nil) 7 nil) 8 (node 6 BLACK nil 9 nil))

/-- The tree `insert(6)` leaves in the scenario. -/
def sc9_tree : NodeTree Nat :=
  node 0 BLACK
    (node 1 BLACK (node 3 BLACK nil 1 (node 7 RED nil 2 nil)) 3 (node 4 BLACK nil 4 nil))
    5
    (node 2 BLACK (node 5 BLACK (node 8 RED nil 6 nil) 7 nil) 8 (node 6 BLACK nil 9 nil))

/-- Sixteen keys after whose insertion the procedure of the specification and
`insert` leave trees of different shape for the key 7. -/
def shape_keys : List Nat := [5, 16, 1, 17, 12, 15, 4, 14, 2, 11, 13, 8, 10, 6, 9, 3]

/-- The set after `insert` of the keys `shape_keys`, in this order, into the
empty set. -/
def shape_set : set Nat := shape_keys.foldl (fun s k => after_insert ltN k s) set.empty

/-- The tree and the next fresh address after `insert` of the keys `ks`, in
this order, into the tree `p.1` with the next fresh address `p.2`. -/
def insT_all (lt : Key → Key → Bool) : List Key → NodeTree Key × Nat → NodeTree Key × Nat
  | [], p => p
  | k :: ks, p =>
    insT_all lt ks (insT lt k p.2 p.1,
      match (zoom lt k p.1 []).1 with
      | nil => p.2 + 1
      | node _ _ _ _ _ => p.2)

/-- The tree of `shape_set`. -/
def shape_tree : NodeTree Nat :=
  node 7 BLACK
    (node 12 RED
      (node 0 BLACK
        (node 8 RED (node 2 BLACK nil 1 nil) 2 (node 6 BLACK (node 15 RED nil 3 nil) 4 nil))
        5
        (node 11 BLACK (node 13 RED nil 6 nil) 8 (node 14 RED nil 9 nil)))
      10
      (node 4 BLACK (node 9 BLACK nil 11 nil) 12 (node 10 BLACK nil 13 nil)))
    14
    (node 1 BLACK (node 5 BLACK nil 15 nil) 16 (node 3 BLACK nil 17 nil))

end taapp

namespace taapp

/-! ## The container `taapp::vector`

Shallow embedding of `include/taapp/vector.h`.

* A `T*` is an address counted in elements; `0` is `NULL`.  The three pointers
  `begin_`, `end_`, `capacity_` are kept as in the class, and `slots` is the
  storage of the buffer `begin_[0 .. capacity())`.
* A slot is `none` while no element is constructed in it; reading such a slot
  with the element type's copy or assignment, and any access outside the
  buffer, yields `none` (undefined behaviour in the source).  `memmove` copies
  slots as they are.
* A failed `assert` yields `none`.
* The allocator's answer is the argument `fresh` of the functions that can
  call it; a null answer is `fresh = 0`.
* A parameter of type `const T&` is a `cref`: the caller passes either an
  object that lives outside the buffer or an element of the vector itself, as
  in `v.insert(v.begin(), v[2])`.  The function reads it where the source
  reads it, in the state of that moment. -/

/-- The compile-time traits `TRIVIAL_ASSIGN`, `TRIVIAL_COPY`,
`TRIVIAL_CONSTRUCTOR`, `TRIVIAL_DESTRUCTOR` of the element type. -/
structure vtraits where
  TRIVIAL_ASSIGN : Bool
  TRIVIAL_COPY : Bool
  TRIVIAL_CONSTRUCTOR : Bool
  TRIVIAL_DESTRUCTOR : Bool

/-- The fields of `vector<T>` and the storage of its buffer. -/
structure vector (T : Type) where
  begin_ : Nat
  end_ : Nat
  capacity_ : Nat
  slots : List (Option T)

namespace vector

variable {T : Type}

/-- The constructor `vector() : begin_(NULL), end_(NULL), capacity_(NULL)`. -/
def empty_vector : vector T := { begin_ := 0, end_ := 0, capacity_ := 0, slots := [] }

/-- Source function `size()`: `end_ - begin_`. -/
def size (v : vector T) : Nat := v.end_ - v.begin_

/-- Source function `capacity()`: `capacity_ - begin_`. -/
def capacity (v : vector T) : Nat := v.capacity_ - v.begin_

/-- Source function `empty()`: `begin_ == end_`. -/
def empty (v : vector T) : Bool := decide (v.begin_ = v.end_)

/-- The address `p` lies in the buffer. -/
def inbuf (v : vector T) (p : Nat) : Bool :=
  decide (v.begin_ ≠ 0 ∧ v.begin_ ≤ p ∧ p < v.capacity_ ∧ p - v.begin_ < v.slots.length)

/-- Read the element at `p`: `*p` as an rvalue. -/
def load (v : vector T) (p : Nat) : Option T :=
  if v.inbuf p then (v.slots.getD (p - v.begin_) none) else none

/-- An argument of type `const T&`: a reference to an object outside the
buffer, whose value is `x`, or a reference to the storage at the address `p`,
as `front()`, `back()` and `operator[]` return it. -/
inductive cref (T : Type) where
  | obj (x : T)
  | elem (p : Nat)

/-- Read through a reference.  An outside object gives its value; a reference
to the address `p` reads what the storage holds at `p` now, and yields `none`
if `p` is no address of the present buffer (the block it pointed into has been
released) or no element lives there. -/
def deref (v : vector T) : cref T → Option T
  | cref.obj x => some x
  | cref.elem p => v.load p

/-- Assign or construct the element at `p`: `*p = x`, `construct(p, x)`. -/
def store (v : vector T) (p : Nat) (x : T) : Option (vector T) :=
  if v.inbuf p then some { v with slots := v.slots.set (p - v.begin_) (some x) } else none

/-- Source function `allocator_.destroy(p)`: the element's lifetime ends. -/
def destroy (v : vector T) (p : Nat) : Option (vector T) :=
  if v.inbuf p then some { v with slots := v.slots.set (p - v.begin_) none } else none

/-- Source operator `operator[]` with its assertion `begin_ + index < end_`. -/
def at_ (v : vector T) (index : Nat) : Option T :=
  if v.begin_ + index < v.end_ then v.load (v.begin_ + index) else none

/-- The storage after `memmove(begin_ + d, begin_ + s, n elements)`: every
target slot gets what the source slot held before the call. -/
def moved (sl : List (Option T)) (d s n : Nat) : List (Option T) :=
  (List.range sl.length).map
    (fun i => if d ≤ i ∧ i < d + n then sl.getD (s + (i - d)) none else sl.getD i none)

/-- Library function `memmove(dst, src, n * sizeof(T))`; both ranges have to lie in
the buffer unless `n` is zero. -/
def memmove (v : vector T) (dst src n : Nat) : Option (vector T) :=
  if n = 0 then some v
  else if v.inbuf dst ∧ v.inbuf src ∧ v.inbuf (dst + n - 1) ∧ v.inbuf (src + n - 1) then
    some { v with slots := moved v.slots (dst - v.begin_) (src - v.begin_) n }
  else none

/-- The loop of `erase` for an element type without trivial assignment:
`while(itr != end) { *itr = *(itr + 1); ++itr; }`. -/
def erase_loop : Nat → vector T → Nat → Nat → Option (vector T)
  | fuel, v, itr, e =>
    if itr ≠ e then
      match fuel with
      | 0 => none
      | f + 1 =>
        match v.load (itr + 1) with
        | none => none
        | some x =>
          match v.store itr x with
          | none => none
          | some v1 => erase_loop f v1 (itr + 1) e
    else some v

/-- Source function `erase(it)`; the result is the new state and the iterator returned. -/
def erase (tr : vtraits) (v : vector T) (it : Nat) : Option (vector T × Nat) :=
  if it ≥ v.begin_ ∧ it < v.end_ then
    let e := v.end_ - 1
    let v := { v with end_ := e }
    match (if tr.TRIVIAL_ASSIGN then v.memmove it (it + 1) (e - it)
           else erase_loop (e - it) v it e) with
    | none => none
    | some v =>
      match v.destroy v.end_ with
      | none => none
      | some v => some (v, it)
  else none

/-- Source function `increment_capacity(c)`. -/
def increment_capacity (c : Nat) : Nat :=
  if c < 64 then (if c = 0 then 8 else c * 2) else c + 64

/-- Source function `construct_range(begin, end)`: default elements, unless the constructor
is trivial; `dflt` is the value of `T t;`. -/
def construct_range (tr : vtraits) (dflt : T) : Nat → vector T → Nat → Nat → Option (vector T)
  | fuel, v, b, e =>
    if tr.TRIVIAL_CONSTRUCTOR then some v
    else if b < e then
      match fuel with
      | 0 => none
      | f + 1 =>
        match v.store b dflt with
        | none => none
        | some v1 => construct_range tr dflt f v1 (b + 1) e
    else some v

/-- Source function `destroy_range(begin, end)`. -/
def destroy_range (tr : vtraits) : Nat → vector T → Nat → Nat → Option (vector T)
  | fuel, v, b, e =>
    if tr.TRIVIAL_DESTRUCTOR then some v
    else if b < e then
      match fuel with
      | 0 => none
      | f + 1 =>
        match v.destroy b with
        | none => none
        | some v1 => destroy_range tr f v1 (b + 1) e
    else some v

/-- The loop of `copyconstruct_range(buffer, buffer + sz, begin_)` for an
element type without trivial copy: the elements of `v` from `src` on are
copy-constructed into the new storage `buf` from index `i` up to `sz`. -/
def copyconstruct_loop (v : vector T) : Nat → List (Option T) → Nat → Nat → Nat →
    Option (List (Option T))
  | fuel, buf, i, sz, src =>
    if i < sz then
      match fuel with
      | 0 => none
      | f + 1 =>
        match v.load src with
        | none => none
        | some x =>
          if i < buf.length then copyconstruct_loop v f (buf.set i (some x)) (i + 1) sz (src + 1)
          else none
    else some buf

/-- Source function `copyconstruct_range(buffer, buffer + sz, begin_)` into the new storage
`buf`: `memcpy` for a trivially copyable type, the loop otherwise. -/
def copyconstruct_range (tr : vtraits) (v : vector T) (buf : List (Option T)) (sz : Nat) :
    Option (List (Option T)) :=
  if tr.TRIVIAL_COPY then
    if sz = 0 then some buf
    else if sz ≤ buf.length ∧ v.inbuf v.begin_ ∧ v.inbuf (v.begin_ + sz - 1) then
      some ((List.range buf.length).map
        (fun i => if i < sz then v.slots.getD i none else buf.getD i none))
    else none
  else copyconstruct_loop v sz buf 0 sz v.begin_

/-- Source function `reallocate(old_capacity, new_capacity)`; `fresh` is the address the
allocator returns.  `realloc` keeps the first `min(old, new)` slots. -/
def reallocate (tr : vtraits) (fresh : Nat) (v : vector T) (_old_capacity new_capacity : Nat) :
    Option (vector T) :=
  let sz := v.size
  match (if tr.TRIVIAL_COPY && tr.TRIVIAL_ASSIGN then
           some ((List.range new_capacity).map (fun i => v.slots.getD i none))
         else if v.begin_ ≠ 0 then
           match copyconstruct_range tr v (List.replicate new_capacity none) sz with
           | none => none
           | some buf =>
             match destroy_range tr sz v v.begin_ v.end_ with
             | none => none
             | some _ => some buf
         else some (List.replicate new_capacity none)) with
  | none => none
  | some buf =>
    some { begin_ := fresh, end_ := fresh + sz, capacity_ := fresh + new_capacity, slots := buf }

/-- Source function `resize(size)`. -/
def resize (tr : vtraits) (dflt : T) (fresh : Nat) (v : vector T) (size : Nat) :
    Option (vector T) :=
  let c := v.capacity
  match (if size > c then
           let new_capacity := increment_capacity c
           let new_capacity := if new_capacity < size then size else new_capacity
           reallocate tr fresh v c new_capacity
         else some v) with
  | none => none
  | some v =>
    let e := v.begin_ + size
    match construct_range tr dflt size v v.end_ e with
    | none => none
    | some v1 =>
      match destroy_range tr v.size v1 e v1.end_ with
      | none => none
      | some v2 => some { v2 with end_ := e }

/-- The loop of `insert` for an element type without trivial assignment:
`while(itr != pos) { *itr = *(itr - 1); --itr; }`. -/
def insert_loop : Nat → vector T → Nat → Nat → Option (vector T)
  | fuel, v, itr, pos =>
    if itr ≠ pos then
      match fuel with
      | 0 => none
      | f + 1 =>
        match v.load (itr - 1) with
        | none => none
        | some x =>
          match v.store itr x with
          | none => none
          | some v1 => insert_loop f v1 (itr - 1) pos
    else some v

/-- Source function `insert(pos, const T& t)`; the result is the new state and the
iterator returned.  The reference `t` is read by the last statement,
`*pos = t`, after `resize` and after the elements have been moved. -/
def insert (tr : vtraits) (dflt : T) (fresh : Nat) (v : vector T) (pos : Nat) (t : cref T) :
    Option (vector T × Nat) :=
  if pos ≥ v.begin_ ∧ pos ≤ v.end_ then
    let off := pos - v.begin_
    match resize tr dflt fresh v (v.size + 1) with
    | none => none
    | some v =>
      -- resize may invalidate pos, so need to recalculate it
      let pos := v.begin_ + off
      match (if tr.TRIVIAL_ASSIGN then v.memmove (pos + 1) pos (v.end_ - (pos + 1))
             else insert_loop v.size v (v.end_ - 1) pos) with
      | none => none
      | some v =>
        match v.deref t with
        | none => none
        | some x =>
          match v.store pos x with
          | none => none
          | some v => some (v, pos)
  else none

/-- Source function `push_back(const T& t)`: `reallocate` if the buffer is full, then
`allocator_.construct(end_++, t)`, which reads the reference `t`. -/
def push_back (tr : vtraits) (fresh : Nat) (v : vector T) (t : cref T) : Option (vector T) :=
  match (if v.capacity_ = v.end_ then
           let c := v.capacity
           reallocate tr fresh v c (increment_capacity c)
         else some v) with
  | none => none
  | some v =>
    match v.deref t with
    | none => none
    | some x =>
      match v.store v.end_ x with
      | none => none
      | some v1 => some { v1 with end_ := v1.end_ + 1 }

/-- Source function `pop_back()`: `assert(begin_ != end_); --end_; allocator_.destroy(end_)`. -/
def pop_back (v : vector T) : Option (vector T) :=
  if v.begin_ ≠ v.end_ then
    let v := { v with end_ := v.end_ - 1 }
    v.destroy v.end_
  else none

/-- Source function `back()`: the reference `*(end_ - 1)`. -/
def back (v : vector T) : cref T := cref.elem (v.end_ - 1)

/-- Source function `front()`: the reference `*begin_`. -/
def front (v : vector T) : cref T := cref.elem v.begin_

/-- The elements of the vector in order: what its first `size()` slots hold. -/
def contents (v : vector T) : List T := (v.slots.take v.size).filterMap id

/-- The vector `v` holds the element sequence `xs`: the pointers are ordered,
`slots` is the buffer, its first `size()` slots hold the elements of `xs` and a
null `begin_` goes with no buffer. -/
def Holds (v : vector T) (xs : List T) : Prop :=
  v.begin_ ≤ v.end_ ∧ v.end_ ≤ v.capacity_ ∧ v.slots.length = v.capacity_ - v.begin_ ∧
  xs.length = v.end_ - v.begin_ ∧
  (∀ (i : Nat) (x : T), xs[i]? = some x → v.slots[i]? = some (some x)) ∧
  (v.begin_ = 0 → v.capacity_ = 0)

/-- The vector `v` holds the element sequence `xs` and no element lives in
its storage from `end_` on, as it is after the constructor and after every
`push_back` and `pop_back`. -/
def HoldsOnly (v : vector T) (xs : List T) : Prop :=
  Holds v xs ∧ ∀ (i : Nat), xs.length ≤ i → v.slots.getD i none = none

end vector

end taapp

namespace taapp

/-! ## The container adaptor `taapp::priority_queue`

Shallow embedding of `include/taapp/priority_queue.h`.  The template
parameter `Container` is `taapp::vector`, as in the tests; it is used through
`push_back`, `pop_back`, `back`, `front`, `size`, `empty` and the pointer
`begin()`, and `heap + i` is the address of the element at index `i`.  The
indices are `ptrdiff_t` values: integers, where `>> 1` is the division by two
that rounds down (`(0 - 1) >> 1` is `-1`) and, on the indices of `pop`, which
are not negative, `<< 1` is the multiplication by two.  The parameter
`const T& n` of `push` is a `cref`, read where the source reads it: by
`push_back` and by each `*node = n` of the loop.  An access outside the buffer
and a failed `assert` yield `none`. -/

/-- The field `container_` of `priority_queue<T, Container, Compare>`; the
comparator `compare_` is the argument `lt` of the operations. -/
structure priority_queue (T : Type) where
  container_ : vector T

namespace priority_queue

variable {T : Type}

/-- The constructor `priority_queue()`. -/
def empty_queue : priority_queue T := { container_ := vector.empty_vector }

/-- Source function `empty()`. -/
def empty (q : priority_queue T) : Bool := q.container_.empty

/-- Source function `size()`. -/
def size (q : priority_queue T) : Nat := q.container_.size

/-- Source function `top()`: the reference `container_.front()`. -/
def top (q : priority_queue T) : vector.cref T := q.container_.front

/-- The loop of `push`: `while(parentindex >= 0)`.  `node` is `heap + index`
and `parent` is `heap + parentindex`. -/
def push_loop (lt : T → T → Bool) (n : vector.cref T) :
    Nat → vector T → Nat → Int → Int → Option (vector T)
  | fuel, c, heap, index, parentindex =>
    if parentindex ≥ 0 then
      match fuel with
      | 0 => none
      | f + 1 =>
        match c.load (heap + parentindex.toNat) with
        | none => none
        | some parent =>
          match c.load (heap + index.toNat) with
          | none => none
          | some node =>
            -- if the parent is less than node, swap them
            if lt parent node then
              -- `*node = *parent;`
              match c.store (heap + index.toNat) parent with
              | none => none
              | some c =>
                -- `node = parent; *node = n;`
                match c.deref n with
                | none => none
                | some x =>
                  match c.store (heap + parentindex.toNat) x with
                  | none => none
                  | some c => push_loop lt n f c heap parentindex ((parentindex - 1) / 2)
            else some c
    else some c

/-- Source function `push(const T& n)`; `tr` are the traits of the element type and
`fresh` is the address the allocator returns if `push_back` reallocates. -/
def push (tr : vtraits) (fresh : Nat) (lt : T → T → Bool) (q : priority_queue T) (n : vector.cref T) :
    Option (priority_queue T) :=
  let index : Int := q.container_.size
  let parentindex : Int := (index - 1) / 2
  match q.container_.push_back tr fresh n with
  | none => none
  | some c =>
    let heap := c.begin_
    match push_loop lt n c.size c heap index parentindex with
    | none => none
    | some c => some { container_ := c }

/-- The first statement of the body of the loop of `pop`,
`if(childindex + 1 < end) { ... }`: it chooses the greater of either left
child or right child and yields the new `childindex` and `*child`. -/
def greater_child (lt : T → T → Bool) (c : vector T) (heap childindex e : Nat) (child : T) :
    Option (Nat × T) :=
  if childindex + 1 < e then
    match c.load (heap + (childindex + 1)) with
    | none => none
    | some rightchild =>
      if lt child rightchild then some (childindex + 1, rightchild)
      else some (childindex, child)
  else some (childindex, child)

/-- The loop of `pop`: `while(childindex < end)`. -/
def pop_loop (lt : T → T → Bool) (node : T) :
    Nat → vector T → Nat → Nat → Nat → Nat → Option (vector T)
  | fuel, c, heap, index, childindex, e =>
    if childindex < e then
      match fuel with
      | 0 => none
      | f + 1 =>
        match c.load (heap + childindex) with
        | none => none
        | some child =>
          match greater_child lt c heap childindex e child with
          | none => none
          | some g =>
            -- if the node is less than the child, swap them
            if lt node g.2 then
              -- `heap[index] = *child; heap[childindex] = node;`
              match c.store (heap + index) g.2 with
              | none => none
              | some c =>
                match c.store (heap + g.1) node with
                | none => none
                | some c => pop_loop lt node f c heap g.1 (g.1 * 2 + 1) e
            else some c
    else some c

/-- Source function `pop()`. -/
def pop (lt : T → T → Bool) (q : priority_queue T) : Option (priority_queue T) :=
  if q.container_.size > 0 then
    -- `T node(container_.back());`
    match q.container_.deref q.container_.back with
    | none => none
    | some node =>
      match q.container_.pop_back with
      | none => none
      | some c =>
        if c.size > 0 then
          let e := c.size
          let heap := c.begin_
          -- replace the item at the front of the heap with the item at the end
          match c.store heap node with
          | none => none
          | some c =>
            match pop_loop lt node e c heap 0 (0 * 2 + 1) e with
            | none => none
            | some c => some { container_ := c }
        else some { container_ := c }
  else none

/-- The loop `while(!q.empty()) { x = q.top(); q.pop(); }`: the list of the
values read. -/
def drain (lt : T → T → Bool) : Nat → priority_queue T → Option (List T)
  | fuel, q =>
    if q.empty then some []
    else
      match fuel with
      | 0 => none
      | f + 1 =>
        match q.container_.deref q.top with
        | none => none
        | some t =>
          match pop lt q with
          | none => none
          | some q1 =>
            match drain lt f q1 with
            | none => none
            | some l => some (t :: l)

/-- The queues reachable from the empty queue by `push` and `pop`, whatever
the argument of `push` refers to and whatever block the allocator returns. -/
inductive Reachable (tr : vtraits) (lt : T → T → Bool) : priority_queue T → Prop where
  | empty : Reachable tr lt empty_queue
  | push {q q1 : priority_queue T} {fresh : Nat} {n : vector.cref T} :
      Reachable tr lt q → push tr fresh lt q n = some q1 → Reachable tr lt q1
  | pop {q q1 : priority_queue T} :
      Reachable tr lt q → pop lt q = some q1 → Reachable tr lt q1

/-! ### The operations on the sequence of the elements

Abstract counterparts of the loops: what they do to the sequence `heap` of the
elements when every read of the reference `n` yields the value `n`. -/

/-- Effect of the loop of `push` on the sequence of the elements. -/
def sift_up (lt : T → T → Bool) (n : T) : Nat → List T → Int → Int → Option (List T)
  | fuel, heap, index, parentindex =>
    if parentindex ≥ 0 then
      match fuel with
      | 0 => none
      | f + 1 =>
        match heap[parentindex.toNat]? with
        | none => none
        | some parent =>
          match heap[index.toNat]? with
          | none => none
          | some node =>
            if lt parent node then
              let heap := (heap.set index.toNat parent).set parentindex.toNat n
              sift_up lt n f heap parentindex ((parentindex - 1) / 2)
            else some heap
    else some heap

/-- Effect of `push` of the value `n` on the sequence of the elements. -/
def pushed (lt : T → T → Bool) (xs : List T) (n : T) : Option (List T) :=
  let index : Int := xs.length
  let parentindex : Int := (index - 1) / 2
  let heap := xs ++ [n]
  sift_up lt n heap.length heap index parentindex

/-- The choice of the greater child on the sequence of the elements. -/
def greater_of (lt : T → T → Bool) (heap : List T) (childindex e : Nat) (child : T) :
    Option (Nat × T) :=
  if childindex + 1 < e then
    match heap[childindex + 1]? with
    | none => none
    | some rightchild =>
      if lt child rightchild then some (childindex + 1, rightchild)
      else some (childindex, child)
  else some (childindex, child)

/-- Effect of the loop of `pop` on the sequence of the elements. -/
def sift_down (lt : T → T → Bool) (node : T) :
    Nat → List T → Nat → Nat → Nat → Option (List T)
  | fuel, heap, index, childindex, e =>
    if childindex < e then
      match fuel with
      | 0 => none
      | f + 1 =>
        match heap[childindex]? with
        | none => none
        | some child =>
          match greater_of lt heap childindex e child with
          | none => none
          | some c =>
            if lt node c.2 then
              let heap := (heap.set index c.2).set c.1 node
              sift_down lt node f heap c.1 (c.1 * 2 + 1) e
            else some heap
    else some heap

/-- Effect of `pop` on the sequence of the elements. -/
def popped (lt : T → T → Bool) (xs : List T) : Option (List T) :=
  if xs.length > 0 then
    match xs.getLast? with
    | none => none
    | some node =>
      let c := xs.dropLast
      if c.length > 0 then
        let heap := c.set 0 node
        sift_down lt node c.length heap 0 (0 * 2 + 1) c.length
      else some c
  else none

/-- The heap condition: no element is less than its child, the parent of the
element at index `j > 0` being the one at index `(j - 1) / 2`. -/
def IsHeap (lt : T → T → Bool) (h : List T) : Prop :=
  ∀ (j : Nat) (x y : T), 0 < j → h[(j - 1) / 2]? = some x → h[j]? = some y → lt x y = false

end priority_queue

end taapp

namespace taapp

/-! ## The container `taapp::list`

Shallow embedding of `include/taapp/list.h`.

* A pointer is an address; `0` is `NULL`.  The memory maps an address to the
  `tnode` stored there, or to `none` where nothing is allocated.  Several
  lists live in one memory, as `splice` needs.
* A list object is the address of its member `anchor_`.  The anchor is an
  `anode`: it has the two links and no `value`.
* An access through an address that holds nothing, and the destruction of a
  value that is not there, yield `none` (undefined behaviour in the source).
* The allocator's answer is the argument `fresh` of the functions that call
  it; a null answer is `fresh = 0`. -/

/-- The struct `list::tnode`: the links `aprev` and `anext` of its member
`node` and the `value`.  The pointers `tprev` and `tnext` of the union are the
same two links.  For the `anode` that is the anchor of a list `value` is
`none`. -/
structure tnode (T : Type) where
  aprev : Nat
  anext : Nat
  value : Option T

namespace list

variable {T : Type}

/-- The memory: the `tnode` at each address. -/
abbrev memory (T : Type) := Nat → Option (tnode T)

/-- Store a node at `p`. -/
def write (m : memory T) (p : Nat) (c : tnode T) : memory T :=
  fun x => if x = p then some c else m x

/-- Release the storage at `p`. -/
def free (m : memory T) (p : Nat) : memory T :=
  fun x => if x = p then none else m x

/-- Read `p->aprev` (the same as `p->tprev`). -/
def aprev (m : memory T) (p : Nat) : Option Nat :=
  match m p with
  | none => none
  | some c => some c.aprev

/-- Read `p->anext` (the same as `p->tnext`). -/
def anext (m : memory T) (p : Nat) : Option Nat :=
  match m p with
  | none => none
  | some c => some c.anext

/-- Read `p->value`. -/
def value (m : memory T) (p : Nat) : Option T :=
  match m p with
  | none => none
  | some c => c.value

/-- The assignment `p->aprev = v`. -/
def set_aprev (m : memory T) (p v : Nat) : Option (memory T) :=
  match m p with
  | none => none
  | some c => some (write m p { c with aprev := v })

/-- The assignment `p->anext = v`. -/
def set_anext (m : memory T) (p v : Nat) : Option (memory T) :=
  match m p with
  | none => none
  | some c => some (write m p { c with anext := v })

/-- The two statements `tnode* n = allocator_.allocate(1);` and
`new(&n->value) constructor(t);` -/
def new_node (m : memory T) (fresh : Nat) (t : T) : Option (memory T) :=
  if fresh = 0 then none
  else some (write m fresh { aprev := 0, anext := 0, value := some t })

/-- The two statements `n->value.~T();` and `allocator_.deallocate(n, 1);` -/
def delete_node (m : memory T) (n : Nat) : Option (memory T) :=
  match value m n with
  | none => none
  | some _ => some (free m n)

/-- The constructor `list()` of the list object whose anchor is at `a`. -/
def construct (m : memory T) (a : Nat) : memory T :=
  write m a { aprev := a, anext := a, value := none }

/-- Source function `back()`. -/
def back (m : memory T) (a : Nat) : Option T :=
  match aprev m a with
  | none => none
  | some n => value m n

/-- Source function `front()`. -/
def front (m : memory T) (a : Nat) : Option T :=
  match anext m a with
  | none => none
  | some n => value m n

/-- Source function `begin()`: the node of the iterator. -/
def begin (m : memory T) (a : Nat) : Option Nat := anext m a

/-- Source function `end()`: the node of the iterator, which is the anchor. -/
def end_ (a : Nat) : Nat := a

/-- Source function `empty()`. -/
def empty (m : memory T) (a : Nat) : Option Bool :=
  match anext m a with
  | none => none
  | some n => some (decide (n = a))

/-- The loop of `clear`: `while(n != &anchor_)`. -/
def clear_loop : Nat → memory T → Nat → Nat → Option (memory T)
  | fuel, m, a, n =>
    if n ≠ a then
      match fuel with
      | 0 => none
      | f + 1 =>
        match anext m n with
        | none => none
        | some next =>
          match delete_node m n with
          | none => none
          | some m => clear_loop f m a next
    else some m

/-- Source function `clear()`. -/
def clear (fuel : Nat) (m : memory T) (a : Nat) : Option (memory T) :=
  match anext m a with
  | none => none
  | some n => clear_loop fuel m a n

/-- Source function `erase(pos)`: the memory and the node of the iterator
returned. -/
def erase (m : memory T) (pos : Nat) : Option (memory T × Nat) := do
  let n := pos
  -- ++pos
  let pos ← anext m n
  -- n->node.aprev->anext = n->node.anext
  let p ← aprev m n
  let x ← anext m n
  let m ← set_anext m p x
  -- n->node.anext->aprev = n->node.aprev
  let x ← anext m n
  let p ← aprev m n
  let m ← set_aprev m x p
  let m ← delete_node m n
  pure (m, pos)

/-- Source function `insert(pos, t)`: the memory and the node of the iterator
returned. -/
def insert (m : memory T) (pos : Nat) (fresh : Nat) (t : T) : Option (memory T × Nat) := do
  let n := fresh
  let p := pos
  let m ← new_node m n t
  -- n->node.aprev = p->node.aprev
  let x ← aprev m p
  let m ← set_aprev m n x
  -- n->node.anext = &p->node
  let m ← set_anext m n p
  -- p->node.aprev->anext = &n->node
  let x ← aprev m p
  let m ← set_anext m x n
  -- p->node.aprev = &n->node
  let m ← set_aprev m p n
  pure (m, n)

/-- Source function `pop_back()`. -/
def pop_back (m : memory T) (a : Nat) : Option (memory T) := do
  let n ← aprev m a
  -- n->node.aprev->anext = &anchor_
  let p ← aprev m n
  let m ← set_anext m p a
  -- anchor_.aprev = n->node.aprev
  let p ← aprev m n
  let m ← set_aprev m a p
  delete_node m n

/-- Source function `pop_front()`. -/
def pop_front (m : memory T) (a : Nat) : Option (memory T) := do
  let n ← anext m a
  -- n->node.anext->aprev = &anchor_
  let x ← anext m n
  let m ← set_aprev m x a
  -- anchor_.anext = n->node.anext
  let x ← anext m n
  let m ← set_anext m a x
  delete_node m n

/-- Source function `push_back(t)`. -/
def push_back (m : memory T) (a : Nat) (fresh : Nat) (t : T) : Option (memory T) := do
  let n := fresh
  let m ← new_node m n t
  -- n->node.aprev = anchor_.aprev
  let x ← aprev m a
  let m ← set_aprev m n x
  -- n->node.anext = &anchor_
  let m ← set_anext m n a
  -- anchor_.aprev->anext = &n->node
  let x ← aprev m a
  let m ← set_anext m x n
  -- anchor_.aprev = &n->node
  set_aprev m a n

/-- Source function `push_front(t)`. -/
def push_front (m : memory T) (a : Nat) (fresh : Nat) (t : T) : Option (memory T) := do
  let n := fresh
  let m ← new_node m n t
  -- n->node.anext = anchor_.anext
  let x ← anext m a
  let m ← set_anext m n x
  -- n->node.aprev = &anchor_
  let m ← set_aprev m n a
  -- anchor_.anext->aprev = &n->node
  let x ← anext m a
  let m ← set_aprev m x n
  -- anchor_.anext = &n->node
  set_anext m a n

/-- Source function `splice(pos, other)`, `b` being the anchor of `other`.
The two lists use the one allocator of the memory, so the `assert` holds. -/
def splice (m : memory T) (pos : Nat) (b : Nat) : Option (memory T) := do
  let p := pos
  -- p->node.aprev->anext = other.anchor_.anext
  let x ← aprev m p
  let y ← anext m b
  let m ← set_anext m x y
  -- other.anchor_.anext->aprev = p->node.aprev
  let y ← anext m b
  let x ← aprev m p
  let m ← set_aprev m y x
  -- p->node.aprev = other.anchor_.aprev
  let y ← aprev m b
  let m ← set_aprev m p y
  -- other.anchor_.aprev->anext = &p->node
  let y ← aprev m b
  let m ← set_anext m y p
  -- clear the other list
  let m ← set_aprev m b b
  set_anext m b b

/-- The loop `while(itr != end) { x = *itr; ++itr; }`: the values read. -/
def forward_loop : Nat → memory T → Nat → Nat → Option (List T)
  | fuel, m, e, itr =>
    if itr ≠ e then
      match fuel with
      | 0 => none
      | f + 1 =>
        match value m itr with
        | none => none
        | some v =>
          match anext m itr with
          | none => none
          | some next =>
            match forward_loop f m e next with
            | none => none
            | some l => some (v :: l)
    else some []

/-- Forward iteration from `begin()` to `end()`. -/
def forward (fuel : Nat) (m : memory T) (a : Nat) : Option (List T) :=
  match begin m a with
  | none => none
  | some itr => forward_loop fuel m (end_ a) itr

/-- The loop `while(itr != end) { x = *itr; --itr; }`: the values read. -/
def backward_loop : Nat → memory T → Nat → Nat → Option (List T)
  | fuel, m, e, itr =>
    if itr ≠ e then
      match fuel with
      | 0 => none
      | f + 1 =>
        match value m itr with
        | none => none
        | some v =>
          match aprev m itr with
          | none => none
          | some prev =>
            match backward_loop f m e prev with
            | none => none
            | some l => some (v :: l)
    else some []

/-- Backward iteration from the last element (`--end()`) to `end()`. -/
def backward (fuel : Nat) (m : memory T) (a : Nat) : Option (List T) :=
  match aprev m (end_ a) with
  | none => none
  | some itr => backward_loop fuel m (end_ a) itr

/-- The iterators of the elements of the list at `a`: those reached from
`begin()` by `++` before `end()`. -/
inductive Elem (m : memory T) (a : Nat) : Nat → Prop where
  | first {p : Nat} : begin m a = some p → p ≠ end_ a → Elem m a p
  | next {p p1 : Nat} : Elem m a p → anext m p = some p1 → p1 ≠ end_ a → Elem m a p1

/-- The positions of the list at `a`: its elements and `end()`. -/
def IsPos (m : memory T) (a : Nat) (pos : Nat) : Prop := pos = end_ a ∨ Elem m a pos

/-- The links between two neighbours: `x->anext == y` and `y->aprev == x`. -/
def Link (m : memory T) (x y : Nat) : Prop := anext m x = some y ∧ aprev m y = some x

/-- The anchor at `a` and the nodes `ns`, in this order, form a ring. -/
def Ring (m : memory T) (a : Nat) (ns : List Nat) : Prop :=
  List.Chain' (Link m) (a :: ns ++ [a]) ∧ (a :: ns).Nodup ∧ value m a = none

/-- The list at `a` consists of the nodes `ns`, which hold the values `xs`. -/
def IsList (m : memory T) (a : Nat) (ns : List Nat) (xs : List T) : Prop :=
  Ring m a ns ∧ ns.map (value m) = xs.map some

/-- The memory `m1` is `m` with the node `n` holding `t` linked between the
neighbours `q` and `p`. -/
def Inserted (m m1 : memory T) (q n p : Nat) (t : T) : Prop :=
  (∀ x, anext m1 x = if x = n then some p else if x = q then some n else anext m x) ∧
  (∀ x, aprev m1 x = if x = n then some q else if x = p then some n else aprev m x) ∧
  (∀ x, value m1 x = if x = n then some t else value m x)

/-- The memory `m1` is `m` with the node `n` between the neighbours `q` and `p`
unlinked and released. -/
def Removed (m m1 : memory T) (q n p : Nat) : Prop :=
  (∀ x, anext m1 x = if x = n then none else if x = q then some p else anext m x) ∧
  (∀ x, aprev m1 x = if x = n then none else if x = p then some q else aprev m x) ∧
  (∀ x, value m1 x = if x = n then none else value m x)

/-- The memory `m1` is `m` with the node `n` between the neighbours `q` and `p`
unlinked; nothing is said about the node `n` itself. -/
def Unlinked (m m1 : memory T) (q n p : Nat) : Prop :=
  (∀ x, x ≠ n → anext m1 x = if x = q then some p else anext m x) ∧
  (∀ x, x ≠ n → aprev m1 x = if x = p then some q else aprev m x) ∧
  (∀ x, x ≠ n → value m1 x = value m x)

/-- The memory `m1` is `m` with the ring of the anchor `b`, from its first node
`f` to its last node `l`, linked between the neighbours `q` and `p`, and the
anchor `b` linked to itself. -/
def Spliced (m m1 : memory T) (q p b f l : Nat) : Prop :=
  (∀ x, anext m1 x = if x = b then some b else if x = l then some p
    else if x = q then some f else anext m x) ∧
  (∀ x, aprev m1 x = if x = b then some b else if x = p then some l
    else if x = f then some q else aprev m x) ∧
  (∀ x, value m1 x = value m x)

/-- The memory and the list objects constructed in it, each given by the
address of its anchor. -/
structure world (T : Type) where
  mem : memory T
  lists : List Nat

/-- The worlds reached from the empty memory by constructing lists and by
`push_back`, `push_front`, `insert`, `erase`, `pop_back`, `pop_front` and
`splice` on them.  The allocator answers with an address not in use;
`insert` and `splice` get a position of their list and `erase` an element. -/
inductive Reachable : world T → Prop where
  | init : Reachable { mem := fun _ => none, lists := [] }
  | construct {w : world T} {a : Nat} :
      Reachable w → a ≠ 0 → w.mem a = none →
      Reachable { mem := construct w.mem a, lists := a :: w.lists }
  | push_back {w : world T} {a fresh : Nat} {t : T} {m1 : memory T} :
      Reachable w → a ∈ w.lists → w.mem fresh = none →
      push_back w.mem a fresh t = some m1 → Reachable { mem := m1, lists := w.lists }
  | push_front {w : world T} {a fresh : Nat} {t : T} {m1 : memory T} :
      Reachable w → a ∈ w.lists → w.mem fresh = none →
      push_front w.mem a fresh t = some m1 → Reachable { mem := m1, lists := w.lists }
  | insert {w : world T} {a pos fresh : Nat} {t : T} {m1 : memory T} {r : Nat} :
      Reachable w → a ∈ w.lists → IsPos w.mem a pos → w.mem fresh = none →
      insert w.mem pos fresh t = some (m1, r) → Reachable { mem := m1, lists := w.lists }
  | erase {w : world T} {a pos : Nat} {m1 : memory T} {r : Nat} :
      Reachable w → a ∈ w.lists → Elem w.mem a pos →
      erase w.mem pos = some (m1, r) → Reachable { mem := m1, lists := w.lists }
  | pop_back {w : world T} {a : Nat} {m1 : memory T} :
      Reachable w → a ∈ w.lists → empty w.mem a = some false →
      pop_back w.mem a = some m1 → Reachable { mem := m1, lists := w.lists }
  | pop_front {w : world T} {a : Nat} {m1 : memory T} :
      Reachable w → a ∈ w.lists → empty w.mem a = some false →
      pop_front w.mem a = some m1 → Reachable { mem := m1, lists := w.lists }
  | splice {w : world T} {a b pos : Nat} {m1 : memory T} :
      Reachable w → a ∈ w.lists → b ∈ w.lists → a ≠ b → IsPos w.mem a pos →
      splice w.mem pos b = some m1 → Reachable { mem := m1, lists := w.lists }

/-- The lists of the world `w` are the rings of the nodes `nodes a` holding
the values `vals a`, no ring has the null address, and no two rings share a
node. -/
def Layout (w : world T) (nodes : Nat → List Nat) (vals : Nat → List T) : Prop :=
  w.lists.Nodup ∧
  (∀ a ∈ w.lists, IsList w.mem a (nodes a) (vals a) ∧ 0 ∉ a :: nodes a) ∧
  (∀ a ∈ w.lists, ∀ b ∈ w.lists, a ≠ b →
    ∀ x, x ∈ a :: nodes a → x ∈ b :: nodes b → False)


end list

end taapp

namespace taapp

/-! ## The container `taapp::unordered_map`

Shallow embedding of `include/taapp/unordered_map.h`.

* The structs `anode` and `tnode` of the class are those of `list`, with the
  pair of the key and the mapped value as `value`; the memory is the one of
  the lists.  A bucket is an `anode` of the array at `buckets_`: the anchor of
  a ring of nodes.
* `hasher` and `equals` are the members `hasher_` and `equals_`.  The
  comparison `load_factor() >= max_load_factor_` of two `float`s is the
  argument `full`, a function of `size_` and `numbuckets_`; the theorems hold
  for every such function.
* The answers of the two allocators are the arguments `freshb` (the array of
  buckets) and `fresh` (a node); `0` is `NULL`.
* A division by zero, an access through an address that holds nothing, and a
  loop that runs out of `fuel` yield `none`. -/

/-- The fields `buckets_`, `numbuckets_`, `size_` of `unordered_map`, and the
memory. -/
structure unordered_map (Key V : Type) where
  mem : list.memory (Key × V)
  buckets_ : Nat
  numbuckets_ : Nat
  size_ : Nat

namespace unordered_map

open list

variable {Key V : Type}

/-- The class `unordered_map::iterator`. -/
structure iterator where
  node_ : Nat
  bucket_ : Nat
  bucketend_ : Nat

/-- The constructor `unordered_map()`. -/
def empty_map : unordered_map Key V :=
  { mem := fun _ => none, buckets_ := 0, numbuckets_ := 0, size_ := 0 }

/-- Source function `size()`. -/
def size (m : unordered_map Key V) : Nat := m.size_

/-- The array `table` of `calc_table_size`. -/
def table : List Nat :=
  [13, 31, 61, 127, 251, 509, 1021, 2039, 4093, 8191, 16381, 32749, 65521, 131071, 262139,
   524287, 1048573, 2097143, 4194301, 8388593, 16777199, 33554393, 67108859, 134217689,
   201326611, 402653189, 805306457, 1610612741]

/-- The loop of `calc_table_size`: `while(titr != tend)`, `tend` being the
last entry. -/
def calc_table_size_loop : List Nat → Nat → Nat
  | [], _ => 0
  | [t], _ => t
  | t :: u :: rest, size => if t ≥ size then t else calc_table_size_loop (u :: rest) size

/-- Source function `calc_table_size(size)`. -/
def calc_table_size (size : Nat) : Nat := calc_table_size_loop table size

/-- Source function `bucket_erase(bucket, n)`. -/
def bucket_erase (mem : memory (Key × V)) (_bucket n : Nat) : Option (memory (Key × V)) := do
  -- n->node.aprev->anext = n->node.anext
  let p ← aprev mem n
  let x ← anext mem n
  let mem ← set_anext mem p x
  -- n->node.anext->aprev = n->node.aprev
  let x ← anext mem n
  let p ← aprev mem n
  set_aprev mem x p

/-- Source function `bucket_push(bucket, n)`: pushes to front of bucket. -/
def bucket_push (mem : memory (Key × V)) (bucket n : Nat) : Option (memory (Key × V)) := do
  -- n->node.anext = bucket->anext
  let x ← anext mem bucket
  let mem ← set_anext mem n x
  -- n->node.aprev = bucket
  let mem ← set_aprev mem n bucket
  -- bucket->anext->aprev = &n->node
  let x ← anext mem bucket
  let mem ← set_aprev mem x n
  -- bucket->anext = &n->node
  set_anext mem bucket n

/-- Source function `get_bucket(k)`: `buckets_ + (hasher_(k) % numbuckets_)`. -/
def get_bucket (hasher : Key → Nat) (m : unordered_map Key V) (k : Key) : Option Nat :=
  if m.numbuckets_ = 0 then none else some (m.buckets_ + hasher k % m.numbuckets_)

/-- The loop of `find`: `while(n != b)`; the result is the node found, or
`NULL`. -/
def find_loop (equals : Key → Key → Bool) : Nat → memory (Key × V) → Nat → Nat → Key → Option Nat
  | fuel, mem, b, n, k =>
    if n ≠ b then
      match fuel with
      | 0 => none
      | f + 1 =>
        match value mem n with
        | none => none
        | some kv =>
          if equals k kv.1 then some n
          else
            match anext mem n with
            | none => none
            | some next => find_loop equals f mem b next k
    else some 0

/-- Source function `find(k)`. -/
def find (hasher : Key → Nat) (equals : Key → Key → Bool) (fuel : Nat)
    (m : unordered_map Key V) (k : Key) : Option iterator :=
  if m.buckets_ ≠ 0 then
    match get_bucket hasher m k with
    | none => none
    | some b =>
      match anext m.mem b with
      | none => none
      | some n =>
        match find_loop equals fuel m.mem b n k with
        | none => none
        | some r =>
          if r ≠ 0 then
            some { node_ := r, bucket_ := b, bucketend_ := m.buckets_ + m.numbuckets_ }
          else some { node_ := 0, bucket_ := 0, bucketend_ := 0 }
  else some { node_ := 0, bucket_ := 0, bucketend_ := 0 }

/-- The call `bucketallocator_.allocate(count)` with the answer `base`: the
`count` anodes from `base` on exist, with links not yet set. -/
def allocate_buckets (mem : memory (Key × V)) (base count : Nat) : memory (Key × V) :=
  fun x => if base ≤ x ∧ x < base + count then some { aprev := 0, anext := 0, value := none }
    else mem x

/-- The call `bucketallocator_.deallocate(base, count)`. -/
def deallocate_buckets (mem : memory (Key × V)) (base count : Nat) : memory (Key × V) :=
  fun x => if base ≤ x ∧ x < base + count then none else mem x

/-- The first loop of `rehash`, which initializes the new buckets; the first
argument is `bend - b`. -/
def init_loop : Nat → memory (Key × V) → Nat → Option (memory (Key × V))
  | 0, mem, _ => some mem
  | c + 1, mem, b =>
    match set_aprev mem b b with
    | none => none
    | some mem =>
      match set_anext mem b b with
      | none => none
      | some mem => init_loop c mem (b + 1)

/-- The inner loop of `rehash`, `while(b->anext != b)`, which moves the nodes
of the old bucket `b` to the new table of `count` buckets at `base`. -/
def move_bucket_loop (hasher : Key → Nat) (base count : Nat) :
    Nat → memory (Key × V) → Nat → Option (memory (Key × V))
  | fuel, mem, b =>
    match anext mem b with
    | none => none
    | some n =>
      if n ≠ b then
        match fuel with
        | 0 => none
        | f + 1 =>
          match bucket_erase mem b n with
          | none => none
          | some mem =>
            match value mem n with
            | none => none
            | some kv =>
              if count = 0 then none
              else
                match bucket_push mem (base + hasher kv.1 % count) n with
                | none => none
                | some mem => move_bucket_loop hasher base count f mem b
      else some mem

/-- The outer loop of `rehash` over the old buckets; the first argument is
`bend - b`. -/
def move_loop (hasher : Key → Nat) (base count fuel : Nat) :
    Nat → memory (Key × V) → Nat → Option (memory (Key × V))
  | 0, mem, _ => some mem
  | c + 1, mem, b =>
    match move_bucket_loop hasher base count fuel mem b with
    | none => none
    | some mem => move_loop hasher base count fuel c mem (b + 1)

/-- Source function `rehash(count)`. -/
def rehash (hasher : Key → Nat) (fuel : Nat) (freshb : Nat) (m : unordered_map Key V)
    (count : Nat) : Option (unordered_map Key V) :=
  if count > m.numbuckets_ then
    if freshb = 0 then none
    else
      match init_loop count (allocate_buckets m.mem freshb count) freshb with
      | none => none
      | some mem =>
        match (if m.size_ > 0 then
                 move_loop hasher freshb count fuel m.numbuckets_ mem m.buckets_
               else some mem) with
        | none => none
        | some mem =>
          some { mem := if m.numbuckets_ > 0 then
                          deallocate_buckets mem m.buckets_ m.numbuckets_
                        else mem,
                 buckets_ := freshb, numbuckets_ := count, size_ := m.size_ }
  else some m

/-- The statement `if(size_ == 0 || load_factor() >= max_load_factor_)
rehash(calc_table_size(numbuckets_ + 1));` of `insert`. -/
def reserve (hasher : Key → Nat) (full : Nat → Nat → Bool) (fuel : Nat) (freshb : Nat)
    (m : unordered_map Key V) : Option (unordered_map Key V) :=
  if m.size_ = 0 ∨ full m.size_ m.numbuckets_ = true then
    rehash hasher fuel freshb m (calc_table_size (m.numbuckets_ + 1))
  else some m

/-- Source function `insert(v)`: the map and the pair returned. -/
def insert (hasher : Key → Nat) (equals : Key → Key → Bool) (full : Nat → Nat → Bool)
    (fuel : Nat) (freshb fresh : Nat) (m : unordered_map Key V) (v : Key × V) :
    Option (unordered_map Key V × (iterator × Bool)) :=
  match find hasher equals fuel m v.1 with
  | none => none
  | some it =>
    if it.node_ = 0 then
      -- key does not exist in the map
      match reserve hasher full fuel freshb m with
      | none => none
      | some m =>
        match get_bucket hasher m v.1 with
        | none => none
        | some b =>
          match new_node m.mem fresh v with
          | none => none
          | some mem =>
            match bucket_push mem b fresh with
            | none => none
            | some mem =>
              some ({ mem := mem, buckets_ := m.buckets_, numbuckets_ := m.numbuckets_,
                      size_ := m.size_ + 1 },
                    ({ node_ := fresh, bucket_ := b,
                       bucketend_ := m.buckets_ + m.numbuckets_ }, true))
    else some (m, (it, false))

/-- The addresses of the buckets of the array of `count` buckets at `base`. -/
def anchors (base count : Nat) : List Nat := (List.range count).map (fun i => base + i)

/-- The map `m` is well formed: its buckets are the rings of the nodes
`nodes b` holding the pairs `vals b`, every pair is in the bucket of its key,
there are buckets exactly when `buckets_` is not null, and a map of size
zero holds nothing. -/
def MapInv (hasher : Key → Nat) (m : unordered_map Key V) (nodes : Nat → List Nat)
    (vals : Nat → List (Key × V)) : Prop :=
  Layout { mem := m.mem, lists := anchors m.buckets_ m.numbuckets_ } nodes vals ∧
  (∀ i, i < m.numbuckets_ → ∀ kv ∈ vals (m.buckets_ + i), hasher kv.1 % m.numbuckets_ = i) ∧
  (m.numbuckets_ = 0 → m.buckets_ = 0 ∧ m.size_ = 0) ∧
  (0 < m.numbuckets_ → m.buckets_ ≠ 0) ∧
  (m.size_ = 0 → ∀ i, i < m.numbuckets_ → nodes (m.buckets_ + i) = [])

/-- The state of `rehash` while it moves the nodes: the old buckets `olds` and
the `count` new buckets at `base` are rings, and every pair in a new bucket is
in the bucket of its key. -/
def Tables (hasher : Key → Nat) (mem : memory (Key × V)) (olds : List Nat) (base count : Nat)
    (nodes : Nat → List Nat) (vals : Nat → List (Key × V)) : Prop :=
  Layout { mem := mem, lists := olds ++ anchors base count } nodes vals ∧
  (∀ j, j < count → ∀ kv ∈ vals (base + j), hasher kv.1 % count = j)

/-- The node at `x` is stored in the map. -/
def Stored (m : unordered_map Key V) (nodes : Nat → List Nat) (x : Nat) : Prop :=
  ∃ i, i < m.numbuckets_ ∧ x ∈ nodes (m.buckets_ + i)

end unordered_map

end taapp

namespace taapp

/-! ## Example states of the other containers -/

/-- The queue after `push(3)`, `push(5)`, `push(1)`: the first `push` has
allocated the buffer of eight elements at address 100. -/
def demo_queue : priority_queue Nat :=
  { container_ := { begin_ := 100, end_ := 103, capacity_ := 108,
                    slots := [some 5, some 3, some 1, none, none, none, none, none] } }

/-- The queue after `push(8)`, `push(7)`, ..., `push(1)`: its buffer of eight
elements at address 100 is full. -/
def demo_queue_full : priority_queue Nat :=
  { container_ := { begin_ := 100, end_ := 108, capacity_ := 108,
                    slots := [some 8, some 7, some 6, some 5, some 4, some 3, some 2,
                              some 1] } }

/-- A vector holding 1, 2, 3 in a buffer of four elements at address 100. -/
def demo_vector : vector Nat :=
  { begin_ := 100, end_ := 103, capacity_ := 104, slots := [some 1, some 2, some 3, none] }

/-- A vector holding 1, 2, 3, 4 in a full buffer at address 100. -/
def demo_vector_full : vector Nat :=
  { begin_ := 100, end_ := 104, capacity_ := 104,
    slots := [some 1, some 2, some 3, some 4] }

/-- The element type of `demo_vector`: an `int`, all traits trivial. -/
def trivial_traits : vtraits :=
  { TRIVIAL_ASSIGN := true, TRIVIAL_COPY := true, TRIVIAL_CONSTRUCTOR := true,
    TRIVIAL_DESTRUCTOR := true }

/-- An element type with user-defined assignment, copy, constructor and destructor. -/
def class_traits : vtraits :=
  { TRIVIAL_ASSIGN := false, TRIVIAL_COPY := false, TRIVIAL_CONSTRUCTOR := false,
    TRIVIAL_DESTRUCTOR := false }

namespace list

/-- The memory an operation leaves; the empty memory if it has no result. -/
def run {T : Type} (o : Option (memory T)) : memory T :=
  match o with
  | some m => m
  | none => fun _ => none

/-- One list, with its anchor at address 1. -/
def demo_m1 : memory Nat := construct (fun _ => none) 1

/-- A second list, with its anchor at address 2. -/
def demo_m2 : memory Nat := construct demo_m1 2

/-- After `push_back(7)` on the first list; the node is at address 10. -/
def demo_m3 : memory Nat := run (push_back demo_m2 1 10 7)

/-- After `push_back(8)` on the first list; the node is at address 11. -/
def demo_m4 : memory Nat := run (push_back demo_m3 1 11 8)

/-- After `push_front(5)` on the second list; the node is at address 12. -/
def demo_m5 : memory Nat := run (push_front demo_m4 2 12 5)

/-- After `splice` of the second list into the first, before the node at 11. -/
def demo_m6 : memory Nat := run (splice demo_m5 11 2)

/-- After `clear()` on the list holding 7 (and no second list). -/
def demo_cleared : memory Nat := run (clear 1 (run (push_back demo_m1 1 10 7)) 1)

end list

namespace unordered_map

/-- The hash function of the example: the key itself. -/
def demo_hasher (k : Nat) : Nat := k

/-- The equality of the example. -/
def demo_equals (a b : Nat) : Bool := decide (a = b)

/-- The comparison `load_factor() >= max_load_factor_` with the initial
`max_load_factor_` of `1.0f`. -/
def demo_full (size numbuckets : Nat) : Bool := decide (numbuckets ≤ size)

/-- The map after `insert((1, 10))` into the empty map, with the table of 13
buckets at address 100 and the node at address 200. -/
def demo_map1 : unordered_map Nat Nat :=
  match insert demo_hasher demo_equals demo_full 0 100 200 empty_map (1, 10) with
  | some r => r.1
  | none => empty_map

end unordered_map

end taapp

namespace taapp

variable {Key : Type}

/-! ## Observations on the steps inside the operations of `set` -/

/-- Relation `Leftmost s a b`: following `left` links from the node `a` ends at
the node `b`, which has no left child. -/
inductive Leftmost (s : set Key) : Nat → Nat → Prop where
  | stop {a : Nat} {n : rbnode Key} : s.mem a = some n → n.left = none → Leftmost s a a
  | step {a b c : Nat} {n : rbnode Key} :
      s.mem a = some n → n.left = some b → Leftmost s b c → Leftmost s a c

/-- Relation `Ascent s x r`: going up from the node `x` through `parent` links,
`r` is the first node that is entered from its left child; `r` is null when
the root is passed without such a node. -/
inductive Ascent (s : set Key) : Nat → Option Nat → Prop where
  | top {x : Nat} {n : rbnode Key} : s.mem x = some n → n.parent = none → Ascent s x none
  | found {x p : Nat} {n pn : rbnode Key} :
      s.mem x = some n → n.parent = some p → s.mem p = some pn → pn.left = some x →
      Ascent s x (some p)
  | up {x p : Nat} {n pn : rbnode Key} {r : Option Nat} :
      s.mem x = some n → n.parent = some p → s.mem p = some pn → pn.left ≠ some x →
      Ascent s p r → Ascent s x r

/-- Relation `Depth s a k`: the node `a` is `k` parent links below a node without
parent. -/
inductive Depth (s : set Key) : Nat → Nat → Prop where
  | top {a : Nat} {n : rbnode Key} : s.mem a = some n → n.parent = none → Depth s a 0
  | step {a p k : Nat} {n : rbnode Key} :
      s.mem a = some n → n.parent = some p → Depth s p k → Depth s a (k + 1)

/-- The part of `erase(iterator)` from `rbnode* root = n` to the comment
`// rebalancing`: the node is taken out of the tree.  Result: the state and the
local variables `parent`, `child` and `color` as they stand before the
rebalancing block. -/
def erase_detach (s : set Key) (n : Option Nat) :
    Option (set Key × Option Nat × Option Nat × Bool) :=
  let root := n
  match deref s root with
  | none => none
  | some rn =>
    let parent := rn.parent
    let child := rn.left
    let color := rn.color
    match (if child = none then
             -- the node does not have a left child
             some (s, root, parent, rn.right, color)
           else if rn.right ≠ none then
             -- the node has two children
             erase_splice s root parent child
           else some (s, root, parent, child, color)) with
    | none => none
    | some st =>
      match replace_child st.1 st.2.2.1 st.2.1 st.2.2.2.1 with
      | none => none
      | some s =>
        match (if st.2.2.2.1 ≠ none then set_parent s st.2.2.2.1 st.2.2.1 else some s) with
        | none => none
        | some s => some (s, st.2.2.1, st.2.2.2.1, st.2.2.2.2)

/-! ### The re-balancing loops with a record of their iterations -/

/-- One iteration of a re-balancing loop: the state when `balance_insert` or
`balance_erase` is called, the template argument `Direction`, the arguments
`parent` and `child`, the number of calls of `rotate` made during the call, and
the state when it returns. -/
structure fix_step (Key : Type) where
  before : set Key
  dir : Bool
  parent : Nat
  child : Option Nat
  rotations : Nat
  after : set Key

/-- Source function `balance_insert<Direction>(root, child)`, returning also the number of
calls of `rotate` (two for `double_rotate`). -/
def balance_insert_log (d : Bool) (s : set Key) (root child : Option Nat) :
    Option ((set Key × Option Nat) × Nat) := do
  let sibling ← get_child (!d) s root
  let sr ← is_red s sibling
  if sr then
    -- both children of root are red, so do simple color change
    let s ← set_color s root RED
    let s ← set_color s child BLACK
    let s ← set_color s sibling BLACK
    pure ((s, root), 0)
  else
    let c1 ← get_child d s child
    let r1 ← is_red s c1
    if r1 then (rotate (!d) s root).map (fun r => (r, 1))
    else
      let c2 ← get_child (!d) s child
      let r2 ← is_red s c2
      if r2 then (double_rotate (!d) s root).map (fun r => (r, 2))
      else pure ((s, root), 0)

/-- The re-balancing loop of `insert`, returning also the record of its
iterations. -/
def insert_loop_log : Nat → set Key → Option Nat → Option Nat →
    Option (set Key × List (fix_step Key))
  | _, s, none, _ => some (s, [])
  | fuel, s, some p, child =>
    match deref s child with
    | none => none
    | some cn =>
      if cn.color = RED then
        match fuel with
        | 0 => none
        | f + 1 =>
          match s.mem p with
          | none => none
          | some pn =>
            match (if pn.left = child then balance_insert_log LEFT s (some p) child
                   else balance_insert_log RIGHT s (some p) child) with
            | none => none
            | some r =>
              -- move up to the next level
              match deref r.1.1 r.1.2 with
              | none => none
              | some cn2 =>
                match insert_loop_log f r.1.1 cn2.parent r.1.2 with
                | none => none
                | some q =>
                  some (q.1, { before := s, dir := if pn.left = child then LEFT else RIGHT,
                               parent := p, child := child, rotations := r.2,
                               after := r.1.1 } :: q.2)
      else some (s, [])

/-- Source function `insert(t)`, returning also the record of the iterations of its
re-balancing loop. -/
def insert_with_log (lt : Key → Key → Bool) (t : Key) (s : set Key) (fresh : Option Nat) :
    Option ((set Key × (Option Nat × Bool)) × List (fix_step Key)) := do
  let r ← insert_descend lt t s s.size_ s.root_ s.root_
  let pos := r.1
  if r.2 = none then
    -- need to insert a new value
    let n := fresh
    let a ← n
    let s := { s with next := s.next + 1 }
    if s.root_ = none then
      -- special case: empty tree
      let s := s.write a
        { value := t, color := RED, left := none, right := none, parent := none }
      let s := { s with root_ := n }
      let s ← set_color s s.root_ BLACK
      pure (({ s with size_ := s.size_ + 1 }, (n, decide (n ≠ pos))), [])
    else
      -- standard BST insertion
      let parent := pos
      let s := s.write a
        { value := t, color := RED, left := none, right := none, parent := parent }
      let nn ← deref s n
      let pn ← deref s parent
      let less := lt nn.value pn.value
      let s ← (if less then set_left s parent n else set_right s parent n)
      -- Walk back up the tree and re-balance
      let child := parent
      let cn ← deref s child
      let q ← insert_loop_log s.size_ s cn.parent child
      let s ← set_color q.1 q.1.root_ BLACK
      pure (({ s with size_ := s.size_ + 1 }, (n, decide (n ≠ pos))), q.2)
  else
    pure ((s, (r.2, decide (r.2 ≠ pos))), [])

/-- Source function `insert(t)` with the allocator handing out the next unused address,
returning also the record of the iterations of its re-balancing loop. -/
def insert_log (lt : Key → Key → Bool) (t : Key) (s : set Key) :
    Option ((set Key × (Option Nat × Bool)) × List (fix_step Key)) :=
  insert_with_log lt t s (some s.next)

/-- Case 5 and 6 of `balance_erase`, returning also the number of calls of
`rotate`. -/
def balance_erase_rotate_log (d : Bool) (s : set Key) (parent sibling : Option Nat) :
    Option ((set Key × Option Nat) × Nat) :=
  match deref s parent with
  | none => none
  | some pn =>
    let color := pn.color
    match get_child (!d) s sibling with
    | none => none
    | some no =>
      match is_red s no with
      | none => none
      | some ro =>
        match (if ro then (rotate d s parent).map (fun r => (r, 1))
               else (double_rotate d s parent).map (fun r => (r, 2))) with
        | none => none
        | some q =>
          match set_color q.1.1 q.1.2 color with
          | none => none
          | some s =>
            match deref s q.1.2 with
            | none => none
            | some pn =>
              match set_color s pn.left BLACK with
              | none => none
              | some s =>
                match deref s q.1.2 with
                | none => none
                | some pn =>
                  match set_color s pn.right BLACK with
                  | none => none
                  | some s => some ((s, s.root_), q.2)

/-- The part of `balance_erase` after the red-sibling rotation, returning also
the number of calls of `rotate`. -/
def balance_erase_black_log (d : Bool) (s : set Key) (root parent sibling : Option Nat) :
    Option ((set Key × Option Nat) × Nat) :=
  if sibling ≠ none then
    match get_child d s sibling with
    | none => none
    | some nd =>
      match is_red s nd with
      | none => none
      | some rd =>
        match (if rd then some false else
                match get_child (!d) s sibling with
                | none => none
                | some no =>
                  match is_red s no with
                  | none => none
                  | some ro => some (!ro)) with
        | none => none
        | some both =>
          if both then (balance_erase_recolor s root parent sibling).map (fun r => (r, 0))
          else balance_erase_rotate_log d s parent sibling
  else some ((s, root), 0)

/-- Source function `balance_erase<Direction>(root, child)`, returning also the number of
calls of `rotate`. -/
def balance_erase_log (d : Bool) (s : set Key) (root _child : Option Nat) :
    Option ((set Key × Option Nat) × Nat) :=
  let parent := root
  match get_child (!d) s root with
  | none => none
  | some sibling =>
    match deref s sibling with
    | none => none
    | some sn =>
      if sn.color = RED then
        -- case 2: sibling is red
        match rotate d s root with
        | none => none
        | some r =>
          match get_child (!d) r.1 parent with
          | none => none
          | some sib =>
            (balance_erase_black_log d r.1 r.2 parent sib).map (fun q => (q.1, q.2 + 1))
      else balance_erase_black_log d s root parent sibling

/-- The re-balancing loop of `erase(iterator)`, returning also the record of
its iterations. -/
def erase_loop_log : Nat → set Key → Option Nat → Option Nat →
    Option (set Key × List (fix_step Key))
  | _, s, none, _ => some (s, [])
  | 0, _, some _, _ => none
  | f + 1, s, some p, child =>
    match s.mem p with
    | none => none
    | some pn =>
      match (if pn.left = child then balance_erase_log LEFT s (some p) child
             else balance_erase_log RIGHT s (some p) child) with
      | none => none
      | some r =>
        match deref r.1.1 r.1.2 with
        | none => none
        | some pn2 =>
          match erase_loop_log f r.1.1 pn2.parent r.1.2 with
          | none => none
          | some q =>
            some (q.1, { before := s, dir := if pn.left = child then LEFT else RIGHT,
                         parent := p, child := child, rotations := r.2,
                         after := r.1.1 } :: q.2)

/-- The `// rebalancing` block of `erase(iterator)`, returning also the record
of the iterations of the loop. -/
def erase_rebalance_log (s : set Key) (parent child : Option Nat) (color : Bool) :
    Option (set Key × List (fix_step Key)) :=
  if color = BLACK then
    match is_red s child with
    | none => none
    | some cr =>
      if cr then (set_color s child BLACK).map (fun s1 => (s1, []))
      else
        -- case 1: if child is the tree parent, we are done
        erase_loop_log s.size_ s parent child
  else some (s, [])

/-- Source function `erase(iterator)`, returning also the record of the iterations of its
re-balancing loop. -/
def erase_log (s : set Key) (itr : Option Nat) :
    Option ((set Key × Option Nat) × List (fix_step Key)) :=
  -- standard BST deletion
  let n := itr
  match increment s itr with
  | none => none
  | some itr =>
    match erase_detach s n with
    | none => none
    | some st =>
      match erase_rebalance_log st.1 st.2.1 st.2.2.1 st.2.2.2 with
      | none => none
      | some q =>
        match erase_cleanup q.1 n with
        | none => none
        | some s => some ((s, itr), q.2)

/-- Each iteration of the loop starts one level closer to the root than the
one before. -/
def StepsUp (log : List (fix_step Key)) : Prop :=
  List.Chain' (fun e1 e2 : fix_step Key =>
    ∃ k, Depth e1.before e1.parent (k + 1) ∧ Depth e2.before e2.parent k) log

/-- After a rotation of case 5 and 6 of `balance_erase` at the node `i`: the
parent of `i` is the new root of the subtree, and both its children are
nodes. -/
def FinalHeap (s1 : set Key) (i : Nat) : Prop :=
  ∃ pn top tn l r, s1.mem i = some pn ∧ pn.parent = some top ∧ s1.mem top = some tn ∧
    tn.left = some l ∧ tn.right = some r ∧ (s1.mem l).isSome = true ∧ (s1.mem r).isSome = true

/-- The call of `balance_erase` recorded in `e` reads and writes existing nodes
only: the sibling on the opposite side is a node at entry; if it is RED, the
sibling read again after the rotation is a node; if there is a rotation in
case 5 and 6, both children of the new root of the subtree (the parent of
`parent` when the call returns) are nodes; and the call returns. -/
def SafeCall (e : fix_step Key) : Prop :=
  ∃ sib sn, get_child (!e.dir) e.before (some e.parent) = some (some sib) ∧
    e.before.mem sib = some sn ∧
    (sn.color = RED → ∃ s1 piv sib2, rotate e.dir e.before (some e.parent) = some (s1, piv) ∧
      get_child (!e.dir) s1 (some e.parent) = some (some sib2) ∧ (s1.mem sib2).isSome = true) ∧
    ((if sn.color = RED then 1 else 0) < e.rotations → FinalHeap e.after e.parent) ∧
    ∃ res, balance_erase e.dir e.before (some e.parent) e.child = some res ∧ res.1 = e.after

/-! ### Example states -/

/-- The set after inserting 2, 1, 3 and 4: the root 2 is BLACK with the BLACK
children 1 and 3, and 4 is the RED right child of 3. -/
def demo4 : set Nat := after_insert ltN 4 demo3

/-- The state of `erase` of the node of the key 1 in `demo4` before the
rebalancing block: the left subtree of the root is empty and one BLACK node
short. -/
def demo_deficit : set Nat :=
  match erase_detach demo4 (some 1) with
  | some st => st.1
  | none => demo4

end taapp

namespace taapp

namespace unordered_map

open list

variable {Key V : Type}

/-! ## `erase`, `clear` and the iterators of `unordered_map`

* `--size_` is `size_ - 1` on the unbounded `Nat`; the theorems show that
  `size_` is positive when a reached map erases a node.
* The loop `while(b != bend)` of the iterators takes a fuel, since the fields
  of an iterator may be any addresses; the loop over the buckets in `clear`
  runs `numbuckets_` times, `bend` being `bitr + numbuckets_`.
* `end()` is the iterator with the null `node_`; `==` and `!=` of iterators
  compare `node_` only. -/

/-- Source function `erase(itr)`. -/
def erase (m : unordered_map Key V) (itr : iterator) : Option (unordered_map Key V) :=
  match bucket_erase m.mem itr.bucket_ itr.node_ with
  | none => none
  | some mem =>
    -- itr.node_->value.~value_type(); allocator_.deallocate(itr.node_, 1)
    match delete_node mem itr.node_ with
    | none => none
    | some mem =>
      some { mem := mem, buckets_ := m.buckets_, numbuckets_ := m.numbuckets_,
             size_ := m.size_ - 1 }

/-- Source function `erase(k)`: the map and the number returned. -/
def erase_key (hasher : Key → Nat) (equals : Key → Key → Bool) (fuel : Nat)
    (m : unordered_map Key V) (k : Key) : Option (unordered_map Key V × Nat) :=
  match find hasher equals fuel m k with
  | none => none
  | some itr =>
    if itr.node_ ≠ 0 then
      match erase m itr with
      | none => none
      | some m1 => some (m1, 1)
    else some (m, 0)

/-- The inner loop of `clear`: `while(n != bitr)`. -/
def clear_bucket_loop : Nat → memory (Key × V) → Nat → Nat → Option (memory (Key × V))
  | fuel, mem, bitr, n =>
    if n ≠ bitr then
      match fuel with
      | 0 => none
      | f + 1 =>
        match anext mem n with
        | none => none
        | some next =>
          match delete_node mem n with
          | none => none
          | some mem => clear_bucket_loop f mem bitr next
    else some mem

/-- The outer loop of `clear` over the buckets; the second argument is
`bend - bitr`. -/
def clear_loop (fuel : Nat) : Nat → memory (Key × V) → Nat → Option (memory (Key × V))
  | 0, mem, _ => some mem
  | c + 1, mem, bitr =>
    match anext mem bitr with
    | none => none
    | some n =>
      match clear_bucket_loop fuel mem bitr n with
      | none => none
      | some mem =>
        match set_aprev mem bitr bitr with
        | none => none
        | some mem =>
          match set_anext mem bitr bitr with
          | none => none
          | some mem => clear_loop fuel c mem (bitr + 1)

/-- Source function `clear()`. -/
def clear (fuel : Nat) (m : unordered_map Key V) : Option (unordered_map Key V) :=
  match clear_loop fuel m.numbuckets_ m.mem m.buckets_ with
  | none => none
  | some mem =>
    some { mem := mem, buckets_ := m.buckets_, numbuckets_ := m.numbuckets_, size_ := 0 }

/-- The loop `while(b != bend)` of the constructor `iterator(bucket, bucketend)`
and of `operator++`: the first node of the first bucket from `b` on that is
not empty, or `NULL`, and the bucket where the loop stops. -/
def scan_loop : Nat → memory (Key × V) → Nat → Nat → Option (Nat × Nat)
  | fuel, mem, b, bend =>
    if b ≠ bend then
      match fuel with
      | 0 => none
      | f + 1 =>
        match anext mem b with
        | none => none
        | some n => if n ≠ b then some (n, b) else scan_loop f mem (b + 1) bend
    else some (0, b)

/-- The constructor `iterator(bucket, bucketend)`. -/
def iterator_from (fuel : Nat) (mem : memory (Key × V)) (bucket bucketend : Nat) :
    Option iterator :=
  match scan_loop fuel mem bucket bucketend with
  | none => none
  | some r => some { node_ := r.1, bucket_ := r.2, bucketend_ := bucketend }

/-- Source function `begin()`. -/
def begin (fuel : Nat) (m : unordered_map Key V) : Option iterator :=
  iterator_from fuel m.mem m.buckets_ (m.buckets_ + m.numbuckets_)

/-- Source function `end()`. -/
def end_ : iterator := { node_ := 0, bucket_ := 0, bucketend_ := 0 }

/-- Source function `iterator::operator++()`. -/
def increment (fuel : Nat) (mem : memory (Key × V)) (it : iterator) : Option iterator :=
  match anext mem it.node_ with
  | none => none
  | some n =>
    if n = it.bucket_ then
      match scan_loop fuel mem (it.bucket_ + 1) it.bucketend_ with
      | none => none
      | some r => some { node_ := r.1, bucket_ := r.2, bucketend_ := it.bucketend_ }
    else some { node_ := n, bucket_ := it.bucket_, bucketend_ := it.bucketend_ }

/-- The loop `while(itr != end) { ...; ++itr; }` of the test: the nodes that
the iterator refers to, in order. -/
def walk_loop (sfuel : Nat) : Nat → memory (Key × V) → iterator → Option (List Nat)
  | fuel, mem, itr =>
    if itr.node_ ≠ (end_).node_ then
      match fuel with
      | 0 => none
      | f + 1 =>
        match increment sfuel mem itr with
        | none => none
        | some itr1 =>
          match walk_loop sfuel f mem itr1 with
          | none => none
          | some l => some (itr.node_ :: l)
    else some []

/-- Iteration from `begin()` with `++` until the iterator equals `end()`. -/
def walk (fuel : Nat) (m : unordered_map Key V) : Option (List Nat) :=
  match begin fuel m with
  | none => none
  | some itr => walk_loop fuel fuel m.mem itr

/-! ### Maps reached by calls -/

/-- A call made on a map. -/
inductive call (Key V : Type) where
  | insert (v : Key × V)
  | erase (k : Key)
  | clear
  | rehash (count : Nat)

/-- When `insert(v)` on `m` finds no equal key, the allocators answer with
free storage: `freshb` for the table if the call rehashes, and `fresh` for the
node, free after that. -/
def AllocOk (hasher : Key → Nat) (equals : Key → Key → Bool) (full : Nat → Nat → Bool)
    (m : unordered_map Key V) (v : Key × V) (freshb fresh : Nat) : Prop :=
  ∀ itr, find hasher equals m.size_ m v.1 = some itr → itr.node_ = 0 →
    ((m.size_ = 0 ∨ full m.size_ m.numbuckets_ = true) →
      m.numbuckets_ < calc_table_size (m.numbuckets_ + 1) →
      freshb ≠ 0 ∧ ∀ x, freshb ≤ x → x < freshb + calc_table_size (m.numbuckets_ + 1) →
        m.mem x = none) ∧
    ∀ m0, reserve hasher full m.size_ freshb m = some m0 → fresh ≠ 0 ∧ m0.mem fresh = none

/-- The maps reached from the empty map by `insert`, `erase(k)`, `erase(itr)`
with the iterator that `find(k)` returns, `clear` and `rehash`, with the calls
made, the latest first.  The loops run on the fuel `size_`. -/
inductive Reaches (hasher : Key → Nat) (equals : Key → Key → Bool) (full : Nat → Nat → Bool) :
    List (call Key V) → unordered_map Key V → Prop where
  | empty : Reaches hasher equals full [] empty_map
  | insert {cs : List (call Key V)} {m m1 : unordered_map Key V} {v : Key × V}
      {freshb fresh : Nat} {r : iterator × Bool} :
      Reaches hasher equals full cs m → AllocOk hasher equals full m v freshb fresh →
      insert hasher equals full m.size_ freshb fresh m v = some (m1, r) →
      Reaches hasher equals full (call.insert v :: cs) m1
  | erase_key {cs : List (call Key V)} {m m1 : unordered_map Key V} {k : Key} {c : Nat} :
      Reaches hasher equals full cs m → erase_key hasher equals m.size_ m k = some (m1, c) →
      Reaches hasher equals full (call.erase k :: cs) m1
  | erase {cs : List (call Key V)} {m m1 : unordered_map Key V} {k : Key} {itr : iterator} :
      Reaches hasher equals full cs m → find hasher equals m.size_ m k = some itr →
      itr.node_ ≠ 0 → erase m itr = some m1 →
      Reaches hasher equals full (call.erase k :: cs) m1
  | clear {cs : List (call Key V)} {m m1 : unordered_map Key V} :
      Reaches hasher equals full cs m → clear m.size_ m = some m1 →
      Reaches hasher equals full (call.clear :: cs) m1
  | rehash {cs : List (call Key V)} {m m1 : unordered_map Key V} {count freshb : Nat} :
      Reaches hasher equals full cs m →
      (count > m.numbuckets_ → freshb ≠ 0 ∧
        ∀ x, freshb ≤ x → x < freshb + count → m.mem x = none) →
      rehash hasher m.size_ freshb m count = some m1 →
      Reaches hasher equals full (call.rehash count :: cs) m1

/-- The key `k` was inserted and not erased since, in the calls `cs` (the
latest first); `clear` erases every key. -/
def Live (equals : Key → Key → Bool) : List (call Key V) → Key → Prop
  | [], _ => False
  | call.insert v :: cs, k => equals k v.1 = true ∨ Live equals cs k
  | call.erase k1 :: cs, k => equals k1 k = false ∧ Live equals cs k
  | call.clear :: _, _ => False
  | call.rehash _ :: cs, k => Live equals cs k

/-- The pairs that a map holds after the calls `cs` (the latest first):
`insert(v)` adds `v` unless a pair with an equal key is there, `erase(k)`
removes the pairs with a key equal to `k`, `clear` removes all. -/
def content (equals : Key → Key → Bool) : List (call Key V) → List (Key × V)
  | [] => []
  | call.insert v :: cs =>
    if (content equals cs).any (fun kv => equals v.1 kv.1) then content equals cs
    else v :: content equals cs
  | call.erase k :: cs => (content equals cs).filter (fun kv => !equals k kv.1)
  | call.clear :: _ => []
  | call.rehash _ :: cs => content equals cs

/-- The function `equals` is an equivalence of keys, and equal keys have
the same hash value. -/
def KeyEq (hasher : Key → Nat) (equals : Key → Key → Bool) : Prop :=
  (∀ a, equals a a = true) ∧ (∀ a b, equals a b = true → equals b a = true) ∧
  (∀ a b c, equals a b = true → equals b c = true → equals a c = true) ∧
  (∀ a b, equals a b = true → hasher a = hasher b)

/-- The nodes of all buckets, bucket after bucket. -/
def all_nodes (m : unordered_map Key V) (nodes : Nat → List Nat) : List Nat :=
  (anchors m.buckets_ m.numbuckets_).flatMap nodes

/-- The pairs in all buckets, bucket after bucket. -/
def all_vals (m : unordered_map Key V) (vals : Nat → List (Key × V)) : List (Key × V) :=
  (anchors m.buckets_ m.numbuckets_).flatMap vals

/-- The map is well formed and `size_` is the number of its nodes. -/
def Counted (hasher : Key → Nat) (m : unordered_map Key V) (nodes : Nat → List Nat)
    (vals : Nat → List (Key × V)) : Prop :=
  MapInv hasher m nodes vals ∧ m.size_ = (all_nodes m nodes).length

/-! ### Example states -/

/-- The map after `insert((1, 10))` and `insert((14, 20))`, the second node at
address 201: both keys are in the bucket 1 of the 13 buckets. -/
def demo_map2 : unordered_map Nat Nat :=
  match insert demo_hasher demo_equals demo_full 1 0 201 demo_map1 (14, 20) with
  | some r => r.1
  | none => demo_map1

end unordered_map

/-- The tree of `demo4`: the nodes of the keys 2, 1, 3, 4 are at the
addresses 0, 1, 2, 3. -/
def demo4_tree : NodeTree Nat :=
  NodeTree.node 0 BLACK (NodeTree.node 1 BLACK NodeTree.nil 1 NodeTree.nil) 2
    (NodeTree.node 2 BLACK NodeTree.nil 3 (NodeTree.node 3 RED NodeTree.nil 4 NodeTree.nil))

end taapp

namespace taapp

variable {Key : Type}

open NodeTree

/-! ## Basic facts about the heap stores -/

theorem write_mem (s : set Key) (a : Nat) (n : rbnode Key) (q : Nat) :
    (s.write a n).mem q = if q = a then some n else s.mem q := rfl

@[simp]
theorem write_root (s : set Key) (a : Nat) (n : rbnode Key) :
    (s.write a n).root_ = s.root_ := rfl

@[simp]
theorem write_size (s : set Key) (a : Nat) (n : rbnode Key) :
    (s.write a n).size_ = s.size_ := rfl

@[simp]
theorem write_next (s : set Key) (a : Nat) (n : rbnode Key) :
    (s.write a n).next = s.next := rfl

@[simp]
theorem free_mem (s : set Key) (a q : Nat) :
    (s.free a).mem q = if q = a then none else s.mem q := rfl

@[simp]
theorem free_root (s : set Key) (a : Nat) : (s.free a).root_ = s.root_ := rfl

@[simp]
theorem free_size (s : set Key) (a : Nat) : (s.free a).size_ = s.size_ := rfl

@[simp]
theorem free_next (s : set Key) (a : Nat) : (s.free a).next = s.next := rfl

/-! ## Abstract trees: order of nodes -/

namespace NodeTree

@[simp]
theorem nodes_nil : (nil : NodeTree Key).nodes = [] := rfl

@[simp]
theorem nodes_node (i : Nat) (c : Bool) (l : NodeTree Key) (v : Key) (r : NodeTree Key) :
    (node i c l v r).nodes = l.nodes ++ (i, v) :: r.nodes := rfl

@[simp]
theorem root_nil : (nil : NodeTree Key).root = none := rfl

@[simp]
theorem root_node (i : Nat) (c : Bool) (l : NodeTree Key) (v : Key) (r : NodeTree Key) :
    (node i c l v r).root = some i := rfl

@[simp]
theorem root_mk (d : Bool) (i : Nat) (c : Bool) (a : NodeTree Key) (v : Key)
    (b : NodeTree Key) : (mk d i c a v b).root = some i := by
  cases d <;> rfl

theorem nodes_mk (d : Bool) (i : Nat) (c : Bool) (a : NodeTree Key) (v : Key)
    (b : NodeTree Key) :
    (mk d i c a v b).nodes =
      if d = LEFT then a.nodes ++ (i, v) :: b.nodes else b.nodes ++ (i, v) :: a.nodes := by
  cases d <;> rfl

theorem root_mem_ids {t : NodeTree Key} {a : Nat} (h : t.root = some a) : a ∈ t.ids := by
  cases t with
  | nil => simp at h
  | node i c l v r =>
    simp only [root_node, Option.some.injEq] at h
    subst h
    simp [ids]

@[simp]
theorem paint_nodes (c : Bool) (t : NodeTree Key) : (t.paint c).nodes = t.nodes := by
  cases t <;> rfl

@[simp]
theorem paint_root (c : Bool) (t : NodeTree Key) : (t.paint c).root = t.root := by
  cases t <;> rfl

end NodeTree

theorem plug_nodes (ctx : List (Frame Key)) (t : NodeTree Key) :
    (plug ctx t).nodes = ctxBefore ctx ++ t.nodes ++ ctxAfter ctx := by
  induction ctx generalizing t with
  | nil => simp [plug, ctxBefore, ctxAfter]
  | cons f ctx ih =>
    rw [plug, ih]
    rcases f with ⟨i, c, v, d, sib⟩
    cases d <;> simp [Frame.fill, NodeTree.mk, ctxBefore, ctxAfter]

theorem plug_root (ctx : List (Frame Key)) (t : NodeTree Key) :
    (plug ctx t).root = croot ctx t.root := by
  induction ctx generalizing t with
  | nil => rfl
  | cons f ctx ih =>
    rw [plug, ih]
    simp [Frame.fill, croot]

/-! ## Representation: framing and paths -/

theorem RepT_congr {mem mem1 : Nat → Option (rbnode Key)} {par : Option Nat}
    {t : NodeTree Key} (h : RepT mem par t) (hm : ∀ a ∈ t.ids, mem1 a = mem a) :
    RepT mem1 par t := by
  induction t generalizing par with
  | nil => trivial
  | node i c l v r ihl ihr =>
    obtain ⟨h1, h2, h3⟩ := h
    refine ⟨?_, ihl h2 ?_, ihr h3 ?_⟩
    · rw [hm i (by simp [ids]), h1]
    · intro a ha
      exact hm a (by simp only [ids, nodes_node, List.map_append, List.mem_append] at ha ⊢; exact Or.inl ha)
    · intro a ha
      refine hm a ?_
      simp only [ids, nodes_node, List.map_append, List.mem_append, List.map_cons,
        List.mem_cons] at ha ⊢
      exact Or.inr (Or.inr ha)

theorem cids_cons (f : Frame Key) (ctx : List (Frame Key)) (a : Nat) :
    a ∈ cids (f :: ctx) ↔ a = f.id ∨ a ∈ f.sib.ids ∨ a ∈ cids ctx := by
  rcases f with ⟨i, c, v, d, sib⟩
  cases d <;> simp [cids, ctxBefore, ctxAfter, ids] <;> tauto

theorem RepC_congr {mem mem1 : Nat → Option (rbnode Key)} {ctx : List (Frame Key)}
    {q : Option Nat} (h : RepC mem ctx q) (hm : ∀ a ∈ cids ctx, mem1 a = mem a) :
    RepC mem1 ctx q := by
  induction ctx generalizing q with
  | nil => trivial
  | cons f ctx ih =>
    obtain ⟨h1, h2, h3⟩ := h
    refine ⟨?_, RepT_congr h2 ?_, ih h3 ?_⟩
    · rw [hm f.id ((cids_cons f ctx _).2 (Or.inl rfl)), h1]
    · intro a ha
      exact hm a ((cids_cons f ctx _).2 (Or.inr (Or.inl ha)))
    · intro a ha
      exact hm a ((cids_cons f ctx _).2 (Or.inr (Or.inr ha)))

theorem RepT_mk {mem : Nat → Option (rbnode Key)} {par : Option Nat} (d : Bool) (i : Nat)
    (c : Bool) (a : NodeTree Key) (v : Key) (b : NodeTree Key) :
    RepT mem par (mk d i c a v b) ↔
      mem i = some { value := v, color := c, parent := par,
                     left := if d = LEFT then a.root else b.root,
                     right := if d = LEFT then b.root else a.root } ∧
      RepT mem (some i) a ∧ RepT mem (some i) b := by
  cases d <;> simp [NodeTree.mk, RepT] <;> tauto

theorem RepT_plug {mem : Nat → Option (rbnode Key)} (ctx : List (Frame Key))
    (t : NodeTree Key) :
    RepT mem none (plug ctx t) ↔ RepC mem ctx t.root ∧ RepT mem (cpar ctx) t := by
  induction ctx generalizing t with
  | nil => simp [plug, RepC, cpar]
  | cons f ctx ih =>
    rw [plug, ih, Frame.fill, RepT_mk]
    simp only [root_mk, RepC, cpar]
    tauto

theorem plug_ids (ctx : List (Frame Key)) (t : NodeTree Key) (a : Nat) :
    a ∈ (plug ctx t).ids ↔ a ∈ t.ids ∨ a ∈ cids ctx := by
  simp [ids, plug_nodes, cids]
  tauto

end taapp

namespace taapp

variable {Key : Type}

open NodeTree

theorem write_mem_ne {s : set Key} {a q : Nat} (n : rbnode Key) (h : q ≠ a) :
    (s.write a n).mem q = s.mem q := by
  simp [write_mem, h]

theorem write_mem_eq (s : set Key) (a : Nat) (n : rbnode Key) :
    (s.write a n).mem a = some n := by
  simp [write_mem]

namespace NodeTree

@[simp]
theorem ids_nil : (nil : NodeTree Key).ids = [] := rfl

@[simp]
theorem ids_node (i : Nat) (c : Bool) (l : NodeTree Key) (v : Key) (r : NodeTree Key) :
    (node i c l v r).ids = l.ids ++ i :: r.ids := by
  simp [ids]

theorem ids_mk (d : Bool) (i : Nat) (c : Bool) (a : NodeTree Key) (v : Key)
    (b : NodeTree Key) :
    (mk d i c a v b).ids = if d = LEFT then a.ids ++ i :: b.ids else b.ids ++ i :: a.ids := by
  cases d <;> simp [NodeTree.mk]

@[simp]
theorem paint_ids (c : Bool) (t : NodeTree Key) : (t.paint c).ids = t.ids := by
  simp [ids]

theorem root_ne_of_not_mem {t : NodeTree Key} {a : Nat} (h : a ∉ t.ids) : t.root ≠ some a :=
  fun e => h (root_mem_ids e)

end NodeTree

theorem cids_perm (f : Frame Key) (ctx : List (Frame Key)) :
    (cids (f :: ctx)).Perm (f.id :: (f.sib.ids ++ cids ctx)) := by
  rcases f with ⟨i, c, v, d, sib⟩
  rw [List.perm_iff_count]
  intro a
  cases d <;>
    simp only [cids, ctxBefore, ctxAfter, ids, List.map_append, List.map_cons, List.map_nil,
      List.count_append, List.count_cons, List.count_nil, ↓reduceIte, Bool.true_eq_false] <;>
    omega

theorem plug_ids_perm (ctx : List (Frame Key)) (t : NodeTree Key) :
    (plug ctx t).ids.Perm (t.ids ++ cids ctx) := by
  rw [List.perm_iff_count]
  intro a
  simp only [ids, plug_nodes, cids, List.map_append, List.count_append]
  omega

theorem plug_nodup {ctx : List (Frame Key)} {t : NodeTree Key} :
    (plug ctx t).ids.Nodup ↔ (t.ids ++ cids ctx).Nodup :=
  (plug_ids_perm ctx t).nodup_iff

theorem nodup_cids_cons {l : List Nat} {f : Frame Key} {ctx : List (Frame Key)} :
    (l ++ cids (f :: ctx)).Nodup ↔ (l ++ f.id :: (f.sib.ids ++ cids ctx)).Nodup :=
  (List.Perm.append_left l (cids_perm f ctx)).nodup_iff

theorem RepT_frame {mem mem1 : Nat → Option (rbnode Key)} {par : Option Nat}
    {t : NodeTree Key} (M : List Nat) (h : RepT mem par t)
    (hag : ∀ a, a ∉ M → mem1 a = mem a) (hdis : ∀ a ∈ M, a ∉ t.ids) : RepT mem1 par t :=
  RepT_congr h (fun a ha => hag a (fun hm => hdis a hm ha))

theorem RepC_frame {mem mem1 : Nat → Option (rbnode Key)} {ctx : List (Frame Key)}
    {q : Option Nat} (M : List Nat) (h : RepC mem ctx q)
    (hag : ∀ a, a ∉ M → mem1 a = mem a) (hdis : ∀ a ∈ M, a ∉ cids ctx) : RepC mem1 ctx q :=
  RepC_congr h (fun a ha => hag a (fun hm => hdis a hm ha))

end taapp

namespace taapp
variable {Key : Type}
open NodeTree

/-! ## Rotation -/

theorem rotate_nodup {d : Bool} {ctx : List (Frame Key)} {r : Nat} {cr c1 c2 : Bool}
    {A : NodeTree Key} {vr : Key} {p : Nat} {cp : Bool} {B : NodeTree Key} {vp : Key}
    {C : NodeTree Key}
    (hnd : (plug ctx (mk d r cr A vr (mk d p cp B vp C))).ids.Nodup) :
    (plug ctx (mk d p c1 (mk d r c2 A vr B) vp C)).ids.Nodup := by
  simp only [ids, plug_nodes, nodes_mk] at hnd ⊢
  cases d <;> simpa using hnd

set_option maxHeartbeats 1000000 in
/-- Refinement of `rotate<d>(r)` on a represented tree: the pivot `p` takes the place of `r`,
which becomes its child on side `d`. -/
theorem rotate_spec (d : Bool) {s : set Key} {ctx : List (Frame Key)} {r : Nat} {cr : Bool}
    {A : NodeTree Key} {vr : Key} {p : Nat} {cp : Bool} {B : NodeTree Key} {vp : Key}
    {C : NodeTree Key}
    (h : Rep s (plug ctx (mk d r cr A vr (mk d p cp B vp C)))) :
    ∃ s1, rotate d s (some r) = some (s1, some p) ∧
      Rep s1 (plug ctx (mk d p BLACK (mk d r RED A vr B) vp C)) ∧
      s1.size_ = s.size_ ∧ s1.next = s.next ∧
      ∀ a, a ∉ (plug ctx (mk d r cr A vr (mk d p cp B vp C))).ids → s1.mem a = s.mem a := by
  obtain ⟨ht, hroot, hnd⟩ := h
  have hnd2 : (plug ctx (mk d p BLACK (mk d r RED A vr B) vp C)).ids.Nodup := rotate_nodup hnd
  have hsub : ∀ a, a ∈ [r, p] ++ (B.root.toList ++ (cpar ctx).toList) →
      a ∈ (plug ctx (mk d r cr A vr (mk d p cp B vp C))).ids := by
    intro a ha
    rw [plug_ids, ids_mk, ids_mk]
    rcases ctx with _ | ⟨f, ctx⟩ <;> rcases B with _ | ⟨b, cb, Bl, vb, Br⟩ <;> cases d <;>
      simp [cpar, cids_cons] at ha ⊢ <;> tauto
  rw [RepT_plug, RepT_mk, RepT_mk] at ht
  obtain ⟨hC, hr, hA, hp, hB, hCC⟩ := ht
  rw [plug_root] at hroot
  rw [plug_nodup] at hnd
  rcases ctx with _ | ⟨⟨g, cg, vg, dg, sg⟩, ctx⟩
  · rcases B with _ | ⟨b, cb, Bl, vb, Br⟩
    · have hnd3 : (A.ids ++ C.ids ++ [r, p]).Nodup := by
        refine (List.Perm.nodup_iff ?_).1 hnd
        rw [List.perm_iff_count]
        intro a
        cases d <;> simp [ids_mk, List.count_append, List.count_cons, cids, ctxBefore,
          ctxAfter] <;> omega
      clear hnd
      simp [List.nodup_append, List.nodup_cons] at hnd3
      have hM : r ≠ p ∧ p ≠ r := by omega
      obtain ⟨h1, h2⟩ := hM
      have key : ∃ s1, rotate d s (some r) = some (s1, some p) ∧ s1.root_ = some p ∧
          s1.size_ = s.size_ ∧ s1.next = s.next ∧
          s1.mem p = some { value := vp, color := BLACK, parent := none,
                            left := if d = LEFT then some r else C.root,
                            right := if d = LEFT then C.root else some r } ∧
          s1.mem r = some { value := vr, color := RED, parent := some p,
                            left := if d = LEFT then A.root else none,
                            right := if d = LEFT then none else A.root } ∧
          ∀ a, a ∉ [r, p] → s1.mem a = s.mem a := by
        cases d <;>
          simp only [rotate, get_child, deref, hr, hp, set_parent, replace_child,
            set_child, set_left, set_right, set_color, bind, Option.bind, write_mem, h1, h2,
            ↓reduceIte, Bool.not_false, Bool.not_true, ne_eq, not_false_eq_true,
            not_true_eq_false, Option.some.injEq, reduceCtorEq, Prod.mk.injEq, and_true,
            true_and, exists_eq_left', pure, write_root, write_size, write_next, if_true,
            if_false, Bool.false_eq_true, Bool.true_eq_false, List.mem_cons,
            List.mem_singleton, not_or, List.not_mem_nil, or_false, and_imp, cpar, root_nil,
            root_mk] <;>
          intro a e1 e2 <;> simp only [e1, e2, ↓reduceIte]
      obtain ⟨s1, e, e1, e2, e3, mp, mr, hag⟩ := key
      refine ⟨s1, e, ⟨?_, ?_, hnd2⟩, e2, e3, ?_⟩
      · rw [RepT_plug, RepT_mk, RepT_mk]
        refine ⟨trivial, ?_, ⟨?_, ?_, trivial⟩, ?_⟩
        · simpa [cpar] using mp
        · simpa using mr
        · exact RepT_frame _ hA hag (by simp [hnd3])
        · exact RepT_frame _ hCC hag (by simp [hnd3])
      · rw [e1, plug_root]
        simp [croot]
      · intro a ha
        exact hag a (fun hm => ha (hsub a (by simpa [cpar] using hm)))
    · obtain ⟨hb, hBl, hBr⟩ := hB
      have hnd3 : (A.ids ++ Bl.ids ++ Br.ids ++ C.ids ++ [r, p, b]).Nodup := by
        refine (List.Perm.nodup_iff ?_).1 hnd
        rw [List.perm_iff_count]
        intro a
        cases d <;> simp [ids_mk, List.count_append, List.count_cons, cids, ctxBefore,
          ctxAfter] <;> omega
      clear hnd
      simp [List.nodup_append, List.nodup_cons] at hnd3
      have hM : r ≠ p ∧ p ≠ r ∧ r ≠ b ∧ b ≠ r ∧ p ≠ b ∧ b ≠ p := by omega
      obtain ⟨h1, h2, h3, h4, h5, h6⟩ := hM
      have key : ∃ s1, rotate d s (some r) = some (s1, some p) ∧ s1.root_ = some p ∧
          s1.size_ = s.size_ ∧ s1.next = s.next ∧
          s1.mem p = some { value := vp, color := BLACK, parent := none,
                            left := if d = LEFT then some r else C.root,
                            right := if d = LEFT then C.root else some r } ∧
          s1.mem r = some { value := vr, color := RED, parent := some p,
                            left := if d = LEFT then A.root else some b,
                            right := if d = LEFT then some b else A.root } ∧
          s1.mem b = some { value := vb, color := cb, parent := some r,
                            left := Bl.root, right := Br.root } ∧
          ∀ a, a ∉ [r, p, b] → s1.mem a = s.mem a := by
        cases d <;>
          simp only [rotate, get_child, deref, hr, hp, hb, set_parent, replace_child,
            set_child, set_left, set_right, set_color, bind, Option.bind, write_mem, h1, h2,
            h3, h4, h5, h6,
            ↓reduceIte, Bool.not_false, Bool.not_true, ne_eq, not_false_eq_true,
            not_true_eq_false, Option.some.injEq, reduceCtorEq, Prod.mk.injEq, and_true,
            true_and, exists_eq_left', pure, write_root, write_size, write_next, if_true,
            if_false, Bool.false_eq_true, Bool.true_eq_false, List.mem_cons,
            List.mem_singleton, not_or, List.not_mem_nil, or_false, and_imp, cpar, root_node,
            root_mk] <;>
          intro a e1 e2 e3 <;> simp only [e1, e2, e3, ↓reduceIte]
      obtain ⟨s1, e, e1, e2, e3, mp, mr, mb, hag⟩ := key
      refine ⟨s1, e, ⟨?_, ?_, hnd2⟩, e2, e3, ?_⟩
      · rw [RepT_plug, RepT_mk, RepT_mk]
        refine ⟨trivial, ?_, ⟨?_, ?_, mb, ?_, ?_⟩, ?_⟩
        · simpa [cpar] using mp
        · simpa using mr
        · exact RepT_frame _ hA hag (by simp [hnd3])
        · exact RepT_frame _ hBl hag (by simp [hnd3])
        · exact RepT_frame _ hBr hag (by simp [hnd3])
        · exact RepT_frame _ hCC hag (by simp [hnd3])
      · rw [e1, plug_root]
        simp [croot]
      · intro a ha
        exact hag a (fun hm => ha (hsub a (by simpa [cpar] using hm)))
  · rw [nodup_cids_cons] at hnd
    obtain ⟨hg, hsg, hC⟩ := hC
    rcases B with _ | ⟨b, cb, Bl, vb, Br⟩
    · have hnd3 : (A.ids ++ C.ids ++ sg.ids ++ cids ctx ++ [r, p, g]).Nodup := by
        refine (List.Perm.nodup_iff ?_).1 hnd
        rw [List.perm_iff_count]
        intro a
        cases d <;> simp [ids_mk, List.count_append, List.count_cons] <;> omega
      clear hnd
      simp [List.nodup_append, List.nodup_cons] at hnd3
      have hM : r ≠ p ∧ p ≠ r ∧ r ≠ g ∧ g ≠ r ∧ p ≠ g ∧ g ≠ p := by omega
      obtain ⟨h1, h2, h3, h4, h5, h6⟩ := hM
      have hsgr : sg.root ≠ some r := root_ne_of_not_mem (by simp [hnd3])
      have key : ∃ s1, rotate d s (some r) = some (s1, some p) ∧ s1.root_ = s.root_ ∧
          s1.size_ = s.size_ ∧ s1.next = s.next ∧
          s1.mem p = some { value := vp, color := BLACK, parent := some g,
                            left := if d = LEFT then some r else C.root,
                            right := if d = LEFT then C.root else some r } ∧
          s1.mem r = some { value := vr, color := RED, parent := some p,
                            left := if d = LEFT then A.root else none,
                            right := if d = LEFT then none else A.root } ∧
          s1.mem g = some { value := vg, color := cg, parent := cpar ctx,
                            left := if dg = LEFT then some p else sg.root,
                            right := if dg = LEFT then sg.root else some p } ∧
          ∀ a, a ∉ [r, p, g] → s1.mem a = s.mem a := by
        cases d <;> cases dg <;>
          simp only [rotate, get_child, deref, hr, hp, hg, set_parent, replace_child,
            set_child, set_left, set_right, set_color, bind, Option.bind, write_mem, h1, h2,
            h3, h4, h5, h6, hsgr,
            ↓reduceIte, Bool.not_false, Bool.not_true, ne_eq, not_false_eq_true,
            not_true_eq_false, Option.some.injEq, reduceCtorEq, Prod.mk.injEq, and_true,
            true_and, exists_eq_left', pure, write_root, write_size, write_next, if_true,
            if_false, Bool.false_eq_true, Bool.true_eq_false, List.mem_cons,
            List.mem_singleton, not_or, List.not_mem_nil, or_false, and_imp, cpar, root_nil,
            root_mk] <;>
          intro a e1 e2 e3 <;> simp only [e1, e2, e3, ↓reduceIte]
      obtain ⟨s1, e, e1, e2, e3, mp, mr, mg, hag⟩ := key
      refine ⟨s1, e, ⟨?_, ?_, hnd2⟩, e2, e3, ?_⟩
      · rw [RepT_plug, RepT_mk, RepT_mk]
        refine ⟨⟨?_, ?_, ?_⟩, ?_, ⟨?_, ?_, trivial⟩, ?_⟩
        · simpa using mg
        · exact RepT_frame _ hsg hag (by simp [hnd3])
        · exact RepC_frame _ hC hag (by simp [hnd3])
        · simpa [cpar] using mp
        · simpa using mr
        · exact RepT_frame _ hA hag (by simp [hnd3])
        · exact RepT_frame _ hCC hag (by simp [hnd3])
      · rw [e1, hroot, plug_root]
        simp [croot]
      · intro a ha
        exact hag a (fun hm => ha (hsub a (by simpa [cpar] using hm)))
    · obtain ⟨hb, hBl, hBr⟩ := hB
      have hnd3 : (A.ids ++ Bl.ids ++ Br.ids ++ C.ids ++ sg.ids ++ cids ctx ++
          [r, p, b, g]).Nodup := by
        refine (List.Perm.nodup_iff ?_).1 hnd
        rw [List.perm_iff_count]
        intro a
        cases d <;> simp [ids_mk, List.count_append, List.count_cons] <;> omega
      clear hnd
      simp [List.nodup_append, List.nodup_cons] at hnd3
      have hM : r ≠ p ∧ p ≠ r ∧ r ≠ b ∧ b ≠ r ∧ r ≠ g ∧ g ≠ r ∧ p ≠ b ∧ b ≠ p ∧ p ≠ g ∧
          g ≠ p ∧ b ≠ g ∧ g ≠ b := by omega
      obtain ⟨h1, h2, h3, h4, h5, h6, h7, h8, h9, h10, h11, h12⟩ := hM
      have hsgr : sg.root ≠ some r := root_ne_of_not_mem (by simp [hnd3])
      have key : ∃ s1, rotate d s (some r) = some (s1, some p) ∧ s1.root_ = s.root_ ∧
          s1.size_ = s.size_ ∧ s1.next = s.next ∧
          s1.mem p = some { value := vp, color := BLACK, parent := some g,
                            left := if d = LEFT then some r else C.root,
                            right := if d = LEFT then C.root else some r } ∧
          s1.mem r = some { value := vr, color := RED, parent := some p,
                            left := if d = LEFT then A.root else some b,
                            right := if d = LEFT then some b else A.root } ∧
          s1.mem b = some { value := vb, color := cb, parent := some r,
                            left := Bl.root, right := Br.root } ∧
          s1.mem g = some { value := vg, color := cg, parent := cpar ctx,
                            left := if dg = LEFT then some p else sg.root,
                            right := if dg = LEFT then sg.root else some p } ∧
          ∀ a, a ∉ [r, p, b, g] → s1.mem a = s.mem a := by
        cases d <;> cases dg <;>
          simp only [rotate, get_child, deref, hr, hp, hb, hg, set_parent, replace_child,
            set_child, set_left, set_right, set_color, bind, Option.bind, write_mem, h1, h2,
            h3, h4, h5, h6, h7, h8, h9, h10, h11, h12, hsgr,
            ↓reduceIte, Bool.not_false, Bool.not_true, ne_eq, not_false_eq_true,
            not_true_eq_false, Option.some.injEq, reduceCtorEq, Prod.mk.injEq, and_true,
            true_and, exists_eq_left', pure, write_root, write_size, write_next, if_true,
            if_false, Bool.false_eq_true, Bool.true_eq_false, List.mem_cons,
            List.mem_singleton, not_or, List.not_mem_nil, or_false, and_imp, cpar, root_node,
            root_mk] <;>
          intro a e1 e2 e3 e4 <;> simp only [e1, e2, e3, e4, ↓reduceIte]
      obtain ⟨s1, e, e1, e2, e3, mp, mr, mb, mg, hag⟩ := key
      refine ⟨s1, e, ⟨?_, ?_, hnd2⟩, e2, e3, ?_⟩
      · rw [RepT_plug, RepT_mk, RepT_mk]
        refine ⟨⟨?_, ?_, ?_⟩, ?_, ⟨?_, ?_, mb, ?_, ?_⟩, ?_⟩
        · simpa using mg
        · exact RepT_frame _ hsg hag (by simp [hnd3])
        · exact RepC_frame _ hC hag (by simp [hnd3])
        · simpa [cpar] using mp
        · simpa using mr
        · exact RepT_frame _ hA hag (by simp [hnd3])
        · exact RepT_frame _ hBl hag (by simp [hnd3])
        · exact RepT_frame _ hBr hag (by simp [hnd3])
        · exact RepT_frame _ hCC hag (by simp [hnd3])
      · rw [e1, hroot, plug_root]
        simp [croot]
      · intro a ha
        exact hag a (fun hm => ha (hsub a (by simpa [cpar] using hm)))

end taapp

namespace taapp
variable {Key : Type}
open NodeTree

/-! ## Reading and recolouring a represented node -/

theorem Rep.lookup {s : set Key} {ctx : List (Frame Key)} {i : Nat} {c : Bool}
    {l : NodeTree Key} {v : Key} {r : NodeTree Key} (h : Rep s (plug ctx (node i c l v r))) :
    s.mem i = some { value := v, color := c, parent := cpar ctx, left := l.root,
                     right := r.root } :=
  ((RepT_plug ctx _).1 h.tree).2.1

theorem lookup_mk {s : set Key} {ctx : List (Frame Key)} {d : Bool} {i : Nat} {c : Bool}
    {a : NodeTree Key} {v : Key} {b : NodeTree Key} (h : Rep s (plug ctx (mk d i c a v b))) :
    s.mem i = some { value := v, color := c, parent := cpar ctx,
                     left := if d = LEFT then a.root else b.root,
                     right := if d = LEFT then b.root else a.root } := by
  cases d
  · exact h.lookup
  · exact h.lookup

theorem is_red_node {s : set Key} {ctx : List (Frame Key)} {t : NodeTree Key}
    (h : Rep s (plug ctx t)) : is_red s t.root = some t.isRed := by
  cases t with
  | nil => rfl
  | node i c l v r =>
    simp only [root_node, is_red, h.lookup, isRed]
    cases c <;> rfl

namespace NodeTree

theorem mk_flip (d : Bool) (i : Nat) (c : Bool) (a : NodeTree Key) (v : Key)
    (b : NodeTree Key) : mk d i c a v b = mk (!d) i c b v a := by
  cases d <;> rfl

theorem node_eq_mk (d : Bool) (i : Nat) (c : Bool) (l : NodeTree Key) (v : Key)
    (r : NodeTree Key) :
    node i c l v r = mk d i c ((node i c l v r).child d) v ((node i c l v r).child (!d)) := by
  cases d <;> rfl

@[simp]
theorem child_mk_self (d : Bool) (i : Nat) (c : Bool) (a : NodeTree Key) (v : Key)
    (b : NodeTree Key) : (mk d i c a v b).child d = a := by
  cases d <;> rfl

@[simp]
theorem child_mk_other (d : Bool) (i : Nat) (c : Bool) (a : NodeTree Key) (v : Key)
    (b : NodeTree Key) : (mk d i c a v b).child (!d) = b := by
  cases d <;> rfl

@[simp]
theorem paint_mk (d : Bool) (i : Nat) (c c1 : Bool) (a : NodeTree Key) (v : Key)
    (b : NodeTree Key) : (mk d i c a v b).paint c1 = mk d i c1 a v b := by
  cases d <;> rfl

@[simp]
theorem isRed_mk (d : Bool) (i : Nat) (c : Bool) (a : NodeTree Key) (v : Key)
    (b : NodeTree Key) : (mk d i c a v b).isRed = c := by
  cases d <;> rfl

theorem rot_mk (d : Bool) (r : Nat) (cr : Bool) (A : NodeTree Key) (vr : Key) (p : Nat)
    (cp : Bool) (B : NodeTree Key) (vp : Key) (C : NodeTree Key) :
    (mk d r cr A vr (mk d p cp B vp C)).rot d = mk d p BLACK (mk d r RED A vr B) vp C := by
  cases d <;> rfl

theorem exists_mk_of_isRed (d : Bool) {t : NodeTree Key} (h : t.isRed = true) :
    ∃ i a v b, t = mk d i RED a v b := by
  cases t with
  | nil => simp [isRed] at h
  | node i c l v r =>
    simp only [isRed] at h
    subst h
    exact ⟨i, _, v, _, node_eq_mk d i RED l v r⟩

theorem exists_mk_of_ne_nil (d : Bool) {t : NodeTree Key} (h : t ≠ nil) :
    ∃ i c a v b, t = mk d i c a v b := by
  cases t with
  | nil => exact absurd rfl h
  | node i c l v r => exact ⟨i, c, _, v, _, node_eq_mk d i c l v r⟩

end NodeTree

theorem paint_spec {s : set Key} {ctx : List (Frame Key)} {i : Nat} {c : Bool}
    {l : NodeTree Key} {v : Key} {r : NodeTree Key} (c1 : Bool)
    (h : Rep s (plug ctx (node i c l v r))) :
    ∃ s1, set_color s (some i) c1 = some s1 ∧ Rep s1 (plug ctx (node i c1 l v r)) ∧
      s1.size_ = s.size_ ∧ s1.next = s.next := by
  have hm := h.lookup
  obtain ⟨ht, hroot, hnd⟩ := h
  rw [RepT_plug] at ht
  obtain ⟨hC, -, hl, hr⟩ := ht
  have hnd1 := plug_nodup.1 hnd
  simp only [ids_node, List.nodup_append, List.nodup_cons, List.mem_append, List.mem_cons,
    List.disjoint_cons_right, List.disjoint_append_left, List.disjoint_cons_left, not_or]
    at hnd1
  have hag : ∀ (n : rbnode Key) (a : Nat), a ∉ [i] → (s.write i n).mem a = s.mem a := by
    intro n a ha
    simp only [List.mem_singleton] at ha
    simp only [write_mem, ha, ↓reduceIte]
  refine ⟨s.write i ⟨v, c1, cpar ctx, l.root, r.root⟩, by simp only [set_color, hm],
    ⟨?_, ?_, ?_⟩, rfl, rfl⟩
  · rw [RepT_plug]
    refine ⟨RepC_frame _ hC (hag _) ?_, ?_, RepT_frame _ hl (hag _) ?_,
      RepT_frame _ hr (hag _) ?_⟩
    · simp only [List.mem_singleton, forall_eq]; tauto
    · simp only [write_mem, ↓reduceIte]
    · simp only [List.mem_singleton, forall_eq]; tauto
    · simp only [List.mem_singleton, forall_eq]; tauto
  · simpa [plug_root] using hroot
  · simpa [ids, plug_nodes] using hnd

theorem paint_spec_mk {s : set Key} {ctx : List (Frame Key)} {d : Bool} {i : Nat} {c : Bool}
    {a : NodeTree Key} {v : Key} {b : NodeTree Key} (c1 : Bool)
    (h : Rep s (plug ctx (mk d i c a v b))) :
    ∃ s1, set_color s (some i) c1 = some s1 ∧ Rep s1 (plug ctx (mk d i c1 a v b)) ∧
      s1.size_ = s.size_ ∧ s1.next = s.next := by
  cases d
  · exact paint_spec c1 h
  · exact paint_spec c1 h

/-! ## Double rotation -/

theorem drot_mk (d : Bool) (g : Nat) (cg : Bool) (A : NodeTree Key) (vg : Key) (p : Nat)
    (cp : Bool) (x : Nat) (cx : Bool) (B : NodeTree Key) (vx : Key) (C : NodeTree Key)
    (vp : Key) (D : NodeTree Key) :
    (mk d g cg A vg (mk d p cp (mk d x cx B vx C) vp D)).drot d =
      mk d x BLACK (mk d g RED A vg B) vx (mk d p RED C vp D) := by
  cases d <;> rfl

/-- Refinement of `double_rotate<d>(g)`: the inner grandchild `x` becomes the root of the
subtree. -/
theorem double_rotate_spec (d : Bool) {s : set Key} {ctx : List (Frame Key)} {g : Nat}
    {cg : Bool} {A : NodeTree Key} {vg : Key} {p : Nat} {cp : Bool} {x : Nat} {cx : Bool}
    {B : NodeTree Key} {vx : Key} {C : NodeTree Key} {vp : Key} {D : NodeTree Key}
    (h : Rep s (plug ctx (mk d g cg A vg (mk d p cp (mk d x cx B vx C) vp D)))) :
    ∃ s1, double_rotate d s (some g) = some (s1, some x) ∧
      Rep s1 (plug ctx (mk d x BLACK (mk d g RED A vg B) vx (mk d p RED C vp D))) ∧
      s1.size_ = s.size_ ∧ s1.next = s.next := by
  have hg := lookup_mk h
  -- first rotation: at `p`, away from `d`, below the frame of `g`
  have h1 : Rep s (plug ({ id := g, c := cg, v := vg, dir := !d, sib := A } :: ctx)
      (mk (!d) p cp D vp (mk (!d) x cx C vx B))) := by
    have e : plug ({ id := g, c := cg, v := vg, dir := !d, sib := A } :: ctx)
        (mk (!d) p cp D vp (mk (!d) x cx C vx B)) =
        plug ctx (mk d g cg A vg (mk d p cp (mk d x cx B vx C) vp D)) := by
      cases d <;> rfl
    rw [e]; exact h
  obtain ⟨s1, e1, r1, z1, n1, -⟩ := rotate_spec (!d) h1
  have h2 : Rep s1 (plug ctx (mk d g cg A vg (mk d x BLACK B vx (mk d p RED C vp D)))) := by
    have e : plug ({ id := g, c := cg, v := vg, dir := !d, sib := A } :: ctx)
        (mk (!d) x BLACK (mk (!d) p RED D vp C) vx B) =
        plug ctx (mk d g cg A vg (mk d x BLACK B vx (mk d p RED C vp D))) := by
      cases d <;> rfl
    rw [← e]; exact r1
  obtain ⟨s2, e2, r2, z2, n2, -⟩ := rotate_spec d h2
  refine ⟨s2, ?_, r2, z2.trans z1, n2.trans n1⟩
  cases d <;> simp only [Bool.not_false, Bool.not_true] at e1 <;>
    simp only [double_rotate, get_child, deref, hg, bind, Option.bind, root_mk, e1, e2,
      Bool.not_false, Bool.not_true, ↓reduceIte, Bool.true_eq_false]

end taapp

namespace taapp
variable {Key : Type}
open NodeTree

/-! ## `balance_insert` -/

theorem Rep.cast {s : set Key} {T T1 : NodeTree Key} (h : Rep s T) (e : T = T1) : Rep s T1 :=
  e ▸ h

/-- Refinement: `balance_insert<d>(g, t)` computes `balI` on the represented subtree. -/
theorem balance_insert_spec {s : set Key} {ctx : List (Frame Key)} {f : Frame Key}
    {t : NodeTree Key} (h : Rep s (plug (f :: ctx) t)) (hne : t ≠ nil) :
    ∃ s1, balance_insert f.dir s (some f.id) t.root = some (s1, (balI f t).root) ∧
      Rep s1 (plug ctx (balI f t)) ∧ s1.size_ = s.size_ ∧ s1.next = s.next := by
  rcases f with ⟨g, cg, vg, d, sib⟩
  obtain ⟨ti, tc, X, tv, Y, rfl⟩ := exists_mk_of_ne_nil d hne
  have h0 : Rep s (plug ctx (mk d g cg (mk d ti tc X tv Y) vg sib)) := h
  have hg := lookup_mk h0
  have ht := lookup_mk h
  have hsibR : is_red s sib.root = some sib.isRed :=
    is_red_node (h0.cast (by cases d <;> rfl) :
      Rep s (plug ((⟨g, cg, vg, !d, mk d ti tc X tv Y⟩ : Frame Key) :: ctx) sib))
  have hXR : is_red s X.root = some X.isRed :=
    is_red_node (h0.cast (by cases d <;> rfl) : Rep s (plug ((⟨ti, tc, tv, d, Y⟩ : Frame Key) ::
      (⟨g, cg, vg, d, sib⟩ : Frame Key) :: ctx) X))
  have hYR : is_red s Y.root = some Y.isRed :=
    is_red_node (h0.cast (by cases d <;> rfl) : Rep s (plug ((⟨ti, tc, tv, !d, X⟩ : Frame Key) ::
      (⟨g, cg, vg, d, sib⟩ : Frame Key) :: ctx) Y))
  by_cases hs : sib.isRed = true
  · -- both children of the root are red: colour change
    obtain ⟨si, S1, sv, S2, rfl⟩ := exists_mk_of_isRed d hs
    simp only [root_mk, isRed_mk] at hsibR
    obtain ⟨s1, e1, r1, z1, n1⟩ := paint_spec_mk RED h0
    have r1' : Rep s1 (plug ((⟨g, RED, vg, d, mk d si RED S1 sv S2⟩ : Frame Key) :: ctx) (mk d ti tc X tv Y)) := r1
    obtain ⟨s2, e2, r2, z2, n2⟩ := paint_spec_mk BLACK r1'
    have r2' : Rep s2 (plug ((⟨g, RED, vg, !d, mk d ti BLACK X tv Y⟩ : Frame Key) :: ctx) (mk d si RED S1 sv S2)) :=
      r2.cast (by cases d <;> rfl)
    obtain ⟨s3, e3, r3, z3, n3⟩ := paint_spec_mk BLACK r2'
    refine ⟨s3, ?_, r3.cast ?_, z3.trans (z2.trans z1), n3.trans (n2.trans n1)⟩
    · cases d <;>
        simp only [balance_insert, get_child, deref, hg, bind, Option.bind, hsibR, root_mk,
          isRed_mk, ↓reduceIte, e1, e2, e3, pure, balI, Bool.not_false, Bool.not_true,
          Bool.true_eq_false]
    · cases d <;> simp [balI, plug, Frame.fill, NodeTree.mk, paint, isRed]
  · simp only [Bool.not_eq_true] at hs
    by_cases hx : X.isRed = true
    · -- outer grandchild is red: single rotation
      have h1 : Rep s (plug ctx (mk (!d) g cg sib vg (mk (!d) ti tc Y tv X))) :=
        h0.cast (by cases d <;> rfl)
      obtain ⟨s1, e1, r1, z1, n1, -⟩ := rotate_spec (!d) h1
      have eb : balI (⟨g, cg, vg, d, sib⟩ : Frame Key) (mk d ti tc X tv Y) =
          mk (!d) ti BLACK (mk (!d) g RED sib vg Y) tv X := by
        simp only [balI, hs, Bool.false_eq_true, ↓reduceIte, child_mk_self, hx, Frame.fill]
        rw [← rot_mk (!d) g cg sib vg ti tc Y tv X]
        cases d <;> rfl
      rw [eb]
      refine ⟨s1, ?_, r1, z1, n1⟩
      cases d <;> simp only [Bool.not_false, Bool.not_true] at e1 <;>
        simp only [balance_insert, get_child, deref, hg, ht, bind, Option.bind, hsibR, hs,
          hXR, hx, root_mk, ↓reduceIte, e1, Bool.not_false, Bool.not_true,
          Bool.true_eq_false, Bool.false_eq_true]
    · simp only [Bool.not_eq_true] at hx
      by_cases hy : Y.isRed = true
      · -- inner grandchild is red: double rotation
        obtain ⟨yi, Y1, yv, Y2, rfl⟩ := exists_mk_of_isRed d hy
        simp only [root_mk, isRed_mk] at hYR
        have h1 : Rep s (plug ctx (mk (!d) g cg sib vg
            (mk (!d) ti tc (mk (!d) yi RED Y2 yv Y1) tv X))) :=
          h0.cast (by cases d <;> rfl)
        obtain ⟨s1, e1, r1, z1, n1⟩ := double_rotate_spec (!d) h1
        have eb : balI (⟨g, cg, vg, d, sib⟩ : Frame Key)
            (mk d ti tc X tv (mk d yi RED Y1 yv Y2)) =
            mk (!d) yi BLACK (mk (!d) g RED sib vg Y2) yv (mk (!d) ti RED Y1 tv X) := by
          simp only [balI, hs, Bool.false_eq_true, ↓reduceIte, child_mk_self, hx,
            child_mk_other, isRed_mk, Frame.fill]
          rw [← drot_mk (!d) g cg sib vg ti tc yi RED Y2 yv Y1 tv X]
          cases d <;> rfl
        rw [eb]
        refine ⟨s1, ?_, r1, z1, n1⟩
        cases d <;> simp only [Bool.not_false, Bool.not_true] at e1 <;>
          simp only [balance_insert, get_child, deref, hg, ht, bind, Option.bind, hsibR, hs,
            hXR, hx, hYR, isRed_mk, root_mk, ↓reduceIte, e1, Bool.not_false, Bool.not_true,
            Bool.true_eq_false, Bool.false_eq_true]
      · simp only [Bool.not_eq_true] at hy
        have eb : balI (⟨g, cg, vg, d, sib⟩ : Frame Key)
            (mk d ti tc X tv Y) = mk d g cg (mk d ti tc X tv Y) vg sib := by
          simp only [balI, hs, Bool.false_eq_true, ↓reduceIte, child_mk_self, hx,
            child_mk_other, hy, Frame.fill]
        rw [eb]
        refine ⟨s, ?_, h0, rfl, rfl⟩
        cases d <;>
          simp only [balance_insert, get_child, deref, hg, ht, bind, Option.bind, hsibR, hs,
            hXR, hx, hYR, hy, root_mk, ↓reduceIte, pure, Bool.not_false, Bool.not_true,
            Bool.true_eq_false, Bool.false_eq_true]

end taapp

namespace taapp
variable {Key : Type}
open NodeTree

/-! ## The re-balancing loop of `insert` -/

theorem lookup_root {s : set Key} {ctx : List (Frame Key)} {t : NodeTree Key}
    (h : Rep s (plug ctx t)) (hne : t ≠ nil) :
    ∃ n, deref s t.root = some n ∧ n.parent = cpar ctx ∧ n.color = t.isRed ∧
      n.left = (t.child LEFT).root ∧ n.right = (t.child RIGHT).root := by
  cases t with
  | nil => exact absurd rfl hne
  | node i c l v r => exact ⟨_, h.lookup, rfl, rfl, rfl, rfl⟩

theorem rot_ne_nil (d : Bool) {t : NodeTree Key} (h : t ≠ nil) : t.rot d ≠ nil := by
  cases t with
  | nil => exact absurd rfl h
  | node i c l v r =>
    cases d <;> cases l <;> cases r <;> simp [rot, child, NodeTree.mk]

theorem mk_ne_nil (d : Bool) (i : Nat) (c : Bool) (a : NodeTree Key) (v : Key)
    (b : NodeTree Key) : mk d i c a v b ≠ nil := by
  cases d <;> simp [NodeTree.mk]

theorem setChild_ne_nil (d : Bool) {t : NodeTree Key} (x : NodeTree Key) (h : t ≠ nil) :
    t.setChild d x ≠ nil := by
  cases t with
  | nil => exact absurd rfl h
  | node i c l v r => cases d <;> simp [setChild]

theorem balI_ne_nil (f : Frame Key) (t : NodeTree Key) : balI f t ≠ nil := by
  unfold balI
  split_ifs
  · exact mk_ne_nil _ _ _ _ _ _
  · exact rot_ne_nil _ (mk_ne_nil _ _ _ _ _ _)
  · exact rot_ne_nil _ (setChild_ne_nil _ _ (mk_ne_nil _ _ _ _ _ _))
  · exact mk_ne_nil _ _ _ _ _ _

theorem plug_ne_nil {ctx : List (Frame Key)} {t : NodeTree Key} (h : t ≠ nil) :
    plug ctx t ≠ nil := by
  induction ctx generalizing t with
  | nil => exact h
  | cons f ctx ih => exact ih (mk_ne_nil _ _ _ _ _ _)

theorem insFix_ne_nil {ctx : List (Frame Key)} {t : NodeTree Key} (h : t ≠ nil) :
    insFix ctx t ≠ nil := by
  induction ctx generalizing t with
  | nil => exact h
  | cons f ctx ih =>
    unfold insFix
    split_ifs
    · exact ih (balI_ne_nil f t)
    · exact plug_ne_nil h

/-- In a represented tree the sibling's pointer differs from the pointer of a
non-empty subtree. -/
theorem sib_root_ne {s : set Key} {ctx : List (Frame Key)} {f : Frame Key} {t : NodeTree Key}
    (h : Rep s (plug (f :: ctx) t)) (hne : t ≠ nil) : f.sib.root ≠ t.root := by
  cases t with
  | nil => exact absurd rfl hne
  | node i c l v r =>
    have hnd := (plug_nodup.1 h.nodup)
    rw [nodup_cids_cons] at hnd
    refine root_ne_of_not_mem ?_
    simp only [ids_node, List.nodup_append, List.nodup_cons, List.mem_append, List.mem_cons,
      List.disjoint_cons_right, List.disjoint_append_left, List.disjoint_cons_left,
      List.disjoint_append_right, not_or] at hnd
    tauto

theorem insert_loop_spec {ctx : List (Frame Key)} :
    ∀ {s : set Key} {t : NodeTree Key} (fuel : Nat), Rep s (plug ctx t) → t ≠ nil →
      ctx.length ≤ fuel →
      ∃ s1, insert_loop fuel s (cpar ctx) t.root = some s1 ∧ Rep s1 (insFix ctx t) ∧
        s1.size_ = s.size_ ∧ s1.next = s.next := by
  induction ctx with
  | nil =>
    intro s t fuel h _ _
    refine ⟨s, ?_, h, rfl, rfl⟩
    cases fuel <;> simp [insert_loop, cpar]
  | cons f ctx ih =>
    intro s t fuel h hne hf
    obtain ⟨n, hn, -, hc, -, -⟩ := lookup_root h hne
    by_cases hr : t.isRed = true
    · obtain ⟨k, rfl⟩ : ∃ k, fuel = k + 1 := ⟨fuel - 1, by simp at hf; omega⟩
      obtain ⟨s1, e1, r1, z1, n1⟩ := balance_insert_spec h hne
      have hfm := lookup_mk (show Rep s (plug ctx (mk f.dir f.id f.c t f.v f.sib)) from h)
      obtain ⟨n2, hn2, hp2, -, -, -⟩ := lookup_root r1 (balI_ne_nil f t)
      obtain ⟨s2, e2, r2, z2, n2'⟩ := ih k r1 (balI_ne_nil f t) (by simp at hf; omega)
      refine ⟨s2, ?_, ?_, z2.trans z1, n2'.trans n1⟩
      · have hdir : (if (if f.dir = LEFT then t.root else f.sib.root) = t.root
            then balance_insert LEFT s (some f.id) t.root
            else balance_insert RIGHT s (some f.id) t.root) =
            balance_insert f.dir s (some f.id) t.root := by
          rcases f with ⟨g, cg, vg, d, sib⟩
          cases d
          · simp
          · have := sib_root_ne h hne
            simp [this]
        have hcp : cpar (f :: ctx) = some f.id := rfl
        simp only [insert_loop, hcp, hn, hc, hr, ↓reduceIte, hfm, hdir, e1, hn2, hp2, e2]
      · simp only [insFix, hr, ↓reduceIte]
        exact r2
    · refine ⟨s, ?_, ?_, rfl, rfl⟩
      · cases fuel <;> simp [insert_loop, cpar, hn, hc, hr]
      · simp only [insFix, hr]
        exact h

end taapp

namespace taapp
variable {Key : Type}
open NodeTree

/-! ## Descent: `find` and the duplicate search of `insert` -/

theorem zoom_plug (lt : Key → Key → Bool) (k : Key) (t : NodeTree Key)
    (ctx : List (Frame Key)) :
    plug (zoom lt k t ctx).2 (zoom lt k t ctx).1 = plug ctx t := by
  induction t generalizing ctx with
  | nil => rfl
  | node i c l v r ihl ihr =>
    unfold zoom
    split_ifs
    · rw [ihl]; rfl
    · rw [ihr]; rfl
    · rfl

theorem height_le_length (t : NodeTree Key) : t.height ≤ t.ids.length := by
  induction t with
  | nil => simp [height]
  | node i c l v r ihl ihr =>
    simp only [height, ids_node, List.length_append, List.length_cons]
    omega

theorem length_le_cids (ctx : List (Frame Key)) : ctx.length ≤ (cids ctx).length := by
  induction ctx with
  | nil => simp
  | cons f ctx ih =>
    have := (cids_perm f ctx).length_eq
    simp only [List.length_cons, List.length_append] at this ⊢
    omega

theorem plug_length (ctx : List (Frame Key)) (t : NodeTree Key) :
    (plug ctx t).ids.length = t.ids.length + (cids ctx).length := by
  have := (plug_ids_perm ctx t).length_eq
  simpa using this

theorem find_loop_spec (lt : Key → Key → Bool) (k : Key) {s : set Key} {t : NodeTree Key} :
    ∀ {ctx : List (Frame Key)} (fuel : Nat), Rep s (plug ctx t) → t.height ≤ fuel →
      find_loop lt k s fuel t.root = some (zoom lt k t ctx).1.root := by
  induction t with
  | nil =>
    intro ctx fuel _ _
    cases fuel <;> rfl
  | node i c l v r ihl ihr =>
    intro ctx fuel h hf
    obtain ⟨n, rfl⟩ : ∃ n, fuel = n + 1 := ⟨fuel - 1, by simp [height] at hf; omega⟩
    simp only [height] at hf
    have hm := h.lookup
    simp only [root_node, find_loop, hm, zoom]
    split_ifs
    · exact ihl n (h : Rep _ (plug ((⟨i, c, v, LEFT, r⟩ : Frame Key) :: ctx) _)) (by omega)
    · exact ihr n (h : Rep _ (plug ((⟨i, c, v, RIGHT, l⟩ : Frame Key) :: ctx) _)) (by omega)
    · rfl

/-- Result of the duplicate search of `insert` in terms of `zoom`. -/
theorem insert_descend_spec (lt : Key → Key → Bool) (k : Key) {s : set Key}
    {t : NodeTree Key} :
    ∀ {ctx : List (Frame Key)} (fuel : Nat) (pos : Option Nat), Rep s (plug ctx t) →
      t.height ≤ fuel → (t = nil → pos = cpar ctx) →
      insert_descend lt k s fuel pos t.root =
        some (match (zoom lt k t ctx).1 with
              | nil => (cpar (zoom lt k t ctx).2, none)
              | node a _ _ _ _ => (some a, some a)) := by
  induction t with
  | nil =>
    intro ctx fuel pos _ _ hp
    rw [hp rfl]
    cases fuel <;> rfl
  | node i c l v r ihl ihr =>
    intro ctx fuel pos h hf _
    obtain ⟨n, rfl⟩ : ∃ n, fuel = n + 1 := ⟨fuel - 1, by simp [height] at hf; omega⟩
    simp only [height] at hf
    have hm := h.lookup
    simp only [root_node, insert_descend, hm, zoom]
    split_ifs
    · exact ihl n _ (h : Rep _ (plug ((⟨i, c, v, LEFT, r⟩ : Frame Key) :: ctx) _)) (by omega)
        (fun _ => rfl)
    · exact ihr n _ (h : Rep _ (plug ((⟨i, c, v, RIGHT, l⟩ : Frame Key) :: ctx) _)) (by omega)
        (fun _ => rfl)
    · rfl

/-- The side on which `zoom` leaves the last node agrees with the comparison
`insert` repeats when it links the new node. -/
theorem zoom_dir (lt : Key → Key → Bool) (k : Key) (t : NodeTree Key) :
    ∀ (ctx : List (Frame Key)) (f : Frame Key) (c1 : List (Frame Key)), t ≠ nil →
      zoom lt k t ctx = (nil, f :: c1) → (lt k f.v = true ↔ f.dir = LEFT) := by
  induction t with
  | nil => intro ctx f c1 h; exact absurd rfl h
  | node i c l v r ihl ihr =>
    intro ctx f c1 _ hz
    unfold zoom at hz
    split_ifs at hz with h1 h2
    · cases l with
      | nil =>
        simp only [zoom, Prod.mk.injEq, List.cons.injEq, true_and] at hz
        obtain ⟨rfl, -⟩ := hz
        simp [h1]
      | node li lc ll lv lr => exact ihl _ f c1 (by simp) hz
    · cases r with
      | nil =>
        simp only [zoom, Prod.mk.injEq, List.cons.injEq, true_and] at hz
        obtain ⟨rfl, -⟩ := hz
        simp [h1]
      | node ri rc rl rv rr => exact ihr _ f c1 (by simp) hz
    · simp at hz

/-! ## Linking the new node -/

theorem link_spec {s : set Key} {ctx : List (Frame Key)} {f : Frame Key} (k : Key) (a : Nat)
    (h : Rep s (plug (f :: ctx) nil)) (ha : a ∉ (plug (f :: ctx) nil).ids) :
    ∃ s1, (if f.dir = LEFT
        then set_left (set.write { s with next := s.next + 1 } a
              ⟨k, RED, some f.id, none, none⟩) (some f.id) (some a)
        else set_right (set.write { s with next := s.next + 1 } a
              ⟨k, RED, some f.id, none, none⟩) (some f.id) (some a)) = some s1 ∧
      Rep s1 (plug (f :: ctx) (node a RED nil k nil)) ∧ s1.size_ = s.size_ ∧
      s1.next = s.next + 1 := by
  rcases f with ⟨g, cg, vg, d, sib⟩
  have hg := lookup_mk (show Rep s (plug ctx (mk d g cg nil vg sib)) from h)
  obtain ⟨ht, hroot, hnd⟩ := h
  rw [RepT_plug] at ht
  obtain ⟨⟨-, hsib, hC⟩, -⟩ := ht
  have hnd1 := plug_nodup.1 hnd
  rw [nodup_cids_cons] at hnd1
  rw [plug_ids, cids_cons] at ha
  simp only [ids_nil, List.not_mem_nil, false_or, not_or] at ha
  obtain ⟨hag, hasib, hactx⟩ := ha
  simp only [ids_nil, List.nil_append, List.nodup_cons, List.mem_append, not_or,
    List.nodup_append] at hnd1
  have hga : g ≠ a := fun e => hag e.symm
  have key : ∃ s1, (if d = LEFT
        then set_left (set.write { s with next := s.next + 1 } a
              ⟨k, RED, some g, none, none⟩) (some g) (some a)
        else set_right (set.write { s with next := s.next + 1 } a
              ⟨k, RED, some g, none, none⟩) (some g) (some a)) = some s1 ∧
      s1.root_ = s.root_ ∧ s1.size_ = s.size_ ∧ s1.next = s.next + 1 ∧
      s1.mem a = some ⟨k, RED, some g, none, none⟩ ∧
      s1.mem g = some ⟨vg, cg, cpar ctx, if d = LEFT then some a else sib.root,
        if d = LEFT then sib.root else some a⟩ ∧
      ∀ x, x ∉ [a, g] → s1.mem x = s.mem x := by
    cases d <;>
      simp only [set_left, set_right, write_mem, hga, hag, hg, ↓reduceIte, root_nil,
        Option.some.injEq, exists_eq_left', write_root, write_size, write_next, true_and,
        Bool.true_eq_false, List.mem_cons, List.mem_singleton, not_or, List.not_mem_nil,
        or_false, and_imp] <;>
      intro x e1 e2 <;> simp only [e1, e2, ↓reduceIte]
  obtain ⟨s1, e, e1, e2, e3, ma, mg, hfr⟩ := key
  refine ⟨s1, e, ⟨?_, ?_, ?_⟩, e2, e3⟩
  · rw [RepT_plug]
    refine ⟨⟨?_, RepT_frame _ hsib hfr ?_, RepC_frame _ hC hfr ?_⟩, ?_, trivial, trivial⟩
    · simpa using mg
    · simp only [List.mem_cons, List.mem_singleton, List.not_mem_nil, or_false,
        forall_eq_or_imp, forall_eq]
      tauto
    · simp only [List.mem_cons, List.mem_singleton, List.not_mem_nil, or_false,
        forall_eq_or_imp, forall_eq]
      tauto
    · simpa [cpar] using ma
  · rw [e1, hroot, plug_root, plug_root]
    rfl
  · rw [plug_nodup, nodup_cids_cons]
    simp only [ids_node, ids_nil, List.nil_append, List.singleton_append, List.nodup_cons,
      List.mem_cons, List.mem_append, not_or, List.nodup_append]
    tauto

end taapp

namespace taapp
variable {Key : Type}
open NodeTree

/-! ## Order of nodes under the abstract operations -/

namespace NodeTree

theorem rot_nodes (d : Bool) (t : NodeTree Key) : (t.rot d).nodes = t.nodes := by
  cases t with
  | nil => rfl
  | node i c l v r =>
    cases d
    · cases r <;> simp [rot, child, NodeTree.mk]
    · cases l <;> simp [rot, child, NodeTree.mk]

theorem setChild_child (d : Bool) (t : NodeTree Key) : t.setChild d (t.child d) = t := by
  cases t with
  | nil => rfl
  | node i c l v r => cases d <;> rfl

theorem setChild_nodes (d : Bool) (t x : NodeTree Key) (h : x.nodes = (t.child d).nodes) :
    (t.setChild d x).nodes = t.nodes := by
  cases t with
  | nil => rfl
  | node i c l v r => cases d <;> simp_all [setChild, child]

theorem drot_nodes (d : Bool) (t : NodeTree Key) : (t.drot d).nodes = t.nodes := by
  unfold drot
  rw [rot_nodes, setChild_nodes _ _ _ (rot_nodes _ _)]

end NodeTree

theorem fill_nodes_congr (f : Frame Key) {t t1 : NodeTree Key} (h : t1.nodes = t.nodes) :
    (f.fill t1).nodes = (f.fill t).nodes := by
  simp only [Frame.fill, nodes_mk, h]

theorem plug_nodes_congr (ctx : List (Frame Key)) {t t1 : NodeTree Key}
    (h : t1.nodes = t.nodes) : (plug ctx t1).nodes = (plug ctx t).nodes := by
  simp only [plug_nodes, h]

theorem balI_nodes (f : Frame Key) (t : NodeTree Key) : (balI f t).nodes = (f.fill t).nodes := by
  unfold balI
  split_ifs
  · simp [Frame.fill, nodes_mk]
  · exact rot_nodes _ _
  · exact drot_nodes _ _
  · rfl

theorem insFix_nodes (ctx : List (Frame Key)) (t : NodeTree Key) :
    (insFix ctx t).nodes = (plug ctx t).nodes := by
  induction ctx generalizing t with
  | nil => rfl
  | cons f ctx ih =>
    unfold insFix
    split_ifs
    · rw [ih, plug]
      exact plug_nodes_congr ctx (balI_nodes f t)
    · rfl

/-- Result of `zoom` from the root: either the tree is a path ending in a
node, or a path ending in an empty place. -/
theorem zoom_cases (lt : Key → Key → Bool) (k : Key) (T : NodeTree Key) :
    (∃ ctx a c l v r, zoom lt k T [] = (node a c l v r, ctx) ∧ T = plug ctx (node a c l v r)) ∨
    (zoom lt k T [] = (nil, []) ∧ T = nil) ∨
    (∃ f ctx, zoom lt k T [] = (nil, f :: ctx) ∧ T = plug (f :: ctx) nil ∧
      (lt k f.v = true ↔ f.dir = LEFT)) := by
  have hp := zoom_plug lt k T []
  rcases hz : zoom lt k T [] with ⟨t, ctx⟩
  rw [hz] at hp
  simp only [plug] at hp
  cases t with
  | node a c l v r => exact Or.inl ⟨ctx, a, c, l, v, r, rfl, hp.symm⟩
  | nil =>
    cases ctx with
    | nil => exact Or.inr (Or.inl ⟨rfl, hp.symm⟩)
    | cons f ctx =>
      refine Or.inr (Or.inr ⟨f, ctx, rfl, hp.symm, ?_⟩)
      refine zoom_dir lt k T [] f ctx ?_ hz
      rintro rfl
      simp [zoom] at hz

theorem insT_nodes_new (lt : Key → Key → Bool) (k : Key) (a : Nat) (T : NodeTree Key)
    (ctx : List (Frame Key)) (hz : zoom lt k T [] = (nil, ctx)) :
    T.nodes = ctxBefore ctx ++ ctxAfter ctx ∧
    (insT lt k a T).nodes = ctxBefore ctx ++ (a, k) :: ctxAfter ctx := by
  have hp := zoom_plug lt k T []
  rw [hz] at hp
  simp only [plug] at hp
  refine ⟨by rw [← hp, plug_nodes]; simp, ?_⟩
  unfold insT
  rw [hz]
  cases ctx with
  | nil => simp [ctxBefore, ctxAfter]
  | cons f ctx =>
    simp only [paint_nodes, insFix_nodes]
    rw [← plug, plug_nodes]
    simp

theorem insT_dup (lt : Key → Key → Bool) (k : Key) (a : Nat) (T : NodeTree Key)
    {ctx : List (Frame Key)} {i : Nat} {c : Bool} {l : NodeTree Key} {v : Key}
    {r : NodeTree Key} (hz : zoom lt k T [] = (node i c l v r, ctx)) : insT lt k a T = T := by
  unfold insT
  rw [hz]

/-! ## `insert` -/

theorem croot_cons (f : Frame Key) (ctx : List (Frame Key)) (q : Option Nat) :
    ∃ g, croot (f :: ctx) q = some g := by
  induction ctx generalizing f q with
  | nil => exact ⟨f.id, rfl⟩
  | cons f1 ctx ih => exact ih f1 (some f.id)

theorem insert_spec (lt : Key → Key → Bool) (k : Key) {s : set Key} {T : NodeTree Key}
    (h : Model s T) :
    ∃ s1 r, insert lt k s = some (s1, r) ∧ Model s1 (insT lt k s.next T) ∧
      ((zoom lt k T []).1 ≠ nil → s1 = s ∧ r = ((zoom lt k T []).1.root, false)) ∧
      ((zoom lt k T []).1 = nil → r = (some s.next, true) ∧ s1.next = s.next + 1) := by
  obtain ⟨hrep, hsize, hfresh⟩ := h
  have hdesc : insert_descend lt k s s.size_ s.root_ s.root_ =
      some (match (zoom lt k T []).1 with
            | nil => (cpar (zoom lt k T []).2, none)
            | node a _ _ _ _ => (some a, some a)) := by
    have := insert_descend_spec lt k s.size_ s.root_ (show Rep _ (plug [] _) from hrep)
      (by rw [hsize]; exact height_le_length T) (by rintro rfl; exact hrep.root)
    rwa [← hrep.root] at this
  have hroot := hrep.root
  have hanew : s.next ∉ T.ids := fun hm => Nat.lt_irrefl _ (hfresh _ hm)
  rcases zoom_cases lt k T with ⟨ctx, a, c, l, v, r, hz, hT⟩ | ⟨hz, hT⟩ | ⟨f, ctx, hz, hT, hdir⟩
  · -- duplicate
    rw [hz] at hdesc
    replace hdesc : insert_descend lt k s s.size_ s.root_ s.root_ =
      some (some a, some a) := hdesc
    refine ⟨s, (some a, false), ?_, ?_, ?_, ?_⟩
    · simp [insert, insert_with, hdesc, bind, Option.bind]
    · rw [insT_dup lt k _ T hz]
      exact ⟨hrep, hsize, hfresh⟩
    · intro _
      simp [hz]
    · intro h0
      simp [hz] at h0
  · -- empty tree
    subst hT
    rw [hz] at hdesc
    have hr0 : s.root_ = none := hroot
    rw [hr0] at hdesc
    replace hdesc : insert_descend lt k s s.size_ none none = some (none, none) := hdesc
    have key : ∃ s1, insert lt k s = some (s1, (some s.next, true)) ∧
        s1.root_ = some s.next ∧ s1.mem s.next = some ⟨k, BLACK, none, none, none⟩ ∧
        s1.size_ = s.size_ + 1 ∧ s1.next = s.next + 1 := by
      simp only [insert, insert_with, hr0, hdesc, bind, Option.bind, cpar, ↓reduceIte,
        write_root, set_color, write_mem, pure, Option.some.injEq, Prod.mk.injEq, ne_eq,
        reduceCtorEq, not_false_eq_true, decide_True, and_true, exists_eq_left', write_size,
        write_next, true_and]
    obtain ⟨s1, e, e1, e2, e3, e4⟩ := key
    refine ⟨s1, (some s.next, true), e, ?_, ?_, ?_⟩
    · have e : insT lt k s.next nil = node s.next BLACK nil k nil := by
        unfold insT; rw [hz]
      rw [e]
      refine ⟨⟨?_, e1, by simp⟩, by simp [hsize, e3], by simp [e4]⟩
      simp [RepT, e2]
    · intro h0
      simp [hz] at h0
    · intro _
      exact ⟨rfl, e4⟩
  · -- new node below `f`
    rw [hz] at hdesc
    subst hT
    obtain ⟨s1, e1, r1, z1, n1⟩ := link_spec k s.next hrep hanew
    have hf := lookup_mk (show Rep s1 (plug ctx (mk f.dir f.id f.c (node s.next RED nil k nil)
      f.v f.sib)) from r1)
    have hlen : ctx.length ≤ s1.size_ := by
      rw [z1, hsize, plug_length]
      have := length_le_cids (f :: ctx)
      simp only [List.length_cons] at this
      omega
    obtain ⟨s2, e2, r2, z2, n2⟩ := insert_loop_spec (t := f.fill (node s.next RED nil k nil))
      s1.size_ r1 (mk_ne_nil _ _ _ _ _ _) hlen
    obtain ⟨ri, rc, rl, rv, rr, hres⟩ : ∃ ri rc rl rv rr,
        insFix ctx (f.fill (node s.next RED nil k nil)) = node ri rc rl rv rr := by
      have : insFix ctx (f.fill (node s.next RED nil k nil)) ≠ nil :=
        insFix_ne_nil (mk_ne_nil f.dir f.id f.c (node s.next RED nil k nil) f.v f.sib)
      cases hh : insFix ctx (f.fill (node s.next RED nil k nil)) with
      | nil => exact absurd hh this
      | node ri rc rl rv rr => exact ⟨ri, rc, rl, rv, rr, rfl⟩
    rw [hres] at r2
    obtain ⟨s3, e3, r3, z3, n3⟩ := paint_spec BLACK (show Rep _ (plug [] _) from r2)
    have hroot2 : s2.root_ = some ri := r2.root
    have hT1 : insT lt k s.next (plug (f :: ctx) nil) = node ri BLACK rl rv rr := by
      unfold insT
      rw [hz]
      simp only [hres, paint]
    have hnodes := insT_nodes_new lt k s.next _ _ hz
    obtain ⟨g, hg⟩ : ∃ g, s.root_ = some g := by
      rw [hroot, plug_root]
      exact croot_cons f ctx _
    have hfm := lookup_mk (show Rep s (plug ctx (mk f.dir f.id f.c nil f.v f.sib)) from hrep)
    rw [hg] at hdesc
    replace hdesc : insert_descend lt k s s.size_ (some g) (some g) =
      some (some f.id, none) := hdesc
    have hfa : f.id ≠ s.next := by
      rintro e
      exact hanew (by rw [plug_ids, cids_cons]; exact Or.inr (Or.inl e.symm))
    refine ⟨{ s3 with size_ := s3.size_ + 1 }, (some s.next, true), ?_, ?_, ?_, ?_⟩
    · have hlink : (if lt k f.v = true
          then set_left (set.write { s with next := s.next + 1 } s.next
              ⟨k, RED, some f.id, none, none⟩) (some f.id) (some s.next)
          else set_right (set.write { s with next := s.next + 1 } s.next
              ⟨k, RED, some f.id, none, none⟩) (some f.id) (some s.next)) = some s1 := by
        rw [← e1]
        by_cases hl : lt k f.v = true
        · simp [hl, hdir.1 hl]
        · have : f.dir ≠ LEFT := fun e => hl (hdir.2 e)
          simp [hl, this]
      have hcp : cpar (f :: ctx) = some f.id := rfl
      simp only [hg] at hlink
      simp only [Frame.fill, root_mk] at e2
      simp only [insert, insert_with, hg, hdesc, bind, Option.bind, hcp, ↓reduceIte,
        reduceCtorEq, deref, write_mem, hfa, hfm, hlink, hf, e2, hroot2, e3, pure,
        Option.some.injEq, ne_eq, not_false_eq_true, decide_True, hfa.symm]
    · rw [hT1]
      refine ⟨⟨r3.tree, r3.root, r3.nodup⟩, ?_, ?_⟩
      · have e : (node ri BLACK rl rv rr).ids.length = (plug (f :: ctx) nil).ids.length + 1 := by
          rw [← hT1]
          simp only [ids, hnodes.1, hnodes.2]
          simp
          omega
        rw [e, ← hsize]
        simp [z3, z2, z1]
      · intro x hx
        rw [← hT1] at hx
        simp only [ids, hnodes.2, List.map_append, List.map_cons, List.mem_append,
          List.mem_cons] at hx
        have hx2 : x = s.next ∨ x ∈ (plug (f :: ctx) nil).ids := by
          simp only [ids, hnodes.1, List.map_append, List.mem_append]
          tauto
        have : s3.next = s.next + 1 := by rw [n3, n2, n1]
        show x < s3.next
        rw [this]
        rcases hx2 with rfl | hx2
        · omega
        · have := hfresh x hx2
          omega
    · intro h0
      simp [hz] at h0
    · intro _
      exact ⟨rfl, by show s3.next = _; rw [n3, n2, n1]⟩

end taapp

namespace taapp
variable {Key : Type}
open NodeTree

/-! ## Paths below an arbitrary node -/

theorem cparT_none (ctx : List (Frame Key)) : cparT none ctx = cpar ctx := by
  cases ctx <;> rfl

theorem RepCt_none {mem : Nat → Option (rbnode Key)} {ctx : List (Frame Key)}
    {q : Option Nat} : RepCt mem none ctx q ↔ RepC mem ctx q := by
  induction ctx generalizing q with
  | nil => simp [RepCt, RepC]
  | cons f ctx ih => simp only [RepCt, RepC, ih, cparT_none]

theorem RepCt_congr {mem mem1 : Nat → Option (rbnode Key)} {top : Option Nat}
    {ctx : List (Frame Key)} {q : Option Nat} (h : RepCt mem top ctx q)
    (hm : ∀ a ∈ cids ctx, mem1 a = mem a) : RepCt mem1 top ctx q := by
  induction ctx generalizing q with
  | nil => trivial
  | cons f ctx ih =>
    obtain ⟨h1, h2, h3⟩ := h
    refine ⟨?_, RepT_congr h2 ?_, ih h3 ?_⟩
    · rw [hm f.id ((cids_cons f ctx _).2 (Or.inl rfl)), h1]
    · intro a ha
      exact hm a ((cids_cons f ctx _).2 (Or.inr (Or.inl ha)))
    · intro a ha
      exact hm a ((cids_cons f ctx _).2 (Or.inr (Or.inr ha)))

theorem RepT_plugT {mem : Nat → Option (rbnode Key)} (top : Option Nat)
    (ctx : List (Frame Key)) (t : NodeTree Key) :
    RepT mem top (plug ctx t) ↔ RepCt mem top ctx t.root ∧ RepT mem (cparT top ctx) t := by
  induction ctx generalizing t with
  | nil => simp [plug, RepCt, cparT]
  | cons f ctx ih =>
    rw [plug, ih, Frame.fill, RepT_mk]
    simp only [root_mk, RepCt, cparT]
    tauto

theorem plug_append (c1 c2 : List (Frame Key)) (t : NodeTree Key) :
    plug (c1 ++ c2) t = plug c2 (plug c1 t) := by
  induction c1 generalizing t with
  | nil => rfl
  | cons f c1 ih => exact ih _

theorem croot_mem_cids {f : Frame Key} {ctx : List (Frame Key)} {q : Option Nat} {a : Nat}
    (h : croot (f :: ctx) q = some a) : a ∈ cids (f :: ctx) := by
  induction ctx generalizing f q with
  | nil =>
    simp only [croot, Option.some.injEq] at h
    exact (cids_cons f [] a).2 (Or.inl h.symm)
  | cons f1 ctx ih =>
    exact (cids_cons f _ a).2 (Or.inr (Or.inr (ih (f := f1) (q := some f.id) h)))

theorem croot_cons_eq (f : Frame Key) (ctx : List (Frame Key)) (q q1 : Option Nat) :
    croot (f :: ctx) q = croot (f :: ctx) q1 := rfl

/-- Changing the parent pointer of the topmost node of a path re-hangs the
path below another node. -/
theorem RepCt_retop {mem mem1 : Nat → Option (rbnode Key)} {top top1 : Option Nat}
    {ctx : List (Frame Key)} {r0 : Nat} :
    ∀ {q : Option Nat}, RepCt mem top ctx q → ctx ≠ [] → croot ctx q = some r0 →
      (cids ctx).Nodup →
      (∀ a ∈ cids ctx, mem1 a =
        if a = r0 then (mem a).map (fun n => { n with parent := top1 }) else mem a) →
      RepCt mem1 top1 ctx q := by
  induction ctx with
  | nil => intro q _ h; exact absurd rfl h
  | cons f ctx ih =>
    intro q h _ hr hnd hm
    obtain ⟨h1, h2, h3⟩ := h
    have hnd1 := (cids_perm f ctx).nodup_iff.1 hnd
    simp only [List.nodup_cons, List.mem_append, not_or, List.nodup_append] at hnd1
    cases ctx with
    | nil =>
      simp only [croot, Option.some.injEq] at hr
      subst hr
      refine ⟨?_, RepT_congr h2 ?_, trivial⟩
      · rw [hm f.id ((cids_cons f [] _).2 (Or.inl rfl))]
        simp [h1, cparT]
      · intro a ha
        rw [hm a ((cids_cons f [] _).2 (Or.inr (Or.inl ha)))]
        have : a ≠ f.id := fun e => hnd1.1.1 (e ▸ ha)
        simp [this]
    | cons f1 ctx =>
      have hr1 : croot (f1 :: ctx) (some f.id) = some r0 := hr
      have hr0 : r0 ∈ cids (f1 :: ctx) := croot_mem_cids hr1
      refine ⟨?_, RepT_congr h2 ?_, ih h3 (by simp) hr1 hnd1.2.2.1 ?_⟩
      · rw [hm f.id ((cids_cons f _ _).2 (Or.inl rfl))]
        have : f.id ≠ r0 := fun e => hnd1.1.2 (e ▸ hr0)
        simp only [this, ↓reduceIte, h1]
        rfl
      · intro a ha
        rw [hm a ((cids_cons f _ _).2 (Or.inr (Or.inl ha)))]
        have : a ≠ r0 := fun e => hnd1.2.2.2 ha (e ▸ hr0)
        simp [this]
      · intro a ha
        exact hm a ((cids_cons f _ _).2 (Or.inr (Or.inr ha)))

/-- Changing the child pointer of the innermost node of a path. -/
theorem RepCt_rechild {mem mem1 : Nat → Option (rbnode Key)} {top : Option Nat}
    {f : Frame Key} {ctx : List (Frame Key)} {q q1 : Option Nat}
    (h : RepCt mem top (f :: ctx) q) (hnd : (cids (f :: ctx)).Nodup)
    (hm : ∀ a ∈ cids (f :: ctx), mem1 a =
      if a = f.id then (mem a).map (fun n =>
        if f.dir = LEFT then { n with left := q1 } else { n with right := q1 }) else mem a) :
    RepCt mem1 top (f :: ctx) q1 := by
  obtain ⟨h1, h2, h3⟩ := h
  have hnd1 := (cids_perm f ctx).nodup_iff.1 hnd
  simp only [List.nodup_cons, List.mem_append, not_or, List.nodup_append] at hnd1
  refine ⟨?_, RepT_congr h2 ?_, RepCt_congr h3 ?_⟩
  · rw [hm f.id ((cids_cons f _ _).2 (Or.inl rfl))]
    rcases f with ⟨g, cg, vg, d, sib⟩
    cases d <;> simp [h1]
  · intro a ha
    rw [hm a ((cids_cons f _ _).2 (Or.inr (Or.inl ha)))]
    have : a ≠ f.id := fun e => hnd1.1.1 (e ▸ ha)
    simp [this]
  · intro a ha
    rw [hm a ((cids_cons f _ _).2 (Or.inr (Or.inr ha)))]
    have : a ≠ f.id := fun e => hnd1.1.2 (e ▸ ha)
    simp [this]

/-- Changing the parent pointer of the root of a subtree. -/
theorem RepT_reparent {mem mem1 : Nat → Option (rbnode Key)} {par par1 : Option Nat}
    {t : NodeTree Key} (h : RepT mem par t) (hnd : t.ids.Nodup)
    (hm : ∀ a ∈ t.ids, mem1 a =
      if some a = t.root then (mem a).map (fun n => { n with parent := par1 }) else mem a) :
    RepT mem1 par1 t := by
  cases t with
  | nil => trivial
  | node i c l v r =>
    obtain ⟨h1, h2, h3⟩ := h
    simp only [ids_node, List.nodup_append, List.nodup_cons, List.disjoint_cons_right] at hnd
    refine ⟨?_, RepT_congr h2 ?_, RepT_congr h3 ?_⟩
    · rw [hm i (by simp)]
      simp [h1]
    · intro a ha
      rw [hm a (by simp [ha])]
      have : a ≠ i := fun e => hnd.2.2.1 (e ▸ ha)
      simp [this]
    · intro a ha
      rw [hm a (by simp [ha])]
      have : a ≠ i := fun e => hnd.2.1.1 (e ▸ ha)
      simp [this]

end taapp

namespace taapp
variable {Key : Type}
open NodeTree

/-! ## Pointer surgery used by `erase` -/

theorem replace_child_spine {s : set Key} {top : Option Nat} {f : Frame Key}
    {cr : List (Frame Key)} {r : Nat} (q : Option Nat)
    (hC : RepCt s.mem top (f :: cr) (some r)) (hr : r ∉ cids (f :: cr))
    (hnd : (cids (f :: cr)).Nodup) :
    ∃ s1, replace_child s (some f.id) (some r) q = some s1 ∧ RepCt s1.mem top (f :: cr) q ∧
      s1.root_ = s.root_ ∧ s1.size_ = s.size_ ∧ s1.next = s.next ∧
      ∀ a, a ≠ f.id → s1.mem a = s.mem a := by
  have hf := hC.1
  have hsr : f.sib.root ≠ some r :=
    root_ne_of_not_mem (fun hm => hr ((cids_cons f cr r).2 (Or.inr (Or.inl hm))))
  have key : ∃ s1, replace_child s (some f.id) (some r) q = some s1 ∧
      s1.root_ = s.root_ ∧ s1.size_ = s.size_ ∧ s1.next = s.next ∧
      ∀ a, s1.mem a = if a = f.id then (s.mem a).map (fun n =>
        if f.dir = LEFT then { n with left := q } else { n with right := q }) else s.mem a := by
    rcases f with ⟨g, cg, vg, d, sib⟩
    simp only at hf hsr
    cases d
    · simp only [replace_child, hf, ↓reduceIte, set_left, Option.some.injEq, exists_eq_left']
      refine ⟨rfl, rfl, rfl, ?_⟩
      intro a
      by_cases e : a = g
      · subst e; simp [write_mem, hf]
      · simp [write_mem, e]
    · simp only [replace_child, hf, Bool.true_eq_false, ↓reduceIte, hsr, set_right,
        Option.some.injEq, exists_eq_left']
      refine ⟨rfl, rfl, rfl, ?_⟩
      intro a
      by_cases e : a = g
      · subst e; simp [write_mem, hf]
      · simp [write_mem, e]
  obtain ⟨s1, e, e1, e2, e3, hm⟩ := key
  refine ⟨s1, e, RepCt_rechild hC hnd (fun a _ => hm a), e1, e2, e3, ?_⟩
  intro a ha
  rw [hm a]
  simp [ha]

theorem replace_child_ctx {s : set Key} {ctx : List (Frame Key)} {r : Nat} (q : Option Nat)
    (hC : RepC s.mem ctx (some r)) (hroot : s.root_ = croot ctx (some r))
    (hr : r ∉ cids ctx) (hnd : (cids ctx).Nodup) :
    ∃ s1, replace_child s (cpar ctx) (some r) q = some s1 ∧ RepC s1.mem ctx q ∧
      s1.root_ = croot ctx q ∧ s1.size_ = s.size_ ∧ s1.next = s.next ∧
      ∀ a, some a ≠ cpar ctx → s1.mem a = s.mem a := by
  cases ctx with
  | nil =>
    exact ⟨{ s with root_ := q }, rfl, trivial, rfl, rfl, rfl, fun _ _ => rfl⟩
  | cons f cr =>
    obtain ⟨s1, e, hC1, e1, e2, e3, hfr⟩ := replace_child_spine q (RepCt_none.2 hC) hr hnd
    refine ⟨s1, e, RepCt_none.1 hC1, by rw [e1, hroot]; rfl, e2, e3, ?_⟩
    intro a ha
    exact hfr a (fun e => ha (by rw [e]; rfl))

theorem set_parent_opt {s : set Key} {par : Option Nat} (par1 : Option Nat)
    {X : NodeTree Key} (h : RepT s.mem par X) (hnd : X.ids.Nodup) :
    ∃ s1, (if X.root ≠ none then set_parent s X.root par1 else some s) = some s1 ∧
      RepT s1.mem par1 X ∧ s1.root_ = s.root_ ∧ s1.size_ = s.size_ ∧ s1.next = s.next ∧
      ∀ a, some a ≠ X.root → s1.mem a = s.mem a := by
  cases X with
  | nil => exact ⟨s, by simp, trivial, rfl, rfl, rfl, fun _ _ => rfl⟩
  | node i c l v r =>
    have hi := h.1
    simp only [root_node, ne_eq, reduceCtorEq, not_false_eq_true, ↓reduceIte, set_parent, hi,
      Option.some.injEq, exists_eq_left']
    refine ⟨?_, rfl, rfl, rfl, ?_⟩
    · refine RepT_reparent h hnd (fun a _ => ?_)
      by_cases e : a = i
      · subst e; simp [write_mem, hi]
      · simp [write_mem, e]
    · intro a ha
      simp [write_mem, ha]

/-- Removing a node with at most one child: its only subtree `X` takes its
place. -/
theorem transplant_spec {s : set Key} {ctx : List (Frame Key)} {e : Bool} {n : Nat} {c : Bool}
    {X : NodeTree Key} {v : Key} (h : Rep s (plug ctx (mk e n c X v nil))) :
    ∃ s1 s2, replace_child s (cpar ctx) (some n) X.root = some s1 ∧
      (if X.root ≠ none then set_parent s1 X.root (cpar ctx) else some s1) = some s2 ∧
      Rep s2 (plug ctx X) ∧ s2.size_ = s.size_ ∧ s2.next = s.next := by
  obtain ⟨ht, hroot, hnd⟩ := h
  rw [RepT_plug, RepT_mk] at ht
  obtain ⟨hC, -, hX, -⟩ := ht
  rw [plug_root] at hroot
  have hnd1 := plug_nodup.1 hnd
  have hnd2 : (X.ids ++ cids ctx ++ [n]).Nodup := by
    refine (List.Perm.nodup_iff ?_).1 hnd1
    rw [List.perm_iff_count]
    intro a
    cases e <;> simp [ids_mk, List.count_append, List.count_cons] <;> omega
  simp only [List.nodup_append, List.nodup_cons, List.disjoint_cons_right,
    List.disjoint_append_left, List.mem_append, not_or, List.not_mem_nil,
    not_false_eq_true, List.nodup_nil, List.disjoint_nil_right, and_true] at hnd2
  obtain ⟨⟨hXnd, hCnd, hdis⟩, -, hnX, hnC⟩ := hnd2
  simp only [root_mk] at hC hroot
  obtain ⟨s1, e1, hC1, r1, z1, n1, f1⟩ := replace_child_ctx X.root hC hroot hnC hCnd
  have hX1 : RepT s1.mem (some n) X := by
    refine RepT_congr hX (fun a ha => f1 a (fun e => ?_))
    cases ctx with
    | nil => simp [cpar] at e
    | cons f cr =>
      simp only [cpar, Option.some.injEq] at e
      exact hdis ha (e ▸ (cids_cons f cr _).2 (Or.inl rfl))
  obtain ⟨s2, e2, hX2, r2, z2, n2, f2⟩ := set_parent_opt (cpar ctx) hX1 hXnd
  refine ⟨s1, s2, e1, e2, ⟨?_, ?_, ?_⟩, z2.trans z1, n2.trans n1⟩
  · rw [RepT_plug]
    refine ⟨RepC_congr hC1 (fun a ha => f2 a (fun e => ?_)), hX2⟩
    exact hdis (root_mem_ids e.symm) ha
  · rw [r2, r1, plug_root]
  · rw [plug_nodup, List.nodup_append]
    exact ⟨hXnd, hCnd, hdis⟩

end taapp

namespace taapp
variable {Key : Type}
open NodeTree

/-! ## The two-children branch of `erase` -/

theorem zoomMin_nil_left (i : Nat) (c : Bool) (v : Key) (r : NodeTree Key)
    (ctx : List (Frame Key)) :
    zoomMin (node i c nil v r) ctx = (node i c nil v r, ctx) := by
  rw [zoomMin]

theorem zoomMin_node_left (i : Nat) (c : Bool) (li : Nat) (lc : Bool) (ll : NodeTree Key)
    (lv : Key) (lr : NodeTree Key) (v : Key) (r : NodeTree Key) (ctx : List (Frame Key)) :
    zoomMin (node i c (node li lc ll lv lr) v r) ctx =
      zoomMin (node li lc ll lv lr) ((⟨i, c, v, LEFT, r⟩ : Frame Key) :: ctx) := by
  rw [zoomMin]

theorem zoomMin_fst (t : NodeTree Key) (c1 c2 : List (Frame Key)) :
    (zoomMin t c1).1 = (zoomMin t c2).1 := by
  induction t generalizing c1 c2 with
  | nil => rfl
  | node j jc jl jv jr ih1 _ =>
    cases jl with
    | nil => simp only [zoomMin_nil_left]
    | node a b c d e =>
      simp only [zoomMin_node_left]
      exact ih1 _ _

theorem zoomMin_spec (R : NodeTree Key) (hR : R ≠ nil) (ctx0 : List (Frame Key)) :
    ∃ si sc sv sr cr, zoomMin R ctx0 = (node si sc nil sv sr, cr ++ ctx0) ∧
      R = plug cr (node si sc nil sv sr) ∧ ∀ f ∈ cr, f.dir = LEFT := by
  induction R generalizing ctx0 with
  | nil => exact absurd rfl hR
  | node i c l v r ihl _ =>
    cases l with
    | nil => exact ⟨i, c, v, r, [], zoomMin_nil_left _ _ _ _ _, rfl, by simp⟩
    | node li lc ll lv lr =>
      obtain ⟨si, sc, sv, sr, cr, hz, hp, hd⟩ :=
        ihl (by simp) ((⟨i, c, v, LEFT, r⟩ : Frame Key) :: ctx0)
      refine ⟨si, sc, sv, sr, cr ++ [(⟨i, c, v, LEFT, r⟩ : Frame Key)], ?_, ?_, ?_⟩
      · rw [zoomMin_node_left, hz]
        simp
      · rw [plug_append, ← hp]; rfl
      · intro f hf
        simp only [List.mem_append, List.mem_singleton] at hf
        rcases hf with hf | rfl
        · exact hd f hf
        · rfl

theorem successor_loop_spec {s : set Key} {R : NodeTree Key} :
    ∀ {par : Option Nat} {r0 : Nat} (fuel : Nat), RepT s.mem par R → R.root = some r0 →
      R.height ≤ fuel → (successor_loop s fuel r0).map some = some (zoomMin R []).1.root := by
  induction R with
  | nil => intro par r0 fuel _ h; simp at h
  | node i c l v r ihl _ =>
    intro par r0 fuel h hr hf
    simp only [root_node, Option.some.injEq] at hr
    subst hr
    obtain ⟨k, rfl⟩ : ∃ k, fuel = k + 1 := ⟨fuel - 1, by simp [height] at hf; omega⟩
    simp only [height] at hf
    cases l with
    | nil => simp [successor_loop, h.1, zoomMin_nil_left]
    | node li lc ll lv lr =>
      have := ihl k h.2.1 (rfl : (node li lc ll lv lr).root = some li) (by omega)
      simp only [successor_loop, h.1, root_node]
      rw [this, zoomMin_node_left, zoomMin_fst _ [] _]

theorem RepT_mem_some {mem : Nat → Option (rbnode Key)} {par : Option Nat} {t : NodeTree Key}
    (h : RepT mem par t) {a : Nat} (ha : a ∈ t.ids) : ∃ n, mem a = some n := by
  induction t generalizing par with
  | nil => simp at ha
  | node i c l v r ihl ihr =>
    simp only [ids_node, List.mem_append, List.mem_cons] at ha
    rcases ha with ha | rfl | ha
    · exact ihl h.2.1 ha
    · exact ⟨_, h.1⟩
    · exact ihr h.2.2 ha

theorem RepCt_mem_some {mem : Nat → Option (rbnode Key)} {top : Option Nat}
    {ctx : List (Frame Key)} {q : Option Nat} (h : RepCt mem top ctx q) {a : Nat}
    (ha : a ∈ cids ctx) : ∃ n, mem a = some n := by
  induction ctx generalizing q with
  | nil => simp [cids, ctxBefore, ctxAfter] at ha
  | cons f ctx ih =>
    rcases (cids_cons f ctx a).1 ha with rfl | ha | ha
    · exact ⟨_, h.1⟩
    · exact RepT_mem_some h.2.1 ha
    · exact ih h.2.2 ha

end taapp

namespace taapp
variable {Key : Type}
open NodeTree

theorem zoomMin_plug (cr : List (Frame Key)) (hdir : ∀ f ∈ cr, f.dir = LEFT) :
    ∀ (t : NodeTree Key), t ≠ nil → ∀ ctx0, zoomMin (plug cr t) ctx0 = zoomMin t (cr ++ ctx0) := by
  induction cr with
  | nil => intro t _ ctx0; rfl
  | cons f cr ih =>
    intro t ht ctx0
    have hf : f.dir = LEFT := hdir f (by simp)
    rw [plug, ih (fun g hg => hdir g (by simp [hg])) (f.fill t)
      (mk_ne_nil f.dir f.id f.c t f.v f.sib)]
    cases t with
    | nil => exact absurd rfl ht
    | node i c l v r =>
      rcases f with ⟨g, cg, vg, d, sib⟩
      simp only at hf
      subst hf
      exact zoomMin_node_left _ _ _ _ _ _ _ _ _ _

theorem cpar_ne {ctx : List (Frame Key)} {a : Nat} (h : a ∉ cids ctx) : some a ≠ cpar ctx := by
  cases ctx with
  | nil => simp [cpar]
  | cons f cr =>
    intro e
    simp only [cpar, Option.some.injEq] at e
    exact h ((cids_cons f cr a).2 (Or.inl e))

set_option maxHeartbeats 1000000 in
/-- The two-children branch of `erase`, when the successor is the right child
of the removed node. -/
theorem splice_direct {s : set Key} {ctx : List (Frame Key)} {n : Nat} {c : Bool}
    {L : NodeTree Key} {v : Key} {si : Nat} {sc : Bool} {sv : Key} {sr : NodeTree Key}
    (h : Rep s (plug ctx (node n c L v (node si sc nil sv sr)))) (hL : L ≠ nil) :
    ∃ s1 s2 s3, erase_splice s (some n) (cpar ctx) L.root =
        some (s1, some si, some si, sr.root, sc) ∧
      replace_child s1 (some si) (some si) sr.root = some s2 ∧
      (if sr.root ≠ none then set_parent s2 sr.root (some si) else some s2) = some s3 ∧
      Rep s3 (plug ctx (node si c L sv sr)) ∧ s3.size_ = s.size_ ∧ s3.next = s.next := by
  obtain ⟨l0, cl, Ll, lv, Lr, rfl⟩ : ∃ l0 cl Ll lv Lr, L = node l0 cl Ll lv Lr := by
    cases L with
    | nil => exact absurd rfl hL
    | node l0 cl Ll lv Lr => exact ⟨l0, cl, Ll, lv, Lr, rfl⟩
  obtain ⟨ht, hroot, hnd⟩ := h
  rw [RepT_plug] at ht
  obtain ⟨hC, hn, ⟨hl0, hLl, hLr⟩, hsi, -, hsr⟩ := ht
  rw [plug_root] at hroot
  simp only [root_node, root_nil] at hC hroot hn hsi
  have hND : (cids ctx ++ Ll.ids ++ Lr.ids ++ sr.ids ++ [n, l0, si]).Nodup := by
    refine (List.Perm.nodup_iff ?_).1 (plug_nodup.1 hnd)
    rw [List.perm_iff_count]
    intro a
    simp only [ids_node, ids_nil, List.count_append, List.count_cons, List.count_nil]
    omega
  simp only [List.nodup_append, List.nodup_cons, List.disjoint_cons_right,
    List.disjoint_append_left, List.disjoint_append_right, List.mem_append, List.mem_cons,
    not_or, List.not_mem_nil, not_false_eq_true, List.nodup_nil, List.disjoint_nil_right,
    and_true, List.mem_singleton] at hND
  obtain ⟨⟨⟨⟨dC, dLl, dCLl⟩, dLr, dCLr, dLlLr⟩, dsr, ⟨dCsr, dLlsr⟩, dLrsr⟩, ⟨⟨m1, m3⟩, m5⟩,
    ⟨⟨⟨nC, nLl⟩, nLr⟩, nsr⟩, ⟨⟨⟨lC, lLl⟩, lLr⟩, lsr⟩, ⟨⟨sC, sLl⟩, sLr⟩, ssr⟩ := hND
  have m2 : l0 ≠ n := Ne.symm m1
  have m4 : si ≠ n := Ne.symm m3
  have m6 : si ≠ l0 := Ne.symm m5
  have hsu : successor_loop s (s.size_ + 1) si = some si := by
    simp only [successor_loop, hsi]
  obtain ⟨s1, e1, hC1, r1, z1, n1, f1⟩ := replace_child_ctx (some si) hC hroot nC dC
  have h1n := (f1 n (cpar_ne nC)).trans hn
  have h1si := (f1 si (cpar_ne sC)).trans hsi
  have h1l0 := (f1 l0 (cpar_ne lC)).trans hl0
  have key1 : ∃ s7, erase_splice s (some n) (cpar ctx) (some l0) =
        some (s7, some si, some si, sr.root, sc) ∧
      s7.root_ = s1.root_ ∧ s7.size_ = s1.size_ ∧ s7.next = s1.next ∧
      s7.mem si = some ⟨sv, c, cpar ctx, some l0, some si⟩ ∧
      s7.mem l0 = some ⟨lv, cl, some si, Ll.root, Lr.root⟩ ∧
      ∀ a, a ∉ [si, l0] → s7.mem a = s1.mem a := by
    simp only [erase_splice, erase_splice_left, erase_splice_right, deref, hn, hsu, e1,
      set_left, set_parent, set_right, set_color, write_mem, h1n, h1si, h1l0,
      m1, m2, m3, m4, m5, m6, ↓reduceIte, Option.some.injEq, reduceCtorEq, Prod.mk.injEq,
      and_true, true_and, exists_eq_left', write_root, write_size, write_next,
      List.mem_cons, List.mem_singleton, not_or, List.not_mem_nil, or_false, and_imp,
      ne_eq, not_false_eq_true]
    intro a a1 a2
    simp only [a1, a2, ↓reduceIte]
  obtain ⟨s7, e7, r7, z7, n7, msi7, ml07, f7⟩ := key1
  have key2 : ∃ s8, replace_child s7 (some si) (some si) sr.root = some s8 ∧
      s8.root_ = s1.root_ ∧ s8.size_ = s1.size_ ∧ s8.next = s1.next ∧
      s8.mem si = some ⟨sv, c, cpar ctx, some l0, sr.root⟩ ∧
      s8.mem l0 = some ⟨lv, cl, some si, Ll.root, Lr.root⟩ ∧
      ∀ a, a ∉ [si, l0] → s8.mem a = s1.mem a := by
    simp only [replace_child, msi7, Option.some.injEq, m5, ↓reduceIte, set_right,
      exists_eq_left', write_root, write_size, write_next, write_mem, r7, z7, n7, ml07,
      true_and, List.mem_cons, List.mem_singleton, not_or, List.not_mem_nil, or_false,
      and_imp]
    intro a a1 a2
    simp only [a1, ↓reduceIte]
    exact f7 a (by simp [a1, a2])
  obtain ⟨s8, e8, r8, z8, n8, msi, ml0, f8⟩ := key2
  have hsr8 : RepT s8.mem (some si) sr := by
    refine RepT_congr hsr (fun a ha => ?_)
    have a1 : a ≠ si := fun e => ssr (e ▸ ha)
    have a2 : a ≠ l0 := fun e => lsr (e ▸ ha)
    rw [f8 a (by simp [a1, a2])]
    exact f1 a (cpar_ne (fun hm => dCsr hm ha))
  obtain ⟨s9, e9, hsr9, r9, z9, n9, f9⟩ := set_parent_opt (some si) hsr8 dsr
  have hfr : ∀ a, a ∉ [si, l0] → some a ≠ sr.root → some a ≠ cpar ctx →
      s9.mem a = s.mem a := by
    intro a ha hb hc
    rw [f9 a hb, f8 a ha, f1 a hc]
  have hsrr : sr.root ≠ some si := root_ne_of_not_mem ssr
  have hsrl : sr.root ≠ some l0 := root_ne_of_not_mem lsr
  refine ⟨s7, s8, s9, e7, e8, e9, ⟨?_, ?_, ?_⟩, by rw [z9, z8, z1], by rw [n9, n8, n1]⟩
  · rw [RepT_plug]
    refine ⟨?_, ?_, ⟨?_, ?_, ?_⟩, hsr9⟩
    · refine RepC_congr hC1 (fun a ha => ?_)
      have a1 : a ≠ si := fun e => sC (e ▸ ha)
      have a2 : a ≠ l0 := fun e => lC (e ▸ ha)
      rw [f9 a (fun e => dCsr ha (root_mem_ids e.symm)), f8 a (by simp [a1, a2])]
    · exact (f9 si (fun e => hsrr e.symm)).trans msi
    · exact (f9 l0 (fun e => hsrl e.symm)).trans ml0
    · refine RepT_congr hLl (fun a ha => hfr a ?_ ?_ ?_)
      · have a1 : a ≠ si := fun e => sLl (e ▸ ha)
        have a2 : a ≠ l0 := fun e => lLl (e ▸ ha)
        simp [a1, a2]
      · exact fun e => dLlsr ha (root_mem_ids e.symm)
      · exact cpar_ne (fun hm => dCLl hm ha)
    · refine RepT_congr hLr (fun a ha => hfr a ?_ ?_ ?_)
      · have a1 : a ≠ si := fun e => sLr (e ▸ ha)
        have a2 : a ≠ l0 := fun e => lLr (e ▸ ha)
        simp [a1, a2]
      · exact fun e => dLrsr ha (root_mem_ids e.symm)
      · exact cpar_ne (fun hm => dCLr hm ha)
  · rw [r9, r8, r1, plug_root]
    rfl
  · rw [plug_nodup]
    refine (plug_nodup.1 hnd).sublist ?_
    simp only [ids_node, ids_nil, List.nil_append, List.append_assoc, List.cons_append]
    refine List.Sublist.append_left ?_ _
    refine List.Sublist.cons₂ _ ?_
    refine List.Sublist.append_left ?_ _
    exact List.sublist_cons_self _ _

end taapp

namespace taapp
variable {Key : Type}
open NodeTree

set_option maxHeartbeats 1000000 in
/-- The two-children branch of `erase`, when the successor lies deeper in the
right subtree. -/
theorem splice_far {s : set Key} {ctx : List (Frame Key)} {n : Nat} {c : Bool}
    {L : NodeTree Key} {v : Key} {f1 : Frame Key} {cr : List (Frame Key)} {si : Nat}
    {sc : Bool} {sv : Key} {sr : NodeTree Key}
    (h : Rep s (plug ctx (node n c L v (plug (f1 :: cr) (node si sc nil sv sr)))))
    (hL : L ≠ nil) (hdir : ∀ f ∈ f1 :: cr, f.dir = LEFT)
    (hfuel : (plug (f1 :: cr) (node si sc nil sv sr)).height ≤ s.size_ + 1) :
    ∃ s1 s2 s3, erase_splice s (some n) (cpar ctx) L.root =
        some (s1, some si, some f1.id, sr.root, sc) ∧
      replace_child s1 (some f1.id) (some si) sr.root = some s2 ∧
      (if sr.root ≠ none then set_parent s2 sr.root (some f1.id) else some s2) = some s3 ∧
      Rep s3 (plug ctx (node si c L sv (plug (f1 :: cr) sr))) ∧ s3.size_ = s.size_ ∧
      s3.next = s.next := by
  obtain ⟨l0, cl, Ll, lv, Lr, rfl⟩ : ∃ l0 cl Ll lv Lr, L = node l0 cl Ll lv Lr := by
    cases L with
    | nil => exact absurd rfl hL
    | node l0 cl Ll lv Lr => exact ⟨l0, cl, Ll, lv, Lr, rfl⟩
  obtain ⟨r0, hr0⟩ := croot_cons f1 cr (some si)
  have hr0c : r0 ∈ cids (f1 :: cr) := croot_mem_cids hr0
  have hf1c : f1.id ∈ cids (f1 :: cr) := (cids_cons f1 cr _).2 (Or.inl rfl)
  obtain ⟨ht, hroot, hnd⟩ := h
  rw [RepT_plug] at ht
  obtain ⟨hC, hn, ⟨hl0, hLl, hLr⟩, hRt⟩ := ht
  have hRt0 := hRt
  rw [RepT_plugT] at hRt
  obtain ⟨hCr, hsi, -, hsr⟩ := hRt
  rw [plug_root] at hroot
  simp only [root_node, root_nil, plug_root, hr0, cparT] at hC hroot hn hsi hCr
  have hND : (cids ctx ++ Ll.ids ++ Lr.ids ++ cids (f1 :: cr) ++ sr.ids ++ [n, l0, si]).Nodup := by
    refine (List.Perm.nodup_iff ?_).1 (plug_nodup.1 hnd)
    rw [List.perm_iff_count]
    intro a
    have := (plug_ids_perm (f1 :: cr) (node si sc nil sv sr)).count_eq a
    simp only [ids_node, ids_nil, List.count_append, List.count_cons, List.count_nil] at this ⊢
    omega
  have hND0 := hND
  simp only [List.nodup_append, List.nodup_cons, List.disjoint_cons_right,
    List.disjoint_append_left, List.disjoint_append_right, List.mem_append, List.mem_cons,
    not_or, List.not_mem_nil, not_false_eq_true, List.nodup_nil, List.disjoint_nil_right,
    and_true, List.mem_singleton] at hND
  obtain ⟨⟨⟨⟨⟨dC, dLl, dCLl⟩, dLr, dCLr, dLlLr⟩, dcr, ⟨dCcr, dLlcr⟩, dLrcr⟩, dsr,
    ⟨⟨dCsr, dLlsr⟩, dLrsr⟩, dcrsr⟩, ⟨⟨m1, m3⟩, m5⟩, ⟨⟨⟨⟨nC, nLl⟩, nLr⟩, ncr⟩, nsr⟩,
    ⟨⟨⟨⟨lC, lLl⟩, lLr⟩, lcr⟩, lsr⟩, ⟨⟨⟨sC, sLl⟩, sLr⟩, scr⟩, ssr⟩ := hND
  have m2 : l0 ≠ n := Ne.symm m1
  have m4 : si ≠ n := Ne.symm m3
  have m6 : si ≠ l0 := Ne.symm m5
  have q1 : r0 ≠ n := fun e => ncr (e ▸ hr0c)
  have q2 : r0 ≠ l0 := fun e => lcr (e ▸ hr0c)
  have q3 : r0 ≠ si := fun e => scr (e ▸ hr0c)
  have q4 : n ≠ r0 := Ne.symm q1
  have q5 : l0 ≠ r0 := Ne.symm q2
  have q6 : si ≠ r0 := Ne.symm q3
  have hsu : successor_loop s (s.size_ + 1) r0 = some si := by
    have := successor_loop_spec (s.size_ + 1) hRt0 (by rw [plug_root]; exact hr0) hfuel
    rw [zoomMin_plug _ hdir _ (by simp), zoomMin_nil_left] at this
    simp only [root_node, Option.map_eq_some', Option.some.injEq] at this
    obtain ⟨x, hx, rfl⟩ := this
    exact hx
  obtain ⟨s1, e1, hC1, r1, z1, n1, f1'⟩ := replace_child_ctx (some si) hC hroot nC dC
  have h1n := (f1' n (cpar_ne nC)).trans hn
  have h1si := (f1' si (cpar_ne sC)).trans hsi
  have h1l0 := (f1' l0 (cpar_ne lC)).trans hl0
  obtain ⟨nr0, hnr0⟩ := RepCt_mem_some hCr hr0c
  have h1r0 := (f1' r0 (cpar_ne (fun hm => dCcr hm hr0c))).trans hnr0
  have key1 : ∃ s7, erase_splice s (some n) (cpar ctx) (some l0) =
        some (s7, some si, some f1.id, sr.root, sc) ∧
      s7.root_ = s1.root_ ∧ s7.size_ = s1.size_ ∧ s7.next = s1.next ∧
      s7.mem si = some ⟨sv, c, cpar ctx, some l0, some r0⟩ ∧
      s7.mem l0 = some ⟨lv, cl, some si, Ll.root, Lr.root⟩ ∧
      s7.mem r0 = some { nr0 with parent := some si } ∧
      ∀ a, a ∉ [si, l0, r0] → s7.mem a = s1.mem a := by
    simp only [erase_splice, erase_splice_left, erase_splice_right, deref, hn, hsu, e1,
      set_left, set_parent, set_right, set_color, write_mem, h1n, h1si, h1l0, h1r0,
      m1, m2, m3, m4, m5, m6, q1, q2, q3, q4, q5, q6, ↓reduceIte, Option.some.injEq,
      reduceCtorEq, Prod.mk.injEq, and_true, true_and, exists_eq_left', write_root,
      write_size, write_next, List.mem_cons, List.mem_singleton, not_or, List.not_mem_nil,
      or_false, and_imp, ne_eq, not_false_eq_true]
    intro a a1 a2 a3
    simp only [a1, a2, a3, ↓reduceIte]
  obtain ⟨s7, e7, r7, z7, n7, msi7, ml07, mr07, f7⟩ := key1
  have hCr7 : RepCt s7.mem (some si) (f1 :: cr) (some si) := by
    refine RepCt_retop hCr (by simp) hr0 dcr (fun a ha => ?_)
    by_cases e : a = r0
    · subst e
      simp [mr07, hnr0]
    · have a1 : a ≠ si := fun e => scr (e ▸ ha)
      have a2 : a ≠ l0 := fun e => lcr (e ▸ ha)
      rw [f7 a (by simp [a1, a2, e]), f1' a (cpar_ne (fun hm => dCcr hm ha))]
      simp [e]
  obtain ⟨s8, e8, hCr8, r8, z8, n8, f8⟩ := replace_child_spine sr.root hCr7 scr dcr
  have hsr8 : RepT s8.mem (some si) sr := by
    refine RepT_congr hsr (fun a ha => ?_)
    have a1 : a ≠ si := fun e => ssr (e ▸ ha)
    have a2 : a ≠ l0 := fun e => lsr (e ▸ ha)
    have a3 : a ≠ r0 := fun e => dcrsr hr0c (e ▸ ha)
    have a4 : a ≠ f1.id := fun e => dcrsr hf1c (e ▸ ha)
    rw [f8 a a4, f7 a (by simp [a1, a2, a3])]
    exact f1' a (cpar_ne (fun hm => dCsr hm ha))
  obtain ⟨s9, e9, hsr9, r9, z9, n9, f9⟩ := set_parent_opt (some f1.id) hsr8 dsr
  have hfr : ∀ a, a ∉ [si, l0, r0] → a ≠ f1.id → some a ≠ sr.root → some a ≠ cpar ctx →
      s9.mem a = s.mem a := by
    intro a ha hb hc hd
    rw [f9 a hc, f8 a hb, f7 a ha, f1' a hd]
  have hsrr : sr.root ≠ some si := root_ne_of_not_mem ssr
  have hsrl : sr.root ≠ some l0 := root_ne_of_not_mem lsr
  have w1 : si ≠ f1.id := fun e => scr (e ▸ hf1c)
  have w2 : l0 ≠ f1.id := fun e => lcr (e ▸ hf1c)
  refine ⟨s7, s8, s9, e7, e8, e9, ⟨?_, ?_, ?_⟩, by rw [z9, z8, z7, z1],
    by rw [n9, n8, n7, n1]⟩
  · rw [RepT_plug]
    refine ⟨?_, ?_, ⟨?_, ?_, ?_⟩, ?_⟩
    · refine RepC_congr hC1 (fun a ha => ?_)
      have a1 : a ≠ si := fun e => sC (e ▸ ha)
      have a2 : a ≠ l0 := fun e => lC (e ▸ ha)
      have a3 : a ≠ r0 := fun e => dCcr ha (e ▸ hr0c)
      have a4 : a ≠ f1.id := fun e => dCcr ha (e ▸ hf1c)
      rw [f9 a (fun e => dCsr ha (root_mem_ids e.symm)), f8 a a4,
        f7 a (by simp [a1, a2, a3])]
    · have := ((f9 si (fun e => hsrr e.symm)).trans (f8 si w1)).trans msi7
      rw [this, plug_root, croot_cons_eq f1 cr sr.root (some si), hr0]
      rfl
    · exact ((f9 l0 (fun e => hsrl e.symm)).trans (f8 l0 w2)).trans ml07
    · refine RepT_congr hLl (fun a ha => hfr a ?_ ?_ ?_ ?_)
      · have a1 : a ≠ si := fun e => sLl (e ▸ ha)
        have a2 : a ≠ l0 := fun e => lLl (e ▸ ha)
        have a3 : a ≠ r0 := fun e => dLlcr ha (e ▸ hr0c)
        simp [a1, a2, a3]
      · exact fun e => dLlcr ha (e ▸ hf1c)
      · exact fun e => dLlsr ha (root_mem_ids e.symm)
      · exact cpar_ne (fun hm => dCLl hm ha)
    · refine RepT_congr hLr (fun a ha => hfr a ?_ ?_ ?_ ?_)
      · have a1 : a ≠ si := fun e => sLr (e ▸ ha)
        have a2 : a ≠ l0 := fun e => lLr (e ▸ ha)
        have a3 : a ≠ r0 := fun e => dLrcr ha (e ▸ hr0c)
        simp [a1, a2, a3]
      · exact fun e => dLrcr ha (e ▸ hf1c)
      · exact fun e => dLrsr ha (root_mem_ids e.symm)
      · exact cpar_ne (fun hm => dCLr hm ha)
    · rw [RepT_plugT]
      refine ⟨RepCt_congr hCr8 (fun a ha => f9 a (fun e => ?_)), hsr9⟩
      exact dcrsr ha (root_mem_ids e.symm)
  · rw [r9, r8, r7, r1, plug_root]
    rfl
  · have hsub : (cids ctx ++ Ll.ids ++ Lr.ids ++ cids (f1 :: cr) ++ sr.ids ++ [l0, si]).Nodup := by
      refine hND0.sublist ?_
      refine List.Sublist.append_left ?_ _
      exact List.sublist_cons_self _ _
    refine (List.Perm.nodup_iff ?_).1 hsub
    rw [List.perm_iff_count]
    intro a
    have h1 := (plug_ids_perm ctx (node si c (node l0 cl Ll lv Lr) sv (plug (f1 :: cr) sr))).count_eq a
    have h2 := (plug_ids_perm (f1 :: cr) sr).count_eq a
    simp only [ids_node, List.count_append, List.count_cons, List.count_nil] at h1 h2 ⊢
    omega

end taapp

namespace taapp
variable {Key : Type}
open NodeTree

/-! ## `balance_erase` -/

theorem paint_root_spec {s : set Key} {ctx : List (Frame Key)} {t : NodeTree Key} (c1 : Bool)
    (h : Rep s (plug ctx t)) (hne : t ≠ nil) :
    ∃ s1, set_color s t.root c1 = some s1 ∧ Rep s1 (plug ctx (t.paint c1)) ∧
      s1.size_ = s.size_ ∧ s1.next = s.next := by
  cases t with
  | nil => exact absurd rfl hne
  | node i c l v r => exact paint_spec c1 h

theorem paint_child_spec {s : set Key} {ctx : List (Frame Key)} {t : NodeTree Key} (e : Bool)
    (c1 : Bool) (h : Rep s (plug ctx t)) (hne : t.child e ≠ nil) :
    ∃ s1, set_color s (t.child e).root c1 = some s1 ∧
      Rep s1 (plug ctx (t.setChild e ((t.child e).paint c1))) ∧
      s1.size_ = s.size_ ∧ s1.next = s.next := by
  cases t with
  | nil => exact absurd rfl hne
  | node i c l v r =>
    cases e
    · exact paint_root_spec c1 (show Rep _ (plug ((⟨i, c, v, LEFT, r⟩ : Frame Key) :: ctx) _) from h) hne
    · exact paint_root_spec c1 (show Rep _ (plug ((⟨i, c, v, RIGHT, l⟩ : Frame Key) :: ctx) _) from h) hne

/-- The three colour stores that end case 5 and 6 of `balance_erase`. -/
theorem recolor3_spec {s : set Key} {ctx : List (Frame Key)} {u : NodeTree Key} {top : Nat}
    (c : Bool) (h : Rep s (plug ctx u)) (htop : u.root = some top)
    (hl : u.child LEFT ≠ nil) (hr : u.child RIGHT ≠ nil) :
    ∃ s1 s2 s3 n1 n2, set_color s (some top) c = some s1 ∧ deref s1 (some top) = some n1 ∧
      set_color s1 n1.left BLACK = some s2 ∧ deref s2 (some top) = some n2 ∧
      set_color s2 n2.right BLACK = some s3 ∧
      Rep s3 (plug ctx (((u.paint c).setChild LEFT ((u.child LEFT).paint BLACK)).setChild RIGHT
        ((u.child RIGHT).paint BLACK))) ∧ s3.size_ = s.size_ ∧ s3.next = s.next := by
  cases u with
  | nil => simp at htop
  | node i cu l v r =>
    simp only [root_node, Option.some.injEq] at htop
    subst htop
    simp only [child, ↓reduceIte, Bool.true_eq_false] at hl hr
    obtain ⟨s1, e1, r1, z1, m1⟩ := paint_spec c h
    have k1 := r1.lookup
    obtain ⟨s2, e2, r2, z2, m2⟩ := paint_child_spec LEFT BLACK r1 hl
    have k2 : s2.mem i = some ⟨v, c, cpar ctx, (l.paint BLACK).root, r.root⟩ := r2.lookup
    obtain ⟨s3, e3, r3, z3, m3⟩ := paint_child_spec RIGHT BLACK r2 hr
    refine ⟨s1, s2, s3, _, _, e1, k1, e2, k2, e3, r3, by rw [z3, z2, z1], by rw [m3, m2, m1]⟩

theorem sib_root_ne' {s : set Key} {ctx : List (Frame Key)} {f : Frame Key} {t : NodeTree Key}
    (h : Rep s (plug (f :: ctx) t)) (hs : f.sib ≠ nil) : f.sib.root ≠ t.root := by
  cases t with
  | nil =>
    cases hsib : f.sib with
    | nil => exact absurd hsib hs
    | node i c l v r => simp
  | node i c l v r => exact sib_root_ne h (by simp)

theorem child_ne_nil_of_isRed {t : NodeTree Key} (h : t.isRed = true) : t ≠ nil := by
  rintro rfl
  simp [isRed] at h

@[simp]
theorem isRed_node (i : Nat) (c : Bool) (l : NodeTree Key) (v : Key) (r : NodeTree Key) :
    (node i c l v r).isRed = c := rfl

@[simp]
theorem isRed_nil : (nil : NodeTree Key).isRed = false := rfl

theorem balEB_recolor (d : Bool) (i : Nat) (c : Bool) (v : Key) (t : NodeTree Key) (si : Nat)
    (sc : Bool) (N : NodeTree Key) (sv : Key) (F : NodeTree Key) (hN : N.isRed = false)
    (hF : F.isRed = false) :
    balEB d i c v t (mk d si sc N sv F) =
      (mk d i BLACK t v (mk d si RED N sv F), c) := by
  cases d <;> cases c <;> simp [balEB, NodeTree.mk, child, hN, hF, paint]

theorem balEB_rot (d : Bool) (i : Nat) (c : Bool) (v : Key) (t : NodeTree Key) (si : Nat)
    (sc : Bool) (N : NodeTree Key) (sv : Key) (F : NodeTree Key) (hF : F.isRed = true) :
    balEB d i c v t (mk d si sc N sv F) =
      ((((mk d si BLACK (mk d i RED t v N) sv F).paint c).setChild LEFT
          (((mk d si BLACK (mk d i RED t v N) sv F).child LEFT).paint BLACK)).setChild RIGHT
          (((mk d si BLACK (mk d i RED t v N) sv F).child RIGHT).paint BLACK), true) := by
  rw [← rot_mk d i c t v si sc N sv F]
  cases d <;> simp [balEB, NodeTree.mk, child, hF]

theorem balEB_drot (d : Bool) (i : Nat) (c : Bool) (v : Key) (t : NodeTree Key) (si : Nat)
    (sc : Bool) (ni : Nat) (N1 : NodeTree Key) (nv : Key) (N2 : NodeTree Key) (sv : Key)
    (F : NodeTree Key) (hF : F.isRed = false) :
    balEB d i c v t (mk d si sc (mk d ni RED N1 nv N2) sv F) =
      ((((mk d ni BLACK (mk d i RED t v N1) nv (mk d si RED N2 sv F)).paint c).setChild LEFT
          (((mk d ni BLACK (mk d i RED t v N1) nv (mk d si RED N2 sv F)).child LEFT).paint
            BLACK)).setChild RIGHT
          (((mk d ni BLACK (mk d i RED t v N1) nv (mk d si RED N2 sv F)).child RIGHT).paint
            BLACK), true) := by
  rw [← drot_mk d i c t v si sc ni RED N1 nv N2 sv F]
  cases d <;> simp [balEB, NodeTree.mk, child, hF]

theorem balance_erase_black_spec {s : set Key} {ctx : List (Frame Key)} {d : Bool} {i : Nat}
    {c : Bool} {v : Key} {t sib : NodeTree Key} (root : Option Nat)
    (h : Rep s (plug ctx (mk d i c t v sib))) :
    ∃ s1 ret, balance_erase_black d s root (some i) sib.root = some (s1, ret) ∧
      Rep s1 (plug ctx (balEB d i c v t sib).1) ∧
      ret = (if (balEB d i c v t sib).2 then s1.root_ else root) ∧
      s1.size_ = s.size_ ∧ s1.next = s.next := by
  by_cases hsn : sib = nil
  · subst hsn
    exact ⟨s, root, by simp [balance_erase_black], by simpa [balEB] using h, by simp [balEB],
      rfl, rfl⟩
  obtain ⟨si, sc, N, sv, F, rfl⟩ := exists_mk_of_ne_nil d hsn
  have hi := lookup_mk h
  have hS : Rep s (plug ((⟨i, c, v, !d, t⟩ : Frame Key) :: ctx) (mk d si sc N sv F)) :=
    h.cast (by cases d <;> rfl)
  have hsm := lookup_mk hS
  have hNR : is_red s N.root = some N.isRed :=
    is_red_node (hS.cast (by cases d <;> rfl) :
      Rep s (plug ((⟨si, sc, sv, d, F⟩ : Frame Key) :: (⟨i, c, v, !d, t⟩ : Frame Key) :: ctx) N))
  have hFR : is_red s F.root = some F.isRed :=
    is_red_node (hS.cast (by cases d <;> rfl) :
      Rep s (plug ((⟨si, sc, sv, !d, N⟩ : Frame Key) :: (⟨i, c, v, !d, t⟩ : Frame Key) :: ctx) F))
  have hgN : get_child d s (some si) = some N.root := by
    cases d <;> simp [get_child, deref, hsm]
  have hgF : get_child (!d) s (some si) = some F.root := by
    cases d <;> simp [get_child, deref, hsm]
  cases hF : F.isRed
  · cases hN : N.isRed
    · -- case 3 and 4
      rw [hN] at hNR
      rw [hF] at hFR
      rw [balEB_recolor d i c v t si sc N sv F hN hF]
      obtain ⟨s1, e1, r1, z1, m1⟩ := paint_spec_mk RED hS
      have r1' : Rep s1 (plug ctx (mk d i c t v (mk d si RED N sv F))) :=
        r1.cast (by cases d <;> rfl)
      have hi1 := lookup_mk r1'
      cases c
      · refine ⟨s1, root, ?_, r1', by simp, z1, m1⟩
        simp only [balance_erase_black, root_mk, ne_eq, reduceCtorEq, not_false_eq_true,
          ↓reduceIte, hgN, hNR, hgF, hFR, Bool.false_eq_true, Bool.not_false,
          balance_erase_recolor, e1, deref, hi1]
      · obtain ⟨s2, e2, r2, z2, m2⟩ := paint_spec_mk BLACK r1'
        refine ⟨s2, s2.root_, ?_, r2, by simp, by rw [z2, z1], by rw [m2, m1]⟩
        simp only [balance_erase_black, root_mk, ne_eq, reduceCtorEq, not_false_eq_true,
          ↓reduceIte, hgN, hNR, hgF, hFR, Bool.false_eq_true, Bool.not_false,
          balance_erase_recolor, e1, deref, hi1, e2]
    · -- case 5: the near nephew is red, double rotation
      obtain ⟨ni, N1, nv, N2, rfl⟩ := exists_mk_of_isRed d hN
      simp only [root_mk, isRed_mk] at hNR
      rw [hF] at hFR
      rw [balEB_drot d i c v t si sc ni N1 nv N2 sv F hF]
      obtain ⟨s1, e1, r1, z1, m1⟩ := double_rotate_spec d h
      obtain ⟨s2, s3, s4, n1, n2, e2, k2, e3, k3, e4, r4, z4, m4⟩ :=
        recolor3_spec c r1 (root_mk _ _ _ _ _ _ : _ = some ni)
          (by cases d <;> simp [NodeTree.mk, child])
          (by cases d <;> simp [NodeTree.mk, child])
      refine ⟨s4, s4.root_, ?_, r4, by simp, by rw [z4, z1], by rw [m4, m1]⟩
      simp only [deref] at k2 k3
      simp only [balance_erase_black, root_mk, ne_eq, reduceCtorEq, not_false_eq_true,
        ↓reduceIte, hgN, hNR, balance_erase_rotate, deref, hi, hgF, hFR, e1,
        e2, Bool.false_eq_true, k2, e3, k3, e4]
  · -- case 6: the far nephew is red, single rotation
    rw [hF] at hFR
    rw [balEB_rot d i c v t si sc N sv F hF]
    obtain ⟨s1, e1, r1, z1, m1, -⟩ := rotate_spec d h
    obtain ⟨s2, s3, s4, n1, n2, e2, k2, e3, k3, e4, r4, z4, m4⟩ :=
      recolor3_spec c r1 (root_mk _ _ _ _ _ _ : _ = some si)
        (by cases d <;> simp [NodeTree.mk, child] <;> exact child_ne_nil_of_isRed hF)
        (by cases d <;> simp [NodeTree.mk, child] <;> exact child_ne_nil_of_isRed hF)
    refine ⟨s4, s4.root_, ?_, r4, by simp, by rw [z4, z1], by rw [m4, m1]⟩
    simp only [deref] at k2 k3
    cases hN : N.isRed <;> rw [hN] at hNR <;>
      simp only [balance_erase_black, root_mk, ne_eq, reduceCtorEq, not_false_eq_true,
        ↓reduceIte, hgN, hNR, balance_erase_rotate, deref, hi, hgF, hFR, e1,
        e2, Bool.false_eq_true, k2, e3, k3, e4, Bool.not_true]

end taapp

namespace taapp
variable {Key : Type}
open NodeTree

theorem paint_ne_nil (c : Bool) {t : NodeTree Key} (h : t ≠ nil) : t.paint c ≠ nil := by
  cases t with
  | nil => exact absurd rfl h
  | node i c l v r => simp [paint]

theorem drot_ne_nil (d : Bool) {t : NodeTree Key} (h : t ≠ nil) : t.drot d ≠ nil :=
  rot_ne_nil _ (setChild_ne_nil _ _ h)

theorem balEB_ne_nil (d : Bool) (i : Nat) (c : Bool) (v : Key) (t sib : NodeTree Key) :
    (balEB d i c v t sib).1 ≠ nil := by
  unfold balEB
  cases sib with
  | nil => exact mk_ne_nil _ _ _ _ _ _
  | node si sc sl sv sr =>
    simp only
    split_ifs
    · exact mk_ne_nil _ _ _ _ _ _
    · exact mk_ne_nil _ _ _ _ _ _
    · exact setChild_ne_nil _ _ (setChild_ne_nil _ _ (paint_ne_nil _
        (rot_ne_nil _ (mk_ne_nil _ _ _ _ _ _))))
    · exact setChild_ne_nil _ _ (setChild_ne_nil _ _ (paint_ne_nil _
        (drot_ne_nil _ (mk_ne_nil _ _ _ _ _ _))))

theorem balEB_root (d : Bool) (i : Nat) (c : Bool) (v : Key) (t sib : NodeTree Key)
    (h : (balEB d i c v t sib).2 = false) : (balEB d i c v t sib).1.root = some i := by
  unfold balEB at h ⊢
  cases sib with
  | nil => simp
  | node si sc sl sv sr =>
    simp only at h ⊢
    split_ifs at h ⊢ <;> simp_all

theorem balE_ne_nil (f : Frame Key) (t : NodeTree Key) : (balE f t).1 ≠ nil := by
  unfold balE
  cases hs : f.sib with
  | nil => exact mk_ne_nil _ _ _ _ _ _
  | node si sc sl sv sr =>
    simp only
    split_ifs
    · exact mk_ne_nil _ _ _ _ _ _
    · exact balEB_ne_nil _ _ _ _ _ _

/-- Refinement: `balance_erase<d>(g, t)` computes `balE` on the represented subtree. -/
theorem balance_erase_spec {s : set Key} {ctx : List (Frame Key)} {f : Frame Key}
    {t : NodeTree Key} (h : Rep s (plug (f :: ctx) t)) (hs : f.sib ≠ nil) :
    ∃ s1 ret, balance_erase f.dir s (some f.id) t.root = some (s1, ret) ∧
      Rep s1 (plug ctx (balE f t).1) ∧
      ret = (if (balE f t).2 then s1.root_ else (balE f t).1.root) ∧
      s1.size_ = s.size_ ∧ s1.next = s.next := by
  rcases f with ⟨g, cg, vg, d, sib⟩
  simp only at hs
  cases sib with
  | nil => exact absurd rfl hs
  | node si sc sl sv sr =>
    have h0 : Rep s (plug ctx (mk d g cg t vg (node si sc sl sv sr))) := h
    have hg := lookup_mk h0
    have hS : Rep s (plug ((⟨g, cg, vg, !d, t⟩ : Frame Key) :: ctx) (node si sc sl sv sr)) :=
      h0.cast (by cases d <;> rfl)
    have hsm := hS.lookup
    have hgs : get_child (!d) s (some g) = some (some si) := by
      cases d <;> simp [get_child, deref, hg]
    cases sc
    · -- the sibling is black
      obtain ⟨s1, ret, e1, r1, hret, z1, m1⟩ := balance_erase_black_spec (some g) h0
      refine ⟨s1, ret, ?_, ?_, ?_, z1, m1⟩
      · simp only [balance_erase, hgs, deref, hsm, Bool.false_eq_true, ↓reduceIte]
        exact e1
      · simpa [balE] using r1
      · rw [hret]
        simp only [balE, Bool.false_eq_true, ↓reduceIte]
        by_cases hd : (balEB d g cg vg t (node si BLACK sl sv sr)).2 = true
        · simp [hd]
        · simp only [Bool.not_eq_true] at hd
          simp [hd, balEB_root _ _ _ _ _ _ hd]
    · -- case 2: the sibling is red
      have h1 : Rep s (plug ctx (mk d g cg t vg (mk d si RED
          ((node si RED sl sv sr).child d) sv ((node si RED sl sv sr).child (!d))))) :=
        h0.cast (by rw [← node_eq_mk d si RED sl sv sr])
      obtain ⟨s1, e1, r1, z1, m1, -⟩ := rotate_spec d h1
      have r1' : Rep s1 (plug ((⟨si, BLACK, sv, d, (node si RED sl sv sr).child (!d)⟩ :
          Frame Key) :: ctx) (mk d g RED t vg ((node si RED sl sv sr).child d))) := r1
      have hg1 := lookup_mk r1'
      have hgs1 : get_child (!d) s1 (some g) = some ((node si RED sl sv sr).child d).root := by
        cases d <;> simp [get_child, deref, hg1]
      obtain ⟨s2, ret, e2, r2, hret, z2, m2⟩ := balance_erase_black_spec (some si) r1'
      refine ⟨s2, ret, ?_, ?_, ?_, by rw [z2, z1], by rw [m2, m1]⟩
      · simp only [balance_erase, hgs, deref, hsm, ↓reduceIte, e1, hgs1]
        exact e2
      · simpa [balE] using r2
      · rw [hret]
        simp [balE]

/-- The re-balancing loop of `erase` computes `eraFix`, provided a property `P`
that guarantees a sibling at every level is maintained by the loop. -/
theorem erase_loop_spec (P : List (Frame Key) → NodeTree Key → Prop)
    (hP1 : ∀ f ctx t, P (f :: ctx) t → f.sib ≠ nil)
    (hP2 : ∀ f ctx t, P (f :: ctx) t → (balE f t).2 = false → P ctx (balE f t).1)
    {ctx : List (Frame Key)} :
    ∀ {s : set Key} {t : NodeTree Key} (fuel : Nat), Rep s (plug ctx t) → P ctx t →
      ctx.length ≤ fuel →
      ∃ s1, erase_loop fuel s (cpar ctx) t.root = some s1 ∧ Rep s1 (eraFix ctx t) ∧
        s1.size_ = s.size_ ∧ s1.next = s.next := by
  induction ctx with
  | nil =>
    intro s t fuel h _ _
    refine ⟨s, ?_, h, rfl, rfl⟩
    cases fuel <;> simp [erase_loop, cpar]
  | cons f ctx ih =>
    intro s t fuel h hP hf
    obtain ⟨k, rfl⟩ : ∃ k, fuel = k + 1 := ⟨fuel - 1, by simp at hf; omega⟩
    have hsib := hP1 f ctx t hP
    obtain ⟨s1, ret, e1, r1, hret, z1, m1⟩ := balance_erase_spec h hsib
    have hfm := lookup_mk (show Rep s (plug ctx (mk f.dir f.id f.c t f.v f.sib)) from h)
    have hdir : (if (if f.dir = LEFT then t.root else f.sib.root) = t.root
        then balance_erase LEFT s (some f.id) t.root
        else balance_erase RIGHT s (some f.id) t.root) =
        balance_erase f.dir s (some f.id) t.root := by
      have := sib_root_ne' h hsib
      rcases f with ⟨g, cg, vg, d, sib⟩
      cases d
      · simp
      · simp only at this
        simp [this]
    have hcp : cpar (f :: ctx) = some f.id := rfl
    have hne := balE_ne_nil f t
    by_cases hd : (balE f t).2 = true
    · -- done: the loop continues at the root and stops
      rw [if_pos hd] at hret
      obtain ⟨n2, hn2, hp2, -⟩ := lookup_root
        (show Rep _ (plug [] (plug ctx (balE f t).1)) from r1) (plug_ne_nil hne)
      rw [← r1.root, ← hret] at hn2
      refine ⟨s1, ?_, ?_, z1, m1⟩
      · simp only [erase_loop, hcp, hfm, hdir, e1, hn2, hp2, cpar]
      · simp only [eraFix, hd, ↓reduceIte]
        exact r1
    · simp only [Bool.not_eq_true] at hd
      rw [hd] at hret
      simp only [Bool.false_eq_true, ↓reduceIte] at hret
      obtain ⟨n2, hn2, hp2, -⟩ := lookup_root r1 hne
      rw [← hret] at hn2
      obtain ⟨s2, e2, r2, z2, m2⟩ := ih k r1 (hP2 f ctx t hP hd) (by simp at hf; omega)
      rw [← hret] at e2
      refine ⟨s2, ?_, ?_, by rw [z2, z1], by rw [m2, m1]⟩
      · simp only [erase_loop, hcp, hfm, hdir, e1, hn2, hp2, e2]
      · simp only [eraFix, hd, Bool.false_eq_true, ↓reduceIte]
        exact r2

end taapp

namespace taapp
variable {Key : Type}
open NodeTree

/-! ## `operator++` returns -/

theorem leftmost_loop_total {s : set Key} {t : NodeTree Key} :
    ∀ {par : Option Nat} (fuel : Nat) (p : Option Nat), RepT s.mem par t → t.height ≤ fuel →
      ∃ r, leftmost_loop s fuel p t.root = some r := by
  induction t with
  | nil => intro par fuel p _ _; exact ⟨p, by cases fuel <;> rfl⟩
  | node i c l v r ihl _ =>
    intro par fuel p h hf
    obtain ⟨k, rfl⟩ : ∃ k, fuel = k + 1 := ⟨fuel - 1, by simp [height] at hf; omega⟩
    simp only [height] at hf
    obtain ⟨x, hx⟩ := ihl k (some i) h.2.1 (by omega)
    exact ⟨x, by simp only [root_node, leftmost_loop, h.1, hx]⟩

theorem ascend_loop_total {s : set Key} {ctx : List (Frame Key)} :
    ∀ {q : Option Nat} (fuel : Nat) (pred : Option Nat), RepC s.mem ctx q → ctx.length ≤ fuel →
      ∃ r, ascend_loop s fuel pred (cpar ctx) = some r := by
  induction ctx with
  | nil => intro q fuel pred _ _; exact ⟨none, by cases fuel <;> rfl⟩
  | cons f ctx ih =>
    intro q fuel pred h hf
    obtain ⟨k, rfl⟩ : ∃ k, fuel = k + 1 := ⟨fuel - 1, by simp at hf; omega⟩
    obtain ⟨x, hx⟩ := ih k (some f.id) h.2.2 (by simp at hf; omega)
    have hcp : cpar (f :: ctx) = some f.id := rfl
    simp only [hcp, ascend_loop, h.1]
    split_ifs <;> first | exact ⟨_, rfl⟩ | exact ⟨x, hx⟩

theorem increment_total {s : set Key} {ctx : List (Frame Key)} {n : Nat} {c : Bool}
    {l : NodeTree Key} {v : Key} {r : NodeTree Key} (h : Rep s (plug ctx (node n c l v r)))
    (hsz : s.size_ = (plug ctx (node n c l v r)).ids.length) :
    ∃ x, increment s (some n) = some x := by
  have hn := h.lookup
  have ht := (RepT_plug ctx _).1 h.tree
  have hlen := plug_length ctx (node n c l v r)
  simp only [ids_node, List.length_append, List.length_cons] at hlen
  cases r with
  | nil =>
    obtain ⟨x, hx⟩ := ascend_loop_total s.size_ (some n) ht.1
      (by have := length_le_cids ctx; omega)
    exact ⟨x, by simp [increment, deref, hn, bind, Option.bind, hx]⟩
  | node ri rc rl rv rr =>
    have hr : RepT s.mem (some n) (node ri rc rl rv rr) := ht.2.2.2
    obtain ⟨x, hx⟩ := leftmost_loop_total (t := rl) s.size_ (some ri) hr.2.1 (by
      have h1 := height_le_length rl
      simp only [ids_node, List.length_append, List.length_cons] at hlen
      omega)
    exact ⟨x, by simp [increment, deref, hn, bind, Option.bind, hr.1, hx]⟩

/-! ## `erase(iterator)` -/

theorem erase_rebalance_spec (P : List (Frame Key) → NodeTree Key → Prop)
    (hP1 : ∀ f ctx t, P (f :: ctx) t → f.sib ≠ nil)
    (hP2 : ∀ f ctx t, P (f :: ctx) t → (balE f t).2 = false → P ctx (balE f t).1)
    {s : set Key} {ctx : List (Frame Key)} {t : NodeTree Key} (color : Bool)
    (h : Rep s (plug ctx t)) (hP : color = BLACK → t.isRed = false → P ctx t)
    (hlen : ctx.length ≤ s.size_) :
    ∃ s1, erase_rebalance s (cpar ctx) t.root color = some s1 ∧
      Rep s1 (eraReb ctx t color) ∧ s1.size_ = s.size_ ∧ s1.next = s.next := by
  cases color
  · have hR := is_red_node h
    cases hc : t.isRed
    · obtain ⟨s1, e1, r1, z1, m1⟩ := erase_loop_spec P hP1 hP2 s.size_ h (hP rfl hc) hlen
      refine ⟨s1, ?_, ?_, z1, m1⟩
      · simp only [erase_rebalance, ↓reduceIte, hR, hc, Bool.false_eq_true, e1]
      · simpa [eraReb, hc] using r1
    · obtain ⟨s1, e1, r1, z1, m1⟩ := paint_root_spec BLACK h (child_ne_nil_of_isRed hc)
      refine ⟨s1, ?_, ?_, z1, m1⟩
      · simp only [erase_rebalance, ↓reduceIte, hR, hc, e1]
      · simpa [eraReb, hc] using r1
  · exact ⟨s, by simp [erase_rebalance], by simpa [eraReb] using h, rfl, rfl⟩

theorem eraPos_length (ctx : List (Frame Key)) (n : Nat) (c : Bool) (l : NodeTree Key) (v : Key)
    (r : NodeTree Key) :
    (plug (eraPos ctx (node n c l v r)).1 (eraPos ctx (node n c l v r)).2.1).nodes =
      ctxBefore ctx ++ l.nodes ++ r.nodes ++ ctxAfter ctx := by
  cases l with
  | nil => simp [eraPos, plug_nodes]
  | node li lc ll lv lr =>
    cases r with
    | nil => simp [eraPos, plug_nodes]
    | node ri rc rl rv rr =>
      obtain ⟨si, sc, sv, sr, cr, hz, hp, hd⟩ := zoomMin_spec (node ri rc rl rv rr) (by simp) []
      simp only [List.append_nil] at hz
      have hb : ctxBefore cr = [] := by
        clear hz hp
        induction cr with
        | nil => rfl
        | cons f cr ih =>
          simp only [ctxBefore, ih (fun g hg => hd g (by simp [hg])), hd f (by simp),
            ↓reduceIte, List.append_nil]
      simp only [eraPos, hz]
      rw [hp, plug_append, plug_nodes, plug_nodes]
      simp [plug, Frame.fill, NodeTree.mk, plug_nodes, hb, ctxBefore, ctxAfter]

end taapp

namespace taapp
variable {Key : Type}
open NodeTree

theorem child_paint (d c : Bool) (t : NodeTree Key) : (t.paint c).child d = t.child d := by
  cases t <;> rfl

theorem child_setChild_ne (d : Bool) (t x : NodeTree Key) :
    (t.setChild d x).child (!d) = t.child (!d) := by
  cases t with
  | nil => rfl
  | node i c l v r => cases d <;> rfl

theorem recolored_nodes (c : Bool) (u : NodeTree Key) :
    (((u.paint c).setChild LEFT ((u.child LEFT).paint BLACK)).setChild RIGHT
      ((u.child RIGHT).paint BLACK)).nodes = u.nodes := by
  cases u with
  | nil => rfl
  | node i cu l v r => cases l <;> cases r <;> simp [paint, setChild, child]

theorem balEB_nodes (d : Bool) (i : Nat) (c : Bool) (v : Key) (t sib : NodeTree Key) :
    (balEB d i c v t sib).1.nodes = (mk d i c t v sib).nodes := by
  unfold balEB
  cases sib with
  | nil => rfl
  | node si sc sl sv sr =>
    simp only
    split_ifs
    · simp [nodes_mk, paint]
    · simp [nodes_mk, paint]
    · rw [recolored_nodes, rot_nodes]
    · rw [recolored_nodes, drot_nodes]

theorem balE_nodes (f : Frame Key) (t : NodeTree Key) : (balE f t).1.nodes = (f.fill t).nodes := by
  unfold balE
  rcases f with ⟨g, cg, vg, d, sib⟩
  cases sib with
  | nil => rfl
  | node si sc sl sv sr =>
    simp only
    split_ifs
    · simp only [nodes_mk, balEB_nodes, Frame.fill]
      cases d <;> simp [child, NodeTree.mk]
    · exact balEB_nodes _ _ _ _ _ _

theorem eraFix_nodes (ctx : List (Frame Key)) (t : NodeTree Key) :
    (eraFix ctx t).nodes = (plug ctx t).nodes := by
  induction ctx generalizing t with
  | nil => rfl
  | cons f ctx ih =>
    unfold eraFix
    split_ifs
    · rw [plug]
      exact plug_nodes_congr ctx (balE_nodes f t)
    · rw [ih, plug]
      exact plug_nodes_congr ctx (balE_nodes f t)

theorem eraReb_nodes (ctx : List (Frame Key)) (t : NodeTree Key) (color : Bool) :
    (eraReb ctx t color).nodes = (plug ctx t).nodes := by
  unfold eraReb
  split_ifs
  · exact plug_nodes_congr ctx (paint_nodes _ _)
  · exact eraFix_nodes ctx t
  · rfl

theorem eraT_nodes (ctx : List (Frame Key)) (n : Nat) (c : Bool) (l : NodeTree Key) (v : Key)
    (r : NodeTree Key) :
    (eraT ctx (node n c l v r)).nodes = ctxBefore ctx ++ l.nodes ++ r.nodes ++ ctxAfter ctx := by
  rw [eraT, paint_nodes, eraU, eraReb_nodes, eraPos_length]

theorem eraU_nodes (ctx : List (Frame Key)) (n : Nat) (c : Bool) (l : NodeTree Key) (v : Key)
    (r : NodeTree Key) :
    (eraU ctx (node n c l v r)).nodes = ctxBefore ctx ++ l.nodes ++ r.nodes ++ ctxAfter ctx := by
  rw [eraU, eraReb_nodes, eraPos_length]

theorem erase_unlink_spec (P : List (Frame Key) → NodeTree Key → Prop)
    (hP1 : ∀ f ctx t, P (f :: ctx) t → f.sib ≠ nil)
    (hP2 : ∀ f ctx t, P (f :: ctx) t → (balE f t).2 = false → P ctx (balE f t).1)
    {s : set Key} {ctx : List (Frame Key)} {n : Nat} {c : Bool} {l : NodeTree Key} {v : Key}
    {r : NodeTree Key} (h : Rep s (plug ctx (node n c l v r)))
    (hsz : s.size_ = (plug ctx (node n c l v r)).ids.length)
    (hP : (eraPos ctx (node n c l v r)).2.2 = BLACK →
      (eraPos ctx (node n c l v r)).2.1.isRed = false →
      P (eraPos ctx (node n c l v r)).1 (eraPos ctx (node n c l v r)).2.1) :
    ∃ s1, erase_unlink s (some n) = some s1 ∧ Rep s1 (eraU ctx (node n c l v r)) ∧
      s1.size_ = s.size_ ∧ s1.next = s.next := by
  have hn := h.lookup
  have hlen0 := plug_length ctx (node n c l v r)
  have hlenP : (eraPos ctx (node n c l v r)).1.length + 1 ≤ s.size_ := by
    have h1 := congrArg List.length (eraPos_length ctx n c l v r)
    have h2 := congrArg List.length (plug_nodes ctx (node n c l v r))
    have h3 := plug_length (eraPos ctx (node n c l v r)).1 (eraPos ctx (node n c l v r)).2.1
    have h4 := length_le_cids (eraPos ctx (node n c l v r)).1
    simp only [ids, List.length_map, List.length_append, nodes_node, List.length_cons]
      at h1 h2 h3 hsz
    omega
  cases l with
  | nil =>
    obtain ⟨s1, s2, e1, e2, r2, z2, m2⟩ := transplant_spec (e := RIGHT) (X := r)
      (show Rep s (plug ctx (mk RIGHT n c r v nil)) from h)
    obtain ⟨s3, e3, r3, z3, m3⟩ := erase_rebalance_spec P hP1 hP2 c r2 hP
      (by rw [z2]; simp only [eraPos] at hlenP; omega)
    refine ⟨s3, ?_, r3, by rw [z3, z2], by rw [m3, m2]⟩
    simp only [erase_unlink, deref, hn, root_nil, ↓reduceIte, e1, e2, e3]
  | node li lc ll lv lr =>
    cases r with
    | nil =>
      obtain ⟨s1, s2, e1, e2, r2, z2, m2⟩ := transplant_spec (e := LEFT)
        (X := node li lc ll lv lr)
        (show Rep s (plug ctx (mk LEFT n c (node li lc ll lv lr) v nil)) from h)
      obtain ⟨s3, e3, r3, z3, m3⟩ := erase_rebalance_spec P hP1 hP2 c r2 hP
        (by rw [z2]; simp only [eraPos] at hlenP; omega)
      refine ⟨s3, ?_, r3, by rw [z3, z2], by rw [m3, m2]⟩
      simp only [root_node, ne_eq, reduceCtorEq, not_false_eq_true, ↓reduceIte] at e1 e2 e3
      simp only [erase_unlink, deref, hn, root_nil, root_node, reduceCtorEq, ↓reduceIte,
        ne_eq, not_true_eq_false, not_false_eq_true, e1, e2, e3]
    | node ri rc rl rv rr =>
      obtain ⟨si, sc, sv, sr, cr, hz, hp, hd⟩ := zoomMin_spec (node ri rc rl rv rr) (by simp) []
      simp only [List.append_nil] at hz
      have hpos : eraPos ctx (node n c (node li lc ll lv lr) v (node ri rc rl rv rr)) =
          (cr ++ (⟨si, c, sv, RIGHT, node li lc ll lv lr⟩ : Frame Key) :: ctx, sr, sc) := by
        simp only [eraPos, hz]
      rw [hpos] at hP hlenP
      simp only at hlenP hP
      have hU : eraU ctx (node n c (node li lc ll lv lr) v (node ri rc rl rv rr)) =
          eraReb (cr ++ (⟨si, c, sv, RIGHT, node li lc ll lv lr⟩ : Frame Key) :: ctx) sr sc := by
        simp only [eraU, hpos]
      rw [hU]
      have hfuel : (node ri rc rl rv rr).height ≤ s.size_ + 1 := by
        have h1 := height_le_length (node ri rc rl rv rr)
        simp only [ids_node, List.length_append, List.length_cons] at hlen0 h1
        omega
      have hrr : (node ri rc rl rv rr).root = some ri := rfl
      cases cr with
      | nil =>
        simp only [plug] at hp
        rw [hp] at h hn
        obtain ⟨s1, s2, s3, e1, e2, e3, r3, z3, m3⟩ := splice_direct h (by simp)
        obtain ⟨s4, e4, r4, z4, m4⟩ := erase_rebalance_spec P hP1 hP2 sc
          (show Rep _ (plug ((⟨si, c, sv, RIGHT, node li lc ll lv lr⟩ : Frame Key) :: ctx) _) from r3) hP
          (by rw [z3]; simp only [List.nil_append] at hlenP; omega)
        refine ⟨s4, ?_, r4, by rw [z4, z3], by rw [m4, m3]⟩
        simp only [cpar] at e4
        simp only [root_node] at e1
        simp only [erase_unlink, deref, hn, root_node, reduceCtorEq, ↓reduceIte, ne_eq,
          not_false_eq_true, e1, e2, e3, e4]
      | cons f1 cr =>
        rw [hp] at h hn hfuel
        obtain ⟨s1, s2, s3, e1, e2, e3, r3, z3, m3⟩ := splice_far h (by simp) hd hfuel
        have r3' : Rep s3 (plug ((f1 :: cr) ++
            (⟨si, c, sv, RIGHT, node li lc ll lv lr⟩ : Frame Key) :: ctx) sr) := by
          rw [plug_append]; exact r3
        obtain ⟨s4, e4, r4, z4, m4⟩ := erase_rebalance_spec P hP1 hP2 sc r3' hP
          (by rw [z3]; omega)
        refine ⟨s4, ?_, r4, by rw [z4, z3], by rw [m4, m3]⟩
        simp only [List.cons_append, cpar] at e4
        simp only [root_node] at e1
        obtain ⟨r0, hr0⟩ := croot_cons f1 cr (some si)
        simp only [plug_root, root_node, hr0] at hn
        simp only [erase_unlink, deref, hn, root_node, reduceCtorEq, ↓reduceIte, ne_eq,
          not_false_eq_true, e1, e2, e3, e4]

end taapp

namespace taapp
variable {Key : Type}
open NodeTree

theorem erase_spec (P : List (Frame Key) → NodeTree Key → Prop)
    (hP1 : ∀ f ctx t, P (f :: ctx) t → f.sib ≠ nil)
    (hP2 : ∀ f ctx t, P (f :: ctx) t → (balE f t).2 = false → P ctx (balE f t).1)
    {s : set Key} {ctx : List (Frame Key)} {n : Nat} {c : Bool} {l : NodeTree Key} {v : Key}
    {r : NodeTree Key} (h : Model s (plug ctx (node n c l v r)))
    (hP : (eraPos ctx (node n c l v r)).2.2 = BLACK →
      (eraPos ctx (node n c l v r)).2.1.isRed = false →
      P (eraPos ctx (node n c l v r)).1 (eraPos ctx (node n c l v r)).2.1) :
    ∃ s1 x, erase s (some n) = some (s1, x) ∧ Model s1 (eraT ctx (node n c l v r)) ∧
      s1.next = s.next := by
  obtain ⟨hrep, hsize, hfresh⟩ := h
  obtain ⟨x, hx⟩ := increment_total hrep hsize
  obtain ⟨s1, e1, r1, z1, m1⟩ := erase_unlink_spec P hP1 hP2 hrep hsize hP
  have hUn := eraU_nodes ctx n c l v r
  have hTn : (plug ctx (node n c l v r)).nodes =
      ctxBefore ctx ++ l.nodes ++ (n, v) :: r.nodes ++ ctxAfter ctx := by
    rw [plug_nodes]; simp
  have hnd := hrep.nodup
  simp only [ids, hTn, List.map_append, List.map_cons, List.append_assoc, List.cons_append]
    at hnd
  have hnU : n ∉ (eraU ctx (node n c l v r)).ids := by
    simp only [ids, hUn, List.map_append, List.append_assoc]
    have h1 := List.nodup_middle.1 (by simpa [List.append_assoc] using hnd :
      (List.map Prod.fst (ctxBefore ctx ++ l.nodes) ++
        n :: List.map Prod.fst (r.nodes ++ ctxAfter ctx)).Nodup)
    simpa [List.append_assoc] using (List.nodup_cons.1 h1).1
  have hlenU : (eraU ctx (node n c l v r)).ids.length + 1 =
      (plug ctx (node n c l v r)).ids.length := by
    simp only [ids, hUn, hTn, List.length_map, List.length_append, List.length_cons]
    omega
  have hsubU : ∀ a ∈ (eraU ctx (node n c l v r)).ids, a ∈ (plug ctx (node n c l v r)).ids := by
    intro a ha
    simp only [ids, hUn, hTn, List.map_append, List.map_cons, List.mem_append,
      List.mem_cons] at ha ⊢
    tauto
  have r1' : Rep { s1 with size_ := s1.size_ - 1 } (eraU ctx (node n c l v r)) :=
    ⟨r1.tree, r1.root, r1.nodup⟩
  have hfin : ∀ s2 : set Key, Rep s2 (eraT ctx (node n c l v r)) →
      s2.size_ = s1.size_ - 1 → s2.next = s1.next →
      Model (s2.free n) (eraT ctx (node n c l v r)) := by
    intro s2 hr2 hz2 hm2
    refine ⟨⟨RepT_congr hr2.tree (fun a ha => ?_), hr2.root, hr2.nodup⟩, ?_, ?_⟩
    · have : a ≠ n := by
        rintro rfl
        exact hnU (by simpa [eraT] using ha)
      simp [free_mem, this]
    · simp only [free_size, hz2, z1, hsize, eraT, paint_ids]
      omega
    · intro a ha
      simp only [free_next, hm2, m1]
      exact hfresh a (hsubU a (by simpa [eraT] using ha))
  by_cases hU : eraU ctx (node n c l v r) = nil
  · have hroot : s1.root_ = none := by rw [r1.root, hU]; rfl
    refine ⟨_, x, ?_, hfin { s1 with size_ := s1.size_ - 1 } ?_ rfl rfl, ?_⟩
    · simp only [erase, hx, e1, erase_cleanup, hroot, ne_eq, not_true_eq_false, ↓reduceIte]
    · simpa [eraT, hU] using r1'
    · simp [m1]
  · have hpr : ∃ s2, set_color { s1 with size_ := s1.size_ - 1 }
          (eraU ctx (node n c l v r)).root BLACK = some s2 ∧
        Rep s2 (eraT ctx (node n c l v r)) ∧ s2.size_ = s1.size_ - 1 ∧ s2.next = s1.next :=
      paint_root_spec BLACK (show Rep _ (plug [] _) from r1') hU
    obtain ⟨s2, e2, r2, z2, m2⟩ := hpr
    have hroot : s1.root_ = (eraU ctx (node n c l v r)).root := r1.root
    obtain ⟨g, hg⟩ : ∃ g, (eraU ctx (node n c l v r)).root = some g := by
      cases hh : eraU ctx (node n c l v r) with
      | nil => exact absurd hh hU
      | node i ci il iv ir => exact ⟨i, rfl⟩
    refine ⟨s2.free n, x, ?_, hfin s2 r2 z2 m2, ?_⟩
    · rw [hg] at e2
      rw [hroot, hg] at e2
      simp only [erase, hx, e1, erase_cleanup, hroot, hg, ne_eq, reduceCtorEq,
        not_false_eq_true, ↓reduceIte, e2]
    · simp [m2, m1]

theorem find_spec (lt : Key → Key → Bool) (k : Key) {s : set Key} {T : NodeTree Key}
    (h : Model s T) : find lt k s = some (zoom lt k T []).1.root := by
  have := find_loop_spec lt k s.size_ (show Rep _ (plug [] _) from h.rep)
    (by rw [h.size]; exact height_le_length T)
  rw [find, h.rep.root]
  exact this

theorem erase_key_spec (lt : Key → Key → Bool) (k : Key)
    (P : List (Frame Key) → NodeTree Key → Prop)
    (hP1 : ∀ f ctx t, P (f :: ctx) t → f.sib ≠ nil)
    (hP2 : ∀ f ctx t, P (f :: ctx) t → (balE f t).2 = false → P ctx (balE f t).1)
    {s : set Key} {T : NodeTree Key} (h : Model s T)
    (hP : (eraPos (zoom lt k T []).2 (zoom lt k T []).1).2.2 = BLACK →
      (eraPos (zoom lt k T []).2 (zoom lt k T []).1).2.1.isRed = false →
      P (eraPos (zoom lt k T []).2 (zoom lt k T []).1).1
        (eraPos (zoom lt k T []).2 (zoom lt k T []).1).2.1) :
    ∃ s1 cnt, erase_key lt k s = some (s1, cnt) ∧
      ((zoom lt k T []).1 = nil → s1 = s ∧ cnt = 0) ∧
      ((zoom lt k T []).1 ≠ nil → cnt = 1 ∧ s1.next = s.next ∧
        Model s1 (eraT (zoom lt k T []).2 (zoom lt k T []).1)) := by
  have hf := find_spec lt k h
  have hp := zoom_plug lt k T []
  rcases hz : zoom lt k T [] with ⟨t, ctx⟩
  rw [hz] at hf hp hP
  simp only [plug] at hp
  cases t with
  | nil =>
    refine ⟨s, 0, ?_, fun _ => ⟨rfl, rfl⟩, fun hne => absurd rfl hne⟩
    simp [erase_key, hf, bind, Option.bind]
  | node n c l v r =>
    rw [← hp] at h
    obtain ⟨s1, x, e1, hm, hn1⟩ := erase_spec P hP1 hP2 h hP
    refine ⟨s1, 1, ?_, fun hn => by simp at hn, fun _ => ⟨rfl, hn1, hm⟩⟩
    simp [erase_key, hf, bind, Option.bind, e1]

end taapp

namespace taapp
variable {Key : Type}
open NodeTree

/-! ## Red-black conditions through a path -/

theorem RR_fill (f : Frame Key) (t : NodeTree Key) :
    RR (f.fill t) ↔ (f.c = RED → t.isRed = false ∧ f.sib.isRed = false) ∧ RR t ∧ RR f.sib := by
  rcases f with ⟨i, c, v, d, sib⟩
  cases d
  · simp only [Frame.fill, NodeTree.mk, RR, LEFT, RIGHT, ↓reduceIte]
  · simp only [Frame.fill, NodeTree.mk, RR, LEFT, RIGHT, Bool.true_eq_false, ↓reduceIte]
    tauto

theorem Bal_fill (f : Frame Key) (t : NodeTree Key) :
    Bal (f.fill t) ↔ Bal t ∧ Bal f.sib ∧ bh f.sib = bh t := by
  rcases f with ⟨i, c, v, d, sib⟩
  cases d
  · simp only [Frame.fill, NodeTree.mk, Bal, LEFT, RIGHT, ↓reduceIte]
    exact ⟨fun ⟨a, b, e⟩ => ⟨a, b, e.symm⟩, fun ⟨a, b, e⟩ => ⟨a, b, e.symm⟩⟩
  · simp only [Frame.fill, NodeTree.mk, Bal, LEFT, RIGHT, Bool.true_eq_false, ↓reduceIte]
    exact ⟨fun ⟨a, b, e⟩ => ⟨b, a, e⟩, fun ⟨a, b, e⟩ => ⟨b, a, e⟩⟩

theorem bh_fill (f : Frame Key) (t : NodeTree Key) (h : bh f.sib = bh t) :
    bh (f.fill t) = bh t + (if f.c = BLACK then 1 else 0) := by
  rcases f with ⟨i, c, v, d, sib⟩
  cases d <;> simp only [Frame.fill, NodeTree.mk, bh, LEFT, RIGHT] <;> simp_all

theorem isRed_fill (f : Frame Key) (t : NodeTree Key) : (f.fill t).isRed = f.c := by
  simp [Frame.fill]

theorem RR_plug (ctx : List (Frame Key)) (t : NodeTree Key) :
    RR (plug ctx t) ↔ CtxRR ctx ∧ RR t ∧ (cred ctx = RED → t.isRed = false) := by
  induction ctx generalizing t with
  | nil => simp [plug, CtxRR, cred]
  | cons f ctx ih =>
    rw [plug, ih, RR_fill, isRed_fill]
    simp only [CtxRR, cred]
    cases hc : f.c <;> simp [RED] <;> tauto

theorem Bal_plug (ctx : List (Frame Key)) (t : NodeTree Key) :
    Bal (plug ctx t) ↔ CtxBal ctx (bh t) ∧ Bal t := by
  induction ctx generalizing t with
  | nil => simp [plug, CtxBal]
  | cons f ctx ih =>
    rw [plug, ih, Bal_fill]
    simp only [CtxBal]
    constructor
    · rintro ⟨h1, h2, h3, h4⟩
      rw [bh_fill f t h4] at h1
      exact ⟨⟨h3, h4, h1⟩, h2⟩
    · rintro ⟨⟨h3, h4, h1⟩, h2⟩
      rw [bh_fill f t h4]
      exact ⟨h1, h2, h3, h4⟩

theorem RRk_of_RR {t : NodeTree Key} (h : RR t) : RRk t := by
  cases t with
  | nil => trivial
  | node i c l v r => exact ⟨h.2.1, h.2.2⟩

theorem RR_paint_black {t : NodeTree Key} : RR (t.paint BLACK) ↔ RRk t := by
  cases t <;> simp [paint, RR, RRk, BLACK, RED]

theorem Bal_paint (c : Bool) {t : NodeTree Key} : Bal (t.paint c) ↔ Bal t := by
  cases t <;> simp [paint, Bal]

theorem isRed_paint (c : Bool) {t : NodeTree Key} (h : t ≠ nil) : (t.paint c).isRed = c := by
  cases t with
  | nil => exact absurd rfl h
  | node => rfl

theorem isRed_paint_black (t : NodeTree Key) : (t.paint BLACK).isRed = false := by
  cases t <;> rfl

/-! ## `insert` keeps the red-black conditions -/

theorem InsInv_step {f : Frame Key} {ctx : List (Frame Key)} {t : NodeTree Key}
    (h : InsInv (f :: ctx) t) (hr : t.isRed = true) : InsInv ctx (balI f t) := by
  obtain ⟨hb, hcb, hcr, hk, -, hh2⟩ := h
  obtain ⟨hone, hrr⟩ := hh2 hr
  clear hh2
  rcases f with ⟨i, c, v, d, sib⟩
  obtain ⟨hsb, hsh, hcb⟩ := hcb
  obtain ⟨hsr, hfc, hcr⟩ := hcr
  cases t with
  | nil => simp at hr
  | node ti tc tl tv tr =>
    simp only [isRed_node] at hr
    subst hr
    simp only [cred] at hrr
    simp only at hsb hsh hcb hsr hfc
    unfold balI
    simp only
    split_ifs with h1 h2 h3
    · cases sib with
      | nil => simp at h1
      | node si sc sl sv sr =>
        simp only [isRed_node] at h1
        subst h1
        have hc : c = BLACK := by
          cases c
          · rfl
          · simp [RED] at hfc
        subst hc
        cases d <;> simp_all [InsInv, NodeTree.mk, paint, Bal, RR, RRk, bh, child, LEFT, RIGHT, BLACK, RED]
    · cases d
      · cases tl with
        | nil => simp [child, LEFT] at h2
        | node li lc ll lv lr =>
          cases c <;>
          simp_all [InsInv, NodeTree.mk, paint, Bal, RR, RRk, bh, child, LEFT, RIGHT, BLACK, RED,
            rot, Frame.fill]
      · cases tr with
        | nil => simp [child, RIGHT, LEFT] at h2
        | node li lc ll lv lr =>
          cases c <;>
          simp_all [InsInv, NodeTree.mk, paint, Bal, RR, RRk, bh, child, LEFT, RIGHT, BLACK, RED,
            rot, Frame.fill]
    · cases d
      · cases tr with
        | nil => simp [child, LEFT, RIGHT] at h3
        | node li lc ll lv lr =>
          cases c <;>
          simp_all [InsInv, NodeTree.mk, paint, Bal, RR, RRk, bh, child, LEFT, RIGHT, BLACK, RED,
            rot, drot, setChild, Frame.fill]
      · cases tl with
        | nil => simp [child, RIGHT, LEFT] at h3
        | node li lc ll lv lr =>
          cases c <;>
          simp_all [InsInv, NodeTree.mk, paint, Bal, RR, RRk, bh, child, LEFT, RIGHT, BLACK, RED,
            rot, drot, setChild, Frame.fill]
    · cases d <;> cases c <;>
        simp_all [InsInv, NodeTree.mk, paint, Bal, RR, RRk, bh, child, LEFT, RIGHT, BLACK, RED,
          Frame.fill, cred]

theorem InsInv_insFix {ctx : List (Frame Key)} :
    ∀ {t : NodeTree Key}, InsInv ctx t → Bal (insFix ctx t) ∧ RRk (insFix ctx t) := by
  induction ctx with
  | nil => intro t h; exact ⟨h.1, h.2.2.2.1⟩
  | cons f ctx ih =>
    intro t h
    rw [insFix]
    split_ifs with hr
    · exact ih (InsInv_step h hr)
    · have hr1 : t.isRed = false := by simpa using hr
      obtain ⟨hb, hcb, hcr, -, h1, -⟩ := h
      exact ⟨(Bal_plug _ _).2 ⟨hcb, hb⟩,
        RRk_of_RR ((RR_plug _ _).2 ⟨hcr, h1 hr1, fun _ => hr1⟩)⟩

theorem insT_Valid (lt : Key → Key → Bool) (k : Key) (a : Nat) {T : NodeTree Key}
    (h : Valid T) : Valid (insT lt k a T) := by
  rcases zoom_cases lt k T with ⟨ctx, i, c, l, v, r, hz, -⟩ | ⟨hz, -⟩ | ⟨f, ctx, hz, hT, -⟩
  · rw [insT_dup lt k a T hz]; exact h
  · unfold insT
    rw [hz]
    exact ⟨rfl, ⟨fun hc => by simp [BLACK, RED] at hc, trivial, trivial⟩, trivial, trivial, rfl⟩
  · unfold insT
    rw [hz]
    simp only
    obtain ⟨-, hrr, hbal⟩ := h
    rw [hT] at hrr hbal
    obtain ⟨hcr, -, -⟩ := (RR_plug _ _).1 hrr
    obtain ⟨hcb, -⟩ := (Bal_plug _ _).1 hbal
    have hinv : InsInv ctx (f.fill (node a RED nil k nil)) := by
      obtain ⟨hsb, hsh, hcb⟩ := hcb
      obtain ⟨hsr, hfc, hcr⟩ := hcr
      have hb0 : bh f.sib = bh (node a RED nil k nil) := by simpa [bh, RED, BLACK] using hsh
      have hrn : RR (node a RED nil k nil) := ⟨fun _ => ⟨rfl, rfl⟩, trivial, trivial⟩
      refine ⟨(Bal_fill _ _).2 ⟨⟨trivial, trivial, rfl⟩, hsb, hb0⟩, ?_, hcr, ?_, ?_, ?_⟩
      · rw [bh_fill f _ hb0]
        simpa [bh, RED, BLACK] using hcb
      · rcases f with ⟨i, c, v, d, sib⟩
        cases d
        · exact ⟨hrn, hsr⟩
        · exact ⟨hsr, hrn⟩
      · intro hc
        rw [isRed_fill] at hc
        exact (RR_fill _ _).2 ⟨fun hc1 => by simp [hc, RED] at hc1, hrn, hsr⟩
      · intro hc
        rw [isRed_fill] at hc
        have := hfc hc
        refine ⟨?_, fun hcr1 => by simp [this.2, RED] at hcr1⟩
        rcases f with ⟨i, c, v, d, sib⟩
        cases d
        · exact Or.inr this.1
        · exact Or.inl this.1
    obtain ⟨h1, h2⟩ := InsInv_insFix hinv
    exact ⟨isRed_paint_black _, RR_paint_black.2 h2, (Bal_paint _).2 h1⟩

end taapp

namespace taapp
variable {Key : Type}
open NodeTree

/-! ## `erase` keeps the red-black conditions -/

theorem balEB_inv (d : Bool) (i : Nat) (c : Bool) (v : Key) {t sib : NodeTree Key}
    (hb : Bal t) (hr : RR t) (hn : t.isRed = false) (hsb : Bal sib) (hsr : RR sib)
    (hsn : sib.isRed = false) (hh : bh sib = bh t + 1) :
    Bal (balEB d i c v t sib).1 ∧ RR (balEB d i c v t sib).1 ∧
    ((balEB d i c v t sib).2 = true →
      bh (balEB d i c v t sib).1 = bh t + 1 + (if c = BLACK then 1 else 0) ∧
      ((balEB d i c v t sib).1.isRed = true → c = RED)) ∧
    ((balEB d i c v t sib).2 = false →
      c = BLACK ∧ (balEB d i c v t sib).1.isRed = false ∧ bh (balEB d i c v t sib).1 = bh t + 1) := by
  cases sib with
  | nil => simp [bh] at hh
  | node si sc sl sv sr =>
    simp only [isRed_node] at hsn
    subst hsn
    cases sl with
    | nil =>
      cases sr with
      | nil =>
        cases d <;> cases c <;>
        simp_all [balEB, NodeTree.mk, paint, Bal, RR, bh, child, LEFT, RIGHT, BLACK, RED]
      | node ri rc rl rv rr =>
        cases d <;> cases c <;> cases rc <;>
        simp_all [balEB, NodeTree.mk, paint, Bal, RR, bh, child, LEFT, RIGHT, BLACK, RED,
          rot, drot, setChild]
    | node li lc ll lv lr =>
      cases sr with
      | nil =>
        cases d <;> cases c <;> cases lc <;>
        simp_all [balEB, NodeTree.mk, paint, Bal, RR, bh, child, LEFT, RIGHT, BLACK, RED,
          rot, drot, setChild]
      | node ri rc rl rv rr =>
        cases d <;> cases c <;> cases lc <;> cases rc <;>
        simp_all [balEB, NodeTree.mk, paint, Bal, RR, bh, child, LEFT, RIGHT, BLACK, RED,
          rot, drot, setChild] <;> omega

theorem EraInv_sib (f : Frame Key) (ctx : List (Frame Key)) (t : NodeTree Key)
    (h : EraInv (f :: ctx) t) : f.sib ≠ nil := by
  obtain ⟨-, -, -, ⟨-, hh, -⟩, -⟩ := h
  intro e
  rw [e] at hh
  simp [bh] at hh

theorem balE_inv {f : Frame Key} {ctx : List (Frame Key)} {t : NodeTree Key}
    (h : EraInv (f :: ctx) t) :
    Bal (balE f t).1 ∧ RR (balE f t).1 ∧
    ((balE f t).2 = true →
      bh (balE f t).1 = bh t + 1 + (if f.c = BLACK then 1 else 0) ∧
      ((balE f t).1.isRed = true → f.c = RED)) ∧
    ((balE f t).2 = false →
      f.c = BLACK ∧ (balE f t).1.isRed = false ∧ bh (balE f t).1 = bh t + 1) := by
  obtain ⟨hb, hr, hn, ⟨hsb, hh, -⟩, hsr, hfc, -⟩ := h
  rcases f with ⟨i, c, v, d, sib⟩
  simp only at hsb hh hsr hfc
  cases sib with
  | nil => simp [bh] at hh
  | node si sc sl sv sr =>
    cases sc with
    | false => exact balEB_inv d i c v hb hr hn hsb hsr rfl hh
    | true =>
      have hc : c = BLACK := by
        cases c
        · rfl
        · simp [RED] at hfc
      subst hc
      have hsl := hsr.1 rfl
      simp only [bh, BLACK, Bool.true_eq_false, ↓reduceIte, add_zero] at hh
      obtain ⟨hsb1, hsb2, hsb3⟩ := hsb
      cases d
      · have key := balEB_inv LEFT i RED v hb hr hn hsb1 hsr.2.1 hsl.1 hh
        simp only [balE, RED, ↓reduceIte, child, LEFT, RIGHT, Bool.not_false,
          Bool.true_eq_false, NodeTree.mk]
        obtain ⟨k1, k2, k3, k4⟩ := key
        simp only [RED, BLACK, Bool.true_eq_false, ↓reduceIte, add_zero, LEFT, imp_true_iff,
          and_true, false_and, imp_false, Bool.not_eq_false] at k3 k4
        simp only [LEFT] at k1 k2
        refine ⟨⟨k1, hsb2, ?_⟩, ⟨fun hc => by simp [RED] at hc, k2, hsr.2.2⟩, ?_, ?_⟩
        · rw [k3 k4]; omega
        · intro _
          simp only [bh, BLACK, ↓reduceIte, isRed_node, Bool.false_eq_true, false_imp_iff,
            and_true]
          rw [k3 k4]
        · intro hf
          rw [k4] at hf
          simp at hf
      · have key := balEB_inv RIGHT i RED v hb hr hn hsb2 hsr.2.2 hsl.2 (by omega)
        simp only [balE, RED, ↓reduceIte, child, LEFT, RIGHT, Bool.not_true,
          Bool.true_eq_false, NodeTree.mk]
        obtain ⟨k1, k2, k3, k4⟩ := key
        simp only [RED, BLACK, Bool.true_eq_false, ↓reduceIte, add_zero, RIGHT, imp_true_iff,
          and_true, false_and, imp_false, Bool.not_eq_false] at k3 k4
        simp only [RIGHT] at k1 k2
        refine ⟨⟨hsb1, k1, ?_⟩, ⟨fun hc => by simp [RED] at hc, hsr.2.1, k2⟩, ?_, ?_⟩
        · rw [k3 k4]; omega
        · intro _
          simp only [bh, BLACK, ↓reduceIte, isRed_node, Bool.false_eq_true, false_imp_iff,
            and_true]
          omega
        · intro hf
          rw [k4] at hf
          simp at hf

theorem EraInv_step (f : Frame Key) (ctx : List (Frame Key)) (t : NodeTree Key)
    (h : EraInv (f :: ctx) t) (hd : (balE f t).2 = false) : EraInv ctx (balE f t).1 := by
  obtain ⟨k1, k2, -, k4⟩ := balE_inv h
  obtain ⟨hc, hn, hh⟩ := k4 hd
  obtain ⟨-, -, -, ⟨-, -, hcb⟩, -, -, hcr⟩ := h
  refine ⟨k1, k2, hn, ?_, hcr⟩
  rw [hh]
  simpa [hc] using hcb

theorem EraInv_eraFix {ctx : List (Frame Key)} :
    ∀ {t : NodeTree Key}, EraInv ctx t → Bal (eraFix ctx t) ∧ RR (eraFix ctx t) := by
  induction ctx with
  | nil => intro t h; exact ⟨h.1, h.2.1⟩
  | cons f ctx ih =>
    intro t h
    rw [eraFix]
    split_ifs with hd
    · obtain ⟨k1, k2, k3, -⟩ := balE_inv h
      obtain ⟨hh, hred⟩ := k3 hd
      obtain ⟨-, -, -, ⟨-, -, hcb⟩, -, hfc, hcr⟩ := h
      refine ⟨(Bal_plug _ _).2 ⟨?_, k1⟩, (RR_plug _ _).2 ⟨hcr, k2, ?_⟩⟩
      · rw [hh]; exact hcb
      · intro hcred
        cases hx : (balE f t).1.isRed
        · rfl
        · have := (hfc (hred hx)).2
          rw [this] at hcred
          simp [RED] at hcred
    · exact ih (EraInv_step f ctx t h (by simpa using hd))

theorem era_leaf {ctx : List (Frame Key)} {i : Nat} {c : Bool} {l : NodeTree Key} {v : Key}
    {r : NodeTree Key} (hrr : RR (plug ctx (node i c l v r)))
    (hbal : Bal (plug ctx (node i c l v r))) (child : NodeTree Key)
    (hch : (l = nil ∧ child = r) ∨ (r = nil ∧ child = l)) :
    (c = BLACK → child.isRed = false → EraInv ctx child) ∧
    Bal (eraReb ctx child c) ∧ RR (eraReb ctx child c) := by
  obtain ⟨hcr, hr, hcred⟩ := (RR_plug _ _).1 hrr
  obtain ⟨hcb, hb⟩ := (Bal_plug _ _).1 hbal
  have hchild : Bal child ∧ RR child ∧ bh child = bh l ∧ bh l = bh r ∧
      (c = RED → child.isRed = false) := by
    rcases hch with ⟨rfl, rfl⟩ | ⟨rfl, rfl⟩
    · exact ⟨hb.2.1, hr.2.2, hb.2.2.symm, hb.2.2, fun hc => (hr.1 hc).2⟩
    · exact ⟨hb.1, hr.2.1, rfl, hb.2.2, fun hc => (hr.1 hc).1⟩
  obtain ⟨cb, cr, ch, -, cn⟩ := hchild
  have hinv : c = BLACK → child.isRed = false → EraInv ctx child := by
    intro hc hn
    refine ⟨cb, cr, hn, ?_, hcr⟩
    rw [ch]
    simpa [bh, hc] using hcb
  refine ⟨hinv, ?_⟩
  unfold eraReb
  split_ifs with hc hred
  · refine ⟨(Bal_plug _ _).2 ⟨?_, (Bal_paint _).2 cb⟩,
      (RR_plug _ _).2 ⟨hcr, RR_paint_black.2 (RRk_of_RR cr), fun _ => isRed_paint_black _⟩⟩
    have : bh (child.paint BLACK) = bh child + 1 := by
      cases child with
      | nil => simp at hred
      | node ci cc cl cv cr =>
        simp only [isRed_node] at hred
        simp [paint, bh, hred, BLACK]
    rw [this, ch]
    simpa [bh, hc] using hcb
  · exact EraInv_eraFix (hinv hc (by simpa using hred))
  · have hc1 : c = RED := by simpa [BLACK, RED] using hc
    refine ⟨(Bal_plug _ _).2 ⟨?_, cb⟩, (RR_plug _ _).2 ⟨hcr, cr, fun _ => cn hc1⟩⟩
    rw [ch]
    simpa [bh, hc1, RED, BLACK] using hcb

theorem CtxRR_swap (cr ctx : List (Frame Key)) (F G : Frame Key) (hc : F.c = G.c)
    (hs : F.sib = G.sib) :
    cred (cr ++ F :: ctx) = cred (cr ++ G :: ctx) ∧
    (CtxRR (cr ++ F :: ctx) ↔ CtxRR (cr ++ G :: ctx)) ∧
    ∀ n, CtxBal (cr ++ F :: ctx) n ↔ CtxBal (cr ++ G :: ctx) n := by
  induction cr with
  | nil => simp [cred, CtxRR, CtxBal, hc, hs]
  | cons f cr ih =>
    obtain ⟨h1, h2, h3⟩ := ih
    refine ⟨rfl, ?_, fun n => ?_⟩
    · show _ ∧ (_ → _ ∧ cred (cr ++ F :: ctx) = false) ∧ CtxRR (cr ++ F :: ctx) ↔
        _ ∧ (_ → _ ∧ cred (cr ++ G :: ctx) = false) ∧ CtxRR (cr ++ G :: ctx)
      rw [h1, h2]
    · show _ ∧ _ ∧ CtxBal (cr ++ F :: ctx) _ ↔ _ ∧ _ ∧ CtxBal (cr ++ G :: ctx) _
      rw [h3]

theorem eraT_inv {ctx : List (Frame Key)} {n : Nat} {c : Bool} {l : NodeTree Key} {v : Key}
    {r : NodeTree Key} (hrr : RR (plug ctx (node n c l v r)))
    (hbal : Bal (plug ctx (node n c l v r))) :
    ((eraPos ctx (node n c l v r)).2.2 = BLACK →
      (eraPos ctx (node n c l v r)).2.1.isRed = false →
      EraInv (eraPos ctx (node n c l v r)).1 (eraPos ctx (node n c l v r)).2.1) ∧
    Bal (eraU ctx (node n c l v r)) ∧ RR (eraU ctx (node n c l v r)) := by
  unfold eraU
  cases l with
  | nil => exact era_leaf hrr hbal r (Or.inl ⟨rfl, rfl⟩)
  | node li lc ll lv lr =>
    cases r with
    | nil => exact era_leaf hrr hbal _ (Or.inr ⟨rfl, rfl⟩)
    | node ri rc rl rv rr =>
      obtain ⟨si, sc, sv, sr, cr, hz, hp, -⟩ := zoomMin_spec (node ri rc rl rv rr) (by simp) []
      simp only [List.append_nil] at hz
      simp only [eraPos, hz]
      rw [hp] at hrr hbal
      have e : plug ctx (node n c (node li lc ll lv lr) v (plug cr (node si sc nil sv sr))) =
          plug (cr ++ (⟨n, c, v, RIGHT, node li lc ll lv lr⟩ : Frame Key) :: ctx)
            (node si sc nil sv sr) := by
        rw [plug_append]; rfl
      rw [e] at hrr hbal
      obtain ⟨w1, w2, w3⟩ := CtxRR_swap cr ctx
        (⟨n, c, v, RIGHT, node li lc ll lv lr⟩ : Frame Key)
        (⟨si, c, sv, RIGHT, node li lc ll lv lr⟩ : Frame Key) rfl rfl
      have hrr1 : RR (plug (cr ++ (⟨si, c, sv, RIGHT, node li lc ll lv lr⟩ : Frame Key) :: ctx)
          (node si sc nil sv sr)) := by
        rw [RR_plug] at hrr ⊢
        rw [← w1, ← w2]
        exact hrr
      have hbal1 : Bal (plug (cr ++ (⟨si, c, sv, RIGHT, node li lc ll lv lr⟩ : Frame Key) :: ctx)
          (node si sc nil sv sr)) := by
        rw [Bal_plug] at hbal ⊢
        rw [← w3]
        exact hbal
      exact era_leaf hrr1 hbal1 sr (Or.inl ⟨rfl, rfl⟩)

theorem eraT_Valid {ctx : List (Frame Key)} {n : Nat} {c : Bool} {l : NodeTree Key} {v : Key}
    {r : NodeTree Key} (h : Valid (plug ctx (node n c l v r))) :
    Valid (eraT ctx (node n c l v r)) := by
  obtain ⟨-, h1, h2⟩ := eraT_inv h.2.1 h.2.2
  exact ⟨isRed_paint_black _, RR_paint_black.2 (RRk_of_RR h2), (Bal_paint _).2 h1⟩

end taapp

namespace taapp
variable {Key : Type}
open NodeTree

/-! ## Order of the keys -/

theorem keys_node (i : Nat) (c : Bool) (l : NodeTree Key) (v : Key) (r : NodeTree Key) :
    (node i c l v r).keys = l.keys ++ v :: r.keys := by
  simp [keys]

theorem zoom_bounds (lt : Key → Key → Bool) (k : Key)
    (htr : ∀ a b c, lt a b = true → lt b c = true → lt a c = true) :
    ∀ (t : NodeTree Key) (ctx : List (Frame Key)), Sorted lt t.keys →
      ∃ pre post, ctxBefore (zoom lt k t ctx).2 = ctxBefore ctx ++ pre ∧
        ctxAfter (zoom lt k t ctx).2 = post ++ ctxAfter ctx ∧
        t.nodes = pre ++ (zoom lt k t ctx).1.nodes ++ post ∧
        (∀ x ∈ pre, lt x.2 k = true) ∧ (∀ x ∈ post, lt k x.2 = true) ∧
        (∀ i c l v r, (zoom lt k t ctx).1 = node i c l v r → lt k v = false ∧ lt v k = false) := by
  intro t
  induction t with
  | nil =>
    intro ctx _
    exact ⟨[], [], by simp [zoom], by simp [zoom], by simp [zoom], by simp, by simp,
      by simp [zoom]⟩
  | node i c l v r ihl ihr =>
    intro ctx hs
    rw [keys_node] at hs
    have hs' := List.pairwise_append.1 hs
    obtain ⟨hsl, hsr, hlr⟩ := hs'
    obtain ⟨hvr, hsr⟩ := List.pairwise_cons.1 hsr
    by_cases h1 : lt k v = true
    · obtain ⟨pre, post, e1, e2, e3, b1, b2, b3⟩ :=
        ihl ((⟨i, c, v, LEFT, r⟩ : Frame Key) :: ctx) hsl
      have hz : zoom lt k (node i c l v r) ctx =
          zoom lt k l ((⟨i, c, v, LEFT, r⟩ : Frame Key) :: ctx) := by
        simp [zoom, h1]
      rw [hz]
      refine ⟨pre, post ++ (i, v) :: r.nodes, ?_, ?_, ?_, b1, ?_, b3⟩
      · rw [e1]; simp [ctxBefore]
      · rw [e2]; simp [ctxAfter]
      · rw [nodes_node, e3]; simp
      · intro x hx
        rcases List.mem_append.1 hx with hx | hx
        · exact b2 x hx
        · rcases List.mem_cons.1 hx with rfl | hx
          · exact h1
          · exact htr _ _ _ h1 (hvr x.2 (List.mem_map.2 ⟨x, hx, rfl⟩))
    · by_cases h2 : lt v k = true
      · obtain ⟨pre, post, e1, e2, e3, b1, b2, b3⟩ :=
          ihr ((⟨i, c, v, RIGHT, l⟩ : Frame Key) :: ctx) hsr
        have hz : zoom lt k (node i c l v r) ctx =
            zoom lt k r ((⟨i, c, v, RIGHT, l⟩ : Frame Key) :: ctx) := by
          simp [zoom, h1, h2]
        rw [hz]
        refine ⟨l.nodes ++ (i, v) :: pre, post, ?_, ?_, ?_, ?_, b2, b3⟩
        · rw [e1]; simp [ctxBefore, RIGHT, LEFT]
        · rw [e2]; simp [ctxAfter, RIGHT, LEFT]
        · rw [nodes_node, e3]; simp
        · intro x hx
          rcases List.mem_append.1 hx with hx | hx
          · exact htr _ _ _ (hlr x.2 (List.mem_map.2 ⟨x, hx, rfl⟩) v (by simp)) h2
          · rcases List.mem_cons.1 hx with rfl | hx
            · exact h2
            · exact b1 x hx
      · have hz : zoom lt k (node i c l v r) ctx = (node i c l v r, ctx) := by
          simp [zoom, h1, h2]
        rw [hz]
        refine ⟨[], [], by simp, by simp, by simp, by simp, by simp, ?_⟩
        intro i' c' l' v' r' e
        simp only [node.injEq] at e
        obtain ⟨-, -, -, rfl, -⟩ := e
        exact ⟨by simpa using h1, by simpa using h2⟩

theorem zoom_split (lt : Key → Key → Bool) (k : Key)
    (htr : ∀ a b c, lt a b = true → lt b c = true → lt a c = true) (T : NodeTree Key)
    (hs : Sorted lt T.keys) :
    T.nodes = ctxBefore (zoom lt k T []).2 ++ (zoom lt k T []).1.nodes ++
      ctxAfter (zoom lt k T []).2 ∧
    (∀ x ∈ ctxBefore (zoom lt k T []).2, lt x.2 k = true) ∧
    (∀ x ∈ ctxAfter (zoom lt k T []).2, lt k x.2 = true) ∧
    (∀ i c l v r, (zoom lt k T []).1 = node i c l v r → lt k v = false ∧ lt v k = false) := by
  obtain ⟨pre, post, e1, e2, e3, b1, b2, b3⟩ := zoom_bounds lt k htr T [] hs
  simp only [ctxBefore, ctxAfter, List.nil_append, List.append_nil] at e1 e2
  rw [e1, e2]
  exact ⟨e3, b1, b2, b3⟩

theorem insT_Sorted (lt : Key → Key → Bool) (k : Key) (a : Nat)
    (htr : ∀ a b c, lt a b = true → lt b c = true → lt a c = true) {T : NodeTree Key}
    (hs : Sorted lt T.keys) : Sorted lt (insT lt k a T).keys := by
  obtain ⟨e, b1, b2, -⟩ := zoom_split lt k htr T hs
  rcases hz : zoom lt k T [] with ⟨t, ctx⟩
  rw [hz] at e b1 b2
  simp only at e b1 b2
  cases t with
  | node i c l v r => rw [insT_dup lt k a T hz]; exact hs
  | nil =>
    obtain ⟨e1, e2⟩ := insT_nodes_new lt k a T ctx hz
    unfold Sorted keys at hs ⊢
    rw [e1] at hs
    rw [e2]
    simp only [List.map_append, List.map_cons] at hs ⊢
    obtain ⟨p1, p2, p3⟩ := List.pairwise_append.1 hs
    refine List.pairwise_append.2 ⟨p1, List.pairwise_cons.2 ⟨?_, p2⟩, ?_⟩
    · intro y hy
      obtain ⟨x, hx, rfl⟩ := List.mem_map.1 hy
      exact b2 x hx
    · intro x hx y hy
      rcases List.mem_cons.1 hy with rfl | hy
      · obtain ⟨x', hx', rfl⟩ := List.mem_map.1 hx
        exact b1 x' hx'
      · exact p3 x hx y hy

theorem eraT_Sorted (lt : Key → Key → Bool) {ctx : List (Frame Key)} {n : Nat} {c : Bool}
    {l : NodeTree Key} {v : Key} {r : NodeTree Key}
    (hs : Sorted lt (plug ctx (node n c l v r)).keys) :
    Sorted lt (eraT ctx (node n c l v r)).keys := by
  unfold Sorted keys at hs ⊢
  rw [eraT_nodes]
  rw [plug_nodes, nodes_node] at hs
  refine List.Pairwise.sublist ?_ hs
  refine List.Sublist.map _ ?_
  simp only [List.append_assoc]
  exact List.Sublist.append_left
    (List.Sublist.append_left (List.Sublist.append_right (List.sublist_cons_self _ _) _) _) _

end taapp

namespace taapp
variable {Key : Type}
open NodeTree

/-! ## From the abstract tree back to the heap -/

theorem Inorder_of_RepT {s : set Key} {t : NodeTree Key} :
    ∀ {par : Option Nat}, RepT s.mem par t → Inorder s t.root t.keys := by
  induction t with
  | nil => intro _ _; exact Inorder.null
  | node i c l v r ihl ihr =>
    intro par h
    rw [keys_node]
    exact Inorder.node h.1 (ihl h.2.1) (ihr h.2.2)

theorem Inorder_fun {s : set Key} {p : Option Nat} {ks ks1 : List Key}
    (h : Inorder s p ks) (h1 : Inorder s p ks1) : ks = ks1 := by
  induction h generalizing ks1 with
  | null => cases h1; rfl
  | node hm _ _ ihl ihr =>
    cases h1 with
    | node hm1 hl1 hr1 =>
      rw [hm] at hm1
      cases hm1
      rw [ihl hl1, ihr hr1]

theorem Reach_of_mem {s : set Key} {t : NodeTree Key} {a : Nat} :
    ∀ {par : Option Nat}, RepT s.mem par t → a ∈ t.ids → Reach s t.root a := by
  induction t with
  | nil => intro _ _ h; simp at h
  | node i c l v r ihl ihr =>
    intro par h ha
    simp only [ids_node, List.mem_append, List.mem_cons] at ha
    rcases ha with ha | rfl | ha
    · exact Reach.left h.1 (ihl h.2.1 ha)
    · exact Reach.here h.1
    · exact Reach.right h.1 (ihr h.2.2 ha)

theorem Subtree_of_Reach {s : set Key} {t : NodeTree Key} {a : Nat} :
    ∀ {par : Option Nat}, RepT s.mem par t → Reach s t.root a →
      ∃ par1 c l v r, Subtree (node a c l v r) t ∧ RepT s.mem par1 (node a c l v r) := by
  induction t with
  | nil => intro _ _ h; cases h
  | node i c l v r ihl ihr =>
    intro par h ha
    cases ha with
    | here _ => exact ⟨par, c, l, v, r, Subtree.refl _, h⟩
    | left hm hl =>
      rw [h.1] at hm
      cases hm
      obtain ⟨p1, c1, l1, v1, r1, hs, hr⟩ := ihl h.2.1 hl
      exact ⟨p1, c1, l1, v1, r1, Subtree.left i c v hs, hr⟩
    | right hm hl =>
      rw [h.1] at hm
      cases hm
      obtain ⟨p1, c1, l1, v1, r1, hs, hr⟩ := ihr h.2.2 hl
      exact ⟨p1, c1, l1, v1, r1, Subtree.right i c v hs, hr⟩

theorem Subtree_RR {u t : NodeTree Key} (h : Subtree u t) : RR t → RR u := by
  induction h with
  | refl => exact id
  | left i c v _ ih => exact fun h => ih h.2.1
  | right i c v _ ih => exact fun h => ih h.2.2

theorem Subtree_Bal {u t : NodeTree Key} (h : Subtree u t) : Bal t → Bal u := by
  induction h with
  | refl => exact id
  | left i c v _ ih => exact fun h => ih h.1
  | right i c v _ ih => exact fun h => ih h.2.1

theorem Subtree_plug {u t : NodeTree Key} (h : Subtree u t) : ∃ ctx, t = plug ctx u := by
  induction h with
  | refl => exact ⟨[], rfl⟩
  | left i c v hs ih =>
    rename_i l r
    obtain ⟨ctx, hc⟩ := ih
    refine ⟨ctx ++ [(⟨i, c, v, LEFT, r⟩ : Frame Key)], ?_⟩
    rw [plug_append, ← hc]
    rfl
  | right i c v hs ih =>
    rename_i l r
    obtain ⟨ctx, hc⟩ := ih
    refine ⟨ctx ++ [(⟨i, c, v, RIGHT, l⟩ : Frame Key)], ?_⟩
    rw [plug_append, ← hc]
    rfl

theorem Subtree_ids {u t : NodeTree Key} (h : Subtree u t) : ∀ a ∈ u.ids, a ∈ t.ids := by
  induction h with
  | refl => exact fun a h => h
  | left i c v _ ih =>
    intro a ha
    simp only [ids_node, List.mem_append, List.mem_cons]
    exact Or.inl (ih a ha)
  | right i c v _ ih =>
    intro a ha
    simp only [ids_node, List.mem_append, List.mem_cons]
    exact Or.inr (Or.inr (ih a ha))

theorem isNode_iff {s : set Key} {T : NodeTree Key} (h : Rep s T) (a : Nat) :
    IsNode s a ↔ a ∈ T.ids := by
  unfold IsNode
  rw [h.root]
  constructor
  · intro hr
    obtain ⟨p1, c, l, v, r, hs, -⟩ := Subtree_of_Reach h.tree hr
    exact Subtree_ids hs a (by simp)
  · exact Reach_of_mem h.tree

theorem BlackPath_bh {s : set Key} {t : NodeTree Key} :
    ∀ {par : Option Nat}, RepT s.mem par t → BlackPath s t.root (bh t) := by
  induction t with
  | nil => intro _ _; exact BlackPath.null
  | node i c l v r ihl _ =>
    intro par h
    exact BlackPath.left h.1 (ihl h.2.1)

theorem BlackPath_eq {s : set Key} {t : NodeTree Key} :
    ∀ {par : Option Nat} {k : Nat}, RepT s.mem par t → Bal t → BlackPath s t.root k →
      k = bh t := by
  induction t with
  | nil => intro _ _ _ _ h; cases h; rfl
  | node i c l v r ihl ihr =>
    intro par k h hb hp
    cases hp with
    | left hm hl =>
      rw [h.1] at hm
      cases hm
      rw [ihl h.2.1 hb.1 hl]
      rfl
    | right hm hl =>
      rw [h.1] at hm
      cases hm
      rw [ihr h.2.2 hb.2.1 hl, ← hb.2.2]
      rfl

end taapp

namespace taapp
variable {Key : Type}
open NodeTree

/-! ## Every reachable state represents a red-black tree -/

theorem Model_empty : Model (set.empty : set Key) nil :=
  ⟨⟨trivial, rfl, List.nodup_nil⟩, rfl, fun a h => by simp at h⟩

theorem Model_clear {s s1 : set Key} (h : clear s = some s1) : Model s1 nil := by
  unfold clear at h
  cases hc : clear_loop (2 * s.size_ + 1) s s.root_ with
  | none => rw [hc] at h; cases h
  | some s2 =>
    rw [hc] at h
    cases h
    exact ⟨⟨trivial, rfl, List.nodup_nil⟩, rfl, fun a h => by simp at h⟩

theorem Valid_nil : Valid (nil : NodeTree Key) := ⟨rfl, trivial, trivial⟩

theorem node_decomp {s : set Key} {T : NodeTree Key} (h : Rep s T) {a : Nat}
    (ha : IsNode s a) : ∃ ctx c l v r, T = plug ctx (node a c l v r) := by
  unfold IsNode at ha
  rw [h.root] at ha
  obtain ⟨p1, c, l, v, r, hs, -⟩ := Subtree_of_Reach h.tree ha
  obtain ⟨ctx, hc⟩ := Subtree_plug hs
  exact ⟨ctx, c, l, v, r, hc⟩

theorem erase_model {s : set Key} {ctx : List (Frame Key)} {n : Nat} {c : Bool}
    {l : NodeTree Key} {v : Key} {r : NodeTree Key}
    (h : Model s (plug ctx (node n c l v r))) (hv : Valid (plug ctx (node n c l v r))) :
    ∃ s1 x, erase s (some n) = some (s1, x) ∧ Model s1 (eraT ctx (node n c l v r)) ∧
      s1.next = s.next :=
  erase_spec EraInv EraInv_sib EraInv_step h (eraT_inv hv.2.1 hv.2.2).1

theorem erase_key_model (lt : Key → Key → Bool) (k : Key) {s : set Key} {T : NodeTree Key}
    (h : Model s T) (hv : Valid T) :
    ∃ s1 cnt, erase_key lt k s = some (s1, cnt) ∧
      ((zoom lt k T []).1 = nil → s1 = s ∧ cnt = 0) ∧
      ((zoom lt k T []).1 ≠ nil → cnt = 1 ∧ s1.next = s.next ∧
        Model s1 (eraT (zoom lt k T []).2 (zoom lt k T []).1)) := by
  refine erase_key_spec lt k EraInv EraInv_sib EraInv_step h ?_
  have hp := zoom_plug lt k T []
  rcases hz : zoom lt k T [] with ⟨t, ctx⟩
  rw [hz] at hp
  simp only [plug] at hp
  cases t with
  | nil => intro hc; simp [eraPos, RED, BLACK] at hc
  | node n c l v r =>
    rw [← hp] at hv
    exact (eraT_inv hv.2.1 hv.2.2).1

theorem reachable_model (lt : Key → Key → Bool) {s : set Key} (h : Reachable lt s) :
    ∃ T, Model s T ∧ Valid T ∧ (StrictWeak lt → Sorted lt T.keys) := by
  induction h with
  | empty => exact ⟨nil, Model_empty, Valid_nil, fun _ => List.Pairwise.nil⟩
  | @insert s s1 k r _ hi ih =>
    obtain ⟨T, hm, hv, hs⟩ := ih
    obtain ⟨s2, r2, e, hm2, -, -⟩ := insert_spec lt k hm
    rw [e] at hi
    cases hi
    exact ⟨_, hm2, insT_Valid lt k _ hv, fun sw => insT_Sorted lt k _ sw.trans (hs sw)⟩
  | @erase_key s s1 k c _ he ih =>
    obtain ⟨T, hm, hv, hs⟩ := ih
    obtain ⟨s2, c2, e, h1, h2⟩ := erase_key_model lt k hm hv
    rw [e] at he
    cases he
    have hp := zoom_plug lt k T []
    rcases hz : zoom lt k T [] with ⟨t, ctx⟩
    rw [hz] at hp h1 h2
    simp only [plug] at hp
    cases t with
    | nil =>
      obtain ⟨rfl, -⟩ := h1 rfl
      exact ⟨T, hm, hv, hs⟩
    | node n c l v r =>
      obtain ⟨-, -, hm2⟩ := h2 (by simp)
      rw [← hp] at hv hs
      exact ⟨_, hm2, eraT_Valid hv, fun sw => eraT_Sorted lt (hs sw)⟩
  | @erase s s1 a r _ hn he ih =>
    obtain ⟨T, hm, hv, hs⟩ := ih
    obtain ⟨ctx, c, l, v, r, rfl⟩ := node_decomp hm.rep hn
    obtain ⟨s2, x, e, hm2, -⟩ := erase_model hm hv
    rw [e] at he
    cases he
    exact ⟨_, hm2, eraT_Valid hv, fun sw => eraT_Sorted lt (hs sw)⟩
  | clear _ hc _ => exact ⟨nil, Model_clear hc, Valid_nil, fun _ => List.Pairwise.nil⟩

end taapp

namespace taapp
variable {Key : Type}
open NodeTree

/-! ## Reading nodes of a represented tree -/

theorem RepT_nodes_mem {mem : Nat → Option (rbnode Key)} {t : NodeTree Key} {a : Nat} {v : Key} :
    ∀ {par : Option Nat}, RepT mem par t → (a, v) ∈ t.nodes →
      ∃ n, mem a = some n ∧ n.value = v := by
  induction t with
  | nil => intro _ _ h; simp at h
  | node i c l w r ihl ihr =>
    intro par h ha
    simp only [nodes_node, List.mem_append, List.mem_cons, Prod.mk.injEq] at ha
    rcases ha with ha | ⟨rfl, rfl⟩ | ha
    · exact ihl h.2.1 ha
    · exact ⟨_, h.1, rfl⟩
    · exact ihr h.2.2 ha

theorem Subtree_nodes {u t : NodeTree Key} (h : Subtree u t) : ∀ x ∈ u.nodes, x ∈ t.nodes := by
  induction h with
  | refl => exact fun a h => h
  | left i c v _ ih =>
    intro a ha
    simp only [nodes_node, List.mem_append, List.mem_cons]
    exact Or.inl (ih a ha)
  | right i c v _ ih =>
    intro a ha
    simp only [nodes_node, List.mem_append, List.mem_cons]
    exact Or.inr (Or.inr (ih a ha))

theorem node_facts {s : set Key} {T : NodeTree Key} (h : Rep s T) {a : Nat} {n : rbnode Key}
    (ha : IsNode s a) (hn : s.mem a = some n) :
    ∃ par1 c l v r, Subtree (node a c l v r) T ∧ RepT s.mem par1 (node a c l v r) ∧
      n = ⟨v, c, par1, l.root, r.root⟩ := by
  unfold IsNode at ha
  rw [h.root] at ha
  obtain ⟨p1, c, l, v, r, hs, hr⟩ := Subtree_of_Reach h.tree ha
  refine ⟨p1, c, l, v, r, hs, hr, ?_⟩
  have := hr.1
  rw [hn] at this
  exact Option.some.inj this

theorem child_facts {mem : Nat → Option (rbnode Key)} {par : Option Nat} {t : NodeTree Key}
    {b : Nat} (h : RepT mem par t) (hb : t.root = some b) :
    ∃ m, mem b = some m ∧ m.parent = par ∧ m.color = t.isRed := by
  cases t with
  | nil => cases hb
  | node i c l v r =>
    cases hb
    exact ⟨_, h.1, rfl, rfl⟩

theorem node_mem_nodes {s : set Key} {T : NodeTree Key} (h : Rep s T) {a : Nat} {n : rbnode Key}
    (ha : IsNode s a) (hn : s.mem a = some n) : (a, n.value) ∈ T.nodes := by
  obtain ⟨p1, c, l, v, r, hs, -, rfl⟩ := node_facts h ha hn
  exact Subtree_nodes hs _ (by simp)

theorem zoom_nil_iff (lt : Key → Key → Bool) (k : Key) (sw : StrictWeak lt) {T : NodeTree Key}
    (hs : Sorted lt T.keys) :
    (zoom lt k T []).1 = nil ↔ ∀ x ∈ T.keys, ¬ Equiv lt k x := by
  obtain ⟨e, b1, b2, b3⟩ := zoom_split lt k sw.trans T hs
  constructor
  · intro hz x hx hq
    rw [hz] at e
    simp only [keys, e, nodes_nil, List.append_nil, List.map_append, List.mem_append,
      List.mem_map] at hx
    rcases hx with ⟨y, hy, rfl⟩ | ⟨y, hy, rfl⟩
    · have := b1 y hy
      rw [hq.2] at this
      cases this
    · have := b2 y hy
      rw [hq.1] at this
      cases this
  · intro hall
    cases hz : (zoom lt k T []).1 with
    | nil => rfl
    | node i c l v r =>
      exfalso
      refine hall v ?_ (b3 i c l v r hz)
      rw [hz] at e
      simp [keys, e]

theorem keys_eq {s : set Key} {T : NodeTree Key} (h : Rep s T) {ks : List Key}
    (hk : Inorder s s.root_ ks) : ks = T.keys := by
  have := Inorder_of_RepT h.tree
  rw [← h.root] at this
  exact Inorder_fun hk this

end taapp

namespace taapp
variable {Key : Type}
open NodeTree

/-! ## `clear` returns -/

theorem clear_loop_none (fuel : Nat) (s : set Key) : clear_loop fuel s none = some s := by
  cases fuel <;> rfl

theorem cids_length_cons (f : Frame Key) (ctx : List (Frame Key)) :
    (cids (f :: ctx)).length = 1 + f.sib.ids.length + (cids ctx).length := by
  have := (cids_perm f ctx).length_eq
  simp only [List.length_cons, List.length_append] at this
  omega

theorem clear_loop_total :
    ∀ (fuel : Nat) (s : set Key) (ctx : List (Frame Key)) (t : NodeTree Key), t ≠ nil →
      RepT s.mem none (plug ctx t) → (plug ctx t).ids.Nodup →
      2 * t.ids.length + 2 * (cids ctx).length ≤ fuel + 1 + ctx.length →
      ∃ s1, clear_loop fuel s t.root = some s1 := by
  intro fuel
  induction fuel with
  | zero =>
    intro s ctx t hne _ _ hlen
    exfalso
    have h1 := length_le_cids ctx
    cases t with
    | nil => exact hne rfl
    | node a c l v r =>
      simp only [ids_node, List.length_append, List.length_cons] at hlen
      omega
  | succ fuel ih =>
    intro s ctx t hne hrep hnd hlen
    cases t with
    | nil => exact absurd rfl hne
    | node a c l v r =>
      obtain ⟨hC, hT⟩ := (RepT_plug ctx _).1 hrep
      have hma := hT.1
      simp only [ids_node, List.length_append, List.length_cons] at hlen
      cases l with
      | node li lc ll lv lr =>
        have hl := cids_length_cons (⟨a, c, v, LEFT, r⟩ : Frame Key) ctx
        obtain ⟨s1, e1⟩ := ih s ((⟨a, c, v, LEFT, r⟩ : Frame Key) :: ctx) (node li lc ll lv lr)
          (by simp) hrep hnd (by
            simp only [List.length_cons] at hl ⊢
            omega)
        exact ⟨s1, by simpa [clear_loop, hma] using e1⟩
      | nil =>
        cases r with
        | node ri rc rl rv rr =>
          have hl := cids_length_cons (⟨a, c, v, RIGHT, nil⟩ : Frame Key) ctx
          obtain ⟨s1, e1⟩ := ih s ((⟨a, c, v, RIGHT, nil⟩ : Frame Key) :: ctx)
            (node ri rc rl rv rr) (by simp) hrep hnd (by
              simp only [ids_nil, List.length_nil, List.length_cons] at hl hlen ⊢
              omega)
          exact ⟨s1, by simpa [clear_loop, hma] using e1⟩
        | nil =>
          cases ctx with
          | nil =>
            exact ⟨s.free a, by simp [clear_loop, hma, cpar, clear_loop_none]⟩
          | cons f ctx =>
            obtain ⟨hf, hsib, hC1⟩ := hC
            rcases f with ⟨p, pc, pv, d, sib⟩
            simp only [root_node] at hf
            have hnd1 := nodup_cids_cons.1 (plug_nodup.1 hnd)
            simp only [ids_node, ids_nil, List.nil_append, List.cons_append,
              List.nodup_cons, List.mem_cons, List.mem_append, not_or] at hnd1
            obtain ⟨⟨hap, hasib, hactx⟩, ⟨hpsib, hpctx⟩, hrest⟩ := hnd1
            have hpa : p ≠ a := fun e => hap e.symm
            have hsr : sib.root ≠ some a := root_ne_of_not_mem hasib
            have hl := cids_length_cons (⟨p, pc, pv, d, sib⟩ : Frame Key) ctx
            have hmp : (s.free a).mem p = some ⟨pv, pc, cpar ctx,
                if d = LEFT then some a else sib.root, if d = LEFT then sib.root else some a⟩ := by
              simp only [free_mem, hpa, ↓reduceIte, hf]
            -- the state after unlinking the leaf
            have key : ∀ s2 : set Key,
                s2.mem p = some ⟨pv, pc, cpar ctx, if d = LEFT then none else sib.root,
                  if d = LEFT then sib.root else none⟩ →
                (∀ b, b ≠ p → b ≠ a → s2.mem b = s.mem b) →
                ∃ s1, clear_loop fuel s2 (some p) = some s1 := by
              intro s2 h2p h2o
              have := ih s2 ctx ((⟨p, pc, pv, d, sib⟩ : Frame Key).fill nil)
                (mk_ne_nil _ _ _ _ _ _) ?_ ?_ ?_
              · simpa [Frame.fill] using this
              · refine (RepT_plug ctx _).2 ⟨?_, ?_⟩
                · simp only [Frame.fill, root_mk]
                  refine RepC_congr hC1 (fun b hb => h2o b ?_ ?_)
                  · rintro rfl; exact hpctx hb
                  · rintro rfl; exact hactx hb
                · rw [Frame.fill, RepT_mk]
                  refine ⟨by simpa using h2p, trivial, RepT_congr hsib (fun b hb => h2o b ?_ ?_)⟩
                  · rintro rfl; exact hpsib hb
                  · rintro rfl; exact hasib hb
              · rw [plug_nodup]
                have hn : (p :: (sib.ids ++ cids ctx)).Nodup :=
                  List.nodup_cons.2 ⟨by simp [hpsib, hpctx], hrest⟩
                have hperm : (((⟨p, pc, pv, d, sib⟩ : Frame Key).fill nil).ids ++ cids ctx).Perm
                    (p :: (sib.ids ++ cids ctx)) := by
                  rw [List.perm_iff_count]
                  intro x
                  cases d <;>
                    simp only [Frame.fill, ids_mk, ids_nil, List.count_append, List.count_cons,
                      List.count_nil, ↓reduceIte, Bool.true_eq_false, LEFT, List.nil_append,
                      List.append_nil] <;>
                    omega
                exact hperm.nodup_iff.2 hn
              · have h3 : ((⟨p, pc, pv, d, sib⟩ : Frame Key).fill nil).ids.length =
                    1 + sib.ids.length := by
                  cases d <;> simp [Frame.fill, ids_mk, LEFT] <;> omega
                rw [h3]
                simp only [ids_nil, List.length_nil, List.length_cons] at hl hlen
                omega
            cases d
            · obtain ⟨s1, e1⟩ := key ((s.free a).write p ⟨pv, pc, cpar ctx, none, sib.root⟩)
                (by simp [write_mem]) (fun b hb1 hb2 => by simp [write_mem, hb1, hb2])
              have hcp : cpar ((⟨p, pc, pv, LEFT, sib⟩ : Frame Key) :: ctx) = some p := rfl
              refine ⟨s1, ?_⟩
              rw [hcp] at hma
              simp only [root_node, root_nil, clear_loop, hma, ne_eq, not_true_eq_false,
                ↓reduceIte, hmp, set_left, LEFT]
              exact e1
            · obtain ⟨s1, e1⟩ := key ((s.free a).write p ⟨pv, pc, cpar ctx, sib.root, none⟩)
                (by simp [write_mem]) (fun b hb1 hb2 => by simp [write_mem, hb1, hb2])
              have hcp : cpar ((⟨p, pc, pv, RIGHT, sib⟩ : Frame Key) :: ctx) = some p := rfl
              refine ⟨s1, ?_⟩
              rw [hcp] at hma
              simp only [root_node, root_nil, clear_loop, hma, ne_eq, not_true_eq_false,
                ↓reduceIte, hmp, set_right, LEFT, Bool.true_eq_false, hsr]
              exact e1

theorem clear_total {s : set Key} {T : NodeTree Key} (h : Model s T) :
    ∃ s1, clear s = some s1 := by
  have key : ∃ s2, clear_loop (2 * s.size_ + 1) s s.root_ = some s2 := by
    rw [h.rep.root]
    cases hT : T with
    | nil => exact ⟨s, clear_loop_none _ _⟩
    | node a c l v r =>
      have := clear_loop_total (2 * s.size_ + 1) s [] (node a c l v r) (by simp)
        (by rw [← hT]; exact h.rep.tree) (by rw [← hT]; exact h.rep.nodup)
        (by rw [h.size, hT]; simp [cids, ctxBefore, ctxAfter]; omega)
      exact this
  obtain ⟨s2, e⟩ := key
  exact ⟨{ s2 with root_ := none, size_ := 0 }, by simp [clear, e]⟩

theorem reachable_clear_total (lt : Key → Key → Bool) {s : set Key} (h : Reachable lt s) :
    ∃ s1, clear s = some s1 := by
  obtain ⟨T, hm, -, -⟩ := reachable_model lt h
  exact clear_total hm

/-! ## The public operations return on every reachable set -/

theorem reachable_insert_total (lt : Key → Key → Bool) {s : set Key} (h : Reachable lt s)
    (k : Key) : ∃ s1 r, insert lt k s = some (s1, r) := by
  obtain ⟨T, hm, -, -⟩ := reachable_model lt h
  obtain ⟨s1, r, e, -⟩ := insert_spec lt k hm
  exact ⟨s1, r, e⟩

theorem reachable_erase_key_total (lt : Key → Key → Bool) {s : set Key} (h : Reachable lt s)
    (k : Key) : ∃ s1 c, erase_key lt k s = some (s1, c) := by
  obtain ⟨T, hm, hv, -⟩ := reachable_model lt h
  obtain ⟨s1, c, e, -⟩ := erase_key_model lt k hm hv
  exact ⟨s1, c, e⟩

theorem reachable_erase_total (lt : Key → Key → Bool) {s : set Key} (h : Reachable lt s)
    {a : Nat} (ha : IsNode s a) : ∃ s1 r, erase s (some a) = some (s1, r) := by
  obtain ⟨T, hm, hv, -⟩ := reachable_model lt h
  obtain ⟨ctx, c, l, v, r, rfl⟩ := node_decomp hm.rep ha
  obtain ⟨s1, x, e, -⟩ := erase_model hm hv
  exact ⟨s1, x, e⟩

end taapp

namespace taapp
variable {Key : Type}
open NodeTree

/-! ## The invariants of reachable sets -/

/-- C1: for a strict weak ordering, every set reachable from the empty set by
`insert`, `erase(key)`, `erase(iterator)` and `clear` has exactly one in-order
key sequence, that sequence is strictly increasing for the comparator, and no
two distinct nodes of the tree hold equivalent keys. -/
theorem reachable_inorder_strictly_increasing (lt : Key → Key → Bool) (s : set Key)
    (hs : Reachable lt s) (sw : StrictWeak lt) :
    ∃ ks, Inorder s s.root_ ks ∧ (∀ ks1, Inorder s s.root_ ks1 → ks1 = ks) ∧ Sorted lt ks ∧
      ∀ a b na nb, IsNode s a → IsNode s b → a ≠ b → s.mem a = some na →
        s.mem b = some nb → ¬ Equiv lt na.value nb.value := by
  obtain ⟨T, hm, -, hsort⟩ := reachable_model lt hs
  have hin := Inorder_of_RepT hm.rep.tree
  rw [← hm.rep.root] at hin
  refine ⟨T.keys, hin, fun ks1 h1 => Inorder_fun h1 hin, hsort sw, ?_⟩
  intro a b na nb ha hb hab hna hnb hq
  have h1 := node_mem_nodes hm.rep ha hna
  have h2 := node_mem_nodes hm.rep hb hnb
  have hp : T.nodes.Pairwise (fun x y => lt x.2 y.2 = true ∨ lt y.2 x.2 = true) := by
    have := hsort sw
    unfold Sorted keys at this
    rw [List.pairwise_map] at this
    exact this.imp (fun h => Or.inl h)
  have hsym : Symmetric (fun x y : Nat × Key => lt x.2 y.2 = true ∨ lt y.2 x.2 = true) :=
    fun x y h => h.symm
  have := hp.forall hsym h1 h2 (by
    intro e
    exact hab (congrArg Prod.fst e))
  rcases this with h | h
  · rw [hq.1] at h; cases h
  · rw [hq.2] at h; cases h

/-- C2: in every set reachable from the empty set by `insert`, `erase(key)`,
`erase(iterator)` and `clear`, each child of a RED node of the tree is a stored
node coloured BLACK: no RED node has a RED child. -/
theorem reachable_no_red_red (lt : Key → Key → Bool) (s : set Key) (hs : Reachable lt s)
    (a b : Nat) (n : rbnode Key) (ha : IsNode s a) (hn : s.mem a = some n)
    (hc : n.color = RED) (hb : n.left = some b ∨ n.right = some b) :
    ∃ m, s.mem b = some m ∧ m.color = BLACK := by
  obtain ⟨T, hm, hv, -⟩ := reachable_model lt hs
  obtain ⟨p1, c, l, v, r, hsub, hrep, rfl⟩ := node_facts hm.rep ha hn
  have hrr := Subtree_RR hsub hv.2.1
  simp only at hc hb
  have hred := hrr.1 hc
  rcases hb with hb | hb
  · obtain ⟨m, h1, -, h3⟩ := child_facts hrep.2.1 hb
    exact ⟨m, h1, by rw [h3, hred.1]⟩
  · obtain ⟨m, h1, -, h3⟩ := child_facts hrep.2.2 hb
    exact ⟨m, h1, by rw [h3, hred.2]⟩

/-- C3: in every set reachable from the empty set by `insert`, `erase(key)`,
`erase(iterator)` and `clear`, every node of the tree has a black height: there
is a number `k` such that the paths from the node down to a null link are
exactly those that pass through `k` BLACK nodes. -/
theorem reachable_black_height (lt : Key → Key → Bool) (s : set Key) (hs : Reachable lt s)
    (a : Nat) (ha : IsNode s a) :
    ∃ k, BlackPath s (some a) k ∧ ∀ k1, BlackPath s (some a) k1 → k1 = k := by
  obtain ⟨T, hm, hv, -⟩ := reachable_model lt hs
  have ha1 := ha
  unfold IsNode at ha1
  rw [hm.rep.root] at ha1
  obtain ⟨p1, c, l, v, r, hsub, hrep⟩ := Subtree_of_Reach hm.rep.tree ha1
  have hbal := Subtree_Bal hsub hv.2.2
  exact ⟨_, BlackPath_bh hrep, fun k1 h1 => BlackPath_eq hrep hbal h1⟩

/-- C4: after `insert`, `erase(key)`, `erase(iterator)` on a node of the tree,
or `clear`, applied to a reachable set, the root of the result, if there is
one, is a stored node coloured BLACK. -/
theorem root_black_after_operation (lt : Key → Key → Bool) (s s1 : set Key)
    (hs : Reachable lt s)
    (hop : (∃ k r, insert lt k s = some (s1, r)) ∨ (∃ k c, erase_key lt k s = some (s1, c)) ∨
      (∃ a r, IsNode s a ∧ erase s (some a) = some (s1, r)) ∨ clear s = some s1)
    (b : Nat) (hb : s1.root_ = some b) : ∃ n, s1.mem b = some n ∧ n.color = BLACK := by
  have hs1 : Reachable lt s1 := by
    rcases hop with ⟨k, r, h⟩ | ⟨k, c, h⟩ | ⟨a, r, ha, h⟩ | h
    · exact Reachable.insert hs h
    · exact Reachable.erase_key hs h
    · exact Reachable.erase hs ha h
    · exact Reachable.clear hs h
  obtain ⟨T, hm, hv, -⟩ := reachable_model lt hs1
  rw [hm.rep.root] at hb
  obtain ⟨m, h1, -, h3⟩ := child_facts hm.rep.tree hb
  exact ⟨m, h1, by rw [h3, hv.1]⟩

/-- C5: in every reachable set, each non-null child link of a node of the tree
refers to a stored node whose parent link points back to that node, and the
parent link of the root is null. -/
theorem reachable_parent_links (lt : Key → Key → Bool) (s : set Key) (hs : Reachable lt s) :
    (∀ a b n, IsNode s a → s.mem a = some n → (n.left = some b ∨ n.right = some b) →
      ∃ m, s.mem b = some m ∧ m.parent = some a) ∧
    (∀ a, s.root_ = some a → ∃ n, s.mem a = some n ∧ n.parent = none) := by
  obtain ⟨T, hm, -, -⟩ := reachable_model lt hs
  constructor
  · intro a b n ha hn hb
    obtain ⟨p1, c, l, v, r, -, hrep, rfl⟩ := node_facts hm.rep ha hn
    simp only at hb
    rcases hb with hb | hb
    · obtain ⟨m, h1, h2, -⟩ := child_facts hrep.2.1 hb
      exact ⟨m, h1, h2⟩
    · obtain ⟨m, h1, h2, -⟩ := child_facts hrep.2.2 hb
      exact ⟨m, h1, h2⟩
  · intro a ha
    rw [hm.rep.root] at ha
    obtain ⟨m, h1, h2, -⟩ := child_facts hm.rep.tree ha
    exact ⟨m, h1, h2⟩

/-- C6: in every set reachable from the empty set by `insert`, `erase(key)`,
`erase(iterator)` and `clear`, `size()` is the number of nodes reachable from
the root: the nodes of the tree can be listed without repetition in a list of
length `size()`. -/
theorem reachable_size_counts_nodes (lt : Key → Key → Bool) (s : set Key)
    (hs : Reachable lt s) :
    ∃ l : List Nat, l.Nodup ∧ (∀ a, a ∈ l ↔ IsNode s a) ∧ size s = l.length := by
  obtain ⟨T, hm, -, -⟩ := reachable_model lt hs
  exact ⟨T.ids, hm.rep.nodup, fun a => (isNode_iff hm.rep a).symm, hm.size⟩

/-! ## The operations -/

/-- C7: for a strict weak ordering, a reachable set with in-order key sequence
`ks` and a key `k` equivalent to none of them, `insert(k)` returns
`(it, true)` where `it` refers to a node of the new tree holding `k`, and the
new in-order key sequence is `ks` with `k` put in at one place, strictly
increasing; `size()` grows by one. -/
theorem insert_new_key (lt : Key → Key → Bool) (s : set Key) (hs : Reachable lt s)
    (sw : StrictWeak lt) (k : Key) (ks : List Key) (hks : Inorder s s.root_ ks)
    (hnew : ∀ x ∈ ks, ¬ Equiv lt k x) :
    ∃ s1 a n, insert lt k s = some (s1, (some a, true)) ∧ IsNode s1 a ∧
      deref s1 (some a) = some n ∧ n.value = k ∧ size s1 = size s + 1 ∧
      ∃ l r, ks = l ++ r ∧ Inorder s1 s1.root_ (l ++ k :: r) ∧ Sorted lt (l ++ k :: r) := by
  obtain ⟨T, hm, hv, hsort⟩ := reachable_model lt hs
  have hkeys := keys_eq hm.rep hks
  subst hkeys
  have hz := (zoom_nil_iff lt k sw (hsort sw)).2 hnew
  obtain ⟨s1, r, e, hm1, -, h2⟩ := insert_spec lt k hm
  obtain ⟨rfl, -⟩ := h2 hz
  rcases hzz : zoom lt k T [] with ⟨t, ctx⟩
  rw [hzz] at hz
  simp only at hz
  subst hz
  obtain ⟨e1, e2⟩ := insT_nodes_new lt k s.next T ctx hzz
  have hmemN : (s.next, k) ∈ (insT lt k s.next T).nodes := by rw [e2]; simp
  obtain ⟨n, hn1, hn2⟩ := RepT_nodes_mem hm1.rep.tree hmemN
  have hin := Inorder_of_RepT hm1.rep.tree
  rw [← hm1.rep.root] at hin
  have hk1 : (insT lt k s.next T).keys =
      (ctxBefore ctx).map Prod.snd ++ k :: (ctxAfter ctx).map Prod.snd := by
    simp [keys, e2]
  refine ⟨s1, s.next, n, e, ?_, hn1, hn2, ?_, (ctxBefore ctx).map Prod.snd,
    (ctxAfter ctx).map Prod.snd, by simp [keys, e1], ?_, ?_⟩
  · exact (isNode_iff hm1.rep _).2 (List.mem_map.2 ⟨_, hmemN, rfl⟩)
  · simp only [size, hm1.size, hm.size, ids, e1, e2, List.length_map, List.length_append,
      List.length_cons]
    omega
  · rw [← hk1]; exact hin
  · rw [← hk1]; exact insT_Sorted lt k s.next sw.trans (hsort sw)

/-- C8: for a strict weak ordering, a reachable set with in-order key sequence
`ks` and a key `k` equivalent to one of them, `insert(k)` returns
`(it, false)` where `it` refers to a node of the tree whose key is equivalent
to `k`, and the state is left exactly as it was: same shape, colours, size and
stored elements (the comparator may look at a part of the element only). -/
theorem insert_existing_key (lt : Key → Key → Bool) (s : set Key) (hs : Reachable lt s)
    (sw : StrictWeak lt) (k : Key) (ks : List Key) (hks : Inorder s s.root_ ks)
    (hold : ∃ x ∈ ks, Equiv lt k x) :
    ∃ a n, insert lt k s = some (s, (some a, false)) ∧ IsNode s a ∧
      deref s (some a) = some n ∧ Equiv lt k n.value := by
  obtain ⟨T, hm, hv, hsort⟩ := reachable_model lt hs
  have hkeys := keys_eq hm.rep hks
  subst hkeys
  have hz : (zoom lt k T []).1 ≠ nil := by
    intro hz
    obtain ⟨x, hx, hq⟩ := hold
    exact (zoom_nil_iff lt k sw (hsort sw)).1 hz x hx hq
  obtain ⟨s1, r, e, -, h1, -⟩ := insert_spec lt k hm
  obtain ⟨rfl, rfl⟩ := h1 hz
  obtain ⟨-, -, -, b3⟩ := zoom_split lt k sw.trans T (hsort sw)
  have hp := zoom_plug lt k T []
  rcases hzz : zoom lt k T [] with ⟨t, ctx⟩
  rw [hzz] at hz b3 hp e
  simp only [plug] at hp hz b3 e
  cases t with
  | nil => exact absurd rfl hz
  | node i c l v r =>
    have hrep := hm.rep
    rw [← hp] at hrep
    refine ⟨i, _, e, ?_, hrep.lookup, b3 i c l v r rfl⟩
    refine (isNode_iff hm.rep i).2 ?_
    rw [← hp, ids, plug_nodes]
    simp

/-- C9: for a strict weak ordering and a reachable set, `find(k)` returns; if a
node of the tree holds a key equivalent to `k` the result refers to that node,
and if no node of the tree holds an equivalent key the result is `end()`. -/
theorem find_correct (lt : Key → Key → Bool) (s : set Key) (hs : Reachable lt s)
    (sw : StrictWeak lt) (k : Key) :
    ∃ r, find lt k s = some r ∧
      (∀ a n, IsNode s a → s.mem a = some n → Equiv lt k n.value → r = some a) ∧
      ((∀ a n, IsNode s a → s.mem a = some n → ¬ Equiv lt k n.value) → r = end_ s) := by
  obtain ⟨T, hm, hv, hsort⟩ := reachable_model lt hs
  refine ⟨_, find_spec lt k hm, ?_, ?_⟩
  · intro a n ha hn hq
    have hmem := node_mem_nodes hm.rep ha hn
    obtain ⟨e, b1, b2, b3⟩ := zoom_split lt k sw.trans T (hsort sw)
    rcases hzz : zoom lt k T [] with ⟨t, ctx⟩
    rw [hzz] at e b1 b2 b3
    simp only at e b1 b2 b3 ⊢
    have hnot1 : (a, n.value) ∉ ctxBefore ctx := by
      intro hx
      have := b1 _ hx
      rw [hq.2] at this
      cases this
    have hnot2 : (a, n.value) ∉ ctxAfter ctx := by
      intro hx
      have := b2 _ hx
      rw [hq.1] at this
      cases this
    rw [e] at hmem
    simp only [List.mem_append, hnot1, hnot2, or_false, false_or] at hmem
    cases t with
    | nil => simp at hmem
    | node i c l v r =>
      obtain ⟨q1, q2⟩ := b3 i c l v r rfl
      have hsrt := hsort sw
      unfold Sorted keys at hsrt
      rw [e, List.pairwise_map] at hsrt
      have hsub := (List.pairwise_append.1 (List.pairwise_append.1 hsrt).1).2.1
      simp only [nodes_node] at hsub hmem
      obtain ⟨p1, p2, p3⟩ := List.pairwise_append.1 hsub
      obtain ⟨p4, -⟩ := List.pairwise_cons.1 p2
      rcases List.mem_append.1 hmem with hx | hx
      · have h1 := p3 _ hx (i, v) (by simp)
        simp only at h1
        have := (sw.incomp n.value k v hq.2 hq.1 q1 q2).1
        rw [h1] at this
        cases this
      · rcases List.mem_cons.1 hx with hx | hx
        · simp only [Prod.mk.injEq] at hx
          rw [hx.1]
          rfl
        · have h1 := p4 _ hx
          simp only at h1
          have := (sw.incomp n.value k v hq.2 hq.1 q1 q2).2
          rw [h1] at this
          cases this
  · intro hall
    obtain ⟨-, -, -, b3⟩ := zoom_split lt k sw.trans T (hsort sw)
    have hp := zoom_plug lt k T []
    rcases hzz : zoom lt k T [] with ⟨t, ctx⟩
    rw [hzz] at b3 hp
    simp only [plug] at hp b3 ⊢
    cases t with
    | nil => rfl
    | node i c l v r =>
      exfalso
      have hrep := hm.rep
      rw [← hp] at hrep
      refine hall i _ ?_ hrep.lookup (b3 i c l v r rfl)
      refine (isNode_iff hm.rep i).2 ?_
      rw [← hp, ids, plug_nodes]
      simp

/-- C10: for a strict weak ordering and a reachable set with in-order key
sequence `ks`: if a key of `ks` is equivalent to `k`, `erase(k)` returns 1,
the new in-order key sequence is `ks` with that one key taken out and `size()`
drops by one; if no key of `ks` is equivalent to `k`, `erase(k)` returns 0 and
the state is left exactly as it was. -/
theorem erase_key_correct (lt : Key → Key → Bool) (s : set Key) (hs : Reachable lt s)
    (sw : StrictWeak lt) (k : Key) (ks : List Key) (hks : Inorder s s.root_ ks) :
    ((∃ x ∈ ks, Equiv lt k x) →
      ∃ s1, erase_key lt k s = some (s1, 1) ∧ size s1 + 1 = size s ∧
        ∃ l x r, ks = l ++ x :: r ∧ Equiv lt k x ∧ Inorder s1 s1.root_ (l ++ r)) ∧
    ((∀ x ∈ ks, ¬ Equiv lt k x) → erase_key lt k s = some (s, 0)) := by
  obtain ⟨T, hm, hv, hsort⟩ := reachable_model lt hs
  have hkeys := keys_eq hm.rep hks
  subst hkeys
  obtain ⟨s1, cnt, e, h1, h2⟩ := erase_key_model lt k hm hv
  constructor
  · intro hold
    have hz : (zoom lt k T []).1 ≠ nil := by
      intro hz
      obtain ⟨x, hx, hq⟩ := hold
      exact (zoom_nil_iff lt k sw (hsort sw)).1 hz x hx hq
    obtain ⟨rfl, -, hm1⟩ := h2 hz
    obtain ⟨-, -, -, b3⟩ := zoom_split lt k sw.trans T (hsort sw)
    have hp := zoom_plug lt k T []
    rcases hzz : zoom lt k T [] with ⟨t, ctx⟩
    rw [hzz] at hz b3 hp hm1
    simp only [plug] at hp hz b3 hm1
    cases t with
    | nil => exact absurd rfl hz
    | node i c l v r =>
      have hin := Inorder_of_RepT hm1.rep.tree
      rw [← hm1.rep.root] at hin
      have hk1 : (eraT ctx (node i c l v r)).keys =
          (ctxBefore ctx ++ l.nodes).map Prod.snd ++ (r.nodes ++ ctxAfter ctx).map Prod.snd := by
        simp [keys, eraT_nodes]
      refine ⟨s1, e, ?_, (ctxBefore ctx ++ l.nodes).map Prod.snd, v,
        (r.nodes ++ ctxAfter ctx).map Prod.snd, ?_, b3 i c l v r rfl, ?_⟩
      · simp only [size, hm1.size, hm.size, ids, eraT_nodes, ← hp, plug_nodes, nodes_node,
          List.length_map, List.length_append, List.length_cons]
        omega
      · rw [← hp]
        simp [keys, plug_nodes]
      · rw [← hk1]; exact hin
  · intro hnew
    have hz := (zoom_nil_iff lt k sw (hsort sw)).2 hnew
    obtain ⟨rfl, rfl⟩ := h1 hz
    exact e

end taapp

namespace taapp
variable {Key : Type}
open NodeTree

/-! ## Examples -/

theorem reachable_after_insert (lt : Key → Key → Bool) (k : Key) {s : set Key}
    (h : Reachable lt s) : Reachable lt (after_insert lt k s) := by
  obtain ⟨T, hm, -, -⟩ := reachable_model lt h
  obtain ⟨s1, r, e, -⟩ := insert_spec lt k hm
  have : after_insert lt k s = s1 := by simp [after_insert, e]
  rw [this]
  exact Reachable.insert h e

theorem ltN_strictWeak : StrictWeak ltN := by
  refine ⟨fun a => by simp [ltN], fun a b c => ?_, fun a b c => ?_⟩
  · simp only [ltN, decide_eq_true_eq]; omega
  · simp only [ltN, decide_eq_false_iff_not]; omega

theorem ltP_strictWeak : StrictWeak ltP := by
  refine ⟨fun a => by simp [ltP], fun a b c => ?_, fun a b c => ?_⟩
  · simp only [ltP, decide_eq_true_eq]; omega
  · simp only [ltP, decide_eq_false_iff_not]; omega

theorem demo2_reachable : Reachable ltN demo2 :=
  reachable_after_insert ltN 1 (reachable_after_insert ltN 2 Reachable.empty)

theorem demo3_reachable : Reachable ltN demo3 := reachable_after_insert ltN 3 demo2_reachable

theorem demo6_reachable : Reachable ltN demo6 :=
  reachable_after_insert ltN 6 (reachable_after_insert ltN 5
    (reachable_after_insert ltN 4 demo3_reachable))

theorem demoP_reachable : Reachable ltP demoP := reachable_after_insert ltP (1, 10) Reachable.empty

theorem demo2_inorder : Inorder demo2 demo2.root_ [1, 2] :=
  @Inorder.node _ demo2 0 ⟨2, BLACK, none, some 1, none⟩ [1] [] rfl
    (@Inorder.node _ demo2 1 ⟨1, RED, some 0, none, none⟩ [] [] rfl Inorder.null Inorder.null)
    Inorder.null

theorem demo3_inorder : Inorder demo3 demo3.root_ [1, 2, 3] :=
  @Inorder.node _ demo3 0 ⟨2, BLACK, none, some 1, some 2⟩ [1] [3] rfl
    (@Inorder.node _ demo3 1 ⟨1, RED, some 0, none, none⟩ [] [] rfl Inorder.null Inorder.null)
    (@Inorder.node _ demo3 2 ⟨3, RED, some 0, none, none⟩ [] [] rfl Inorder.null Inorder.null)

theorem demoP_inorder : Inorder demoP demoP.root_ [(1, 10)] :=
  @Inorder.node _ demoP 0 ⟨(1, 10), BLACK, none, none, none⟩ [] [] rfl Inorder.null Inorder.null

theorem demo3_isNode_root : IsNode demo3 0 :=
  @Reach.here _ demo3 0 ⟨2, BLACK, none, some 1, some 2⟩ rfl

theorem demo6_isNode_three : IsNode demo6 3 :=
  @Reach.right _ demo6 0 3 ⟨2, BLACK, none, some 1, some 3⟩ rfl
    (@Reach.here _ demo6 3 ⟨4, RED, some 0, some 2, some 4⟩ rfl)

/-- Witness of C1 on the set holding 1, 2, 3. -/
theorem reachable_inorder_strictly_increasing_witness :
    Reachable ltN demo3 ∧ StrictWeak ltN ∧
    ∃ ks, Inorder demo3 demo3.root_ ks ∧ (∀ ks1, Inorder demo3 demo3.root_ ks1 → ks1 = ks) ∧
      Sorted ltN ks ∧
      ∀ a b na nb, IsNode demo3 a → IsNode demo3 b → a ≠ b → demo3.mem a = some na →
        demo3.mem b = some nb → ¬ Equiv ltN na.value nb.value :=
  ⟨demo3_reachable, ltN_strictWeak,
    reachable_inorder_strictly_increasing ltN demo3 demo3_reachable ltN_strictWeak⟩

/-- Witness of C2: in the set holding 1 to 6 the node of key 4 is RED and its
left child is BLACK. -/
theorem reachable_no_red_red_witness :
    Reachable ltN demo6 ∧ IsNode demo6 3 ∧
    demo6.mem 3 = some ⟨4, RED, some 0, some 2, some 4⟩ ∧
    ∃ m, demo6.mem 2 = some m ∧ m.color = BLACK :=
  ⟨demo6_reachable, demo6_isNode_three, rfl,
    reachable_no_red_red ltN demo6 demo6_reachable 3 2 ⟨4, RED, some 0, some 2, some 4⟩
      demo6_isNode_three rfl rfl (Or.inl rfl)⟩

/-- Witness of C3 at the root of the set holding 1, 2, 3. -/
theorem reachable_black_height_witness :
    Reachable ltN demo3 ∧ IsNode demo3 0 ∧
    ∃ k, BlackPath demo3 (some 0) k ∧ ∀ k1, BlackPath demo3 (some 0) k1 → k1 = k :=
  ⟨demo3_reachable, demo3_isNode_root,
    reachable_black_height ltN demo3 demo3_reachable 0 demo3_isNode_root⟩

/-- Witness of C4: the root after inserting 3 into the set holding 1, 2. -/
theorem root_black_after_operation_witness :
    Reachable ltN demo2 ∧ insert ltN 3 demo2 = some (demo3, (some 2, true)) ∧
    demo3.root_ = some 0 ∧ ∃ n, demo3.mem 0 = some n ∧ n.color = BLACK :=
  ⟨demo2_reachable, rfl, rfl,
    root_black_after_operation ltN demo2 demo3 demo2_reachable
      (Or.inl ⟨3, (some 2, true), rfl⟩) 0 rfl⟩

/-- Witness of C5 on the set holding 1, 2, 3: the left child of the root points
back to the root, and the root has no parent. -/
theorem reachable_parent_links_witness :
    Reachable ltN demo3 ∧ (∃ m, demo3.mem 1 = some m ∧ m.parent = some 0) ∧
    ∃ n, demo3.mem 0 = some n ∧ n.parent = none :=
  ⟨demo3_reachable,
    (reachable_parent_links ltN demo3 demo3_reachable).1 0 1
      ⟨2, BLACK, none, some 1, some 2⟩ demo3_isNode_root rfl (Or.inl rfl),
    (reachable_parent_links ltN demo3 demo3_reachable).2 0 rfl⟩

/-- Witness of C6 on the set holding 1, 2, 3. -/
theorem reachable_size_counts_nodes_witness :
    Reachable ltN demo3 ∧
    ∃ l : List Nat, l.Nodup ∧ (∀ a, a ∈ l ↔ IsNode demo3 a) ∧ size demo3 = l.length :=
  ⟨demo3_reachable, reachable_size_counts_nodes ltN demo3 demo3_reachable⟩

/-- Witness of C7: inserting 3 into the set holding 1, 2. -/
theorem insert_new_key_witness :
    Reachable ltN demo2 ∧ Inorder demo2 demo2.root_ [1, 2] ∧
    ∃ s1 a n, insert ltN 3 demo2 = some (s1, (some a, true)) ∧ IsNode s1 a ∧
      deref s1 (some a) = some n ∧ n.value = 3 ∧ size s1 = size demo2 + 1 ∧
      ∃ l r, [1, 2] = l ++ r ∧ Inorder s1 s1.root_ (l ++ 3 :: r) ∧ Sorted ltN (l ++ 3 :: r) :=
  ⟨demo2_reachable, demo2_inorder,
    insert_new_key ltN demo2 demo2_reachable ltN_strictWeak 3 [1, 2] demo2_inorder (by
      intro x hx
      simp only [List.mem_cons, List.mem_singleton, List.not_mem_nil, or_false] at hx
      rcases hx with rfl | rfl <;> simp [Equiv, ltN])⟩

/-- Witness of C8: inserting `(1, 20)` into the set of pairs holding `(1, 10)`,
compared by the first component. -/
theorem insert_existing_key_witness :
    Reachable ltP demoP ∧ Inorder demoP demoP.root_ [(1, 10)] ∧
    ∃ a n, insert ltP (1, 20) demoP = some (demoP, (some a, false)) ∧ IsNode demoP a ∧
      deref demoP (some a) = some n ∧ Equiv ltP (1, 20) n.value :=
  ⟨demoP_reachable, demoP_inorder,
    insert_existing_key ltP demoP demoP_reachable ltP_strictWeak (1, 20) [(1, 10)]
      demoP_inorder ⟨(1, 10), by simp, by simp [Equiv, ltP]⟩⟩

/-- Witness of C9: `find(3)` on the set holding 1, 2, 3. -/
theorem find_correct_witness :
    Reachable ltN demo3 ∧
    ∃ r, find ltN 3 demo3 = some r ∧
      (∀ a n, IsNode demo3 a → demo3.mem a = some n → Equiv ltN 3 n.value → r = some a) ∧
      ((∀ a n, IsNode demo3 a → demo3.mem a = some n → ¬ Equiv ltN 3 n.value) →
        r = end_ demo3) :=
  ⟨demo3_reachable, find_correct ltN demo3 demo3_reachable ltN_strictWeak 3⟩

/-- Witness of C10: `erase(1)` and `erase(7)` on the set holding 1, 2, 3. -/
theorem erase_key_correct_witness :
    Reachable ltN demo3 ∧ Inorder demo3 demo3.root_ [1, 2, 3] ∧
    (∃ s1, erase_key ltN 1 demo3 = some (s1, 1) ∧ size s1 + 1 = size demo3 ∧
      ∃ l x r, [1, 2, 3] = l ++ x :: r ∧ Equiv ltN 1 x ∧ Inorder s1 s1.root_ (l ++ r)) ∧
    erase_key ltN 7 demo3 = some (demo3, 0) :=
  ⟨demo3_reachable, demo3_inorder,
    (erase_key_correct ltN demo3 demo3_reachable ltN_strictWeak 1 [1, 2, 3] demo3_inorder).1
      ⟨1, by simp, by simp [Equiv, ltN]⟩,
    (erase_key_correct ltN demo3 demo3_reachable ltN_strictWeak 7 [1, 2, 3] demo3_inorder).2 (by
      intro x hx
      simp only [List.mem_cons, List.mem_singleton, List.not_mem_nil, or_false] at hx
      rcases hx with rfl | rfl | rfl <;> simp [Equiv, ltN])⟩

end taapp

namespace taapp
variable {Key : Type}
open NodeTree

/-! ## In-order lists of nodes -/

theorem InorderN_of_RepT {s : set Key} {t : NodeTree Key} :
    ∀ {par : Option Nat}, RepT s.mem par t → InorderN s t.root t.nodes := by
  induction t with
  | nil => intro _ _; exact InorderN.null
  | node i c l v r ihl ihr =>
    intro par h
    exact InorderN.node h.1 (ihl h.2.1) (ihr h.2.2)

theorem InorderN_fun {s : set Key} {p : Option Nat} {l l1 : List (Nat × Key)}
    (h : InorderN s p l) (h1 : InorderN s p l1) : l = l1 := by
  induction h generalizing l1 with
  | null => cases h1; rfl
  | node hm _ _ ihl ihr =>
    cases h1 with
    | node hm1 hl1 hr1 =>
      rw [hm] at hm1
      cases hm1
      rw [ihl hl1, ihr hr1]

theorem nodes_eq {s : set Key} {T : NodeTree Key} (h : Rep s T) {l : List (Nat × Key)}
    (hl : InorderN s s.root_ l) : l = T.nodes := by
  have := InorderN_of_RepT h.tree
  rw [← h.root] at this
  exact InorderN_fun hl this

theorem exists_plug_of_mem {t : NodeTree Key} {a : Nat} (h : a ∈ t.ids) :
    ∃ ctx c l v r, t = plug ctx (node a c l v r) := by
  induction t with
  | nil => simp at h
  | node i c l v r ihl ihr =>
    simp only [ids_node, List.mem_append, List.mem_cons] at h
    rcases h with h | rfl | h
    · obtain ⟨ctx, c1, l1, v1, r1, e⟩ := ihl h
      refine ⟨ctx ++ [(⟨i, c, v, LEFT, r⟩ : Frame Key)], c1, l1, v1, r1, ?_⟩
      rw [plug_append, ← e]
      rfl
    · exact ⟨[], c, l, v, r, rfl⟩
    · obtain ⟨ctx, c1, l1, v1, r1, e⟩ := ihr h
      refine ⟨ctx ++ [(⟨i, c, v, RIGHT, l⟩ : Frame Key)], c1, l1, v1, r1, ?_⟩
      rw [plug_append, ← e]
      rfl

/-- A list whose first components are pairwise different splits at a given
first component in one way only. -/
theorem split_unique {L1 L2 R1 R2 : List (Nat × Key)} {x y : Nat × Key}
    (hnd : ((L1 ++ x :: R1).map Prod.fst).Nodup) (he : L1 ++ x :: R1 = L2 ++ y :: R2)
    (hxy : x.1 = y.1) : L1 = L2 ∧ x = y ∧ R1 = R2 := by
  induction L1 generalizing L2 with
  | nil =>
    cases L2 with
    | nil =>
      simp only [List.nil_append, List.cons.injEq] at he
      exact ⟨rfl, he.1, he.2⟩
    | cons z L2 =>
      exfalso
      simp only [List.nil_append, List.cons_append, List.cons.injEq] at he
      obtain ⟨rfl, rfl⟩ := he
      simp only [List.nil_append, List.map_cons, List.map_append, List.nodup_cons,
        List.mem_append, List.mem_cons, List.mem_map] at hnd
      exact hnd.1 (Or.inr (Or.inl hxy))
  | cons z L1 ih =>
    cases L2 with
    | nil =>
      exfalso
      simp only [List.nil_append, List.cons_append, List.cons.injEq] at he
      obtain ⟨rfl, rfl⟩ := he
      simp only [List.cons_append, List.map_cons, List.map_append, List.nodup_cons,
        List.mem_append, List.mem_cons, List.mem_map] at hnd
      exact hnd.1 (Or.inr (Or.inl hxy.symm))
    | cons w L2 =>
      simp only [List.cons_append, List.cons.injEq] at he
      obtain ⟨rfl, he⟩ := he
      simp only [List.cons_append, List.map_cons, List.nodup_cons] at hnd
      obtain ⟨h1, h2, h3⟩ := ih hnd.2 he
      exact ⟨by rw [h1], h2, h3⟩

/-! ## What `operator++` and `begin` return -/

/-- First address of a list of nodes, `p` for the empty list. -/
theorem leftmost_loop_spec {s : set Key} {t : NodeTree Key} :
    ∀ {par : Option Nat} (fuel : Nat) (p : Option Nat), RepT s.mem par t → t.height ≤ fuel →
      leftmost_loop s fuel p t.root =
        some (match t.nodes.head? with
              | none => p
              | some x => some x.1) := by
  induction t with
  | nil => intro par fuel p _ _; cases fuel <;> rfl
  | node i c l v r ihl _ =>
    intro par fuel p h hf
    obtain ⟨k, rfl⟩ : ∃ k, fuel = k + 1 := ⟨fuel - 1, by simp [height] at hf; omega⟩
    simp only [height] at hf
    have := ihl k (some i) h.2.1 (by omega)
    simp only [root_node, leftmost_loop, h.1, this, nodes_node]
    cases l.nodes <;> rfl

theorem ascend_loop_spec {s : set Key} {ctx : List (Frame Key)} :
    ∀ {a : Nat} (fuel : Nat), RepC s.mem ctx (some a) → (a :: cids ctx).Nodup →
      ctx.length ≤ fuel →
      ascend_loop s fuel (some a) (cpar ctx) = some ((ctxAfter ctx).head?.map Prod.fst) := by
  induction ctx with
  | nil => intro a fuel _ _ _; cases fuel <;> rfl
  | cons f ctx ih =>
    intro a fuel h hnd hf
    obtain ⟨k, rfl⟩ : ∃ k, fuel = k + 1 := ⟨fuel - 1, by simp at hf; omega⟩
    have hnd1 : (a :: f.id :: (f.sib.ids ++ cids ctx)).Nodup :=
      (List.Perm.cons a (cids_perm f ctx)).nodup_iff.1 hnd
    simp only [List.nodup_cons, List.mem_cons, List.mem_append, not_or] at hnd1
    obtain ⟨⟨haf, hasib, hactx⟩, ⟨hfsib, hfctx⟩, hrest⟩ := hnd1
    have hrec := ih k h.2.2 (List.nodup_cons.2 ⟨hfctx, (List.nodup_append.1 hrest).2.1⟩)
      (by simp at hf; omega)
    have hcp : cpar (f :: ctx) = some f.id := rfl
    rcases f with ⟨i, c, v, d, sib⟩
    cases d
    · simp only [hcp, ascend_loop, h.1, LEFT, ↓reduceIte, ctxAfter, List.cons_append,
        List.head?_cons, Option.map_some']
    · have hsr : sib.root ≠ some a := root_ne_of_not_mem hasib
      simp only [hcp, ascend_loop, h.1, LEFT, Bool.true_eq_false, ↓reduceIte, hsr, ctxAfter,
        List.nil_append]
      exact hrec

theorem increment_spec {s : set Key} {ctx : List (Frame Key)} {n : Nat} {c : Bool}
    {l : NodeTree Key} {v : Key} {r : NodeTree Key} (h : Rep s (plug ctx (node n c l v r)))
    (hsz : s.size_ = (plug ctx (node n c l v r)).ids.length) :
    increment s (some n) = some ((r.nodes ++ ctxAfter ctx).head?.map Prod.fst) := by
  have hn := h.lookup
  have ht := (RepT_plug ctx _).1 h.tree
  have hlen := plug_length ctx (node n c l v r)
  simp only [ids_node, List.length_append, List.length_cons] at hlen
  cases r with
  | nil =>
    have hnd := plug_nodup.1 h.nodup
    simp only [ids_node, ids_nil, List.nil_append, List.append_assoc, List.cons_append]
      at hnd
    have hnd2 : (n :: cids ctx).Nodup := (List.nodup_append.1 hnd).2.1
    have := ascend_loop_spec s.size_ ht.1 hnd2 (by have := length_le_cids ctx; omega)
    simp [increment, deref, hn, bind, Option.bind, this]
  | node ri rc rl rv rr =>
    have hr : RepT s.mem (some n) (node ri rc rl rv rr) := ht.2.2.2
    have := leftmost_loop_spec s.size_ (some ri) hr.2.1 (by
      have h1 := height_le_length rl
      simp only [ids_node, List.length_append, List.length_cons] at hlen
      omega)
    simp only [increment, deref, hn, bind, Option.bind, root_node, ne_eq, reduceCtorEq,
      not_false_eq_true, ↓reduceIte, hr.1, this, nodes_node]
    cases rl.nodes <;> rfl

theorem begin_spec {s : set Key} {T : NodeTree Key} (h : Model s T) :
    begin_ s = some (T.nodes.head?.map Prod.fst) := by
  have := leftmost_loop_spec s.size_ none h.rep.tree
    (by rw [h.size]; exact height_le_length T)
  rw [begin_, h.rep.root, this]
  cases T.nodes <;> rfl

theorem walk_spec {s : set Key} {T : NodeTree Key} (h : Model s T) :
    ∀ (suf pre : List (Nat × Key)) (fuel : Nat), T.nodes = pre ++ suf → suf.length ≤ fuel →
      walk s fuel (suf.head?.map Prod.fst) = some suf := by
  intro suf
  induction suf with
  | nil => intro pre fuel _ _; cases fuel <;> rfl
  | cons x suf ih =>
    intro pre fuel he hf
    obtain ⟨k, rfl⟩ : ∃ k, fuel = k + 1 := ⟨fuel - 1, by simp at hf; omega⟩
    have hx : x.1 ∈ T.ids := by
      rw [ids, he]
      simp
    obtain ⟨ctx, c, l, v, r, hT⟩ := exists_plug_of_mem hx
    have hnodes : T.nodes = (ctxBefore ctx ++ l.nodes) ++ (x.1, v) :: (r.nodes ++ ctxAfter ctx) := by
      rw [hT, plug_nodes]
      simp
    have hnd : ((pre ++ x :: suf).map Prod.fst).Nodup := by
      rw [← he]
      exact h.rep.nodup
    obtain ⟨-, hxv, hsuf⟩ := split_unique hnd (he.symm.trans hnodes) rfl
    have hrep := h.rep
    rw [hT] at hrep
    have hinc := increment_spec hrep (by rw [← hT]; exact h.size)
    rw [← hsuf] at hinc
    have hrec := ih (pre ++ [x]) k (by rw [he]; simp) (by simp at hf; omega)
    have hmem := hrep.lookup
    simp only [List.head?_cons, Option.map_some', walk, hmem, hinc, hrec]
    rw [hxv]

end taapp

namespace taapp
variable {Key : Type}
open NodeTree

/-! ## Keys and nodes across `insert` and `erase` -/

theorem Equiv.symm {lt : Key → Key → Bool} {a b : Key} (h : Equiv lt a b) : Equiv lt b a :=
  ⟨h.2, h.1⟩

theorem Equiv.trans_sw {lt : Key → Key → Bool} (sw : StrictWeak lt) {a b c : Key}
    (h1 : Equiv lt a b) (h2 : Equiv lt b c) : Equiv lt a c :=
  sw.incomp a b c h1.1 h1.2 h2.1 h2.2

/-- Nodes of the tree after `insert`: the old ones, and the new one if the key
was not there. -/
theorem insT_nodes_cases (lt : Key → Key → Bool) (k : Key) (a : Nat) (T : NodeTree Key) :
    ((zoom lt k T []).1 ≠ nil ∧ insT lt k a T = T) ∨
    ((zoom lt k T []).1 = nil ∧ ∃ B A, T.nodes = B ++ A ∧ (insT lt k a T).nodes = B ++ (a, k) :: A) := by
  rcases hz : zoom lt k T [] with ⟨t, ctx⟩
  cases t with
  | nil =>
    obtain ⟨e1, e2⟩ := insT_nodes_new lt k a T ctx hz
    exact Or.inr ⟨rfl, _, _, e1, e2⟩
  | node i c l v r => exact Or.inl ⟨by simp, insT_dup lt k a T hz⟩

theorem insT_keys_equiv (lt : Key → Key → Bool) (sw : StrictWeak lt) (k1 : Key) (a : Nat)
    {T : NodeTree Key} (hs : Sorted lt T.keys) (k : Key) :
    (∃ x ∈ (insT lt k1 a T).keys, Equiv lt k x) ↔
      (Equiv lt k k1 ∨ ∃ x ∈ T.keys, Equiv lt k x) := by
  rcases insT_nodes_cases lt k1 a T with ⟨hz, e⟩ | ⟨hz, B, A, e1, e2⟩
  · rw [e]
    constructor
    · exact fun h => Or.inr h
    · rintro (h | h)
      · have := (not_iff_not.2 (zoom_nil_iff lt k1 sw hs)).1 hz
        push_neg at this
        obtain ⟨x, hx, hq⟩ := this
        exact ⟨x, hx, Equiv.trans_sw sw h hq⟩
      · exact h
  · simp only [keys, e1, e2, List.map_append, List.map_cons, List.mem_append, List.mem_cons]
    constructor
    · rintro ⟨x, (hx | rfl | hx), hq⟩
      · exact Or.inr ⟨x, Or.inl hx, hq⟩
      · exact Or.inl hq
      · exact Or.inr ⟨x, Or.inr hx, hq⟩
    · rintro (hq | ⟨x, (hx | hx), hq⟩)
      · exact ⟨k1, Or.inr (Or.inl rfl), hq⟩
      · exact ⟨x, Or.inl hx, hq⟩
      · exact ⟨x, Or.inr (Or.inr hx), hq⟩

theorem eraT_keys_equiv (lt : Key → Key → Bool) (sw : StrictWeak lt) (k1 : Key)
    {ctx : List (Frame Key)} {n : Nat} {c : Bool} {l : NodeTree Key} {v : Key}
    {r : NodeTree Key} (hs : Sorted lt (plug ctx (node n c l v r)).keys)
    (hv : Equiv lt k1 v) (k : Key) :
    (∃ x ∈ (eraT ctx (node n c l v r)).keys, Equiv lt k x) ↔
      (¬ Equiv lt k k1 ∧ ∃ x ∈ (plug ctx (node n c l v r)).keys, Equiv lt k x) := by
  have e1 : (eraT ctx (node n c l v r)).keys =
      (ctxBefore ctx ++ l.nodes).map Prod.snd ++ (r.nodes ++ ctxAfter ctx).map Prod.snd := by
    simp [keys, eraT_nodes]
  have e2 : (plug ctx (node n c l v r)).keys =
      (ctxBefore ctx ++ l.nodes).map Prod.snd ++ v :: (r.nodes ++ ctxAfter ctx).map Prod.snd := by
    simp [keys, plug_nodes]
  rw [e1, e2]
  rw [e2] at hs
  generalize (ctxBefore ctx ++ l.nodes).map Prod.snd = L at hs ⊢
  generalize (r.nodes ++ ctxAfter ctx).map Prod.snd = R at hs ⊢
  obtain ⟨p1, p2, p3⟩ := List.pairwise_append.1 hs
  obtain ⟨p4, -⟩ := List.pairwise_cons.1 p2
  have hne : ∀ x ∈ L ++ R, ¬ Equiv lt x v := by
    intro x hx hq
    rcases List.mem_append.1 hx with h | h
    · have := p3 x h v (by simp)
      rw [hq.1] at this
      cases this
    · have := p4 x h
      rw [hq.2] at this
      cases this
  constructor
  · rintro ⟨x, hx, hq⟩
    refine ⟨fun hk => hne x hx (Equiv.trans_sw sw (Equiv.trans_sw sw hq.symm hk) hv), x, ?_, hq⟩
    rcases List.mem_append.1 hx with h | h
    · exact List.mem_append.2 (Or.inl h)
    · exact List.mem_append.2 (Or.inr (List.mem_cons_of_mem _ h))
  · rintro ⟨hk, x, hx, hq⟩
    refine ⟨x, ?_, hq⟩
    rcases List.mem_append.1 hx with h | h
    · exact List.mem_append.2 (Or.inl h)
    · rcases List.mem_cons.1 h with rfl | h
      · exact absurd (Equiv.trans_sw sw hq hv.symm) hk
      · exact List.mem_append.2 (Or.inr h)

theorem eraT_nodes_survive {ctx : List (Frame Key)} {n : Nat} {c : Bool} {l : NodeTree Key}
    {v : Key} {r : NodeTree Key} {x : Nat × Key}
    (hx : x ∈ (plug ctx (node n c l v r)).nodes) (hne : x.1 ≠ n) :
    x ∈ (eraT ctx (node n c l v r)).nodes := by
  rw [eraT_nodes]
  rw [plug_nodes, nodes_node] at hx
  simp only [List.mem_append, List.mem_cons] at hx ⊢
  rcases hx with (h | h | rfl | h) | h
  · exact Or.inl (Or.inl (Or.inl h))
  · exact Or.inl (Or.inl (Or.inr h))
  · exact absurd rfl hne
  · exact Or.inl (Or.inr h)
  · exact Or.inr h

theorem insT_nodes_survive (lt : Key → Key → Bool) (k : Key) (a : Nat) {T : NodeTree Key}
    {x : Nat × Key} (hx : x ∈ T.nodes) : x ∈ (insT lt k a T).nodes := by
  rcases insT_nodes_cases lt k a T with ⟨-, e⟩ | ⟨-, B, A, e1, e2⟩
  · rw [e]; exact hx
  · rw [e1] at hx
    rw [e2]
    simp only [List.mem_append, List.mem_cons] at hx ⊢
    tauto

/-- A node listed in the represented tree is a node of the heap that holds the
listed key. -/
theorem node_of_mem_nodes {s : set Key} {T : NodeTree Key} (h : Rep s T) {x : Nat × Key}
    (hx : x ∈ T.nodes) : IsNode s x.1 ∧ ∃ n, deref s (some x.1) = some n ∧ n.value = x.2 := by
  refine ⟨(isNode_iff h x.1).2 (List.mem_map.2 ⟨x, hx, rfl⟩), ?_⟩
  exact RepT_nodes_mem h.tree (show (x.1, x.2) ∈ T.nodes from hx)

end taapp

namespace taapp
variable {Key : Type}
open NodeTree

/-! ## Runs of `insert` and `erase(key)` -/

theorem run_ops_append (lt : Key → Key → Bool) (ops1 ops2 : List (Op Key)) (s : set Key) :
    run_ops lt (ops1 ++ ops2) s = (run_ops lt ops1 s).bind (run_ops lt ops2) := by
  induction ops1 generalizing s with
  | nil => rfl
  | cons op ops1 ih =>
    cases op with
    | ins k =>
      simp only [List.cons_append, run_ops]
      cases insert lt k s with
      | none => rfl
      | some r => exact ih r.1
    | era k =>
      simp only [List.cons_append, run_ops]
      cases erase_key lt k s with
      | none => rfl
      | some r => exact ih r.1

theorem Present_nil (lt : Key → Key → Bool) (k : Key) : ¬ Present lt k [] := by
  rintro ⟨pre, k1, post, h, -⟩
  cases pre <;> cases h

theorem Present_snoc_ins (lt : Key → Key → Bool) (k k1 : Key) (ops : List (Op Key)) :
    Present lt k (ops ++ [Op.ins k1]) ↔ (Equiv lt k k1 ∨ Present lt k ops) := by
  constructor
  · rintro ⟨pre, k2, post, h, hq, hno⟩
    rcases List.eq_nil_or_concat post with rfl | ⟨post1, op, rfl⟩
    · have := List.append_inj_right' (show ops ++ [Op.ins k1] = pre ++ [Op.ins k2] from h) rfl
      simp only [List.cons.injEq, Op.ins.injEq, and_true] at this
      exact Or.inl (this ▸ hq)
    · right
      have h1 : ops ++ [Op.ins k1] = (pre ++ Op.ins k2 :: post1) ++ [op] := by
        rw [h]; simp
      have h2 := List.append_inj_left' h1 rfl
      refine ⟨pre, k2, post1, h2, hq, fun k3 h3 => hno k3 ?_⟩
      simp [h3]
  · rintro (hq | ⟨pre, k2, post, h, hq, hno⟩)
    · exact ⟨ops, k1, [], rfl, hq, fun k2 h2 => by cases h2⟩
    · refine ⟨pre, k2, post ++ [Op.ins k1], by rw [h]; simp, hq, fun k3 h3 => hno k3 ?_⟩
      simpa using h3

theorem Present_snoc_era (lt : Key → Key → Bool) (k k1 : Key) (ops : List (Op Key)) :
    Present lt k (ops ++ [Op.era k1]) ↔ (¬ Equiv lt k k1 ∧ Present lt k ops) := by
  constructor
  · rintro ⟨pre, k2, post, h, hq, hno⟩
    rcases List.eq_nil_or_concat post with rfl | ⟨post1, op, rfl⟩
    · have := List.append_inj_right' (show ops ++ [Op.era k1] = pre ++ [Op.ins k2] from h) rfl
      simp at this
    · have h1 : ops ++ [Op.era k1] = (pre ++ Op.ins k2 :: post1) ++ [op] := by
        rw [h]; simp
      have h2 := List.append_inj_left' h1 rfl
      have h3 := List.append_inj_right' h1 rfl
      simp only [List.cons.injEq, and_true] at h3
      subst h3
      exact ⟨hno k1 (by simp), pre, k2, post1, h2, hq, fun k3 h3 => hno k3 (by simp [h3])⟩
  · rintro ⟨hk, pre, k2, post, h, hq, hno⟩
    refine ⟨pre, k2, post ++ [Op.era k1], by rw [h]; simp, hq, fun k3 h3 => ?_⟩
    simp only [List.mem_append, List.mem_singleton, Op.era.injEq] at h3
    rcases h3 with h3 | rfl
    · exact hno k3 h3
    · exact hk

/-- The state after a run from the empty set: it represents a valid sorted
tree whose keys are, up to equivalence, those the run leaves present. -/
theorem run_ops_model (lt : Key → Key → Bool) (sw : StrictWeak lt) (ops : List (Op Key)) :
    ∃ s T, run_ops lt ops set.empty = some s ∧ Reachable lt s ∧ Model s T ∧ Valid T ∧
      Sorted lt T.keys ∧ ∀ k, (∃ x ∈ T.keys, Equiv lt k x) ↔ Present lt k ops := by
  induction ops using List.reverseRecOn with
  | nil =>
    refine ⟨set.empty, nil, rfl, Reachable.empty, Model_empty, Valid_nil, List.Pairwise.nil,
      fun k => ⟨?_, fun h => absurd h (Present_nil lt k)⟩⟩
    rintro ⟨x, hx, -⟩
    simp [keys] at hx
  | append_singleton ops op ih =>
    obtain ⟨s, T, e, hr, hm, hv, hs, hk⟩ := ih
    rw [run_ops_append, e]
    cases op with
    | ins k1 =>
      obtain ⟨s1, r, e1, hm1, -, -⟩ := insert_spec lt k1 hm
      refine ⟨s1, insT lt k1 s.next T, by simp [run_ops, e1], Reachable.insert hr e1, hm1,
        insT_Valid lt k1 _ hv, insT_Sorted lt k1 _ sw.trans hs, fun k => ?_⟩
      rw [insT_keys_equiv lt sw k1 s.next hs k, Present_snoc_ins, hk]
    | era k1 =>
      obtain ⟨s1, c, e1, h1, h2⟩ := erase_key_model lt k1 hm hv
      have hp := zoom_plug lt k1 T []
      obtain ⟨-, -, -, b3⟩ := zoom_split lt k1 sw.trans T hs
      have hnil := zoom_nil_iff lt k1 sw hs
      rcases hz : zoom lt k1 T [] with ⟨t, ctx⟩
      rw [hz] at hp h1 h2 b3 hnil
      simp only [plug] at hp h1 h2 b3 hnil
      cases t with
      | nil =>
        obtain ⟨rfl, -⟩ := h1 rfl
        refine ⟨s1, T, by simp [run_ops, e1], hr, hm, hv, hs, fun k => ?_⟩
        rw [Present_snoc_era, ← hk]
        have hno := hnil.1 rfl
        constructor
        · rintro ⟨x, hx, hq⟩
          exact ⟨fun hq1 => hno x hx (Equiv.trans_sw sw hq1.symm hq), x, hx, hq⟩
        · exact fun h => h.2
      | node n c l v r =>
        obtain ⟨-, -, hm1⟩ := h2 (by simp)
        subst hp
        refine ⟨s1, _, by simp [run_ops, e1], Reachable.erase_key hr e1, hm1, eraT_Valid hv,
          eraT_Sorted lt hs, fun k => ?_⟩
        rw [eraT_keys_equiv lt sw k1 hs (b3 n c l v r rfl) k, Present_snoc_era, hk]

theorem find_ne_end_iff (lt : Key → Key → Bool) (sw : StrictWeak lt) (k : Key) {s : set Key}
    {T : NodeTree Key} (hm : Model s T) (hs : Sorted lt T.keys) :
    ∃ r, find lt k s = some r ∧ (r ≠ end_ s ↔ ∃ x ∈ T.keys, Equiv lt k x) := by
  refine ⟨_, find_spec lt k hm, ?_⟩
  have hnil := zoom_nil_iff lt k sw hs
  cases hz : (zoom lt k T []).1 with
  | nil =>
    rw [hz] at hnil
    have := hnil.1 rfl
    constructor
    · intro h; exact absurd rfl h
    · rintro ⟨x, hx, hq⟩; exact absurd hq (this x hx)
  | node i c l v r =>
    rw [hz] at hnil
    constructor
    · intro _
      by_contra hcon
      push_neg at hcon
      have := hnil.2 hcon
      cases this
    · intro _ h
      cases h

end taapp

namespace taapp
variable {Key : Type}
open NodeTree

/-! ## Height of a red-black tree -/

theorem pow_bh_le {t : NodeTree Key} (h : Bal t) : 2 ^ bh t ≤ t.ids.length + 1 := by
  induction t with
  | nil => simp [bh]
  | node i c l v r ihl ihr =>
    obtain ⟨hl, hr, he⟩ := h
    have h1 := ihl hl
    have h2 := ihr hr
    rw [he] at h1
    simp only [bh, ids_node, List.length_append, List.length_cons]
    rw [he]
    cases c
    · simp only [BLACK, ↓reduceIte, pow_succ]
      omega
    · simp only [BLACK, Bool.true_eq_false, ↓reduceIte, add_zero]
      omega

theorem height_le_bh {t : NodeTree Key} (hb : Bal t) (hr : RR t) :
    t.height ≤ 2 * bh t + (if t.isRed = true then 1 else 0) := by
  induction t with
  | nil => simp [height]
  | node i c l v r ihl ihr =>
    obtain ⟨bl, br, be⟩ := hb
    obtain ⟨hc, rl, rr⟩ := hr
    have h1 := ihl bl rl
    have h2 := ihr br rr
    rw [← be] at h2
    simp only [height, bh, isRed_node]
    cases c
    · simp only [BLACK, ↓reduceIte, Bool.false_eq_true]
      have a1 : (if l.isRed = true then 1 else 0) ≤ 1 := by split_ifs <;> omega
      have a2 : (if r.isRed = true then 1 else 0) ≤ 1 := by split_ifs <;> omega
      omega
    · obtain ⟨c1, c2⟩ := hc rfl
      simp only [c1, c2, Bool.false_eq_true, ↓reduceIte, add_zero] at h1 h2
      simp only [BLACK, Bool.true_eq_false, ↓reduceIte, add_zero]
      omega

theorem Valid_height {T : NodeTree Key} (h : Valid T) :
    2 ^ T.height ≤ (T.ids.length + 1) ^ 2 := by
  obtain ⟨h0, hr, hb⟩ := h
  have h1 := height_le_bh hb hr
  simp only [h0, Bool.false_eq_true, ↓reduceIte, add_zero] at h1
  have h2 := pow_bh_le hb
  calc 2 ^ T.height ≤ 2 ^ (2 * bh T) := Nat.pow_le_pow_right (by omega) h1
    _ = (2 ^ bh T) ^ 2 := by rw [Nat.mul_comm, Nat.pow_mul]
    _ ≤ (T.ids.length + 1) ^ 2 := Nat.pow_le_pow_left h2 2

theorem PathLen_le_height {s : set Key} {t : NodeTree Key} :
    ∀ {par : Option Nat} {h : Nat}, RepT s.mem par t → PathLen s t.root h → h ≤ t.height := by
  induction t with
  | nil => intro _ _ _ hp; cases hp; simp
  | node i c l v r ihl ihr =>
    intro par h hrep hp
    simp only [height]
    cases hp with
    | left hm hl =>
      rw [hrep.1] at hm
      cases hm
      have := ihl hrep.2.1 hl
      omega
    | right hm hl =>
      rw [hrep.1] at hm
      cases hm
      have := ihr hrep.2.2 hl
      omega

theorem PathLen_height {s : set Key} {t : NodeTree Key} :
    ∀ {par : Option Nat}, RepT s.mem par t → PathLen s t.root t.height := by
  induction t with
  | nil => intro _ _; exact PathLen.null
  | node i c l v r ihl ihr =>
    intro par hrep
    simp only [height]
    rcases Nat.le_total l.height r.height with h | h
    · rw [Nat.max_eq_right h]
      exact PathLen.right hrep.1 (ihr hrep.2.2)
    · rw [Nat.max_eq_left h]
      exact PathLen.left hrep.1 (ihl hrep.2.1)

theorem height_le_of_pow {T : NodeTree Key} (h : Valid T) {fuel : Nat}
    (hf : (T.ids.length + 1) ^ 2 ≤ 2 ^ fuel) : T.height ≤ fuel := by
  by_contra hcon
  have h1 : fuel + 1 ≤ T.height := by omega
  have h2 := Valid_height h
  have h3 : 2 ^ (fuel + 1) ≤ 2 ^ T.height := Nat.pow_le_pow_right (by omega) h1
  have h4 : 2 ^ fuel < 2 ^ (fuel + 1) := Nat.pow_lt_pow_right (by omega) (by omega)
  omega

end taapp

namespace taapp
variable {Key : Type}
open NodeTree

/-! ## The red-black conditions on reachable sets, and the scenario -/

theorem Model_RedBlack (lt : Key → Key → Bool) {s : set Key} {T : NodeTree Key}
    (hm : Model s T) (hv : Valid T) (hsort : Sorted lt T.keys) : RedBlack lt s := by
  refine ⟨?_, ?_, ?_, ?_, ?_⟩
  · intro b hb
    rw [hm.rep.root] at hb
    obtain ⟨m, h1, h2, h3⟩ := child_facts hm.rep.tree hb
    exact ⟨m, h1, by rw [h3, hv.1], h2⟩
  · intro a n ha hn b hb
    obtain ⟨p1, c, l, v, r, hsub, hrep, rfl⟩ := node_facts hm.rep ha hn
    have hrr := Subtree_RR hsub hv.2.1
    simp only at hb
    rcases hb with hb | hb
    · obtain ⟨m, h1, h2, h3⟩ := child_facts hrep.2.1 hb
      exact ⟨m, h1, h2, fun hc => by rw [h3, (hrr.1 hc).1]⟩
    · obtain ⟨m, h1, h2, h3⟩ := child_facts hrep.2.2 hb
      exact ⟨m, h1, h2, fun hc => by rw [h3, (hrr.1 hc).2]⟩
  · intro a ha
    unfold IsNode at ha
    rw [hm.rep.root] at ha
    obtain ⟨p1, c, l, v, r, hsub, hrep⟩ := Subtree_of_Reach hm.rep.tree ha
    have hbal := Subtree_Bal hsub hv.2.2
    exact ⟨_, BlackPath_bh hrep, fun k1 h1 => BlackPath_eq hrep hbal h1⟩
  · have hin := Inorder_of_RepT hm.rep.tree
    rw [← hm.rep.root] at hin
    exact ⟨T.keys, hin, hsort⟩
  · exact ⟨T.ids, hm.rep.nodup, fun a => (isNode_iff hm.rep a).symm, hm.size⟩

theorem inorder_keys_spec {s : set Key} {T : NodeTree Key} (hm : Model s T) :
    inorder_keys s = some T.keys := by
  have h1 := begin_spec hm
  have h2 := walk_spec hm T.nodes [] (size s) rfl (by
    rw [size, hm.size, ids, List.length_map])
  simp only [inorder_keys, h1, h2, keys]

/-- On a reachable set the keys read by the iteration are the in-order key
sequence. -/
theorem inorder_of_keys (lt : Key → Key → Bool) {s : set Key} (hs : Reachable lt s)
    {ks : List Key} (h : inorder_keys s = some ks) : Inorder s s.root_ ks := by
  obtain ⟨T, hm, -, -⟩ := reachable_model lt hs
  rw [inorder_keys_spec hm] at h
  cases h
  have hin := Inorder_of_RepT hm.rep.tree
  rwa [← hm.rep.root] at hin

theorem reachable_RedBlack (lt : Key → Key → Bool) (sw : StrictWeak lt) {s : set Key}
    (hs : Reachable lt s) : RedBlack lt s := by
  obtain ⟨T, hm, hv, hsort⟩ := reachable_model lt hs
  exact Model_RedBlack lt hm hv (hsort sw)

theorem reachable_after_erase_key (lt : Key → Key → Bool) (k : Key) {s : set Key}
    (h : Reachable lt s) : Reachable lt (after_erase_key lt k s) := by
  obtain ⟨s1, c, e⟩ := reachable_erase_key_total lt h k
  have : after_erase_key lt k s = s1 := by simp [after_erase_key, e]
  rw [this]
  exact Reachable.erase_key h e

end taapp

namespace taapp
open NodeTree

/-! ## The scenario, step by step -/

theorem sc0_facts : run_ops ltN (scenario.take 0) set.empty = some sc0 ∧ Reachable ltN sc0 ∧
    inorder_keys sc0 = some [] :=
  ⟨rfl, Reachable.empty, rfl⟩

theorem sc1_step : insert ltN 5 sc0 = some (sc1, (some 0, true)) := rfl

theorem sc1_facts : run_ops ltN (scenario.take 1) set.empty = some sc1 ∧ Reachable ltN sc1 ∧
    inorder_keys sc1 = some [5] := by
  refine ⟨?_, reachable_after_insert ltN 5 sc0_facts.2.1, rfl⟩
  have e : scenario.take 1 = scenario.take 0 ++ [Op.ins 5] := rfl
  rw [e, run_ops_append, sc0_facts.1]
  simp only [Option.bind, run_ops, sc1_step]

theorem sc2_step : insert ltN 3 sc1 = some (sc2, (some 1, true)) := rfl

theorem sc2_facts : run_ops ltN (scenario.take 2) set.empty = some sc2 ∧ Reachable ltN sc2 ∧
    inorder_keys sc2 = some [3, 5] := by
  refine ⟨?_, reachable_after_insert ltN 3 sc1_facts.2.1, rfl⟩
  have e : scenario.take 2 = scenario.take 1 ++ [Op.ins 3] := rfl
  rw [e, run_ops_append, sc1_facts.1]
  simp only [Option.bind, run_ops, sc2_step]

theorem sc3_step : insert ltN 8 sc2 = some (sc3, (some 2, true)) := rfl

theorem sc3_facts : run_ops ltN (scenario.take 3) set.empty = some sc3 ∧ Reachable ltN sc3 ∧
    inorder_keys sc3 = some [3, 5, 8] := by
  refine ⟨?_, reachable_after_insert ltN 8 sc2_facts.2.1, rfl⟩
  have e : scenario.take 3 = scenario.take 2 ++ [Op.ins 8] := rfl
  rw [e, run_ops_append, sc2_facts.1]
  simp only [Option.bind, run_ops, sc3_step]

theorem sc4_step : insert ltN 1 sc3 = some (sc4, (some 3, true)) := rfl

theorem sc4_facts : run_ops ltN (scenario.take 4) set.empty = some sc4 ∧ Reachable ltN sc4 ∧
    inorder_keys sc4 = some [1, 3, 5, 8] := by
  refine ⟨?_, reachable_after_insert ltN 1 sc3_facts.2.1, rfl⟩
  have e : scenario.take 4 = scenario.take 3 ++ [Op.ins 1] := rfl
  rw [e, run_ops_append, sc3_facts.1]
  simp only [Option.bind, run_ops, sc4_step]

theorem sc5_step : insert ltN 4 sc4 = some (sc5, (some 4, true)) := rfl

theorem sc5_facts : run_ops ltN (scenario.take 5) set.empty = some sc5 ∧ Reachable ltN sc5 ∧
    inorder_keys sc5 = some [1, 3, 4, 5, 8] := by
  refine ⟨?_, reachable_after_insert ltN 4 sc4_facts.2.1, rfl⟩
  have e : scenario.take 5 = scenario.take 4 ++ [Op.ins 4] := rfl
  rw [e, run_ops_append, sc4_facts.1]
  simp only [Option.bind, run_ops, sc5_step]

theorem sc6_step : insert ltN 7 sc5 = some (sc6, (some 5, true)) := rfl

theorem sc6_facts : run_ops ltN (scenario.take 6) set.empty = some sc6 ∧ Reachable ltN sc6 ∧
    inorder_keys sc6 = some [1, 3, 4, 5, 7, 8] := by
  refine ⟨?_, reachable_after_insert ltN 7 sc5_facts.2.1, rfl⟩
  have e : scenario.take 6 = scenario.take 5 ++ [Op.ins 7] := rfl
  rw [e, run_ops_append, sc5_facts.1]
  simp only [Option.bind, run_ops, sc6_step]

theorem sc7_step : insert ltN 9 sc6 = some (sc7, (some 6, true)) := rfl

theorem sc7_facts : run_ops ltN (scenario.take 7) set.empty = some sc7 ∧ Reachable ltN sc7 ∧
    inorder_keys sc7 = some [1, 3, 4, 5, 7, 8, 9] := by
  refine ⟨?_, reachable_after_insert ltN 9 sc6_facts.2.1, rfl⟩
  have e : scenario.take 7 = scenario.take 6 ++ [Op.ins 9] := rfl
  rw [e, run_ops_append, sc6_facts.1]
  simp only [Option.bind, run_ops, sc7_step]

theorem sc8_step : insert ltN 2 sc7 = some (sc8, (some 7, true)) := rfl

theorem sc8_facts : run_ops ltN (scenario.take 8) set.empty = some sc8 ∧ Reachable ltN sc8 ∧
    inorder_keys sc8 = some [1, 2, 3, 4, 5, 7, 8, 9] := by
  refine ⟨?_, reachable_after_insert ltN 2 sc7_facts.2.1, rfl⟩
  have e : scenario.take 8 = scenario.take 7 ++ [Op.ins 2] := rfl
  rw [e, run_ops_append, sc7_facts.1]
  simp only [Option.bind, run_ops, sc8_step]

theorem sc9_step : insert ltN 6 sc8 = some (sc9, (some 8, true)) := rfl

theorem sc9_facts : run_ops ltN (scenario.take 9) set.empty = some sc9 ∧ Reachable ltN sc9 ∧
    inorder_keys sc9 = some [1, 2, 3, 4, 5, 6, 7, 8, 9] := by
  refine ⟨?_, reachable_after_insert ltN 6 sc8_facts.2.1, rfl⟩
  have e : scenario.take 9 = scenario.take 8 ++ [Op.ins 6] := rfl
  rw [e, run_ops_append, sc8_facts.1]
  simp only [Option.bind, run_ops, sc9_step]

theorem sc10_step : insert ltN 0 sc9 = some (sc10, (some 9, true)) := rfl

theorem sc10_facts : run_ops ltN (scenario.take 10) set.empty = some sc10 ∧ Reachable ltN sc10 ∧
    inorder_keys sc10 = some [0, 1, 2, 3, 4, 5, 6, 7, 8, 9] := by
  refine ⟨?_, reachable_after_insert ltN 0 sc9_facts.2.1, rfl⟩
  have e : scenario.take 10 = scenario.take 9 ++ [Op.ins 0] := rfl
  rw [e, run_ops_append, sc9_facts.1]
  simp only [Option.bind, run_ops, sc10_step]

theorem sc11_step : erase_key ltN 3 sc10 = some (sc11, 1) := rfl

theorem sc11_facts : run_ops ltN (scenario.take 11) set.empty = some sc11 ∧ Reachable ltN sc11 ∧
    inorder_keys sc11 = some [0, 1, 2, 4, 5, 6, 7, 8, 9] := by
  refine ⟨?_, reachable_after_erase_key ltN 3 sc10_facts.2.1, rfl⟩
  have e : scenario.take 11 = scenario.take 10 ++ [Op.era 3] := rfl
  rw [e, run_ops_append, sc10_facts.1]
  simp only [Option.bind, run_ops, sc11_step]

theorem sc12_step : erase_key ltN 8 sc11 = some (sc12, 1) := rfl

theorem sc12_facts : run_ops ltN (scenario.take 12) set.empty = some sc12 ∧ Reachable ltN sc12 ∧
    inorder_keys sc12 = some [0, 1, 2, 4, 5, 6, 7, 9] := by
  refine ⟨?_, reachable_after_erase_key ltN 8 sc11_facts.2.1, rfl⟩
  have e : scenario.take 12 = scenario.take 11 ++ [Op.era 8] := rfl
  rw [e, run_ops_append, sc11_facts.1]
  simp only [Option.bind, run_ops, sc12_step]

theorem sc13_step : erase_key ltN 0 sc12 = some (sc13, 1) := rfl

theorem sc13_facts : run_ops ltN (scenario.take 13) set.empty = some sc13 ∧ Reachable ltN sc13 ∧
    inorder_keys sc13 = some [1, 2, 4, 5, 6, 7, 9] := by
  refine ⟨?_, reachable_after_erase_key ltN 0 sc12_facts.2.1, rfl⟩
  have e : scenario.take 13 = scenario.take 12 ++ [Op.era 0] := rfl
  rw [e, run_ops_append, sc12_facts.1]
  simp only [Option.bind, run_ops, sc13_step]

end taapp

namespace taapp
variable {Key : Type}
open NodeTree

/-! ## Three inserts that need a double rotation -/

theorem insert_new_model (lt : Key → Key → Bool) (k : Key) {s : set Key} {T : NodeTree Key}
    (h : Model s T) (hz : (zoom lt k T []).1 = nil) :
    ∃ s1, insert lt k s = some (s1, (some s.next, true)) ∧ Model s1 (insT lt k s.next T) ∧
      s1.next = s.next + 1 := by
  obtain ⟨s1, r, e, hm, -, h2⟩ := insert_spec lt k h
  obtain ⟨rfl, hn⟩ := h2 hz
  exact ⟨s1, e, hm, hn⟩

theorem lt_asymm_of (lt : Key → Key → Bool) (sw : StrictWeak lt) {a b : Key}
    (h : lt a b = true) : lt b a = false := by
  cases hba : lt b a with
  | false => rfl
  | true =>
    have := sw.trans a b a h hba
    rw [sw.irrefl] at this
    cases this

theorem bent_chain_model (lt : Key → Key → Bool) (sw : StrictWeak lt) (a b c : Key)
    (hab : lt a b = true) (hbc : lt b c = true) :
    (∃ s, run_ops lt [Op.ins a, Op.ins c, Op.ins b] set.empty = some s ∧
      Model s (node 2 BLACK (node 0 RED nil a nil) b (node 1 RED nil c nil))) ∧
    (∃ s, run_ops lt [Op.ins c, Op.ins a, Op.ins b] set.empty = some s ∧
      Model s (node 2 BLACK (node 1 RED nil a nil) b (node 0 RED nil c nil))) := by
  have hac : lt a c = true := sw.trans a b c hab hbc
  have hba := lt_asymm_of lt sw hab
  have hcb := lt_asymm_of lt sw hbc
  have hca := lt_asymm_of lt sw hac
  have h0 : (set.empty : set Key).next = 0 := rfl
  constructor
  · obtain ⟨s1, e1, m1, n1⟩ := insert_new_model lt a (Model_empty : Model (set.empty : set Key) nil) rfl
    rw [h0] at m1 n1 e1
    have t1 : insT lt a 0 nil = node 0 BLACK nil a nil := rfl
    rw [t1] at m1
    obtain ⟨s2, e2, m2, n2⟩ := insert_new_model lt c m1 (by simp [zoom, hca, hac])
    rw [n1] at m2 n2 e2
    have t2 : insT lt c (0 + 1) (node 0 BLACK nil a nil) =
        node 0 BLACK nil a (node 1 RED nil c nil) := by
      simp [insT, zoom, hca, hac, insFix, Frame.fill, NodeTree.mk, paint, plug, RIGHT, LEFT]
    rw [t2] at m2
    obtain ⟨s3, e3, m3, -⟩ := insert_new_model lt b m2 (by simp [zoom, hba, hab, hbc])
    rw [n2] at m3 e3
    have t3 : insT lt b (0 + 1 + 1) (node 0 BLACK nil a (node 1 RED nil c nil)) =
        node 2 BLACK (node 0 RED nil a nil) b (node 1 RED nil c nil) := by
      simp [insT, zoom, hba, hab, hbc, insFix, balI, Frame.fill, NodeTree.mk, paint, plug,
        drot, rot, setChild, child, isRed, RIGHT, LEFT, RED, BLACK]
    rw [t3] at m3
    exact ⟨s3, by simp only [run_ops, e1, e2, e3], m3⟩
  · obtain ⟨s1, e1, m1, n1⟩ := insert_new_model lt c (Model_empty : Model (set.empty : set Key) nil) rfl
    rw [h0] at m1 n1 e1
    have t1 : insT lt c 0 nil = node 0 BLACK nil c nil := rfl
    rw [t1] at m1
    obtain ⟨s2, e2, m2, n2⟩ := insert_new_model lt a m1 (by simp [zoom, hac])
    rw [n1] at m2 n2 e2
    have t2 : insT lt a (0 + 1) (node 0 BLACK nil c nil) =
        node 0 BLACK (node 1 RED nil a nil) c nil := by
      simp [insT, zoom, hac, insFix, Frame.fill, NodeTree.mk, paint, plug, RIGHT, LEFT]
    rw [t2] at m2
    obtain ⟨s3, e3, m3, -⟩ := insert_new_model lt b m2 (by simp [zoom, hba, hab, hbc])
    rw [n2] at m3 e3
    have t3 : insT lt b (0 + 1 + 1) (node 0 BLACK (node 1 RED nil a nil) c nil) =
        node 2 BLACK (node 1 RED nil a nil) b (node 0 RED nil c nil) := by
      simp [insT, zoom, hba, hab, hbc, insFix, balI, Frame.fill, NodeTree.mk, paint, plug,
        drot, rot, setChild, child, isRed, RIGHT, LEFT, RED, BLACK]
    rw [t3] at m3
    exact ⟨s3, by simp only [run_ops, e1, e2, e3], m3⟩

end taapp

namespace taapp
variable {Key : Type}
open NodeTree

/-! ## Allocations: which addresses hold a node -/

theorem SameDom.refl (s : set Key) : SameDom s s := fun _ => rfl

theorem SameDom.trans {s s1 s2 : set Key} (h1 : SameDom s s1) (h2 : SameDom s1 s2) :
    SameDom s s2 := fun a => (h2 a).trans (h1 a)

theorem write_dom {s : set Key} {a : Nat} {n : rbnode Key} (m : rbnode Key)
    (h : s.mem a = some n) : SameDom s (s.write a m) := by
  intro b
  by_cases hb : b = a
  · subst hb; simp [write_mem, h]
  · simp [write_mem, hb]

theorem set_left_dom {s s1 : set Key} {p x : Option Nat} (h : set_left s p x = some s1) :
    SameDom s s1 := by
  unfold set_left at h
  split at h
  · cases h
  · split at h
    · cases h
    · cases h; exact write_dom _ ‹_›

theorem set_right_dom {s s1 : set Key} {p x : Option Nat} (h : set_right s p x = some s1) :
    SameDom s s1 := by
  unfold set_right at h
  split at h
  · cases h
  · split at h
    · cases h
    · cases h; exact write_dom _ ‹_›

theorem set_parent_dom {s s1 : set Key} {p x : Option Nat} (h : set_parent s p x = some s1) :
    SameDom s s1 := by
  unfold set_parent at h
  split at h
  · cases h
  · split at h
    · cases h
    · cases h; exact write_dom _ ‹_›

theorem set_color_dom {s s1 : set Key} {p : Option Nat} {c : Bool}
    (h : set_color s p c = some s1) : SameDom s s1 := by
  unfold set_color at h
  split at h
  · cases h
  · split at h
    · cases h
    · cases h; exact write_dom _ ‹_›

theorem set_child_dom {d : Bool} {s s1 : set Key} {p x : Option Nat}
    (h : set_child d s p x = some s1) : SameDom s s1 := by
  unfold set_child at h
  split at h
  · exact set_left_dom h
  · exact set_right_dom h

theorem replace_child_dom {s s1 : set Key} {p x y : Option Nat}
    (h : replace_child s p x y = some s1) : SameDom s s1 := by
  unfold replace_child at h
  split at h
  · split at h
    · cases h
    · split at h
      · exact set_left_dom h
      · exact set_right_dom h
  · cases h; exact fun _ => rfl

theorem ite_set_parent_dom {c : Prop} [Decidable c] {s s1 : set Key} {p x : Option Nat}
    (h : (if c then set_parent s p x else some s) = some s1) : SameDom s s1 := by
  split at h
  · exact set_parent_dom h
  · cases h; exact SameDom.refl _

theorem ite_set_color_dom {c : Prop} [Decidable c] {s s1 : set Key} {p : Option Nat} {b : Bool}
    (h : (if c then set_color s p b else some s) = some s1) : SameDom s s1 := by
  split at h
  · exact set_color_dom h
  · cases h; exact SameDom.refl _

theorem rotate_dom {d : Bool} {s : set Key} {root : Option Nat} {r : set Key × Option Nat}
    (h : rotate d s root = some r) : SameDom s r.1 := by
  simp only [rotate, bind, Option.bind_eq_some, pure, Option.some.injEq] at h
  obtain ⟨pivot, -, rn, -, s1, h1, s2, h2, pc, -, s3, h3, s4, h4, s5, h5, s6, h6, s7, h7,
    s8, h8, rfl⟩ := h
  exact (set_parent_dom h1).trans ((replace_child_dom h2).trans ((set_child_dom h3).trans
    ((ite_set_parent_dom h4).trans ((set_child_dom h5).trans ((set_parent_dom h6).trans
    ((set_color_dom h7).trans (set_color_dom h8)))))))

theorem double_rotate_dom {d : Bool} {s : set Key} {root : Option Nat}
    {r : set Key × Option Nat} (h : double_rotate d s root = some r) : SameDom s r.1 := by
  simp only [double_rotate, bind, Option.bind_eq_some] at h
  obtain ⟨o, -, r1, h1, h2⟩ := h
  exact (rotate_dom h1).trans (rotate_dom h2)

theorem balance_insert_dom {d : Bool} {s : set Key} {root child : Option Nat}
    {r : set Key × Option Nat} (h : balance_insert d s root child = some r) :
    SameDom s r.1 := by
  simp only [balance_insert, bind, Option.bind_eq_some] at h
  obtain ⟨sib, -, sr, -, h⟩ := h
  split at h
  · simp only [Option.bind_eq_some, pure, Option.some.injEq] at h
    obtain ⟨s1, h1, s2, h2, s3, h3, rfl⟩ := h
    exact (set_color_dom h1).trans ((set_color_dom h2).trans (set_color_dom h3))
  · simp only [Option.bind_eq_some] at h
    obtain ⟨c1, -, r1, -, h⟩ := h
    split at h
    · exact rotate_dom h
    · simp only [Option.bind_eq_some] at h
      obtain ⟨c2, -, r2, -, h⟩ := h
      split at h
      · exact double_rotate_dom h
      · simp only [pure, Option.some.injEq] at h
        subst h
        exact SameDom.refl _

theorem balance_erase_recolor_dom {s : set Key} {root parent sibling : Option Nat}
    {r : set Key × Option Nat} (h : balance_erase_recolor s root parent sibling = some r) :
    SameDom s r.1 := by
  unfold balance_erase_recolor at h
  repeat' first | split at h | (dsimp only at h; split at h)
  all_goals first
    | (cases h; done)
    | (cases h
       dsimp only
       repeat first
         | exact SameDom.refl _
         | refine SameDom.trans (set_parent_dom (by assumption)) ?_
         | refine SameDom.trans (set_left_dom (by assumption)) ?_
         | refine SameDom.trans (set_right_dom (by assumption)) ?_
         | refine SameDom.trans (replace_child_dom (by assumption)) ?_
         | refine SameDom.trans (set_child_dom (by assumption)) ?_
         | refine SameDom.trans (set_color_dom (by assumption)) ?_
         | refine SameDom.trans (ite_set_parent_dom (by assumption)) ?_
         | refine SameDom.trans (ite_set_color_dom (by assumption)) ?_)

theorem ite_rotate_dom {c : Prop} [Decidable c] {d : Bool} {s : set Key} {p : Option Nat}
    {r : set Key × Option Nat}
    (h : (if c then rotate d s p else double_rotate d s p) = some r) : SameDom s r.1 := by
  split at h
  · exact rotate_dom h
  · exact double_rotate_dom h

theorem balance_erase_rotate_dom {d : Bool} {s : set Key} {parent sibling : Option Nat}
    {r : set Key × Option Nat} (h : balance_erase_rotate d s parent sibling = some r) :
    SameDom s r.1 := by
  unfold balance_erase_rotate at h
  repeat' first | split at h | (dsimp only at h; split at h)
  all_goals first
    | (cases h; done)
    | (cases h
       dsimp only
       repeat first
         | exact SameDom.refl _
         | refine SameDom.trans (set_parent_dom (by assumption)) ?_
         | refine SameDom.trans (set_left_dom (by assumption)) ?_
         | refine SameDom.trans (set_right_dom (by assumption)) ?_
         | refine SameDom.trans (replace_child_dom (by assumption)) ?_
         | refine SameDom.trans (set_child_dom (by assumption)) ?_
         | refine SameDom.trans (set_color_dom (by assumption)) ?_
         | refine SameDom.trans (ite_set_parent_dom (by assumption)) ?_
         | refine SameDom.trans (ite_set_color_dom (by assumption)) ?_
         | refine SameDom.trans (ite_rotate_dom (by assumption)) ?_)

theorem balance_erase_black_dom {d : Bool} {s : set Key} {root parent sibling : Option Nat}
    {r : set Key × Option Nat} (h : balance_erase_black d s root parent sibling = some r) :
    SameDom s r.1 := by
  unfold balance_erase_black at h
  repeat' first | split at h | (dsimp only at h; split at h)
  all_goals first
    | (cases h; done)
    | exact balance_erase_recolor_dom h
    | exact balance_erase_rotate_dom h
    | (cases h; exact SameDom.refl _)

theorem balance_erase_dom {d : Bool} {s : set Key} {root child : Option Nat}
    {r : set Key × Option Nat} (h : balance_erase d s root child = some r) :
    SameDom s r.1 := by
  unfold balance_erase at h
  repeat' first | split at h | (dsimp only at h; split at h)
  all_goals first
    | (cases h; done)
    | exact balance_erase_black_dom h
    | exact (rotate_dom (by assumption)).trans (balance_erase_black_dom h)

theorem ite_balance_insert_dom {c : Prop} [Decidable c] {s : set Key} {p q : Option Nat}
    {r : set Key × Option Nat}
    (h : (if c then balance_insert LEFT s p q else balance_insert RIGHT s p q) = some r) :
    SameDom s r.1 := by
  split at h <;> exact balance_insert_dom h

theorem ite_balance_erase_dom {c : Prop} [Decidable c] {s : set Key} {p q : Option Nat}
    {r : set Key × Option Nat}
    (h : (if c then balance_erase LEFT s p q else balance_erase RIGHT s p q) = some r) :
    SameDom s r.1 := by
  split at h <;> exact balance_erase_dom h

theorem insert_loop_dom : ∀ (fuel : Nat) {s s1 : set Key} {p c : Option Nat},
    insert_loop fuel s p c = some s1 → SameDom s s1 := by
  intro fuel
  induction fuel with
  | zero =>
    intro s s1 p c h
    cases p with
    | none => simp only [insert_loop, Option.some.injEq] at h; subst h; exact SameDom.refl _
    | some a =>
      simp only [insert_loop] at h
      repeat' split at h
      all_goals first
        | (cases h; done)
        | (cases h; exact SameDom.refl _)
  | succ f ih =>
    intro s s1 p c h
    cases p with
    | none => simp only [insert_loop, Option.some.injEq] at h; subst h; exact SameDom.refl _
    | some a =>
      simp only [insert_loop] at h
      repeat' split at h
      all_goals first
        | (cases h; done)
        | (cases h; exact SameDom.refl _)
        | exact (ite_balance_insert_dom (by assumption)).trans (ih h)

theorem erase_loop_dom : ∀ (fuel : Nat) {s s1 : set Key} {p c : Option Nat},
    erase_loop fuel s p c = some s1 → SameDom s s1 := by
  intro fuel
  induction fuel with
  | zero =>
    intro s s1 p c h
    cases p with
    | none => simp only [erase_loop, Option.some.injEq] at h; subst h; exact SameDom.refl _
    | some a => simp only [erase_loop] at h; cases h
  | succ f ih =>
    intro s s1 p c h
    cases p with
    | none => simp only [erase_loop, Option.some.injEq] at h; subst h; exact SameDom.refl _
    | some a =>
      simp only [erase_loop] at h
      repeat' split at h
      all_goals first
        | (cases h; done)
        | exact (ite_balance_erase_dom (by assumption)).trans (ih h)

theorem erase_splice_left_dom {s : set Key} {root parent child : Option Nat}
    {r : set Key × Option Nat × Option Nat}
    (h : erase_splice_left s root parent child = some r) : SameDom s r.1 := by
  unfold erase_splice_left at h
  repeat' first | split at h | (dsimp only at h; split at h)
  all_goals first
    | (cases h; done)
    | (cases h
       dsimp only
       repeat first
         | exact SameDom.refl _
         | refine SameDom.trans (set_parent_dom (by assumption)) ?_
         | refine SameDom.trans (set_left_dom (by assumption)) ?_
         | refine SameDom.trans (set_right_dom (by assumption)) ?_
         | refine SameDom.trans (replace_child_dom (by assumption)) ?_
         | refine SameDom.trans (set_color_dom (by assumption)) ?_
         | refine SameDom.trans (ite_set_parent_dom (by assumption)) ?_)

theorem erase_splice_right_dom {s : set Key} {root successor : Option Nat}
    {r : set Key × Option Nat × Bool}
    (h : erase_splice_right s root successor = some r) : SameDom s r.1 := by
  unfold erase_splice_right at h
  repeat' first | split at h | (dsimp only at h; split at h)
  all_goals first
    | (cases h; done)
    | (cases h
       dsimp only
       repeat first
         | exact SameDom.refl _
         | refine SameDom.trans (set_parent_dom (by assumption)) ?_
         | refine SameDom.trans (set_left_dom (by assumption)) ?_
         | refine SameDom.trans (set_right_dom (by assumption)) ?_
         | refine SameDom.trans (replace_child_dom (by assumption)) ?_
         | refine SameDom.trans (set_color_dom (by assumption)) ?_
         | refine SameDom.trans (ite_set_parent_dom (by assumption)) ?_)

theorem erase_splice_dom {s : set Key} {root parent child : Option Nat}
    {r : set Key × Option Nat × Option Nat × Option Nat × Bool}
    (h : erase_splice s root parent child = some r) : SameDom s r.1 := by
  unfold erase_splice at h
  repeat' first | split at h | (dsimp only at h; split at h)
  all_goals first
    | (cases h; done)
    | (cases h
       exact (erase_splice_left_dom (by assumption)).trans
         (erase_splice_right_dom (by assumption)))

theorem erase_rebalance_dom {s s1 : set Key} {parent child : Option Nat} {color : Bool}
    (h : erase_rebalance s parent child color = some s1) : SameDom s s1 := by
  unfold erase_rebalance at h
  repeat' first | split at h | (dsimp only at h; split at h)
  all_goals first
    | (cases h; done)
    | exact set_color_dom h
    | exact erase_loop_dom _ h
    | (cases h; exact SameDom.refl _)

theorem erase_unlink_dom {s s1 : set Key} {n : Option Nat}
    (h : erase_unlink s n = some s1) : SameDom s s1 := by
  unfold erase_unlink at h
  dsimp only at h
  split at h
  · cases h
  · split at h
    · cases h
    · rename_i st hst
      split at h
      · cases h
      · rename_i s2 h2
        split at h
        · cases h
        · rename_i s3 h3
          have h0 : SameDom s st.1 := by
            repeat' split at hst
            all_goals first
              | (cases hst; done)
              | (cases hst; exact SameDom.refl _)
              | exact erase_splice_dom hst
          exact h0.trans ((replace_child_dom h2).trans ((ite_set_parent_dom h3).trans
            (erase_rebalance_dom h)))

end taapp

namespace taapp
variable {Key : Type}
open NodeTree

/-! ## Allocations of the public operations -/

theorem erase_cleanup_dom {s s1 : set Key} {a : Nat}
    (h : erase_cleanup s (some a) = some s1) :
    s1.mem a = none ∧ ∀ b, b ≠ a → (s1.mem b).isSome = (s.mem b).isSome := by
  unfold erase_cleanup at h
  dsimp only at h
  split at h
  · cases h
  · rename_i s2 h2
    cases h
    have hd : SameDom s s2 := by
      split at h2
      · exact fun b => set_color_dom h2 b
      · cases h2; exact fun _ => rfl
    refine ⟨by simp [free_mem], fun b hb => ?_⟩
    simp only [free_mem, hb, ↓reduceIte]
    exact hd b

theorem erase_dom {s s1 : set Key} {a : Nat} {r : Option Nat}
    (h : erase s (some a) = some (s1, r)) :
    s1.mem a = none ∧ ∀ b, b ≠ a → (s1.mem b).isSome = (s.mem b).isSome := by
  unfold erase at h
  dsimp only at h
  split at h
  · cases h
  · split at h
    · cases h
    · rename_i s2 h2
      split at h
      · cases h
      · rename_i s3 h3
        cases h
        obtain ⟨e1, e2⟩ := erase_cleanup_dom h3
        exact ⟨e1, fun b hb => (e2 b hb).trans (erase_unlink_dom h2 b)⟩

theorem ite_set_link_dom {c : Prop} [Decidable c] {s s1 : set Key} {p x : Option Nat}
    (h : (if c then set_left s p x else set_right s p x) = some s1) : SameDom s s1 := by
  split at h
  · exact set_left_dom h
  · exact set_right_dom h

theorem insert_with_dom {lt : Key → Key → Bool} {k : Key} {s s1 : set Key}
    {fresh : Option Nat} {r : Option Nat × Bool}
    (h : insert_with lt k s fresh = some (s1, r)) :
    s1 = s ∨ ∃ a, fresh = some a ∧ r.1 = some a ∧ (s1.mem a).isSome = true ∧
      ∀ b, b ≠ a → (s1.mem b).isSome = (s.mem b).isSome := by
  simp only [insert_with, bind, Option.bind_eq_some, pure] at h
  obtain ⟨d, -, h⟩ := h
  split at h
  · right
    simp only [Option.bind_eq_some] at h
    obtain ⟨a, rfl, h⟩ := h
    refine ⟨a, rfl, ?_⟩
    have hw : ∀ (n : rbnode Key) (s0 : set Key), (s0.write a n).mem a = some n :=
      fun n s0 => write_mem_eq s0 a n
    have hw2 : ∀ (n : rbnode Key) (s0 : set Key) (b : Nat), b ≠ a →
        (s0.write a n).mem b = s0.mem b := fun n s0 b hb => write_mem_ne n hb
    split at h
    · simp only [Option.bind_eq_some, Option.some.injEq, Prod.mk.injEq] at h
      obtain ⟨s2, h2, rfl, rfl⟩ := h
      have hd := set_color_dom h2
      refine ⟨rfl, ?_, fun b hb => ?_⟩
      · have := hd a
        simp only [hw] at this
        simpa using this
      · have := hd b
        simp only [hw2 _ _ b hb] at this
        simpa using this
    · simp only [Option.bind_eq_some, Option.some.injEq, Prod.mk.injEq] at h
      obtain ⟨nn, -, pn, -, s2, h2, cn, -, s3, h3, s4, h4, rfl, rfl⟩ := h
      have hd2 := ite_set_link_dom h2
      have hd := (hd2.trans (insert_loop_dom _ h3)).trans (set_color_dom h4)
      refine ⟨rfl, ?_, fun b hb => ?_⟩
      · have := hd a
        simp only [hw] at this
        simpa using this
      · have := hd b
        simp only [hw2 _ _ b hb] at this
        simpa using this
  · left
    simp only [Option.some.injEq, Prod.mk.injEq] at h
    exact h.1.symm

/-! ## The loop of `clear` with its log -/

theorem clear_loop_log_none (fuel : Nat) (s : set Key) :
    clear_loop_log fuel s none = some (s, []) := by
  cases fuel <;> rfl

theorem clear_loop_log_fst : ∀ (fuel : Nat) (s : set Key) (p : Option Nat),
    clear_loop fuel s p = (clear_loop_log fuel s p).map Prod.fst := by
  intro fuel
  induction fuel with
  | zero =>
    intro s p
    cases p <;> rfl
  | succ f ih =>
    intro s p
    cases p with
    | none => rfl
    | some a =>
      simp only [clear_loop, clear_loop_log]
      cases hx : s.mem a with
      | none => rfl
      | some x =>
        dsimp only
        by_cases h1 : x.left ≠ none
        · simp only [if_pos h1]
          exact ih _ _
        · by_cases h2 : x.right ≠ none
          · simp only [if_neg h1, if_pos h2]
            exact ih _ _
          · simp only [if_neg h1, if_neg h2]
            cases hp : x.parent with
            | none =>
              rfl
            | some p =>
              dsimp only
              cases hm : (s.free a).mem p with
              | none => rfl
              | some pn =>
                dsimp only
                cases hc : (if pn.left = some a then set_left (s.free a) (some p) none
                    else set_right (s.free a) (some p) none) with
                | none => rfl
                | some s2 =>
                  dsimp only
                  rw [ih]
                  cases clear_loop_log f s2 (some p) <;> rfl

theorem clear_log_fst (s : set Key) : clear s = (clear_log s).map Prod.fst := by
  unfold clear clear_log
  rw [clear_loop_log_fst]
  cases clear_loop_log (2 * s.size_ + 1) s s.root_ <;> rfl

/-- Every address in the log held a node before and holds none afterwards, no
address is logged twice, and the other addresses are as before. -/
theorem clear_loop_log_dom : ∀ (fuel : Nat) (s : set Key) (p : Option Nat)
    (r : set Key × List Nat), clear_loop_log fuel s p = some r →
    r.2.Nodup ∧ (∀ a ∈ r.2, (s.mem a).isSome = true ∧ r.1.mem a = none) ∧
      ∀ a, a ∉ r.2 → (r.1.mem a).isSome = (s.mem a).isSome := by
  intro fuel
  induction fuel with
  | zero =>
    intro s p r h
    cases p with
    | none => cases h; simp
    | some a => cases h
  | succ f ih =>
    intro s p r h
    cases p with
    | none => cases h; simp
    | some a =>
      simp only [clear_loop_log] at h
      split at h
      · cases h
      · rename_i x hx
        split at h
        · exact ih _ _ _ h
        · split at h
          · exact ih _ _ _ h
          · have step : ∀ (s2 : set Key) (q : Option Nat) (r2 : set Key × List Nat),
                SameDom (s.free a) s2 → clear_loop_log f s2 q = some r2 →
                (a :: r2.2).Nodup ∧
                (∀ b ∈ a :: r2.2, (s.mem b).isSome = true ∧ r2.1.mem b = none) ∧
                ∀ b, b ∉ a :: r2.2 → (r2.1.mem b).isSome = (s.mem b).isSome := by
              intro s2 q r2 hd h2
              obtain ⟨i1, i2, i3⟩ := ih _ _ _ h2
              have ha2 : (s2.mem a).isSome = false := by
                rw [hd a]; simp [free_mem]
              have hna : a ∉ r2.2 := by
                intro hm
                have := (i2 a hm).1
                rw [ha2] at this
                cases this
              have hdb : ∀ b, b ≠ a → (s2.mem b).isSome = (s.mem b).isSome := by
                intro b hb
                rw [hd b]; simp [free_mem, hb]
              refine ⟨List.nodup_cons.2 ⟨hna, i1⟩, ?_, ?_⟩
              · intro b hb
                rcases List.mem_cons.1 hb with rfl | hb
                · refine ⟨by rw [hx]; rfl, ?_⟩
                  have := i3 b hna
                  rw [ha2] at this
                  cases hq : r2.1.mem b with
                  | none => rfl
                  | some _ => rw [hq] at this; cases this
                · have hba : b ≠ a := fun e => hna (e ▸ hb)
                  exact ⟨by rw [← hdb b hba]; exact (i2 b hb).1, (i2 b hb).2⟩
              · intro b hb
                simp only [List.mem_cons, not_or] at hb
                rw [i3 b hb.2, hdb b hb.1]
            split at h
            · cases h
              exact step (s.free a) none (s.free a, []) (SameDom.refl _)
                (clear_loop_log_none _ _)
            · split at h
              · cases h
              · split at h
                · cases h
                · rename_i s2 h2
                  split at h
                  · cases h
                  · rename_i r2 h3
                    cases h
                    refine step _ _ r2 ?_ h3
                    split at h2
                    · exact set_left_dom h2
                    · exact set_right_dom h2

end taapp

namespace taapp
variable {Key : Type}
open NodeTree

/-! ## `clear` releases every node once -/

theorem fill_leaf_count (f : Frame Key) (a : Nat) (c : Bool) (v : Key) (x : Nat) :
    (f.fill (node a c nil v nil)).ids.count x = [a].count x + (f.fill nil).ids.count x := by
  rcases f with ⟨p, pc, pv, d, sib⟩
  cases d <;>
    simp only [Frame.fill, ids_mk, ids_nil, ids_node, List.count_append, List.count_cons,
      List.count_nil, ↓reduceIte, Bool.true_eq_false, LEFT, List.nil_append,
      List.append_nil] <;>
    omega

theorem clear_loop_log_total :
    ∀ (fuel : Nat) (s : set Key) (ctx : List (Frame Key)) (t : NodeTree Key), t ≠ nil →
      RepT s.mem none (plug ctx t) → (plug ctx t).ids.Nodup →
      2 * t.ids.length + 2 * (cids ctx).length ≤ fuel + 1 + ctx.length →
      ∃ r, clear_loop_log fuel s t.root = some r ∧ r.2.Perm (plug ctx t).ids := by
  intro fuel
  induction fuel with
  | zero =>
    intro s ctx t hne _ _ hlen
    exfalso
    have h1 := length_le_cids ctx
    cases t with
    | nil => exact hne rfl
    | node a c l v r =>
      simp only [ids_node, List.length_append, List.length_cons] at hlen
      omega
  | succ fuel ih =>
    intro s ctx t hne hrep hnd hlen
    cases t with
    | nil => exact absurd rfl hne
    | node a c l v r =>
      obtain ⟨hC, hT⟩ := (RepT_plug ctx _).1 hrep
      have hma := hT.1
      simp only [ids_node, List.length_append, List.length_cons] at hlen
      cases l with
      | node li lc ll lv lr =>
        have hl := cids_length_cons (⟨a, c, v, LEFT, r⟩ : Frame Key) ctx
        obtain ⟨s1, e1, p1⟩ := ih s ((⟨a, c, v, LEFT, r⟩ : Frame Key) :: ctx)
          (node li lc ll lv lr) (by simp) hrep hnd (by
            simp only [List.length_cons] at hl ⊢
            omega)
        exact ⟨s1, by simpa [clear_loop_log, hma] using e1, p1⟩
      | nil =>
        cases r with
        | node ri rc rl rv rr =>
          have hl := cids_length_cons (⟨a, c, v, RIGHT, nil⟩ : Frame Key) ctx
          obtain ⟨s1, e1, p1⟩ := ih s ((⟨a, c, v, RIGHT, nil⟩ : Frame Key) :: ctx)
            (node ri rc rl rv rr) (by simp) hrep hnd (by
              simp only [ids_nil, List.length_nil, List.length_cons] at hl hlen ⊢
              omega)
          exact ⟨s1, by simpa [clear_loop_log, hma] using e1, p1⟩
        | nil =>
          cases ctx with
          | nil =>
            exact ⟨(s.free a, [a]), by simp [clear_loop_log, hma, cpar, clear_loop_log_none],
              by simp [plug]⟩
          | cons f ctx =>
            obtain ⟨hf, hsib, hC1⟩ := hC
            rcases f with ⟨p, pc, pv, d, sib⟩
            simp only [root_node] at hf
            have hnd1 := nodup_cids_cons.1 (plug_nodup.1 hnd)
            simp only [ids_node, ids_nil, List.nil_append, List.cons_append,
              List.nodup_cons, List.mem_cons, List.mem_append, not_or] at hnd1
            obtain ⟨⟨hap, hasib, hactx⟩, ⟨hpsib, hpctx⟩, hrest⟩ := hnd1
            have hpa : p ≠ a := fun e => hap e.symm
            have hsr : sib.root ≠ some a := root_ne_of_not_mem hasib
            have hl := cids_length_cons (⟨p, pc, pv, d, sib⟩ : Frame Key) ctx
            have hmp : (s.free a).mem p = some ⟨pv, pc, cpar ctx,
                if d = LEFT then some a else sib.root, if d = LEFT then sib.root else some a⟩ := by
              simp only [free_mem, hpa, ↓reduceIte, hf]
            have hperm2 : ∀ l2 : List Nat,
                l2.Perm (plug ctx ((⟨p, pc, pv, d, sib⟩ : Frame Key).fill nil)).ids →
                (a :: l2).Perm (plug ((⟨p, pc, pv, d, sib⟩ : Frame Key) :: ctx)
                  (node a c nil v nil)).ids := by
              intro l2 h2
              rw [List.perm_iff_count] at h2 ⊢
              intro x
              have e1 := (plug_ids_perm ctx
                ((⟨p, pc, pv, d, sib⟩ : Frame Key).fill nil)).count_eq x
              have e2 := (plug_ids_perm ctx
                ((⟨p, pc, pv, d, sib⟩ : Frame Key).fill (node a c nil v nil))).count_eq x
              have e3 := fill_leaf_count (⟨p, pc, pv, d, sib⟩ : Frame Key) a c v x
              have e4 := h2 x
              simp only [plug, List.count_append, List.count_cons, List.count_nil] at e1 e2 e3 e4 ⊢
              omega
            -- the state after unlinking the leaf
            have key : ∀ s2 : set Key,
                s2.mem p = some ⟨pv, pc, cpar ctx, if d = LEFT then none else sib.root,
                  if d = LEFT then sib.root else none⟩ →
                (∀ b, b ≠ p → b ≠ a → s2.mem b = s.mem b) →
                ∃ r, clear_loop_log fuel s2 (some p) = some r ∧
                  r.2.Perm (plug ctx ((⟨p, pc, pv, d, sib⟩ : Frame Key).fill nil)).ids := by
              intro s2 h2p h2o
              have := ih s2 ctx ((⟨p, pc, pv, d, sib⟩ : Frame Key).fill nil)
                (mk_ne_nil _ _ _ _ _ _) ?_ ?_ ?_
              · simpa [Frame.fill] using this
              · refine (RepT_plug ctx _).2 ⟨?_, ?_⟩
                · simp only [Frame.fill, root_mk]
                  refine RepC_congr hC1 (fun b hb => h2o b ?_ ?_)
                  · rintro rfl; exact hpctx hb
                  · rintro rfl; exact hactx hb
                · rw [Frame.fill, RepT_mk]
                  refine ⟨by simpa using h2p, trivial, RepT_congr hsib (fun b hb => h2o b ?_ ?_)⟩
                  · rintro rfl; exact hpsib hb
                  · rintro rfl; exact hasib hb
              · rw [plug_nodup]
                have hn : (p :: (sib.ids ++ cids ctx)).Nodup :=
                  List.nodup_cons.2 ⟨by simp [hpsib, hpctx], hrest⟩
                have hperm : (((⟨p, pc, pv, d, sib⟩ : Frame Key).fill nil).ids ++ cids ctx).Perm
                    (p :: (sib.ids ++ cids ctx)) := by
                  rw [List.perm_iff_count]
                  intro x
                  cases d <;>
                    simp only [Frame.fill, ids_mk, ids_nil, List.count_append, List.count_cons,
                      List.count_nil, ↓reduceIte, Bool.true_eq_false, LEFT, List.nil_append,
                      List.append_nil] <;>
                    omega
                exact hperm.nodup_iff.2 hn
              · have h3 : ((⟨p, pc, pv, d, sib⟩ : Frame Key).fill nil).ids.length =
                    1 + sib.ids.length := by
                  cases d <;> simp [Frame.fill, ids_mk, LEFT] <;> omega
                rw [h3]
                simp only [ids_nil, List.length_nil, List.length_cons] at hl hlen
                omega
            cases d
            · obtain ⟨s1, e1, p1⟩ := key ((s.free a).write p ⟨pv, pc, cpar ctx, none, sib.root⟩)
                (by simp [write_mem]) (fun b hb1 hb2 => by simp [write_mem, hb1, hb2])
              have hcp : cpar ((⟨p, pc, pv, LEFT, sib⟩ : Frame Key) :: ctx) = some p := rfl
              refine ⟨(s1.1, a :: s1.2), ?_, hperm2 _ p1⟩
              rw [hcp] at hma
              simp only [root_node, root_nil, clear_loop_log, hma, ne_eq, not_true_eq_false,
                ↓reduceIte, hmp, set_left, LEFT]
              rw [e1]
            · obtain ⟨s1, e1, p1⟩ := key ((s.free a).write p ⟨pv, pc, cpar ctx, sib.root, none⟩)
                (by simp [write_mem]) (fun b hb1 hb2 => by simp [write_mem, hb1, hb2])
              have hcp : cpar ((⟨p, pc, pv, RIGHT, sib⟩ : Frame Key) :: ctx) = some p := rfl
              refine ⟨(s1.1, a :: s1.2), ?_, hperm2 _ p1⟩
              rw [hcp] at hma
              simp only [root_node, root_nil, clear_loop_log, hma, ne_eq, not_true_eq_false,
                ↓reduceIte, hmp, set_right, LEFT, Bool.true_eq_false, hsr]
              rw [e1]

/-- On a represented tree `clear` returns, and its log is a permutation of the
addresses of the nodes. -/
theorem clear_log_total {s : set Key} {T : NodeTree Key} (h : Model s T) :
    ∃ s1 log, clear_log s = some (s1, log) ∧ clear s = some s1 ∧ log.Perm T.ids ∧
      (∀ a ∈ log, s1.mem a = none) ∧
      ∀ a, a ∉ log → (s1.mem a).isSome = (s.mem a).isSome := by
  have key : ∃ r, clear_loop_log (2 * s.size_ + 1) s s.root_ = some r ∧ r.2.Perm T.ids := by
    rw [h.rep.root]
    cases hT : T with
    | nil => exact ⟨(s, []), clear_loop_log_none _ _, by simp⟩
    | node a c l v r =>
      have := clear_loop_log_total (2 * s.size_ + 1) s [] (node a c l v r) (by simp)
        (by rw [← hT]; exact h.rep.tree) (by rw [← hT]; exact h.rep.nodup)
        (by rw [h.size, hT]; simp [cids, ctxBefore, ctxAfter]; omega)
      exact this
  obtain ⟨r, e, hp⟩ := key
  obtain ⟨-, d2, d3⟩ := clear_loop_log_dom _ _ _ _ e
  refine ⟨{ r.1 with root_ := none, size_ := 0 }, r.2, by simp [clear_log, e], ?_, hp,
    fun a ha => (d2 a ha).2, d3⟩
  rw [clear_log_fst]
  simp [clear_log, e]

/-! ## No node is leaked -/

/-- Every stored node is a node of the tree and lies below `next`. -/
theorem model_live {s : set Key} {T : NodeTree Key} (h : Model s T)
    (hc : ∀ a, (s.mem a).isSome = true → a ∈ T.ids) : live s = T.ids.length := by
  unfold live
  apply List.Perm.length_eq
  rw [List.perm_ext_iff_of_nodup ((List.nodup_range _).filter _) h.rep.nodup]
  intro a
  simp only [List.mem_filter, List.mem_range]
  constructor
  · exact fun ha => hc a ha.2
  · intro ha
    refine ⟨h.fresh a ha, ?_⟩
    obtain ⟨x, hx, rfl⟩ := List.mem_map.1 ha
    obtain ⟨n, hn, -⟩ := RepT_nodes_mem h.rep.tree (show (x.1, x.2) ∈ T.nodes from hx)
    rw [hn]; rfl

theorem mem_ids_isSome {s : set Key} {T : NodeTree Key} (h : Rep s T) {a : Nat}
    (ha : a ∈ T.ids) : (s.mem a).isSome = true := by
  obtain ⟨x, hx, rfl⟩ := List.mem_map.1 ha
  obtain ⟨n, hn, -⟩ := RepT_nodes_mem h.tree (show (x.1, x.2) ∈ T.nodes from hx)
  rw [hn]; rfl

theorem insT_ids_survive (lt : Key → Key → Bool) (k : Key) (a : Nat) {T : NodeTree Key}
    {b : Nat} (hb : b ∈ T.ids) : b ∈ (insT lt k a T).ids := by
  obtain ⟨x, hx, rfl⟩ := List.mem_map.1 hb
  exact List.mem_map.2 ⟨x, insT_nodes_survive lt k a hx, rfl⟩

theorem eraT_ids_survive {ctx : List (Frame Key)} {n : Nat} {c : Bool} {l : NodeTree Key}
    {v : Key} {r : NodeTree Key} {b : Nat}
    (hb : b ∈ (plug ctx (node n c l v r)).ids) (hne : b ≠ n) :
    b ∈ (eraT ctx (node n c l v r)).ids := by
  obtain ⟨x, hx, rfl⟩ := List.mem_map.1 hb
  exact List.mem_map.2 ⟨x, eraT_nodes_survive hx hne, rfl⟩

/-- The storage of a reachable set holds the nodes of its tree and nothing
else. -/
theorem reachable_closed (lt : Key → Key → Bool) {s : set Key} (h : Reachable lt s) :
    ∃ T, Model s T ∧ Valid T ∧ ∀ a, (s.mem a).isSome = true → a ∈ T.ids := by
  induction h with
  | empty => exact ⟨nil, Model_empty, Valid_nil, fun a h => by simp [set.empty] at h⟩
  | @insert s s1 k r _ hi ih =>
    obtain ⟨T, hm, hv, hc⟩ := ih
    obtain ⟨s2, r2, e, hm2, h1, h2⟩ := insert_spec lt k hm
    rw [e] at hi
    cases hi
    refine ⟨_, hm2, insT_Valid lt k _ hv, fun a ha => ?_⟩
    rcases insert_with_dom e with rfl | ⟨a0, hf, -, -, hd⟩
    · exact insT_ids_survive lt k _ (hc a ha)
    · cases hf
      by_cases hq : a = s.next
      · subst hq
        by_cases hz : (zoom lt k T []).1 = nil
        · rcases hzz : zoom lt k T [] with ⟨t, ctx⟩
          rw [hzz] at hz
          simp only at hz
          subst hz
          obtain ⟨e1, e2⟩ := insT_nodes_new lt k s.next T ctx hzz
          rw [ids, e2]
          simp
        · obtain ⟨rfl, -⟩ := h1 hz
          exact insT_ids_survive lt k _ (hc _ ha)
      · rw [hd a hq] at ha
        exact insT_ids_survive lt k _ (hc a ha)
  | @erase_key s s1 k c _ he ih =>
    obtain ⟨T, hm, hv, hc⟩ := ih
    obtain ⟨s2, c2, e, h1, h2⟩ := erase_key_model lt k hm hv
    rw [e] at he
    cases he
    have hp := zoom_plug lt k T []
    rcases hz : zoom lt k T [] with ⟨t, ctx⟩
    rw [hz] at hp h1 h2
    simp only [plug] at hp
    cases t with
    | nil =>
      obtain ⟨rfl, -⟩ := h1 rfl
      exact ⟨T, hm, hv, hc⟩
    | node n c l v r =>
      obtain ⟨-, -, hm2⟩ := h2 (by simp)
      subst hp
      refine ⟨_, hm2, eraT_Valid hv, fun a ha => ?_⟩
      have hfind := find_spec lt k hm
      rw [hz] at hfind
      have he2 : ∃ x, erase s (some n) = some (s1, x) := by
        simp only [erase_key, bind, Option.bind_eq_some, pure] at e
        obtain ⟨itr, hi, e⟩ := e
        rw [hfind] at hi
        cases hi
        simp only [root_node, ne_eq, reduceCtorEq, not_false_eq_true, decide_True,
          ↓reduceIte, Option.bind_eq_some, Option.some.injEq, Prod.mk.injEq] at e
        obtain ⟨r0, hr0, rfl, -⟩ := e
        exact ⟨r0.2, hr0⟩
      obtain ⟨x, he2⟩ := he2
      obtain ⟨d1, d2⟩ := erase_dom he2
      have hne : a ≠ n := by
        rintro rfl
        rw [d1] at ha
        cases ha
      rw [d2 a hne] at ha
      exact eraT_ids_survive (hc a ha) hne
  | @erase s s1 a r _ hn he ih =>
    obtain ⟨T, hm, hv, hc⟩ := ih
    obtain ⟨ctx, c, l, v, r, rfl⟩ := node_decomp hm.rep hn
    obtain ⟨s2, x, e, hm2, -⟩ := erase_model hm hv
    rw [e] at he
    cases he
    refine ⟨_, hm2, eraT_Valid hv, fun b hb => ?_⟩
    obtain ⟨d1, d2⟩ := erase_dom e
    have hne : b ≠ a := by
      rintro rfl
      rw [d1] at hb
      cases hb
    rw [d2 b hne] at hb
    exact eraT_ids_survive (hc b hb) hne
  | @clear s s1 _ hcl ih =>
    obtain ⟨T, hm, hv, hc⟩ := ih
    refine ⟨nil, Model_clear hcl, Valid_nil, fun a ha => ?_⟩
    exfalso
    obtain ⟨s2, log, -, e2, hp, h1, h2⟩ := clear_log_total hm
    rw [e2] at hcl
    cases hcl
    by_cases hl : a ∈ log
    · rw [h1 a hl] at ha
      cases ha
    · rw [h2 a hl] at ha
      exact hl (hp.mem_iff.2 (hc a ha))

theorem reachable_live (lt : Key → Key → Bool) {s : set Key} (h : Reachable lt s) :
    live s = size s := by
  obtain ⟨T, hm, -, hc⟩ := reachable_closed lt h
  rw [model_live hm hc, size, hm.size]

end taapp

namespace taapp
variable {Key : Type}
open NodeTree

/-! ## The loops need no more iterations than the tree is high -/

theorem insert_loop_mono : ∀ (f : Nat) {s s1 : set Key} {p c : Option Nat} {f2 : Nat},
    insert_loop f s p c = some s1 → f ≤ f2 → insert_loop f2 s p c = some s1 := by
  intro f
  induction f with
  | zero =>
    intro s s1 p c f2 h _
    cases p with
    | none =>
      simp only [insert_loop] at h ⊢
      exact h
    | some a =>
      simp only [insert_loop] at h
      cases hd : deref s c with
      | none => simp only [hd] at h; cases h
      | some cn =>
        simp only [hd] at h
        by_cases hc : cn.color = RED
        · rw [if_pos hc] at h; cases h
        · rw [if_neg hc] at h
          cases f2 <;> simp only [insert_loop, hd, if_neg hc] <;> exact h
  | succ f ih =>
    intro s s1 p c f2 h hle
    obtain ⟨g, rfl⟩ : ∃ g, f2 = g + 1 := ⟨f2 - 1, by omega⟩
    cases p with
    | none =>
      simp only [insert_loop] at h ⊢
      exact h
    | some a =>
      simp only [insert_loop] at h ⊢
      cases hd : deref s c with
      | none => simp only [hd] at h; cases h
      | some cn =>
        simp only [hd] at h ⊢
        by_cases hc : cn.color = RED
        · rw [if_pos hc] at h ⊢
          cases hm : s.mem a with
          | none => simp only [hm] at h; cases h
          | some pn =>
            simp only [hm] at h ⊢
            cases hb : (if pn.left = c then balance_insert LEFT s (some a) c
                else balance_insert RIGHT s (some a) c) with
            | none => simp only [hb] at h; cases h
            | some r =>
              simp only [hb] at h ⊢
              cases hd2 : deref r.1 r.2 with
              | none => simp only [hd2] at h; cases h
              | some cn2 =>
                simp only [hd2] at h ⊢
                exact ih h (by omega)
        · rw [if_neg hc] at h ⊢; exact h

theorem erase_loop_mono : ∀ (f : Nat) {s s1 : set Key} {p c : Option Nat} {f2 : Nat},
    erase_loop f s p c = some s1 → f ≤ f2 → erase_loop f2 s p c = some s1 := by
  intro f
  induction f with
  | zero =>
    intro s s1 p c f2 h _
    cases p with
    | none =>
      cases f2 <;> exact h
    | some a => cases h
  | succ f ih =>
    intro s s1 p c f2 h hle
    obtain ⟨g, rfl⟩ : ∃ g, f2 = g + 1 := ⟨f2 - 1, by omega⟩
    cases p with
    | none => exact h
    | some a =>
      simp only [erase_loop] at h ⊢
      cases hm : s.mem a with
      | none => simp only [hm] at h; cases h
      | some pn =>
        simp only [hm] at h ⊢
        cases hb : (if pn.left = c then balance_erase LEFT s (some a) c
            else balance_erase RIGHT s (some a) c) with
        | none => simp only [hb] at h; cases h
        | some r =>
          simp only [hb] at h ⊢
          cases hd2 : deref r.1 r.2 with
          | none => simp only [hd2] at h; cases h
          | some cn2 =>
            simp only [hd2] at h ⊢
            exact ih h (by omega)

theorem fill_height (f : Frame Key) (t : NodeTree Key) : t.height + 1 ≤ (f.fill t).height := by
  rcases f with ⟨i, c, v, d, sib⟩
  cases d <;> simp only [Frame.fill, mk, LEFT, ↓reduceIte, Bool.true_eq_false, height] <;> omega

theorem fill_height_mono (f : Frame Key) {t u : NodeTree Key} (h : t.height ≤ u.height) :
    (f.fill t).height ≤ (f.fill u).height := by
  rcases f with ⟨i, c, v, d, sib⟩
  cases d <;> simp only [Frame.fill, mk, LEFT, ↓reduceIte, Bool.true_eq_false, height] <;> omega

theorem plug_height (ctx : List (Frame Key)) (t : NodeTree Key) :
    ctx.length + t.height ≤ (plug ctx t).height := by
  induction ctx generalizing t with
  | nil => simp [plug]
  | cons f ctx ih =>
    have h1 := ih (f.fill t)
    have h2 := fill_height f t
    simp only [plug, List.length_cons]
    omega

theorem height_le_of_pow_lt {T : NodeTree Key} (h : Valid T) {fuel : Nat}
    (hf : (T.ids.length + 1) ^ 2 < 2 ^ (fuel + 1)) : T.height ≤ fuel := by
  by_contra hcon
  have h1 : fuel + 1 ≤ T.height := by omega
  have h2 := Valid_height h
  have h3 : 2 ^ (fuel + 1) ≤ 2 ^ T.height := Nat.pow_le_pow_right (by omega) h1
  omega

theorem pow_half_le {h n : Nat} (hh : 2 ^ h ≤ (n + 1) ^ 2) : 2 ^ (h / 2) ≤ n + 1 := by
  by_contra hcon
  have h1 : n + 1 < 2 ^ (h / 2) := by omega
  have h2 : (n + 1) ^ 2 < (2 ^ (h / 2)) ^ 2 := Nat.pow_lt_pow_left h1 (by omega)
  have h3 : (2 ^ (h / 2)) ^ 2 = 2 ^ (h / 2 * 2) := by rw [Nat.pow_mul]
  have h4 : 2 ^ (h / 2 * 2) ≤ 2 ^ h := Nat.pow_le_pow_right (by omega) (by omega)
  omega

end taapp

namespace taapp
variable {Key : Type}
open NodeTree

/-! ## `insert` and `erase` with bounded loops -/

theorem insert_bounded_eq (lt : Key → Key → Bool) (k : Key) {s : set Key} {T : NodeTree Key}
    (h : Model s T) {fuel : Nat} (hfu : T.height ≤ fuel) :
    insert_bounded fuel lt k s = insert lt k s := by
  obtain ⟨hrep, hsize, hfresh⟩ := h
  have hdescg : ∀ f0, T.height ≤ f0 → insert_descend lt k s f0 s.root_ s.root_ =
      some (match (zoom lt k T []).1 with
            | nil => (cpar (zoom lt k T []).2, none)
            | node a _ _ _ _ => (some a, some a)) := by
    intro f0 hf0
    have := insert_descend_spec lt k f0 s.root_ (show Rep _ (plug [] _) from hrep)
      hf0 (by rintro rfl; exact hrep.root)
    rwa [← hrep.root] at this
  have hdesc := hdescg s.size_ (by rw [hsize]; exact height_le_length T)
  have hdescb := hdescg fuel hfu
  have hroot := hrep.root
  have hanew : s.next ∉ T.ids := fun hm => Nat.lt_irrefl _ (hfresh _ hm)
  rcases zoom_cases lt k T with ⟨ctx, a, c, l, v, r, hz, hT⟩ | ⟨hz, hT⟩ | ⟨f, ctx, hz, hT, hdir⟩
  · -- duplicate
    rw [hz] at hdesc hdescb
    replace hdesc : insert_descend lt k s s.size_ s.root_ s.root_ =
      some (some a, some a) := hdesc
    replace hdescb : insert_descend lt k s fuel s.root_ s.root_ =
      some (some a, some a) := hdescb
    simp [insert, insert_with, insert_bounded, hdesc, hdescb, bind, Option.bind]
  · -- empty tree
    subst hT
    rw [hz] at hdesc hdescb
    have hr0 : s.root_ = none := hroot
    rw [hr0] at hdesc hdescb
    replace hdesc : insert_descend lt k s s.size_ none none = some (none, none) := hdesc
    replace hdescb : insert_descend lt k s fuel none none = some (none, none) := hdescb
    simp only [insert, insert_with, insert_bounded, hr0, hdesc, hdescb, bind, Option.bind,
      cpar, ↓reduceIte]
  · -- new node below `f`
    rw [hz] at hdesc hdescb
    subst hT
    obtain ⟨s1, e1, r1, z1, n1⟩ := link_spec k s.next hrep hanew
    have hf := lookup_mk (show Rep s1 (plug ctx (mk f.dir f.id f.c (node s.next RED nil k nil)
      f.v f.sib)) from r1)
    have hlen : ctx.length ≤ s1.size_ := by
      rw [z1, hsize, plug_length]
      have := length_le_cids (f :: ctx)
      simp only [List.length_cons] at this
      omega
    have hlenb : ctx.length ≤ fuel := by
      have := plug_height (f :: ctx) (nil : NodeTree Key)
      simp only [List.length_cons] at this
      omega
    obtain ⟨s2, e0, r2, z2, n2⟩ := insert_loop_spec (t := f.fill (node s.next RED nil k nil))
      ctx.length r1 (mk_ne_nil _ _ _ _ _ _) (Nat.le_refl _)
    have e2 := insert_loop_mono _ e0 hlen
    have e2b := insert_loop_mono _ e0 hlenb
    obtain ⟨ri, rc, rl, rv, rr, hres⟩ : ∃ ri rc rl rv rr,
        insFix ctx (f.fill (node s.next RED nil k nil)) = node ri rc rl rv rr := by
      have : insFix ctx (f.fill (node s.next RED nil k nil)) ≠ nil :=
        insFix_ne_nil (mk_ne_nil f.dir f.id f.c (node s.next RED nil k nil) f.v f.sib)
      cases hh : insFix ctx (f.fill (node s.next RED nil k nil)) with
      | nil => exact absurd hh this
      | node ri rc rl rv rr => exact ⟨ri, rc, rl, rv, rr, rfl⟩
    rw [hres] at r2
    obtain ⟨s3, e3, r3, z3, n3⟩ := paint_spec BLACK (show Rep _ (plug [] _) from r2)
    have hroot2 : s2.root_ = some ri := r2.root
    obtain ⟨g, hg⟩ : ∃ g, s.root_ = some g := by
      rw [hroot, plug_root]
      exact croot_cons f ctx _
    have hfm := lookup_mk (show Rep s (plug ctx (mk f.dir f.id f.c nil f.v f.sib)) from hrep)
    rw [hg] at hdesc hdescb
    replace hdesc : insert_descend lt k s s.size_ (some g) (some g) =
      some (some f.id, none) := hdesc
    replace hdescb : insert_descend lt k s fuel (some g) (some g) =
      some (some f.id, none) := hdescb
    have hfa : f.id ≠ s.next := by
      rintro e
      exact hanew (by rw [plug_ids, cids_cons]; exact Or.inr (Or.inl e.symm))
    have hlink : (if lt k f.v = true
        then set_left (set.write { s with next := s.next + 1 } s.next
            ⟨k, RED, some f.id, none, none⟩) (some f.id) (some s.next)
        else set_right (set.write { s with next := s.next + 1 } s.next
            ⟨k, RED, some f.id, none, none⟩) (some f.id) (some s.next)) = some s1 := by
      rw [← e1]
      by_cases hl : lt k f.v = true
      · simp [hl, hdir.1 hl]
      · have : f.dir ≠ LEFT := fun e => hl (hdir.2 e)
        simp [hl, this]
    have hcp : cpar (f :: ctx) = some f.id := rfl
    simp only [hg] at hlink
    simp only [Frame.fill, root_mk] at e2 e2b
    have E1 : insert lt k s = some ({ s3 with size_ := s3.size_ + 1 }, (some s.next, true)) := by
      simp only [insert, insert_with, hg, hdesc, bind, Option.bind, hcp, ↓reduceIte,
        reduceCtorEq, deref, write_mem, hfa, hfm, hlink, hf, e2, hroot2, e3, pure,
        Option.some.injEq, ne_eq, not_false_eq_true, decide_True, hfa.symm]
    have E2 : insert_bounded fuel lt k s =
        some ({ s3 with size_ := s3.size_ + 1 }, (some s.next, true)) := by
      simp only [insert_bounded, hg, hdescb, bind, Option.bind, hcp, ↓reduceIte,
        reduceCtorEq, deref, write_mem, hfa, hfm, hlink, hf, e2b, hroot2, e3, pure,
        Option.some.injEq, ne_eq, not_false_eq_true, decide_True, hfa.symm]
    rw [E1, E2]

theorem erase_rebalance_bounded_eq (P : List (Frame Key) → NodeTree Key → Prop)
    (hP1 : ∀ f ctx t, P (f :: ctx) t → f.sib ≠ nil)
    (hP2 : ∀ f ctx t, P (f :: ctx) t → (balE f t).2 = false → P ctx (balE f t).1)
    {s : set Key} {ctx : List (Frame Key)} {t : NodeTree Key} (color : Bool) (fuel : Nat)
    (h : Rep s (plug ctx t)) (hP : color = BLACK → t.isRed = false → P ctx t)
    (hlen : ctx.length ≤ s.size_) (hfu : ctx.length ≤ fuel) :
    erase_rebalance_bounded fuel s (cpar ctx) t.root color =
      erase_rebalance s (cpar ctx) t.root color := by
  cases color
  · have hR := is_red_node h
    cases hc : t.isRed
    · obtain ⟨s1, e1, -⟩ := erase_loop_spec P hP1 hP2 ctx.length h (hP rfl hc) (Nat.le_refl _)
      have ea := erase_loop_mono _ e1 hlen
      have eb := erase_loop_mono _ e1 hfu
      simp only [erase_rebalance, erase_rebalance_bounded, ↓reduceIte, hR, hc,
        Bool.false_eq_true, ea, eb]
    · simp only [erase_rebalance, erase_rebalance_bounded, ↓reduceIte, hR, hc]
  · simp [erase_rebalance, erase_rebalance_bounded]

theorem erase_unlink_bounded_eq (P : List (Frame Key) → NodeTree Key → Prop)
    (hP1 : ∀ f ctx t, P (f :: ctx) t → f.sib ≠ nil)
    (hP2 : ∀ f ctx t, P (f :: ctx) t → (balE f t).2 = false → P ctx (balE f t).1)
    {s : set Key} {ctx : List (Frame Key)} {n : Nat} {c : Bool} {l : NodeTree Key} {v : Key}
    {r : NodeTree Key} (fuel : Nat) (h : Rep s (plug ctx (node n c l v r)))
    (hsz : s.size_ = (plug ctx (node n c l v r)).ids.length)
    (hP : (eraPos ctx (node n c l v r)).2.2 = BLACK →
      (eraPos ctx (node n c l v r)).2.1.isRed = false →
      P (eraPos ctx (node n c l v r)).1 (eraPos ctx (node n c l v r)).2.1)
    (hfu : (eraPos ctx (node n c l v r)).1.length ≤ fuel) :
    erase_unlink_bounded fuel s (some n) = erase_unlink s (some n) := by
  have hn := h.lookup
  have hlen0 := plug_length ctx (node n c l v r)
  have hlenP : (eraPos ctx (node n c l v r)).1.length + 1 ≤ s.size_ := by
    have h1 := congrArg List.length (eraPos_length ctx n c l v r)
    have h2 := congrArg List.length (plug_nodes ctx (node n c l v r))
    have h3 := plug_length (eraPos ctx (node n c l v r)).1 (eraPos ctx (node n c l v r)).2.1
    have h4 := length_le_cids (eraPos ctx (node n c l v r)).1
    simp only [ids, List.length_map, List.length_append, nodes_node, List.length_cons]
      at h1 h2 h3 hsz
    omega
  cases l with
  | nil =>
    obtain ⟨s1, s2, e1, e2, r2, z2, m2⟩ := transplant_spec (e := RIGHT) (X := r)
      (show Rep s (plug ctx (mk RIGHT n c r v nil)) from h)
    have e3 := erase_rebalance_bounded_eq P hP1 hP2 c fuel r2 hP
      (by rw [z2]; simp only [eraPos] at hlenP; omega) (by simpa only [eraPos] using hfu)
    simp only [erase_unlink, erase_unlink_bounded, deref, hn, root_nil, ↓reduceIte, e1, e2, e3]
  | node li lc ll lv lr =>
    cases r with
    | nil =>
      obtain ⟨s1, s2, e1, e2, r2, z2, m2⟩ := transplant_spec (e := LEFT)
        (X := node li lc ll lv lr)
        (show Rep s (plug ctx (mk LEFT n c (node li lc ll lv lr) v nil)) from h)
      have e3 := erase_rebalance_bounded_eq P hP1 hP2 c fuel r2 hP
        (by rw [z2]; simp only [eraPos] at hlenP; omega) (by simpa only [eraPos] using hfu)
      simp only [root_node, ne_eq, reduceCtorEq, not_false_eq_true, ↓reduceIte] at e1 e2 e3
      simp only [erase_unlink, erase_unlink_bounded, deref, hn, root_nil, root_node,
        reduceCtorEq, ↓reduceIte, ne_eq, not_true_eq_false, not_false_eq_true, e1, e2, e3]
    | node ri rc rl rv rr =>
      obtain ⟨si, sc, sv, sr, cr, hz, hp, hd⟩ := zoomMin_spec (node ri rc rl rv rr) (by simp) []
      simp only [List.append_nil] at hz
      have hpos : eraPos ctx (node n c (node li lc ll lv lr) v (node ri rc rl rv rr)) =
          (cr ++ (⟨si, c, sv, RIGHT, node li lc ll lv lr⟩ : Frame Key) :: ctx, sr, sc) := by
        simp only [eraPos, hz]
      rw [hpos] at hP hlenP hfu
      simp only at hlenP hP hfu
      have hfuel : (node ri rc rl rv rr).height ≤ s.size_ + 1 := by
        have h1 := height_le_length (node ri rc rl rv rr)
        simp only [ids_node, List.length_append, List.length_cons] at hlen0 h1
        omega
      have hrr : (node ri rc rl rv rr).root = some ri := rfl
      cases cr with
      | nil =>
        simp only [plug] at hp
        rw [hp] at h hn
        obtain ⟨s1, s2, s3, e1, e2, e3, r3, z3, m3⟩ := splice_direct h (by simp)
        have e4 := erase_rebalance_bounded_eq P hP1 hP2 sc fuel
          (show Rep _ (plug ((⟨si, c, sv, RIGHT, node li lc ll lv lr⟩ : Frame Key) :: ctx) _)
            from r3) hP
          (by rw [z3]; simp only [List.nil_append] at hlenP; omega)
          (by simpa only [List.nil_append] using hfu)
        simp only [cpar] at e4
        simp only [root_node] at e1
        simp only [erase_unlink, erase_unlink_bounded, deref, hn, root_node, reduceCtorEq,
          ↓reduceIte, ne_eq, not_false_eq_true, e1, e2, e3, e4]
      | cons f1 cr =>
        rw [hp] at h hn hfuel
        obtain ⟨s1, s2, s3, e1, e2, e3, r3, z3, m3⟩ := splice_far h (by simp) hd hfuel
        have r3' : Rep s3 (plug ((f1 :: cr) ++
            (⟨si, c, sv, RIGHT, node li lc ll lv lr⟩ : Frame Key) :: ctx) sr) := by
          rw [plug_append]; exact r3
        have e4 := erase_rebalance_bounded_eq P hP1 hP2 sc fuel r3' hP
          (by rw [z3]; omega) hfu
        simp only [List.cons_append, cpar] at e4
        simp only [root_node] at e1
        obtain ⟨r0, hr0⟩ := croot_cons f1 cr (some si)
        simp only [plug_root, root_node, hr0] at hn
        simp only [erase_unlink, erase_unlink_bounded, deref, hn, root_node, reduceCtorEq,
          ↓reduceIte, ne_eq, not_false_eq_true, e1, e2, e3, e4]

theorem eraPos_length_height (ctx : List (Frame Key)) (n : Nat) (c : Bool) (l : NodeTree Key)
    (v : Key) (r : NodeTree Key) :
    (eraPos ctx (node n c l v r)).1.length + 1 ≤ (plug ctx (node n c l v r)).height := by
  have h0 := plug_height ctx (node n c l v r)
  cases l with
  | nil =>
    simp only [eraPos, height] at h0 ⊢
    omega
  | node li lc ll lv lr =>
    cases r with
    | nil =>
      simp only [eraPos, height] at h0 ⊢
      omega
    | node ri rc rl rv rr =>
      obtain ⟨si, sc, sv, sr, cr, hz, hp, -⟩ := zoomMin_spec (node ri rc rl rv rr) (by simp) []
      simp only [List.append_nil] at hz
      have hpos : eraPos ctx (node n c (node li lc ll lv lr) v (node ri rc rl rv rr)) =
          (cr ++ (⟨si, c, sv, RIGHT, node li lc ll lv lr⟩ : Frame Key) :: ctx, sr, sc) := by
        simp only [eraPos, hz]
      rw [hpos]
      have h1 := plug_height cr (node si sc nil sv sr)
      rw [← hp] at h1
      have h2 : (node n c (node li lc ll lv lr) v (node ri rc rl rv rr)).height =
          max (node li lc ll lv lr).height (node ri rc rl rv rr).height + 1 := rfl
      have h3 : (node si sc nil sv sr).height = max 0 sr.height + 1 := rfl
      simp only [List.length_append, List.length_cons]
      omega

theorem erase_bounded_eq {s : set Key} {ctx : List (Frame Key)} {n : Nat} {c : Bool}
    {l : NodeTree Key} {v : Key} {r : NodeTree Key}
    (h : Model s (plug ctx (node n c l v r))) (hv : Valid (plug ctx (node n c l v r)))
    {fuel : Nat} (hfu : (plug ctx (node n c l v r)).height ≤ fuel) :
    erase_bounded fuel s (some n) = erase s (some n) := by
  have hl := eraPos_length_height ctx n c l v r
  have e := erase_unlink_bounded_eq EraInv EraInv_sib EraInv_step fuel h.rep h.size
    (eraT_inv hv.2.1 hv.2.2).1 (by omega)
  simp only [erase_bounded, erase, e] <;> rfl

/-! ## `insert` when the allocator returns no storage -/

theorem insert_descend_model (lt : Key → Key → Bool) (k : Key) {s : set Key} {T : NodeTree Key}
    (h : Model s T) :
    insert_descend lt k s s.size_ s.root_ s.root_ =
      some (match (zoom lt k T []).1 with
            | nil => (cpar (zoom lt k T []).2, none)
            | node a _ _ _ _ => (some a, some a)) := by
  have := insert_descend_spec lt k s.size_ s.root_ (show Rep _ (plug [] _) from h.rep)
    (by rw [h.size]; exact height_le_length T) (by rintro rfl; exact h.rep.root)
  rwa [← h.rep.root] at this

theorem insert_with_model (lt : Key → Key → Bool) (k : Key) {s : set Key} {T : NodeTree Key}
    (h : Model s T) :
    ((zoom lt k T []).1 = nil → insert_with lt k s none = none) ∧
    ((zoom lt k T []).1 ≠ nil → ∃ a, (zoom lt k T []).1.root = some a ∧
      ∀ fresh, insert_with lt k s fresh = some (s, (some a, false))) := by
  have hdesc := insert_descend_model lt k h
  cases hz : (zoom lt k T []).1 with
  | nil =>
    rw [hz] at hdesc
    refine ⟨fun _ => ?_, fun hne => absurd rfl hne⟩
    simp [insert_with, hdesc, bind, Option.bind]
  | node a c l v r =>
    rw [hz] at hdesc
    constructor
    · intro hn
      cases hn
    · intro _
      refine ⟨a, rfl, fun fresh => ?_⟩
      simp [insert_with, hdesc, bind, Option.bind]

end taapp

namespace taapp
variable {Key : Type}
open NodeTree

/-! ## Iterators, `clear` and runs -/

theorem erase_fst {s s1 : set Key} {it x : Option Nat} (h : erase s it = some (s1, x)) :
    increment s it = some x := by
  unfold erase at h
  cases hi : increment s it with
  | none => rw [hi] at h; cases h
  | some y =>
    rw [hi] at h
    simp only at h
    cases hu : erase_unlink s it with
    | none => rw [hu] at h; cases h
    | some s2 =>
      rw [hu] at h
      simp only at h
      cases hc : erase_cleanup s2 it with
      | none => rw [hc] at h; cases h
      | some s3 =>
        rw [hc] at h
        simp only [Option.some.injEq, Prod.mk.injEq] at h
        rw [h.2]

/-- C12: for a reachable set whose in-order list of nodes is
`pre ++ (a, v) :: post`, `erase` of the iterator at `a` returns the address of
the first node of `post`, the node that held the next in-order key, or `end()`
when `post` is empty; the new in-order list is `pre ++ post`, so the returned
node is still a node of the tree; for a strict weak ordering the key of the
returned node is the smallest key of the old tree above `v`. -/
theorem erase_returns_next (lt : Key → Key → Bool) (s : set Key) (hs : Reachable lt s)
    (a : Nat) (v : Key) (pre post : List (Nat × Key))
    (hin : InorderN s s.root_ (pre ++ (a, v) :: post)) :
    ∃ s1, erase s (some a) = some (s1, post.head?.map Prod.fst) ∧
      InorderN s1 s1.root_ (pre ++ post) ∧
      (post = [] → post.head?.map Prod.fst = end_ s1) ∧
      (∀ b, post.head?.map Prod.fst = some b → IsNode s1 b) ∧
      (StrictWeak lt → ∀ y, post.head? = some y → lt v y.2 = true ∧
        ∀ x ∈ pre ++ (a, v) :: post, lt v x.2 = true → lt x.2 y.2 = false) := by
  obtain ⟨T, hm, hv, hsort⟩ := reachable_model lt hs
  have hT := nodes_eq hm.rep hin
  have ha : a ∈ T.ids := by rw [ids, ← hT]; simp
  obtain ⟨ctx, c, l, v1, r, rfl⟩ := exists_plug_of_mem ha
  have hnodes : (plug ctx (node a c l v1 r)).nodes =
      (ctxBefore ctx ++ l.nodes) ++ (a, v1) :: (r.nodes ++ ctxAfter ctx) := by
    rw [plug_nodes]
    simp
  have hnd : ((pre ++ (a, v) :: post).map Prod.fst).Nodup := by
    rw [hT]
    exact hm.rep.nodup
  obtain ⟨hpre, hxv, hpost⟩ := split_unique hnd (hT.trans hnodes) rfl
  obtain ⟨s1, x, e, hm1, -⟩ := erase_model hm hv
  have hx := (erase_fst e).symm.trans (increment_spec hm.rep hm.size)
  simp only [Option.some.injEq] at hx
  have hin1 := InorderN_of_RepT hm1.rep.tree
  rw [← hm1.rep.root, eraT_nodes] at hin1
  refine ⟨s1, by rw [e, hx, hpost], ?_, ?_, ?_, ?_⟩
  · rw [hpre, hpost]
    simpa [List.append_assoc] using hin1
  · rintro rfl
    rfl
  · intro b hb
    refine (isNode_iff hm1.rep b).2 ?_
    rw [ids, eraT_nodes]
    cases hp : post with
    | nil => rw [hp] at hb; cases hb
    | cons y post1 =>
      rw [hp] at hb
      simp only [List.head?_cons, Option.map_some', Option.some.injEq] at hb
      have : y ∈ r.nodes ++ ctxAfter ctx := by rw [← hpost, hp]; simp
      rw [← hb]
      simp only [List.append_assoc, List.map_append, List.mem_append, List.mem_map]
      rcases List.mem_append.1 this with h1 | h1
      · exact Or.inr (Or.inr (Or.inl ⟨y, h1, rfl⟩))
      · exact Or.inr (Or.inr (Or.inr ⟨y, h1, rfl⟩))
  · intro sw y hy
    have hsrt := hsort sw
    unfold Sorted keys at hsrt
    rw [← hT, List.pairwise_map] at hsrt
    cases hp : post with
    | nil => rw [hp] at hy; cases hy
    | cons y1 post1 =>
      rw [hp] at hy hsrt
      simp only [List.head?_cons, Option.some.injEq] at hy
      subst hy
      obtain ⟨p1, p2, p3⟩ := List.pairwise_append.1 hsrt
      obtain ⟨q1, q2⟩ := List.pairwise_cons.1 p2
      obtain ⟨q3, -⟩ := List.pairwise_cons.1 q2
      have hvy : lt v y1.2 = true := q1 y1 (by simp)
      refine ⟨hvy, ?_⟩
      intro x hx hvx
      cases hxy : lt x.2 y1.2 with
      | false => rfl
      | true =>
        exfalso
        rcases List.mem_append.1 hx with h1 | h1
        · have h2 := p3 x h1 (a, v) (by simp)
          simp only at h2
          have := sw.trans _ _ _ hvx h2
          rw [sw.irrefl] at this
          cases this
        · rcases List.mem_cons.1 h1 with rfl | h1
          · simp only at hvx
            rw [sw.irrefl] at hvx
            cases hvx
          · rcases List.mem_cons.1 h1 with rfl | h1
            · rw [sw.irrefl] at hxy
              cases hxy
            · have h2 := q3 x h1
              have := sw.trans _ _ _ hxy h2
              rw [sw.irrefl] at this
              cases this

/-- C13: on a reachable set, the loop that starts at `begin()` and applies
`operator++` until the iterator is `end()` stops within `size()` steps; the
nodes it visits are the in-order list of the nodes of the tree, so every node
is visited exactly once, `size()` nodes are visited, and for a strict weak
ordering the keys read are strictly increasing; on an empty set `begin()` is
`end()`. -/
theorem iteration_visits_inorder (lt : Key → Key → Bool) (s : set Key)
    (hs : Reachable lt s) :
    ∃ b l, begin_ s = some b ∧ walk s (size s) b = some l ∧ InorderN s s.root_ l ∧
      l.length = size s ∧ (l.map Prod.fst).Nodup ∧ (∀ a, IsNode s a ↔ a ∈ l.map Prod.fst) ∧
      (StrictWeak lt → Sorted lt (l.map Prod.snd)) ∧ (empty s = true → b = end_ s) := by
  obtain ⟨T, hm, -, hsort⟩ := reachable_model lt hs
  have hin := InorderN_of_RepT hm.rep.tree
  rw [← hm.rep.root] at hin
  have hlen : T.nodes.length = size s := by
    rw [size, hm.size, ids, List.length_map]
  refine ⟨_, T.nodes, begin_spec hm, ?_, hin, hlen, hm.rep.nodup,
    isNode_iff hm.rep, hsort, ?_⟩
  · exact walk_spec hm T.nodes [] (size s) rfl (by rw [hlen])
  · intro he
    have hr : T.root = none := by
      rw [← hm.rep.root]
      simpa [empty] using he
    cases T with
    | nil => rfl
    | node i c l v r => cases hr

/-- C14: on a reachable set `clear()` returns, and afterwards `size()` is 0,
`empty()` is true, `begin()` is `end()` and `find(k)` is `end()` for every key
and every comparator. -/
theorem clear_empties (lt : Key → Key → Bool) (s : set Key) (hs : Reachable lt s) :
    ∃ s1, clear s = some s1 ∧ size s1 = 0 ∧ empty s1 = true ∧ begin_ s1 = some (end_ s1) ∧
      ∀ (lt1 : Key → Key → Bool) (k : Key), find lt1 k s1 = some (end_ s1) := by
  obtain ⟨s1, e⟩ := reachable_clear_total lt hs
  have hm := Model_clear e
  have hr : s1.root_ = none := hm.rep.root
  have hz : s1.size_ = 0 := hm.size
  refine ⟨s1, e, hz, by simp [empty, hr], ?_, ?_⟩
  · rw [begin_spec hm]
    rfl
  · intro lt1 k
    rw [find_spec lt1 k hm]
    rfl

/-- C11: for a strict weak ordering, every finite run of `insert` and
`erase(key)` calls from the empty set returns, and `find(k)` on the final set
succeeds (is not `end()`) exactly if the run contains an `insert` of a key
equivalent to `k` that no later `erase` of a key equivalent to `k` follows; in
particular `find(k)` is `end()` right after `erase(k)`. -/
theorem find_iff_present (lt : Key → Key → Bool) (sw : StrictWeak lt) (ops : List (Op Key))
    (k : Key) :
    (∃ s r, run_ops lt ops set.empty = some s ∧ find lt k s = some r ∧
      (r ≠ end_ s ↔ Present lt k ops)) ∧
    (∃ s, run_ops lt (ops ++ [Op.era k]) set.empty = some s ∧ find lt k s = some (end_ s)) := by
  constructor
  · obtain ⟨s, T, e, -, hm, -, hs, hk⟩ := run_ops_model lt sw ops
    obtain ⟨r, hr, hiff⟩ := find_ne_end_iff lt sw k hm hs
    exact ⟨s, r, e, hr, hiff.trans (hk k)⟩
  · obtain ⟨s, T, e, -, hm, -, hs, hk⟩ := run_ops_model lt sw (ops ++ [Op.era k])
    obtain ⟨r, hr, hiff⟩ := find_ne_end_iff lt sw k hm hs
    refine ⟨s, e, ?_⟩
    rw [hr]
    by_contra hne
    have hne1 : r ≠ end_ s := fun h => hne (by rw [h])
    have := (Present_snoc_era lt k k ops).1 ((hk k).1 (hiff.1 hne1))
    exact this.1 ⟨sw.irrefl k, sw.irrefl k⟩

/-- C17: on a reachable set, a node `x` that is not the erased one is still a
node of the tree after `insert(k)`, `erase(key)` or `erase(iterator)` and holds
the same key as before: an iterator to `x` stays valid and reads the same
key. -/
theorem surviving_node_keeps_key (lt : Key → Key → Bool) (s s1 : set Key)
    (hs : Reachable lt s) (x : Nat) (n : rbnode Key) (hx : IsNode s x)
    (hn : deref s (some x) = some n)
    (hop : (∃ k r, insert lt k s = some (s1, r)) ∨
      (∃ k c, erase_key lt k s = some (s1, c) ∧ find lt k s ≠ some (some x)) ∨
      (∃ a r, IsNode s a ∧ a ≠ x ∧ erase s (some a) = some (s1, r))) :
    IsNode s1 x ∧ ∃ n1, deref s1 (some x) = some n1 ∧ n1.value = n.value := by
  obtain ⟨T, hm, hv, -⟩ := reachable_model lt hs
  have hxn : (x, n.value) ∈ T.nodes := node_mem_nodes hm.rep hx hn
  rcases hop with ⟨k, r, h⟩ | ⟨k, c, h, hf⟩ | ⟨a, r, ha, hax, h⟩
  · obtain ⟨s2, r2, e, hm2, -, -⟩ := insert_spec lt k hm
    rw [e] at h
    cases h
    exact node_of_mem_nodes hm2.rep (insT_nodes_survive lt k s.next hxn)
  · obtain ⟨s2, c2, e, h1, h2⟩ := erase_key_model lt k hm hv
    rw [e] at h
    cases h
    have hfs := find_spec lt k hm
    have hp := zoom_plug lt k T []
    rcases hz : zoom lt k T [] with ⟨t, ctx⟩
    rw [hz] at hp h1 h2 hfs
    simp only [plug] at hp h1 h2 hfs
    cases t with
    | nil =>
      obtain ⟨rfl, -⟩ := h1 rfl
      exact ⟨hx, n, hn, rfl⟩
    | node i c l v r =>
      obtain ⟨-, -, hm2⟩ := h2 (by simp)
      subst hp
      have hne : x ≠ i := by
        rintro rfl
        exact hf hfs
      exact node_of_mem_nodes hm2.rep (eraT_nodes_survive hxn hne)
  · obtain ⟨ctx, c, l, v, r, rfl⟩ := node_decomp hm.rep ha
    obtain ⟨s2, y, e, hm2, -⟩ := erase_model hm hv
    rw [e] at h
    cases h
    exact node_of_mem_nodes hm2.rep (eraT_nodes_survive hxn (Ne.symm hax))

/-- C19: the scenario on an integer set with comparator `<`: after each of the
first `i` calls (insert 5, 3, 8, 1, 4, 7, 9, 2, 6, 0, then erase 3, 8, 0) the run
has returned a set that satisfies the red-black conditions; after `i ≤ 10`
calls its in-order key sequence is the sorted sequence of the first `i` values
inserted; at the end `find(8)` is `end()`, `size()` is 7 and the in-order key
sequence is 1, 2, 4, 5, 6, 7, 9. -/
theorem scenario_run : ∀ i : Fin 14,
    ∃ s, run_ops ltN (scenario.take i) set.empty = some s ∧ RedBlack ltN s ∧
      (i.val ≤ 10 → Inorder s s.root_ ((scenario_inserts.take i).insertionSort (· ≤ ·))) ∧
      (i.val = 13 → find ltN 8 s = some (end_ s) ∧ size s = 7 ∧
        Inorder s s.root_ [1, 2, 4, 5, 6, 7, 9]) := by
  intro i
  fin_cases i
  · exact ⟨sc0, sc0_facts.1, reachable_RedBlack ltN ltN_strictWeak sc0_facts.2.1,
      fun _ => inorder_of_keys ltN sc0_facts.2.1 sc0_facts.2.2, fun h => by simp at h⟩
  · exact ⟨sc1, sc1_facts.1, reachable_RedBlack ltN ltN_strictWeak sc1_facts.2.1,
      fun _ => inorder_of_keys ltN sc1_facts.2.1 sc1_facts.2.2, fun h => by simp at h⟩
  · exact ⟨sc2, sc2_facts.1, reachable_RedBlack ltN ltN_strictWeak sc2_facts.2.1,
      fun _ => inorder_of_keys ltN sc2_facts.2.1 sc2_facts.2.2, fun h => by simp at h⟩
  · exact ⟨sc3, sc3_facts.1, reachable_RedBlack ltN ltN_strictWeak sc3_facts.2.1,
      fun _ => inorder_of_keys ltN sc3_facts.2.1 sc3_facts.2.2, fun h => by simp at h⟩
  · exact ⟨sc4, sc4_facts.1, reachable_RedBlack ltN ltN_strictWeak sc4_facts.2.1,
      fun _ => inorder_of_keys ltN sc4_facts.2.1 sc4_facts.2.2, fun h => by simp at h⟩
  · exact ⟨sc5, sc5_facts.1, reachable_RedBlack ltN ltN_strictWeak sc5_facts.2.1,
      fun _ => inorder_of_keys ltN sc5_facts.2.1 sc5_facts.2.2, fun h => by simp at h⟩
  · exact ⟨sc6, sc6_facts.1, reachable_RedBlack ltN ltN_strictWeak sc6_facts.2.1,
      fun _ => inorder_of_keys ltN sc6_facts.2.1 sc6_facts.2.2, fun h => by simp at h⟩
  · exact ⟨sc7, sc7_facts.1, reachable_RedBlack ltN ltN_strictWeak sc7_facts.2.1,
      fun _ => inorder_of_keys ltN sc7_facts.2.1 sc7_facts.2.2, fun h => by simp at h⟩
  · exact ⟨sc8, sc8_facts.1, reachable_RedBlack ltN ltN_strictWeak sc8_facts.2.1,
      fun _ => inorder_of_keys ltN sc8_facts.2.1 sc8_facts.2.2, fun h => by simp at h⟩
  · exact ⟨sc9, sc9_facts.1, reachable_RedBlack ltN ltN_strictWeak sc9_facts.2.1,
      fun _ => inorder_of_keys ltN sc9_facts.2.1 sc9_facts.2.2, fun h => by simp at h⟩
  · exact ⟨sc10, sc10_facts.1, reachable_RedBlack ltN ltN_strictWeak sc10_facts.2.1,
      fun _ => inorder_of_keys ltN sc10_facts.2.1 sc10_facts.2.2, fun h => by simp at h⟩
  · exact ⟨sc11, sc11_facts.1, reachable_RedBlack ltN ltN_strictWeak sc11_facts.2.1,
      fun h => by simp at h, fun h => by simp at h⟩
  · exact ⟨sc12, sc12_facts.1, reachable_RedBlack ltN ltN_strictWeak sc12_facts.2.1,
      fun h => by simp at h, fun h => by simp at h⟩
  · exact ⟨sc13, sc13_facts.1, reachable_RedBlack ltN ltN_strictWeak sc13_facts.2.1,
      fun h => by simp at h,
      fun _ => ⟨rfl, rfl, inorder_of_keys ltN sc13_facts.2.1 sc13_facts.2.2⟩⟩

/-- C20: for a strict weak ordering and keys `a < b < c`, inserting them into
the empty set in the order `a, c, b` or `c, a, b` returns a set whose root holds
`b`, is BLACK and has no parent, whose left child holds `a` and whose right
child holds `c`, both RED, without children and with the root as parent;
`size()` is 3. -/
theorem bent_chain_insert (lt : Key → Key → Bool) (sw : StrictWeak lt) (a b c : Key)
    (hab : lt a b = true) (hbc : lt b c = true) (ops : List (Op Key))
    (hops : ops = [Op.ins a, Op.ins c, Op.ins b] ∨ ops = [Op.ins c, Op.ins a, Op.ins b]) :
    ∃ s r x y, run_ops lt ops set.empty = some s ∧ s.root_ = some r ∧
      s.mem r = some ⟨b, BLACK, none, some x, some y⟩ ∧
      s.mem x = some ⟨a, RED, some r, none, none⟩ ∧
      s.mem y = some ⟨c, RED, some r, none, none⟩ ∧ size s = 3 := by
  obtain ⟨⟨s, e, hm⟩, ⟨s', e', hm'⟩⟩ := bent_chain_model lt sw a b c hab hbc
  rcases hops with rfl | rfl
  · exact ⟨s, 2, 0, 1, e, hm.rep.root, hm.rep.tree.1, hm.rep.tree.2.1.1, hm.rep.tree.2.2.1,
      hm.size⟩
  · exact ⟨s', 2, 1, 0, e', hm'.rep.root, hm'.rep.tree.1, hm'.rep.tree.2.1.1,
      hm'.rep.tree.2.2.1, hm'.size⟩

end taapp

namespace taapp
variable {Key : Type}
open NodeTree

/-! ## Allocations, allocator failure and path lengths -/

/-- C15: with the node storage tracked as state, on every set reachable by
`insert`, `erase` and `clear` the number of nodes allocated and not released
equals `size()` and the addresses that hold a node are the nodes of the tree;
an `insert` that inserts allocates the one address `next` and
touches no other allocation, an `insert` of a duplicate leaves the state as it
was; `erase` releases the erased node and no other; `erase(k)` releases as many
nodes as it reports; `clear()` returns, its log of released addresses has no
repetition and consists of the nodes of the tree, and afterwards no address
holds a node, so the live count is zero. -/
theorem allocations_balanced (lt : Key → Key → Bool) (s : set Key) (hs : Reachable lt s) :
    live s = size s ∧
    (∀ a, (s.mem a).isSome = true ↔ IsNode s a) ∧
    (∀ k s1 r, insert lt k s = some (s1, r) →
      (r.2 = true → s.mem s.next = none ∧ (s1.mem s.next).isSome = true ∧
        (∀ b, b ≠ s.next → (s1.mem b).isSome = (s.mem b).isSome) ∧
        live s1 = live s + 1) ∧
      (r.2 = false → s1 = s)) ∧
    (∀ a s1 r, IsNode s a → erase s (some a) = some (s1, r) →
      (s.mem a).isSome = true ∧ s1.mem a = none ∧
      (∀ b, b ≠ a → (s1.mem b).isSome = (s.mem b).isSome) ∧ live s1 + 1 = live s) ∧
    (∀ k s1 c, erase_key lt k s = some (s1, c) → live s1 + c = live s) ∧
    (∃ s1 log, clear_log s = some (s1, log) ∧ clear s = some s1 ∧ log.Nodup ∧
      (∀ a, a ∈ log ↔ IsNode s a) ∧ log.length = live s ∧ (∀ a, s1.mem a = none) ∧
      live s1 = 0) := by
  obtain ⟨T, hm, hv, hc⟩ := reachable_closed lt hs
  have hlive := reachable_live lt hs
  refine ⟨hlive, fun a => ?_, ?_, ?_, ?_, ?_⟩
  · rw [isNode_iff hm.rep]
    exact ⟨hc a, mem_ids_isSome hm.rep⟩
  · intro k s1 r e
    have hs1 := reachable_live lt (Reachable.insert hs e)
    obtain ⟨s2, r2, e2, hm2, h1, h2⟩ := insert_spec lt k hm
    rw [e] at e2
    cases e2
    constructor
    · intro hr
      have hz : (zoom lt k T []).1 = nil := by
        by_contra hz
        obtain ⟨-, rfl⟩ := h1 hz
        cases hr
      obtain ⟨rfl, hnext⟩ := h2 hz
      have hnone : s.mem s.next = none := by
        cases hq : s.mem s.next with
        | none => rfl
        | some n =>
          exact absurd (hm.fresh _ (hc s.next (by rw [hq]; rfl))) (Nat.lt_irrefl _)
      rcases hzz : zoom lt k T [] with ⟨t, ctx⟩
      rw [hzz] at hz
      simp only at hz
      subst hz
      obtain ⟨e1, e3⟩ := insT_nodes_new lt k s.next T ctx hzz
      have hlen : (insT lt k s.next T).ids.length = T.ids.length + 1 := by
        simp only [ids, e3, e1, List.length_map, List.length_append, List.length_cons]
        omega
      refine ⟨hnone, ?_, ?_, ?_⟩
      · exact mem_ids_isSome hm2.rep (by rw [ids, e3]; simp)
      · rcases insert_with_dom e with rfl | ⟨a0, hf, -, -, hd⟩
        · exact fun _ _ => rfl
        · cases hf
          exact hd
      · rw [hs1, hlive, size, size, hm2.size, hm.size, hlen]
    · intro hr
      by_contra hne
      have hz : (zoom lt k T []).1 ≠ nil := by
        intro hz
        obtain ⟨rfl, -⟩ := h2 hz
        cases hr
      exact hne (h1 hz).1
  · intro a s1 r ha e
    have hs1 := reachable_live lt (Reachable.erase hs ha e)
    obtain ⟨d1, d2⟩ := erase_dom e
    obtain ⟨ctx, c, l, v, r0, rfl⟩ := node_decomp hm.rep ha
    obtain ⟨s2, x, e2, hm2, -⟩ := erase_model hm hv
    rw [e] at e2
    cases e2
    refine ⟨mem_ids_isSome hm.rep ((isNode_iff hm.rep a).1 ha), d1, d2, ?_⟩
    rw [hs1, hlive, size, size, hm2.size, hm.size]
    simp only [ids, eraT_nodes, plug_nodes, nodes_node, List.length_map, List.length_append,
      List.length_cons]
    omega
  · intro k s1 c e
    have hs1 := reachable_live lt (Reachable.erase_key hs e)
    obtain ⟨s2, c2, e2, h1, h2⟩ := erase_key_model lt k hm hv
    rw [e] at e2
    cases e2
    have hp := zoom_plug lt k T []
    rcases hz : zoom lt k T [] with ⟨t, ctx⟩
    rw [hz] at hp h1 h2
    simp only [plug] at hp
    cases t with
    | nil =>
      obtain ⟨rfl, rfl⟩ := h1 rfl
      rfl
    | node n c0 l v r0 =>
      obtain ⟨rfl, -, hm2⟩ := h2 (by simp)
      subst hp
      rw [hs1, hlive, size, size, hm2.size, hm.size]
      simp only [ids, eraT_nodes, plug_nodes, nodes_node, List.length_map, List.length_append,
        List.length_cons]
      omega
  · obtain ⟨s1, log, e1, e2, hp, g1, g2⟩ := clear_log_total hm
    have hnone : ∀ a, s1.mem a = none := by
      intro a
      by_cases hl : a ∈ log
      · exact g1 a hl
      · cases hq : s1.mem a with
        | none => rfl
        | some n =>
          have h3 := g2 a hl
          rw [hq] at h3
          exact absurd (hp.mem_iff.2 (hc a h3.symm)) hl
    refine ⟨s1, log, e1, e2, hp.nodup_iff.2 hm.rep.nodup, fun a => ?_, ?_, hnone, ?_⟩
    · rw [hp.mem_iff, isNode_iff hm.rep]
    · rw [hp.length_eq, hlive, size, hm.size]
    · unfold live
      rw [List.length_eq_zero, List.filter_eq_nil_iff]
      intro a _
      rw [hnone a]
      simp

/-- C16 (amended): `insert` does not look at what the allocator returns.  On a
reachable set, for a strict weak ordering: if `k` is equivalent to no key of
the set and the allocator returns the null pointer, `insert(k)` stores through
that pointer, which is undefined behaviour (no result, no report); if `k` is
equivalent to some key of the set, the allocator is not called, and whatever it
would return the call leaves the state as it was and returns the node found
with `false`. -/
theorem insert_allocation_failure (lt : Key → Key → Bool) (s : set Key)
    (hs : Reachable lt s) (sw : StrictWeak lt) (k : Key) (ks : List Key)
    (hks : Inorder s s.root_ ks) :
    ((∀ x ∈ ks, ¬ Equiv lt k x) → insert_with lt k s none = none) ∧
    ((∃ x ∈ ks, Equiv lt k x) →
      ∃ a, IsNode s a ∧ ∀ fresh, insert_with lt k s fresh = some (s, (some a, false))) := by
  obtain ⟨T, hm, hv, hsort⟩ := reachable_model lt hs
  have hkeys := keys_eq hm.rep hks
  subst hkeys
  obtain ⟨h1, h2⟩ := insert_with_model lt k hm
  constructor
  · intro hnew
    exact h1 ((zoom_nil_iff lt k sw (hsort sw)).2 hnew)
  · intro hold
    have hz : (zoom lt k T []).1 ≠ nil := by
      intro hz
      obtain ⟨x, hx, hq⟩ := hold
      exact (zoom_nil_iff lt k sw (hsort sw)).1 hz x hx hq
    obtain ⟨a, ha, e⟩ := h2 hz
    refine ⟨a, ?_, e⟩
    have hf := find_spec lt k hm
    rw [isNode_iff hm.rep]
    have hp := zoom_plug lt k T []
    rcases hzz : zoom lt k T [] with ⟨t, ctx⟩
    rw [hzz] at hp ha
    simp only [plug] at hp ha
    cases t with
    | nil => cases ha
    | node i c l v r =>
      cases ha
      rw [← hp, plug_ids]
      exact Or.inl (by simp)

/-- C16 (as stated, refuted): the set holding 1 and 2 is reachable and 3 is a
new key, yet with the allocator returning the null pointer `insert(3)` does not
return with the state unchanged: it has no result at all. -/
theorem insert_allocation_failure_counterexample :
    Reachable ltN demo2 ∧ Inorder demo2 demo2.root_ [1, 2] ∧
    (∀ x ∈ [1, 2], ¬ Equiv ltN 3 x) ∧
    ¬ ∃ r, insert_with ltN 3 demo2 none = some (demo2, r) := by
  refine ⟨demo2_reachable, demo2_inorder, ?_, ?_⟩
  · simp [Equiv, ltN]
  · rintro ⟨r, h⟩
    rw [show insert_with ltN 3 demo2 none = none from rfl] at h
    cases h

/-- C18: on a reachable set with `n = size()` nodes, every path from the root
to a null link passes through `h` nodes with `2 ^ h ≤ (n + 1) ^ 2`, hence
`2 ^ (h / 2) ≤ n + 1`; and for every bound `fuel` with
`(n + 1) ^ 2 < 2 ^ (fuel + 1)`, that is `fuel ≥ ⌊2 log₂ (n + 1)⌋`, every path
has at most `fuel` nodes and `find`, the duplicate search of `insert`, the
whole of `insert` and `erase(iterator)` with their loops limited to `fuel`
iterations return what the unlimited operations return. -/
theorem height_logarithmic (lt : Key → Key → Bool) (s : set Key) (hs : Reachable lt s) :
    (∀ h, PathLen s s.root_ h → 2 ^ h ≤ (size s + 1) ^ 2 ∧ 2 ^ (h / 2) ≤ size s + 1) ∧
    ∀ fuel, (size s + 1) ^ 2 < 2 ^ (fuel + 1) →
      (∀ h, PathLen s s.root_ h → h ≤ fuel) ∧
      (∀ k, ∃ r, find_loop lt k s fuel s.root_ = some r ∧ find lt k s = some r) ∧
      (∀ k, ∃ r, insert_descend lt k s fuel s.root_ s.root_ = some r ∧
        insert_descend lt k s s.size_ s.root_ s.root_ = some r) ∧
      (∀ k, ∃ r, insert_bounded fuel lt k s = some r ∧ insert lt k s = some r) ∧
      (∀ a, IsNode s a → ∃ r, erase_bounded fuel s (some a) = some r ∧
        erase s (some a) = some r) := by
  obtain ⟨T, hm, hv, -⟩ := reachable_model lt hs
  have hsz : size s = T.ids.length := hm.size
  have hpath : ∀ h, PathLen s s.root_ h → h ≤ T.height := by
    intro h hp
    rw [hm.rep.root] at hp
    exact PathLen_le_height hm.rep.tree hp
  constructor
  · intro h hp
    have h1 : 2 ^ h ≤ (size s + 1) ^ 2 := by
      rw [hsz]
      exact Nat.le_trans (Nat.pow_le_pow_right (by omega) (hpath h hp)) (Valid_height hv)
    exact ⟨h1, pow_half_le h1⟩
  · intro fuel hfuel
    rw [hsz] at hfuel
    have hT : T.height ≤ fuel := height_le_of_pow_lt hv hfuel
    refine ⟨fun h hp => Nat.le_trans (hpath h hp) hT, fun k => ?_, fun k => ?_, fun k => ?_,
      fun a ha => ?_⟩
    · refine ⟨_, ?_, find_spec lt k hm⟩
      have := find_loop_spec lt k fuel (show Rep _ (plug [] _) from hm.rep) hT
      rw [hm.rep.root]
      exact this
    · refine ⟨_, ?_, insert_descend_model lt k hm⟩
      have := insert_descend_spec lt k fuel s.root_ (show Rep _ (plug [] _) from hm.rep)
        hT (by rintro rfl; exact hm.rep.root)
      rwa [← hm.rep.root] at this
    · obtain ⟨s1, r, e, -⟩ := insert_spec lt k hm
      exact ⟨_, by rw [insert_bounded_eq lt k hm hT]; exact e, e⟩
    · obtain ⟨ctx, c, l, v, r, rfl⟩ := node_decomp hm.rep ha
      obtain ⟨s1, x, e, -⟩ := erase_model hm hv
      exact ⟨_, by rw [erase_bounded_eq hm hv hT]; exact e, e⟩

end taapp

namespace taapp
open NodeTree

/-! ## Instances on concrete sets (iterators, runs, allocations, heights) -/

theorem demo3_inorderN : InorderN demo3 demo3.root_ ([(1, 1)] ++ (0, 2) :: [(2, 3)]) :=
  @InorderN.node _ demo3 0 ⟨2, BLACK, none, some 1, some 2⟩ [(1, 1)] [(2, 3)] rfl
    (@InorderN.node _ demo3 1 ⟨1, RED, some 0, none, none⟩ [] [] rfl InorderN.null
      InorderN.null)
    (@InorderN.node _ demo3 2 ⟨3, RED, some 0, none, none⟩ [] [] rfl InorderN.null
      InorderN.null)

theorem demo2_isNode_root : IsNode demo2 0 :=
  @Reach.here _ demo2 0 ⟨2, BLACK, none, some 1, none⟩ rfl

/-- Witness of C11: the run `insert(2); insert(1)` and the key 1. -/
theorem find_iff_present_witness :
    StrictWeak ltN ∧
    (∃ s r, run_ops ltN [Op.ins 2, Op.ins 1] set.empty = some s ∧ find ltN 1 s = some r ∧
      (r ≠ end_ s ↔ Present ltN 1 [Op.ins 2, Op.ins 1])) ∧
    (∃ s, run_ops ltN ([Op.ins 2, Op.ins 1] ++ [Op.era 1]) set.empty = some s ∧
      find ltN 1 s = some (end_ s)) :=
  ⟨ltN_strictWeak, find_iff_present ltN ltN_strictWeak [Op.ins 2, Op.ins 1] 1⟩

/-- Witness of C12: erasing the root (key 2) of the set holding 1, 2, 3 returns
the node of key 3. -/
theorem erase_returns_next_witness :
    Reachable ltN demo3 ∧ InorderN demo3 demo3.root_ ([(1, 1)] ++ (0, 2) :: [(2, 3)]) ∧
    ∃ s1, erase demo3 (some 0) = some (s1, [(2, 3)].head?.map Prod.fst) ∧
      InorderN s1 s1.root_ ([(1, 1)] ++ [(2, 3)]) ∧
      ([(2, 3)] = ([] : List (Nat × Nat)) → [(2, 3)].head?.map Prod.fst = end_ s1) ∧
      (∀ b, [(2, 3)].head?.map Prod.fst = some b → IsNode s1 b) ∧
      (StrictWeak ltN → ∀ y, [(2, 3)].head? = some y → ltN 2 y.2 = true ∧
        ∀ x ∈ [(1, 1)] ++ (0, 2) :: [(2, 3)], ltN 2 x.2 = true → ltN x.2 y.2 = false) :=
  ⟨demo3_reachable, demo3_inorderN,
    erase_returns_next ltN demo3 demo3_reachable 0 2 [(1, 1)] [(2, 3)] demo3_inorderN⟩

/-- Witness of C13: the iteration over the set holding 1, 2, 3. -/
theorem iteration_visits_inorder_witness :
    Reachable ltN demo3 ∧
    ∃ b l, begin_ demo3 = some b ∧ walk demo3 (size demo3) b = some l ∧
      InorderN demo3 demo3.root_ l ∧ l.length = size demo3 ∧ (l.map Prod.fst).Nodup ∧
      (∀ a, IsNode demo3 a ↔ a ∈ l.map Prod.fst) ∧
      (StrictWeak ltN → Sorted ltN (l.map Prod.snd)) ∧ (empty demo3 = true → b = end_ demo3) :=
  ⟨demo3_reachable, iteration_visits_inorder ltN demo3 demo3_reachable⟩

/-- Witness of C14: `clear()` on the set holding 1, 2, 3. -/
theorem clear_empties_witness :
    Reachable ltN demo3 ∧
    ∃ s1, clear demo3 = some s1 ∧ size s1 = 0 ∧ empty s1 = true ∧
      begin_ s1 = some (end_ s1) ∧
      ∀ (lt1 : Nat → Nat → Bool) (k : Nat), find lt1 k s1 = some (end_ s1) :=
  ⟨demo3_reachable, clear_empties ltN demo3 demo3_reachable⟩

/-- Witness of C15: the set holding 1, 2, 3 has three live nodes, and `clear()`
releases them. -/
theorem allocations_balanced_witness :
    Reachable ltN demo3 ∧ live demo3 = 3 ∧
    ∃ s1 log, clear_log demo3 = some (s1, log) ∧ clear demo3 = some s1 ∧ log.Nodup ∧
      (∀ a, a ∈ log ↔ IsNode demo3 a) ∧ log.length = live demo3 ∧ (∀ a, s1.mem a = none) ∧
      live s1 = 0 :=
  ⟨demo3_reachable, (allocations_balanced ltN demo3 demo3_reachable).1,
    (allocations_balanced ltN demo3 demo3_reachable).2.2.2.2.2⟩

/-- Witness of C16: on the set holding 1 and 2, `insert(3)` with a failing
allocator has no result, and `insert(2)` does not depend on the allocator. -/
theorem insert_allocation_failure_witness :
    Reachable ltN demo2 ∧ StrictWeak ltN ∧ Inorder demo2 demo2.root_ [1, 2] ∧
    (∀ x ∈ [1, 2], ¬ Equiv ltN 3 x) ∧ insert_with ltN 3 demo2 none = none :=
  ⟨demo2_reachable, ltN_strictWeak, demo2_inorder, by simp [Equiv, ltN],
    (insert_allocation_failure ltN demo2 demo2_reachable ltN_strictWeak 3 [1, 2]
      demo2_inorder).1 (by simp [Equiv, ltN])⟩

/-- Witness of C17: the root of the set holding 1 and 2 keeps its key when 3 is
inserted. -/
theorem surviving_node_keeps_key_witness :
    Reachable ltN demo2 ∧ IsNode demo2 0 ∧
    deref demo2 (some 0) = some ⟨2, BLACK, none, some 1, none⟩ ∧
    insert ltN 3 demo2 = some (demo3, (some 2, true)) ∧
    IsNode demo3 0 ∧ ∃ n1, deref demo3 (some 0) = some n1 ∧ n1.value = 2 :=
  ⟨demo2_reachable, demo2_isNode_root, rfl, rfl,
    surviving_node_keeps_key ltN demo2 demo3 demo2_reachable 0
      ⟨2, BLACK, none, some 1, none⟩ demo2_isNode_root rfl
      (Or.inl ⟨3, (some 2, true), rfl⟩)⟩

/-- Witness of C18: the set holding 1, 2, 3 and the bound 4, for which
`(3 + 1) ^ 2 < 2 ^ 5`. -/
theorem height_logarithmic_witness :
    Reachable ltN demo3 ∧ (size demo3 + 1) ^ 2 < 2 ^ (4 + 1) ∧
    (∀ h, PathLen demo3 demo3.root_ h → h ≤ 4) ∧
    (∀ k, ∃ r, insert_bounded 4 ltN k demo3 = some r ∧ insert ltN k demo3 = some r) :=
  ⟨demo3_reachable, by decide,
    ((height_logarithmic ltN demo3 demo3_reachable).2 4 (by decide)).1,
    ((height_logarithmic ltN demo3 demo3_reachable).2 4 (by decide)).2.2.2.1⟩

/-- Witness of C20: the keys 1, 2, 3 inserted in the order 1, 3, 2. -/
theorem bent_chain_insert_witness :
    StrictWeak ltN ∧ ltN 1 2 = true ∧ ltN 2 3 = true ∧
    ∃ s r x y, run_ops ltN [Op.ins 1, Op.ins 3, Op.ins 2] set.empty = some s ∧
      s.root_ = some r ∧ s.mem r = some ⟨2, BLACK, none, some x, some y⟩ ∧
      s.mem x = some ⟨1, RED, some r, none, none⟩ ∧
      s.mem y = some ⟨3, RED, some r, none, none⟩ ∧ size s = 3 :=
  ⟨ltN_strictWeak, rfl, rfl,
    bent_chain_insert ltN ltN_strictWeak 1 2 3 rfl rfl [Op.ins 1, Op.ins 3, Op.ins 2]
      (Or.inl rfl)⟩

end taapp

namespace taapp
variable {Key : Type}
open NodeTree

/-! ## The tree a heap represents is unique -/

theorem RepT_unique {mem : Nat → Option (rbnode Key)} {t : NodeTree Key} :
    ∀ {u : NodeTree Key} {p q : Option Nat}, RepT mem p t → RepT mem q u → t.root = u.root →
      t = u := by
  induction t with
  | nil =>
    intro u p q _ _ hr
    cases u with
    | nil => rfl
    | node => cases hr
  | node i c l v r ihl ihr =>
    intro u p q ht hu hr
    cases u with
    | nil => cases hr
    | node j d ul w ur =>
      cases hr
      have e := ht.1.symm.trans hu.1
      simp only [Option.some.injEq, rbnode.mk.injEq] at e
      obtain ⟨rfl, rfl, -, el, er⟩ := e
      rw [ihl ht.2.1 hu.2.1 el, ihr ht.2.2 hu.2.2 er]

theorem Model_unique {s : set Key} {T U : NodeTree Key} (h : Model s T) (g : Model s U) :
    T = U :=
  RepT_unique h.rep.tree g.rep.tree (h.rep.root.symm.trans g.rep.root)

/-! ## The scenario's ninth call -/

theorem sc8_model : Model sc8 sc8_tree := by
  refine ⟨⟨?_, rfl, by decide⟩, rfl, by decide⟩
  simp only [sc8_tree, RepT, root, and_true, true_and]
  and_intros <;> rfl

theorem sc9_model : Model sc9 sc9_tree := by
  refine ⟨⟨?_, rfl, by decide⟩, rfl, by decide⟩
  simp only [sc9_tree, RepT, root, and_true, true_and]
  and_intros <;> rfl

theorem sc9_spec_eq : spec_insert ltN 6 sc8.next sc8_tree = sc9_spec_tree := rfl

theorem sc9_code_eq : insT ltN 6 sc8.next sc8_tree = sc9_tree := rfl

end taapp

namespace taapp
variable {Key : Type}
open NodeTree

/-! ## The specification's procedure keeps the order of the nodes -/

theorem spec_insert_fixup_nodes :
    ∀ (n : Nat) (ctx : List (Frame Key)) (z : NodeTree Key), ctx.length ≤ n →
      (spec_insert_fixup ctx z).nodes = (plug ctx z).nodes := by
  intro n
  induction n with
  | zero =>
    intro ctx z h
    cases ctx with
    | nil => rfl
    | cons f ctx => simp at h
  | succ n ih =>
    intro ctx z h
    cases ctx with
    | nil => rfl
    | cons p ctx =>
      cases ctx with
      | nil => rfl
      | cons g ctx =>
        unfold spec_insert_fixup
        simp only [List.length_cons] at h
        split_ifs with h1 h2 h3
        · rw [ih ctx _ (by omega)]
          simp only [plug]
          refine plug_nodes_congr ctx ?_
          rcases g with ⟨gi, gc, gv, gd, gs⟩
          rcases p with ⟨pi, pc, pv, pd, ps⟩
          simp only [Frame.fill, nodes_mk, paint_nodes]
        · simp only [plug]
          exact plug_nodes_congr ctx (rot_nodes _ _)
        · simp only [plug]
          exact plug_nodes_congr ctx (drot_nodes _ _)
        · rfl

/-- The procedure of the specification and the procedure of the code leave
the same nodes in the same order. -/
theorem spec_insert_nodes (lt : Key → Key → Bool) (k : Key) (a : Nat) (T : NodeTree Key) :
    (spec_insert lt k a T).nodes = (insT lt k a T).nodes := by
  rcases hz : zoom lt k T [] with ⟨t, ctx⟩
  cases t with
  | node i c l v r =>
    rw [insT_dup lt k a T hz]
    unfold spec_insert
    rw [hz]
  | nil =>
    rw [(insT_nodes_new lt k a T ctx hz).2]
    unfold spec_insert
    rw [hz]
    simp only [paint_nodes]
    rw [spec_insert_fixup_nodes ctx.length ctx _ (le_refl _), plug_nodes]
    simp

/-! ## A call after which the two procedures differ in shape -/

theorem shape_set_reachable : Reachable ltN shape_set := by
  have h : ∀ (ks : List Nat) (s : set Nat), Reachable ltN s →
      Reachable ltN (ks.foldl (fun s k => after_insert ltN k s) s) := by
    intro ks
    induction ks with
    | nil => exact fun s h => h
    | cons k ks ih => exact fun s h => ih _ (reachable_after_insert ltN k h)
  exact h _ _ Reachable.empty

theorem insT_all_model (lt : Key → Key → Bool) :
    ∀ (ks : List Key) (s : set Key) (T : NodeTree Key), Model s T →
      Model (ks.foldl (fun s k => after_insert lt k s) s) (insT_all lt ks (T, s.next)).1 ∧
      (ks.foldl (fun s k => after_insert lt k s) s).next = (insT_all lt ks (T, s.next)).2 := by
  intro ks
  induction ks with
  | nil => exact fun s T h => ⟨h, rfl⟩
  | cons k ks ih =>
    intro s T h
    obtain ⟨s1, r, e, hm, h1, h2⟩ := insert_spec lt k h
    have ea : after_insert lt k s = s1 := by simp [after_insert, e]
    have en : s1.next = (match (zoom lt k T []).1 with
        | nil => s.next + 1
        | node _ _ _ _ _ => s.next) := by
      cases hz : (zoom lt k T []).1 with
      | nil => exact (h2 hz).2
      | node i c l v r => rw [(h1 (by rw [hz]; simp)).1]
    have := ih s1 _ hm
    rw [en] at this
    simpa only [List.foldl_cons, ea, insT_all] using this

theorem shape_tree_eq : insT_all ltN shape_keys (nil, 0) = (shape_tree, 16) := rfl

theorem shape_set_model : Model shape_set shape_tree ∧ shape_set.next = 16 := by
  have h := insT_all_model ltN shape_keys set.empty nil Model_empty
  have e : (set.empty : set Nat).next = 0 := rfl
  rw [e, shape_tree_eq] at h
  exact h

/-- In a set reached by sixteen inserts, `insert(7)` leaves a tree of another
shape than the procedure of the specification: the extra recolouring of the
code makes the node of 10 RED below the RED node... the root of the code's tree
is the node of 10, the root of the specification's tree is the node of 14. -/
theorem insert_shape_differs :
    Reachable ltN shape_set ∧ Model shape_set shape_tree ∧ shape_set.next = 16 ∧
    shape_tree.keys = [1, 2, 3, 4, 5, 6, 8, 9, 10, 11, 12, 13, 14, 15, 16, 17] ∧
    (insT ltN 7 16 shape_tree).root = some 12 ∧
    (insT ltN 7 16 shape_tree).keys =
      [1, 2, 3, 4, 5, 6, 7, 8, 9, 10, 11, 12, 13, 14, 15, 16, 17] ∧
    (spec_insert ltN 7 16 shape_tree).root = some 7 ∧
    (spec_insert ltN 7 16 shape_tree).keys =
      [1, 2, 3, 4, 5, 6, 7, 8, 9, 10, 11, 12, 13, 14, 15, 16, 17] :=
  ⟨shape_set_reachable, shape_set_model.1, shape_set_model.2, rfl, rfl, rfl, rfl, rfl⟩

end taapp

namespace taapp
namespace vector
variable {T : Type}

/-! ## Lists with one element taken out or put in -/

theorem getElem?_take_drop_succ (xs : List T) (i j : Nat) (hi : i ≤ xs.length) :
    (xs.take i ++ xs.drop (i + 1))[j]? = if j < i then xs[j]? else xs[j + 1]? := by
  have hl : (xs.take i).length = i := by simp [hi]
  by_cases hj : j < i
  · rw [if_pos hj, List.getElem?_append_left (by omega), List.getElem?_take_of_lt hj]
  · rw [if_neg hj, List.getElem?_append_right (by omega), hl, List.getElem?_drop]
    congr 1
    omega

theorem getElem?_take_cons_drop (xs : List T) (t : T) (i j : Nat) (hi : i ≤ xs.length) :
    (xs.take i ++ t :: xs.drop i)[j]? =
      if j < i then xs[j]? else if j = i then some t else xs[j - 1]? := by
  have hl : (xs.take i).length = i := by simp [hi]
  by_cases hj : j < i
  · rw [if_pos hj, List.getElem?_append_left (by omega), List.getElem?_take_of_lt hj]
  · rw [if_neg hj, List.getElem?_append_right (by omega), hl]
    by_cases hji : j = i
    · subst hji
      simp
    · rw [if_neg hji]
      obtain ⟨m, hm⟩ : ∃ m, j - i = m + 1 := ⟨j - i - 1, by omega⟩
      rw [hm, List.getElem?_cons_succ, List.getElem?_drop]
      congr 1
      omega

theorem take_drop_insert_erase (xs : List T) (t : T) (i : Nat) (hi : i ≤ xs.length) :
    (xs.take i ++ t :: xs.drop i).take i ++ (xs.take i ++ t :: xs.drop i).drop (i + 1) = xs := by
  have hl : (xs.take i).length = i := by simp [hi]
  apply List.ext_getElem?
  intro j
  rw [getElem?_take_drop_succ _ _ _ (by simp; omega)]
  by_cases hj : j < i
  · rw [if_pos hj, getElem?_take_cons_drop _ _ _ _ hi, if_pos hj]
  · rw [if_neg hj, getElem?_take_cons_drop _ _ _ _ hi, if_neg (by omega), if_neg (by omega)]
    simp

theorem getElem?_moved (sl : List (Option T)) (d s n j : Nat) :
    (moved sl d s n)[j]? =
      if j < sl.length then
        some (if d ≤ j ∧ j < d + n then sl.getD (s + (j - d)) none else sl.getD j none)
      else none := by
  unfold moved
  rw [List.getElem?_map]
  by_cases hj : j < sl.length
  · rw [if_pos hj, List.getElem?_range hj]
    rfl
  · rw [if_neg hj, List.getElem?_eq_none (by simpa using hj)]
    rfl

theorem length_moved (sl : List (Option T)) (d s n : Nat) :
    (moved sl d s n).length = sl.length := by
  simp [moved]

theorem some_getD (sl : List (Option T)) (j : Nat) (hj : j < sl.length) :
    some (sl.getD j none) = sl[j]? := by
  rw [List.getD_eq_getElem?_getD, List.getElem?_eq_getElem hj]
  rfl

end vector
end taapp

namespace taapp
namespace vector
variable {T : Type}

/-! ## Reading and writing the buffer -/

theorem inbuf_iff (v : vector T) (hl : v.slots.length = v.capacity_ - v.begin_) (p : Nat) :
    v.inbuf p = true ↔ v.begin_ ≠ 0 ∧ v.begin_ ≤ p ∧ p < v.capacity_ := by
  simp only [inbuf, decide_eq_true_eq]
  constructor
  · rintro ⟨h1, h2, h3, -⟩
    exact ⟨h1, h2, h3⟩
  · rintro ⟨h1, h2, h3⟩
    exact ⟨h1, h2, h3, by omega⟩

theorem load_eq (v : vector T) (hl : v.slots.length = v.capacity_ - v.begin_) (hb : v.begin_ ≠ 0)
    (k : Nat) (hk : v.begin_ + k < v.capacity_) (x : T) (hx : v.slots[k]? = some (some x)) :
    v.load (v.begin_ + k) = some x := by
  have hi : v.inbuf (v.begin_ + k) = true := (inbuf_iff v hl _).2 ⟨hb, by omega, hk⟩
  have hk2 : k < v.slots.length := by omega
  rw [load, if_pos hi, Nat.add_sub_cancel_left, List.getD_eq_getElem?_getD, hx]
  rfl

theorem store_eq (v : vector T) (hl : v.slots.length = v.capacity_ - v.begin_) (hb : v.begin_ ≠ 0)
    (k : Nat) (hk : v.begin_ + k < v.capacity_) (x : T) :
    v.store (v.begin_ + k) x = some { v with slots := v.slots.set k (some x) } := by
  have hi : v.inbuf (v.begin_ + k) = true := (inbuf_iff v hl _).2 ⟨hb, by omega, hk⟩
  rw [store, if_pos hi, Nat.add_sub_cancel_left]

theorem destroy_eq (v : vector T) (hl : v.slots.length = v.capacity_ - v.begin_)
    (hb : v.begin_ ≠ 0) (k : Nat) (hk : v.begin_ + k < v.capacity_) :
    v.destroy (v.begin_ + k) = some { v with slots := v.slots.set k none } := by
  have hi : v.inbuf (v.begin_ + k) = true := (inbuf_iff v hl _).2 ⟨hb, by omega, hk⟩
  rw [destroy, if_pos hi, Nat.add_sub_cancel_left]

/-! ## The element-wise loops -/

theorem vec_erase_loop_spec : ∀ (fuel : Nat) (v : vector T) (k m : Nat),
    v.begin_ ≠ 0 → v.slots.length = v.capacity_ - v.begin_ → k ≤ m →
    v.begin_ + m < v.capacity_ →
    (∀ j, k < j → j ≤ m → ∃ x, v.slots[j]? = some (some x)) → m - k ≤ fuel →
    ∃ v1, erase_loop fuel v (v.begin_ + k) (v.begin_ + m) = some v1 ∧
      v1.begin_ = v.begin_ ∧ v1.end_ = v.end_ ∧ v1.capacity_ = v.capacity_ ∧
      v1.slots.length = v.slots.length ∧
      ∀ j, v1.slots[j]? = if k ≤ j ∧ j < m then v.slots[j + 1]? else v.slots[j]? := by
  intro fuel
  induction fuel with
  | zero =>
    intro v k m _ _ hkm _ _ hf
    have : k = m := by omega
    subst this
    refine ⟨v, ?_, rfl, rfl, rfl, rfl, fun j => ?_⟩
    · unfold erase_loop
      simp
    · rw [if_neg (by omega)]
  | succ f ih =>
    intro v k m hb hl hkm hm hs hf
    by_cases hk : k = m
    · subst hk
      refine ⟨v, ?_, rfl, rfl, rfl, rfl, fun j => ?_⟩
      · unfold erase_loop
        simp
      · rw [if_neg (by omega)]
    · obtain ⟨x, hx⟩ := hs (k + 1) (by omega) (by omega)
      have hload : v.load (v.begin_ + k + 1) = some x :=
        load_eq v hl hb (k + 1) (by omega) x hx
      have hstore := store_eq v hl hb k (by omega) x
      obtain ⟨v1, e1, b1, n1, c1, l1, g1⟩ := ih { v with slots := v.slots.set k (some x) }
        (k + 1) m hb (by simpa using hl) (by omega) hm
        (fun j h1 h2 => by
          obtain ⟨y, hy⟩ := hs j (by omega) h2
          refine ⟨y, ?_⟩
          show (v.slots.set k (some x))[j]? = _
          rw [List.getElem?_set_ne (by omega)]
          exact hy)
        (by omega)
      refine ⟨v1, ?_, b1, n1, c1, by simpa using l1, fun j => ?_⟩
      · unfold erase_loop
        rw [if_pos (by omega), hload]
        dsimp only
        rw [hstore]
        exact e1
      · rw [g1 j]
        show (if k + 1 ≤ j ∧ j < m then (v.slots.set k (some x))[j + 1]?
          else (v.slots.set k (some x))[j]?) = _
        by_cases hj : k = j
        · subst hj
          rw [if_neg (by omega), if_pos (by omega), List.getElem?_set_self (by omega), hx]
        · by_cases h2 : k + 1 ≤ j ∧ j < m
          · rw [if_pos h2, if_pos (by omega), List.getElem?_set_ne (by omega)]
          · rw [if_neg h2, if_neg (by omega), List.getElem?_set_ne hj]

theorem vec_insert_loop_spec : ∀ (fuel : Nat) (v : vector T) (k m : Nat),
    v.begin_ ≠ 0 → v.slots.length = v.capacity_ - v.begin_ → k ≤ m →
    v.begin_ + m < v.capacity_ →
    (∀ j, k ≤ j → j < m → ∃ x, v.slots[j]? = some (some x)) → m - k ≤ fuel →
    ∃ v1, insert_loop fuel v (v.begin_ + m) (v.begin_ + k) = some v1 ∧
      v1.begin_ = v.begin_ ∧ v1.end_ = v.end_ ∧ v1.capacity_ = v.capacity_ ∧
      v1.slots.length = v.slots.length ∧
      ∀ j, v1.slots[j]? = if k < j ∧ j ≤ m then v.slots[j - 1]? else v.slots[j]? := by
  intro fuel
  induction fuel with
  | zero =>
    intro v k m _ _ hkm _ _ hf
    have : k = m := by omega
    subst this
    refine ⟨v, ?_, rfl, rfl, rfl, rfl, fun j => ?_⟩
    · unfold insert_loop
      simp
    · rw [if_neg (by omega)]
  | succ f ih =>
    intro v k m hb hl hkm hm hs hf
    by_cases hk : k = m
    · subst hk
      refine ⟨v, ?_, rfl, rfl, rfl, rfl, fun j => ?_⟩
      · unfold insert_loop
        simp
      · rw [if_neg (by omega)]
    · obtain ⟨n, rfl⟩ : ∃ n, m = n + 1 := ⟨m - 1, by omega⟩
      obtain ⟨x, hx⟩ := hs n (by omega) (by omega)
      have hload : v.load (v.begin_ + (n + 1) - 1) = some x := by
        have := load_eq v hl hb n (by omega) x hx
        rwa [show v.begin_ + (n + 1) - 1 = v.begin_ + n by omega]
      have hstore := store_eq v hl hb (n + 1) (by omega) x
      obtain ⟨v1, e1, b1, n1, c1, l1, g1⟩ := ih { v with slots := v.slots.set (n + 1) (some x) }
        k n hb (by simpa using hl) (by omega) (by show v.begin_ + n < v.capacity_; omega)
        (fun j h1 h2 => by
          obtain ⟨y, hy⟩ := hs j h1 (by omega)
          refine ⟨y, ?_⟩
          show (v.slots.set (n + 1) (some x))[j]? = _
          rw [List.getElem?_set_ne (by omega)]
          exact hy)
        (by omega)
      refine ⟨v1, ?_, b1, n1, c1, by simpa using l1, fun j => ?_⟩
      · unfold insert_loop
        rw [if_pos (by omega), hload]
        dsimp only
        rw [hstore]
        dsimp only
        rw [show v.begin_ + (n + 1) - 1 = v.begin_ + n by omega]
        exact e1
      · rw [g1 j]
        show (if k < j ∧ j ≤ n then (v.slots.set (n + 1) (some x))[j - 1]?
          else (v.slots.set (n + 1) (some x))[j]?) = _
        by_cases hj : n + 1 = j
        · subst hj
          rw [if_neg (by omega), if_pos (by omega), List.getElem?_set_self (by omega)]
          simpa using hx.symm
        · rw [List.getElem?_set_ne hj]
          by_cases h2 : k < j ∧ j ≤ n
          · rw [if_pos h2, if_pos (by omega), List.getElem?_set_ne (by omega)]
          · rw [if_neg h2, if_neg (by omega)]

end vector
end taapp

namespace taapp
namespace vector
variable {T : Type}

/-! ## `memmove` -/

theorem memmove_spec (v : vector T) (hb : v.begin_ ≠ 0)
    (hl : v.slots.length = v.capacity_ - v.begin_) (d s n : Nat)
    (hd : v.begin_ + d + n ≤ v.capacity_) (hs : v.begin_ + s + n ≤ v.capacity_) :
    ∃ v1, v.memmove (v.begin_ + d) (v.begin_ + s) n = some v1 ∧
      v1.begin_ = v.begin_ ∧ v1.end_ = v.end_ ∧ v1.capacity_ = v.capacity_ ∧
      v1.slots.length = v.slots.length ∧
      ∀ j, v1.slots[j]? = if d ≤ j ∧ j < d + n then v.slots[s + (j - d)]? else v.slots[j]? := by
  by_cases hn : n = 0
  · subst hn
    refine ⟨v, by simp [memmove], rfl, rfl, rfl, rfl, fun j => ?_⟩
    rw [if_neg (by omega)]
  · have h1 := (inbuf_iff v hl (v.begin_ + d)).2 ⟨hb, by omega, by omega⟩
    have h2 := (inbuf_iff v hl (v.begin_ + s)).2 ⟨hb, by omega, by omega⟩
    have h3 := (inbuf_iff v hl (v.begin_ + d + n - 1)).2 ⟨hb, by omega, by omega⟩
    have h4 := (inbuf_iff v hl (v.begin_ + s + n - 1)).2 ⟨hb, by omega, by omega⟩
    refine ⟨{ v with slots := moved v.slots d s n }, ?_, rfl, rfl, rfl, length_moved _ _ _ _,
      fun j => ?_⟩
    · rw [memmove, if_neg hn, if_pos ⟨h1, h2, h3, h4⟩, Nat.add_sub_cancel_left,
        Nat.add_sub_cancel_left]
    · show (moved v.slots d s n)[j]? = _
      rw [getElem?_moved]
      by_cases hj : j < v.slots.length
      · rw [if_pos hj]
        by_cases hc : d ≤ j ∧ j < d + n
        · rw [if_pos hc, if_pos hc, some_getD _ _ (by omega)]
        · rw [if_neg hc, if_neg hc, some_getD _ _ hj]
      · rw [if_neg hj]
        have e1 : v.slots[j]? = none := List.getElem?_eq_none (by omega)
        by_cases hc : d ≤ j ∧ j < d + n
        · exfalso; omega
        · rw [if_neg hc, e1]

/-! ## `erase` -/

theorem Holds.begin_ne {v : vector T} {xs : List T} (h : Holds v xs) (hx : xs ≠ []) :
    v.begin_ ≠ 0 := by
  obtain ⟨h1, h2, h3, h4, h5, h6⟩ := h
  intro hb
  have := h6 hb
  have hl : xs.length = 0 := by omega
  exact hx (List.length_eq_zero.1 hl)

/-- Both paths of `erase` move the elements behind index `i` down by one. -/
theorem erase_shift (tr : vtraits) (v : vector T) (hb : v.begin_ ≠ 0)
    (hl : v.slots.length = v.capacity_ - v.begin_) (i m : Nat) (him : i ≤ m)
    (hm : v.begin_ + m < v.capacity_)
    (hs : ∀ j, i < j → j ≤ m → ∃ x, v.slots[j]? = some (some x)) :
    ∃ v1, (if tr.TRIVIAL_ASSIGN then v.memmove (v.begin_ + i) (v.begin_ + i + 1) (m - i)
        else erase_loop (m - i) v (v.begin_ + i) (v.begin_ + m)) = some v1 ∧
      v1.begin_ = v.begin_ ∧ v1.end_ = v.end_ ∧ v1.capacity_ = v.capacity_ ∧
      v1.slots.length = v.slots.length ∧
      ∀ j, v1.slots[j]? = if i ≤ j ∧ j < m then v.slots[j + 1]? else v.slots[j]? := by
  cases tr.TRIVIAL_ASSIGN
  · simp only [Bool.false_eq_true, ↓reduceIte]
    exact vec_erase_loop_spec (m - i) v i m hb hl him hm hs (Nat.le_refl _)
  · simp only [↓reduceIte]
    obtain ⟨v1, e1, b1, n1, c1, l1, g1⟩ := memmove_spec v hb hl i (i + 1) (m - i) (by omega)
      (by omega)
    refine ⟨v1, e1, b1, n1, c1, l1, fun j => ?_⟩
    rw [g1 j]
    by_cases hc : i ≤ j ∧ j < m
    · rw [if_pos hc, if_pos (by omega)]
      congr 1
      omega
    · rw [if_neg hc, if_neg (by omega)]

theorem vec_erase_spec (tr : vtraits) (v : vector T) (xs : List T) (h : Holds v xs) (i : Nat)
    (hi : i < xs.length) :
    ∃ v1, erase tr v (v.begin_ + i) = some (v1, v.begin_ + i) ∧
      Holds v1 (xs.take i ++ xs.drop (i + 1)) ∧ v1.begin_ = v.begin_ ∧
      v1.capacity_ = v.capacity_ ∧ v1.end_ + 1 = v.end_ := by
  have hb := h.begin_ne (by intro e; rw [e] at hi; simp at hi)
  obtain ⟨h1, h2, h3, h4, h5, h6⟩ := h
  obtain ⟨m, hm⟩ : ∃ m, v.end_ = v.begin_ + m + 1 := ⟨xs.length - 1, by omega⟩
  have hxl : xs.length = m + 1 := by omega
  have hs : ∀ j, i < j → j ≤ m → ∃ x, v.slots[j]? = some (some x) := by
    intro j _ hj
    have hj2 : j < xs.length := by omega
    exact ⟨xs[j], h5 j xs[j] (List.getElem?_eq_getElem hj2)⟩
  obtain ⟨v1, e1, b1, n1, c1, l1, g1⟩ := erase_shift tr { v with end_ := v.begin_ + m } hb h3
    i m (by omega) (by show v.begin_ + m < v.capacity_; omega) hs
  simp only at b1 n1 c1 l1 g1
  have hd := destroy_eq v1 (by rw [l1, b1, c1]; exact h3) (by rw [b1]; exact hb) m
    (by rw [b1, c1]; omega)
  have e4 : v1.end_ = v1.begin_ + m := by rw [n1, b1]
  rw [← e4] at hd
  refine ⟨{ v1 with slots := v1.slots.set m none }, ?_, ?_, b1, c1, ?_⟩
  · unfold erase
    rw [if_pos ⟨by omega, by omega⟩]
    dsimp only
    have e2 : v.end_ - 1 = v.begin_ + m := by omega
    have e3 : v.begin_ + m - (v.begin_ + i) = m - i := by omega
    rw [e2, e3]
    rw [e1]
    dsimp only
    rw [hd]
  · refine ⟨?_, ?_, ?_, ?_, ?_, ?_⟩
    · show v1.begin_ ≤ v1.end_
      rw [b1, n1]
      omega
    · show v1.end_ ≤ v1.capacity_
      rw [n1, c1]
      omega
    · show (v1.slots.set m none).length = v1.capacity_ - v1.begin_
      rw [List.length_set, l1, b1, c1]
      exact h3
    · show _ = v1.end_ - v1.begin_
      rw [n1, b1]
      simp only [List.length_append, List.length_take, List.length_drop]
      omega
    · intro j x hx
      rw [getElem?_take_drop_succ _ _ _ (by omega)] at hx
      have hjm : j < m := by
        by_contra hc
        by_cases hji : j < i
        · omega
        · rw [if_neg hji, List.getElem?_eq_none (by omega)] at hx
          cases hx
      show (v1.slots.set m none)[j]? = _
      rw [List.getElem?_set_ne (by omega), g1 j]
      by_cases hji : j < i
      · rw [if_pos hji] at hx
        rw [if_neg (by omega)]
        exact h5 j x hx
      · rw [if_neg hji] at hx
        rw [if_pos (by omega)]
        exact h5 (j + 1) x hx
    · intro e
      exact absurd (b1 ▸ e) hb
  · show v1.end_ + 1 = v.end_
    rw [n1, hm]

end vector
end taapp

namespace taapp
namespace vector
variable {T : Type}

/-! ## Ranges: construct, destroy, copy -/

theorem destroy_range_nop (tr : vtraits) (fuel : Nat) (v : vector T) (b e : Nat) (h : e ≤ b) :
    destroy_range tr fuel v b e = some v := by
  unfold destroy_range
  cases tr.TRIVIAL_DESTRUCTOR
  · simp only [Bool.false_eq_true, ↓reduceIte]
    rw [if_neg (by omega)]
  · simp only [↓reduceIte]

theorem destroy_range_total (tr : vtraits) : ∀ (fuel : Nat) (v : vector T) (k m : Nat),
    v.begin_ ≠ 0 → v.slots.length = v.capacity_ - v.begin_ → v.begin_ + m ≤ v.capacity_ →
    m - k ≤ fuel → ∃ v1, destroy_range tr fuel v (v.begin_ + k) (v.begin_ + m) = some v1 := by
  intro fuel
  induction fuel with
  | zero =>
    intro v k m _ _ _ hf
    exact ⟨v, destroy_range_nop tr 0 v _ _ (by omega)⟩
  | succ f ih =>
    intro v k m hb hl hm hf
    by_cases hk : m ≤ k
    · exact ⟨v, destroy_range_nop tr _ v _ _ (by omega)⟩
    · unfold destroy_range
      cases tr.TRIVIAL_DESTRUCTOR
      · simp only [Bool.false_eq_true, ↓reduceIte]
        rw [if_pos (by omega), destroy_eq v hl hb k (by omega)]
        dsimp only
        exact ih { v with slots := v.slots.set k none } (k + 1) m hb (by simpa using hl) hm
          (by omega)
      · exact ⟨v, by simp only [↓reduceIte]⟩

theorem construct_range_spec (tr : vtraits) (dflt : T) : ∀ (fuel : Nat) (v : vector T) (k m : Nat),
    v.begin_ ≠ 0 → v.slots.length = v.capacity_ - v.begin_ → v.begin_ + m ≤ v.capacity_ →
    m - k ≤ fuel →
    ∃ v1, construct_range tr dflt fuel v (v.begin_ + k) (v.begin_ + m) = some v1 ∧
      v1.begin_ = v.begin_ ∧ v1.end_ = v.end_ ∧ v1.capacity_ = v.capacity_ ∧
      v1.slots.length = v.slots.length ∧ ∀ j, j < k → v1.slots[j]? = v.slots[j]? := by
  intro fuel
  induction fuel with
  | zero =>
    intro v k m _ _ _ hf
    refine ⟨v, ?_, rfl, rfl, rfl, rfl, fun _ _ => rfl⟩
    unfold construct_range
    cases tr.TRIVIAL_CONSTRUCTOR
    · simp only [Bool.false_eq_true, ↓reduceIte]
      rw [if_neg (by omega)]
    · simp only [↓reduceIte]
  | succ f ih =>
    intro v k m hb hl hm hf
    unfold construct_range
    cases tr.TRIVIAL_CONSTRUCTOR
    · simp only [Bool.false_eq_true, ↓reduceIte]
      by_cases hk : k < m
      · rw [if_pos (by omega), store_eq v hl hb k (by omega)]
        dsimp only
        obtain ⟨v1, e1, b1, n1, c1, l1, g1⟩ := ih { v with slots := v.slots.set k (some dflt) }
          (k + 1) m hb (by simpa using hl) hm (by omega)
        refine ⟨v1, e1, b1, n1, c1, by simpa using l1, fun j hj => ?_⟩
        rw [g1 j (by omega)]
        show (v.slots.set k (some dflt))[j]? = _
        rw [List.getElem?_set_ne (by omega)]
      · rw [if_neg (by omega)]
        exact ⟨v, rfl, rfl, rfl, rfl, rfl, fun _ _ => rfl⟩
    · simp only [↓reduceIte]
      exact ⟨v, rfl, rfl, rfl, rfl, rfl, fun _ _ => rfl⟩

theorem copyconstruct_loop_spec (v : vector T) (hb : v.begin_ ≠ 0)
    (hl : v.slots.length = v.capacity_ - v.begin_) (sz : Nat)
    (hsz : v.begin_ + sz ≤ v.capacity_)
    (hs : ∀ j, j < sz → ∃ x, v.slots[j]? = some (some x)) :
    ∀ (fuel : Nat) (buf : List (Option T)) (i : Nat), sz ≤ buf.length → sz - i ≤ fuel →
    ∃ buf1, copyconstruct_loop v fuel buf i sz (v.begin_ + i) = some buf1 ∧
      buf1.length = buf.length ∧
      ∀ j, buf1[j]? = if i ≤ j ∧ j < sz then v.slots[j]? else buf[j]? := by
  intro fuel
  induction fuel with
  | zero =>
    intro buf i _ hf
    refine ⟨buf, ?_, rfl, fun j => ?_⟩
    · unfold copyconstruct_loop
      rw [if_neg (by omega)]
    · rw [if_neg (by omega)]
  | succ f ih =>
    intro buf i hbl hf
    by_cases hi : i < sz
    · obtain ⟨x, hx⟩ := hs i hi
      obtain ⟨buf1, e1, l1, g1⟩ := ih (buf.set i (some x)) (i + 1) (by simpa using hbl)
        (by omega)
      refine ⟨buf1, ?_, by simpa using l1, fun j => ?_⟩
      · unfold copyconstruct_loop
        rw [if_pos hi, load_eq v hl hb i (by omega) x hx]
        dsimp only
        rw [if_pos (by omega)]
        exact e1
      · rw [g1 j]
        by_cases hj : i = j
        · subst hj
          rw [if_neg (by omega), if_pos (by omega), List.getElem?_set_self (by omega), hx]
        · by_cases h2 : i + 1 ≤ j ∧ j < sz
          · rw [if_pos h2, if_pos (by omega)]
          · rw [if_neg h2, if_neg (by omega), List.getElem?_set_ne hj]
    · refine ⟨buf, ?_, rfl, fun j => ?_⟩
      · unfold copyconstruct_loop
        rw [if_neg hi]
      · rw [if_neg (by omega)]

theorem getElem?_replicate_none (n j : Nat) :
    (List.replicate n (none : Option T))[j]? = if j < n then some none else none := by
  by_cases hj : j < n
  · rw [if_pos hj, List.getElem?_eq_getElem (by simpa using hj)]
    simp
  · rw [if_neg hj, List.getElem?_eq_none (by simpa using hj)]

theorem copyconstruct_range_spec (tr : vtraits) (v : vector T) (hb : v.begin_ ≠ 0)
    (hl : v.slots.length = v.capacity_ - v.begin_) (sz : Nat)
    (hsz : v.begin_ + sz ≤ v.capacity_)
    (hs : ∀ j, j < sz → ∃ x, v.slots[j]? = some (some x))
    (buf : List (Option T)) (hbl : sz ≤ buf.length) :
    ∃ buf1, copyconstruct_range tr v buf sz = some buf1 ∧ buf1.length = buf.length ∧
      ∀ j, j < sz → buf1[j]? = v.slots[j]? := by
  unfold copyconstruct_range
  cases tr.TRIVIAL_COPY
  · simp only [Bool.false_eq_true, ↓reduceIte]
    obtain ⟨buf1, e1, l1, g1⟩ := copyconstruct_loop_spec v hb hl sz hsz hs sz buf 0 hbl
      (by omega)
    refine ⟨buf1, e1, l1, fun j hj => ?_⟩
    rw [g1 j, if_pos ⟨by omega, hj⟩]
  · simp only [↓reduceIte]
    by_cases h0 : sz = 0
    · subst h0
      exact ⟨buf, by simp, rfl, fun j hj => by omega⟩
    · have h1 := (inbuf_iff v hl v.begin_).2 ⟨hb, by omega, by omega⟩
      have h2 := (inbuf_iff v hl (v.begin_ + sz - 1)).2 ⟨hb, by omega, by omega⟩
      rw [if_neg h0, if_pos ⟨hbl, h1, h2⟩]
      refine ⟨_, rfl, by simp, fun j hj => ?_⟩
      rw [List.getElem?_map, List.getElem?_range (by omega)]
      simp only [Option.map_some', hj, ↓reduceIte]
      exact some_getD _ _ (by omega)

/-! ## `reallocate` and `resize` -/

theorem reallocate_spec (tr : vtraits) (fresh : Nat) (v : vector T) (xs : List T)
    (h : Holds v xs) (oc nc : Nat) (hn : xs.length ≤ nc) :
    ∃ v1, reallocate tr fresh v oc nc = some v1 ∧ v1.begin_ = fresh ∧
      v1.end_ = fresh + xs.length ∧ v1.capacity_ = fresh + nc ∧ v1.slots.length = nc ∧
      ∀ (i : Nat) (x : T), xs[i]? = some x → v1.slots[i]? = some (some x) := by
  obtain ⟨h1, h2, h3, h4, h5, h6⟩ := h
  have hsize : v.size = xs.length := by rw [size]; omega
  have hs : ∀ j, j < xs.length → ∃ x, v.slots[j]? = some (some x) := fun j hj =>
    ⟨xs[j], h5 j xs[j] (List.getElem?_eq_getElem hj)⟩
  have hlt : ∀ (i : Nat) (x : T), xs[i]? = some x → i < xs.length := by
    intro i x hx
    by_contra hc
    rw [List.getElem?_eq_none (by omega)] at hx
    cases hx
  have key : ∀ buf : List (Option T), buf.length = nc →
      (∀ j, j < xs.length → buf[j]? = v.slots[j]?) →
      ∃ v1, (some ⟨fresh, fresh + v.size, fresh + nc, buf⟩ : Option (vector T)) = some v1 ∧
        v1.begin_ = fresh ∧
        v1.end_ = fresh + xs.length ∧ v1.capacity_ = fresh + nc ∧ v1.slots.length = nc ∧
        ∀ (i : Nat) (x : T), xs[i]? = some x → v1.slots[i]? = some (some x) := by
    intro buf hbl hg
    refine ⟨_, rfl, rfl, by rw [hsize], rfl, hbl, fun i x hx => ?_⟩
    show buf[i]? = _
    rw [hg i (hlt i x hx)]
    exact h5 i x hx
  unfold reallocate
  dsimp only
  by_cases hA : (tr.TRIVIAL_COPY && tr.TRIVIAL_ASSIGN) = true
  · rw [if_pos hA]
    dsimp only
    refine key _ (by simp) (fun j hj => ?_)
    rw [List.getElem?_map, List.getElem?_range (by omega)]
    simp only [Option.map_some']
    exact some_getD _ _ (by omega)
  · rw [if_neg hA]
    by_cases hb : v.begin_ = 0
    · rw [if_neg (by simpa using hb)]
      dsimp only
      have hx0 : xs.length = 0 := by
        have := h6 hb
        omega
      exact key _ (by simp) (fun j hj => by omega)
    · rw [if_pos hb]
      obtain ⟨buf1, e1, l1, g1⟩ := copyconstruct_range_spec tr v hb h3 xs.length (by omega) hs
        (List.replicate nc none) (by simpa using hn)
      obtain ⟨v2, e2⟩ := destroy_range_total tr xs.length v 0 xs.length hb h3 (by omega)
        (by omega)
      rw [hsize, e1]
      dsimp only
      have e3 : v.end_ = v.begin_ + xs.length := by omega
      rw [Nat.add_zero] at e2
      rw [e3, e2]
      dsimp only
      have := key buf1 (by simpa using l1) g1
      rwa [hsize] at this

theorem increment_capacity_gt (c : Nat) : c < increment_capacity c := by
  unfold increment_capacity
  split_ifs <;> omega

theorem resize_grow_spec (tr : vtraits) (dflt : T) (fresh : Nat) (hf : fresh ≠ 0)
    (v : vector T) (xs : List T) (h : Holds v xs) :
    ∃ v1, resize tr dflt fresh v (v.size + 1) = some v1 ∧ v1.begin_ ≠ 0 ∧
      v1.end_ = v1.begin_ + xs.length + 1 ∧ v1.end_ ≤ v1.capacity_ ∧
      v1.slots.length = v1.capacity_ - v1.begin_ ∧
      (∀ (i : Nat) (x : T), xs[i]? = some x → v1.slots[i]? = some (some x)) ∧
      (v.size < v.capacity → v1.begin_ = v.begin_ ∧ v1.capacity_ = v.capacity_) ∧
      (v.capacity ≤ v.size → v1.begin_ = fresh) := by
  have hsize : v.size = xs.length := by
    obtain ⟨h1, h2, h3, h4, h5, h6⟩ := h
    rw [size]; omega
  -- the state after the reallocation, if any
  have key : ∃ v0, (if v.size + 1 > v.capacity then
        reallocate tr fresh v v.capacity
          (if increment_capacity v.capacity < v.size + 1 then v.size + 1
            else increment_capacity v.capacity)
      else some v) = some v0 ∧ v0.begin_ ≠ 0 ∧ v0.end_ = v0.begin_ + xs.length ∧
      v0.begin_ + xs.length + 1 ≤ v0.capacity_ ∧
      v0.slots.length = v0.capacity_ - v0.begin_ ∧
      (∀ (i : Nat) (x : T), xs[i]? = some x → v0.slots[i]? = some (some x)) ∧
      (v.size < v.capacity → v0.begin_ = v.begin_ ∧ v0.capacity_ = v.capacity_) ∧
      (v.capacity ≤ v.size → v0.begin_ = fresh) := by
    by_cases hc : v.size + 1 > v.capacity
    · rw [if_pos hc]
      have hnc : xs.length + 1 ≤ (if increment_capacity v.capacity < v.size + 1 then v.size + 1
            else increment_capacity v.capacity) := by
        split_ifs <;> omega
      obtain ⟨v0, e0, b0, n0, c0, l0, g0⟩ := reallocate_spec tr fresh v xs h v.capacity _
        (Nat.le_of_succ_le hnc)
      refine ⟨v0, e0, by rw [b0]; exact hf, by rw [n0, b0], by rw [b0, c0]; omega,
        by rw [l0, c0, b0]; omega, g0, fun hlt => by omega, fun _ => b0⟩
    · rw [if_neg hc]
      obtain ⟨h1, h2, h3, h4, h5, h6⟩ := h
      have hb : v.begin_ ≠ 0 := by
        intro hb
        have := h6 hb
        simp only [size, capacity] at hc
        omega
      simp only [size, capacity] at hc hsize
      refine ⟨v, rfl, hb, by omega, by omega, h3, h5, fun _ => ⟨rfl, rfl⟩, fun hle => ?_⟩
      simp only [size, capacity] at hle
      omega
  obtain ⟨v0, e0, b0, n0, c0, l0, g0, s0, f0⟩ := key
  obtain ⟨v1, e1, b1, n1, c1, l1, g1⟩ := construct_range_spec tr dflt (v.size + 1) v0
    xs.length (xs.length + 1) b0 l0 (by omega) (by omega)
  have e2 := destroy_range_nop tr v0.size v1 (v0.begin_ + (v.size + 1)) v1.end_
    (by rw [n1, n0, hsize]; omega)
  refine ⟨{ v1 with end_ := v0.begin_ + (v.size + 1) }, ?_, ?_, ?_, ?_, ?_, ?_, ?_, ?_⟩
  · unfold resize
    dsimp only
    rw [e0]
    dsimp only
    rw [n0, show v0.begin_ + (v.size + 1) = v0.begin_ + (xs.length + 1) by rw [hsize]] at *
    rw [e1]
    dsimp only
    rw [e2]
  · show v1.begin_ ≠ 0
    rw [b1]; exact b0
  · show v0.begin_ + (v.size + 1) = v1.begin_ + xs.length + 1
    rw [b1, hsize]; omega
  · show v0.begin_ + (v.size + 1) ≤ v1.capacity_
    rw [c1, hsize]; omega
  · show v1.slots.length = v1.capacity_ - v1.begin_
    rw [l1, c1, b1]; exact l0
  · intro i x hx
    have hi : i < xs.length := by
      by_contra hc
      rw [List.getElem?_eq_none (by omega)] at hx
      cases hx
    show v1.slots[i]? = _
    rw [g1 i hi]
    exact g0 i x hx
  · intro hlt
    show v1.begin_ = v.begin_ ∧ v1.capacity_ = v.capacity_
    rw [b1, c1]
    exact s0 hlt
  · intro hle
    show v1.begin_ = fresh
    rw [b1]
    exact f0 hle

end vector
end taapp

namespace taapp
namespace vector
variable {T : Type}

/-! ## `insert` -/

theorem Holds.load_at {v : vector T} {xs : List T} (h : Holds v xs) (i : Nat) (x : T)
    (hx : xs[i]? = some x) : v.load (v.begin_ + i) = some x ∧ v.at_ i = some x := by
  have hi : i < xs.length := by
    by_contra hc
    rw [List.getElem?_eq_none (by omega)] at hx
    cases hx
  have hb := h.begin_ne (by intro e; rw [e] at hi; simp at hi)
  obtain ⟨h1, h2, h3, h4, h5, h6⟩ := h
  have e := vector.load_eq v h3 hb i (by omega) x (h5 i x hx)
  refine ⟨e, ?_⟩
  rw [at_, if_pos (by omega), e]

/-- Both paths of `insert` move the elements from index `i` on up by one. -/
theorem insert_shift (tr : vtraits) (v : vector T) (hb : v.begin_ ≠ 0)
    (hl : v.slots.length = v.capacity_ - v.begin_) (i n : Nat) (hin : i ≤ n)
    (hn : v.begin_ + n < v.capacity_)
    (hs : ∀ j, i ≤ j → j < n → ∃ x, v.slots[j]? = some (some x)) (fuel : Nat)
    (hf : n - i ≤ fuel) :
    ∃ v1, (if tr.TRIVIAL_ASSIGN then v.memmove (v.begin_ + i + 1) (v.begin_ + i) (n - i)
        else insert_loop fuel v (v.begin_ + n) (v.begin_ + i)) = some v1 ∧
      v1.begin_ = v.begin_ ∧ v1.end_ = v.end_ ∧ v1.capacity_ = v.capacity_ ∧
      v1.slots.length = v.slots.length ∧
      ∀ j, v1.slots[j]? = if i < j ∧ j ≤ n then v.slots[j - 1]? else v.slots[j]? := by
  cases tr.TRIVIAL_ASSIGN
  · simp only [Bool.false_eq_true, ↓reduceIte]
    exact vec_insert_loop_spec fuel v i n hb hl hin hn hs hf
  · simp only [↓reduceIte]
    obtain ⟨v1, e1, b1, n1, c1, l1, g1⟩ := memmove_spec v hb hl (i + 1) i (n - i) (by omega)
      (by omega)
    refine ⟨v1, e1, b1, n1, c1, l1, fun j => ?_⟩
    rw [g1 j]
    by_cases hc : i < j ∧ j ≤ n
    · rw [if_pos hc, if_pos (by omega)]
      congr 1
      omega
    · rw [if_neg hc, if_neg (by omega)]

/-- The state `insert` has reached when it reads `t`: `resize` is done and
the elements from index `i` on have been moved up by one; then `t` is read and
stored at index `i`. -/
theorem vec_insert_prep (tr : vtraits) (dflt : T) (fresh : Nat) (hf : fresh ≠ 0) (v : vector T)
    (xs : List T) (h : Holds v xs) (i : Nat) (hi : i ≤ xs.length) (t : cref T) :
    ∃ v2 : vector T, (insert tr dflt fresh v (v.begin_ + i) t =
        match v2.deref t with
        | none => none
        | some x => some ({ v2 with slots := v2.slots.set i (some x) }, v2.begin_ + i)) ∧
      v2.begin_ ≠ 0 ∧ v2.end_ = v2.begin_ + xs.length + 1 ∧ v2.end_ ≤ v2.capacity_ ∧
      v2.slots.length = v2.capacity_ - v2.begin_ ∧
      (∀ (j : Nat) (x : T), j ≤ i → xs[j]? = some x → v2.slots[j]? = some (some x)) ∧
      (∀ (j : Nat) (x : T), i ≤ j → xs[j]? = some x → v2.slots[j + 1]? = some (some x)) ∧
      (v.size < v.capacity → v2.begin_ = v.begin_ ∧ v2.capacity_ = v.capacity_) ∧
      (v.capacity ≤ v.size → v2.begin_ = fresh) := by
  obtain ⟨v1, e1, b1, n1, c1, l1, g1, s1, f1⟩ := resize_grow_spec tr dflt fresh hf v xs h
  obtain ⟨h1, h2, h3, h4, h5, h6⟩ := h
  have hs : ∀ j, i ≤ j → j < xs.length → ∃ x, v1.slots[j]? = some (some x) := fun j _ hj =>
    ⟨xs[j], g1 j xs[j] (List.getElem?_eq_getElem hj)⟩
  obtain ⟨v2, e2, b2, n2, c2, l2, g2⟩ := insert_shift tr v1 b1 l1 i xs.length hi (by omega) hs
    v1.size (by rw [size, n1]; omega)
  have hlt : ∀ (j : Nat) (x : T), xs[j]? = some x → j < xs.length := by
    intro j x hx
    by_contra hc
    rw [List.getElem?_eq_none (by omega)] at hx
    cases hx
  refine ⟨v2, ?_, by rw [b2]; exact b1, by rw [n2, b2]; exact n1, by rw [n2, c2]; exact c1,
    by rw [l2, c2, b2]; exact l1, ?_, ?_, by rw [b2, c2]; exact s1, by rw [b2]; exact f1⟩
  · unfold insert
    rw [if_pos ⟨by omega, by omega⟩]
    dsimp only
    rw [Nat.add_sub_cancel_left, e1]
    dsimp only
    have e3 : v1.end_ - (v1.begin_ + i + 1) = xs.length - i := by rw [n1]; omega
    have e4 : v1.end_ - 1 = v1.begin_ + xs.length := by rw [n1]; omega
    rw [e3, e4, e2]
    dsimp only
    cases v2.deref t with
    | none => rfl
    | some x =>
      dsimp only
      rw [← b2, store_eq v2 (by rw [l2, c2, b2]; exact l1) (by rw [b2]; exact b1) i
        (by rw [b2, c2]; omega) x]
  · intro j x hj hx
    rw [g2 j, if_neg (by omega)]
    exact g1 j x hx
  · intro j x hj hx
    have := hlt j x hx
    rw [g2 (j + 1), if_pos (by omega), Nat.add_sub_cancel]
    exact g1 j x hx

/-- The result of `insert` holds the sequence with the value stored at index
`i`. -/
theorem vec_insert_holds {v2 : vector T} {xs : List T} {i : Nat} (hi : i ≤ xs.length)
    (b2 : v2.begin_ ≠ 0) (n2 : v2.end_ = v2.begin_ + xs.length + 1)
    (c2 : v2.end_ ≤ v2.capacity_) (l2 : v2.slots.length = v2.capacity_ - v2.begin_)
    (ga : ∀ (j : Nat) (x : T), j ≤ i → xs[j]? = some x → v2.slots[j]? = some (some x))
    (gb : ∀ (j : Nat) (x : T), i ≤ j → xs[j]? = some x → v2.slots[j + 1]? = some (some x))
    (t : T) :
    Holds { v2 with slots := v2.slots.set i (some t) } (xs.take i ++ t :: xs.drop i) := by
  refine ⟨?_, ?_, ?_, ?_, ?_, ?_⟩
  · show v2.begin_ ≤ v2.end_
    omega
  · exact c2
  · show (v2.slots.set i (some t)).length = v2.capacity_ - v2.begin_
    rw [List.length_set, l2]
  · show _ = v2.end_ - v2.begin_
    simp only [List.length_append, List.length_take, List.length_cons, List.length_drop]
    omega
  · intro j x hx
    show (v2.slots.set i (some t))[j]? = _
    rw [getElem?_take_cons_drop _ _ _ _ hi] at hx
    by_cases hji : j < i
    · rw [if_pos hji] at hx
      rw [List.getElem?_set_ne (by omega)]
      exact ga j x (by omega) hx
    · rw [if_neg hji] at hx
      by_cases hje : j = i
      · subst hje
        rw [if_pos rfl] at hx
        cases hx
        rw [List.getElem?_set_self (by omega)]
      · rw [if_neg hje] at hx
        rw [List.getElem?_set_ne (by omega)]
        have := gb (j - 1) x (by omega) hx
        rwa [Nat.sub_add_cancel (by omega)] at this
  · intro e
    exact absurd e b2

/-- `insert` of an object that lives outside the vector. -/
theorem vec_insert_spec (tr : vtraits) (dflt : T) (fresh : Nat) (hf : fresh ≠ 0) (v : vector T)
    (xs : List T) (h : Holds v xs) (i : Nat) (hi : i ≤ xs.length) (t : T) :
    ∃ v1, insert tr dflt fresh v (v.begin_ + i) (cref.obj t) = some (v1, v1.begin_ + i) ∧
      Holds v1 (xs.take i ++ t :: xs.drop i) ∧
      (v.size < v.capacity → v1.begin_ = v.begin_ ∧ v1.capacity_ = v.capacity_) ∧
      (v.capacity ≤ v.size → v1.begin_ = fresh) := by
  obtain ⟨v2, e, b2, n2, c2, l2, ga, gb, s2, f2⟩ :=
    vec_insert_prep tr dflt fresh hf v xs h i hi (cref.obj t)
  exact ⟨{ v2 with slots := v2.slots.set i (some t) }, e,
    vec_insert_holds hi b2 n2 c2 l2 ga gb t, s2, f2⟩

/-- `insert` of a reference to the element at index `j` of the vector itself,
with spare capacity: the value stored is the one found at index `j` after the
elements have been moved, which is the old element `j` only if `j ≤ i`. -/
theorem vec_insert_alias (tr : vtraits) (dflt : T) (fresh : Nat) (hf : fresh ≠ 0) (v : vector T)
    (xs : List T) (h : Holds v xs) (i : Nat) (hi : i ≤ xs.length)
    (hc : v.size < v.capacity) (j : Nat) (z : T)
    (hz : xs[if j ≤ i then j else j - 1]? = some z) (hj : j < xs.length) :
    ∃ v1, insert tr dflt fresh v (v.begin_ + i) (cref.elem (v.begin_ + j)) =
        some (v1, v1.begin_ + i) ∧
      Holds v1 (xs.take i ++ z :: xs.drop i) ∧ v1.begin_ = v.begin_ := by
  obtain ⟨v2, e, b2, n2, c2, l2, ga, gb, s2, f2⟩ :=
    vec_insert_prep tr dflt fresh hf v xs h i hi (cref.elem (v.begin_ + j))
  have hs : v2.slots[j]? = some (some z) := by
    by_cases hji : j ≤ i
    · rw [if_pos hji] at hz
      exact ga j z hji hz
    · rw [if_neg hji] at hz
      have := gb (j - 1) z (by omega) hz
      rwa [Nat.sub_add_cancel (by omega)] at this
  have hd : v2.deref (cref.elem (v.begin_ + j)) = some z := by
    show v2.load (v.begin_ + j) = some z
    rw [← (s2 hc).1]
    exact load_eq v2 l2 b2 j (by omega) z hs
  rw [hd] at e
  exact ⟨{ v2 with slots := v2.slots.set i (some z) }, e,
    vec_insert_holds hi b2 n2 c2 l2 ga gb z, (s2 hc).1⟩

/-- `insert` of a reference into the vector's own buffer when the buffer is
full: `resize` moves the elements to the block at `fresh` and releases the old
block, so the reference read afterwards dangles. -/
theorem vec_insert_dangling (tr : vtraits) (dflt : T) (fresh : Nat) (hf : fresh ≠ 0)
    (v : vector T) (xs : List T) (h : Holds v xs) (i : Nat) (hi : i ≤ xs.length)
    (hc : v.capacity ≤ v.size) (p : Nat) (hp : p < fresh) :
    insert tr dflt fresh v (v.begin_ + i) (cref.elem p) = none := by
  obtain ⟨v2, e, b2, n2, c2, l2, ga, gb, s2, f2⟩ :=
    vec_insert_prep tr dflt fresh hf v xs h i hi (cref.elem p)
  have hd : v2.deref (cref.elem p) = none := by
    show v2.load p = none
    have hn : v2.inbuf p = false := by
      cases hq : v2.inbuf p with
      | false => rfl
      | true =>
        have := (inbuf_iff v2 l2 p).1 hq
        rw [f2 hc] at this
        omega
    rw [load, hn]
    rfl
  rw [hd] at e
  exact e

theorem Holds_empty : Holds (empty_vector : vector T) [] :=
  ⟨Nat.le_refl _, Nat.le_refl _, rfl, rfl, fun i x hx => by simp at hx, fun _ => rfl⟩

end vector
end taapp

namespace taapp
namespace vector
variable {T : Type}

/-! ## `push_back`, `pop_back` and references into the buffer -/

theorem getD_none_of_getElem? {l : List (Option T)} {i : Nat}
    (h : l[i]? = none ∨ l[i]? = some none) : l.getD i none = none := by
  rw [List.getD_eq_getElem?_getD]
  rcases h with h | h <;> rw [h] <;> rfl

theorem getElem?_of_getD_some {l : List (Option T)} {i : Nat} {x : T}
    (h : l.getD i none = some x) : l[i]? = some (some x) := by
  rw [List.getD_eq_getElem?_getD] at h
  cases hq : l[i]? with
  | none => rw [hq] at h; cases h
  | some y =>
    rw [hq] at h
    exact congrArg some h

theorem HoldsOnly_empty : HoldsOnly (empty_vector : vector T) [] :=
  ⟨Holds_empty, fun i _ => by simp [empty_vector]⟩

theorem Holds.size_eq {v : vector T} {xs : List T} (h : Holds v xs) : v.size = xs.length := by
  obtain ⟨h1, h2, h3, h4, h5, h6⟩ := h
  rw [size]; omega

theorem Holds.contents_eq {v : vector T} {xs : List T} (h : Holds v xs) : contents v = xs := by
  have hs := h.size_eq
  obtain ⟨h1, h2, h3, h4, h5, h6⟩ := h
  have e : v.slots.take v.size = xs.map some := by
    apply List.ext_getElem?
    intro i
    rw [List.getElem?_map, List.getElem?_take]
    by_cases hi : i < xs.length
    · rw [if_pos (by omega), h5 i xs[i] (List.getElem?_eq_getElem hi),
        List.getElem?_eq_getElem hi]
      rfl
    · rw [if_neg (by omega), List.getElem?_eq_none (by omega)]
      rfl
  rw [contents, e, List.filterMap_map]
  have : (id ∘ some : T → Option T) = some := rfl
  rw [this, List.filterMap_some]

/-- A reference that can be read refers to an element of the sequence. -/
theorem HoldsOnly.load_elem {v : vector T} {xs : List T} (h : HoldsOnly v xs) {p : Nat} {x : T}
    (hx : v.load p = some x) : ∃ j, p = v.begin_ + j ∧ xs[j]? = some x := by
  obtain ⟨⟨h1, h2, h3, h4, h5, h6⟩, hc⟩ := h
  unfold load at hx
  by_cases hi : v.inbuf p = true
  · rw [if_pos hi] at hx
    have hb := (inbuf_iff v h3 p).1 hi
    refine ⟨p - v.begin_, by omega, ?_⟩
    by_cases hj : p - v.begin_ < xs.length
    · have := h5 _ _ (List.getElem?_eq_getElem hj)
      have e2 := getElem?_of_getD_some hx
      rw [e2] at this
      rw [List.getElem?_eq_getElem hj]
      simp only [Option.some.injEq] at this
      rw [this]
    · rw [hc _ (by omega)] at hx
      cases hx
  · rw [if_neg hi] at hx
    cases hx

/-- Assignment to the element at index `i`. -/
theorem HoldsOnly.store_at {v : vector T} {xs : List T} (h : HoldsOnly v xs) (i : Nat)
    (hi : i < xs.length) (x : T) :
    v.store (v.begin_ + i) x = some { v with slots := v.slots.set i (some x) } ∧
      HoldsOnly { v with slots := v.slots.set i (some x) } (xs.set i x) := by
  have hb := h.1.begin_ne (by intro e; rw [e] at hi; simp at hi)
  obtain ⟨⟨h1, h2, h3, h4, h5, h6⟩, hc⟩ := h
  refine ⟨store_eq v h3 hb i (by omega) x, ⟨h1, h2, ?_, ?_, ?_, h6⟩, ?_⟩
  · show (v.slots.set i (some x)).length = _
    rw [List.length_set]; exact h3
  · show (xs.set i x).length = _
    rw [List.length_set]; exact h4
  · intro j y hy
    show (v.slots.set i (some x))[j]? = _
    rw [List.getElem?_set] at hy ⊢
    by_cases hij : i = j
    · rw [if_pos hij] at hy ⊢
      rw [if_pos hi] at hy
      rw [if_pos (by omega)]
      rw [Option.some.inj hy]
    · rw [if_neg hij] at hy ⊢
      exact h5 j y hy
  · intro j hj
    show (v.slots.set i (some x)).getD j none = none
    rw [List.length_set] at hj
    rw [List.getD_eq_getElem?_getD, List.getElem?_set_ne (by omega),
      ← List.getD_eq_getElem?_getD]
    exact hc j hj

/-- Construction of a new last element. -/
theorem HoldsOnly.append {v : vector T} {xs : List T} (h : HoldsOnly v xs)
    (hcap : v.end_ < v.capacity_) (x : T) :
    HoldsOnly { v with slots := v.slots.set xs.length (some x), end_ := v.end_ + 1 }
      (xs ++ [x]) := by
  obtain ⟨⟨h1, h2, h3, h4, h5, h6⟩, hc⟩ := h
  refine ⟨⟨?_, ?_, ?_, ?_, ?_, h6⟩, ?_⟩
  · show v.begin_ ≤ v.end_ + 1
    omega
  · show v.end_ + 1 ≤ v.capacity_
    omega
  · show (v.slots.set xs.length (some x)).length = _
    rw [List.length_set]; exact h3
  · show (xs ++ [x]).length = v.end_ + 1 - v.begin_
    rw [List.length_append, List.length_singleton]; omega
  · intro j y hy
    show (v.slots.set xs.length (some x))[j]? = _
    by_cases hj : j < xs.length
    · rw [List.getElem?_append_left hj] at hy
      rw [List.getElem?_set_ne (by omega)]
      exact h5 j y hy
    · by_cases hje : j = xs.length
      · subst hje
        rw [List.getElem?_append_right (Nat.le_refl _)] at hy
        simp only [Nat.sub_self, List.getElem?_cons_zero, Option.some.injEq] at hy
        subst hy
        rw [List.getElem?_set_self (by omega)]
      · rw [List.getElem?_eq_none (by rw [List.length_append, List.length_singleton]; omega)]
          at hy
        cases hy
  · intro j hj
    show (v.slots.set xs.length (some x)).getD j none = none
    rw [List.length_append, List.length_singleton] at hj
    rw [List.getD_eq_getElem?_getD, List.getElem?_set_ne (by omega),
      ← List.getD_eq_getElem?_getD]
    exact hc j (by omega)

/-! ### `reallocate` leaves no element behind the copied ones -/

theorem copyconstruct_loop_rest (v : vector T) : ∀ (fuel : Nat) (buf : List (Option T))
    (i sz src : Nat) (buf1 : List (Option T)),
    copyconstruct_loop v fuel buf i sz src = some buf1 →
    ∀ j, sz ≤ j → buf1.getD j none = buf.getD j none := by
  intro fuel
  induction fuel with
  | zero =>
    intro buf i sz src buf1 e j hj
    unfold copyconstruct_loop at e
    by_cases hi : i < sz
    · rw [if_pos hi] at e
      cases e
    · rw [if_neg hi] at e
      cases e
      rfl
  | succ f ih =>
    intro buf i sz src buf1 e j hj
    unfold copyconstruct_loop at e
    by_cases hi : i < sz
    · rw [if_pos hi] at e
      dsimp only at e
      cases hl : v.load src with
      | none => rw [hl] at e; cases e
      | some x =>
        rw [hl] at e
        dsimp only at e
        by_cases hb : i < buf.length
        · rw [if_pos hb] at e
          rw [ih _ _ _ _ _ e j hj, List.getD_eq_getElem?_getD, List.getElem?_set_ne (by omega),
            ← List.getD_eq_getElem?_getD]
        · rw [if_neg hb] at e
          cases e
    · rw [if_neg hi] at e
      cases e
      rfl

theorem copyconstruct_range_rest (tr : vtraits) (v : vector T) (buf : List (Option T))
    (sz : Nat) (buf1 : List (Option T)) (e : copyconstruct_range tr v buf sz = some buf1)
    (j : Nat) (hj : sz ≤ j) : buf1.getD j none = buf.getD j none := by
  unfold copyconstruct_range at e
  cases htc : tr.TRIVIAL_COPY
  · rw [htc] at e
    simp only [Bool.false_eq_true, ↓reduceIte] at e
    exact copyconstruct_loop_rest v _ _ _ _ _ _ e j hj
  · rw [htc] at e
    simp only [↓reduceIte] at e
    by_cases h0 : sz = 0
    · rw [if_pos h0] at e
      cases e
      rfl
    · rw [if_neg h0] at e
      split_ifs at e
      cases e
      rw [List.getD_eq_getElem?_getD, List.getElem?_map]
      by_cases hjl : j < buf.length
      · rw [List.getElem?_range hjl]
        simp only [Option.map_some', Option.getD_some]
        rw [if_neg (by omega)]
      · rw [List.getElem?_eq_none (by simpa using hjl)]
        simp only [Option.map_none', Option.getD_none]
        rw [List.getD_eq_getElem?_getD, List.getElem?_eq_none (by omega)]
        rfl

theorem reallocate_rest (tr : vtraits) (fresh : Nat) (v : vector T) (xs : List T)
    (h : HoldsOnly v xs) (oc nc : Nat) (v1 : vector T)
    (e : reallocate tr fresh v oc nc = some v1) (j : Nat) (hj : xs.length ≤ j) :
    v1.slots.getD j none = none := by
  have hs := h.1.size_eq
  obtain ⟨⟨h1, h2, h3, h4, h5, h6⟩, hc⟩ := h
  have hrep : (List.replicate nc (none : Option T)).getD j none = none := by
    apply getD_none_of_getElem?
    rw [getElem?_replicate_none]
    by_cases hjn : j < nc
    · exact Or.inr (if_pos hjn)
    · exact Or.inl (if_neg hjn)
  unfold reallocate at e
  dsimp only at e
  by_cases hA : (tr.TRIVIAL_COPY && tr.TRIVIAL_ASSIGN) = true
  · rw [if_pos hA] at e
    dsimp only at e
    cases e
    show ((List.range nc).map (fun i => v.slots.getD i none)).getD j none = none
    rw [List.getD_eq_getElem?_getD, List.getElem?_map]
    by_cases hjn : j < nc
    · rw [List.getElem?_range hjn]
      simp only [Option.map_some', Option.getD_some]
      exact hc j hj
    · rw [List.getElem?_eq_none (by simpa using hjn)]
      rfl
  · rw [if_neg hA] at e
    by_cases hb : v.begin_ = 0
    · rw [if_neg (by simpa using hb)] at e
      dsimp only at e
      cases e
      exact hrep
    · rw [if_pos hb] at e
      cases hcc : copyconstruct_range tr v (List.replicate nc none) v.size with
      | none => rw [hcc] at e; cases e
      | some buf =>
        rw [hcc] at e
        dsimp only at e
        cases hd : destroy_range tr v.size v v.begin_ v.end_ with
        | none => rw [hd] at e; cases e
        | some w =>
          rw [hd] at e
          dsimp only at e
          cases e
          show buf.getD j none = none
          rw [copyconstruct_range_rest tr v _ _ _ hcc j (by omega)]
          exact hrep

/-! ### `push_back` -/

/-- The state `push_back` has reached when it reads `t`: the buffer has room
for one more element, in a new block if it was full. -/
theorem push_back_prep (tr : vtraits) (fresh : Nat) (v : vector T) (xs : List T)
    (h : HoldsOnly v xs) (hf : v.capacity_ = v.end_ → fresh ≠ 0) :
    ∃ v0 : vector T, HoldsOnly v0 xs ∧ v0.begin_ ≠ 0 ∧ v0.end_ < v0.capacity_ ∧
      (v.capacity_ ≠ v.end_ → v0 = v) ∧ (v.capacity_ = v.end_ → v0.begin_ = fresh) ∧
      ∀ t : cref T, push_back tr fresh v t =
        match v0.deref t with
        | none => none
        | some x =>
          some { v0 with slots := v0.slots.set xs.length (some x), end_ := v0.end_ + 1 } := by
  have hs := h.1.size_eq
  have hh := h
  obtain ⟨⟨h1, h2, h3, h4, h5, h6⟩, hc⟩ := h
  have fin : ∀ v0 : vector T, HoldsOnly v0 xs → v0.begin_ ≠ 0 → v0.end_ < v0.capacity_ →
      ∀ t : cref T,
      (match v0.deref t with
        | none => none
        | some x =>
          match v0.store v0.end_ x with
          | none => none
          | some v1 => some { v1 with end_ := v1.end_ + 1 }) =
      match v0.deref t with
        | none => none
        | some x =>
          some { v0 with slots := v0.slots.set xs.length (some x), end_ := v0.end_ + 1 } := by
    intro v0 g0 b0 c0 t
    cases v0.deref t with
    | none => rfl
    | some x =>
      dsimp only
      obtain ⟨g1, g2, g3, g4, g5, g6⟩ := g0.1
      have e : v0.end_ = v0.begin_ + xs.length := by omega
      have hst := store_eq v0 g3 b0 xs.length (by omega) x
      rw [← e] at hst
      rw [hst]
  by_cases hfull : v.capacity_ = v.end_
  · obtain ⟨v1, e1, b1, n1, c1, l1, g1⟩ := reallocate_spec tr fresh v xs hh.1 v.capacity
      (increment_capacity v.capacity) (by
        have := increment_capacity_gt v.capacity
        rw [capacity] at this ⊢
        omega)
    have hgt : xs.length < increment_capacity v.capacity := by
      have := increment_capacity_gt v.capacity
      rw [capacity] at this ⊢
      omega
    have hf1 := hf hfull
    have H1 : HoldsOnly v1 xs := by
      refine ⟨⟨by omega, by omega, by omega, by omega, g1, fun e => ?_⟩,
        fun j hj => reallocate_rest tr fresh v xs hh _ _ v1 e1 j hj⟩
      rw [b1] at e
      exact absurd e hf1
    refine ⟨v1, H1, by rw [b1]; exact hf1, by omega, fun hn => absurd hfull hn, fun _ => b1,
      fun t => ?_⟩
    unfold push_back
    rw [if_pos hfull]
    dsimp only
    rw [e1]
    exact fin v1 H1 (by rw [b1]; exact hf1) (by omega) t
  · have hb : v.begin_ ≠ 0 := by
      intro e
      have := h6 e
      omega
    refine ⟨v, hh, hb, by omega, fun _ => rfl, fun e => absurd e hfull, fun t => ?_⟩
    unfold push_back
    rw [if_neg hfull]
    exact fin v hh hb (by omega) t

/-- `push_back` of an object that lives outside the vector. -/
theorem vec_push_back_spec (tr : vtraits) (fresh : Nat) (hf : fresh ≠ 0) (v : vector T)
    (xs : List T) (h : HoldsOnly v xs) (x : T) :
    ∃ v1, push_back tr fresh v (cref.obj x) = some v1 ∧ HoldsOnly v1 (xs ++ [x]) := by
  obtain ⟨v0, g0, b0, c0, -, -, e⟩ := push_back_prep tr fresh v xs h (fun _ => hf)
  exact ⟨_, e (cref.obj x), g0.append c0 x⟩

/-- Every `push_back` that returns has appended the value read through the
reference; a reference into the buffer refers to an element of the new
buffer. -/
theorem push_back_inv (tr : vtraits) (fresh : Nat) (v : vector T) (xs : List T)
    (h : HoldsOnly v xs) (t : cref T) (v1 : vector T)
    (e : push_back tr fresh v t = some v1) :
    ∃ x, HoldsOnly v1 (xs ++ [x]) ∧
      (t = cref.obj x ∨ ∃ j, t = cref.elem (v1.begin_ + j) ∧ xs[j]? = some x) := by
  by_cases hf : v.capacity_ = v.end_ → fresh ≠ 0
  · obtain ⟨v0, g0, b0, c0, -, -, e0⟩ := push_back_prep tr fresh v xs h hf
    rw [e0 t] at e
    cases hd : v0.deref t with
    | none => rw [hd] at e; cases e
    | some x =>
      rw [hd] at e
      cases e
      refine ⟨x, g0.append c0 x, ?_⟩
      cases t with
      | obj y =>
        cases hd
        exact Or.inl rfl
      | elem p =>
        obtain ⟨j, rfl, hj⟩ := g0.load_elem hd
        exact Or.inr ⟨j, rfl, hj⟩
  · exfalso
    rw [Classical.not_imp, not_not] at hf
    obtain ⟨hfull, rfl⟩ := hf
    obtain ⟨w, e1, b1, n1, c1, l1, g1⟩ := reallocate_spec tr 0 v xs h.1 v.capacity
      (increment_capacity v.capacity) (by
        have := increment_capacity_gt v.capacity
        have hs := h.1.size_eq
        obtain ⟨⟨h1, h2, h3, h4, h5, h6⟩, hc⟩ := h
        rw [capacity] at this ⊢
        omega)
    unfold push_back at e
    rw [if_pos hfull] at e
    dsimp only at e
    rw [e1] at e
    dsimp only at e
    have hi : ∀ p, w.inbuf p = false := by
      intro p
      simp [inbuf, b1]
    cases t with
    | obj y =>
      simp only [deref, store, hi] at e
      cases e
    | elem p =>
      simp only [deref, load, hi] at e
      cases e

/-! ### `pop_back` and `back` -/

theorem vec_pop_back_spec (v : vector T) (xs : List T) (h : HoldsOnly v xs) (hne : xs ≠ []) :
    ∃ v1, pop_back v = some v1 ∧ HoldsOnly v1 xs.dropLast ∧ v1.begin_ = v.begin_ ∧
      v1.capacity_ = v.capacity_ ∧ v.deref (back v) = some (xs.getLast hne) := by
  have hb := h.1.begin_ne hne
  have hl : 0 < xs.length := List.length_pos.2 hne
  have hlast := (h.1.load_at (xs.length - 1) (xs.getLast hne) (by
    rw [List.getLast_eq_getElem, List.getElem?_eq_getElem])).1
  obtain ⟨⟨h1, h2, h3, h4, h5, h6⟩, hc⟩ := h
  have e1 : v.end_ - 1 = v.begin_ + (xs.length - 1) := by omega
  refine ⟨{ v with end_ := v.end_ - 1, slots := v.slots.set (xs.length - 1) none }, ?_,
    ⟨⟨?_, ?_, ?_, ?_, ?_, h6⟩, ?_⟩, rfl, rfl, ?_⟩
  · unfold pop_back
    rw [if_pos (by omega)]
    dsimp only
    rw [e1]
    exact destroy_eq { v with end_ := v.begin_ + (xs.length - 1) } h3 hb (xs.length - 1)
      (by show v.begin_ + (xs.length - 1) < v.capacity_; omega)
  · show v.begin_ ≤ v.end_ - 1
    omega
  · show v.end_ - 1 ≤ v.capacity_
    omega
  · show (v.slots.set (xs.length - 1) none).length = _
    rw [List.length_set]; exact h3
  · show xs.dropLast.length = v.end_ - 1 - v.begin_
    rw [List.length_dropLast]; omega
  · intro j y hy
    show (v.slots.set (xs.length - 1) none)[j]? = _
    have hj : j < xs.length - 1 := by
      by_contra hcn
      rw [List.getElem?_eq_none (by rw [List.length_dropLast]; omega)] at hy
      cases hy
    rw [List.getElem?_set_ne (by omega)]
    apply h5
    rw [List.dropLast_eq_take, List.getElem?_take_of_lt hj] at hy
    exact hy
  · intro j hj
    show (v.slots.set (xs.length - 1) none).getD j none = none
    rw [List.length_dropLast] at hj
    by_cases hje : j = xs.length - 1
    · subst hje
      apply getD_none_of_getElem?
      by_cases hlt : xs.length - 1 < v.slots.length
      · exact Or.inr (List.getElem?_set_self hlt)
      · exact Or.inl (List.getElem?_eq_none (by rw [List.length_set]; omega))
    · rw [List.getD_eq_getElem?_getD, List.getElem?_set_ne (by omega),
        ← List.getD_eq_getElem?_getD]
      exact hc j (by omega)
  · show v.load (v.end_ - 1) = _
    rw [e1]
    exact hlast

theorem front_spec (v : vector T) (xs : List T) (h : HoldsOnly v xs) :
    v.deref (front v) = xs.head? := by
  cases xs with
  | nil =>
    show v.load v.begin_ = none
    unfold load
    have := h.2 (v.begin_ - v.begin_) (by simp)
    rw [this]
    simp
  | cons x xs =>
    have := (h.1.load_at 0 x (by simp)).1
    rwa [Nat.add_zero] at this

end vector
end taapp

namespace taapp
namespace priority_queue
variable {T : Type}

/-! ## Strict weak orderings -/

theorem sw_asymm {lt : T → T → Bool} (sw : StrictWeak lt) {a b : T} (h : lt a b = true) :
    lt b a = false := by
  cases hb : lt b a with
  | false => rfl
  | true =>
    have := sw.trans a b a h hb
    rw [sw.irrefl a] at this
    cases this

theorem sw_neg_trans {lt : T → T → Bool} (sw : StrictWeak lt) {a b c : T}
    (h1 : lt a b = false) (h2 : lt b c = false) : lt a c = false := by
  cases hac : lt a c with
  | false => rfl
  | true =>
    exfalso
    have hba : lt b a = false := by
      cases hba : lt b a with
      | false => rfl
      | true =>
        have := sw.trans b a c hba hac
        rw [h2] at this
        cases this
    have hcb : lt c b = false := by
      cases hcb : lt c b with
      | false => rfl
      | true =>
        have := sw.trans a c b hac hcb
        rw [h1] at this
        cases this
    have := (sw.incomp a b c h1 hba h2 hcb).1
    rw [hac] at this
    cases this

theorem sw_lt_of_lt_of_not {lt : T → T → Bool} (sw : StrictWeak lt) {a b c : T}
    (h1 : lt a b = true) (h2 : lt a c = false) : lt b c = false := by
  cases hbc : lt b c with
  | false => rfl
  | true =>
    have := sw.trans a b c h1 hbc
    rw [h2] at this
    cases this

/-! ## Exchanging two elements of a list -/

theorem getElem?_set_set (h : List T) (i p j : Nat) (x n : T) (hi : i < h.length)
    (hp : p < h.length) :
    ((h.set i x).set p n)[j]? =
      if j = p then some n else if j = i then some x else h[j]? := by
  simp only [List.getElem?_set, List.length_set]
  by_cases h1 : j = p
  · subst h1
    simp [hp]
  · by_cases h2 : j = i
    · subst h2
      simp [hi, h1, Ne.symm h1]
    · simp [h1, h2, Ne.symm h1, Ne.symm h2]

theorem perm_swap (h : List T) (i p : Nat) (a b : T) (hi : h[i]? = some a)
    (hp : h[p]? = some b) : ((h.set i b).set p a).Perm h := by
  classical
  have hil : i < h.length := by
    by_contra hc
    rw [List.getElem?_eq_none (by omega)] at hi
    cases hi
  have hpl : p < h.length := by
    by_contra hc
    rw [List.getElem?_eq_none (by omega)] at hp
    cases hp
  have ea : h[i] = a := by
    rw [List.getElem?_eq_getElem hil] at hi
    exact Option.some.inj hi
  have eb : h[p] = b := by
    rw [List.getElem?_eq_getElem hpl] at hp
    exact Option.some.inj hp
  by_cases hip : i = p
  · subst hip
    have : a = b := by rw [← ea, eb]
    subst this
    rw [List.set_set]
    have : h.set i a = h := by
      apply List.ext_getElem?
      intro j
      rw [List.getElem?_set]
      by_cases hj : i = j
      · subst hj
        rw [if_pos rfl, if_pos hil, hi]
      · rw [if_neg hj]
    rw [this]
  · rw [List.perm_iff_count]
    intro c
    have hp2 : p < (h.set i b).length := by simpa using hpl
    rw [List.count_set _ _ _ _ hp2, List.count_set _ _ _ _ hil]
    have e2 : (h.set i b)[p] = b := by
      rw [List.getElem_set_ne hip]
      exact eb
    rw [e2, ea]
    have ca : a = c → 0 < h.count c := by
      intro e
      subst e
      exact List.count_pos_iff.2 (List.mem_iff_getElem?.2 ⟨i, hi⟩)
    have cb : b = c → 0 < h.count c := by
      intro e
      subst e
      exact List.count_pos_iff.2 (List.mem_iff_getElem?.2 ⟨p, hp⟩)
    simp only [beq_iff_eq]
    by_cases h1 : a = c <;> by_cases h2 : b = c <;> simp only [h1, h2, ↓reduceIte] <;>
      first
        | omega
        | (have hh := ca h1; omega)

end priority_queue
end taapp

namespace taapp
namespace priority_queue
variable {T : Type}

/-! ## The loop of `push` -/

theorem lt_length_of_getElem? {h : List T} {i : Nat} {a : T} (hi : h[i]? = some a) :
    i < h.length := by
  by_contra hc
  rw [List.getElem?_eq_none (by omega)] at hi
  cases hi

theorem sift_up_spec (lt : T → T → Bool) (n : T) : ∀ (fuel : Nat) (h : List T) (i : Nat),
    i ≤ fuel → h[i]? = some n →
    ∃ h1, sift_up lt n fuel h (i : Int) (((i : Int) - 1) / 2) = some h1 ∧ h1.Perm h ∧
      (StrictWeak lt →
        (∀ (j : Nat) (x y : T), 0 < j → j ≠ i → h[(j - 1) / 2]? = some x → h[j]? = some y →
          lt x y = false) →
        (∀ (j : Nat) (x y : T), 0 < i → 0 < j → (j - 1) / 2 = i → h[(i - 1) / 2]? = some x →
          h[j]? = some y → lt x y = false) →
        IsHeap lt h1) := by
  intro fuel
  induction fuel with
  | zero =>
    intro h i hi hn
    have : i = 0 := by omega
    subst this
    refine ⟨h, ?_, List.Perm.refl _, fun _ hA _ j x y hj hx hy => hA j x y hj (by omega) hx hy⟩
    unfold sift_up
    rw [if_neg (by omega)]
  | succ f ih =>
    intro h i hi hn
    by_cases h0 : i = 0
    · subst h0
      refine ⟨h, ?_, List.Perm.refl _,
        fun _ hA _ j x y hj hx hy => hA j x y hj (by omega) hx hy⟩
      unfold sift_up
      rw [if_neg (by omega)]
    · have hil := lt_length_of_getElem? hn
      have hpe : ((i : Int) - 1) / 2 = (((i - 1) / 2 : Nat) : Int) := by omega
      have hpl : (i - 1) / 2 < h.length := by omega
      obtain ⟨parent, hpar⟩ : ∃ parent, h[(i - 1) / 2]? = some parent :=
        ⟨h[(i - 1) / 2], List.getElem?_eq_getElem hpl⟩
      rw [hpe]
      unfold sift_up
      rw [if_pos (by omega)]
      simp only [Int.toNat_ofNat, hpar, hn]
      cases hlt : lt parent n with
      | false =>
        simp only [Bool.false_eq_true, ↓reduceIte]
        refine ⟨h, rfl, List.Perm.refl _, fun _ hA _ j x y hj hx hy => ?_⟩
        by_cases hji : j = i
        · subst hji
          rw [hpar] at hx
          rw [hn] at hy
          cases hx
          cases hy
          exact hlt
        · exact hA j x y hj hji hx hy
      | true =>
        simp only [↓reduceIte]
        have hg : ∀ j, ((h.set i parent).set ((i - 1) / 2) n)[j]? =
            if j = (i - 1) / 2 then some n else if j = i then some parent else h[j]? :=
          fun j => getElem?_set_set h i ((i - 1) / 2) j parent n hil hpl
        obtain ⟨h1, e1, p1, g1⟩ := ih ((h.set i parent).set ((i - 1) / 2) n) ((i - 1) / 2)
          (by omega) (by rw [hg, if_pos rfl])
        refine ⟨h1, e1, p1.trans (perm_swap h i ((i - 1) / 2) n parent hn hpar),
          fun sw hA hB => g1 sw ?_ ?_⟩
        · intro j x y hj hjp hx hy
          rw [hg] at hx hy
          rw [if_neg hjp] at hy
          by_cases hji : j = i
          · subst hji
            rw [if_pos rfl] at hx
            rw [if_pos rfl] at hy
            cases hx
            cases hy
            exact sw_asymm sw hlt
          · rw [if_neg hji] at hy
            by_cases hq : (j - 1) / 2 = (i - 1) / 2
            · rw [if_pos hq] at hx
              cases hx
              have := hA j parent y hj hji (by rw [hq]; exact hpar) hy
              exact sw_lt_of_lt_of_not sw hlt this
            · rw [if_neg hq] at hx
              by_cases hqi : (j - 1) / 2 = i
              · rw [if_pos hqi] at hx
                cases hx
                exact hB j _ y (by omega) hj hqi rfl hy
              · rw [if_neg hqi] at hx
                exact hA j x y hj hji hx hy
        · intro j x y hp0 hj hjq hx hy
          rw [hg] at hx hy
          rw [if_neg (by omega), if_neg (by omega)] at hx
          rw [if_neg (by omega)] at hy
          have hxp := hA ((i - 1) / 2) x parent hp0 (by omega) hx hpar
          by_cases hji : j = i
          · subst hji
            rw [if_pos rfl] at hy
            cases hy
            exact hxp
          · rw [if_neg hji] at hy
            have := hA j parent y hj hji (by rw [hjq]; exact hpar) hy
            exact sw_neg_trans sw hxp this

theorem IsHeap_nil (lt : T → T → Bool) : IsHeap lt ([] : List T) := by
  intro j x y _ hx _
  simp at hx

theorem pushed_spec (lt : T → T → Bool) (xs : List T) (n : T) :
    ∃ h1, pushed lt xs n = some h1 ∧ h1.Perm (n :: xs) ∧
      (StrictWeak lt → IsHeap lt xs → IsHeap lt h1) := by
  have hn : (xs ++ [n])[xs.length]? = some n := by
    rw [List.getElem?_append_right (Nat.le_refl _)]
    simp
  obtain ⟨h1, e1, p1, g1⟩ := sift_up_spec lt n (xs ++ [n]).length
    (xs ++ [n]) xs.length (by simp) hn
  refine ⟨h1, ?_, ?_, fun sw hh => g1 sw ?_ ?_⟩
  · unfold pushed
    dsimp only
    rw [e1]
  · exact p1.trans (List.perm_append_singleton n xs)
  · intro j x y hj hji hx hy
    have hjl := lt_length_of_getElem? hy
    simp only [List.length_append, List.length_singleton] at hjl
    rw [List.getElem?_append_left (by omega)] at hx hy
    exact hh j x y hj hx hy
  · intro j x y _ hj hji _ hy
    have hjl := lt_length_of_getElem? hy
    simp only [List.length_append, List.length_singleton] at hjl
    omega

end priority_queue
end taapp

namespace taapp
namespace priority_queue
variable {T : Type}

/-! ## The loop of `pop` -/

theorem pop_choose (lt : T → T → Bool) (h : List T) (ci : Nat) (child : T)
    (hch : h[ci]? = some child) :
    ∃ c : Nat × T, greater_of lt h ci h.length child = some c ∧
      (c.1 = ci ∨ c.1 = ci + 1) ∧ h[c.1]? = some c.2 ∧
      (StrictWeak lt → ∀ (j : Nat) (y : T), (j = ci ∨ j = ci + 1) → h[j]? = some y →
        lt c.2 y = false) := by
  unfold greater_of
  by_cases h1 : ci + 1 < h.length
  · rw [if_pos h1]
    have hr : h[ci + 1]? = some h[ci + 1] := List.getElem?_eq_getElem h1
    rw [hr]
    dsimp only
    cases hlt : lt child h[ci + 1] with
    | true =>
      refine ⟨(ci + 1, h[ci + 1]), by simp, Or.inr rfl, hr, fun sw j y hj hy => ?_⟩
      rcases hj with rfl | rfl
      · rw [hch] at hy
        cases hy
        exact sw_asymm sw hlt
      · rw [hr] at hy
        cases hy
        exact sw.irrefl _
    | false =>
      refine ⟨(ci, child), by simp, Or.inl rfl, hch, fun sw j y hj hy => ?_⟩
      rcases hj with rfl | rfl
      · rw [hch] at hy
        cases hy
        exact sw.irrefl _
      · rw [hr] at hy
        cases hy
        exact hlt
  · rw [if_neg h1]
    refine ⟨(ci, child), rfl, Or.inl rfl, hch, fun sw j y hj hy => ?_⟩
    rcases hj with rfl | rfl
    · rw [hch] at hy
      cases hy
      exact sw.irrefl _
    · rw [List.getElem?_eq_none (by omega)] at hy
      cases hy

theorem sift_down_spec (lt : T → T → Bool) (node : T) : ∀ (fuel : Nat) (h : List T) (i : Nat),
    h.length - i ≤ fuel → h[i]? = some node →
    ∃ h1, sift_down lt node fuel h i (i * 2 + 1) h.length = some h1 ∧ h1.Perm h ∧
      (StrictWeak lt →
        (∀ (j : Nat) (x y : T), 0 < j → (j - 1) / 2 ≠ i → h[(j - 1) / 2]? = some x →
          h[j]? = some y → lt x y = false) →
        (∀ (j : Nat) (x y : T), 0 < i → 0 < j → (j - 1) / 2 = i → h[(i - 1) / 2]? = some x →
          h[j]? = some y → lt x y = false) →
        IsHeap lt h1) := by
  intro fuel
  induction fuel with
  | zero =>
    intro h i hf hn
    have := lt_length_of_getElem? hn
    omega
  | succ f ih =>
    intro h i hf hn
    have hil := lt_length_of_getElem? hn
    by_cases hc : i * 2 + 1 < h.length
    · obtain ⟨child, hch⟩ : ∃ child, h[i * 2 + 1]? = some child :=
        ⟨h[i * 2 + 1], List.getElem?_eq_getElem hc⟩
      obtain ⟨c, ec, hc1, hc2, hmax⟩ := pop_choose lt h (i * 2 + 1) child hch
      have hcl := lt_length_of_getElem? hc2
      unfold sift_down
      rw [if_pos hc, hch]
      dsimp only
      rw [ec]
      dsimp only
      cases hlt : lt node c.2 with
      | false =>
        simp only [Bool.false_eq_true, ↓reduceIte]
        refine ⟨h, rfl, List.Perm.refl _, fun sw hA hB j x y hj hx hy => ?_⟩
        by_cases hq : (j - 1) / 2 = i
        · rw [hq, hn] at hx
          cases hx
          exact sw_neg_trans sw hlt (hmax sw j y (by omega) hy)
        · exact hA j x y hj hq hx hy
      | true =>
        simp only [↓reduceIte]
        have hg : ∀ j, ((h.set i c.2).set c.1 node)[j]? =
            if j = c.1 then some node else if j = i then some c.2 else h[j]? :=
          fun j => getElem?_set_set h i c.1 j c.2 node hil hcl
        have hl : ((h.set i c.2).set c.1 node).length = h.length := by simp
        obtain ⟨h1, e1, p1, g1⟩ := ih ((h.set i c.2).set c.1 node) c.1
          (by rw [hl]; omega) (by rw [hg, if_pos rfl])
        rw [hl] at e1
        refine ⟨h1, e1, p1.trans (perm_swap h i c.1 node c.2 hn hc2),
          fun sw hA hB => g1 sw ?_ ?_⟩
        · intro j x y hj hq hx hy
          rw [hg] at hx hy
          rw [if_neg hq] at hx
          by_cases hjk : j = c.1
          · rw [if_pos hjk] at hy
            rw [if_pos (by omega)] at hx
            cases hx
            cases hy
            exact sw_asymm sw hlt
          · rw [if_neg hjk] at hy
            by_cases hji : j = i
            · rw [if_pos hji] at hy
              cases hy
              rw [if_neg (by omega)] at hx
              exact hB c.1 x _ (by omega) (by omega) (by omega) (by rw [← hji]; exact hx) hc2
            · rw [if_neg hji] at hy
              by_cases hqi : (j - 1) / 2 = i
              · rw [if_pos hqi] at hx
                cases hx
                exact hmax sw j y (by omega) hy
              · rw [if_neg hqi] at hx
                exact hA j x y hj hqi hx hy
        · intro j x y hk hj hq hx hy
          rw [hg] at hx hy
          rw [if_neg (by omega), if_pos (by omega)] at hx
          rw [if_neg (by omega), if_neg (by omega)] at hy
          cases hx
          exact hA j _ y hj (by omega) (by rw [hq]; exact hc2) hy
    · refine ⟨h, ?_, List.Perm.refl _, fun sw hA hB j x y hj hx hy => ?_⟩
      · unfold sift_down
        rw [if_neg hc]
      · have := lt_length_of_getElem? hy
        exact hA j x y hj (by omega) hx hy

theorem popped_spec (lt : T → T → Bool) (xs : List T) (hne : xs ≠ []) :
    ∃ h1 t, xs.head? = some t ∧ popped lt xs = some h1 ∧ xs.Perm (t :: h1) ∧
      (StrictWeak lt → IsHeap lt xs → IsHeap lt h1) := by
  obtain ⟨c, node, hq⟩ : ∃ c node, xs = c ++ [node] :=
    ⟨xs.dropLast, xs.getLast hne, (List.dropLast_append_getLast hne).symm⟩
  have hlast : xs.getLast? = some node := by rw [hq]; simp
  have hdrop : xs.dropLast = c := by rw [hq]; simp
  have hlen : xs.length > 0 := by rw [hq]; simp
  unfold popped
  rw [if_pos hlen, hlast]
  dsimp only
  rw [hdrop]
  cases c with
  | nil =>
    refine ⟨[], node, by rw [hq]; rfl, by simp, by rw [hq]; simp,
      fun _ _ => IsHeap_nil lt⟩
  | cons t c =>
    rw [if_pos (by simp)]
    have hn : ((t :: c).set 0 node)[0]? = some node := by simp
    obtain ⟨h1, e1, p1, g1⟩ := sift_down_spec lt node (t :: c).length ((t :: c).set 0 node) 0
      (by simp) hn
    have hl : ((t :: c).set 0 node).length = (t :: c).length := by simp
    rw [hl] at e1
    refine ⟨h1, t, by rw [hq]; rfl, by rw [e1], ?_, fun sw hh => g1 sw ?_ ?_⟩
    · rw [hq]
      have : (t :: c ++ [node]).Perm (t :: node :: c) :=
        List.Perm.cons t (List.perm_append_singleton node c)
      exact this.trans (List.Perm.cons t p1.symm)
    · intro j x y hj hq0 hx hy
      have hjl := lt_length_of_getElem? hy
      simp only [List.length_set, List.length_cons] at hjl
      have e2 : ∀ m, 0 < m → m < c.length + 1 →
          ((t :: c).set 0 node)[m]? = xs[m]? := by
        intro m hm hml
        rw [hq, List.getElem?_append_left (by simpa using hml)]
        cases m with
        | zero => omega
        | succ m => rfl
      rw [e2 _ (by omega) (by omega)] at hx
      rw [e2 _ hj hjl] at hy
      exact hh j x y hj hx hy
    · intro j x y h0
      omega

end priority_queue
end taapp

namespace taapp
namespace priority_queue
variable {T : Type}

/-! ## The first element of a heap -/

/-- In a heap the element at index 0 is not less than any element. -/
theorem IsHeap_head_max {lt : T → T → Bool} (sw : StrictWeak lt) {h : List T}
    (hh : IsHeap lt h) {t : T} (ht : h[0]? = some t) :
    ∀ (j : Nat) (y : T), h[j]? = some y → lt t y = false := by
  intro j
  induction j using Nat.strong_induction_on with
  | _ j ih =>
    intro y hy
    by_cases h0 : j = 0
    · subst h0
      rw [ht] at hy
      cases hy
      exact sw.irrefl _
    · have hjl := lt_length_of_getElem? hy
      have hpl : (j - 1) / 2 < h.length := by omega
      have hp : h[(j - 1) / 2]? = some h[(j - 1) / 2] := List.getElem?_eq_getElem hpl
      exact sw_neg_trans sw (ih ((j - 1) / 2) (by omega) _ hp) (hh j _ y (by omega) hp hy)

theorem head_max {lt : T → T → Bool} (sw : StrictWeak lt) {xs : List T}
    (hh : IsHeap lt xs) {t : T} (ht : xs.head? = some t) :
    ∀ x ∈ xs, lt t x = false := by
  intro x hx
  obtain ⟨j, hj⟩ := List.mem_iff_getElem?.1 hx
  have h0 : xs[0]? = some t := by
    cases xs with
    | nil => cases ht
    | cons a l => simpa using ht
  exact IsHeap_head_max sw hh h0 j x hj

end priority_queue
end taapp

namespace taapp
namespace priority_queue
variable {T : Type}
open vector

/-! ## The loops on the buffer do what the loops on the sequence do -/

/-- The loop of `push` on the buffer follows `sift_up` if the reference `n`
yields `x` at every read: `n` is an outside object, or it refers to an element
other than the one at `index`, both hold `x`, and `x` is not less than
itself. -/
theorem push_loop_refine (lt : T → T → Bool) (n : cref T) (x : T) :
    ∀ (fuel : Nat) (c : vector T) (h : List T) (idx pidx : Int) (h1 : List T),
    HoldsOnly c h →
    (n = cref.obj x ∨ ∃ j, n = cref.elem (c.begin_ + j) ∧ j ≠ idx.toNat ∧ h[j]? = some x ∧
      h[idx.toNat]? = some x ∧ lt x x = false) →
    sift_up lt x fuel h idx pidx = some h1 →
    ∃ c1, push_loop lt n fuel c c.begin_ idx pidx = some c1 ∧ HoldsOnly c1 h1 ∧
      c1.begin_ = c.begin_ := by
  intro fuel
  induction fuel with
  | zero =>
    intro c h idx pidx h1 hc hn e
    unfold sift_up at e
    unfold push_loop
    by_cases hp : pidx ≥ 0
    · rw [if_pos hp] at e
      cases e
    · rw [if_neg hp] at e ⊢
      cases e
      exact ⟨c, rfl, hc, rfl⟩
  | succ f ih =>
    intro c h idx pidx h1 hc hn e
    unfold sift_up at e
    unfold push_loop
    by_cases hp : pidx ≥ 0
    · rw [if_pos hp] at e ⊢
      dsimp only at e ⊢
      cases hpar : h[pidx.toNat]? with
      | none => rw [hpar] at e; cases e
      | some parent =>
        rw [hpar] at e
        dsimp only at e
        cases hnode : h[idx.toNat]? with
        | none => rw [hnode] at e; cases e
        | some node =>
          rw [hnode] at e
          dsimp only at e
          rw [(hc.1.load_at _ _ hpar).1, (hc.1.load_at _ _ hnode).1]
          dsimp only
          by_cases hlt : lt parent node = true
          · rw [if_pos hlt] at e ⊢
            have hil := lt_length_of_getElem? hnode
            have hpl := lt_length_of_getElem? hpar
            obtain ⟨s1, g1⟩ := hc.store_at idx.toNat hil parent
            rw [s1]
            dsimp only
            have hd : vector.deref { c with slots := c.slots.set idx.toNat (some parent) } n
                = some x := by
              rcases hn with rfl | ⟨j, rfl, hj, hjx, -, -⟩
              · rfl
              · have : (h.set idx.toNat parent)[j]? = some x := by
                  rw [List.getElem?_set_ne (Ne.symm hj)]
                  exact hjx
                exact (g1.1.load_at j x this).1
            rw [hd]
            dsimp only
            obtain ⟨s2, g2⟩ := g1.store_at pidx.toNat (by rw [List.length_set]; exact hpl) x
            have s2b : vector.store { c with slots := c.slots.set idx.toNat (some parent) }
                (c.begin_ + pidx.toNat) x = _ := s2
            rw [s2b]
            dsimp only
            have hn2 : (n = cref.obj x ∨ ∃ j, n = cref.elem (c.begin_ + j) ∧
                j ≠ pidx.toNat ∧ ((h.set idx.toNat parent).set pidx.toNat x)[j]? = some x ∧
                ((h.set idx.toNat parent).set pidx.toNat x)[pidx.toNat]? = some x ∧
                lt x x = false) := by
              rcases hn with rfl | ⟨j, rfl, hj, hjx, hix, hirr⟩
              · exact Or.inl rfl
              · have hjp : j ≠ pidx.toNat := by
                  intro hjp
                  subst hjp
                  rw [hjx] at hpar
                  rw [hix] at hnode
                  cases hpar
                  cases hnode
                  rw [hirr] at hlt
                  cases hlt
                refine Or.inr ⟨j, rfl, hjp, ?_, ?_, hirr⟩
                · rw [List.getElem?_set_ne (Ne.symm hjp), List.getElem?_set_ne (Ne.symm hj)]
                  exact hjx
                · rw [List.getElem?_set_self (by rw [List.length_set]; exact hpl)]
            exact ih _ _ pidx ((pidx - 1) / 2) h1 g2 hn2 e
          · rw [if_neg hlt] at e ⊢
            cases e
            exact ⟨c, rfl, hc, rfl⟩
    · rw [if_neg hp] at e ⊢
      cases e
      exact ⟨c, rfl, hc, rfl⟩

theorem greater_child_refine (lt : T → T → Bool) (c : vector T) (h : List T)
    (hc : HoldsOnly c h) (ci e : Nat) (he : e ≤ h.length) (child : T) :
    greater_child lt c c.begin_ ci e child = greater_of lt h ci e child := by
  unfold greater_child greater_of
  by_cases hlt : ci + 1 < e
  · rw [if_pos hlt, if_pos hlt]
    have hr : h[ci + 1]? = some h[ci + 1] := List.getElem?_eq_getElem (by omega)
    rw [hr, (hc.1.load_at _ _ hr).1]
  · rw [if_neg hlt, if_neg hlt]

theorem greater_of_index (lt : T → T → Bool) (h : List T) (ci e : Nat) (child : T)
    (g : Nat × T) (hg : greater_of lt h ci e child = some g) (hci : ci < e) : g.1 < e := by
  unfold greater_of at hg
  by_cases hlt : ci + 1 < e
  · rw [if_pos hlt] at hg
    cases hr : h[ci + 1]? with
    | none => rw [hr] at hg; cases hg
    | some r =>
      rw [hr] at hg
      dsimp only at hg
      split_ifs at hg <;> cases hg <;> assumption
  · rw [if_neg hlt] at hg
    cases hg
    exact hci

/-- The loop of `pop` on the buffer follows `sift_down`. -/
theorem pop_loop_refine (lt : T → T → Bool) (node : T) :
    ∀ (fuel : Nat) (c : vector T) (h : List T) (idx ci e : Nat) (h1 : List T),
    HoldsOnly c h → e ≤ h.length → idx < h.length →
    sift_down lt node fuel h idx ci e = some h1 →
    ∃ c1, pop_loop lt node fuel c c.begin_ idx ci e = some c1 ∧ HoldsOnly c1 h1 ∧
      c1.begin_ = c.begin_ := by
  intro fuel
  induction fuel with
  | zero =>
    intro c h idx ci e h1 hc he hi hs
    unfold sift_down at hs
    unfold pop_loop
    by_cases hp : ci < e
    · rw [if_pos hp] at hs
      cases hs
    · rw [if_neg hp] at hs ⊢
      cases hs
      exact ⟨c, rfl, hc, rfl⟩
  | succ f ih =>
    intro c h idx ci e h1 hc he hi hs
    unfold sift_down at hs
    unfold pop_loop
    by_cases hp : ci < e
    · rw [if_pos hp] at hs ⊢
      dsimp only at hs ⊢
      cases hch : h[ci]? with
      | none => rw [hch] at hs; cases hs
      | some child =>
        rw [hch] at hs
        dsimp only at hs
        rw [(hc.1.load_at _ _ hch).1]
        dsimp only
        rw [greater_child_refine lt c h hc ci e he child]
        cases hg : greater_of lt h ci e child with
        | none => rw [hg] at hs; cases hs
        | some g =>
          rw [hg] at hs
          dsimp only at hs ⊢
          have hge := greater_of_index lt h ci e child g hg hp
          by_cases hlt : lt node g.2 = true
          · rw [if_pos hlt] at hs ⊢
            obtain ⟨s1, g1⟩ := hc.store_at idx hi g.2
            rw [s1]
            dsimp only
            obtain ⟨s2, g2⟩ := g1.store_at g.1 (by rw [List.length_set]; omega) node
            have s2b : vector.store { c with slots := c.slots.set idx (some g.2) }
                (c.begin_ + g.1) node = _ := s2
            rw [s2b]
            dsimp only
            exact ih _ _ g.1 (g.1 * 2 + 1) e h1 g2
              (by rw [List.length_set, List.length_set]; exact he)
              (by rw [List.length_set, List.length_set]; omega) hs
          · rw [if_neg hlt] at hs ⊢
            cases hs
            exact ⟨c, rfl, hc, rfl⟩
    · rw [if_neg hp] at hs ⊢
      cases hs
      exact ⟨c, rfl, hc, rfl⟩

/-! ## `push` and `pop` on a queue that holds the sequence `xs` -/

/-- After `push_back` the loop of `push` runs as `pushed` says. -/
theorem push_after (tr : vtraits) (fresh : Nat) (lt : T → T → Bool) (q : priority_queue T)
    (xs : List T) (h : HoldsOnly q.container_ xs) (n : cref T) (x : T) (c : vector T)
    (e : q.container_.push_back tr fresh n = some c) (hc : HoldsOnly c (xs ++ [x]))
    (hn : n = cref.obj x ∨ ∃ j, n = cref.elem (c.begin_ + j) ∧ xs[j]? = some x ∧
      lt x x = false) :
    ∃ q1 h1, push tr fresh lt q n = some q1 ∧ pushed lt xs x = some h1 ∧
      HoldsOnly q1.container_ h1 ∧ q1.container_.begin_ = c.begin_ ∧ h1.Perm (x :: xs) ∧
      (StrictWeak lt → IsHeap lt xs → IsHeap lt h1) := by
  obtain ⟨h1, e1, p1, g1⟩ := pushed_spec lt xs x
  have e2 := e1
  unfold pushed at e2
  dsimp only at e2
  have hlast : (xs ++ [x])[xs.length]? = some x := by
    rw [List.getElem?_append_right (Nat.le_refl _)]
    simp
  obtain ⟨c1, r1, r2, r3⟩ := push_loop_refine lt n x _ c (xs ++ [x]) xs.length
    (((xs.length : Int) - 1) / 2) h1 hc (by
      rcases hn with rfl | ⟨j, rfl, hj, hirr⟩
      · exact Or.inl rfl
      · have hjl := lt_length_of_getElem? hj
        refine Or.inr ⟨j, rfl, ?_, ?_, ?_, hirr⟩
        · simp only [Int.toNat_ofNat]
          omega
        · rw [List.getElem?_append_left hjl]
          exact hj
        · simpa only [Int.toNat_ofNat] using hlast) e2
  refine ⟨⟨c1⟩, h1, ?_, e1, r2, r3, p1, g1⟩
  unfold push
  dsimp only
  rw [e]
  dsimp only
  have hs : c.size = (xs ++ [x]).length := hc.1.size_eq
  have hq : q.container_.size = xs.length := h.1.size_eq
  rw [hs, hq, r1]

/-- `push` of an object that lives outside the container. -/
theorem push_obj_spec (tr : vtraits) (fresh : Nat) (hf : fresh ≠ 0) (lt : T → T → Bool)
    (q : priority_queue T) (xs : List T) (h : HoldsOnly q.container_ xs) (x : T) :
    ∃ q1 h1, push tr fresh lt q (cref.obj x) = some q1 ∧ pushed lt xs x = some h1 ∧
      HoldsOnly q1.container_ h1 ∧ h1.Perm (x :: xs) ∧
      (StrictWeak lt → IsHeap lt xs → IsHeap lt h1) := by
  obtain ⟨c, e, hc⟩ := vec_push_back_spec tr fresh hf q.container_ xs h x
  obtain ⟨q1, h1, a1, a2, a3, -, a5, a6⟩ := push_after tr fresh lt q xs h _ x c e hc
    (Or.inl rfl)
  exact ⟨q1, h1, a1, a2, a3, a5, a6⟩

/-- `push` of a reference to the element at index `j` of the container while
the buffer has room: the element is not moved before it is read. -/
theorem push_alias_spec (tr : vtraits) (fresh : Nat) (lt : T → T → Bool)
    (q : priority_queue T) (xs : List T) (h : HoldsOnly q.container_ xs)
    (hroom : q.container_.capacity_ ≠ q.container_.end_) (j : Nat) (x : T)
    (hj : xs[j]? = some x) (hirr : lt x x = false) :
    ∃ q1 h1, push tr fresh lt q (cref.elem (q.container_.begin_ + j)) = some q1 ∧
      pushed lt xs x = some h1 ∧ HoldsOnly q1.container_ h1 ∧ h1.Perm (x :: xs) ∧
      (StrictWeak lt → IsHeap lt xs → IsHeap lt h1) := by
  obtain ⟨v0, g0, b0, c0, s0, -, e0⟩ := push_back_prep tr fresh q.container_ xs h
    (fun hc => absurd hc hroom)
  have ev := s0 hroom
  subst ev
  have hd : q.container_.deref (cref.elem (q.container_.begin_ + j)) = some x :=
    (h.1.load_at j x hj).1
  have e := e0 (cref.elem (q.container_.begin_ + j))
  rw [hd] at e
  dsimp only at e
  obtain ⟨q1, h1, a1, a2, a3, -, a5, a6⟩ := push_after tr fresh lt q xs h _ x _ e
    (h.append c0 x) (Or.inr ⟨j, rfl, hj, hirr⟩)
  exact ⟨q1, h1, a1, a2, a3, a5, a6⟩

/-- `push` of a reference into the container's own buffer when the buffer is
full: `push_back` moves the elements to the block at `fresh` and releases the
old block before it reads the reference. -/
theorem push_dangling (tr : vtraits) (fresh : Nat) (hf : fresh ≠ 0) (lt : T → T → Bool)
    (q : priority_queue T) (xs : List T) (h : HoldsOnly q.container_ xs)
    (hfull : q.container_.capacity_ = q.container_.end_) (p : Nat) (hp : p < fresh) :
    push tr fresh lt q (cref.elem p) = none := by
  obtain ⟨v0, g0, b0, c0, -, f0, e0⟩ := push_back_prep tr fresh q.container_ xs h
    (fun _ => hf)
  have hd : v0.deref (cref.elem p) = none := by
    show v0.load p = none
    have hn : v0.inbuf p = false := by
      cases hq : v0.inbuf p with
      | false => rfl
      | true =>
        have := (inbuf_iff v0 g0.1.2.2.1 p).1 hq
        rw [f0 hfull] at this
        omega
    rw [load, hn]
    rfl
  have e := e0 (cref.elem p)
  rw [hd] at e
  unfold push
  dsimp only
  rw [e]

/-- Every `push` that returns has done to the sequence what `pushed` says for
the value it read, if no value is less than itself. -/
theorem push_inv (tr : vtraits) (fresh : Nat) (lt : T → T → Bool)
    (hirr : ∀ a, lt a a = false) (q : priority_queue T) (xs : List T)
    (h : HoldsOnly q.container_ xs) (n : cref T) (q1 : priority_queue T)
    (e : push tr fresh lt q n = some q1) :
    ∃ x h1, pushed lt xs x = some h1 ∧ HoldsOnly q1.container_ h1 ∧ h1.Perm (x :: xs) ∧
      (StrictWeak lt → IsHeap lt xs → IsHeap lt h1) := by
  cases hb : q.container_.push_back tr fresh n with
  | none =>
    unfold push at e
    dsimp only at e
    rw [hb] at e
    cases e
  | some c =>
    obtain ⟨x, hc, hn⟩ := push_back_inv tr fresh q.container_ xs h n c hb
    obtain ⟨q2, h1, a1, a2, a3, -, a5, a6⟩ := push_after tr fresh lt q xs h n x c hb hc (by
      rcases hn with hn | ⟨j, hj, hx⟩
      · exact Or.inl hn
      · exact Or.inr ⟨j, hj, hx, hirr x⟩)
    rw [e] at a1
    cases a1
    exact ⟨x, h1, a2, a3, a5, a6⟩

theorem empty_iff (q : priority_queue T) (xs : List T) (h : Holds q.container_ xs) :
    empty q = true ↔ xs = [] := by
  obtain ⟨h1, h2, h3, h4, h5, h6⟩ := h
  unfold empty vector.empty
  rw [decide_eq_true_eq, ← List.length_eq_zero]
  omega

/-- `pop` on a queue that is not empty. -/
theorem pop_spec (lt : T → T → Bool) (q : priority_queue T) (xs : List T)
    (h : HoldsOnly q.container_ xs) (hne : xs ≠ []) :
    ∃ q1 h1 t, q.container_.deref (top q) = some t ∧ xs.head? = some t ∧
      pop lt q = some q1 ∧ popped lt xs = some h1 ∧ HoldsOnly q1.container_ h1 ∧
      xs.Perm (t :: h1) ∧ (StrictWeak lt → IsHeap lt xs → IsHeap lt h1) := by
  obtain ⟨h1, t, ht, e1, p1, g1⟩ := popped_spec lt xs hne
  obtain ⟨c, ec, hc, bc, cc, hback⟩ := vec_pop_back_spec q.container_ xs h hne
  have hq : q.container_.size = xs.length := h.1.size_eq
  have hl : 0 < xs.length := List.length_pos.2 hne
  have hcs : c.size = xs.dropLast.length := hc.1.size_eq
  have hlast : xs.getLast? = some (xs.getLast hne) := List.getLast?_eq_getLast _ hne
  have e2 := e1
  unfold popped at e2
  rw [if_pos hl, hlast] at e2
  dsimp only at e2
  have htop : q.container_.deref (top q) = some t := by
    rw [top, front_spec q.container_ xs h]
    exact ht
  by_cases hd : xs.dropLast.length > 0
  · rw [if_pos hd] at e2
    obtain ⟨s1, g2⟩ := hc.store_at 0 hd (xs.getLast hne)
    rw [Nat.add_zero] at s1
    obtain ⟨c1, r1, r2, r3⟩ := pop_loop_refine lt (xs.getLast hne) _ _ _ 0 (0 * 2 + 1)
      xs.dropLast.length h1 g2 (by rw [List.length_set]) (by rw [List.length_set]; exact hd) e2
    refine ⟨⟨c1⟩, h1, t, htop, ht, ?_, e1, r2, p1, g1⟩
    unfold pop
    rw [if_pos (by rw [hq]; exact hl), hback]
    dsimp only
    rw [ec]
    dsimp only
    rw [if_pos (by rw [hcs]; exact hd), s1]
    dsimp only
    rw [hcs]
    have r1b : pop_loop lt (xs.getLast hne) xs.dropLast.length
        { c with slots := c.slots.set 0 (some (xs.getLast hne)) } c.begin_ 0 (0 * 2 + 1)
        xs.dropLast.length = some c1 := r1
    rw [r1b]
  · rw [if_neg hd] at e2
    cases e2
    refine ⟨⟨c⟩, _, t, htop, ht, ?_, e1, hc, p1, g1⟩
    unfold pop
    rw [if_pos (by rw [hq]; exact hl), hback]
    dsimp only
    rw [ec]
    dsimp only
    rw [if_neg (by rw [hcs]; exact hd)]

theorem pop_nonempty (lt : T → T → Bool) (q : priority_queue T) (xs : List T)
    (h : Holds q.container_ xs) (q1 : priority_queue T) (e : pop lt q = some q1) : xs ≠ [] := by
  intro hx
  subst hx
  have hq : q.container_.size = 0 := h.size_eq
  unfold pop at e
  rw [if_neg (by omega)] at e
  cases e

/-! ## The reachable queues -/

/-- Every reachable queue holds a heap in its buffer, and nothing else. -/
theorem reachable_heap {tr : vtraits} {lt : T → T → Bool} (sw : StrictWeak lt)
    {q : priority_queue T} (h : Reachable tr lt q) :
    ∃ xs, HoldsOnly q.container_ xs ∧ IsHeap lt xs := by
  induction h with
  | empty => exact ⟨[], HoldsOnly_empty, IsHeap_nil lt⟩
  | @push q0 q1 fresh n _ e ih =>
    obtain ⟨xs, hx, hh⟩ := ih
    obtain ⟨x, h1, -, a2, -, a4⟩ := push_inv tr fresh lt sw.irrefl q0 xs hx n q1 e
    exact ⟨h1, a2, a4 sw hh⟩
  | @pop q0 q1 _ e ih =>
    obtain ⟨xs, hx, hh⟩ := ih
    have hne := pop_nonempty lt q0 xs hx.1 q1 e
    obtain ⟨q2, h1, t, -, -, e2, -, a2, -, a4⟩ := pop_spec lt q0 xs hx hne
    rw [e] at e2
    cases e2
    exact ⟨h1, a2, a4 sw hh⟩

theorem drain_spec {lt : T → T → Bool} (sw : StrictWeak lt) :
    ∀ (fuel : Nat) (q : priority_queue T) (xs : List T), HoldsOnly q.container_ xs →
    IsHeap lt xs → xs.length ≤ fuel →
    ∃ l, drain lt fuel q = some l ∧ l.Perm xs ∧ l.Pairwise (fun a b => lt a b = false) := by
  intro fuel
  induction fuel with
  | zero =>
    intro q xs hx _ hs
    have : xs = [] := List.length_eq_zero.1 (by omega)
    refine ⟨[], ?_, by rw [this], List.Pairwise.nil⟩
    unfold drain
    rw [if_pos ((empty_iff q xs hx.1).2 this)]
  | succ f ih =>
    intro q xs hx hh hs
    by_cases hne : xs = []
    · refine ⟨[], ?_, by rw [hne], List.Pairwise.nil⟩
      unfold drain
      rw [if_pos ((empty_iff q xs hx.1).2 hne)]
    · obtain ⟨q1, h1, t, ht, hhd, e1, -, a1, p1, g1⟩ := pop_spec lt q xs hx hne
      have hl := p1.length_eq
      simp only [List.length_cons] at hl
      obtain ⟨l, el, pl, sl⟩ := ih q1 h1 a1 (g1 sw hh) (by omega)
      refine ⟨t :: l, ?_, ?_, ?_⟩
      · unfold drain
        have hemp : empty q = false := by
          cases hq : empty q with
          | false => rfl
          | true => exact absurd ((empty_iff q xs hx.1).1 hq) hne
        rw [hemp]
        simp only [Bool.false_eq_true, ↓reduceIte]
        rw [ht]
        dsimp only
        rw [e1]
        dsimp only
        rw [el]
      · exact (List.Perm.cons t pl).trans p1.symm
      · refine List.Pairwise.cons (fun b hb => ?_) sl
        exact head_max sw hh hhd b (p1.symm.subset (List.mem_cons_of_mem _ (pl.subset hb)))

end priority_queue
end taapp

namespace taapp

/-! ## The vectors and queues of the examples -/

namespace vector

theorem demo_vector_Holds : Holds demo_vector [1, 2, 3] := by
  refine ⟨by decide, by decide, rfl, rfl, ?_, by decide⟩
  intro i x h
  rcases i with _ | _ | _ | i
  · cases h; rfl
  · cases h; rfl
  · cases h; rfl
  · cases h

theorem demo_vector_full_Holds : Holds demo_vector_full [1, 2, 3, 4] := by
  refine ⟨by decide, by decide, rfl, rfl, ?_, by decide⟩
  intro i x h
  rcases i with _ | _ | _ | _ | i
  · cases h; rfl
  · cases h; rfl
  · cases h; rfl
  · cases h; rfl
  · cases h

end vector

namespace priority_queue
variable {T : Type}
open vector

/-- The first `push` allocates a buffer of eight elements, whatever the
traits of the element type. -/
theorem first_push (tr : vtraits) (fresh n : Nat) (hf : fresh = 100) :
    push tr fresh ltN empty_queue (cref.obj n) =
      some ⟨⟨100, 101, 108, [some n, none, none, none, none, none, none, none]⟩⟩ := by
  subst hf
  rcases tr with ⟨a, b, c, d⟩
  cases a <;> cases b <;> rfl

theorem demo_queue_reachable (tr : vtraits) : Reachable tr ltN demo_queue :=
  Reachable.push
    (Reachable.push
      (Reachable.push Reachable.empty (first_push tr 100 3 rfl))
      (show push tr 100 ltN _ (cref.obj 5) =
        some ⟨⟨100, 102, 108, [some 5, some 3, none, none, none, none, none, none]⟩⟩ from rfl))
    (show push tr 100 ltN _ (cref.obj 1) = some demo_queue from rfl)

/-- One round of the loop `while(!q.empty()) { x = q.top(); q.pop(); }`. -/
theorem drain_step (lt : T → T → Bool) (f : Nat) (q q1 : priority_queue T) (t : T)
    (l : List T) (he : empty q = false) (ht : q.container_.deref (top q) = some t)
    (hp : pop lt q = some q1) (hd : drain lt f q1 = some l) :
    drain lt (f + 1) q = some (t :: l) := by
  rw [drain, he]
  simp only [Bool.false_eq_true, ↓reduceIte, ht, hp, hd]

theorem demo_queue_drain : drain ltN 3 demo_queue = some [5, 3, 1] :=
  drain_step ltN 2 demo_queue
    ⟨⟨100, 102, 108, [some 3, some 1, none, none, none, none, none, none]⟩⟩ 5 [3, 1] rfl rfl rfl
    (drain_step ltN 1 _
      ⟨⟨100, 101, 108, [some 1, none, none, none, none, none, none, none]⟩⟩ 3 [1] rfl rfl rfl
      (drain_step ltN 0 _
        ⟨⟨100, 100, 108, [none, none, none, none, none, none, none, none]⟩⟩ 1 [] rfl rfl rfl
        rfl))

theorem demo_queue_HoldsOnly : HoldsOnly demo_queue.container_ [5, 3, 1] := by
  refine ⟨⟨by decide, by decide, rfl, rfl, ?_, by decide⟩, ?_⟩
  · intro i x h
    rcases i with _ | _ | _ | i
    · cases h; rfl
    · cases h; rfl
    · cases h; rfl
    · cases h
  · intro i hi
    rcases i with _ | _ | _ | _ | _ | _ | _ | _ | i
    · simp at hi
    · simp at hi
    · simp at hi
    · rfl
    · rfl
    · rfl
    · rfl
    · rfl
    · rfl

theorem demo_queue_full_reachable (tr : vtraits) : Reachable tr ltN demo_queue_full := by
  have r1 : Reachable tr ltN
      (⟨⟨100, 101, 108, [some 8, none, none, none, none, none, none, none]⟩⟩ :
        priority_queue Nat) :=
    Reachable.push Reachable.empty (first_push tr 100 8 rfl)
  have r2 : Reachable tr ltN
      (⟨⟨100, 102, 108, [some 8, some 7, none, none, none, none, none, none]⟩⟩ :
        priority_queue Nat) :=
    Reachable.push r1
      (show push tr 100 ltN
        ⟨⟨100, 101, 108, [some 8, none, none, none, none, none, none, none]⟩⟩
        (cref.obj 7) = _ from rfl)
  have r3 : Reachable tr ltN
      (⟨⟨100, 103, 108, [some 8, some 7, some 6, none, none, none, none, none]⟩⟩ :
        priority_queue Nat) :=
    Reachable.push r2
      (show push tr 100 ltN
        ⟨⟨100, 102, 108, [some 8, some 7, none, none, none, none, none, none]⟩⟩
        (cref.obj 6) = _ from rfl)
  have r4 : Reachable tr ltN
      (⟨⟨100, 104, 108, [some 8, some 7, some 6, some 5, none, none, none, none]⟩⟩ :
        priority_queue Nat) :=
    Reachable.push r3
      (show push tr 100 ltN
        ⟨⟨100, 103, 108, [some 8, some 7, some 6, none, none, none, none, none]⟩⟩
        (cref.obj 5) = _ from rfl)
  have r5 : Reachable tr ltN
      (⟨⟨100, 105, 108, [some 8, some 7, some 6, some 5, some 4, none, none, none]⟩⟩ :
        priority_queue Nat) :=
    Reachable.push r4
      (show push tr 100 ltN
        ⟨⟨100, 104, 108, [some 8, some 7, some 6, some 5, none, none, none, none]⟩⟩
        (cref.obj 4) = _ from rfl)
  have r6 : Reachable tr ltN
      (⟨⟨100, 106, 108, [some 8, some 7, some 6, some 5, some 4, some 3, none, none]⟩⟩ :
        priority_queue Nat) :=
    Reachable.push r5
      (show push tr 100 ltN
        ⟨⟨100, 105, 108, [some 8, some 7, some 6, some 5, some 4, none, none, none]⟩⟩
        (cref.obj 3) = _ from rfl)
  have r7 : Reachable tr ltN
      (⟨⟨100, 107, 108, [some 8, some 7, some 6, some 5, some 4, some 3, some 2, none]⟩⟩ :
        priority_queue Nat) :=
    Reachable.push r6
      (show push tr 100 ltN
        ⟨⟨100, 106, 108, [some 8, some 7, some 6, some 5, some 4, some 3, none, none]⟩⟩
        (cref.obj 2) = _ from rfl)
  have r8 : Reachable tr ltN
      (⟨⟨100, 108, 108, [some 8, some 7, some 6, some 5, some 4, some 3, some 2, some 1]⟩⟩ :
        priority_queue Nat) :=
    Reachable.push r7
      (show push tr 100 ltN
        ⟨⟨100, 107, 108, [some 8, some 7, some 6, some 5, some 4, some 3, some 2, none]⟩⟩
        (cref.obj 1) = _ from rfl)
  exact r8

theorem demo_queue_full_HoldsOnly :
    HoldsOnly demo_queue_full.container_ [8, 7, 6, 5, 4, 3, 2, 1] := by
  refine ⟨⟨by decide, by decide, rfl, rfl, ?_, by decide⟩, ?_⟩
  · intro i x h
    rcases i with _ | _ | _ | _ | _ | _ | _ | _ | i
    · cases h; rfl
    · cases h; rfl
    · cases h; rfl
    · cases h; rfl
    · cases h; rfl
    · cases h; rfl
    · cases h; rfl
    · cases h; rfl
    · cases h
  · intro i hi
    rcases i with _ | _ | _ | _ | _ | _ | _ | _ | i
    · simp at hi
    · simp at hi
    · simp at hi
    · simp at hi
    · simp at hi
    · simp at hi
    · simp at hi
    · simp at hi
    · rfl

end priority_queue
end taapp

namespace taapp
namespace list
variable {T : Type}

/-! ## Reading and writing the memory of the lists -/

theorem anext_write (m : memory T) (p : Nat) (c : tnode T) (x : Nat) :
    anext (write m p c) x = if x = p then some c.anext else anext m x := by
  unfold anext write
  by_cases h : x = p
  · simp only [h, if_true]
  · simp only [h, if_false]

theorem aprev_write (m : memory T) (p : Nat) (c : tnode T) (x : Nat) :
    aprev (write m p c) x = if x = p then some c.aprev else aprev m x := by
  unfold aprev write
  by_cases h : x = p
  · simp only [h, if_true]
  · simp only [h, if_false]

theorem value_write (m : memory T) (p : Nat) (c : tnode T) (x : Nat) :
    value (write m p c) x = if x = p then c.value else value m x := by
  unfold value write
  by_cases h : x = p
  · simp only [h, if_true]
  · simp only [h, if_false]

theorem anext_free (m : memory T) (p : Nat) (x : Nat) :
    anext (free m p) x = if x = p then none else anext m x := by
  unfold anext free
  by_cases h : x = p
  · simp only [h, if_true]
  · simp only [h, if_false]

theorem aprev_free (m : memory T) (p : Nat) (x : Nat) :
    aprev (free m p) x = if x = p then none else aprev m x := by
  unfold aprev free
  by_cases h : x = p
  · simp only [h, if_true]
  · simp only [h, if_false]

theorem value_free (m : memory T) (p : Nat) (x : Nat) :
    value (free m p) x = if x = p then none else value m x := by
  unfold value free
  by_cases h : x = p
  · simp only [h, if_true]
  · simp only [h, if_false]

theorem anext_none {m : memory T} {p : Nat} (h : m p = none) : anext m p = none := by
  unfold anext; rw [h]

theorem aprev_none {m : memory T} {p : Nat} (h : m p = none) : aprev m p = none := by
  unfold aprev; rw [h]

theorem value_none {m : memory T} {p : Nat} (h : m p = none) : value m p = none := by
  unfold value; rw [h]

theorem aprev_isSome (m : memory T) (p : Nat) : (aprev m p).isSome = (anext m p).isSome := by
  unfold aprev anext
  cases m p <;> rfl

theorem mem_isSome (m : memory T) (p : Nat) : (m p).isSome = (anext m p).isSome := by
  unfold anext
  cases m p <;> rfl

theorem value_some_anext {m : memory T} {p : Nat} {v : T} (h : value m p = some v) :
    (anext m p).isSome = true := by
  unfold value at h
  unfold anext
  cases hm : m p with
  | none => rw [hm] at h; cases h
  | some c => rfl

/-- The effect of `p->anext = v` on a node that is there. -/
theorem set_anext_spec {m : memory T} {p : Nat} (v : Nat) (h : (anext m p).isSome = true) :
    ∃ m1, set_anext m p v = some m1 ∧
      (∀ x, anext m1 x = if x = p then some v else anext m x) ∧
      (∀ x, aprev m1 x = aprev m x) ∧ (∀ x, value m1 x = value m x) := by
  unfold set_anext
  cases hm : m p with
  | none => rw [anext_none hm] at h; cases h
  | some c =>
    refine ⟨_, rfl, fun x => anext_write _ _ _ _, fun x => ?_, fun x => ?_⟩
    · rw [aprev_write]
      by_cases hx : x = p
      · rw [if_pos hx, hx, aprev, hm]
      · rw [if_neg hx]
    · rw [value_write]
      by_cases hx : x = p
      · rw [if_pos hx, hx, value, hm]
      · rw [if_neg hx]

/-- The effect of `p->aprev = v` on a node that is there. -/
theorem set_aprev_spec {m : memory T} {p : Nat} (v : Nat) (h : (anext m p).isSome = true) :
    ∃ m1, set_aprev m p v = some m1 ∧
      (∀ x, anext m1 x = anext m x) ∧
      (∀ x, aprev m1 x = if x = p then some v else aprev m x) ∧
      (∀ x, value m1 x = value m x) := by
  unfold set_aprev
  cases hm : m p with
  | none => rw [anext_none hm] at h; cases h
  | some c =>
    refine ⟨_, rfl, fun x => ?_, fun x => aprev_write _ _ _ _, fun x => ?_⟩
    · rw [anext_write]
      by_cases hx : x = p
      · rw [if_pos hx, hx, anext, hm]
      · rw [if_neg hx]
    · rw [value_write]
      by_cases hx : x = p
      · rw [if_pos hx, hx, value, hm]
      · rw [if_neg hx]

theorem new_node_spec (m : memory T) {fresh : Nat} (t : T) (h : fresh ≠ 0) :
    ∃ m1, new_node m fresh t = some m1 ∧
      (∀ x, anext m1 x = if x = fresh then some 0 else anext m x) ∧
      (∀ x, aprev m1 x = if x = fresh then some 0 else aprev m x) ∧
      (∀ x, value m1 x = if x = fresh then some t else value m x) := by
  unfold new_node
  rw [if_neg h]
  exact ⟨_, rfl, fun x => anext_write _ _ _ _, fun x => aprev_write _ _ _ _,
    fun x => value_write _ _ _ _⟩

theorem delete_node_spec {m : memory T} {n : Nat} {v : T} (h : value m n = some v) :
    ∃ m1, delete_node m n = some m1 ∧
      (∀ x, anext m1 x = if x = n then none else anext m x) ∧
      (∀ x, aprev m1 x = if x = n then none else aprev m x) ∧
      (∀ x, value m1 x = if x = n then none else value m x) := by
  unfold delete_node
  rw [h]
  exact ⟨_, rfl, fun x => anext_free _ _ _, fun x => aprev_free _ _ _,
    fun x => value_free _ _ _⟩

/-! ## The effect of the operations on the links -/

theorem insert_effect {m : memory T} {pos q fresh : Nat} (t : T) (hf : fresh ≠ 0)
    (hm : m fresh = none) (hq : aprev m pos = some q) (hqa : (anext m q).isSome = true) :
    ∃ m1, insert m pos fresh t = some (m1, fresh) ∧ Inserted m m1 q fresh pos t := by
  have hnf : anext m fresh = none := anext_none hm
  have hpf : pos ≠ fresh := by
    rintro rfl
    rw [aprev_none hm] at hq
    cases hq
  have hqf : q ≠ fresh := by
    rintro rfl
    rw [hnf] at hqa
    cases hqa
  have hpa : (anext m pos).isSome = true := by rw [← aprev_isSome, hq]; rfl
  obtain ⟨m1, e1, a1, p1, v1⟩ := new_node_spec m t hf
  obtain ⟨m2, e2, a2, p2, v2⟩ := set_aprev_spec (m := m1) (p := fresh) q
    (by rw [a1, if_pos rfl]; rfl)
  obtain ⟨m3, e3, a3, p3, v3⟩ := set_anext_spec (m := m2) (p := fresh) pos
    (by rw [a2, a1, if_pos rfl]; rfl)
  obtain ⟨m4, e4, a4, p4, v4⟩ := set_anext_spec (m := m3) (p := q) fresh
    (by rw [a3, if_neg hqf, a2, a1, if_neg hqf]; exact hqa)
  obtain ⟨m5, e5, a5, p5, v5⟩ := set_aprev_spec (m := m4) (p := pos) fresh
    (by
      rw [a4, a3, a2, a1]
      by_cases h : pos = q
      · rw [if_pos h]; rfl
      · rw [if_neg h, if_neg hpf, if_neg hpf]; exact hpa)
  have r1 : aprev m1 pos = some q := by rw [p1, if_neg hpf]; exact hq
  have r3 : aprev m3 pos = some q := by rw [p3, p2, if_neg hpf]; exact r1
  refine ⟨m5, ?_, ?_, ?_, ?_⟩
  · simp only [insert, bind, Option.bind, e1, r1, e2, e3, r3, e4, e5, pure]
  · intro x
    rw [a5, a4, a3, a2, a1]
    by_cases h1 : x = fresh
    · subst h1
      rw [if_neg (Ne.symm hqf), if_pos rfl, if_pos rfl]
    · rw [if_neg h1, if_neg h1, if_neg h1]
  · intro x
    rw [p5, p4, p3, p2, p1]
    by_cases h1 : x = fresh
    · subst h1
      rw [if_neg (Ne.symm hpf), if_pos rfl, if_pos rfl]
    · by_cases h2 : x = pos
      · rw [if_pos h2, if_neg h1, if_pos h2]
      · rw [if_neg h2, if_neg h1, if_neg h1, if_neg h1, if_neg h2]
  · intro x
    rw [v5, v4, v3, v2, v1]

end list
end taapp

namespace taapp
namespace list
variable {T : Type}

theorem push_back_effect {m : memory T} {a q fresh : Nat} (t : T) (hf : fresh ≠ 0)
    (hm : m fresh = none) (hq : aprev m a = some q) (hqa : (anext m q).isSome = true) :
    ∃ m1, push_back m a fresh t = some m1 ∧ Inserted m m1 q fresh a t := by
  obtain ⟨m1, e1, h1⟩ := insert_effect t hf hm hq hqa
  refine ⟨m1, ?_, h1⟩
  simp only [insert, bind, Option.bind, pure] at e1
  simp only [push_back, bind, Option.bind]
  revert e1
  cases new_node m fresh t with
  | none => intro e1; cases e1
  | some m2 =>
    dsimp only
    cases aprev m2 a with
    | none => intro e1; cases e1
    | some x =>
      dsimp only
      cases set_aprev m2 fresh x with
      | none => intro e1; cases e1
      | some m3 =>
        dsimp only
        cases set_anext m3 fresh a with
        | none => intro e1; cases e1
        | some m4 =>
          dsimp only
          cases aprev m4 a with
          | none => intro e1; cases e1
          | some y =>
            dsimp only
            cases set_anext m4 y fresh with
            | none => intro e1; cases e1
            | some m5 =>
              dsimp only
              cases set_aprev m5 a fresh with
              | none => intro e1; cases e1
              | some m6 =>
                intro e1
                simp only [Option.some.injEq, Prod.mk.injEq, and_true] at e1
                rw [e1]

theorem push_front_effect {m : memory T} {a p fresh : Nat} (t : T) (hf : fresh ≠ 0)
    (hm : m fresh = none) (hp : anext m a = some p) (hpa : (anext m p).isSome = true) :
    ∃ m1, push_front m a fresh t = some m1 ∧ Inserted m m1 a fresh p t := by
  have hnf : anext m fresh = none := anext_none hm
  have haf : a ≠ fresh := by
    rintro rfl
    rw [hnf] at hp
    cases hp
  have hpf : p ≠ fresh := by
    rintro rfl
    rw [hnf] at hpa
    cases hpa
  have haa : (anext m a).isSome = true := by rw [hp]; rfl
  obtain ⟨m1, e1, a1, p1, v1⟩ := new_node_spec m t hf
  obtain ⟨m2, e2, a2, p2, v2⟩ := set_anext_spec (m := m1) (p := fresh) p
    (by rw [a1, if_pos rfl]; rfl)
  obtain ⟨m3, e3, a3, p3, v3⟩ := set_aprev_spec (m := m2) (p := fresh) a
    (by rw [a2, if_pos rfl]; rfl)
  obtain ⟨m4, e4, a4, p4, v4⟩ := set_aprev_spec (m := m3) (p := p) fresh
    (by rw [a3, a2, if_neg hpf, a1, if_neg hpf]; exact hpa)
  obtain ⟨m5, e5, a5, p5, v5⟩ := set_anext_spec (m := m4) (p := a) fresh
    (by rw [a4, a3, a2, if_neg haf, a1, if_neg haf]; exact haa)
  have r1 : anext m1 a = some p := by rw [a1, if_neg haf]; exact hp
  have r3 : anext m3 a = some p := by rw [a3, a2, if_neg haf]; exact r1
  refine ⟨m5, ?_, ?_, ?_, ?_⟩
  · simp only [push_front, bind, Option.bind, e1, r1, e2, e3, r3, e4, e5]
  · intro x
    rw [a5, a4, a3, a2, a1]
    by_cases h1 : x = fresh
    · subst h1
      rw [if_neg (Ne.symm haf), if_pos rfl, if_pos rfl]
    · by_cases h2 : x = a
      · rw [if_pos h2, if_neg h1, if_pos h2]
      · rw [if_neg h2, if_neg h1, if_neg h1, if_neg h1, if_neg h2]
  · intro x
    rw [p5, p4, p3, p2, p1]
    by_cases h1 : x = fresh
    · subst h1
      rw [if_neg (Ne.symm hpf), if_pos rfl, if_pos rfl]
    · rw [if_neg h1, if_neg h1, if_neg h1]
  · intro x
    rw [v5, v4, v3, v2, v1]

theorem erase_effect {m : memory T} {n q p : Nat} {v : T} (hv : value m n = some v)
    (hq : aprev m n = some q) (hp : anext m n = some p) (hqn : q ≠ n)
    (hqa : (anext m q).isSome = true) (hpa : (anext m p).isSome = true) :
    ∃ m1, erase m n = some (m1, p) ∧ Removed m m1 q n p := by
  obtain ⟨m1, e1, a1, p1, v1⟩ := set_anext_spec (m := m) (p := q) p hqa
  have r1 : anext m1 n = some p := by rw [a1, if_neg (Ne.symm hqn)]; exact hp
  have r2 : aprev m1 n = some q := by rw [p1]; exact hq
  obtain ⟨m2, e2, a2, p2, v2⟩ := set_aprev_spec (m := m1) (p := p) q
    (by
      rw [a1]
      by_cases h : p = q
      · rw [if_pos h]; rfl
      · rw [if_neg h]; exact hpa)
  obtain ⟨m3, e3, a3, p3, v3⟩ := delete_node_spec (m := m2) (n := n) (v := v)
    (by rw [v2, v1]; exact hv)
  refine ⟨m3, ?_, ?_, ?_, ?_⟩
  · simp only [erase, bind, Option.bind, hp, hq, e1, r1, r2, e2, e3, pure]
  · intro x
    rw [a3, a2, a1]
  · intro x
    rw [p3, p2, p1]
  · intro x
    rw [v3, v2, v1]

theorem pop_back_effect {m : memory T} {a n q : Nat} {v : T} (hn : aprev m a = some n)
    (hv : value m n = some v) (hq : aprev m n = some q)
    (hqa : (anext m q).isSome = true) :
    ∃ m1, pop_back m a = some m1 ∧ Removed m m1 q n a := by
  have haa : (anext m a).isSome = true := by rw [← aprev_isSome, hn]; rfl
  obtain ⟨m1, e1, a1, p1, v1⟩ := set_anext_spec (m := m) (p := q) a hqa
  have r2 : aprev m1 n = some q := by rw [p1]; exact hq
  obtain ⟨m2, e2, a2, p2, v2⟩ := set_aprev_spec (m := m1) (p := a) q
    (by
      rw [a1]
      by_cases h : a = q
      · rw [if_pos h]; rfl
      · rw [if_neg h]; exact haa)
  obtain ⟨m3, e3, a3, p3, v3⟩ := delete_node_spec (m := m2) (n := n) (v := v)
    (by rw [v2, v1]; exact hv)
  refine ⟨m3, ?_, ?_, ?_, ?_⟩
  · simp only [pop_back, bind, Option.bind, hn, hq, e1, r2, e2, e3]
  · intro x
    rw [a3, a2, a1]
  · intro x
    rw [p3, p2, p1]
  · intro x
    rw [v3, v2, v1]

theorem pop_front_effect {m : memory T} {a n p : Nat} {v : T} (hn : anext m a = some n)
    (hv : value m n = some v) (hp : anext m n = some p)
    (hpa : (anext m p).isSome = true) :
    ∃ m1, pop_front m a = some m1 ∧ Removed m m1 a n p := by
  have haa : (anext m a).isSome = true := by rw [hn]; rfl
  obtain ⟨m1, e1, a1, p1, v1⟩ := set_aprev_spec (m := m) (p := p) a hpa
  have r2 : anext m1 n = some p := by rw [a1]; exact hp
  obtain ⟨m2, e2, a2, p2, v2⟩ := set_anext_spec (m := m1) (p := a) p
    (by rw [a1]; exact haa)
  obtain ⟨m3, e3, a3, p3, v3⟩ := delete_node_spec (m := m2) (n := n) (v := v)
    (by rw [v2, v1]; exact hv)
  refine ⟨m3, ?_, ?_, ?_, ?_⟩
  · simp only [pop_front, bind, Option.bind, hn, hp, e1, r2, e2, e3]
  · intro x
    rw [a3, a2, a1]
  · intro x
    rw [p3, p2, p1]
  · intro x
    rw [v3, v2, v1]

/-- The effect of `splice` when `other` has elements: `f` is its first node
and `l` its last. -/
theorem splice_effect {m : memory T} {pos q b f l : Nat} (hq : aprev m pos = some q)
    (hf : anext m b = some f) (hl : aprev m b = some l) (hbq : b ≠ q) (hbp : b ≠ pos)
    (hfb : f ≠ b)
    (hqa : (anext m q).isSome = true) (hfa : (anext m f).isSome = true)
    (hla : (anext m l).isSome = true) :
    ∃ m1, splice m pos b = some m1 ∧ Spliced m m1 q pos b f l := by
  have hpa : (anext m pos).isSome = true := by rw [← aprev_isSome, hq]; rfl
  have hba : (anext m b).isSome = true := by rw [hf]; rfl
  obtain ⟨m1, e1, a1, p1, v1⟩ := set_anext_spec (m := m) (p := q) f hqa
  have r1 : anext m1 b = some f := by rw [a1, if_neg hbq]; exact hf
  have r2 : aprev m1 pos = some q := by rw [p1]; exact hq
  have al1 : ∀ x, (anext m1 x).isSome = (anext m x).isSome := by
    intro x
    rw [a1]
    by_cases h : x = q
    · rw [if_pos h, h, hqa]; rfl
    · rw [if_neg h]
  obtain ⟨m2, e2, a2, p2, v2⟩ := set_aprev_spec (m := m1) (p := f) q
    (by rw [al1]; exact hfa)
  have r3 : aprev m2 b = some l := by rw [p2, if_neg (Ne.symm hfb), p1]; exact hl
  obtain ⟨m3, e3, a3, p3, v3⟩ := set_aprev_spec (m := m2) (p := pos) l
    (by rw [a2, al1]; exact hpa)
  have r4 : aprev m3 b = some l := by rw [p3, if_neg hbp]; exact r3
  obtain ⟨m4, e4, a4, p4, v4⟩ := set_anext_spec (m := m3) (p := l) pos
    (by rw [a3, a2, al1]; exact hla)
  have al4 : ∀ x, (anext m4 x).isSome = (anext m x).isSome := by
    intro x
    rw [a4]
    by_cases h : x = l
    · rw [if_pos h, h, hla]; rfl
    · rw [if_neg h, a3, a2, al1]
  obtain ⟨m5, e5, a5, p5, v5⟩ := set_aprev_spec (m := m4) (p := b) b
    (by rw [al4]; exact hba)
  obtain ⟨m6, e6, a6, p6, v6⟩ := set_anext_spec (m := m5) (p := b) b
    (by rw [a5, al4]; exact hba)
  refine ⟨m6, ?_, ?_, ?_, ?_⟩
  · simp only [splice, bind, Option.bind, hq, hf, e1, r1, r2, e2, r3, e3, r4, e4, e5, e6]
  · intro x
    rw [a6, a5, a4, a3, a2, a1]
  · intro x
    rw [p6, p5, p4, p3, p2, p1]
  · intro x
    rw [v6, v5, v4, v3, v2, v1]

/-- The effect of `splice` when `other` is empty: every link is as before. -/
theorem splice_empty_effect {m : memory T} {pos q b : Nat} (hq : aprev m pos = some q)
    (hf : anext m b = some b) (hl : aprev m b = some b) (hbq : b ≠ q) (hbp : b ≠ pos)
    (hqp : anext m q = some pos) :
    ∃ m1, splice m pos b = some m1 ∧ (∀ x, anext m1 x = anext m x) ∧
      (∀ x, aprev m1 x = aprev m x) ∧ (∀ x, value m1 x = value m x) := by
  have hpa : (anext m pos).isSome = true := by rw [← aprev_isSome, hq]; rfl
  have hba : (anext m b).isSome = true := by rw [hf]; rfl
  have hqa : (anext m q).isSome = true := by rw [hqp]; rfl
  obtain ⟨m1, e1, a1, p1, v1⟩ := set_anext_spec (m := m) (p := q) b hqa
  have r1 : anext m1 b = some b := by rw [a1, if_neg hbq]; exact hf
  have r2 : aprev m1 pos = some q := by rw [p1]; exact hq
  have al1 : ∀ x, (anext m1 x).isSome = (anext m x).isSome := by
    intro x
    rw [a1]
    by_cases h : x = q
    · rw [if_pos h, h, hqa]; rfl
    · rw [if_neg h]
  obtain ⟨m2, e2, a2, p2, v2⟩ := set_aprev_spec (m := m1) (p := b) q
    (by rw [al1]; exact hba)
  have r3 : aprev m2 b = some q := by rw [p2, if_pos rfl]
  obtain ⟨m3, e3, a3, p3, v3⟩ := set_aprev_spec (m := m2) (p := pos) q
    (by rw [a2, al1]; exact hpa)
  have r4 : aprev m3 b = some q := by rw [p3, if_neg hbp]; exact r3
  obtain ⟨m4, e4, a4, p4, v4⟩ := set_anext_spec (m := m3) (p := q) pos
    (by rw [a3, a2, al1]; exact hqa)
  have al4 : ∀ x, (anext m4 x).isSome = (anext m x).isSome := by
    intro x
    rw [a4]
    by_cases h : x = q
    · rw [if_pos h, h, hqa]; rfl
    · rw [if_neg h, a3, a2, al1]
  obtain ⟨m5, e5, a5, p5, v5⟩ := set_aprev_spec (m := m4) (p := b) b
    (by rw [al4]; exact hba)
  obtain ⟨m6, e6, a6, p6, v6⟩ := set_anext_spec (m := m5) (p := b) b
    (by rw [a5, al4]; exact hba)
  refine ⟨m6, ?_, ?_, ?_, ?_⟩
  · simp only [splice, bind, Option.bind, hq, hf, e1, r1, r2, e2, r3, e3, r4, e4, e5, e6]
  · intro x
    rw [a6, a5, a4, a3, a2, a1]
    by_cases h1 : x = b
    · rw [if_pos h1, h1, hf]
    · rw [if_neg h1]
      by_cases h2 : x = q
      · rw [if_pos h2, h2, hqp]
      · rw [if_neg h2, if_neg h2]
  · intro x
    rw [p6, p5, p4, p3, p2, p1]
    by_cases h1 : x = b
    · rw [if_pos h1, h1, hl]
    · rw [if_neg h1]
      by_cases h2 : x = pos
      · rw [if_pos h2, h2, hq]
      · rw [if_neg h2, if_neg h1]
  · intro x
    rw [v6, v5, v4, v3, v2, v1]

end list
end taapp

namespace taapp
namespace list
variable {T : Type}

/-! ## Rings -/

theorem chain_frame {m m1 : memory T} : ∀ (l : List Nat), List.Chain' (Link m) l →
    (∀ x ∈ l.dropLast, anext m1 x = anext m x) → (∀ y ∈ l.tail, aprev m1 y = aprev m y) →
    List.Chain' (Link m1) l := by
  intro l
  induction l with
  | nil => intro _ _ _; exact List.chain'_nil
  | cons a l ih =>
    cases l with
    | nil => intro _ _ _; exact List.chain'_singleton a
    | cons b l =>
      intro hc hs ht
      rw [List.chain'_cons] at hc ⊢
      refine ⟨⟨?_, ?_⟩, ih hc.2 (fun x hx => hs x ?_) (fun y hy => ht y ?_)⟩
      · rw [hs a (by simp)]; exact hc.1.1
      · rw [ht b (by simp)]; exact hc.1.2
      · simp only [List.dropLast_cons₂, List.mem_cons]
        exact Or.inr hx
      · simp only [List.tail_cons, List.mem_cons]
        exact Or.inr hy

theorem getLast?_not_mem_dropLast : ∀ {l : List Nat} {q : Nat}, l.Nodup →
    l.getLast? = some q → q ∉ l.dropLast := by
  intro l q hn hq hm
  have hne : l ≠ [] := by
    rintro rfl
    cases hq
  have e := List.dropLast_append_getLast? q hq
  rw [← e] at hn
  exact (List.disjoint_of_nodup_append hn) hm (List.mem_singleton_self q)

theorem head?_not_mem_tail : ∀ {l : List Nat} {p : Nat}, l.Nodup →
    l.head? = some p → p ∉ l.tail := by
  intro l p hn hp
  cases l with
  | nil => cases hp
  | cons a l =>
    simp only [List.head?_cons, Option.some.injEq] at hp
    subst hp
    exact (List.nodup_cons.1 hn).1

theorem mem_of_getLast? {l : List Nat} {q : Nat} (h : l.getLast? = some q) : q ∈ l :=
  List.mem_of_getLast?_eq_some h

theorem mem_of_head? {l : List Nat} {p : Nat} (h : l.head? = some p) : p ∈ l :=
  List.mem_of_mem_head? h

theorem Ring_congr {m m1 : memory T} {a : Nat} {ns : List Nat} (h : Ring m a ns)
    (hs : ∀ x ∈ a :: ns, anext m1 x = anext m x) (ht : ∀ x ∈ a :: ns, aprev m1 x = aprev m x)
    (hv : value m1 a = value m a) : Ring m1 a ns := by
  obtain ⟨hc, hn, ha⟩ := h
  refine ⟨chain_frame _ hc (fun x hx => hs x ?_) (fun y hy => ht y ?_), hn, by rw [hv]; exact ha⟩
  · have : (a :: ns ++ [a]).dropLast = a :: ns := by
      rw [List.dropLast_append_of_ne_nil _ (by simp)]
      simp
    rw [this] at hx
    exact hx
  · simp only [List.cons_append, List.tail_cons, List.mem_append, List.mem_singleton] at hy
    simp only [List.mem_cons]
    tauto

theorem IsList_congr {m m1 : memory T} {a : Nat} {ns : List Nat} {xs : List T}
    (h : IsList m a ns xs)
    (hs : ∀ x ∈ a :: ns, anext m1 x = anext m x) (ht : ∀ x ∈ a :: ns, aprev m1 x = aprev m x)
    (hv : ∀ x ∈ a :: ns, value m1 x = value m x) : IsList m1 a ns xs := by
  refine ⟨Ring_congr h.1 hs ht (hv a (by simp)), ?_⟩
  rw [← h.2]
  exact List.map_congr_left (fun x hx => hv x (List.mem_cons_of_mem _ hx))

/-- The parts of a ring around a position: the chain up to the node before
the position, the chain from the position on, and the link between the two. -/
theorem Ring_split {m : memory T} {a : Nat} {l1 l2 : List Nat} (h : Ring m a (l1 ++ l2))
    {q p : Nat} (hq : (a :: l1).getLast? = some q) (hp : (l2 ++ [a]).head? = some p) :
    List.Chain' (Link m) (a :: l1) ∧ List.Chain' (Link m) (l2 ++ [a]) ∧ Link m q p := by
  have hc := h.1
  have e : a :: (l1 ++ l2) ++ [a] = (a :: l1) ++ (l2 ++ [a]) := by simp
  rw [e, List.chain'_append] at hc
  exact ⟨hc.1, hc.2.1, hc.2.2 q hq p hp⟩

theorem Ring_insert {m m1 : memory T} {a : Nat} {l1 l2 : List Nat} {q n p : Nat} {t : T}
    (h : Ring m a (l1 ++ l2)) (hq : (a :: l1).getLast? = some q)
    (hp : (l2 ++ [a]).head? = some p) (hn : n ∉ a :: (l1 ++ l2))
    (he : Inserted m m1 q n p t) : Ring m1 a (l1 ++ n :: l2) := by
  obtain ⟨c1, c2, -⟩ := Ring_split h hq hp
  obtain ⟨-, hnd, hva⟩ := h
  obtain ⟨ea, ep, ev⟩ := he
  have hnd1 : (a :: l1).Nodup := by
    have := hnd
    rw [← List.cons_append] at this
    exact (List.nodup_append.1 this).1
  have hnd2 : (l2 ++ [a]).Nodup := by
    simp only [List.nodup_cons, List.mem_append, not_or] at hnd
    rw [List.nodup_append] at hnd ⊢
    refine ⟨hnd.2.2.1, List.nodup_singleton a, ?_⟩
    intro x hx hxa
    simp only [List.mem_singleton] at hxa
    subst hxa
    exact hnd.1.2 hx
  have hdis : ∀ x, x ∈ l1 → x ∈ l2 → False := by
    intro x h1 h2
    have := (List.nodup_cons.1 hnd).2
    exact (List.disjoint_of_nodup_append this) h1 h2
  have hal1 : a ∉ l1 := fun hx => (List.nodup_cons.1 hnd).1 (List.mem_append_left _ hx)
  have hal2 : a ∉ l2 := fun hx => (List.nodup_cons.1 hnd).1 (List.mem_append_right _ hx)
  have hqm := mem_of_getLast? hq
  have hpm := mem_of_head? hp
  have hna : n ≠ a := fun e => hn (by rw [e]; simp)
  have hn1 : n ∉ l1 := fun hx => hn (by simp [hx])
  have hn2 : n ∉ l2 := fun hx => hn (by simp [hx])
  have hpn : p ≠ n := by
    rintro rfl
    simp only [List.mem_append, List.mem_singleton] at hpm
    rcases hpm with hpm | hpm
    · exact hn2 hpm
    · exact hna hpm
  have hqn : q ≠ n := by
    rintro rfl
    simp only [List.mem_cons] at hqm
    rcases hqm with hqm | hqm
    · exact hna hqm
    · exact hn1 hqm
  have e : a :: (l1 ++ n :: l2) ++ [a] = (a :: l1) ++ (n :: (l2 ++ [a])) := by simp
  refine ⟨?_, ?_, ?_⟩
  · rw [e, List.chain'_append]
    refine ⟨chain_frame _ c1 ?_ ?_, ?_, ?_⟩
    · intro x hx
      have hxm := List.mem_of_mem_dropLast hx
      rw [ea, if_neg (by rintro rfl; exact hn (by
        simp only [List.mem_cons, List.mem_append] at hxm ⊢; tauto)),
        if_neg (by rintro rfl; exact getLast?_not_mem_dropLast hnd1 hq hx)]
    · intro y hy
      simp only [List.tail_cons] at hy
      rw [ep, if_neg (by rintro rfl; exact hn1 hy), if_neg ?_]
      rintro rfl
      simp only [List.mem_append, List.mem_singleton] at hpm
      rcases hpm with hpm | hpm
      · exact hdis _ hy hpm
      · exact hal1 (hpm ▸ hy)
    · rw [List.chain'_cons']
      refine ⟨?_, chain_frame _ c2 ?_ ?_⟩
      · intro y hy
        rw [hp] at hy
        cases hy
        exact ⟨by rw [ea, if_pos rfl], by rw [ep, if_neg hpn, if_pos rfl]⟩
      · intro x hx
        have : (l2 ++ [a]).dropLast = l2 := by simp
        rw [this] at hx
        rw [ea, if_neg (by rintro rfl; exact hn2 hx), if_neg ?_]
        rintro rfl
        simp only [List.mem_cons] at hqm
        rcases hqm with hqm | hqm
        · exact hal2 (hqm ▸ hx)
        · exact hdis _ hqm hx
      · intro y hy
        rw [ep, if_neg ?_, if_neg (by rintro rfl; exact head?_not_mem_tail hnd2 hp hy)]
        rintro rfl
        have := List.mem_of_mem_tail hy
        simp only [List.mem_append, List.mem_singleton] at this
        rcases this with h1 | h1
        · exact hn2 h1
        · exact hna h1
    · intro x hx y hy
      rw [hq] at hx
      cases hx
      simp only [List.head?_cons, Option.mem_def, Option.some.injEq] at hy
      subst hy
      exact ⟨by rw [ea, if_neg hqn, if_pos rfl], by rw [ep, if_pos rfl]⟩
  · have hpm : (l1 ++ n :: l2).Perm (n :: (l1 ++ l2)) := List.perm_middle
    refine ((List.Perm.cons a hpm).nodup_iff).2 ?_
    rw [List.nodup_cons] at hnd ⊢
    refine ⟨?_, List.nodup_cons.2 ⟨fun hx => hn (List.mem_cons_of_mem _ hx), hnd.2⟩⟩
    simp only [List.mem_cons, not_or]
    exact ⟨Ne.symm hna, hnd.1⟩
  · rw [ev, if_neg (Ne.symm hna)]
    exact hva

end list
end taapp

namespace taapp
namespace list
variable {T : Type}

theorem nodup_parts {a : Nat} {l1 l2 : List Nat} (hnd : (a :: (l1 ++ l2)).Nodup) :
    (a :: l1).Nodup ∧ (l2 ++ [a]).Nodup ∧ (∀ x, x ∈ l1 → x ∈ l2 → False) ∧
      a ∉ l1 ∧ a ∉ l2 := by
  have hal1 : a ∉ l1 := fun hx => (List.nodup_cons.1 hnd).1 (List.mem_append_left _ hx)
  have hal2 : a ∉ l2 := fun hx => (List.nodup_cons.1 hnd).1 (List.mem_append_right _ hx)
  have h12 := (List.nodup_cons.1 hnd).2
  refine ⟨?_, ?_, ?_, hal1, hal2⟩
  · exact List.nodup_cons.2 ⟨hal1, (List.nodup_append.1 h12).1⟩
  · rw [List.nodup_append]
    refine ⟨(List.nodup_append.1 h12).2.1, List.nodup_singleton a, ?_⟩
    intro x hx hxa
    simp only [List.mem_singleton] at hxa
    subst hxa
    exact hal2 hx
  · intro x h1 h2
    exact (List.disjoint_of_nodup_append h12) h1 h2

/-- The links of a node of a ring to its two neighbours. -/
theorem Ring_links {m : memory T} {a n : Nat} {l1 l2 : List Nat}
    (h : Ring m a (l1 ++ n :: l2)) {q p : Nat} (hq : (a :: l1).getLast? = some q)
    (hp : (l2 ++ [a]).head? = some p) :
    Link m q n ∧ Link m n p ∧ q ≠ n ∧ p ≠ n ∧ n ≠ a ∧
      List.Chain' (Link m) (a :: l1) ∧ List.Chain' (Link m) (l2 ++ [a]) ∧
      (a :: (l1 ++ l2)).Nodup ∧ n ∉ a :: (l1 ++ l2) := by
  obtain ⟨hc, hnd, -⟩ := h
  have e : a :: (l1 ++ n :: l2) ++ [a] = (a :: l1) ++ (n :: (l2 ++ [a])) := by simp
  rw [e, List.chain'_append] at hc
  have hc2 := List.chain'_cons'.1 hc.2.1
  have hpm : (l1 ++ n :: l2).Perm (n :: (l1 ++ l2)) := List.perm_middle
  have hnd2 := ((List.Perm.cons a hpm).nodup_iff).1 hnd
  rw [List.nodup_cons, List.nodup_cons] at hnd2
  have hna : n ≠ a := by
    intro e
    apply hnd2.1
    rw [e]
    exact List.mem_cons_self _ _
  have hnn : n ∉ a :: (l1 ++ l2) := by
    intro hx
    rcases List.mem_cons.1 hx with hx | hx
    · exact hna hx
    · exact hnd2.2.1 hx
  have hnd3 : (a :: (l1 ++ l2)).Nodup :=
    List.nodup_cons.2 ⟨fun hx => hnd2.1 (List.mem_cons_of_mem _ hx), hnd2.2.2⟩
  refine ⟨hc.2.2 q hq n rfl, hc2.1 p hp, ?_, ?_, hna, hc.1, hc2.2, hnd3, hnn⟩
  · rintro rfl
    have := mem_of_getLast? hq
    exact hnn (by simp only [List.mem_cons, List.mem_append] at this ⊢; tauto)
  · rintro rfl
    have := mem_of_head? hp
    exact hnn (by simp only [List.mem_cons, List.mem_append, List.mem_singleton] at this ⊢; tauto)

theorem Removed.unlinked {m m1 : memory T} {q n p : Nat} (he : Removed m m1 q n p) :
    Unlinked m m1 q n p := by
  refine ⟨fun x hx => ?_, fun x hx => ?_, fun x hx => ?_⟩
  · rw [he.1, if_neg hx]
  · rw [he.2.1, if_neg hx]
  · rw [he.2.2, if_neg hx]

theorem Ring_unlink {m m1 : memory T} {a n : Nat} {l1 l2 : List Nat} {q p : Nat}
    (h : Ring m a (l1 ++ n :: l2)) (hq : (a :: l1).getLast? = some q)
    (hp : (l2 ++ [a]).head? = some p) (he : Unlinked m m1 q n p) : Ring m1 a (l1 ++ l2) := by
  obtain ⟨-, -, hqn, hpn, hna, c1, c2, hnd, hn⟩ := Ring_links h hq hp
  have hva := h.2.2
  obtain ⟨ea, ep, ev⟩ := he
  obtain ⟨hnd1, hnd2, hdis, hal1, hal2⟩ := nodup_parts hnd
  have hqm := mem_of_getLast? hq
  have hpm := mem_of_head? hp
  have hn1 : n ∉ l1 := fun hx => hn (by simp [hx])
  have hn2 : n ∉ l2 := fun hx => hn (by simp [hx])
  have e : a :: (l1 ++ l2) ++ [a] = (a :: l1) ++ (l2 ++ [a]) := by simp
  refine ⟨?_, hnd, ?_⟩
  · rw [e, List.chain'_append]
    refine ⟨chain_frame _ c1 ?_ ?_, chain_frame _ c2 ?_ ?_, ?_⟩
    · intro x hx
      have hxm := List.mem_of_mem_dropLast hx
      rw [ea x (by rintro rfl; exact hn (by
        simp only [List.mem_cons, List.mem_append] at hxm ⊢; tauto)),
        if_neg (by rintro rfl; exact getLast?_not_mem_dropLast hnd1 hq hx)]
    · intro y hy
      simp only [List.tail_cons] at hy
      rw [ep y (by rintro rfl; exact hn1 hy), if_neg ?_]
      rintro rfl
      simp only [List.mem_append, List.mem_singleton] at hpm
      rcases hpm with hpm | hpm
      · exact hdis _ hy hpm
      · exact hal1 (hpm ▸ hy)
    · intro x hx
      have : (l2 ++ [a]).dropLast = l2 := by simp
      rw [this] at hx
      rw [ea x (by rintro rfl; exact hn2 hx), if_neg ?_]
      rintro rfl
      simp only [List.mem_cons] at hqm
      rcases hqm with hqm | hqm
      · exact hal2 (hqm ▸ hx)
      · exact hdis _ hqm hx
    · intro y hy
      have hyn : y ≠ n := by
        rintro rfl
        have := List.mem_of_mem_tail hy
        simp only [List.mem_append, List.mem_singleton] at this
        rcases this with h1 | h1
        · exact hn2 h1
        · exact hna h1
      rw [ep y hyn, if_neg (by rintro rfl; exact head?_not_mem_tail hnd2 hp hy)]
    · intro x hx y hy
      rw [hq] at hx
      cases hx
      rw [hp] at hy
      cases hy
      exact ⟨by rw [ea _ hqn, if_pos rfl], by rw [ep _ hpn, if_pos rfl]⟩
  · rw [ev _ (Ne.symm hna)]
    exact hva

theorem Ring_remove {m m1 : memory T} {a n : Nat} {l1 l2 : List Nat} {q p : Nat}
    (h : Ring m a (l1 ++ n :: l2)) (hq : (a :: l1).getLast? = some q)
    (hp : (l2 ++ [a]).head? = some p) (he : Removed m m1 q n p) : Ring m1 a (l1 ++ l2) :=
  Ring_unlink h hq hp he.unlinked

theorem Ring_splice {m m1 : memory T} {a b : Nat} {l1 l2 ms : List Nat} {q p f l : Nat}
    (h : Ring m a (l1 ++ l2)) (hb : Ring m b ms)
    (hdj : ∀ x, x ∈ a :: (l1 ++ l2) → x ∈ b :: ms → False)
    (hq : (a :: l1).getLast? = some q) (hp : (l2 ++ [a]).head? = some p)
    (hf : ms.head? = some f) (hl : ms.getLast? = some l)
    (he : Spliced m m1 q p b f l) : Ring m1 a (l1 ++ ms ++ l2) ∧ Ring m1 b [] := by
  obtain ⟨c1, c2, -⟩ := Ring_split h hq hp
  obtain ⟨-, hnd, hva⟩ := h
  obtain ⟨hcb, hndb, hvb⟩ := hb
  obtain ⟨ea, ep, ev⟩ := he
  obtain ⟨hnd1, hnd2, hdis, hal1, hal2⟩ := nodup_parts hnd
  have hqm := mem_of_getLast? hq
  have hpm := mem_of_head? hp
  have hfm := mem_of_head? hf
  have hlm := mem_of_getLast? hl
  have hms : ms ≠ [] := by
    rintro rfl
    cases hf
  have cb : List.Chain' (Link m) ms := by
    have e : b :: ms ++ [b] = [b] ++ (ms ++ [b]) := rfl
    rw [e, List.chain'_append, List.chain'_append] at hcb
    exact hcb.2.1.1
  have hbms : b ∉ ms := (List.nodup_cons.1 hndb).1
  have hndms : ms.Nodup := (List.nodup_cons.1 hndb).2
  -- members of the first list are not in the second one
  have hA : ∀ x, x ∈ a :: (l1 ++ l2) → x ≠ b ∧ x ∉ ms := by
    intro x hx
    exact ⟨fun e => hdj x hx (by rw [e]; simp), fun hm => hdj x hx (List.mem_cons_of_mem _ hm)⟩
  have hB : ∀ x, x ∈ ms → x ∉ a :: (l1 ++ l2) :=
    fun x hx hm => (hA x hm).2 hx
  have hqA : q ∈ a :: (l1 ++ l2) := by
    simp only [List.mem_cons, List.mem_append] at hqm ⊢; tauto
  have hpA : p ∈ a :: (l1 ++ l2) := by
    simp only [List.mem_cons, List.mem_append, List.mem_singleton] at hpm ⊢; tauto
  have e : a :: (l1 ++ ms ++ l2) ++ [a] = (a :: l1) ++ (ms ++ (l2 ++ [a])) := by simp
  refine ⟨⟨?_, ?_, ?_⟩, ?_, List.nodup_singleton b, ?_⟩
  · rw [e, List.chain'_append, List.chain'_append]
    refine ⟨chain_frame _ c1 ?_ ?_, ⟨chain_frame _ cb ?_ ?_, chain_frame _ c2 ?_ ?_, ?_⟩, ?_⟩
    · intro x hx
      have hxm := List.mem_of_mem_dropLast hx
      have hxA : x ∈ a :: (l1 ++ l2) := by
        simp only [List.mem_cons, List.mem_append] at hxm ⊢; tauto
      rw [ea, if_neg (hA x hxA).1, if_neg (by rintro rfl; exact (hA _ hxA).2 hlm),
        if_neg (by rintro rfl; exact getLast?_not_mem_dropLast hnd1 hq hx)]
    · intro y hy
      simp only [List.tail_cons] at hy
      have hyA : y ∈ a :: (l1 ++ l2) := by
        simp only [List.mem_cons, List.mem_append]; tauto
      rw [ep, if_neg (hA y hyA).1, if_neg ?_, if_neg (by rintro rfl; exact (hA _ hyA).2 hfm)]
      rintro rfl
      simp only [List.mem_append, List.mem_singleton] at hpm
      rcases hpm with hpm | hpm
      · exact hdis _ hy hpm
      · exact hal1 (hpm ▸ hy)
    · intro x hx
      have hxm := List.mem_of_mem_dropLast hx
      rw [ea, if_neg (by rintro rfl; exact hbms hxm),
        if_neg (by rintro rfl; exact getLast?_not_mem_dropLast hndms hl hx),
        if_neg (by rintro rfl; exact hB _ hxm hqA)]
    · intro y hy
      have hym := List.mem_of_mem_tail hy
      rw [ep, if_neg (by rintro rfl; exact hbms hym),
        if_neg (by rintro rfl; exact hB _ hym hpA),
        if_neg (by rintro rfl; exact head?_not_mem_tail hndms hf hy)]
    · intro x hx
      have : (l2 ++ [a]).dropLast = l2 := by simp
      rw [this] at hx
      have hxA : x ∈ a :: (l1 ++ l2) := by
        simp only [List.mem_cons, List.mem_append]; tauto
      rw [ea, if_neg (hA x hxA).1, if_neg (by rintro rfl; exact (hA _ hxA).2 hlm), if_neg ?_]
      rintro rfl
      simp only [List.mem_cons] at hqm
      rcases hqm with hqm | hqm
      · exact hal2 (hqm ▸ hx)
      · exact hdis _ hqm hx
    · intro y hy
      have hym := List.mem_of_mem_tail hy
      have hyA : y ∈ a :: (l1 ++ l2) := by
        simp only [List.mem_cons, List.mem_append, List.mem_singleton] at hym ⊢; tauto
      rw [ep, if_neg (hA y hyA).1,
        if_neg (by rintro rfl; exact head?_not_mem_tail hnd2 hp hy),
        if_neg (by rintro rfl; exact (hA _ hyA).2 hfm)]
    · intro x hx y hy
      rw [hl] at hx
      cases hx
      rw [hp] at hy
      cases hy
      refine ⟨?_, ?_⟩
      · rw [ea, if_neg (by rintro rfl; exact hbms hlm), if_pos rfl]
      · rw [ep, if_neg (hA p hpA).1, if_pos rfl]
    · intro x hx y hy
      rw [hq] at hx
      cases hx
      rw [List.head?_append_of_ne_nil _ hms, hf] at hy
      cases hy
      refine ⟨?_, ?_⟩
      · rw [ea, if_neg (hA q hqA).1, if_neg (by rintro rfl; exact (hA _ hqA).2 hlm),
          if_pos rfl]
      · rw [ep, if_neg (by rintro rfl; exact hbms hfm),
          if_neg (by rintro rfl; exact hB _ hfm hpA), if_pos rfl]
  · have hp1 : (l1 ++ ms ++ l2).Perm (ms ++ (l1 ++ l2)) := by
      rw [List.append_assoc]
      exact (List.perm_append_comm_assoc l1 ms l2)
    refine ((List.Perm.cons a hp1).nodup_iff).2 ?_
    rw [List.nodup_cons]
    refine ⟨?_, ?_⟩
    · intro hx
      rcases List.mem_append.1 hx with hx | hx
      · exact hB a hx (List.mem_cons_self _ _)
      · exact (List.nodup_cons.1 hnd).1 hx
    · rw [List.nodup_append]
      exact ⟨hndms, (List.nodup_cons.1 hnd).2, fun x h1 h2 => hB x h1 (List.mem_cons_of_mem _ h2)⟩
  · rw [ev]
    exact hva
  · have : b :: ([] : List Nat) ++ [b] = [b, b] := rfl
    rw [this, List.chain'_pair]
    exact ⟨by rw [ea, if_pos rfl], by rw [ep, if_pos rfl]⟩
  · rw [ev]
    exact hvb

end list
end taapp

namespace taapp
namespace list
variable {T : Type}

/-! ## The neighbours of the members of a ring -/

theorem chain_succ {R : Nat → Nat → Prop} : ∀ (l : List Nat), List.Chain' R l →
    ∀ x ∈ l.dropLast, ∃ y ∈ l.tail, R x y := by
  intro l
  induction l with
  | nil => intro _ x hx; simp at hx
  | cons a l ih =>
    cases l with
    | nil => intro _ x hx; simp at hx
    | cons b l =>
      intro hc x hx
      rw [List.chain'_cons] at hc
      simp only [List.dropLast_cons₂, List.mem_cons] at hx
      rcases hx with rfl | hx
      · exact ⟨b, by simp, hc.1⟩
      · obtain ⟨y, hy, hr⟩ := ih hc.2 x hx
        exact ⟨y, by
          simp only [List.tail_cons, List.mem_cons] at hy ⊢
          exact Or.inr hy, hr⟩

theorem chain_pred {R : Nat → Nat → Prop} : ∀ (l : List Nat), List.Chain' R l →
    ∀ x ∈ l.tail, ∃ z ∈ l.dropLast, R z x := by
  intro l
  induction l with
  | nil => intro _ x hx; simp at hx
  | cons a l ih =>
    cases l with
    | nil => intro _ x hx; simp at hx
    | cons b l =>
      intro hc x hx
      rw [List.chain'_cons] at hc
      simp only [List.tail_cons, List.mem_cons] at hx
      rcases hx with rfl | hx
      · exact ⟨a, by simp, hc.1⟩
      · obtain ⟨z, hz, hr⟩ := ih hc.2 x hx
        exact ⟨z, by
          simp only [List.dropLast_cons₂, List.mem_cons]
          exact Or.inr hz, hr⟩

theorem ring_dropLast (a : Nat) (ns : List Nat) : (a :: ns ++ [a]).dropLast = a :: ns := by
  rw [List.dropLast_append_of_ne_nil _ (by simp)]
  simp

theorem ring_tail_mem (a : Nat) (ns : List Nat) (x : Nat) :
    x ∈ (a :: ns ++ [a]).tail ↔ x ∈ a :: ns := by
  simp only [List.cons_append, List.tail_cons, List.mem_append, List.mem_singleton,
    List.mem_cons]
  tauto

/-- Every member of a ring, the anchor included, has a next and a previous
member, and the links agree in both directions. -/
theorem Ring_neighbours {m : memory T} {a : Nat} {ns : List Nat} (h : Ring m a ns)
    {x : Nat} (hx : x ∈ a :: ns) :
    ∃ y z, y ∈ a :: ns ∧ z ∈ a :: ns ∧ Link m x y ∧ Link m z x := by
  obtain ⟨y, hy, hxy⟩ := chain_succ _ h.1 x (by rw [ring_dropLast]; exact hx)
  obtain ⟨z, hz, hzx⟩ := chain_pred _ h.1 x ((ring_tail_mem a ns x).2 hx)
  rw [ring_dropLast] at hz
  exact ⟨y, z, (ring_tail_mem a ns y).1 hy, hz, hxy, hzx⟩

theorem Ring_allocated {m : memory T} {a : Nat} {ns : List Nat} (h : Ring m a ns)
    {x : Nat} (hx : x ∈ a :: ns) : (anext m x).isSome = true := by
  obtain ⟨y, z, -, -, hxy, -⟩ := Ring_neighbours h hx
  rw [hxy.1]
  rfl

theorem Ring_not_mem {m : memory T} {a : Nat} {ns : List Nat} (h : Ring m a ns)
    {x : Nat} (hx : m x = none) : x ∉ a :: ns := by
  intro hm
  have := Ring_allocated h hm
  rw [anext_none hx] at this
  cases this

theorem getLast?_cons_some (a : Nat) (l : List Nat) : ∃ q, (a :: l).getLast? = some q :=
  ⟨(a :: l).getLast (by simp), List.getLast?_eq_getLast _ _⟩

theorem head?_append_some (l : List Nat) (a : Nat) : ∃ p, (l ++ [a]).head? = some p := by
  cases l with
  | nil => exact ⟨a, rfl⟩
  | cons b l => exact ⟨b, rfl⟩

theorem values_split {m : memory T} {l1 l2 : List Nat} {xs : List T}
    (h : (l1 ++ l2).map (value m) = xs.map some) :
    l1.map (value m) = (xs.take l1.length).map some ∧
      l2.map (value m) = (xs.drop l1.length).map some := by
  constructor
  · have := congrArg (List.take l1.length) h
    rw [List.map_append, List.take_left' (by simp), ← List.map_take] at this
    exact this
  · have := congrArg (List.drop l1.length) h
    rw [List.map_append, List.drop_left' (by simp), ← List.map_drop] at this
    exact this

theorem values_length {m : memory T} {ns : List Nat} {xs : List T}
    (h : ns.map (value m) = xs.map some) : ns.length = xs.length := by
  have := congrArg List.length h
  simpa using this

/-! ## The operations on a list -/

theorem list_insert_spec {m : memory T} {a : Nat} {l1 l2 : List Nat} {xs : List T}
    {pos fresh : Nat} (t : T) (h : IsList m a (l1 ++ l2) xs)
    (hp : (l2 ++ [a]).head? = some pos) (hf : fresh ≠ 0) (hm : m fresh = none) :
    ∃ m1 q, insert m pos fresh t = some (m1, fresh) ∧
      IsList m1 a (l1 ++ fresh :: l2) (xs.take l1.length ++ t :: xs.drop l1.length) ∧
      q ∈ a :: l1 ∧ Inserted m m1 q fresh pos t := by
  obtain ⟨q, hq⟩ := getLast?_cons_some a l1
  obtain ⟨-, -, hl⟩ := Ring_split h.1 hq hp
  have hqm : q ∈ a :: (l1 ++ l2) := by
    have := mem_of_getLast? hq
    simp only [List.mem_cons, List.mem_append] at this ⊢; tauto
  have hn := Ring_not_mem h.1 hm
  obtain ⟨m1, e1, he⟩ := insert_effect t hf hm hl.2 (Ring_allocated h.1 hqm)
  refine ⟨m1, q, e1, ⟨Ring_insert h.1 hq hp hn he, ?_⟩, mem_of_getLast? hq, he⟩
  obtain ⟨v1, v2⟩ := values_split h.2
  have hv : ∀ x, x ∈ l1 ++ l2 → value m1 x = value m x := by
    intro x hx
    rw [he.2.2, if_neg]
    rintro rfl
    exact hn (List.mem_cons_of_mem _ hx)
  rw [List.map_append, List.map_cons, List.map_append, List.map_cons, ← v1, ← v2,
    he.2.2 fresh, if_pos rfl]
  congr 1
  · exact List.map_congr_left (fun x hx => hv x (List.mem_append_left _ hx))
  · congr 1
    exact List.map_congr_left (fun x hx => hv x (List.mem_append_right _ hx))

theorem list_erase_spec {m : memory T} {a n : Nat} {l1 l2 : List Nat} {xs : List T}
    (h : IsList m a (l1 ++ n :: l2) xs) :
    ∃ m1 q p, erase m n = some (m1, p) ∧ (l2 ++ [a]).head? = some p ∧
      IsList m1 a (l1 ++ l2) (xs.take l1.length ++ xs.drop (l1.length + 1)) ∧
      q ∈ a :: l1 ∧ Removed m m1 q n p := by
  obtain ⟨q, hq⟩ := getLast?_cons_some a l1
  obtain ⟨p, hp⟩ := head?_append_some l2 a
  obtain ⟨lq, lp, hqn, hpn, hna, -, -, hnd, hn⟩ := Ring_links h.1 hq hp
  have hqm : q ∈ a :: (l1 ++ n :: l2) := by
    have := mem_of_getLast? hq
    simp only [List.mem_cons, List.mem_append] at this ⊢; tauto
  have hpm : p ∈ a :: (l1 ++ n :: l2) := by
    have := mem_of_head? hp
    simp only [List.mem_cons, List.mem_append, List.mem_singleton] at this ⊢; tauto
  obtain ⟨v1, v2⟩ := values_split h.2
  rw [List.map_cons] at v2
  obtain ⟨v, hv⟩ : ∃ v, value m n = some v := by
    cases hd : xs.drop l1.length with
    | nil => rw [hd] at v2; cases v2
    | cons v l =>
      rw [hd] at v2
      simp only [List.map_cons, List.cons.injEq] at v2
      exact ⟨v, v2.1⟩
  obtain ⟨m1, e1, he⟩ := erase_effect hv lq.2 lp.1 hqn (Ring_allocated h.1 hqm)
    (Ring_allocated h.1 hpm)
  refine ⟨m1, q, p, e1, hp, ⟨Ring_remove h.1 hq hp he, ?_⟩, mem_of_getLast? hq, he⟩
  have hv1 : ∀ x, x ∈ l1 ++ l2 → value m1 x = value m x := by
    intro x hx
    rw [he.2.2, if_neg]
    rintro rfl
    exact hn (List.mem_cons_of_mem _ hx)
  have v3 : l2.map (value m) = (xs.drop (l1.length + 1)).map some := by
    have := congrArg List.tail v2
    rw [List.tail_cons, ← List.map_tail, List.tail_drop] at this
    exact this
  rw [List.map_append, List.map_append, ← v1, ← v3]
  congr 1
  · exact List.map_congr_left (fun x hx => hv1 x (List.mem_append_left _ hx))
  · exact List.map_congr_left (fun x hx => hv1 x (List.mem_append_right _ hx))

end list
end taapp

namespace taapp
namespace list
variable {T : Type}

theorem IsList_insert {m m1 : memory T} {a : Nat} {l1 l2 : List Nat} {xs : List T}
    {q n p : Nat} {t : T} (h : IsList m a (l1 ++ l2) xs)
    (hq : (a :: l1).getLast? = some q) (hp : (l2 ++ [a]).head? = some p)
    (hn : n ∉ a :: (l1 ++ l2)) (he : Inserted m m1 q n p t) :
    IsList m1 a (l1 ++ n :: l2) (xs.take l1.length ++ t :: xs.drop l1.length) := by
  refine ⟨Ring_insert h.1 hq hp hn he, ?_⟩
  obtain ⟨v1, v2⟩ := values_split h.2
  have hv : ∀ x, x ∈ l1 ++ l2 → value m1 x = value m x := by
    intro x hx
    rw [he.2.2, if_neg]
    rintro rfl
    exact hn (List.mem_cons_of_mem _ hx)
  rw [List.map_append, List.map_cons, List.map_append, List.map_cons, ← v1, ← v2,
    he.2.2 n, if_pos rfl]
  congr 1
  · exact List.map_congr_left (fun x hx => hv x (List.mem_append_left _ hx))
  · congr 1
    exact List.map_congr_left (fun x hx => hv x (List.mem_append_right _ hx))

theorem IsList_value {m : memory T} {a n : Nat} {l1 l2 : List Nat} {xs : List T}
    (h : IsList m a (l1 ++ n :: l2) xs) :
    ∃ v, value m n = some v ∧ xs[l1.length]? = some v := by
  obtain ⟨v1, v2⟩ := values_split h.2
  rw [List.map_cons] at v2
  cases hd : xs.drop l1.length with
  | nil => rw [hd] at v2; cases v2
  | cons v l =>
    rw [hd] at v2
    simp only [List.map_cons, List.cons.injEq] at v2
    refine ⟨v, v2.1, ?_⟩
    have := congrArg List.head? hd
    rw [List.head?_drop] at this
    exact this

theorem IsList_unlink {m m1 : memory T} {a n : Nat} {l1 l2 : List Nat} {xs : List T}
    {q p : Nat} (h : IsList m a (l1 ++ n :: l2) xs)
    (hq : (a :: l1).getLast? = some q) (hp : (l2 ++ [a]).head? = some p)
    (he : Unlinked m m1 q n p) :
    IsList m1 a (l1 ++ l2) (xs.take l1.length ++ xs.drop (l1.length + 1)) := by
  obtain ⟨-, -, -, -, -, -, -, -, hn⟩ := Ring_links h.1 hq hp
  refine ⟨Ring_unlink h.1 hq hp he, ?_⟩
  obtain ⟨v1, v2⟩ := values_split h.2
  have hv1 : ∀ x, x ∈ l1 ++ l2 → value m1 x = value m x := by
    intro x hx
    refine he.2.2 x ?_
    rintro rfl
    exact hn (List.mem_cons_of_mem _ hx)
  have v3 : l2.map (value m) = (xs.drop (l1.length + 1)).map some := by
    have := congrArg List.tail v2
    rw [List.map_cons, List.tail_cons, ← List.map_tail, List.tail_drop] at this
    exact this
  rw [List.map_append, List.map_append, ← v1, ← v3]
  congr 1
  · exact List.map_congr_left (fun x hx => hv1 x (List.mem_append_left _ hx))
  · exact List.map_congr_left (fun x hx => hv1 x (List.mem_append_right _ hx))

theorem IsList_remove {m m1 : memory T} {a n : Nat} {l1 l2 : List Nat} {xs : List T}
    {q p : Nat} (h : IsList m a (l1 ++ n :: l2) xs)
    (hq : (a :: l1).getLast? = some q) (hp : (l2 ++ [a]).head? = some p)
    (he : Removed m m1 q n p) :
    IsList m1 a (l1 ++ l2) (xs.take l1.length ++ xs.drop (l1.length + 1)) :=
  IsList_unlink h hq hp he.unlinked

theorem push_back_spec {m : memory T} {a : Nat} {ns : List Nat} {xs : List T}
    {fresh : Nat} (t : T) (h : IsList m a ns xs) (hf : fresh ≠ 0) (hm : m fresh = none) :
    ∃ m1 q, push_back m a fresh t = some m1 ∧ IsList m1 a (ns ++ [fresh]) (xs ++ [t]) ∧
      q ∈ a :: ns ∧ Inserted m m1 q fresh a t := by
  have h0 : IsList m a (ns ++ []) xs := by rw [List.append_nil]; exact h
  obtain ⟨q, hq⟩ := getLast?_cons_some a ns
  have hp : (([] : List Nat) ++ [a]).head? = some a := rfl
  obtain ⟨-, -, hl⟩ := Ring_split h0.1 hq hp
  have hqm := mem_of_getLast? hq
  have hn := Ring_not_mem h.1 hm
  obtain ⟨m1, e1, he⟩ := push_back_effect t hf hm hl.2 (Ring_allocated h.1 hqm)
  have := IsList_insert h0 hq hp (by rw [List.append_nil]; exact hn) he
  rw [values_length h.2, List.take_length, List.drop_length] at this
  exact ⟨m1, q, e1, this, hqm, he⟩

theorem push_front_spec {m : memory T} {a : Nat} {ns : List Nat} {xs : List T}
    {fresh : Nat} (t : T) (h : IsList m a ns xs) (hf : fresh ≠ 0) (hm : m fresh = none) :
    ∃ m1 p, push_front m a fresh t = some m1 ∧ IsList m1 a (fresh :: ns) (t :: xs) ∧
      p ∈ a :: ns ∧ Inserted m m1 a fresh p t := by
  have h0 : IsList m a ([] ++ ns) xs := h
  have hq : (a :: ([] : List Nat)).getLast? = some a := rfl
  obtain ⟨p, hp⟩ := head?_append_some ns a
  obtain ⟨-, -, hl⟩ := Ring_split h0.1 hq hp
  have hpm : p ∈ a :: ns := by
    have := mem_of_head? hp
    simp only [List.mem_cons, List.mem_append, List.mem_singleton] at this ⊢; tauto
  have hn := Ring_not_mem h.1 hm
  obtain ⟨m1, e1, he⟩ := push_front_effect t hf hm hl.1 (Ring_allocated h.1 hpm)
  have := IsList_insert h0 hq hp hn he
  exact ⟨m1, p, e1, this, hpm, he⟩

theorem pop_back_spec {m : memory T} {a n : Nat} {l1 : List Nat} {xs : List T}
    (h : IsList m a (l1 ++ [n]) xs) :
    ∃ m1 q, pop_back m a = some m1 ∧ IsList m1 a l1 xs.dropLast ∧
      q ∈ a :: l1 ∧ Removed m m1 q n a := by
  obtain ⟨q, hq⟩ := getLast?_cons_some a l1
  have hp : (([] : List Nat) ++ [a]).head? = some a := rfl
  obtain ⟨lq, lp, -, -, -, -, -, -, -⟩ := Ring_links h.1 hq hp
  obtain ⟨v, hv, -⟩ := IsList_value h
  have hqm : q ∈ a :: (l1 ++ [n]) := by
    have := mem_of_getLast? hq
    simp only [List.mem_cons, List.mem_append] at this ⊢; tauto
  obtain ⟨m1, e1, he⟩ := pop_back_effect lp.2 hv lq.2 (Ring_allocated h.1 hqm)
  have := IsList_remove h hq hp he
  have hlen := values_length h.2
  simp only [List.length_append, List.length_singleton] at hlen
  have e : xs.dropLast = xs.take l1.length := by
    rw [List.dropLast_eq_take]
    congr 1
    omega
  rw [List.append_nil, List.drop_of_length_le (by omega), List.append_nil, ← e] at this
  exact ⟨m1, q, e1, this, mem_of_getLast? hq, he⟩

theorem pop_front_spec {m : memory T} {a n : Nat} {l2 : List Nat} {xs : List T}
    (h : IsList m a (n :: l2) xs) :
    ∃ m1 p, pop_front m a = some m1 ∧ IsList m1 a l2 xs.tail ∧
      p ∈ a :: l2 ∧ Removed m m1 a n p := by
  have h0 : IsList m a ([] ++ n :: l2) xs := h
  have hq : (a :: ([] : List Nat)).getLast? = some a := rfl
  obtain ⟨p, hp⟩ := head?_append_some l2 a
  obtain ⟨lq, lp, -, -, -, -, -, -, -⟩ := Ring_links h0.1 hq hp
  obtain ⟨v, hv, -⟩ := IsList_value h0
  have hpm : p ∈ a :: l2 := by
    have := mem_of_head? hp
    simp only [List.mem_cons, List.mem_append, List.mem_singleton] at this ⊢; tauto
  have hpm2 : p ∈ a :: n :: l2 := by
    simp only [List.mem_cons] at hpm ⊢; tauto
  obtain ⟨m1, e1, he⟩ := pop_front_effect lq.1 hv lp.1 (Ring_allocated h.1 hpm2)
  have := IsList_remove h0 hq hp he
  simp only [List.length_nil, List.take_zero, List.nil_append, zero_add,
    List.drop_one] at this
  exact ⟨m1, p, e1, this, hpm, he⟩

end list
end taapp

namespace taapp
namespace list
variable {T : Type}

/-! ## `splice` -/

theorem Ring_nil_links {m : memory T} {b : Nat} (h : Ring m b []) : Link m b b := by
  have hc := h.1
  have : b :: ([] : List Nat) ++ [b] = [b, b] := rfl
  rw [this, List.chain'_pair] at hc
  exact hc

theorem Ring_ends {m : memory T} {b f l : Nat} {ms : List Nat} (h : Ring m b ms)
    (hf : ms.head? = some f) (hl : ms.getLast? = some l) : Link m b f ∧ Link m l b := by
  have hms : ms ≠ [] := by
    rintro rfl
    cases hf
  have hc := h.1
  constructor
  · have e : b :: ms ++ [b] = b :: (ms ++ [b]) := rfl
    rw [e, List.chain'_cons'] at hc
    exact hc.1 f (by rw [List.head?_append_of_ne_nil _ hms]; exact hf)
  · have e : b :: ms ++ [b] = (b :: ms) ++ [b] := rfl
    rw [e, List.chain'_append] at hc
    refine hc.2.2 l ?_ b rfl
    cases ms with
    | nil => exact absurd rfl hms
    | cons c cs =>
      rw [List.getLast?_cons_cons]
      exact hl

theorem list_splice_spec {m : memory T} {a b : Nat} {l1 l2 ms : List Nat} {xs ys : List T}
    {pos : Nat} (h : IsList m a (l1 ++ l2) xs) (hb : IsList m b ms ys)
    (hdj : ∀ x, x ∈ a :: (l1 ++ l2) → x ∈ b :: ms → False)
    (hp : (l2 ++ [a]).head? = some pos) :
    ∃ m1, splice m pos b = some m1 ∧
      IsList m1 a (l1 ++ ms ++ l2) (xs.take l1.length ++ ys ++ xs.drop l1.length) ∧
      IsList m1 b [] [] ∧
      ∀ x, x ∉ a :: (l1 ++ l2) → x ∉ b :: ms →
        anext m1 x = anext m x ∧ aprev m1 x = aprev m x ∧ value m1 x = value m x := by
  obtain ⟨q, hq⟩ := getLast?_cons_some a l1
  obtain ⟨-, -, hl⟩ := Ring_split h.1 hq hp
  have hqA : q ∈ a :: (l1 ++ l2) := by
    have := mem_of_getLast? hq
    simp only [List.mem_cons, List.mem_append] at this ⊢; tauto
  have hpA : pos ∈ a :: (l1 ++ l2) := by
    have := mem_of_head? hp
    simp only [List.mem_cons, List.mem_append, List.mem_singleton] at this ⊢; tauto
  have hbB : b ∈ b :: ms := List.mem_cons_self _ _
  have hbq : b ≠ q := fun e => hdj q hqA (e ▸ hbB)
  have hbp : b ≠ pos := fun e => hdj pos hpA (e ▸ hbB)
  have hxs : xs.take l1.length ++ xs.drop l1.length = xs := List.take_append_drop _ _
  cases hms : ms with
  | nil =>
    subst hms
    have lb := Ring_nil_links hb.1
    obtain ⟨m1, e1, a1, p1, v1⟩ := splice_empty_effect hl.2 lb.1 lb.2 hbq hbp hl.1
    have hys : ys = [] := by
      have := values_length hb.2
      exact List.length_eq_zero.1 this.symm
    subst hys
    refine ⟨m1, e1, ?_, ?_, fun x _ _ => ⟨a1 x, p1 x, v1 x⟩⟩
    · rw [List.append_nil, List.append_nil, hxs]
      exact IsList_congr h (fun x _ => a1 x) (fun x _ => p1 x) (fun x _ => v1 x)
    · exact IsList_congr hb (fun x _ => a1 x) (fun x _ => p1 x) (fun x _ => v1 x)
  | cons f0 ms0 =>
    rw [← hms]
    have hne : ms ≠ [] := by rw [hms]; simp
    obtain ⟨f, hf⟩ : ∃ f, ms.head? = some f := ⟨f0, by rw [hms]; rfl⟩
    obtain ⟨l, hl2⟩ : ∃ l, ms.getLast? = some l :=
      ⟨ms.getLast hne, List.getLast?_eq_getLast _ _⟩
    obtain ⟨lf, ll⟩ := Ring_ends hb.1 hf hl2
    have hfm := mem_of_head? hf
    have hlm := mem_of_getLast? hl2
    have hbms : b ∉ ms := (List.nodup_cons.1 hb.1.2.1).1
    have hfb : f ≠ b := fun e => hbms (e ▸ hfm)
    obtain ⟨m1, e1, he⟩ := splice_effect hl.2 lf.1 ll.2 hbq hbp hfb
      (Ring_allocated h.1 hqA) (Ring_allocated hb.1 (List.mem_cons_of_mem _ hfm))
      (Ring_allocated hb.1 (List.mem_cons_of_mem _ hlm))
    obtain ⟨r1, r2⟩ := Ring_splice h.1 hb.1 hdj hq hp hf hl2 he
    obtain ⟨v1, v2⟩ := values_split h.2
    refine ⟨m1, e1, ⟨r1, ?_⟩, ⟨r2, rfl⟩, ?_⟩
    · rw [List.map_append, List.map_append, List.map_append, List.map_append, ← v1, ← v2,
        ← hb.2]
      congr 1
      · congr 1
        · exact List.map_congr_left (fun x _ => he.2.2 x)
        · exact List.map_congr_left (fun x _ => he.2.2 x)
      · exact List.map_congr_left (fun x _ => he.2.2 x)
    · intro x hxA hxB
      refine ⟨?_, ?_, he.2.2 x⟩
      · rw [he.1, if_neg (by rintro rfl; exact hxB hbB),
          if_neg (by rintro rfl; exact hxB (List.mem_cons_of_mem _ hlm)),
          if_neg (by rintro rfl; exact hxA hqA)]
      · rw [he.2.1, if_neg (by rintro rfl; exact hxB hbB),
          if_neg (by rintro rfl; exact hxA hpA),
          if_neg (by rintro rfl; exact hxB (List.mem_cons_of_mem _ hfm))]

/-! ## Iteration -/

theorem forward_loop_spec {m : memory T} {a : Nat} : ∀ (ns : List Nat) (xs : List T)
    (fuel : Nat) (itr : Nat), List.Chain' (Link m) (ns ++ [a]) → a ∉ ns →
    ns.map (value m) = xs.map some → ns.length ≤ fuel → (ns ++ [a]).head? = some itr →
    forward_loop fuel m a itr = some xs := by
  intro ns
  induction ns with
  | nil =>
    intro xs fuel itr _ _ hv _ hi
    cases hi
    have : xs = [] := List.length_eq_zero.1 (values_length hv).symm
    subst this
    unfold forward_loop
    rw [if_neg (by simp)]
  | cons n ns ih =>
    intro xs fuel itr hc ha hv hf hi
    cases hi
    cases xs with
    | nil => cases hv
    | cons x xs =>
      simp only [List.map_cons, List.cons.injEq] at hv
      cases fuel with
      | zero => simp at hf
      | succ f =>
        obtain ⟨p, hp⟩ := head?_append_some ns a
        have hc2 : List.Chain' (Link m) (n :: (ns ++ [a])) := hc
        rw [List.chain'_cons'] at hc2
        have hna : n ≠ a := fun e => ha (by rw [e]; simp)
        have := ih xs f p hc2.2 (fun hx => ha (List.mem_cons_of_mem _ hx)) hv.2
          (by simpa using hf) hp
        unfold forward_loop
        rw [if_pos hna]
        simp only [hv.1, (hc2.1 p hp).1, this]

theorem forward_spec {m : memory T} {a : Nat} {ns : List Nat} {xs : List T}
    (h : IsList m a ns xs) {fuel : Nat} (hf : xs.length ≤ fuel) :
    forward fuel m a = some xs := by
  obtain ⟨p, hp⟩ := head?_append_some ns a
  have hc := h.1.1
  have e : a :: ns ++ [a] = a :: (ns ++ [a]) := rfl
  rw [e, List.chain'_cons'] at hc
  unfold forward begin
  rw [(hc.1 p hp).1]
  exact forward_loop_spec ns xs fuel p hc.2 (List.nodup_cons.1 h.1.2.1).1 h.2
    (by rw [values_length h.2]; exact hf) hp

theorem backward_loop_spec {m : memory T} {a : Nat} : ∀ (ns : List Nat) (xs : List T)
    (fuel : Nat) (itr : Nat), List.Chain' (Link m) (a :: ns) → a ∉ ns →
    ns.map (value m) = xs.map some → ns.length ≤ fuel → (a :: ns).getLast? = some itr →
    backward_loop fuel m a itr = some xs.reverse := by
  intro ns
  induction ns using List.reverseRecOn with
  | nil =>
    intro xs fuel itr _ _ hv _ hi
    cases hi
    have : xs = [] := List.length_eq_zero.1 (values_length hv).symm
    subst this
    unfold backward_loop
    rw [if_neg (by simp)]
    rfl
  | append_singleton ns n ih =>
    intro xs fuel itr hc ha hv hf hi
    have hin : itr = n := by
      rw [← List.cons_append, List.getLast?_append] at hi
      simpa using hi.symm
    subst hin
    have hlen := values_length hv
    rcases List.eq_nil_or_concat xs with rfl | ⟨xs0, x, rfl⟩
    · simp at hlen
    · rw [List.concat_eq_append] at hv hlen ⊢
      rw [List.map_append, List.map_append] at hv
      have hv2 := List.append_inj' hv (by simp)
      simp only [List.map_cons, List.map_nil, List.cons.injEq, and_true] at hv2
      cases fuel with
      | zero => simp at hf
      | succ f =>
        obtain ⟨q, hq⟩ := getLast?_cons_some a ns
        have hc2 : List.Chain' (Link m) ((a :: ns) ++ [itr]) := hc
        rw [List.chain'_append] at hc2
        have hna : itr ≠ a := fun e => ha (by rw [e]; simp)
        have := ih xs0 f q hc2.1 (fun hx => ha (List.mem_append_left _ hx)) hv2.1
          (by simpa using hf) hq
        unfold backward_loop
        rw [if_pos hna]
        simp only [hv2.2, (hc2.2.2 q hq itr rfl).2, this, List.reverse_append,
          List.reverse_cons, List.reverse_nil, List.nil_append, List.singleton_append]

theorem backward_spec {m : memory T} {a : Nat} {ns : List Nat} {xs : List T}
    (h : IsList m a ns xs) {fuel : Nat} (hf : xs.length ≤ fuel) :
    backward fuel m a = some xs.reverse := by
  obtain ⟨q, hq⟩ := getLast?_cons_some a ns
  have hc := h.1.1
  have e : a :: ns ++ [a] = (a :: ns) ++ [a] := rfl
  rw [e, List.chain'_append] at hc
  unfold backward end_
  rw [(hc.2.2 q hq a rfl).2]
  exact backward_loop_spec ns xs fuel q hc.1 (List.nodup_cons.1 h.1.2.1).1 h.2
    (by rw [values_length h.2]; exact hf) hq

end list
end taapp

namespace taapp
namespace list
variable {T : Type}

/-! ## The positions of a list -/

theorem Elem_mem {m : memory T} {a : Nat} {ns : List Nat} (h : Ring m a ns) {p : Nat}
    (hp : Elem m a p) : p ∈ ns := by
  induction hp with
  | @first p hb hne =>
    obtain ⟨y, z, hy, -, hxy, -⟩ := Ring_neighbours h (List.mem_cons_self a ns)
    unfold begin at hb
    rw [hxy.1] at hb
    cases hb
    rcases List.mem_cons.1 hy with e | hm
    · exact absurd e hne
    · exact hm
  | @next p p1 _ hn hne ih =>
    obtain ⟨y, z, hy, -, hxy, -⟩ := Ring_neighbours h (List.mem_cons_of_mem a ih)
    rw [hxy.1] at hn
    cases hn
    rcases List.mem_cons.1 hy with e | hm
    · exact absurd e hne
    · exact hm

theorem IsPos_split {m : memory T} {a : Nat} {ns : List Nat} (h : Ring m a ns) {pos : Nat}
    (hp : IsPos m a pos) : ∃ l1 l2, ns = l1 ++ l2 ∧ (l2 ++ [a]).head? = some pos := by
  rcases hp with rfl | hp
  · exact ⟨ns, [], (List.append_nil ns).symm, rfl⟩
  · obtain ⟨l1, l2, e⟩ := List.append_of_mem (Elem_mem h hp)
    exact ⟨l1, pos :: l2, e, rfl⟩

theorem mem_Elem {m : memory T} {a : Nat} : ∀ (l1 : List Nat) {l2 : List Nat} {p : Nat},
    Ring m a (l1 ++ p :: l2) → Elem m a p := by
  intro l1
  induction l1 using List.reverseRecOn with
  | nil =>
    intro l2 p h
    have hq : (a :: ([] : List Nat)).getLast? = some a := rfl
    obtain ⟨p2, hp2⟩ := head?_append_some l2 a
    obtain ⟨lq, -, -, -, hna, -⟩ := Ring_links h hq hp2
    exact Elem.first lq.1 hna
  | append_singleton l1 q ih =>
    intro l2 p h
    rw [List.append_assoc] at h
    have hq : (a :: (l1 ++ [q])).getLast? = some q := by
      rw [← List.cons_append, List.getLast?_append]
      rfl
    obtain ⟨p2, hp2⟩ := head?_append_some l2 a
    have h2 : Ring m a ((l1 ++ [q]) ++ p :: l2) := by
      rw [List.append_assoc]; exact h
    obtain ⟨lq, -, -, -, hna, -⟩ := Ring_links h2 hq hp2
    exact Elem.next (ih h) lq.1 hna

/-! ## `clear` -/

theorem clear_loop_spec {a : Nat} : ∀ (ns : List Nat) (m : memory T) (fuel : Nat) (itr : Nat),
    List.Chain' (Link m) (ns ++ [a]) → (ns ++ [a]).Nodup →
    (∀ x ∈ ns, (value m x).isSome = true) → ns.length ≤ fuel →
    (ns ++ [a]).head? = some itr →
    ∃ m1, clear_loop fuel m a itr = some m1 ∧ (∀ x, x ∈ ns → m1 x = none) ∧
      ∀ x, x ∉ ns → m1 x = m x := by
  intro ns
  induction ns with
  | nil =>
    intro m fuel itr _ _ _ _ hi
    cases hi
    refine ⟨m, ?_, fun x hx => by simp at hx, fun x _ => rfl⟩
    unfold clear_loop
    rw [if_neg (by simp)]
  | cons n ns ih =>
    intro m fuel itr hc hnd hv hf hi
    cases hi
    cases fuel with
    | zero => simp at hf
    | succ f =>
      obtain ⟨p, hp⟩ := head?_append_some ns a
      have hc2 : List.Chain' (Link m) (n :: (ns ++ [a])) := hc
      rw [List.chain'_cons'] at hc2
      have hnd2 : (n :: (ns ++ [a])).Nodup := hnd
      rw [List.nodup_cons] at hnd2
      have hna : n ≠ a := fun e => hnd2.1 (by rw [e]; simp)
      obtain ⟨v, hvn⟩ := Option.isSome_iff_exists.1 (hv n (List.mem_cons_self _ _))
      obtain ⟨m2, e2, a2, p2, v2⟩ := delete_node_spec hvn
      have hm2 : m2 = free m n := by
        unfold delete_node at e2
        rw [hvn] at e2
        exact (Option.some.inj e2).symm
      have hc3 : List.Chain' (Link m2) (ns ++ [a]) := by
        refine chain_frame _ hc2.2 (fun x hx => ?_) (fun y hy => ?_)
        · rw [a2, if_neg]
          rintro rfl
          exact hnd2.1 (List.mem_of_mem_dropLast hx)
        · rw [p2, if_neg]
          rintro rfl
          exact hnd2.1 (List.mem_of_mem_tail hy)
      obtain ⟨m1, e1, h1, h2⟩ := ih m2 f p hc3 hnd2.2
        (fun x hx => by
          rw [v2, if_neg (by rintro rfl; exact hnd2.1 (List.mem_append_left _ hx))]
          exact hv x (List.mem_cons_of_mem _ hx))
        (by simpa using hf) hp
      refine ⟨m1, ?_, ?_, ?_⟩
      · unfold clear_loop
        rw [if_pos hna]
        simp only [(hc2.1 p hp).1, e2, e1]
      · intro x hx
        rcases List.mem_cons.1 hx with rfl | hx
        · by_cases hxn : x ∈ ns
          · exact h1 x hxn
          · rw [h2 x hxn, hm2]
            simp [free]
        · exact h1 x hx
      · intro x hx
        simp only [List.mem_cons, not_or] at hx
        rw [h2 x hx.2, hm2]
        simp [free, hx.1]

theorem clear_spec {m : memory T} {a : Nat} {ns : List Nat} {xs : List T}
    (h : IsList m a ns xs) {fuel : Nat} (hf : xs.length ≤ fuel) :
    ∃ m1, clear fuel m a = some m1 ∧ (∀ x, x ∈ ns → m1 x = none) ∧
      ∀ x, x ∉ ns → m1 x = m x := by
  obtain ⟨p, hp⟩ := head?_append_some ns a
  have hc := h.1.1
  have e : a :: ns ++ [a] = a :: (ns ++ [a]) := rfl
  rw [e, List.chain'_cons'] at hc
  obtain ⟨-, hnd2, -, -, -⟩ := nodup_parts (show (a :: ([] ++ ns)).Nodup from h.1.2.1)
  have hv : ∀ x ∈ ns, (value m x).isSome = true := by
    intro x hx
    obtain ⟨l1, l2, e⟩ := List.append_of_mem hx
    subst e
    obtain ⟨v, hv, -⟩ := IsList_value h
    rw [hv]
    rfl
  obtain ⟨m1, e1, h1, h2⟩ := clear_loop_spec ns m fuel p hc.2 hnd2 hv
    (by rw [values_length h.2]; exact hf) hp
  refine ⟨m1, ?_, h1, h2⟩
  unfold clear
  rw [(hc.1 p hp).1]
  exact e1

end list
end taapp

namespace taapp
namespace list
variable {T : Type}

/-! ## The layout of the reachable worlds -/

theorem Inserted_frame {m m1 : memory T} {q n p : Nat} {t : T} (he : Inserted m m1 q n p t)
    {x : Nat} (hq : x ≠ q) (hn : x ≠ n) (hp : x ≠ p) :
    anext m1 x = anext m x ∧ aprev m1 x = aprev m x ∧ value m1 x = value m x := by
  refine ⟨?_, ?_, ?_⟩
  · rw [he.1, if_neg hn, if_neg hq]
  · rw [he.2.1, if_neg hn, if_neg hp]
  · rw [he.2.2, if_neg hn]

theorem Removed_frame {m m1 : memory T} {q n p : Nat} (he : Removed m m1 q n p)
    {x : Nat} (hq : x ≠ q) (hn : x ≠ n) (hp : x ≠ p) :
    anext m1 x = anext m x ∧ aprev m1 x = aprev m x ∧ value m1 x = value m x := by
  refine ⟨?_, ?_, ?_⟩
  · rw [he.1, if_neg hn, if_neg hq]
  · rw [he.2.1, if_neg hn, if_neg hp]
  · rw [he.2.2, if_neg hn]

theorem Layout_update {w : world T} {nodes : Nat → List Nat} {vals : Nat → List T}
    (h : Layout w nodes vals) {a : Nat} (ha : a ∈ w.lists) {m1 : memory T}
    {ns1 : List Nat} {xs1 : List T} (h1 : IsList m1 a ns1 xs1) (h0 : 0 ∉ ns1)
    (hnew : ∀ x ∈ ns1, ∀ b ∈ w.lists, b ≠ a → x ∉ b :: nodes b)
    (hfr : ∀ b ∈ w.lists, b ≠ a → ∀ x ∈ b :: nodes b,
      anext m1 x = anext w.mem x ∧ aprev m1 x = aprev w.mem x ∧ value m1 x = value w.mem x) :
    Layout { mem := m1, lists := w.lists } (Function.update nodes a ns1)
      (Function.update vals a xs1) := by
  obtain ⟨hnd, hl, hd⟩ := h
  have ha0 : a ≠ 0 := fun e => (hl a ha).2 (by rw [e]; simp)
  refine ⟨hnd, ?_, ?_⟩
  · intro b hb
    by_cases hba : b = a
    · subst hba
      rw [Function.update_same, Function.update_same]
      refine ⟨h1, ?_⟩
      intro hx
      rcases List.mem_cons.1 hx with e | hx
      · exact ha0 e.symm
      · exact h0 hx
    · rw [Function.update_noteq hba, Function.update_noteq hba]
      exact ⟨IsList_congr (hl b hb).1 (fun x hx => (hfr b hb hba x hx).1)
        (fun x hx => (hfr b hb hba x hx).2.1) (fun x hx => (hfr b hb hba x hx).2.2),
        (hl b hb).2⟩
  · intro b hb c hc hbc x hxb hxc
    by_cases hba : b = a
    · subst hba
      have hca : c ≠ b := Ne.symm hbc
      rw [Function.update_same] at hxb
      rw [Function.update_noteq hca] at hxc
      rcases List.mem_cons.1 hxb with e | hx
      · subst e
        exact hd x ha c hc hbc x (List.mem_cons_self _ _) hxc
      · exact hnew x hx c hc hca hxc
    · rw [Function.update_noteq hba] at hxb
      by_cases hca : c = a
      · subst hca
        rw [Function.update_same] at hxc
        rcases List.mem_cons.1 hxc with e | hx
        · subst e
          exact hd b hb x ha hbc x hxb (List.mem_cons_self _ _)
        · exact hnew x hx b hb hba hxb
      · rw [Function.update_noteq hca] at hxc
        exact hd b hb c hc hbc x hxb hxc

theorem Layout_inserted {w : world T} {nodes : Nat → List Nat} {vals : Nat → List T}
    (h : Layout w nodes vals) {a : Nat} (ha : a ∈ w.lists) {m1 : memory T}
    {ns1 : List Nat} {xs1 : List T} {q n p : Nat} {t : T} (h1 : IsList m1 a ns1 xs1)
    (hsub : ∀ x ∈ ns1, x ∈ nodes a ∨ x = n) (he : Inserted w.mem m1 q n p t)
    (hq : q ∈ a :: nodes a) (hp : p ∈ a :: nodes a) (hn : w.mem n = none) (hn0 : n ≠ 0) :
    Layout { mem := m1, lists := w.lists } (Function.update nodes a ns1)
      (Function.update vals a xs1) := by
  refine Layout_update h ha h1 ?_ ?_ ?_
  · intro hx
    rcases hsub 0 hx with hx | hx
    · exact (h.2.1 a ha).2 (List.mem_cons_of_mem _ hx)
    · exact hn0 hx.symm
  · intro x hx b hb hba hxb
    rcases hsub x hx with hx | hx
    · exact h.2.2 a ha b hb (Ne.symm hba) x (List.mem_cons_of_mem _ hx) hxb
    · subst hx
      exact Ring_not_mem (h.2.1 b hb).1.1 hn hxb
  · intro b hb hba x hxb
    refine Inserted_frame he ?_ ?_ ?_
    · rintro rfl
      exact h.2.2 a ha b hb (Ne.symm hba) x hq hxb
    · rintro rfl
      exact Ring_not_mem (h.2.1 b hb).1.1 hn hxb
    · rintro rfl
      exact h.2.2 a ha b hb (Ne.symm hba) x hp hxb

theorem Layout_removed {w : world T} {nodes : Nat → List Nat} {vals : Nat → List T}
    (h : Layout w nodes vals) {a : Nat} (ha : a ∈ w.lists) {m1 : memory T}
    {ns1 : List Nat} {xs1 : List T} {q n p : Nat} (h1 : IsList m1 a ns1 xs1)
    (hsub : ∀ x ∈ ns1, x ∈ nodes a) (he : Removed w.mem m1 q n p)
    (hq : q ∈ a :: nodes a) (hp : p ∈ a :: nodes a) (hn : n ∈ nodes a) :
    Layout { mem := m1, lists := w.lists } (Function.update nodes a ns1)
      (Function.update vals a xs1) := by
  refine Layout_update h ha h1 ?_ ?_ ?_
  · intro hx
    exact (h.2.1 a ha).2 (List.mem_cons_of_mem _ (hsub 0 hx))
  · intro x hx b hb hba hxb
    exact h.2.2 a ha b hb (Ne.symm hba) x (List.mem_cons_of_mem _ (hsub x hx)) hxb
  · intro b hb hba x hxb
    refine Removed_frame he ?_ ?_ ?_
    · rintro rfl
      exact h.2.2 a ha b hb (Ne.symm hba) x hq hxb
    · rintro rfl
      exact h.2.2 a ha b hb (Ne.symm hba) x (List.mem_cons_of_mem _ hn) hxb
    · rintro rfl
      exact h.2.2 a ha b hb (Ne.symm hba) x hp hxb

theorem insert_null (m : memory T) (pos : Nat) (t : T) : insert m pos 0 t = none := by
  simp [insert, new_node, bind]

theorem push_back_null (m : memory T) (a : Nat) (t : T) : push_back m a 0 t = none := by
  simp [push_back, new_node, bind]

theorem push_front_null (m : memory T) (a : Nat) (t : T) : push_front m a 0 t = none := by
  simp [push_front, new_node, bind]

theorem empty_false_ne_nil {m : memory T} {a : Nat} {ns : List Nat} (h : Ring m a ns)
    (he : empty m a = some false) : ns ≠ [] := by
  rintro rfl
  have := (Ring_nil_links h).1
  unfold empty at he
  rw [this] at he
  simp at he

theorem Layout_construct {w : world T} {nodes : Nat → List Nat} {vals : Nat → List T}
    (h : Layout w nodes vals) {a : Nat} (ha : a ≠ 0) (hm : w.mem a = none) :
    Layout { mem := construct w.mem a, lists := a :: w.lists } (Function.update nodes a [])
      (Function.update vals a []) := by
  obtain ⟨hnd, hl, hd⟩ := h
  have hal : a ∉ w.lists := fun hx =>
    Ring_not_mem (hl a hx).1.1 hm (List.mem_cons_self _ _)
  have hfr : ∀ b ∈ w.lists, ∀ x ∈ b :: nodes b, x ≠ a := by
    intro b hb x hx e
    subst e
    exact Ring_not_mem (hl b hb).1.1 hm hx
  have hnew : IsList (construct w.mem a) a [] [] := by
    refine ⟨⟨?_, List.nodup_singleton a, ?_⟩, rfl⟩
    · have : a :: ([] : List Nat) ++ [a] = [a, a] := rfl
      rw [this, List.chain'_pair]
      exact ⟨by rw [construct, anext_write, if_pos rfl],
        by rw [construct, aprev_write, if_pos rfl]⟩
    · rw [construct, value_write, if_pos rfl]
  refine ⟨List.nodup_cons.2 ⟨hal, hnd⟩, ?_, ?_⟩
  · intro b hb
    rcases List.mem_cons.1 hb with e | hb
    · subst e
      rw [Function.update_same, Function.update_same]
      refine ⟨hnew, ?_⟩
      simp only [List.mem_singleton]
      exact Ne.symm ha
    · have hba : b ≠ a := fun e => hal (e ▸ hb)
      rw [Function.update_noteq hba, Function.update_noteq hba]
      refine ⟨IsList_congr (hl b hb).1 ?_ ?_ ?_, (hl b hb).2⟩
      · intro x hx
        rw [construct, anext_write, if_neg (hfr b hb x hx)]
      · intro x hx
        rw [construct, aprev_write, if_neg (hfr b hb x hx)]
      · intro x hx
        rw [construct, value_write, if_neg (hfr b hb x hx)]
  · intro b hb c hc hbc x hxb hxc
    rcases List.mem_cons.1 hb with e | hb1
    · rcases List.mem_cons.1 hc with e2 | hc1
      · exact hbc (e.trans e2.symm)
      · have hcb : c ≠ a := fun e3 => hal (e3 ▸ hc1)
        rw [e, Function.update_same] at hxb
        rw [Function.update_noteq hcb] at hxc
        simp only [List.mem_singleton] at hxb
        exact hfr c hc1 x hxc hxb
    · have hba : b ≠ a := fun e => hal (e ▸ hb1)
      rw [Function.update_noteq hba] at hxb
      rcases List.mem_cons.1 hc with e | hc1
      · rw [e, Function.update_same] at hxc
        simp only [List.mem_singleton] at hxc
        exact hfr b hb1 x hxb hxc
      · have hca : c ≠ a := fun e => hal (e ▸ hc1)
        rw [Function.update_noteq hca] at hxc
        exact hd b hb1 c hc1 hbc x hxb hxc

end list
end taapp

namespace taapp
namespace list
variable {T : Type}

theorem Layout_splice {w : world T} {nodes : Nat → List Nat} {vals : Nat → List T}
    (h : Layout w nodes vals) {a b : Nat} (ha : a ∈ w.lists) (hb : b ∈ w.lists)
    (hab : a ≠ b) {m1 : memory T} {l1 l2 : List Nat} {xs1 : List T}
    (hn : nodes a = l1 ++ l2)
    (h1 : IsList m1 a (l1 ++ nodes b ++ l2) xs1) (h2 : IsList m1 b [] [])
    (hfr : ∀ x, x ∉ a :: (l1 ++ l2) → x ∉ b :: nodes b →
      anext m1 x = anext w.mem x ∧ aprev m1 x = aprev w.mem x ∧ value m1 x = value w.mem x) :
    Layout { mem := m1, lists := w.lists }
      (Function.update (Function.update nodes a (l1 ++ nodes b ++ l2)) b [])
      (Function.update (Function.update vals a xs1) b []) := by
  obtain ⟨hnd, hl, hd⟩ := h
  have hsub : ∀ x, x ∈ a :: (l1 ++ nodes b ++ l2) → x ∈ a :: nodes a ∨ x ∈ nodes b := by
    intro x hx
    rw [hn]
    simp only [List.mem_cons, List.mem_append] at hx ⊢
    tauto
  have hu : ∀ c, c ≠ a → c ≠ b →
      Function.update (Function.update nodes a (l1 ++ nodes b ++ l2)) b [] c = nodes c := by
    intro c hca hcb
    rw [Function.update_noteq hcb, Function.update_noteq hca]
  have hua : Function.update (Function.update nodes a (l1 ++ nodes b ++ l2)) b [] a =
      l1 ++ nodes b ++ l2 := by
    rw [Function.update_noteq hab, Function.update_same]
  have hub : Function.update (Function.update nodes a (l1 ++ nodes b ++ l2)) b [] b = [] := by
    rw [Function.update_same]
  refine ⟨hnd, ?_, ?_⟩
  · intro c hc
    by_cases hcb : c = b
    · subst hcb
      rw [Function.update_same, Function.update_same]
      refine ⟨h2, ?_⟩
      simp only [List.mem_singleton]
      intro e
      exact (hl c hc).2 (by rw [← e]; simp)
    · by_cases hca : c = a
      · subst hca
        rw [hua, Function.update_noteq hcb, Function.update_same]
        refine ⟨h1, ?_⟩
        intro hx
        rcases hsub 0 hx with hx | hx
        · exact (hl c hc).2 hx
        · exact (hl b hb).2 (List.mem_cons_of_mem _ hx)
      · rw [hu c hca hcb, Function.update_noteq hcb, Function.update_noteq hca]
        have hf : ∀ x ∈ c :: nodes c, anext m1 x = anext w.mem x ∧
            aprev m1 x = aprev w.mem x ∧ value m1 x = value w.mem x := by
          intro x hx
          refine hfr x ?_ ?_
          · rw [← hn]
            exact fun hxa => hd c hc a ha hca x hx hxa
          · exact fun hxb => hd c hc b hb hcb x hx hxb
        exact ⟨IsList_congr (hl c hc).1 (fun x hx => (hf x hx).1) (fun x hx => (hf x hx).2.1)
          (fun x hx => (hf x hx).2.2), (hl c hc).2⟩
  · -- the owner of each node of a new ring
    have key : ∀ c ∈ w.lists, ∀ x,
        x ∈ c :: Function.update (Function.update nodes a (l1 ++ nodes b ++ l2)) b [] c →
        (c = b ∧ x = b) ∨ (c = a ∧ (x ∈ a :: nodes a ∨ x ∈ nodes b)) ∨
          (c ≠ a ∧ c ≠ b ∧ x ∈ c :: nodes c) := by
      intro c hc x hx
      by_cases hcb : c = b
      · subst hcb
        rw [hub] at hx
        exact Or.inl ⟨rfl, by simpa using hx⟩
      · by_cases hca : c = a
        · subst hca
          rw [hua] at hx
          exact Or.inr (Or.inl ⟨rfl, hsub x hx⟩)
        · rw [hu c hca hcb] at hx
          exact Or.inr (Or.inr ⟨hca, hcb, hx⟩)
    have hbn : b ∉ nodes b := (List.nodup_cons.1 (hl b hb).1.1.2.1).1
    intro c hc d hd2 hcd x hxc hxd
    rcases key c hc x hxc with ⟨ec, ex⟩ | ⟨ec, hx1⟩ | ⟨hca, hcb, hx1⟩ <;>
      rcases key d hd2 x hxd with ⟨ed, ex2⟩ | ⟨ed, hx2⟩ | ⟨hda, hdb, hx2⟩
    · exact hcd (ec.trans ed.symm)
    · rw [ex] at hx2
      rcases hx2 with hx2 | hx2
      · exact hd a ha b hb hab b hx2 (List.mem_cons_self _ _)
      · exact hbn hx2
    · rw [ex] at hx2
      exact hd d hd2 b hb hdb b hx2 (List.mem_cons_self _ _)
    · rw [ex2] at hx1
      rcases hx1 with hx1 | hx1
      · exact hd a ha b hb hab b hx1 (List.mem_cons_self _ _)
      · exact hbn hx1
    · exact hcd (ec.trans ed.symm)
    · rcases hx1 with hx1 | hx1
      · exact hd d hd2 a ha hda x hx2 hx1
      · exact hd d hd2 b hb hdb x hx2 (List.mem_cons_of_mem _ hx1)
    · rw [ex2] at hx1
      exact hd c hc b hb hcb b hx1 (List.mem_cons_self _ _)
    · rcases hx2 with hx2 | hx2
      · exact hd c hc a ha hca x hx1 hx2
      · exact hd c hc b hb hcb x hx1 (List.mem_cons_of_mem _ hx2)
    · exact hd c hc d hd2 hcd x hx1 hx2

/-- Every reachable world has a layout. -/
theorem reachable_layout {w : world T} (h : Reachable w) :
    ∃ nodes vals, Layout w nodes vals := by
  induction h with
  | init =>
    exact ⟨fun _ => [], fun _ => [], List.nodup_nil,
      fun a ha => absurd ha (List.not_mem_nil a), fun a ha => absurd ha (List.not_mem_nil a)⟩
  | @construct w a _ ha hm ih =>
    obtain ⟨nodes, vals, hl⟩ := ih
    exact ⟨_, _, Layout_construct hl ha hm⟩
  | @push_back w a fresh t m1 _ ha hm e ih =>
    obtain ⟨nodes, vals, hl⟩ := ih
    have hf : fresh ≠ 0 := by
      rintro rfl
      rw [push_back_null] at e
      cases e
    obtain ⟨m2, q, e2, h2, hq, he⟩ := push_back_spec t (hl.2.1 a ha).1 hf hm
    rw [e] at e2
    cases e2
    refine ⟨_, _, Layout_inserted hl ha h2 ?_ he hq (List.mem_cons_self _ _) hm hf⟩
    intro x hx
    simpa using hx
  | @push_front w a fresh t m1 _ ha hm e ih =>
    obtain ⟨nodes, vals, hl⟩ := ih
    have hf : fresh ≠ 0 := by
      rintro rfl
      rw [push_front_null] at e
      cases e
    obtain ⟨m2, p, e2, h2, hp, he⟩ := push_front_spec t (hl.2.1 a ha).1 hf hm
    rw [e] at e2
    cases e2
    refine ⟨_, _, Layout_inserted hl ha h2 ?_ he (List.mem_cons_self _ _) hp hm hf⟩
    intro x hx
    simp only [List.mem_cons] at hx
    tauto
  | @insert w a pos fresh t m1 r _ ha hpos hm e ih =>
    obtain ⟨nodes, vals, hl⟩ := ih
    have hf : fresh ≠ 0 := by
      rintro rfl
      rw [insert_null] at e
      cases e
    obtain ⟨l1, l2, hn, hp⟩ := IsPos_split (hl.2.1 a ha).1.1 hpos
    have hil := (hl.2.1 a ha).1
    rw [hn] at hil
    obtain ⟨m2, q, e2, h2, hq, he⟩ := list_insert_spec t hil hp hf hm
    rw [e] at e2
    cases e2
    refine ⟨_, _, Layout_inserted hl ha h2 ?_ he ?_ ?_ hm hf⟩
    · intro x hx
      rw [hn]
      simp only [List.mem_cons, List.mem_append] at hx ⊢
      tauto
    · rw [hn]
      simp only [List.mem_cons, List.mem_append] at hq ⊢
      tauto
    · have := mem_of_head? hp
      rw [hn]
      simp only [List.mem_cons, List.mem_append, List.mem_singleton] at this ⊢
      tauto
  | @erase w a pos m1 r _ ha hpos e ih =>
    obtain ⟨nodes, vals, hl⟩ := ih
    obtain ⟨l1, l2, hn⟩ := List.append_of_mem (Elem_mem (hl.2.1 a ha).1.1 hpos)
    have hil := (hl.2.1 a ha).1
    rw [hn] at hil
    obtain ⟨m2, q, p, e2, hp, h2, hq, he⟩ := list_erase_spec hil
    rw [e] at e2
    cases e2
    refine ⟨_, _, Layout_removed hl ha h2 ?_ he ?_ ?_ ?_⟩
    · intro x hx
      rw [hn]
      simp only [List.mem_cons, List.mem_append] at hx ⊢
      tauto
    · rw [hn]
      simp only [List.mem_cons, List.mem_append] at hq ⊢
      tauto
    · have := mem_of_head? hp
      rw [hn]
      simp only [List.mem_cons, List.mem_append, List.mem_singleton] at this ⊢
      tauto
    · rw [hn]
      simp
  | @pop_back w a m1 _ ha hne e ih =>
    obtain ⟨nodes, vals, hl⟩ := ih
    have hnn := empty_false_ne_nil (hl.2.1 a ha).1.1 hne
    rcases List.eq_nil_or_concat (nodes a) with hn | ⟨l1, n, hn⟩
    · exact absurd hn hnn
    · rw [List.concat_eq_append] at hn
      have hil := (hl.2.1 a ha).1
      rw [hn] at hil
      obtain ⟨m2, q, e2, h2, hq, he⟩ := pop_back_spec hil
      rw [e] at e2
      cases e2
      refine ⟨_, _, Layout_removed hl ha h2 ?_ he ?_ (List.mem_cons_self _ _) ?_⟩
      · intro x hx
        rw [hn]
        exact List.mem_append_left _ hx
      · rw [hn]
        simp only [List.mem_cons, List.mem_append] at hq ⊢
        tauto
      · rw [hn]
        simp
  | @pop_front w a m1 _ ha hne e ih =>
    obtain ⟨nodes, vals, hl⟩ := ih
    have hnn := empty_false_ne_nil (hl.2.1 a ha).1.1 hne
    cases hn : nodes a with
    | nil => exact absurd hn hnn
    | cons n l2 =>
      have hil := (hl.2.1 a ha).1
      rw [hn] at hil
      obtain ⟨m2, p, e2, h2, hp, he⟩ := pop_front_spec hil
      rw [e] at e2
      cases e2
      refine ⟨_, _, Layout_removed hl ha h2 ?_ he (List.mem_cons_self _ _) ?_ ?_⟩
      · intro x hx
        rw [hn]
        exact List.mem_cons_of_mem _ hx
      · rw [hn]
        simp only [List.mem_cons] at hp ⊢
        tauto
      · rw [hn]
        simp
  | @splice w a b pos m1 _ ha hb hab hpos e ih =>
    obtain ⟨nodes, vals, hl⟩ := ih
    obtain ⟨l1, l2, hn, hp⟩ := IsPos_split (hl.2.1 a ha).1.1 hpos
    have hil := (hl.2.1 a ha).1
    rw [hn] at hil
    have hdj : ∀ x, x ∈ a :: (l1 ++ l2) → x ∈ b :: nodes b → False := by
      intro x hx hxb
      rw [← hn] at hx
      exact hl.2.2 a ha b hb hab x hx hxb
    obtain ⟨m2, e2, h1, h2, hfr⟩ := list_splice_spec hil (hl.2.1 b hb).1 hdj hp
    rw [e] at e2
    cases e2
    exact ⟨_, _, Layout_splice hl ha hb hab hn h1 h2 hfr⟩

end list
end taapp

namespace taapp
namespace list
variable {T : Type}

/-! ## Positions given by their index -/

theorem pos_split {ns : List Nat} {a i pos : Nat} (h : (ns ++ [a])[i]? = some pos) :
    i ≤ ns.length ∧ (ns.drop i ++ [a]).head? = some pos ∧
      (ns.take i).length = i ∧ ns.take i ++ ns.drop i = ns := by
  have hl := List.getElem?_eq_some.1 h
  obtain ⟨hlt, -⟩ := hl
  simp only [List.length_append, List.length_singleton] at hlt
  have hi : i ≤ ns.length := by omega
  refine ⟨hi, ?_, by simp [hi], List.take_append_drop _ _⟩
  rw [← List.drop_append_of_le_length hi, List.head?_drop]
  exact h

theorem elem_split {ns : List Nat} {i pos : Nat} (h : ns[i]? = some pos) :
    ns = ns.take i ++ pos :: ns.drop (i + 1) ∧ (ns.take i).length = i := by
  obtain ⟨hlt, he⟩ := List.getElem?_eq_some.1 h
  refine ⟨?_, by simp; omega⟩
  rw [← he, ← List.drop_eq_getElem_cons hlt, List.take_append_drop]

theorem list_insert_at {m : memory T} {a : Nat} {ns : List Nat} {xs : List T}
    (h : IsList m a ns xs) {i pos fresh : Nat} (t : T) (hp : (ns ++ [a])[i]? = some pos)
    (hf : fresh ≠ 0) (hm : m fresh = none) :
    ∃ m1, insert m pos fresh t = some (m1, fresh) ∧
      IsList m1 a (ns.take i ++ fresh :: ns.drop i) (xs.take i ++ t :: xs.drop i) ∧
      value m1 fresh = some t ∧ Link m1 fresh pos := by
  obtain ⟨-, hh, hl, he⟩ := pos_split hp
  have h0 : IsList m a (ns.take i ++ ns.drop i) xs := by rw [he]; exact h
  obtain ⟨m1, q, e1, h1, -, hi⟩ := list_insert_spec t h0 hh hf hm
  rw [hl] at h1
  refine ⟨m1, e1, h1, by rw [hi.2.2, if_pos rfl], by rw [hi.1, if_pos rfl], ?_⟩
  have hpf : pos ≠ fresh := by
    intro e
    have hpm := mem_of_head? hh
    have : pos ∈ a :: (ns.take i ++ ns.drop i) := by
      simp only [List.mem_cons, List.mem_append, List.mem_singleton] at hpm ⊢
      tauto
    exact Ring_not_mem h0.1 hm (e ▸ this)
  rw [hi.2.1, if_neg hpf, if_pos rfl]

theorem list_erase_at {m : memory T} {a : Nat} {ns : List Nat} {xs : List T}
    (h : IsList m a ns xs) {i pos : Nat} (hp : ns[i]? = some pos) :
    ∃ m1 next, erase m pos = some (m1, next) ∧ (ns ++ [a])[i + 1]? = some next ∧
      IsList m1 a (ns.take i ++ ns.drop (i + 1)) (xs.take i ++ xs.drop (i + 1)) ∧
      m1 pos = none := by
  obtain ⟨he, hl⟩ := elem_split hp
  have h0 : IsList m a (ns.take i ++ pos :: ns.drop (i + 1)) xs := by rw [← he]; exact h
  obtain ⟨m1, q, p, e1, hh, h1, -, hr⟩ := list_erase_spec h0
  rw [hl] at h1
  refine ⟨m1, p, e1, ?_, h1, ?_⟩
  · have hlt := (List.getElem?_eq_some.1 hp).1
    rw [← List.head?_drop, List.drop_append_of_le_length (by omega)]
    exact hh
  · have := hr.1 pos
    rw [if_pos rfl] at this
    cases hm : m1 pos with
    | none => rfl
    | some c =>
      unfold anext at this
      rw [hm] at this
      cases this

theorem list_splice_at {m : memory T} {a b : Nat} {ns ms : List Nat} {xs ys : List T}
    (h : IsList m a ns xs) (hb : IsList m b ms ys)
    (hdj : ∀ x, x ∈ a :: ns → x ∈ b :: ms → False) {i pos : Nat}
    (hp : (ns ++ [a])[i]? = some pos) :
    ∃ m1, splice m pos b = some m1 ∧
      IsList m1 a (ns.take i ++ ms ++ ns.drop i) (xs.take i ++ ys ++ xs.drop i) ∧
      IsList m1 b [] [] ∧ empty m1 b = some true := by
  obtain ⟨-, hh, hl, he⟩ := pos_split hp
  have h0 : IsList m a (ns.take i ++ ns.drop i) xs := by rw [he]; exact h
  obtain ⟨m1, e1, h1, h2, -⟩ := list_splice_spec h0 hb (by rw [he]; exact hdj) hh
  rw [hl] at h1
  refine ⟨m1, e1, h1, h2, ?_⟩
  unfold empty
  rw [(Ring_nil_links h2.1).1]
  simp

/-- After `clear()` on a list that is not empty the anchor still points at the
released nodes. -/
theorem clear_anchor {m : memory T} {a n : Nat} {ns : List Nat} {xs : List T}
    (h : IsList m a (n :: ns) xs) {fuel : Nat} (hf : xs.length ≤ fuel) :
    ∃ m1, clear fuel m a = some m1 ∧ begin m1 a = some n ∧ n ≠ end_ a ∧ m1 n = none ∧
      empty m1 a = some false := by
  obtain ⟨m1, e1, h1, h2⟩ := clear_spec h hf
  have hq : (a :: ([] : List Nat)).getLast? = some a := rfl
  obtain ⟨p, hp⟩ := head?_append_some ns a
  have h0 : IsList m a ([] ++ n :: ns) xs := h
  obtain ⟨lq, -, hqn, -, hna, -⟩ := Ring_links h0.1 hq hp
  have han : a ∉ n :: ns := (List.nodup_cons.1 h.1.2.1).1
  have hb : anext m1 a = some n := by
    unfold anext
    rw [h2 a han]
    exact lq.1
  refine ⟨m1, e1, hb, hna, h1 n (List.mem_cons_self _ _), ?_⟩
  unfold empty
  rw [hb]
  simp only [Option.some.injEq, decide_eq_false_iff_not]
  exact hna

/-- In a reachable world every list is a ring without the null address. -/
theorem reachable_ring {w : world T} (h : Reachable w) {a : Nat} (ha : a ∈ w.lists) :
    ∃ ns xs, IsList w.mem a ns xs ∧ 0 ∉ a :: ns := by
  obtain ⟨nodes, vals, hl⟩ := reachable_layout h
  exact ⟨nodes a, vals a, hl.2.1 a ha⟩

theorem IsPos_iff {m : memory T} {a : Nat} {ns : List Nat} (h : Ring m a ns) (x : Nat) :
    IsPos m a x ↔ x ∈ a :: ns := by
  constructor
  · rintro (e | e)
    · rw [e]
      exact List.mem_cons_self _ _
    · exact List.mem_cons_of_mem _ (Elem_mem h e)
  · intro hx
    rcases List.mem_cons.1 hx with e | hx
    · exact Or.inl e
    · obtain ⟨l1, l2, e⟩ := List.append_of_mem hx
      subst e
      exact Or.inr (mem_Elem l1 h)

end list
end taapp

namespace taapp
namespace unordered_map
open list
variable {Key V : Type}

/-! ## The effect of the operations on the buckets -/

theorem bucket_push_effect {mem : memory (Key × V)} {b n p : Nat} {kv : Key × V}
    (hp : anext mem b = some p) (hpa : (anext mem p).isSome = true)
    (hna : (anext mem n).isSome = true) (hnb : n ≠ b) (hnp : n ≠ p)
    (hv : value mem n = some kv) :
    ∃ m1, bucket_push mem b n = some m1 ∧ Inserted mem m1 b n p kv := by
  have hba : (anext mem b).isSome = true := by rw [hp]; rfl
  obtain ⟨m1, e1, a1, p1, v1⟩ := set_anext_spec (m := mem) (p := n) p hna
  have al1 : ∀ x, (anext m1 x).isSome = (anext mem x).isSome := by
    intro x
    rw [a1]
    by_cases h : x = n
    · rw [if_pos h, h, hna]; rfl
    · rw [if_neg h]
  obtain ⟨m2, e2, a2, p2, v2⟩ := set_aprev_spec (m := m1) (p := n) b
    (by rw [al1]; exact hna)
  have r2 : anext m2 b = some p := by rw [a2, a1, if_neg (Ne.symm hnb)]; exact hp
  obtain ⟨m3, e3, a3, p3, v3⟩ := set_aprev_spec (m := m2) (p := p) n
    (by rw [a2, al1]; exact hpa)
  obtain ⟨m4, e4, a4, p4, v4⟩ := set_anext_spec (m := m3) (p := b) n
    (by rw [a3, a2, al1]; exact hba)
  refine ⟨m4, ?_, ?_, ?_, ?_⟩
  · simp only [bucket_push, bind, Option.bind, hp, e1, e2, r2, e3, e4]
  · intro x
    rw [a4, a3, a2, a1]
    by_cases h1 : x = n
    · subst h1
      simp only [hnb, if_false, if_true]
    · simp only [h1, if_false]
  · intro x
    rw [p4, p3, p2, p1]
    by_cases h1 : x = n
    · subst h1
      simp only [hnp, if_false, if_true]
    · simp only [h1, if_false]
  · intro x
    rw [v4, v3, v2, v1]
    by_cases h1 : x = n
    · rw [if_pos h1, h1, hv]
    · rw [if_neg h1]

theorem bucket_erase_effect {mem : memory (Key × V)} (b : Nat) {n q p : Nat}
    (hq : aprev mem n = some q) (hp : anext mem n = some p) (hqn : q ≠ n)
    (hqa : (anext mem q).isSome = true) (hpa : (anext mem p).isSome = true) :
    ∃ m1, bucket_erase mem b n = some m1 ∧ Unlinked mem m1 q n p ∧
      value m1 n = value mem n ∧ (anext m1 n).isSome = true := by
  obtain ⟨m1, e1, a1, p1, v1⟩ := set_anext_spec (m := mem) (p := q) p hqa
  have r1 : anext m1 n = some p := by rw [a1, if_neg (Ne.symm hqn)]; exact hp
  have r2 : aprev m1 n = some q := by rw [p1]; exact hq
  obtain ⟨m2, e2, a2, p2, v2⟩ := set_aprev_spec (m := m1) (p := p) q
    (by
      rw [a1]
      by_cases h : p = q
      · rw [if_pos h]; rfl
      · rw [if_neg h]; exact hpa)
  refine ⟨m2, ?_, ⟨fun x _ => ?_, fun x _ => ?_, fun x _ => ?_⟩, ?_, ?_⟩
  · simp only [bucket_erase, bind, Option.bind, hp, hq, e1, r1, r2, e2]
  · rw [a2, a1]
  · rw [p2, p1]
  · rw [v2, v1]
  · rw [v2, v1]
  · rw [a2, r1]; rfl

/-! ## The new table -/

theorem anext_allocate_buckets (mem : memory (Key × V)) (base count x : Nat) :
    anext (allocate_buckets mem base count) x =
      if base ≤ x ∧ x < base + count then some 0 else anext mem x := by
  unfold allocate_buckets anext
  by_cases h : base ≤ x ∧ x < base + count
  · simp only [h, and_self, if_true]
  · simp only [h, if_false]

theorem aprev_allocate_buckets (mem : memory (Key × V)) (base count x : Nat) :
    aprev (allocate_buckets mem base count) x =
      if base ≤ x ∧ x < base + count then some 0 else aprev mem x := by
  unfold allocate_buckets aprev
  by_cases h : base ≤ x ∧ x < base + count
  · simp only [h, and_self, if_true]
  · simp only [h, if_false]

theorem value_allocate_buckets (mem : memory (Key × V)) (base count x : Nat) :
    value (allocate_buckets mem base count) x =
      if base ≤ x ∧ x < base + count then none else value mem x := by
  unfold allocate_buckets value
  by_cases h : base ≤ x ∧ x < base + count
  · simp only [h, and_self, if_true]
  · simp only [h, if_false]

theorem init_loop_spec : ∀ (count : Nat) (mem : memory (Key × V)) (b : Nat),
    (∀ x, b ≤ x → x < b + count → (anext mem x).isSome = true) →
    ∃ m1, init_loop count mem b = some m1 ∧
      (∀ x, anext m1 x = if b ≤ x ∧ x < b + count then some x else anext mem x) ∧
      (∀ x, aprev m1 x = if b ≤ x ∧ x < b + count then some x else aprev mem x) ∧
      (∀ x, value m1 x = value mem x) := by
  intro count
  induction count with
  | zero =>
    intro mem b _
    refine ⟨mem, rfl, fun x => ?_, fun x => ?_, fun x => rfl⟩
    · rw [if_neg (by omega)]
    · rw [if_neg (by omega)]
  | succ c ih =>
    intro mem b ha
    obtain ⟨m1, e1, a1, p1, v1⟩ := set_aprev_spec (m := mem) (p := b) b
      (ha b (Nat.le_refl _) (by omega))
    obtain ⟨m2, e2, a2, p2, v2⟩ := set_anext_spec (m := m1) (p := b) b
      (by rw [a1]; exact ha b (Nat.le_refl _) (by omega))
    obtain ⟨m3, e3, a3, p3, v3⟩ := ih m2 (b + 1) (by
      intro x h1 h2
      rw [a2, a1]
      by_cases h : x = b
      · rw [if_pos h]; rfl
      · rw [if_neg h]; exact ha x (by omega) (by omega))
    refine ⟨m3, ?_, fun x => ?_, fun x => ?_, fun x => ?_⟩
    · simp only [init_loop, e1, e2, e3]
    · rw [a3, a2, a1]
      by_cases h : x = b
      · subst h
        rw [if_neg (by omega), if_pos rfl, if_pos (by omega)]
      · rw [if_neg h]
        by_cases h2 : b + 1 ≤ x ∧ x < b + 1 + c
        · rw [if_pos h2, if_pos (by omega)]
        · rw [if_neg h2, if_neg (by omega)]
    · rw [p3, p2, p1]
      by_cases h : x = b
      · subst h
        rw [if_neg (by omega), if_pos rfl, if_pos (by omega)]
      · rw [if_neg h]
        by_cases h2 : b + 1 ≤ x ∧ x < b + 1 + c
        · rw [if_pos h2, if_pos (by omega)]
        · rw [if_neg h2, if_neg (by omega)]
    · rw [v3, v2, v1]

theorem mem_anchors {base count x : Nat} :
    x ∈ anchors base count ↔ ∃ i, i < count ∧ x = base + i := by
  unfold anchors
  simp only [List.mem_map, List.mem_range]
  constructor
  · rintro ⟨i, hi, rfl⟩
    exact ⟨i, hi, rfl⟩
  · rintro ⟨i, hi, rfl⟩
    exact ⟨i, hi, rfl⟩

theorem mem_anchors_iff {base count x : Nat} :
    x ∈ anchors base count ↔ base ≤ x ∧ x < base + count := by
  rw [mem_anchors]
  constructor
  · rintro ⟨i, hi, rfl⟩
    omega
  · intro h
    exact ⟨x - base, by omega, by omega⟩

theorem nodup_anchors (base count : Nat) : (anchors base count).Nodup := by
  unfold anchors
  refine List.Nodup.map ?_ (List.nodup_range count)
  intro i j h
  simp only at h
  omega

end unordered_map
end taapp

namespace taapp
namespace unordered_map
open list
variable {Key V : Type}

/-! ## Layouts of tables -/

theorem Layout_congr {T : Type} {m m1 : memory T} {L : List Nat} {nodes : Nat → List Nat}
    {vals : Nat → List T} (h : Layout { mem := m, lists := L } nodes vals)
    (hfr : ∀ a ∈ L, ∀ x ∈ a :: nodes a,
      anext m1 x = anext m x ∧ aprev m1 x = aprev m x ∧ value m1 x = value m x) :
    Layout { mem := m1, lists := L } nodes vals := by
  obtain ⟨hnd, hl, hd⟩ := h
  refine ⟨hnd, fun a ha => ⟨?_, (hl a ha).2⟩, hd⟩
  exact IsList_congr (hl a ha).1 (fun x hx => (hfr a ha x hx).1)
    (fun x hx => (hfr a ha x hx).2.1) (fun x hx => (hfr a ha x hx).2.2)

theorem Layout_restrict {T : Type} {m : memory T} {L L1 : List Nat} {nodes : Nat → List Nat}
    {vals : Nat → List T} (h : Layout { mem := m, lists := L } nodes vals)
    (hs : ∀ a ∈ L1, a ∈ L) (hnd1 : L1.Nodup) :
    Layout { mem := m, lists := L1 } nodes vals := by
  obtain ⟨-, hl, hd⟩ := h
  exact ⟨hnd1, fun a ha => hl a (hs a ha), fun a ha b hb => hd a (hs a ha) b (hs b hb)⟩

theorem Layout_ext {T : Type} {m : memory T} {L : List Nat} {nodes nodes1 : Nat → List Nat}
    {vals vals1 : Nat → List T} (h : Layout { mem := m, lists := L } nodes vals)
    (he : ∀ a ∈ L, nodes1 a = nodes a ∧ vals1 a = vals a) :
    Layout { mem := m, lists := L } nodes1 vals1 := by
  obtain ⟨hnd, hl, hd⟩ := h
  refine ⟨hnd, fun a ha => ?_, fun a ha b hb hab x hxa hxb => ?_⟩
  · rw [(he a ha).1, (he a ha).2]
    exact hl a ha
  · rw [(he a ha).1] at hxa
    rw [(he b hb).1] at hxb
    exact hd a ha b hb hab x hxa hxb

/-- New empty rings can be added to a layout. -/
theorem Layout_add {T : Type} {m : memory T} {L L1 : List Nat} {nodes : Nat → List Nat}
    {vals : Nat → List T} (h : Layout { mem := m, lists := L } nodes vals)
    (hnd1 : L1.Nodup)
    (hnew : ∀ a ∈ L1, a ≠ 0 ∧ Link m a a ∧ value m a = none ∧ nodes a = [] ∧ vals a = [] ∧
      ∀ b ∈ L, a ∉ b :: nodes b) :
    Layout { mem := m, lists := L ++ L1 } nodes vals := by
  obtain ⟨hnd, hl, hd⟩ := h
  refine ⟨?_, ?_, ?_⟩
  · refine List.nodup_append.2 ⟨hnd, hnd1, fun a ha ha1 => ?_⟩
    exact (hnew a ha1).2.2.2.2.2 a ha (List.mem_cons_self _ _)
  · intro a ha
    rcases List.mem_append.1 ha with ha | ha
    · exact hl a ha
    · obtain ⟨h0, hlk, hv, hn, hvl, -⟩ := hnew a ha
      rw [hn, hvl]
      refine ⟨⟨⟨?_, List.nodup_singleton a, hv⟩, rfl⟩, ?_⟩
      · have : a :: ([] : List Nat) ++ [a] = [a, a] := rfl
        rw [this, List.chain'_pair]
        exact hlk
      · simp only [List.mem_singleton]
        exact Ne.symm h0
  · intro a ha b hb hab x hxa hxb
    rcases List.mem_append.1 ha with ha | ha <;> rcases List.mem_append.1 hb with hb | hb
    · exact hd a ha b hb hab x hxa hxb
    · rw [(hnew b hb).2.2.2.1] at hxb
      simp only [List.mem_singleton] at hxb
      rw [hxb] at hxa
      exact (hnew b hb).2.2.2.2.2 a ha hxa
    · rw [(hnew a ha).2.2.2.1] at hxa
      simp only [List.mem_singleton] at hxa
      rw [hxa] at hxb
      exact (hnew a ha).2.2.2.2.2 b hb hxb
    · rw [(hnew a ha).2.2.2.1] at hxa
      rw [(hnew b hb).2.2.2.1] at hxb
      simp only [List.mem_singleton] at hxa hxb
      exact hab (hxa.symm.trans hxb)

/-! ## `find` -/

theorem map_find_loop_spec (equals : Key → Key → Bool) {mem : memory (Key × V)} {b : Nat}
    (k : Key) : ∀ (ns : List Nat) (kvs : List (Key × V)) (fuel : Nat) (n : Nat),
    List.Chain' (Link mem) (ns ++ [b]) → b ∉ ns → 0 ∉ ns →
    ns.map (value mem) = kvs.map some → ns.length ≤ fuel → (ns ++ [b]).head? = some n →
    ∃ r, find_loop equals fuel mem b n k = some r ∧
      (r = 0 → ∀ kv ∈ kvs, equals k kv.1 = false) ∧
      (r ≠ 0 → r ∈ ns ∧ ∃ kv, kv ∈ kvs ∧ value mem r = some kv ∧ equals k kv.1 = true) := by
  intro ns
  induction ns with
  | nil =>
    intro kvs fuel n _ _ _ hv _ hn
    cases hn
    have : kvs = [] := List.length_eq_zero.1 (values_length hv).symm
    subst this
    refine ⟨0, ?_, fun _ kv hkv => by simp at hkv, fun h => absurd rfl h⟩
    unfold find_loop
    rw [if_neg (by simp)]
  | cons y ns ih =>
    intro kvs fuel n hc hb h0 hv hf hn
    cases hn
    cases kvs with
    | nil => cases hv
    | cons kv kvs =>
      simp only [List.map_cons, List.cons.injEq] at hv
      cases fuel with
      | zero => simp at hf
      | succ f =>
        obtain ⟨p, hp⟩ := head?_append_some ns b
        have hc2 : List.Chain' (Link mem) (y :: (ns ++ [b])) := hc
        rw [List.chain'_cons'] at hc2
        have hnb : y ≠ b := fun e => hb (by rw [e]; simp)
        have hn0 : y ≠ 0 := fun e => h0 (by rw [e]; simp)
        unfold find_loop
        rw [if_pos hnb]
        simp only [hv.1]
        cases he : equals k kv.1 with
        | true =>
          simp only [if_true]
          exact ⟨y, rfl, fun h => absurd h hn0,
            fun _ => ⟨List.mem_cons_self _ _, kv, List.mem_cons_self _ _, hv.1, he⟩⟩
        | false =>
          simp only [Bool.false_eq_true, if_false, (hc2.1 p hp).1]
          obtain ⟨r, e, h1, h2⟩ := ih kvs f p hc2.2 (fun hx => hb (List.mem_cons_of_mem _ hx))
            (fun hx => h0 (List.mem_cons_of_mem _ hx)) hv.2 (by simpa using hf) hp
          refine ⟨r, e, fun hr kv2 hkv2 => ?_, fun hr => ?_⟩
          · rcases List.mem_cons.1 hkv2 with rfl | hkv2
            · exact he
            · exact h1 hr kv2 hkv2
          · obtain ⟨hm, kv2, hk2, hv2, he2⟩ := h2 hr
            exact ⟨List.mem_cons_of_mem _ hm, kv2, List.mem_cons_of_mem _ hk2, hv2, he2⟩

end unordered_map
end taapp

namespace taapp
namespace unordered_map
open list
variable {Key V : Type}

theorem map_find_spec (hasher : Key → Nat) (equals : Key → Key → Bool)
    {m : unordered_map Key V} {nodes : Nat → List Nat} {vals : Nat → List (Key × V)}
    (h : MapInv hasher m nodes vals) {fuel : Nat}
    (hf : ∀ i, i < m.numbuckets_ → (nodes (m.buckets_ + i)).length ≤ fuel) (k : Key) :
    ∃ it, find hasher equals fuel m k = some it ∧
      (it.node_ = 0 → m.numbuckets_ = 0 ∨
        ∀ kv ∈ vals (m.buckets_ + hasher k % m.numbuckets_), equals k kv.1 = false) ∧
      (it.node_ ≠ 0 → 0 < m.numbuckets_ ∧
        it.bucket_ = m.buckets_ + hasher k % m.numbuckets_ ∧
        it.bucketend_ = m.buckets_ + m.numbuckets_ ∧
        it.node_ ∈ nodes (m.buckets_ + hasher k % m.numbuckets_) ∧
        ∃ kv, kv ∈ vals (m.buckets_ + hasher k % m.numbuckets_) ∧
          value m.mem it.node_ = some kv ∧ equals k kv.1 = true) := by
  obtain ⟨hl, -, hz, hnz, -⟩ := h
  by_cases hb : m.buckets_ = 0
  · refine ⟨⟨0, 0, 0⟩, ?_, fun _ => Or.inl ?_, fun hne => absurd rfl hne⟩
    · unfold find
      rw [if_neg (by simpa using hb)]
    · by_contra hc
      exact hnz (Nat.pos_of_ne_zero hc) hb
  · have hn : m.numbuckets_ ≠ 0 := fun e => hb (hz e).1
    have hi : hasher k % m.numbuckets_ < m.numbuckets_ := Nat.mod_lt _ (Nat.pos_of_ne_zero hn)
    have hba : m.buckets_ + hasher k % m.numbuckets_ ∈ anchors m.buckets_ m.numbuckets_ :=
      mem_anchors.2 ⟨_, hi, rfl⟩
    obtain ⟨hil, h0⟩ := hl.2.1 _ hba
    obtain ⟨p, hp⟩ := head?_append_some (nodes (m.buckets_ + hasher k % m.numbuckets_))
      (m.buckets_ + hasher k % m.numbuckets_)
    have hc := hil.1.1
    have e : ∀ (a : Nat) (ns : List Nat), a :: ns ++ [a] = a :: (ns ++ [a]) := fun _ _ => rfl
    rw [e, List.chain'_cons'] at hc
    obtain ⟨r, er, h1, h2⟩ := map_find_loop_spec equals k _ _ fuel p hc.2
      (List.nodup_cons.1 hil.1.2.1).1 (fun hx => h0 (List.mem_cons_of_mem _ hx)) hil.2
      (hf _ hi) hp
    by_cases hr : r = 0
    · refine ⟨⟨0, 0, 0⟩, ?_, fun _ => Or.inr (h1 hr), fun hne => absurd rfl hne⟩
      unfold find get_bucket
      rw [if_pos hb, if_neg hn]
      simp only [(hc.1 p hp).1, er, hr, ne_eq, not_true_eq_false, if_false]
    · refine ⟨⟨r, _, _⟩, ?_, fun h => absurd h hr, fun _ => ⟨Nat.pos_of_ne_zero hn, rfl, rfl, ?_⟩⟩
      · unfold find get_bucket
        rw [if_pos hb, if_neg hn]
        simp only [(hc.1 p hp).1, er, ne_eq, hr, not_false_eq_true, if_true]
      · exact h2 hr

theorem anext_deallocate_buckets (mem : memory (Key × V)) (base count x : Nat) :
    anext (deallocate_buckets mem base count) x =
      if base ≤ x ∧ x < base + count then none else anext mem x := by
  unfold deallocate_buckets anext
  by_cases h : base ≤ x ∧ x < base + count
  · simp only [h, and_self, if_true]
  · simp only [h, if_false]

theorem aprev_deallocate_buckets (mem : memory (Key × V)) (base count x : Nat) :
    aprev (deallocate_buckets mem base count) x =
      if base ≤ x ∧ x < base + count then none else aprev mem x := by
  unfold deallocate_buckets aprev
  by_cases h : base ≤ x ∧ x < base + count
  · simp only [h, and_self, if_true]
  · simp only [h, if_false]

theorem value_deallocate_buckets (mem : memory (Key × V)) (base count x : Nat) :
    value (deallocate_buckets mem base count) x =
      if base ≤ x ∧ x < base + count then none else value mem x := by
  unfold deallocate_buckets value
  by_cases h : base ≤ x ∧ x < base + count
  · simp only [h, and_self, if_true]
  · simp only [h, if_false]

theorem calc_table_size_loop_mem : ∀ (l : List Nat) (s : Nat), l ≠ [] →
    calc_table_size_loop l s ∈ l := by
  intro l
  induction l with
  | nil => intro s h; exact absurd rfl h
  | cons t l ih =>
    intro s _
    cases l with
    | nil => simp [calc_table_size_loop]
    | cons u rest =>
      unfold calc_table_size_loop
      by_cases h : t ≥ s
      · rw [if_pos h]
        exact List.mem_cons_self _ _
      · rw [if_neg h]
        exact List.mem_cons_of_mem _ (ih s (by simp))

theorem calc_table_size_pos (s : Nat) : 0 < calc_table_size s := by
  have h := calc_table_size_loop_mem table s (by decide)
  have hall : ∀ t ∈ table, 0 < t := by decide
  exact hall _ h

end unordered_map
end taapp

namespace taapp
namespace unordered_map
open list
variable {Key V : Type}

/-! ## Moving the nodes to the new table -/

/-- One pass through the body of the inner loop of `rehash`: the first node of
the old bucket `b` goes to the front of the new bucket of its key. -/
theorem move_step (hasher : Key → Nat) {mem : memory (Key × V)} {olds : List Nat}
    {base count : Nat} {nodes : Nat → List Nat} {vals : Nat → List (Key × V)}
    (ht : Tables hasher mem olds base count nodes vals) {b n : Nat} {rest : List Nat}
    (hb : b ∈ olds) (hn : nodes b = n :: rest) (hc : 0 < count) :
    ∃ m1 kv mem2 nodes2 vals2, anext mem b = some n ∧ n ≠ b ∧
      bucket_erase mem b n = some m1 ∧ value m1 n = some kv ∧
      bucket_push m1 (base + hasher kv.1 % count) n = some mem2 ∧
      Tables hasher mem2 olds base count nodes2 vals2 ∧ nodes2 b = rest ∧
      (∀ c ∈ olds, c ≠ b → nodes2 c = nodes c) ∧
      (∀ x, (∃ a ∈ olds ++ anchors base count, x ∈ nodes2 a) ↔
        (∃ a ∈ olds ++ anchors base count, x ∈ nodes a)) ∧
      (∀ x, value mem2 x = value mem x) := by
  obtain ⟨hl, hh⟩ := ht
  have hbL : b ∈ olds ++ anchors base count := List.mem_append_left _ hb
  obtain ⟨hil, h0⟩ := hl.2.1 b hbL
  dsimp only at hil h0
  rw [hn] at hil h0
  have hil0 : IsList mem b ([] ++ n :: rest) (vals b) := hil
  have hq : (b :: ([] : List Nat)).getLast? = some b := rfl
  obtain ⟨p, hp⟩ := head?_append_some rest b
  obtain ⟨lq, lp, hqn, hpn, hnb, -, -, hnd, hnn⟩ := Ring_links hil0.1 hq hp
  have hpm : p ∈ b :: n :: rest := by
    have := mem_of_head? hp
    simp only [List.mem_cons, List.mem_append, List.mem_singleton] at this ⊢
    tauto
  obtain ⟨kv, hkv, hkv0⟩ := IsList_value hil0
  obtain ⟨m1, e1, hu, hv1, hna1⟩ := bucket_erase_effect b lq.2 lp.1 hqn
    (Ring_allocated hil.1 (List.mem_cons_self _ _)) (Ring_allocated hil.1 hpm)
  have hil1 := IsList_unlink hil0 hq hp hu
  simp only [List.nil_append, List.length_nil, List.take_zero, zero_add, List.drop_one]
    at hil1
  -- the layout after the node has left the old bucket
  have hdis : ∀ c ∈ olds ++ anchors base count, c ≠ b →
      ∀ x, x ∈ c :: nodes c → x ∈ b :: n :: rest → False := by
    intro c hcL hcb x hxc hxb
    exact hl.2.2 c hcL b hbL hcb x hxc (by rw [hn]; exact hxb)
  have hl1 := Layout_update hl hbL hil1 (fun hx => h0 (by simp [hx]))
    (fun x hx c hcL hcb hxc => hdis c hcL hcb x hxc (by simp [hx]))
    (fun c hcL hcb x hxc => by
      have hxn : x ≠ n := by
        rintro rfl
        exact hdis c hcL hcb x hxc (by simp)
      have hxb : x ≠ b := by
        rintro rfl
        exact hdis c hcL hcb x hxc (by simp)
      have hxp : x ≠ p := by
        rintro rfl
        exact hdis c hcL hcb x hxc hpm
      exact ⟨by rw [hu.1 x hxn, if_neg hxb], by rw [hu.2.1 x hxn, if_neg hxp], hu.2.2 x hxn⟩)
  -- the new bucket
  have hj : hasher kv.1 % count < count := Nat.mod_lt _ hc
  have htA : base + hasher kv.1 % count ∈ anchors base count := mem_anchors.2 ⟨_, hj, rfl⟩
  have htL : base + hasher kv.1 % count ∈ olds ++ anchors base count :=
    List.mem_append_right _ htA
  have htb : base + hasher kv.1 % count ≠ b := by
    intro e
    exact (List.disjoint_of_nodup_append hl.1) hb (e ▸ htA)
  obtain ⟨hilt, h0t⟩ := hl1.2.1 _ htL
  dsimp only at hilt h0t
  rw [Function.update_noteq htb, Function.update_noteq htb] at hilt
  rw [Function.update_noteq htb] at h0t
  have hilt0 : IsList m1 (base + hasher kv.1 % count)
      ([] ++ nodes (base + hasher kv.1 % count)) (vals (base + hasher kv.1 % count)) := hilt
  have hqt : ((base + hasher kv.1 % count) :: ([] : List Nat)).getLast? =
      some (base + hasher kv.1 % count) := rfl
  obtain ⟨pt, hpt⟩ := head?_append_some (nodes (base + hasher kv.1 % count))
    (base + hasher kv.1 % count)
  obtain ⟨-, -, lt⟩ := Ring_split hilt0.1 hqt hpt
  have hptm : pt ∈ (base + hasher kv.1 % count) :: nodes (base + hasher kv.1 % count) := by
    have := mem_of_head? hpt
    simp only [List.mem_cons, List.mem_append, List.mem_singleton] at this ⊢
    tauto
  have hnt : n ∉ (base + hasher kv.1 % count) :: nodes (base + hasher kv.1 % count) :=
    fun hx => hdis _ htL htb n hx (by simp)
  obtain ⟨mem2, e2, hi⟩ := bucket_push_effect lt.1 (Ring_allocated hilt.1 hptm) hna1
    (fun e => hnt (by rw [e]; simp)) (fun e => hnt (e ▸ hptm)) (hv1.trans hkv)
  have hil2 := IsList_insert hilt0 hqt hpt hnt hi
  simp only [List.nil_append, List.length_nil, List.take_zero, List.drop_zero] at hil2
  have hn0 : n ≠ 0 := fun e => h0 (by rw [e]; simp)
  have hl2 := Layout_update hl1 htL hil2
    (by
      intro hx
      rcases List.mem_cons.1 hx with e | hx
      · exact hn0 e.symm
      · exact h0t (List.mem_cons_of_mem _ hx))
    (by
      intro x hx c hcL hct hxc
      rcases List.mem_cons.1 hx with e | hx
      · rw [e] at hxc
        by_cases hcb : c = b
        · rw [hcb, Function.update_same] at hxc
          exact hnn (by simpa using hxc)
        · rw [Function.update_noteq hcb] at hxc
          exact hdis c hcL hcb n hxc (by simp)
      · have := hl1.2.2 c hcL _ htL hct x hxc
        rw [Function.update_noteq htb] at this
        exact this (List.mem_cons_of_mem _ hx))
    (by
      intro c hcL hct x hxc
      refine Inserted_frame hi ?_ ?_ ?_
      · intro e
        rw [e] at hxc
        exact hl1.2.2 c hcL _ htL hct _ hxc (List.mem_cons_self _ _)
      · intro e
        rw [e] at hxc
        by_cases hcb : c = b
        · rw [hcb, Function.update_same] at hxc
          exact hnn (by simpa using hxc)
        · rw [Function.update_noteq hcb] at hxc
          exact hdis c hcL hcb n hxc (by simp)
      · intro e
        rw [e] at hxc
        have := hl1.2.2 c hcL _ htL hct pt hxc
        rw [Function.update_noteq htb] at this
        exact this hptm)
  refine ⟨m1, kv, mem2, _, _, lq.1, hnb, e1, hv1.trans hkv, e2, ⟨hl2, ?_⟩, ?_, ?_, ?_, ?_⟩
  · intro j hj2 kv2 hkv2
    by_cases hjt : base + j = base + hasher kv.1 % count
    · rw [hjt, Function.update_same] at hkv2
      rcases List.mem_cons.1 hkv2 with rfl | hkv2
      · omega
      · rw [← hjt] at hkv2
        exact hh j hj2 kv2 hkv2
    · have hjb : base + j ≠ b := by
        intro e
        exact (List.disjoint_of_nodup_append hl.1) hb (e ▸ mem_anchors.2 ⟨j, hj2, rfl⟩)
      rw [Function.update_noteq hjt, Function.update_noteq hjb] at hkv2
      exact hh j hj2 kv2 hkv2
  · rw [Function.update_noteq (Ne.symm htb), Function.update_same]
  · intro c hc hcb
    have hct : c ≠ base + hasher kv.1 % count := by
      intro e
      exact (List.disjoint_of_nodup_append hl.1) hc (e ▸ htA)
    rw [Function.update_noteq hct, Function.update_noteq hcb]
  · intro x
    constructor
    · rintro ⟨a, ha, hx⟩
      by_cases hat : a = base + hasher kv.1 % count
      · subst hat
        rw [Function.update_same] at hx
        rcases List.mem_cons.1 hx with e | hx
        · exact ⟨b, hbL, by rw [hn, e]; simp⟩
        · exact ⟨_, ha, hx⟩
      · rw [Function.update_noteq hat] at hx
        by_cases hab : a = b
        · subst hab
          rw [Function.update_same] at hx
          exact ⟨a, ha, by rw [hn]; exact List.mem_cons_of_mem _ hx⟩
        · rw [Function.update_noteq hab] at hx
          exact ⟨a, ha, hx⟩
    · rintro ⟨a, ha, hx⟩
      by_cases hat : a = base + hasher kv.1 % count
      · subst hat
        refine ⟨_, ha, ?_⟩
        rw [Function.update_same]
        exact List.mem_cons_of_mem _ hx
      · by_cases hab : a = b
        · subst hab
          rw [hn] at hx
          rcases List.mem_cons.1 hx with e | hx
          · refine ⟨_, htL, ?_⟩
            rw [Function.update_same, e]
            exact List.mem_cons_self _ _
          · refine ⟨a, ha, ?_⟩
            rw [Function.update_noteq hat, Function.update_same]
            exact hx
        · refine ⟨a, ha, ?_⟩
          rw [Function.update_noteq hat, Function.update_noteq hab]
          exact hx
  · intro x
    rw [hi.2.2]
    by_cases hxn : x = n
    · rw [if_pos hxn, hxn, hkv]
    · rw [if_neg hxn, hu.2.2 x hxn]

end unordered_map
end taapp

namespace taapp
namespace unordered_map
open list
variable {Key V : Type}

theorem move_bucket_loop_spec (hasher : Key → Nat) {olds : List Nat} {base count : Nat}
    {b : Nat} (hb : b ∈ olds) (hc : 0 < count) :
    ∀ (k fuel : Nat) (mem : memory (Key × V)) (nodes : Nat → List Nat)
      (vals : Nat → List (Key × V)),
    Tables hasher mem olds base count nodes vals → (nodes b).length = k → k ≤ fuel →
    ∃ mem2 nodes2 vals2, move_bucket_loop hasher base count fuel mem b = some mem2 ∧
      Tables hasher mem2 olds base count nodes2 vals2 ∧ nodes2 b = [] ∧
      (∀ c ∈ olds, c ≠ b → nodes2 c = nodes c) ∧
      (∀ x, (∃ a ∈ olds ++ anchors base count, x ∈ nodes2 a) ↔
        (∃ a ∈ olds ++ anchors base count, x ∈ nodes a)) ∧
      (∀ x, value mem2 x = value mem x) := by
  intro k
  induction k with
  | zero =>
    intro fuel mem nodes vals ht hk _
    have hn : nodes b = [] := List.length_eq_zero.1 hk
    have hil := (ht.1.2.1 b (List.mem_append_left _ hb)).1
    dsimp only at hil
    rw [hn] at hil
    have lb := Ring_nil_links hil.1
    refine ⟨mem, nodes, vals, ?_, ht, hn, fun _ _ _ => rfl, fun _ => Iff.rfl, fun _ => rfl⟩
    unfold move_bucket_loop
    simp only [lb.1, ne_eq, not_true_eq_false, if_false]
  | succ k ih =>
    intro fuel mem nodes vals ht hk hf
    cases hn : nodes b with
    | nil => rw [hn] at hk; cases hk
    | cons n rest =>
      cases fuel with
      | zero => omega
      | succ f =>
        obtain ⟨m1, kv, mem2, nodes2, vals2, ha, hnb, e1, hv, e2, ht2, hb2, ho2, hs2, hv2⟩ :=
          move_step hasher ht hb hn hc
        rw [hn] at hk
        obtain ⟨mem3, nodes3, vals3, e3, ht3, hb3, ho3, hs3, hv3⟩ := ih f mem2 nodes2 vals2 ht2
          (by rw [hb2]; simpa using hk) (by omega)
        refine ⟨mem3, nodes3, vals3, ?_, ht3, hb3, ?_, ?_, ?_⟩
        · unfold move_bucket_loop
          simp only [ha, ne_eq, hnb, not_false_eq_true, if_true, e1, hv,
            Nat.ne_of_gt hc, if_false, e2, e3]
        · intro c hco hcb
          rw [ho3 c hco hcb, ho2 c hco hcb]
        · intro x
          rw [hs3 x, hs2 x]
        · intro x
          rw [hv3 x, hv2 x]

theorem move_loop_spec (hasher : Key → Nat) {ob oldnum base count fuel : Nat}
    (hc : 0 < count) :
    ∀ (c i : Nat) (mem : memory (Key × V)) (nodes : Nat → List Nat)
      (vals : Nat → List (Key × V)), i + c = oldnum →
    Tables hasher mem (anchors ob oldnum) base count nodes vals →
    (∀ j, j < i → nodes (ob + j) = []) →
    (∀ j, i ≤ j → j < oldnum → (nodes (ob + j)).length ≤ fuel) →
    ∃ mem2 nodes2 vals2, move_loop hasher base count fuel c mem (ob + i) = some mem2 ∧
      Tables hasher mem2 (anchors ob oldnum) base count nodes2 vals2 ∧
      (∀ j, j < oldnum → nodes2 (ob + j) = []) ∧
      (∀ x, (∃ a ∈ anchors ob oldnum ++ anchors base count, x ∈ nodes2 a) ↔
        (∃ a ∈ anchors ob oldnum ++ anchors base count, x ∈ nodes a)) ∧
      (∀ x, value mem2 x = value mem x) := by
  intro c
  induction c with
  | zero =>
    intro i mem nodes vals hi ht he _
    exact ⟨mem, nodes, vals, rfl, ht, fun j hj => he j (by omega), fun _ => Iff.rfl,
      fun _ => rfl⟩
  | succ c ih =>
    intro i mem nodes vals hi ht he hf
    have hb : ob + i ∈ anchors ob oldnum := mem_anchors.2 ⟨i, by omega, rfl⟩
    obtain ⟨mem2, nodes2, vals2, e2, ht2, hb2, ho2, hs2, hv2⟩ :=
      move_bucket_loop_spec hasher hb hc _ fuel mem nodes vals ht rfl
        (hf i (Nat.le_refl _) (by omega))
    have hoj : ∀ j, j < oldnum → j ≠ i → nodes2 (ob + j) = nodes (ob + j) :=
      fun j hj hji => ho2 _ (mem_anchors.2 ⟨j, hj, rfl⟩) (by omega)
    obtain ⟨mem3, nodes3, vals3, e3, ht3, hb3, hs3, hv3⟩ := ih (i + 1) mem2 nodes2 vals2
      (by omega) ht2
      (by
        intro j hj
        by_cases hji : j = i
        · rw [hji]; exact hb2
        · rw [hoj j (by omega) hji]
          exact he j (by omega))
      (by
        intro j h1 h2
        rw [hoj j h2 (by omega)]
        exact hf j (by omega) h2)
    refine ⟨mem3, nodes3, vals3, ?_, ht3, hb3, ?_, ?_⟩
    · unfold move_loop
      simp only [e2]
      exact e3
    · intro x
      rw [hs3 x, hs2 x]
    · intro x
      rw [hv3 x, hv2 x]

end unordered_map
end taapp

namespace taapp
namespace unordered_map
open list
variable {Key V : Type}

/-! ## `rehash` -/

theorem rehash_spec (hasher : Key → Nat) {m : unordered_map Key V} {nodes : Nat → List Nat}
    {vals : Nat → List (Key × V)} (h : MapInv hasher m nodes vals) {fuel : Nat}
    (hf : ∀ i, i < m.numbuckets_ → (nodes (m.buckets_ + i)).length ≤ fuel)
    {freshb count : Nat} (hc : count > m.numbuckets_) (hfb : freshb ≠ 0)
    (hfree : ∀ x, freshb ≤ x → x < freshb + count → m.mem x = none) :
    ∃ m1 nodes1 vals1, rehash hasher fuel freshb m count = some m1 ∧
      MapInv hasher m1 nodes1 vals1 ∧ m1.buckets_ = freshb ∧ m1.numbuckets_ = count ∧
      m1.size_ = m.size_ ∧ (∀ x, Stored m1 nodes1 x ↔ Stored m nodes x) ∧
      (∀ x, Stored m nodes x → value m1.mem x = value m.mem x) := by
  obtain ⟨hl, hh, hz, hnz, hsz⟩ := h
  have hcpos : 0 < count := by omega
  -- the members of the old rings are outside the new array
  have hblk : ∀ a ∈ anchors m.buckets_ m.numbuckets_, ∀ x ∈ a :: nodes a,
      ¬(freshb ≤ x ∧ x < freshb + count) := by
    intro a ha x hx hin
    have := Ring_allocated (hl.2.1 a ha).1.1 hx
    dsimp only at this
    rw [anext_none (hfree x hin.1 hin.2)] at this
    cases this
  obtain ⟨mem1, e1, a1, p1, v1⟩ := init_loop_spec count
    (allocate_buckets m.mem freshb count) freshb (by
      intro x h1 h2
      rw [anext_allocate_buckets, if_pos ⟨h1, h2⟩]
      rfl)
  have hout : ∀ x, ¬(freshb ≤ x ∧ x < freshb + count) →
      anext mem1 x = anext m.mem x ∧ aprev mem1 x = aprev m.mem x ∧
        value mem1 x = value m.mem x := by
    intro x hx
    refine ⟨?_, ?_, ?_⟩
    · rw [a1, if_neg hx, anext_allocate_buckets, if_neg hx]
    · rw [p1, if_neg hx, aprev_allocate_buckets, if_neg hx]
    · rw [v1, value_allocate_buckets, if_neg hx]
  obtain ⟨nodes0, hnodes0⟩ : ∃ nodes0 : Nat → List Nat, ∀ a,
      nodes0 a = if freshb ≤ a ∧ a < freshb + count then [] else nodes a := ⟨_, fun _ => rfl⟩
  obtain ⟨vals0, hvals0⟩ : ∃ vals0 : Nat → List (Key × V), ∀ a,
      vals0 a = if freshb ≤ a ∧ a < freshb + count then [] else vals a := ⟨_, fun _ => rfl⟩
  have hold0 : ∀ a ∈ anchors m.buckets_ m.numbuckets_, nodes0 a = nodes a ∧ vals0 a = vals a := by
    intro a ha
    have := hblk a ha a (List.mem_cons_self _ _)
    rw [hnodes0, hvals0, if_neg this, if_neg this]
    exact ⟨rfl, rfl⟩
  have hnew0 : ∀ a ∈ anchors freshb count, nodes0 a = [] ∧ vals0 a = [] := by
    intro a ha
    have := mem_anchors_iff.1 ha
    rw [hnodes0, hvals0, if_pos this, if_pos this]
    exact ⟨rfl, rfl⟩
  have hl0 : Layout { mem := mem1, lists := anchors m.buckets_ m.numbuckets_ } nodes0 vals0 :=
    Layout_ext (Layout_congr hl (fun a ha x hx => hout x (hblk a ha x hx))) hold0
  have hl1 : Layout (⟨mem1, anchors m.buckets_ m.numbuckets_ ++ anchors freshb count⟩ :
      world (Key × V)) nodes0 vals0 := by
    refine Layout_add hl0 (nodup_anchors _ _) ?_
    intro a ha
    have hin := mem_anchors_iff.1 ha
    refine ⟨by omega, ⟨by rw [a1, if_pos hin], by rw [p1, if_pos hin]⟩, ?_, (hnew0 a ha).1,
      (hnew0 a ha).2, ?_⟩
    · rw [v1, value_allocate_buckets, if_pos hin]
    · intro b hb hab
      rw [(hold0 b hb).1] at hab
      exact hblk b hb a hab hin
  have ht1 : Tables hasher mem1 (anchors m.buckets_ m.numbuckets_) freshb count nodes0 vals0 := by
    refine ⟨hl1, fun j hj kv hkv => ?_⟩
    rw [(hnew0 _ (mem_anchors.2 ⟨j, hj, rfl⟩)).2] at hkv
    cases hkv
  -- the nodes are moved
  obtain ⟨mem2, nodes2, vals2, e2, ht2, hempty, hs2, hv2⟩ : ∃ mem2 nodes2 vals2,
      (if m.size_ > 0 then
        move_loop hasher freshb count fuel m.numbuckets_ mem1 m.buckets_
       else some mem1) = some mem2 ∧
      Tables hasher mem2 (anchors m.buckets_ m.numbuckets_) freshb count nodes2 vals2 ∧
      (∀ j, j < m.numbuckets_ → nodes2 (m.buckets_ + j) = []) ∧
      (∀ x, (∃ a ∈ anchors m.buckets_ m.numbuckets_ ++ anchors freshb count, x ∈ nodes2 a) ↔
        (∃ a ∈ anchors m.buckets_ m.numbuckets_ ++ anchors freshb count, x ∈ nodes0 a)) ∧
      (∀ x, value mem2 x = value mem1 x) := by
    by_cases hs : m.size_ > 0
    · rw [if_pos hs]
      exact move_loop_spec hasher hcpos m.numbuckets_ 0 mem1 nodes0 vals0 (by omega) ht1
        (fun j hj => absurd hj (Nat.not_lt_zero _))
        (fun j _ hj => by
          rw [(hold0 _ (mem_anchors.2 ⟨j, hj, rfl⟩)).1]
          exact hf j hj)
    · rw [if_neg hs]
      refine ⟨mem1, nodes0, vals0, rfl, ht1, fun j hj => ?_, fun _ => Iff.rfl, fun _ => rfl⟩
      rw [(hold0 _ (mem_anchors.2 ⟨j, hj, rfl⟩)).1]
      exact hsz (by omega) j hj
  -- no node of a new ring is an old bucket
  have hnotold : ∀ a ∈ anchors freshb count, ∀ x ∈ a :: nodes2 a,
      ¬(m.buckets_ ≤ x ∧ x < m.buckets_ + m.numbuckets_) := by
    intro a ha x hx hin
    have hxo : x ∈ anchors m.buckets_ m.numbuckets_ := mem_anchors_iff.2 hin
    have hax : a ≠ x := fun e => (List.disjoint_of_nodup_append ht2.1.1) hxo (e ▸ ha)
    exact ht2.1.2.2 a (List.mem_append_right _ ha) x (List.mem_append_left _ hxo) hax x hx
      (List.mem_cons_self _ _)
  have hfinal : ∀ x, ¬(m.buckets_ ≤ x ∧ x < m.buckets_ + m.numbuckets_) →
      value (if m.numbuckets_ > 0 then deallocate_buckets mem2 m.buckets_ m.numbuckets_
        else mem2) x = value mem2 x ∧
      anext (if m.numbuckets_ > 0 then deallocate_buckets mem2 m.buckets_ m.numbuckets_
        else mem2) x = anext mem2 x ∧
      aprev (if m.numbuckets_ > 0 then deallocate_buckets mem2 m.buckets_ m.numbuckets_
        else mem2) x = aprev mem2 x := by
    intro x hx
    by_cases hn : m.numbuckets_ > 0
    · rw [if_pos hn, value_deallocate_buckets, anext_deallocate_buckets,
        aprev_deallocate_buckets, if_neg hx, if_neg hx, if_neg hx]
      exact ⟨rfl, rfl, rfl⟩
    · rw [if_neg hn]
      exact ⟨rfl, rfl, rfl⟩
  have hl3 : Layout (⟨if m.numbuckets_ > 0 then
        deallocate_buckets mem2 m.buckets_ m.numbuckets_ else mem2, anchors freshb count⟩ :
      world (Key × V)) nodes2 vals2 := by
    refine Layout_congr (Layout_restrict ht2.1 (fun a ha => List.mem_append_right _ ha)
      (nodup_anchors _ _)) ?_
    intro a ha x hx
    have := hfinal x (hnotold a ha x hx)
    exact ⟨this.2.1, this.2.2, this.1⟩
  have hst : ∀ x, (∃ j, j < count ∧ x ∈ nodes2 (freshb + j)) ↔
      (∃ i, i < m.numbuckets_ ∧ x ∈ nodes (m.buckets_ + i)) := by
    intro x
    constructor
    · rintro ⟨j, hj, hx⟩
      obtain ⟨a, ha, hxa⟩ := (hs2 x).1 ⟨_, List.mem_append_right _ (mem_anchors.2 ⟨j, hj, rfl⟩), hx⟩
      rcases List.mem_append.1 ha with ha | ha
      · obtain ⟨i, hi, rfl⟩ := mem_anchors.1 ha
        rw [(hold0 _ ha).1] at hxa
        exact ⟨i, hi, hxa⟩
      · rw [(hnew0 _ ha).1] at hxa
        cases hxa
    · rintro ⟨i, hi, hx⟩
      have hao : m.buckets_ + i ∈ anchors m.buckets_ m.numbuckets_ := mem_anchors.2 ⟨i, hi, rfl⟩
      obtain ⟨a, ha, hxa⟩ := (hs2 x).2 ⟨_, List.mem_append_left _ hao, by
        rw [(hold0 _ hao).1]; exact hx⟩
      rcases List.mem_append.1 ha with ha | ha
      · obtain ⟨j, hj, rfl⟩ := mem_anchors.1 ha
        rw [hempty j hj] at hxa
        cases hxa
      · obtain ⟨j, hj, rfl⟩ := mem_anchors.1 ha
        exact ⟨j, hj, hxa⟩
  refine ⟨(⟨if m.numbuckets_ > 0 then deallocate_buckets mem2 m.buckets_ m.numbuckets_
      else mem2, freshb, count, m.size_⟩ : unordered_map Key V), nodes2, vals2, ?_,
    ⟨hl3, ht2.2, ?_, fun _ => hfb, ?_⟩, rfl, rfl, rfl, hst, ?_⟩
  · unfold rehash
    rw [if_pos hc, if_neg hfb]
    simp only [e1, e2]
  · intro h0
    dsimp only at h0
    omega
  · intro h0 j hj
    dsimp only at h0 hj ⊢
    refine List.eq_nil_iff_forall_not_mem.2 (fun x hx => ?_)
    obtain ⟨i, hi, hxi⟩ := (hst x).1 ⟨j, hj, hx⟩
    rw [hsz h0 i hi] at hxi
    cases hxi
  · rintro x ⟨i, hi, hx⟩
    dsimp only
    have hao : m.buckets_ + i ∈ anchors m.buckets_ m.numbuckets_ := mem_anchors.2 ⟨i, hi, rfl⟩
    have hx1 : x ∈ (m.buckets_ + i) :: nodes (m.buckets_ + i) := List.mem_cons_of_mem _ hx
    have hnb := hblk _ hao x hx1
    have hno : ¬(m.buckets_ ≤ x ∧ x < m.buckets_ + m.numbuckets_) := by
      intro hin
      have hxo : x ∈ anchors m.buckets_ m.numbuckets_ := mem_anchors_iff.2 hin
      by_cases hxe : x = m.buckets_ + i
      · rw [hxe] at hx
        exact (List.nodup_cons.1 (hl.2.1 _ hao).1.1.2.1).1 hx
      · exact hl.2.2 _ hao x hxo (Ne.symm hxe) x hx1 (List.mem_cons_self _ _)
    rw [(hfinal x hno).1, hv2, (hout x hnb).2.2]

end unordered_map
end taapp

namespace taapp
namespace unordered_map
open list
variable {Key V : Type}

/-! ## `insert` -/

theorem reserve_spec (hasher : Key → Nat) (full : Nat → Nat → Bool) {m : unordered_map Key V}
    {nodes : Nat → List Nat} {vals : Nat → List (Key × V)} (h : MapInv hasher m nodes vals)
    {fuel : Nat} (hf : ∀ i, i < m.numbuckets_ → (nodes (m.buckets_ + i)).length ≤ fuel)
    {freshb : Nat} (hfb : freshb ≠ 0)
    (hfree : ∀ x, freshb ≤ x → x < freshb + calc_table_size (m.numbuckets_ + 1) →
      m.mem x = none) :
    ∃ m1 nodes1 vals1, reserve hasher full fuel freshb m = some m1 ∧
      MapInv hasher m1 nodes1 vals1 ∧ 0 < m1.numbuckets_ ∧ m1.size_ = m.size_ ∧
      (∀ x, Stored m1 nodes1 x ↔ Stored m nodes x) ∧
      (∀ x, Stored m nodes x → value m1.mem x = value m.mem x) ∧
      (m.size_ = 0 ∨ full m.size_ m.numbuckets_ = true →
        m.numbuckets_ < calc_table_size (m.numbuckets_ + 1) →
        m1.buckets_ = freshb ∧ m1.numbuckets_ = calc_table_size (m.numbuckets_ + 1)) := by
  unfold reserve
  by_cases hr : m.size_ = 0 ∨ full m.size_ m.numbuckets_ = true
  · rw [if_pos hr]
    by_cases hc : calc_table_size (m.numbuckets_ + 1) > m.numbuckets_
    · obtain ⟨m1, nodes1, vals1, e1, hi1, hb1, hn1, hs1, hst, hv⟩ :=
        rehash_spec hasher h hf hc hfb hfree
      exact ⟨m1, nodes1, vals1, e1, hi1, by omega, hs1, hst, hv, fun _ _ => ⟨hb1, hn1⟩⟩
    · refine ⟨m, nodes, vals, ?_, h, ?_, rfl, fun _ => Iff.rfl, fun _ _ => rfl,
        fun _ h2 => absurd h2 hc⟩
      · unfold rehash
        rw [if_neg hc]
      · have := calc_table_size_pos (m.numbuckets_ + 1)
        omega
  · rw [if_neg hr]
    refine ⟨m, nodes, vals, rfl, h, ?_, rfl, fun _ => Iff.rfl, fun _ _ => rfl,
      fun h1 _ => absurd h1 hr⟩
    by_contra hc
    exact hr (Or.inl (h.2.2.1 (by omega)).2)

/-- The last statements of `insert`: a new node for `v` goes to the front of
the bucket of its key. -/
theorem insert_push_spec (hasher : Key → Nat) {m : unordered_map Key V}
    {nodes : Nat → List Nat} {vals : Nat → List (Key × V)} (h : MapInv hasher m nodes vals)
    (hn : 0 < m.numbuckets_) {fresh : Nat} (hfr : fresh ≠ 0) (hm : m.mem fresh = none)
    (v : Key × V) :
    ∃ mem1 mem2 nodes1 vals1, new_node m.mem fresh v = some mem1 ∧
      bucket_push mem1 (m.buckets_ + hasher v.1 % m.numbuckets_) fresh = some mem2 ∧
      MapInv hasher (⟨mem2, m.buckets_, m.numbuckets_, m.size_ + 1⟩ : unordered_map Key V)
        nodes1 vals1 ∧
      value mem2 fresh = some v ∧
      fresh ∈ nodes1 (m.buckets_ + hasher v.1 % m.numbuckets_) ∧
      (∀ x, (∃ i, i < m.numbuckets_ ∧ x ∈ nodes1 (m.buckets_ + i)) ↔
        x = fresh ∨ Stored m nodes x) ∧
      (∀ x, x ≠ fresh → value mem2 x = value m.mem x) := by
  obtain ⟨hl, hh, hz, hnz, hsz⟩ := h
  have hi : hasher v.1 % m.numbuckets_ < m.numbuckets_ := Nat.mod_lt _ hn
  have hbA : m.buckets_ + hasher v.1 % m.numbuckets_ ∈ anchors m.buckets_ m.numbuckets_ :=
    mem_anchors.2 ⟨_, hi, rfl⟩
  obtain ⟨hil, h0⟩ := hl.2.1 _ hbA
  dsimp only at hil h0
  have hil0 : IsList m.mem (m.buckets_ + hasher v.1 % m.numbuckets_)
      ([] ++ nodes (m.buckets_ + hasher v.1 % m.numbuckets_))
      (vals (m.buckets_ + hasher v.1 % m.numbuckets_)) := hil
  have hq : ((m.buckets_ + hasher v.1 % m.numbuckets_) :: ([] : List Nat)).getLast? =
      some (m.buckets_ + hasher v.1 % m.numbuckets_) := rfl
  obtain ⟨p, hp⟩ := head?_append_some (nodes (m.buckets_ + hasher v.1 % m.numbuckets_))
    (m.buckets_ + hasher v.1 % m.numbuckets_)
  obtain ⟨-, -, lk⟩ := Ring_split hil0.1 hq hp
  have hpm : p ∈ (m.buckets_ + hasher v.1 % m.numbuckets_) ::
      nodes (m.buckets_ + hasher v.1 % m.numbuckets_) := by
    have := mem_of_head? hp
    simp only [List.mem_cons, List.mem_append, List.mem_singleton] at this ⊢
    tauto
  have hfn := Ring_not_mem hil.1 hm
  have hfb : fresh ≠ m.buckets_ + hasher v.1 % m.numbuckets_ :=
    fun e => hfn (by rw [e]; simp)
  have hfp : fresh ≠ p := fun e => hfn (e ▸ hpm)
  obtain ⟨mem1, e1, a1, p1, v1⟩ := new_node_spec m.mem v hfr
  obtain ⟨mem2, e2, hi2⟩ := bucket_push_effect
    (show anext mem1 (m.buckets_ + hasher v.1 % m.numbuckets_) = some p by
      rw [a1, if_neg (Ne.symm hfb)]; exact lk.1)
    (show (anext mem1 p).isSome = true by
      rw [a1, if_neg (Ne.symm hfp)]; exact Ring_allocated hil.1 hpm)
    (show (anext mem1 fresh).isSome = true by rw [a1, if_pos rfl]; rfl) hfb hfp
    (show value mem1 fresh = some v by rw [v1, if_pos rfl])
  have hins : Inserted m.mem mem2 (m.buckets_ + hasher v.1 % m.numbuckets_) fresh p v := by
    refine ⟨fun x => ?_, fun x => ?_, fun x => ?_⟩
    · rw [hi2.1, a1]
      by_cases h1 : x = fresh
      · subst h1
        simp only [↓reduceIte]
      · simp only [h1, ↓reduceIte]
    · rw [hi2.2.1, p1]
      by_cases h1 : x = fresh
      · subst h1
        simp only [↓reduceIte]
      · simp only [h1, ↓reduceIte]
    · rw [hi2.2.2, v1]
      by_cases h1 : x = fresh
      · subst h1
        simp only [↓reduceIte]
      · simp only [h1, ↓reduceIte]
  have hil2 := IsList_insert hil0 hq hp hfn hins
  simp only [List.nil_append, List.length_nil, List.take_zero, List.drop_zero] at hil2
  have hl2 := Layout_inserted hl hbA hil2
    (fun x hx => by
      rcases List.mem_cons.1 hx with e | hx
      · exact Or.inr e
      · exact Or.inl hx)
    hins (List.mem_cons_self _ _) hpm hm hfr
  refine ⟨mem1, mem2, _, _, e1, e2, ⟨hl2, ?_, ?_, hnz, ?_⟩, ?_, ?_, ?_, ?_⟩
  · intro j hj kv hkv
    dsimp only at hj hkv ⊢
    by_cases hjb : m.buckets_ + j = m.buckets_ + hasher v.1 % m.numbuckets_
    · rw [hjb, Function.update_same] at hkv
      rcases List.mem_cons.1 hkv with rfl | hkv
      · omega
      · rw [← hjb] at hkv
        exact hh j hj kv hkv
    · rw [Function.update_noteq hjb] at hkv
      exact hh j hj kv hkv
  · intro h0n
    dsimp only at h0n
    omega
  · intro hs
    dsimp only at hs
    omega
  · rw [hins.2.2, if_pos rfl]
  · rw [Function.update_same]
    exact List.mem_cons_self _ _
  · intro x
    constructor
    · rintro ⟨j, hj, hx⟩
      by_cases hjb : m.buckets_ + j = m.buckets_ + hasher v.1 % m.numbuckets_
      · rw [hjb, Function.update_same] at hx
        rcases List.mem_cons.1 hx with e | hx
        · exact Or.inl e
        · exact Or.inr ⟨_, hi, hx⟩
      · rw [Function.update_noteq hjb] at hx
        exact Or.inr ⟨j, hj, hx⟩
    · rintro (e | ⟨j, hj, hx⟩)
      · refine ⟨_, hi, ?_⟩
        rw [Function.update_same, e]
        exact List.mem_cons_self _ _
      · refine ⟨j, hj, ?_⟩
        by_cases hjb : m.buckets_ + j = m.buckets_ + hasher v.1 % m.numbuckets_
        · rw [hjb, Function.update_same]
          rw [hjb] at hx
          exact List.mem_cons_of_mem _ hx
        · rw [Function.update_noteq hjb]
          exact hx
  · intro x hx
    rw [hins.2.2, if_neg hx]

end unordered_map
end taapp

namespace taapp
open NodeTree

/-- C21 (amended): for every reachable set and every key `k` equivalent to no
stored key, `insert(k)` returns `(iterator to the new node, true)` and leaves
exactly the tree `insT` of the procedure of the code: a RED leaf is linked at
the search position; then, with `child` the parent of the current node, while
`child` has a parent and is RED, `balance_insert` works on that parent (it
recolours whenever the sibling of `child` is RED, else rotates once or twice
if a child of `child` is RED), and the loop goes on from the root of the
subtree; at last the root is coloured BLACK.  The tree the memory represents is
unique, before and after, and the result is a valid red-black tree.  It holds
the same nodes in the same order as the tree `spec_insert` of the procedure of
the specification, so the in-order walk of the memory after the call reads the
keys of that tree; colours and shape are those of `insT`, not those of
`spec_insert`. -/
theorem insert_follows_code_procedure {Key : Type} (lt : Key → Key → Bool)
    (sw : StrictWeak lt) (s : set Key) (hr : Reachable lt s) (ks : List Key)
    (hk : Inorder s s.root_ ks) (k : Key) (hnew : ∀ x ∈ ks, ¬ Equiv lt k x) :
    ∃ T s1, Model s T ∧ (∀ U, Model s U → U = T) ∧
      insert lt k s = some (s1, (some s.next, true)) ∧
      Model s1 (insT lt k s.next T) ∧ (∀ U, Model s1 U → U = insT lt k s.next T) ∧
      Valid (insT lt k s.next T) ∧
      (insT lt k s.next T).nodes = (spec_insert lt k s.next T).nodes ∧
      (insT lt k s.next T).keys = (spec_insert lt k s.next T).keys ∧
      Inorder s1 s1.root_ (spec_insert lt k s.next T).keys := by
  obtain ⟨T, hm, hv, hs⟩ := reachable_model lt hr
  obtain ⟨s1, r, e, hm1, -, h2⟩ := insert_spec lt k hm
  have hz : (zoom lt k T []).1 = nil := by
    rw [zoom_nil_iff lt k sw (hs sw)]
    rw [← keys_eq hm.rep hk]
    exact hnew
  obtain ⟨er, -⟩ := h2 hz
  rw [er] at e
  obtain ⟨T1, hT1, hv1, -⟩ := reachable_model lt (Reachable.insert hr e)
  have e1 := Model_unique hT1 hm1
  rw [e1] at hv1
  have en := (spec_insert_nodes lt k s.next T).symm
  have ek : (insT lt k s.next T).keys = (spec_insert lt k s.next T).keys := by
    unfold keys
    rw [en]
  have hin := Inorder_of_RepT hm1.rep.tree
  rw [← hm1.rep.root, ek] at hin
  exact ⟨T, s1, hm, fun U hU => Model_unique hU hm, e, hm1, fun U hU => Model_unique hU hm1,
    hv1, en, ek, hin⟩

/-- C21 (as stated, refuted): in the scenario of the tests, after the inserts
of 5, 3, 8, 1, 4, 7, 9, 2 the key 6 is new.  The procedure of the specification
recolours the nodes of 7 and 9 BLACK and the node of 8 RED and stops, the
parent of the node of 8 (the root) being BLACK; the node of 3 stays RED.  But
`insert(6)` leaves another tree: it goes on at the root and colours the nodes
of 3 and 8 BLACK, a recolouring at a level where the parent of the current
node is BLACK. -/
theorem insert_follows_spec_procedure_counterexample :
    Reachable ltN sc8 ∧ Inorder sc8 sc8.root_ [1, 2, 3, 4, 5, 7, 8, 9] ∧
    (∀ x ∈ [1, 2, 3, 4, 5, 7, 8, 9], ¬ Equiv ltN 6 x) ∧ Model sc8 sc8_tree ∧
    insert ltN 6 sc8 = some (sc9, (some 8, true)) ∧
    spec_insert ltN 6 sc8.next sc8_tree = sc9_spec_tree ∧
    Model sc9 (insT ltN 6 sc8.next sc8_tree) ∧ ¬ Model sc9 sc9_spec_tree ∧
    (sc8.mem 0).map rbnode.color = some BLACK ∧
    (sc8.mem 1).map rbnode.color = some RED ∧ (sc9.mem 1).map rbnode.color = some BLACK := by
  refine ⟨sc8_facts.2.1, inorder_of_keys ltN sc8_facts.2.1 sc8_facts.2.2, ?_, sc8_model,
    sc9_step, sc9_spec_eq, ?_, ?_, rfl, rfl, rfl⟩
  · simp [Equiv, ltN]
  · rw [sc9_code_eq]
    exact sc9_model
  · intro h
    have e := Model_unique h sc9_model
    have hne : ¬ ((sc9_spec_tree.child RIGHT).isRed = (sc9_tree.child RIGHT).isRed) := by
      decide
    exact hne (by rw [e])

namespace priority_queue
variable {T : Type}
open vector

/-- C22: on every queue reached from the empty one by `push` and `pop`, with a
strict weak ordering, `top()` is a maximum of the contents (`compare(top(), x)`
is false for every stored `x`), `pop` returns if the queue is not empty, `push`
of an object outside the container returns if the allocator does not fail,
`push` of a reference to a stored element returns while the buffer has room,
and popping until the queue is empty reads all the elements, each once, in
non-increasing order. -/
theorem top_is_maximum (tr : vtraits) (lt : T → T → Bool) (sw : StrictWeak lt)
    (q : priority_queue T) (hr : Reachable tr lt q) :
    (∀ t, q.container_.deref (top q) = some t →
      ∀ x ∈ q.container_.contents, lt t x = false) ∧
    (empty q = false → ∃ t q1, q.container_.deref (top q) = some t ∧ pop lt q = some q1) ∧
    (∀ n fresh, fresh ≠ 0 → ∃ q1, push tr fresh lt q (cref.obj n) = some q1) ∧
    (∀ j fresh, j < size q → size q < q.container_.capacity →
      ∃ q1, push tr fresh lt q (cref.elem (q.container_.begin_ + j)) = some q1) ∧
    ∃ l, drain lt (size q) q = some l ∧ l.Perm q.container_.contents ∧
      l.Pairwise (fun a b => lt a b = false) := by
  obtain ⟨xs, hx, hh⟩ := reachable_heap sw hr
  have hc : q.container_.contents = xs := hx.1.contents_eq
  have hs : size q = xs.length := hx.1.size_eq
  rw [hc, hs]
  refine ⟨fun t ht => ?_, ?_, ?_, ?_, drain_spec sw xs.length q xs hx hh (Nat.le_refl _)⟩
  · rw [top, front_spec q.container_ xs hx] at ht
    exact head_max sw hh ht
  · intro he
    have hne : xs ≠ [] := by
      intro e
      rw [(empty_iff q xs hx.1).2 e] at he
      cases he
    obtain ⟨q1, h1, t, ht, -, e, -⟩ := pop_spec lt q xs hx hne
    exact ⟨t, q1, ht, e⟩
  · intro n fresh hf
    obtain ⟨q1, h1, e, -⟩ := push_obj_spec tr fresh hf lt q xs hx n
    exact ⟨q1, e⟩
  · intro j fresh hj hroom
    have hroom2 : q.container_.capacity_ ≠ q.container_.end_ := by
      have e1 : q.container_.size = xs.length := hx.1.size_eq
      obtain ⟨⟨h1, h2, h3, h4, h5, h6⟩, -⟩ := hx
      rw [vector.size] at e1
      rw [vector.capacity] at hroom
      omega
    obtain ⟨q1, h1, e, -⟩ := push_alias_spec tr fresh lt q xs hx hroom2 j xs[j]
      (List.getElem?_eq_getElem hj) (sw.irrefl _)
    exact ⟨q1, e⟩

/-- C23 (for arguments that do not dangle): on every queue that holds the
elements `xs`, `push(n)` of an object outside the container returns if the
allocator does not fail, the elements afterwards are the old ones and one more
`n` (as multisets), and `size()` grows by one; the same holds for `push` of a
reference to a stored element that is not less than itself while the buffer
has room.  If the buffer is full, `push` of a reference to an address below
the new block, as every address of the old block is when the allocator returns
a higher one, has no result: the reference is read after the old block has
been released.  On every queue that is not empty, `pop()` returns, the old
elements are the new ones and one more occurrence of the old `top()`, and
`size()` shrinks by one. -/
theorem push_pop_multiset (tr : vtraits) (lt : T → T → Bool) (q : priority_queue T)
    (xs : List T) (h : HoldsOnly q.container_ xs) :
    (∀ n fresh, fresh ≠ 0 →
      ∃ q1, push tr fresh lt q (cref.obj n) = some q1 ∧
        q1.container_.contents.Perm (n :: q.container_.contents) ∧ size q1 = size q + 1) ∧
    (∀ j n fresh, q.container_.contents[j]? = some n → lt n n = false →
      size q < q.container_.capacity →
      ∃ q1, push tr fresh lt q (cref.elem (q.container_.begin_ + j)) = some q1 ∧
        q1.container_.contents.Perm (n :: q.container_.contents) ∧ size q1 = size q + 1) ∧
    (∀ p fresh, fresh ≠ 0 → q.container_.capacity ≤ size q → p < fresh →
      push tr fresh lt q (cref.elem p) = none) ∧
    (empty q = false → ∃ t q1, q.container_.deref (top q) = some t ∧ pop lt q = some q1 ∧
      q.container_.contents.Perm (t :: q1.container_.contents) ∧ size q1 + 1 = size q) := by
  have hc : q.container_.contents = xs := h.1.contents_eq
  have hs : size q = xs.length := h.1.size_eq
  have hcap : q.container_.capacity_ = q.container_.end_ ↔
      q.container_.capacity ≤ xs.length := by
    obtain ⟨⟨h1, h2, h3, h4, h5, h6⟩, -⟩ := h
    rw [vector.capacity]
    omega
  rw [hc, hs]
  refine ⟨?_, ?_, ?_, ?_⟩
  · intro n fresh hf
    obtain ⟨q1, h1, e, -, a3, p1, -⟩ := push_obj_spec tr fresh hf lt q xs h n
    refine ⟨q1, e, by rw [a3.1.contents_eq]; exact p1, ?_⟩
    have := p1.length_eq
    rw [show size q1 = h1.length from a3.1.size_eq, this, List.length_cons]
  · intro j n fresh hj hirr hroom
    obtain ⟨q1, h1, e, -, a3, p1, -⟩ := push_alias_spec tr fresh lt q xs h
      (fun e => absurd (hcap.1 e) (by omega)) j n hj hirr
    refine ⟨q1, e, by rw [a3.1.contents_eq]; exact p1, ?_⟩
    have := p1.length_eq
    rw [show size q1 = h1.length from a3.1.size_eq, this, List.length_cons]
  · intro p fresh hf hfull hp
    exact push_dangling tr fresh hf lt q xs h (hcap.2 hfull) p hp
  · intro he
    have hne : xs ≠ [] := by
      intro e
      rw [(empty_iff q xs h.1).2 e] at he
      cases he
    obtain ⟨q1, h1, t, ht, -, e, -, a3, p1, -⟩ := pop_spec lt q xs h hne
    refine ⟨t, q1, ht, e, by rw [a3.1.contents_eq]; exact p1, ?_⟩
    have := p1.length_eq
    rw [show size q1 = h1.length from a3.1.size_eq, this, List.length_cons]

/-- C23 (as stated, refuted): the queue after `push(8)`, ..., `push(1)` holds
eight elements in a full buffer of eight at address 100, and `top()` refers to
the 8 at address 100.  `q.push(q.top())` has no result when the allocator
returns the block at 200, with either kind of element type: `push_back` moves
the elements there and releases the block at 100, and only then the reference
is read.  `push` of an object with the same value 8 does return a queue of
nine elements, the old ones and one more 8. -/
theorem push_pop_multiset_counterexample :
    Reachable trivial_traits ltN demo_queue_full ∧ Reachable class_traits ltN demo_queue_full ∧
    HoldsOnly demo_queue_full.container_ [8, 7, 6, 5, 4, 3, 2, 1] ∧
    size demo_queue_full = 8 ∧ demo_queue_full.container_.capacity = 8 ∧
    top demo_queue_full = cref.elem 100 ∧
    demo_queue_full.container_.deref (top demo_queue_full) = some 8 ∧
    push trivial_traits 200 ltN demo_queue_full (top demo_queue_full) = none ∧
    push class_traits 200 ltN demo_queue_full (top demo_queue_full) = none ∧
    (∃ q1, push trivial_traits 200 ltN demo_queue_full (cref.obj 8) = some q1 ∧
      q1.container_.contents.Perm [8, 8, 7, 6, 5, 4, 3, 2, 1] ∧ size q1 = 9) := by
  refine ⟨demo_queue_full_reachable trivial_traits, demo_queue_full_reachable class_traits,
    demo_queue_full_HoldsOnly, rfl, rfl, rfl, rfl, rfl, rfl, ?_⟩
  obtain ⟨q1, h1, e, -, a3, p1, -⟩ := push_obj_spec trivial_traits 200 (by decide) ltN
    demo_queue_full _ demo_queue_full_HoldsOnly 8
  refine ⟨q1, e, by rw [a3.1.contents_eq]; exact p1, ?_⟩
  have := p1.length_eq
  rw [show size q1 = h1.length from a3.1.size_eq, this]
  rfl

end priority_queue

namespace vector
variable {T : Type}

/-- C24: for a vector `v` with the elements `xs`, an index `i < size()` and
either way of moving the elements (`memmove` or element-wise assignment, by
the traits `tr`), `erase(begin() + i)` returns the iterator `begin() + i`, the
elements afterwards are `xs` without the one at index `i`, `size()` is one
less, `begin()` is as before, every element is read back at its new index, and
the iterator returned refers to the element that followed the erased one, or
is `end()` if `i` was the last index. -/
theorem erase_removes_index (tr : vtraits) (v : vector T) (xs : List T) (h : Holds v xs)
    (i : Nat) (hi : i < size v) :
    ∃ v1, erase tr v (v.begin_ + i) = some (v1, v.begin_ + i) ∧
      Holds v1 (xs.take i ++ xs.drop (i + 1)) ∧ size v1 + 1 = size v ∧
      v1.begin_ = v.begin_ ∧
      (∀ j x, j < i → xs[j]? = some x → at_ v1 j = some x) ∧
      (∀ j x, i ≤ j → xs[j + 1]? = some x → at_ v1 j = some x) ∧
      (∀ x, xs[i + 1]? = some x → load v1 (v.begin_ + i) = some x) ∧
      (i + 1 = size v → v.begin_ + i = v1.end_) := by
  have hl : xs.length = size v := h.2.2.2.1
  obtain ⟨v1, e, h1, hb, -, he⟩ := vec_erase_spec tr v xs h i (by omega)
  have hg : ∀ j x, (xs.take i ++ xs.drop (i + 1))[j]? = some x →
      load v1 (v1.begin_ + j) = some x ∧ at_ v1 j = some x := fun j x hx => h1.load_at j x hx
  have hlt : (xs.take i).length = i := by simp; omega
  refine ⟨v1, e, h1, ?_, hb, ?_, ?_, ?_, ?_⟩
  · simp only [size] at hi ⊢
    have := h.1
    omega
  · intro j x hj hx
    refine (hg j x ?_).2
    rw [List.getElem?_append_left (by omega), List.getElem?_take_of_lt hj]
    exact hx
  · intro j x hj hx
    refine (hg j x ?_).2
    rw [List.getElem?_append_right (by omega), hlt, List.getElem?_drop]
    rw [← hx]
    congr 1
    omega
  · intro x hx
    rw [← hb]
    refine (hg i x ?_).1
    rw [List.getElem?_append_right (by omega), hlt, List.getElem?_drop]
    rw [← hx]
    congr 1
    omega
  · intro hs
    simp only [size] at hs hi
    have := h.1
    omega

/-- C25 (for arguments that do not dangle): for a vector `v` with the elements
`xs`, an index `i ≤ size()` and an allocator that does not fail,
`insert(begin() + i, t)` of an object `t` outside the vector returns the
iterator at index `i` of the new buffer, which refers to `t`; the elements
afterwards are `xs[0..i) ++ [t] ++ xs[i..)` and `size()` is one more; without
spare capacity the buffer is the new one `fresh`, else it is the old one; and
`erase` of the iterator returned restores the elements `xs`.  If `t` refers to
the element at index `j` of the vector itself and there is spare capacity, the
value inserted is the one found at index `j` after the elements have been
moved: the old element `j` if `j ≤ i`, the old element `j - 1` otherwise.
Without spare capacity, `insert` of a reference to an address below the new
block has no result: the reference is read after the old block has been
released. -/
theorem insert_places_value (tr : vtraits) (dflt : T) (fresh : Nat) (hf : fresh ≠ 0)
    (v : vector T) (xs : List T) (h : Holds v xs) (i : Nat) (hi : i ≤ size v) :
    (∀ t : T,
      ∃ v1, insert tr dflt fresh v (v.begin_ + i) (cref.obj t) = some (v1, v1.begin_ + i) ∧
        Holds v1 (xs.take i ++ t :: xs.drop i) ∧ size v1 = size v + 1 ∧
        load v1 (v1.begin_ + i) = some t ∧ at_ v1 i = some t ∧
        (size v < capacity v → v1.begin_ = v.begin_) ∧
        (capacity v ≤ size v → v1.begin_ = fresh) ∧
        ∃ v2, erase tr v1 (v1.begin_ + i) = some (v2, v1.begin_ + i) ∧ Holds v2 xs) ∧
    (∀ (j : Nat) (z : T), size v < capacity v → j < size v →
      xs[if j ≤ i then j else j - 1]? = some z →
      ∃ v1, insert tr dflt fresh v (v.begin_ + i) (cref.elem (v.begin_ + j)) =
          some (v1, v1.begin_ + i) ∧
        Holds v1 (xs.take i ++ z :: xs.drop i) ∧ size v1 = size v + 1 ∧
        at_ v1 i = some z ∧ v1.begin_ = v.begin_) ∧
    (∀ p, capacity v ≤ size v → p < fresh →
      insert tr dflt fresh v (v.begin_ + i) (cref.elem p) = none) := by
  have hl : xs.length = size v := h.2.2.2.1
  have hlt : (xs.take i).length = i := by simp; omega
  have hti : ∀ t : T, (xs.take i ++ t :: xs.drop i)[i]? = some t := by
    intro t
    rw [List.getElem?_append_right (by omega), hlt]
    simp
  have hlen : ∀ t : T, (xs.take i ++ t :: xs.drop i).length = size v + 1 := by
    intro t
    simp only [List.length_append, List.length_cons, List.length_take, List.length_drop]
    omega
  refine ⟨fun t => ?_, fun j z hc hj hz => ?_, fun p hc hp => ?_⟩
  · obtain ⟨v1, e, h1, hs, hg⟩ := vec_insert_spec tr dflt fresh hf v xs h i (by omega) t
    have hl1 : (xs.take i ++ t :: xs.drop i).length = size v1 := h1.2.2.2.1
    obtain ⟨v2, e2, h2, -⟩ := vec_erase_spec tr v1 _ h1 i (by
      simp only [List.length_append, List.length_cons, hlt]
      omega)
    rw [take_drop_insert_erase xs t i (by omega)] at h2
    refine ⟨v1, e, h1, ?_, (h1.load_at i t (hti t)).1, (h1.load_at i t (hti t)).2,
      fun hc => (hs hc).1, hg, v2, e2, h2⟩
    rw [← hl1]
    exact hlen t
  · obtain ⟨v1, e, h1, hb⟩ := vec_insert_alias tr dflt fresh hf v xs h i (by omega) hc j z hz
      (by omega)
    have hl1 : (xs.take i ++ z :: xs.drop i).length = size v1 := h1.2.2.2.1
    refine ⟨v1, e, h1, ?_, (h1.load_at i z (hti z)).2, hb⟩
    rw [← hl1]
    exact hlen z
  · exact vec_insert_dangling tr dflt fresh hf v xs h i (by omega) hc p hp

/-- C25 (as stated, refuted): on the vector holding 1, 2, 3 in a buffer of
four elements, `v.insert(v.begin(), v[2])` returns the iterator `begin()`, but
the elements afterwards are 2, 1, 2, 3 and not 3, 1, 2, 3: the reference is
read after the elements have been moved up, when the address of `v[2]` holds
the old `v[1]`.  On the full vector holding 1, 2, 3, 4 the same call has no
result when the allocator returns the block at 200: the reference is read
after the old block has been released. -/
theorem insert_places_value_counterexample :
    Holds demo_vector [1, 2, 3] ∧ at_ demo_vector 2 = some 3 ∧
    demo_vector.deref (cref.elem (demo_vector.begin_ + 2)) = some 3 ∧
    (∃ v1, insert trivial_traits 0 200 demo_vector demo_vector.begin_
        (cref.elem (demo_vector.begin_ + 2)) = some (v1, v1.begin_) ∧
      Holds v1 [2, 1, 2, 3] ∧ ¬ Holds v1 [3, 1, 2, 3]) ∧
    (∃ v1, insert class_traits 0 200 demo_vector demo_vector.begin_
        (cref.elem (demo_vector.begin_ + 2)) = some (v1, v1.begin_) ∧
      Holds v1 [2, 1, 2, 3] ∧ ¬ Holds v1 [3, 1, 2, 3]) ∧
    Holds demo_vector_full [1, 2, 3, 4] ∧
    insert trivial_traits 0 200 demo_vector_full demo_vector_full.begin_
      (cref.elem (demo_vector_full.begin_ + 2)) = none ∧
    insert class_traits 0 200 demo_vector_full demo_vector_full.begin_
      (cref.elem (demo_vector_full.begin_ + 2)) = none := by
  have hv : Holds (⟨100, 104, 104, [some 2, some 1, some 2, some 3]⟩ : vector Nat) [2, 1, 2, 3] := by
    refine ⟨by decide, by decide, rfl, rfl, ?_, by decide⟩
    intro i x h
    rcases i with _ | _ | _ | _ | i
    · cases h; rfl
    · cases h; rfl
    · cases h; rfl
    · cases h; rfl
    · cases h
  have hn : ¬ Holds (⟨100, 104, 104, [some 2, some 1, some 2, some 3]⟩ : vector Nat) [3, 1, 2, 3] := by
    intro g
    have := hv.contents_eq.symm.trans g.contents_eq
    revert this
    decide
  exact ⟨demo_vector_Holds, rfl, rfl, ⟨_, rfl, hv, hn⟩, ⟨_, rfl, hv, hn⟩,
    demo_vector_full_Holds, rfl, rfl⟩

end vector

namespace list
variable {T : Type}

/-- The list that holds the one value 7. -/
theorem demo_one_IsList : IsList (run (push_back demo_m1 1 10 7)) 1 [10] [7] := by
  have h0 : IsList demo_m1 1 [] ([] : List Nat) := by
    refine ⟨⟨?_, List.nodup_singleton 1, rfl⟩, rfl⟩
    have : (1 : Nat) :: ([] : List Nat) ++ [1] = [1, 1] := rfl
    rw [this, List.chain'_pair]
    exact ⟨rfl, rfl⟩
  obtain ⟨m1, q, e, h1, -, -⟩ := push_back_spec (7 : Nat) h0 (by decide : (10 : Nat) ≠ 0) rfl
  have : run (push_back demo_m1 1 10 7) = m1 := by rw [e]; rfl
  rw [this]
  exact h1

/-- C26: for two lists `A` (anchor `a`, elements `xs`) and `B` (anchor `b`,
elements `ys`, possibly none) that share no node, and the position `pos` of
index `i` in `A` (an element, or `end()` for `i = size`), `A.splice(pos, B)`
returns; `A` then holds `xs[0..i) ++ ys ++ xs[i..)`, also as read by forward
iteration, and `B` is empty: `B.empty()` is true. -/
theorem splice_moves_all (m : memory T) (a b : Nat) (ns ms : List Nat) (xs ys : List T)
    (ha : IsList m a ns xs) (hb : IsList m b ms ys)
    (hd : ∀ x, x ∈ a :: ns → x ∈ b :: ms → False) (i pos : Nat)
    (hp : (ns ++ [a])[i]? = some pos) :
    ∃ m1, splice m pos b = some m1 ∧
      IsList m1 a (ns.take i ++ ms ++ ns.drop i) (xs.take i ++ ys ++ xs.drop i) ∧
      forward (xs.length + ys.length) m1 a = some (xs.take i ++ ys ++ xs.drop i) ∧
      IsList m1 b [] [] ∧ empty m1 b = some true ∧ forward 0 m1 b = some [] := by
  obtain ⟨m1, e, h1, h2, he⟩ := list_splice_at ha hb hd hp
  refine ⟨m1, e, h1, forward_spec h1 ?_, h2, he, forward_spec h2 (Nat.le_refl _)⟩
  simp only [List.length_append, List.length_take, List.length_drop]
  omega

/-- C27: for a list with the nodes `ns` holding `xs`: `insert(pos, t)` at the
position of index `i` (an element, or `end()`) with the new node `fresh`
returns the iterator to the new node, which holds `t` and is linked
immediately before `pos`; the elements are then `xs[0..i) ++ [t] ++ xs[i..)`.
And `erase(pos)` at the element of index `i` returns the iterator to the
position that followed, releases the node, and the elements are then `xs`
without the one at index `i`. -/
theorem insert_before_erase_at (m : memory T) (a : Nat) (ns : List Nat) (xs : List T)
    (h : IsList m a ns xs) (i pos : Nat) :
    (∀ fresh t, (ns ++ [a])[i]? = some pos → fresh ≠ 0 → m fresh = none →
      ∃ m1, insert m pos fresh t = some (m1, fresh) ∧ value m1 fresh = some t ∧
        anext m1 fresh = some pos ∧ aprev m1 pos = some fresh ∧
        IsList m1 a (ns.take i ++ fresh :: ns.drop i) (xs.take i ++ t :: xs.drop i) ∧
        forward (xs.length + 1) m1 a = some (xs.take i ++ t :: xs.drop i)) ∧
    (ns[i]? = some pos →
      ∃ m1 next, erase m pos = some (m1, next) ∧ (ns ++ [a])[i + 1]? = some next ∧
        m1 pos = none ∧
        IsList m1 a (ns.take i ++ ns.drop (i + 1)) (xs.take i ++ xs.drop (i + 1)) ∧
        forward xs.length m1 a = some (xs.take i ++ xs.drop (i + 1))) := by
  constructor
  · intro fresh t hp hf hm
    obtain ⟨m1, e, h1, hv, hl⟩ := list_insert_at h t hp hf hm
    refine ⟨m1, e, hv, hl.1, hl.2, h1, forward_spec h1 ?_⟩
    simp only [List.length_append, List.length_cons, List.length_take, List.length_drop]
    omega
  · intro hp
    obtain ⟨m1, next, e, hn, h1, hf⟩ := list_erase_at h hp
    refine ⟨m1, next, e, hn, hf, h1, forward_spec h1 ?_⟩
    simp only [List.length_append, List.length_take, List.length_drop]
    omega

/-- C28 (what the code does): `clear()` returns and releases every node, but it
leaves the anchor as it was.  On a list that is not empty, `begin()` is
afterwards the released first node, not `end()`, `empty()` is false, and
forward iteration reads released memory; only on an empty list is `empty()`
true afterwards. -/
theorem clear_keeps_anchor (m : memory T) (a : Nat) (ns : List Nat) (xs : List T)
    (h : IsList m a ns xs) :
    ∃ m1, clear xs.length m a = some m1 ∧ (∀ x ∈ ns, m1 x = none) ∧
      anext m1 a = anext m a ∧ aprev m1 a = aprev m a ∧
      (ns = [] → empty m1 a = some true) ∧
      (ns ≠ [] → empty m1 a = some false ∧
        ∃ n, begin m1 a = some n ∧ n ≠ end_ a ∧ m1 n = none ∧
          ∀ fuel, forward fuel m1 a = none) := by
  obtain ⟨m1, e, h1, h2⟩ := clear_spec h (Nat.le_refl _)
  have han : a ∉ ns := (List.nodup_cons.1 h.1.2.1).1
  have hma : m1 a = m a := h2 a han
  refine ⟨m1, e, h1, by unfold anext; rw [hma], by unfold aprev; rw [hma], ?_, ?_⟩
  · intro hn
    subst hn
    unfold empty anext
    rw [hma]
    have := (Ring_nil_links h.1).1
    unfold anext at this
    cases hc : m a with
    | none => rw [hc] at this; cases this
    | some c =>
      rw [hc] at this
      simp only [Option.some.injEq] at this
      simp [this]
  · intro hn
    cases ns with
    | nil => exact absurd rfl hn
    | cons n ns =>
      obtain ⟨m2, e2, hb, hne, hf, hem⟩ := clear_anchor h (Nat.le_refl _)
      rw [e] at e2
      cases e2
      refine ⟨hem, n, hb, hne, hf, fun fuel => ?_⟩
      unfold forward
      rw [hb]
      unfold forward_loop
      rw [if_pos hne]
      cases fuel with
      | zero => rfl
      | succ f => simp only [value, hf]

/-- C28 (as stated, refuted): on the list that holds the one value 7,
`clear()` returns, and afterwards `empty()` is false and `begin()` is not
`end()` but the released node. -/
theorem clear_empties_list_counterexample :
    IsList (run (push_back demo_m1 1 10 7)) 1 [10] [7] ∧
    clear 1 (run (push_back demo_m1 1 10 7)) 1 = some demo_cleared ∧
    empty demo_cleared 1 = some false ∧ begin demo_cleared 1 = some 10 ∧
    end_ 1 = 1 ∧ demo_cleared 10 = none :=
  ⟨demo_one_IsList, rfl, rfl, rfl, rfl, rfl⟩

/-- C29: in every world reached by constructing lists and by `push_back`,
`push_front`, `insert`, `erase`, `pop_back`, `pop_front` and `splice`, every
position `x` of every list (its elements and the anchor) has a next and a
previous position, neither null, with `x.next.prev == x` and
`x.prev.next == x`; and backward iteration from the last element reads the
elements in the reverse of the order of forward iteration. -/
theorem ring_is_consistent (w : world T) (hr : Reachable w) (a : Nat) (ha : a ∈ w.lists) :
    (∀ x, IsPos w.mem a x → ∃ y z, anext w.mem x = some y ∧ aprev w.mem x = some z ∧
      y ≠ 0 ∧ z ≠ 0 ∧ IsPos w.mem a y ∧ IsPos w.mem a z ∧
      aprev w.mem y = some x ∧ anext w.mem z = some x) ∧
    ∃ xs, forward xs.length w.mem a = some xs ∧
      backward xs.length w.mem a = some xs.reverse := by
  obtain ⟨ns, xs, h, h0⟩ := reachable_ring hr ha
  refine ⟨?_, xs, forward_spec h (Nat.le_refl _), backward_spec h (Nat.le_refl _)⟩
  intro x hx
  obtain ⟨y, z, hy, hz, hxy, hzx⟩ := Ring_neighbours h.1 ((IsPos_iff h.1 x).1 hx)
  exact ⟨y, z, hxy.1, hzx.2, fun e => h0 (e ▸ hy), fun e => h0 (e ▸ hz),
    (IsPos_iff h.1 y).2 hy, (IsPos_iff h.1 z).2 hz, hxy.2, hzx.1⟩

end list

namespace unordered_map
open list
variable {Key V : Type}

/-- C30: for a well-formed map `m`, a pair `v` and enough fuel for the longest
bucket.  If no stored key equals `v.first` and the allocators do not fail, the
statement that may `rehash` returns a well-formed table, and with any node
address `fresh` free in it `insert(v)` returns `(it, true)`, `it` being the
new node in the bucket of the key; the node holds `v`, `size()` is one more,
the map is well formed, it stores the old nodes, with their pairs, and the new
one; and when the statement rehashes, the table is the new one.  If a stored
key equals `v.first` (the hash function giving equal keys the same value),
`insert(v)` returns `(it, false)`, `it` referring to a stored pair with such a
key, and the map is as before. -/
theorem insert_new_or_found (hasher : Key → Nat) (equals : Key → Key → Bool)
    (full : Nat → Nat → Bool) (m : unordered_map Key V) (nodes : Nat → List Nat)
    (vals : Nat → List (Key × V)) (h : MapInv hasher m nodes vals) (fuel : Nat)
    (hf : ∀ i, i < m.numbuckets_ → (nodes (m.buckets_ + i)).length ≤ fuel) (v : Key × V)
    (freshb : Nat) :
    ((∀ i, i < m.numbuckets_ → ∀ kv ∈ vals (m.buckets_ + i), equals v.1 kv.1 = false) →
      freshb ≠ 0 →
      (∀ x, freshb ≤ x → x < freshb + calc_table_size (m.numbuckets_ + 1) → m.mem x = none) →
      ∃ m0, reserve hasher full fuel freshb m = some m0 ∧
        ∀ fresh, fresh ≠ 0 → m0.mem fresh = none →
          ∃ m1 nodes1 vals1 b,
            insert hasher equals full fuel freshb fresh m v =
              some (m1, (⟨fresh, b, m1.buckets_ + m1.numbuckets_⟩, true)) ∧
            b = m1.buckets_ + hasher v.1 % m1.numbuckets_ ∧ fresh ∈ nodes1 b ∧
            value m1.mem fresh = some v ∧ size m1 = size m + 1 ∧
            MapInv hasher m1 nodes1 vals1 ∧
            (∀ x, Stored m1 nodes1 x ↔ x = fresh ∨ Stored m nodes x) ∧
            (∀ x, Stored m nodes x → value m1.mem x = value m.mem x) ∧
            (m.size_ = 0 ∨ full m.size_ m.numbuckets_ = true →
              m.numbuckets_ < calc_table_size (m.numbuckets_ + 1) →
              m1.buckets_ = freshb ∧
                m1.numbuckets_ = calc_table_size (m.numbuckets_ + 1))) ∧
    ((∀ k1 k2, equals k1 k2 = true → hasher k1 = hasher k2) →
      (∃ i, i < m.numbuckets_ ∧ ∃ kv ∈ vals (m.buckets_ + i), equals v.1 kv.1 = true) →
      ∀ fresh, ∃ it kv,
        insert hasher equals full fuel freshb fresh m v = some (m, (it, false)) ∧
        Stored m nodes it.node_ ∧ value m.mem it.node_ = some kv ∧
        equals v.1 kv.1 = true) := by
  obtain ⟨it, eit, hit0, hit1⟩ := map_find_spec hasher equals h hf v.1
  constructor
  · intro habs hfb hfree
    have hn0 : it.node_ = 0 := by
      by_contra hne
      obtain ⟨hn, -, -, -, kv, hkv, -, he⟩ := hit1 hne
      rw [habs _ (Nat.mod_lt _ hn) kv hkv] at he
      cases he
    obtain ⟨m0, nodes0, vals0, e0, hi0, hpos, hs0, hst0, hv0, hre⟩ :=
      reserve_spec hasher full h hf hfb hfree
    refine ⟨m0, e0, fun fresh hfr hm => ?_⟩
    obtain ⟨mem1, mem2, nodes1, vals1, e1, e2, hi1, hvf, hfm, hst1, hv1⟩ :=
      insert_push_spec hasher hi0 hpos hfr hm v
    refine ⟨⟨mem2, m0.buckets_, m0.numbuckets_, m0.size_ + 1⟩, nodes1, vals1,
      m0.buckets_ + hasher v.1 % m0.numbuckets_, ?_, rfl, hfm, hvf, ?_, hi1, ?_, ?_, hre⟩
    · unfold insert
      rw [eit]
      simp only [hn0, if_true, e0, get_bucket, Nat.ne_of_gt hpos, if_false, e1, e2]
    · simp only [size, hs0]
    · intro x
      rw [← hst0 x]
      exact hst1 x
    · intro x hx
      have hx0 := (hst0 x).2 hx
      have hxf : x ≠ fresh := by
        rintro rfl
        obtain ⟨j, hj, hxj⟩ := hx0
        exact Ring_not_mem (hi0.1.2.1 _ (mem_anchors.2 ⟨j, hj, rfl⟩)).1.1 hm
          (List.mem_cons_of_mem _ hxj)
      rw [hv1 x hxf, hv0 x hx]
  · intro hcompat hpres fresh
    obtain ⟨i, hi, kv, hkv, he⟩ := hpres
    have hik : hasher v.1 % m.numbuckets_ = i := by
      rw [hcompat _ _ he]
      exact h.2.1 i hi kv hkv
    have hne : it.node_ ≠ 0 := by
      intro h0
      rcases hit0 h0 with hz | hall
      · omega
      · rw [hik] at hall
        rw [hall kv hkv] at he
        cases he
    obtain ⟨hn, -, -, hm, kv2, -, hv2, he2⟩ := hit1 hne
    refine ⟨it, kv2, ?_, ⟨_, Nat.mod_lt _ hn, hm⟩, hv2, he2⟩
    unfold insert
    rw [eit]
    simp only [hne, if_false]

end unordered_map

end taapp

namespace taapp
open NodeTree

/-! ## Instances of the theorems on the other containers -/

/-- Witness of C21: the ninth call of the scenario, `insert(6)`. -/
theorem insert_follows_code_procedure_witness :
    StrictWeak ltN ∧ Reachable ltN sc8 ∧ Inorder sc8 sc8.root_ [1, 2, 3, 4, 5, 7, 8, 9] ∧
    (∀ x ∈ [1, 2, 3, 4, 5, 7, 8, 9], ¬ Equiv ltN 6 x) ∧
    ∃ T s1, Model sc8 T ∧ (∀ U, Model sc8 U → U = T) ∧
      insert ltN 6 sc8 = some (s1, (some sc8.next, true)) ∧
      Model s1 (insT ltN 6 sc8.next T) ∧ (∀ U, Model s1 U → U = insT ltN 6 sc8.next T) ∧
      Valid (insT ltN 6 sc8.next T) ∧
      (insT ltN 6 sc8.next T).nodes = (spec_insert ltN 6 sc8.next T).nodes ∧
      (insT ltN 6 sc8.next T).keys = (spec_insert ltN 6 sc8.next T).keys ∧
      Inorder s1 s1.root_ (spec_insert ltN 6 sc8.next T).keys :=
  ⟨ltN_strictWeak, sc8_facts.2.1, inorder_of_keys ltN sc8_facts.2.1 sc8_facts.2.2,
    by simp [Equiv, ltN],
    insert_follows_code_procedure ltN ltN_strictWeak sc8 sc8_facts.2.1
      [1, 2, 3, 4, 5, 7, 8, 9] (inorder_of_keys ltN sc8_facts.2.1 sc8_facts.2.2) 6
      (by simp [Equiv, ltN])⟩

namespace priority_queue
open vector

/-- Witness of C22: the queue after `push(3)`, `push(5)`, `push(1)`. -/
theorem top_is_maximum_witness :
    StrictWeak ltN ∧ Reachable trivial_traits ltN demo_queue ∧
    demo_queue.container_.deref (top demo_queue) = some 5 ∧
    demo_queue.container_.contents = [5, 3, 1] ∧
    drain ltN 3 demo_queue = some [5, 3, 1] ∧
    ((∀ t, demo_queue.container_.deref (top demo_queue) = some t →
      ∀ x ∈ demo_queue.container_.contents, ltN t x = false) ∧
    (empty demo_queue = false →
      ∃ t q1, demo_queue.container_.deref (top demo_queue) = some t ∧
        pop ltN demo_queue = some q1) ∧
    (∀ n fresh, fresh ≠ 0 →
      ∃ q1, push trivial_traits fresh ltN demo_queue (cref.obj n) = some q1) ∧
    (∀ j fresh, j < size demo_queue → size demo_queue < demo_queue.container_.capacity →
      ∃ q1, push trivial_traits fresh ltN demo_queue
        (cref.elem (demo_queue.container_.begin_ + j)) = some q1) ∧
    ∃ l, drain ltN (size demo_queue) demo_queue = some l ∧
      l.Perm demo_queue.container_.contents ∧ l.Pairwise (fun a b => ltN a b = false)) :=
  ⟨ltN_strictWeak, demo_queue_reachable trivial_traits, rfl, rfl, demo_queue_drain,
    top_is_maximum trivial_traits ltN ltN_strictWeak demo_queue
      (demo_queue_reachable trivial_traits)⟩

/-- Witness of C23: `push(4)`, `push(top())` and `pop()` on the queue holding
5, 3, 1 in a buffer of eight elements. -/
theorem push_pop_multiset_witness :
    HoldsOnly demo_queue.container_ [5, 3, 1] ∧ empty demo_queue = false ∧
    (∃ q1, push trivial_traits 200 ltN demo_queue (cref.obj 4) = some q1 ∧
      q1.container_.contents.Perm (4 :: demo_queue.container_.contents) ∧
      size q1 = size demo_queue + 1) ∧
    (∃ q1, push trivial_traits 200 ltN demo_queue
        (cref.elem (demo_queue.container_.begin_ + 0)) = some q1 ∧
      q1.container_.contents.Perm (5 :: demo_queue.container_.contents) ∧
      size q1 = size demo_queue + 1) ∧
    ∃ t q1, demo_queue.container_.deref (top demo_queue) = some t ∧
      pop ltN demo_queue = some q1 ∧
      demo_queue.container_.contents.Perm (t :: q1.container_.contents) ∧
      size q1 + 1 = size demo_queue :=
  ⟨demo_queue_HoldsOnly, rfl,
    (push_pop_multiset trivial_traits ltN demo_queue [5, 3, 1] demo_queue_HoldsOnly).1 4 200
      (by decide),
    (push_pop_multiset trivial_traits ltN demo_queue [5, 3, 1] demo_queue_HoldsOnly).2.1 0 5
      200 rfl rfl (by decide),
    (push_pop_multiset trivial_traits ltN demo_queue [5, 3, 1] demo_queue_HoldsOnly).2.2.2
      rfl⟩

end priority_queue

namespace vector

/-- Witness of C24: `erase(begin() + 1)` on the vector holding 1, 2, 3, with
element-wise assignment. -/
theorem erase_removes_index_witness :
    Holds demo_vector [1, 2, 3] ∧ 1 < size demo_vector ∧
    ∃ v1, erase class_traits demo_vector 101 = some (v1, 101) ∧ Holds v1 [1, 3] ∧
      size v1 + 1 = size demo_vector :=
  ⟨demo_vector_Holds, by decide,
    (erase_removes_index class_traits demo_vector [1, 2, 3] demo_vector_Holds 1
      (by decide)).imp (fun _ h => ⟨h.1, h.2.1, h.2.2.1⟩)⟩

/-- Witness of C25: `insert(begin() + 2, 9)` on the full vector holding
1, 2, 3, 4, which reallocates to the buffer at 200. -/
theorem insert_places_value_witness :
    (200 : Nat) ≠ 0 ∧ Holds demo_vector_full [1, 2, 3, 4] ∧ 2 ≤ size demo_vector_full ∧
    capacity demo_vector_full ≤ size demo_vector_full ∧
    ∃ v1, insert class_traits 0 200 demo_vector_full 102 (cref.obj 9) =
        some (v1, v1.begin_ + 2) ∧
      Holds v1 [1, 2, 9, 3, 4] ∧ size v1 = size demo_vector_full + 1 :=
  ⟨by decide, demo_vector_full_Holds, by decide, by decide,
    ((insert_places_value class_traits 0 200 (by decide) demo_vector_full [1, 2, 3, 4]
      demo_vector_full_Holds 2 (by decide)).1 9).imp (fun _ h => ⟨h.1, h.2.1, h.2.2.1⟩)⟩

end vector

namespace list

theorem demo_m4_IsList : IsList demo_m4 1 [10, 11] [7, 8] :=
  ⟨⟨List.chain'_cons.2 ⟨⟨rfl, rfl⟩, List.chain'_cons.2 ⟨⟨rfl, rfl⟩,
    List.chain'_pair.2 ⟨rfl, rfl⟩⟩⟩, by decide, rfl⟩, rfl⟩

theorem demo_m5_IsList_A : IsList demo_m5 1 [10, 11] [7, 8] :=
  ⟨⟨List.chain'_cons.2 ⟨⟨rfl, rfl⟩, List.chain'_cons.2 ⟨⟨rfl, rfl⟩,
    List.chain'_pair.2 ⟨rfl, rfl⟩⟩⟩, by decide, rfl⟩, rfl⟩

theorem demo_m5_IsList_B : IsList demo_m5 2 [12] [5] :=
  ⟨⟨List.chain'_cons.2 ⟨⟨rfl, rfl⟩, List.chain'_pair.2 ⟨rfl, rfl⟩⟩, by decide, rfl⟩, rfl⟩

theorem demo_world_reachable : Reachable ({ mem := demo_m6, lists := [2, 1] } : world Nat) := by
  have r1 : Reachable ({ mem := demo_m1, lists := [1] } : world Nat) :=
    Reachable.construct Reachable.init (by decide) rfl
  have r2 : Reachable ({ mem := demo_m2, lists := [2, 1] } : world Nat) :=
    Reachable.construct r1 (by decide) rfl
  have r3 : Reachable ({ mem := demo_m3, lists := [2, 1] } : world Nat) :=
    Reachable.push_back r2 (show 1 ∈ [2, 1] by decide) (show demo_m2 10 = none from rfl)
      (show push_back demo_m2 1 10 7 = some demo_m3 from rfl)
  have r4 : Reachable ({ mem := demo_m4, lists := [2, 1] } : world Nat) :=
    Reachable.push_back r3 (show 1 ∈ [2, 1] by decide) (show demo_m3 11 = none from rfl)
      (show push_back demo_m3 1 11 8 = some demo_m4 from rfl)
  have r5 : Reachable ({ mem := demo_m5, lists := [2, 1] } : world Nat) :=
    Reachable.push_front r4 (show 2 ∈ [2, 1] by decide) (show demo_m4 12 = none from rfl)
      (show push_front demo_m4 2 12 5 = some demo_m5 from rfl)
  have hpos : IsPos demo_m5 1 11 :=
    Or.inr (Elem.next (Elem.first (show begin demo_m5 1 = some 10 from rfl) (by decide))
      (show anext demo_m5 10 = some 11 from rfl) (by decide))
  exact Reachable.splice r5 (show 1 ∈ [2, 1] by decide) (show 2 ∈ [2, 1] by decide)
    (by decide) hpos (show splice demo_m5 11 2 = some demo_m6 from rfl)

/-- Witness of C26: the list holding 5 is spliced into the list holding 7, 8
before the node of 8. -/
theorem splice_moves_all_witness :
    IsList demo_m5 1 [10, 11] [7, 8] ∧ IsList demo_m5 2 [12] [5] ∧
    (∀ x, x ∈ [1, 10, 11] → x ∈ [2, 12] → False) ∧ ([10, 11] ++ [1])[1]? = some 11 ∧
    ∃ m1, splice demo_m5 11 2 = some m1 ∧ IsList m1 1 [10, 12, 11] [7, 5, 8] ∧
      forward 3 m1 1 = some [7, 5, 8] ∧ IsList m1 2 [] [] ∧ empty m1 2 = some true :=
  ⟨demo_m5_IsList_A, demo_m5_IsList_B, by decide, rfl,
    (splice_moves_all demo_m5 1 2 [10, 11] [12] [7, 8] [5] demo_m5_IsList_A demo_m5_IsList_B
      (by decide) 1 11 rfl).imp (fun _ h => ⟨h.1, h.2.1, h.2.2.1, h.2.2.2.1, h.2.2.2.2.1⟩)⟩

/-- Witness of C27: on the list holding 7, 8, `insert` of 9 before the node of
8, and `erase` of the node of 8. -/
theorem insert_before_erase_at_witness :
    IsList demo_m4 1 [10, 11] [7, 8] ∧
    (∃ m1, insert demo_m4 11 20 9 = some (m1, 20) ∧ value m1 20 = some 9 ∧
      anext m1 20 = some 11 ∧ aprev m1 11 = some 20 ∧
      IsList m1 1 [10, 20, 11] [7, 9, 8]) ∧
    ∃ m1 next, erase demo_m4 11 = some (m1, next) ∧ ([10, 11] ++ [1])[1 + 1]? = some next ∧
      m1 11 = none ∧ IsList m1 1 [10] [7] :=
  ⟨demo_m4_IsList,
    ((insert_before_erase_at demo_m4 1 [10, 11] [7, 8] demo_m4_IsList 1 11).1 20 9 rfl
      (by decide) rfl).imp (fun _ h => ⟨h.1, h.2.1, h.2.2.1, h.2.2.2.1, h.2.2.2.2.1⟩),
    ((insert_before_erase_at demo_m4 1 [10, 11] [7, 8] demo_m4_IsList 1 11).2 rfl).imp
      (fun _ h => h.imp (fun _ g => ⟨g.1, g.2.1, g.2.2.1, g.2.2.2.1⟩))⟩

/-- Witness of C28: `clear()` on the list that holds the one value 7. -/
theorem clear_keeps_anchor_witness :
    IsList (run (push_back demo_m1 1 10 7)) 1 [10] [7] ∧
    ∃ m1, clear 1 (run (push_back demo_m1 1 10 7)) 1 = some m1 ∧ m1 10 = none ∧
      empty m1 1 = some false ∧ ∀ fuel, forward fuel m1 1 = none :=
  ⟨demo_one_IsList,
    (clear_keeps_anchor (run (push_back demo_m1 1 10 7)) 1 [10] [7] demo_one_IsList).imp
      (fun _ h => ⟨h.1, h.2.1 10 (by decide), (h.2.2.2.2.2 (by decide)).1,
        (h.2.2.2.2.2 (by decide)).2.elim (fun _ g => g.2.2.2)⟩)⟩

/-- Witness of C29: the first list of the world after two `push_back`, a
`push_front` on a second list and the `splice` of the second list. -/
theorem ring_is_consistent_witness :
    Reachable ({ mem := demo_m6, lists := [2, 1] } : world Nat) ∧ 1 ∈ [2, 1] ∧
    forward 3 demo_m6 1 = some [7, 5, 8] ∧ backward 3 demo_m6 1 = some [8, 5, 7] ∧
    (∀ x, IsPos demo_m6 1 x → ∃ y z, anext demo_m6 x = some y ∧ aprev demo_m6 x = some z ∧
      y ≠ 0 ∧ z ≠ 0 ∧ IsPos demo_m6 1 y ∧ IsPos demo_m6 1 z ∧
      aprev demo_m6 y = some x ∧ anext demo_m6 z = some x) :=
  ⟨demo_world_reachable, by decide, rfl, rfl,
    (ring_is_consistent _ demo_world_reachable 1 (by decide)).1⟩

end list

namespace unordered_map
open list

theorem empty_map_MapInv :
    MapInv demo_hasher (empty_map : unordered_map Nat Nat) (fun _ => []) (fun _ => []) :=
  ⟨⟨List.nodup_nil, fun a ha => absurd ha (List.not_mem_nil a),
      fun a ha => absurd ha (List.not_mem_nil a)⟩,
    fun i hi => absurd hi (Nat.not_lt_zero i), fun _ => ⟨rfl, rfl⟩,
    fun hi => absurd hi (Nat.lt_irrefl 0), fun _ i hi => absurd hi (Nat.not_lt_zero i)⟩

/-- Witness of C30: `insert((1, 10))` into the empty map, which allocates the
first table of 13 buckets at address 100. -/
theorem insert_new_or_found_witness :
    MapInv demo_hasher (empty_map : unordered_map Nat Nat) (fun _ => []) (fun _ => []) ∧
    ∃ m0, reserve demo_hasher demo_full 0 100 (empty_map : unordered_map Nat Nat) = some m0 ∧
      ∀ fresh, fresh ≠ 0 → m0.mem fresh = none →
        ∃ m1 b, insert demo_hasher demo_equals demo_full 0 100 fresh empty_map (1, 10) =
            some (m1, (⟨fresh, b, m1.buckets_ + m1.numbuckets_⟩, true)) ∧
          value m1.mem fresh = some (1, 10) ∧ size m1 = 1 ∧ m1.buckets_ = 100 ∧
          m1.numbuckets_ = 13 := by
  refine ⟨empty_map_MapInv, ?_⟩
  obtain ⟨m0, e0, h0⟩ := (insert_new_or_found demo_hasher demo_equals demo_full
    (empty_map : unordered_map Nat Nat) (fun _ => []) (fun _ => []) empty_map_MapInv 0
    (fun i hi => absurd hi (Nat.not_lt_zero i)) (1, 10) 100).1
    (fun i hi => absurd hi (Nat.not_lt_zero i)) (by decide) (fun _ _ _ => rfl)
  refine ⟨m0, e0, fun fresh hf hm => ?_⟩
  obtain ⟨m1, nodes1, vals1, b, e1, -, -, hv, hs, -, -, -, hr⟩ := h0 fresh hf hm
  exact ⟨m1, b, e1, hv, hs, (hr (Or.inl rfl) (by decide)).1, (hr (Or.inl rfl) (by decide)).2⟩

/-! ### Runs of the model on the example map -/

theorem demo_map_first_insert :
    insert demo_hasher demo_equals demo_full 0 100 200 (empty_map : unordered_map Nat Nat)
      (1, 10) = some (demo_map1, (⟨200, 101, 113⟩, true)) := rfl

/-- A second `insert` with the key 1 finds the node at 200 and leaves the value. -/
theorem demo_map_second_insert :
    (insert demo_hasher demo_equals demo_full 1 300 201 demo_map1 (1, 99)).map
      (fun r => (r.2.1.node_, r.2.2, r.1.size_, value r.1.mem 200)) =
    some (200, false, 1, some (1, 10)) := rfl

/-- The key 14 falls into the bucket of the key 1 and is linked in front of it. -/
theorem demo_map_colliding_insert :
    (insert demo_hasher demo_equals demo_full 1 300 201 demo_map1 (14, 99)).map
      (fun r => (r.2.1.node_, r.2.1.bucket_, r.2.2, r.1.size_, r.1.numbuckets_,
        value r.1.mem 201, anext r.1.mem 101, anext r.1.mem 201, anext r.1.mem 200)) =
    some (201, 101, true, 2, 13, some (14, 99), some 201, some 200, some 101) := rfl

end unordered_map

end taapp

namespace taapp
variable {Key : Type}
open NodeTree

/-! ## Rotations on the heap -/

theorem node_of_root {t : NodeTree Key} {p : Nat} (h : t.root = some p) :
    ∃ c l v r, t = node p c l v r := by
  cases t with
  | nil => cases h
  | node i c l v r =>
    simp only [root_node, Option.some.injEq] at h
    subst h
    exact ⟨c, l, v, r, rfl⟩

/-- Two heaps that hold the same tree agree on its nodes, the root left aside
(the parent pointers of the root may differ). -/
theorem RepT_agree {m m1 : Nat → Option (rbnode Key)} {t : NodeTree Key} :
    ∀ {par par1 : Option Nat}, RepT m par t → RepT m1 par1 t →
      ∀ a, a ∈ t.ids → t.root ≠ some a → m1 a = m a := by
  induction t with
  | nil =>
    intro par par1 _ _ a ha
    simp at ha
  | node i c l v r ihl ihr =>
    intro par par1 h h1 a ha hne
    simp only [ids_node, List.mem_append, List.mem_cons] at ha
    have hsub : ∀ (u : NodeTree Key), RepT m (some i) u → RepT m1 (some i) u →
        (∀ a, a ∈ u.ids → u.root ≠ some a → m1 a = m a) → a ∈ u.ids → m1 a = m a := by
      intro u hu hu1 ih hau
      by_cases hroot : u.root = some a
      · obtain ⟨cu, lu, vu, ru, rfl⟩ := node_of_root hroot
        rw [hu.1, hu1.1]
      · exact ih a hau hroot
    rcases ha with ha | ha | ha
    · exact hsub l h.2.1 h1.2.1 (ihl h.2.1 h1.2.1) ha
    · exact absurd (by rw [ha]; rfl) hne
    · exact hsub r h.2.2 h1.2.2 (ihr h.2.2 h1.2.2) ha

/-- Two heaps that hold the same path agree on its nodes, the innermost one left
aside (its child pointer may differ). -/
theorem RepC_agree {m m1 : Nat → Option (rbnode Key)} {ctx : List (Frame Key)} :
    ∀ {q q1 : Option Nat}, RepC m ctx q → RepC m1 ctx q1 →
      ∀ a, a ∈ cids ctx → cpar ctx ≠ some a → m1 a = m a := by
  induction ctx with
  | nil =>
    intro q q1 _ _ a ha
    simp [cids, ctxBefore, ctxAfter] at ha
  | cons f ctx ih =>
    intro q q1 h h1 a ha hne
    rw [cids_cons] at ha
    obtain ⟨-, hs, hc⟩ := h
    obtain ⟨-, hs1, hc1⟩ := h1
    rcases ha with ha | ha | ha
    · exact absurd (by rw [ha]; rfl) hne
    · by_cases hroot : f.sib.root = some a
      · obtain ⟨cu, lu, vu, ru, e⟩ := node_of_root hroot
        rw [e] at hs hs1
        rw [hs.1, hs1.1]
      · exact RepT_agree hs hs1 a ha hroot
    · by_cases hp : cpar ctx = some a
      · cases ctx with
        | nil => cases hp
        | cons g ctx =>
          simp only [cpar, Option.some.injEq] at hp
          rw [← hp, hc.1, hc1.1]
      · exact ih hc hc1 a ha hp

/-- The effect of `rotate<d>(r)` on the represented tree, and the nodes it
leaves as they are. -/
theorem rotate_mem (d : Bool) {s : set Key} {ctx : List (Frame Key)} {r : Nat} {cr : Bool}
    {A : NodeTree Key} {vr : Key} {p : Nat} {cp : Bool} {B : NodeTree Key} {vp : Key}
    {C : NodeTree Key}
    (h : Rep s (plug ctx (mk d r cr A vr (mk d p cp B vp C)))) :
    ∃ s1, rotate d s (some r) = some (s1, some p) ∧
      Rep s1 (plug ctx (mk d p BLACK (mk d r RED A vr B) vp C)) ∧
      s1.size_ = s.size_ ∧ s1.next = s.next ∧
      ∀ a, a ≠ r → a ≠ p → B.root ≠ some a → cpar ctx ≠ some a → s1.mem a = s.mem a := by
  obtain ⟨s1, e1, r1, z1, n1, hout⟩ := rotate_spec d h
  refine ⟨s1, e1, r1, z1, n1, fun a har hap haB haC => ?_⟩
  by_cases hin : a ∈ (plug ctx (mk d r cr A vr (mk d p cp B vp C))).ids
  · have ht := h.tree
    have ht1 := r1.tree
    rw [RepT_plug, RepT_mk, RepT_mk] at ht ht1
    obtain ⟨hC, -, hA, -, hB, hCC⟩ := ht
    obtain ⟨hC1, -, ⟨-, hA1, hB1⟩, hCC1⟩ := ht1
    rw [plug_ids, ids_mk, ids_mk] at hin
    have hsub : ∀ (u : NodeTree Key) (q q1 : Option Nat), RepT s.mem q u → RepT s1.mem q1 u →
        (u.root = some a → q = q1) → a ∈ u.ids → s1.mem a = s.mem a := by
      intro u q q1 hu hu1 hq hau
      by_cases hroot : u.root = some a
      · obtain ⟨cu, lu, vu, ru, rfl⟩ := node_of_root hroot
        rw [hu.1, hu1.1, hq hroot]
      · exact RepT_agree hu hu1 a hau hroot
    have hcases : a ∈ A.ids ∨ a ∈ B.ids ∨ a ∈ C.ids ∨ a ∈ cids ctx := by
      cases d <;> simp only [Bool.false_eq_true, Bool.true_eq_false, ↓reduceIte,
        List.mem_append, List.mem_cons, LEFT] at hin <;> tauto
    rcases hcases with ha | ha | ha | ha
    · exact hsub A _ _ hA hA1 (fun _ => rfl) ha
    · exact hsub B _ _ hB hB1 (fun e => absurd e haB) ha
    · exact hsub C _ _ hCC hCC1 (fun _ => rfl) ha
    · exact RepC_agree hC hC1 a ha haC
  · exact hout a hin

/-- A node of the tree with a child on the side opposite to `d`, as a subtree
in the form that `rotate<d>` works on. -/
theorem rotate_decomp (d : Bool) {s : set Key} {T : NodeTree Key} (h : Rep s T) {r p : Nat}
    (hr : IsNode s r) (hp : get_child (!d) s (some r) = some (some p)) :
    ∃ ctx cr A vr cp B vp C, T = plug ctx (mk d r cr A vr (mk d p cp B vp C)) := by
  obtain ⟨ctx, c, l, v, rr, rfl⟩ := node_decomp h hr
  have hl := h.lookup
  simp only [get_child, deref, hl, Option.some.injEq] at hp
  cases d
  · simp only [Bool.not_false, Bool.true_eq_false, ↓reduceIte] at hp
    obtain ⟨cp, pl, vp, pr, rfl⟩ := node_of_root hp
    exact ⟨ctx, c, l, v, cp, pl, vp, pr, rfl⟩
  · simp only [Bool.not_true, ↓reduceIte] at hp
    obtain ⟨cp, pl, vp, pr, rfl⟩ := node_of_root hp
    exact ⟨ctx, c, rr, v, cp, pr, vp, pl, rfl⟩

/-- A node of the tree with a child on the side opposite to `d` that has a
child on the side `d`, in the form that `double_rotate<d>` works on. -/
theorem double_rotate_decomp (d : Bool) {s : set Key} {T : NodeTree Key} (h : Rep s T)
    {g p x : Nat} (hg : IsNode s g) (hp : get_child (!d) s (some g) = some (some p))
    (hx : get_child d s (some p) = some (some x)) :
    ∃ ctx cg A vg cp cx B vx C vp D,
      T = plug ctx (mk d g cg A vg (mk d p cp (mk d x cx B vx C) vp D)) := by
  obtain ⟨ctx, cg, A, vg, cp, X, vp, D, rfl⟩ := rotate_decomp d h hg hp
  have hS : Rep s (plug ((⟨g, cg, vg, !d, A⟩ : Frame Key) :: ctx) (mk d p cp X vp D)) :=
    h.cast (by cases d <;> rfl)
  have hl := lookup_mk hS
  have hX : X.root = some x := by
    cases d <;> simpa [get_child, deref, hl] using hx
  obtain ⟨cx, xl, vx, xr, rfl⟩ := node_of_root hX
  exact ⟨ctx, cg, A, vg, cp, cx, _, vx, _, vp, D, by rw [← node_eq_mk d x cx xl vx xr]⟩

theorem keys_plug_mk_rot (d : Bool) (ctx : List (Frame Key)) (r : Nat) (cr : Bool)
    (A : NodeTree Key) (vr : Key) (p : Nat) (cp : Bool) (B : NodeTree Key) (vp : Key)
    (C : NodeTree Key) (c1 c2 : Bool) :
    (plug ctx (mk d p c1 (mk d r c2 A vr B) vp C)).keys =
      (plug ctx (mk d r cr A vr (mk d p cp B vp C))).keys := by
  simp only [keys, plug_nodes, nodes_mk]
  cases d <;> simp

theorem keys_plug_mk_drot (d : Bool) (ctx : List (Frame Key)) (g : Nat) (cg : Bool)
    (A : NodeTree Key) (vg : Key) (p : Nat) (cp : Bool) (x : Nat) (cx : Bool)
    (B : NodeTree Key) (vx : Key) (C : NodeTree Key) (vp : Key) (D : NodeTree Key)
    (c1 c2 c3 : Bool) :
    (plug ctx (mk d x c1 (mk d g c2 A vg B) vx (mk d p c3 C vp D))).keys =
      (plug ctx (mk d g cg A vg (mk d p cp (mk d x cx B vx C) vp D))).keys := by
  simp only [keys, plug_nodes, nodes_mk]
  cases d <;> simp

theorem Rep.inorder {s : set Key} {T : NodeTree Key} (h : Rep s T) :
    Inorder s s.root_ T.keys := by
  rw [h.root]
  exact Inorder_of_RepT h.tree

end taapp

namespace taapp
variable {Key : Type}
open NodeTree

/-! ## Rotations (claims C33, C34, C35) -/

/-- C33: in a well-linked tree (the heap of `s` holds a tree `T`), for a node
`r` whose child `p` on the side opposite to `d` is not null, `rotate<d>(r)`
returns and the in-order key sequence of the whole tree is the same afterwards;
and if `p` has a child `x` on the side `d`, the same holds for
`double_rotate<d>(r)`.  The tree has an in-order key sequence, and the heap is
well linked afterwards. -/
theorem rotation_preserves_inorder (d : Bool) (s : set Key) (T : NodeTree Key) (h : Rep s T)
    (r : Nat) (hr : IsNode s r) :
    (∃ ks, Inorder s s.root_ ks) ∧
    (∀ p, get_child (!d) s (some r) = some (some p) →
      ∃ s1, rotate d s (some r) = some (s1, some p) ∧ (∃ T1, Rep s1 T1) ∧
        ∀ ks, Inorder s s.root_ ks → Inorder s1 s1.root_ ks) ∧
    (∀ p x, get_child (!d) s (some r) = some (some p) →
      get_child d s (some p) = some (some x) →
      ∃ s2, double_rotate d s (some r) = some (s2, some x) ∧ (∃ T2, Rep s2 T2) ∧
        ∀ ks, Inorder s s.root_ ks → Inorder s2 s2.root_ ks) := by
  refine ⟨⟨T.keys, h.inorder⟩, fun p hp => ?_, fun p x hp hx => ?_⟩
  · obtain ⟨ctx, cr, A, vr, cp, B, vp, C, rfl⟩ := rotate_decomp d h hr hp
    obtain ⟨s1, e1, r1, -⟩ := rotate_spec d h
    refine ⟨s1, e1, ⟨_, r1⟩, fun ks hks => ?_⟩
    rw [Inorder_fun hks h.inorder, ← keys_plug_mk_rot d ctx r cr A vr p cp B vp C BLACK RED]
    exact r1.inorder
  · obtain ⟨ctx, cg, A, vg, cp, cx, B, vx, C, vp, D, rfl⟩ := double_rotate_decomp d h hr hp hx
    obtain ⟨s2, e2, r2, -⟩ := double_rotate_spec d h
    refine ⟨s2, e2, ⟨_, r2⟩, fun ks hks => ?_⟩
    rw [Inorder_fun hks h.inorder,
      ← keys_plug_mk_drot d ctx r cg A vg p cp x cx B vx C vp D BLACK RED RED]
    exact r2.inorder

end taapp

namespace taapp
variable {Key : Type}
open NodeTree

/-- C34: in a well-linked tree, for a node `r` (record `rn`) whose child on the
side opposite to `d` is the node `p` (record `pn`), `rotate<d>(r)` returns `p`.
Afterwards `p` is BLACK, has the former parent of `r`, has `r` as its child on
the side `d` and keeps its other child; `r` is RED, has the parent `p`, has the
former `d`-side child of `p` as its child on the opposite side and keeps its
`d`-side child; the former parent `g` of `r` has `p` in the place of `r` (and
`root_` is `p` if `r` had no parent); the former `d`-side child of `p` has the
parent `r`; every other node record and `size_` are as before, and `root_` is
as before if `r` had a parent. -/
theorem rotate_relinks (d : Bool) (s : set Key) (T : NodeTree Key) (h : Rep s T) (r p : Nat)
    (rn pn : rbnode Key) (hr : IsNode s r) (hrn : s.mem r = some rn)
    (hp : (if d = LEFT then rn.right else rn.left) = some p) (hpn : s.mem p = some pn) :
    ∃ s1, rotate d s (some r) = some (s1, some p) ∧
      s1.mem p = some { value := pn.value, color := BLACK, parent := rn.parent,
                        left := if d = LEFT then some r else pn.left,
                        right := if d = LEFT then pn.right else some r } ∧
      s1.mem r = some { value := rn.value, color := RED, parent := some p,
                        left := if d = LEFT then rn.left else pn.right,
                        right := if d = LEFT then pn.left else rn.right } ∧
      (∀ g gn, rn.parent = some g → s.mem g = some gn →
        (gn.left = some r ∨ gn.right = some r) ∧
        s1.mem g = some (if gn.left = some r then { gn with left := some p }
                         else { gn with right := some p }) ∧
        s1.root_ = s.root_) ∧
      (rn.parent = none → s.root_ = some r ∧ s1.root_ = some p) ∧
      (∀ b bn, (if d = LEFT then pn.left else pn.right) = some b → s.mem b = some bn →
        bn.parent = some p ∧ s1.mem b = some { bn with parent := some r }) ∧
      (∀ a, a ≠ r → a ≠ p → rn.parent ≠ some a →
        (if d = LEFT then pn.left else pn.right) ≠ some a → s1.mem a = s.mem a) ∧
      s1.size_ = s.size_ := by
  have hgp : get_child (!d) s (some r) = some (some p) := by
    cases d <;> simpa [get_child, deref, hrn] using hp
  obtain ⟨ctx, cr, A, vr, cp, B, vp, C, rfl⟩ := rotate_decomp d h hr hgp
  have hS : Rep s (plug ((⟨r, cr, vr, !d, A⟩ : Frame Key) :: ctx) (mk d p cp B vp C)) :=
    h.cast (by cases d <;> rfl)
  have er := (lookup_mk h).symm.trans hrn
  have ep := (lookup_mk hS).symm.trans hpn
  simp only [Option.some.injEq] at er ep
  subst er ep
  obtain ⟨s1, e1, r1, z1, -, hfr⟩ := rotate_mem d h
  have r1S : Rep s1 (plug ((⟨p, BLACK, vp, d, C⟩ : Frame Key) :: ctx) (mk d r RED A vr B)) := r1
  have hp1 := lookup_mk r1
  have hr1 := lookup_mk r1S
  have hBroot : (if d = LEFT then
      (rbnode.mk vp cp (some r) (if d = LEFT then B.root else C.root)
        (if d = LEFT then C.root else B.root)).left
      else (rbnode.mk vp cp (some r) (if d = LEFT then B.root else C.root)
        (if d = LEFT then C.root else B.root)).right) = B.root := by
    cases d <;> rfl
  refine ⟨s1, e1, ?_, ?_, ?_, ?_, ?_, ?_, z1⟩
  · rw [hp1]
    cases d <;> simp
  · rw [hr1]
    cases d <;> simp [cpar]
  · intro g gn hg hgn
    cases ctx with
    | nil => cases hg
    | cons f ctx =>
      simp only [cpar, Option.some.injEq] at hg
      have hf := lookup_mk (show Rep s (plug ctx (mk f.dir f.id f.c
        (mk d r cr A vr (mk d p cp B vp C)) f.v f.sib)) from h)
      have hf1 := lookup_mk (show Rep s1 (plug ctx (mk f.dir f.id f.c
        (mk d p BLACK (mk d r RED A vr B) vp C) f.v f.sib)) from r1)
      have hne : f.sib.root ≠ some r := by
        have := sib_root_ne h (mk_ne_nil d r cr A vr (mk d p cp B vp C))
        simpa using this
      rw [hg] at hf hf1
      have eg := hf.symm.trans hgn
      simp only [Option.some.injEq] at eg
      subst eg
      refine ⟨?_, ?_, ?_⟩
      · rcases f with ⟨fi, fc, fv, fd, fs⟩
        cases fd <;> simp
      · rw [hf1]
        rcases f with ⟨fi, fc, fv, fd, fs⟩
        cases fd
        · simp
        · simp only at hne
          simp [hne]
      · rw [r1.root, h.root, plug_root, plug_root]
        rfl
  · intro hpar
    cases ctx with
    | nil =>
      refine ⟨?_, ?_⟩
      · rw [h.root]; simp [plug]
      · rw [r1.root]; simp [plug]
    | cons f ctx => cases hpar
  · intro b bn hb hbn
    rw [hBroot] at hb
    obtain ⟨cb, bl, vb, br, rfl⟩ := node_of_root hb
    have hb0 := (show Rep s (plug ((⟨p, cp, vp, d, C⟩ : Frame Key) ::
      (⟨r, cr, vr, !d, A⟩ : Frame Key) :: ctx) (node b cb bl vb br)) from
        h.cast (by cases d <;> rfl)).lookup
    have hb1 := (show Rep s1 (plug ((⟨r, RED, vr, !d, A⟩ : Frame Key) ::
      (⟨p, BLACK, vp, d, C⟩ : Frame Key) :: ctx) (node b cb bl vb br)) from
        r1.cast (by cases d <;> rfl)).lookup
    have eb := hb0.symm.trans hbn
    simp only [Option.some.injEq] at eb
    subst eb
    exact ⟨rfl, by rw [hb1]; rfl⟩
  · intro a h1 h2 h3 h4
    rw [hBroot] at h4
    exact hfr a h1 h2 h4 h3

end taapp

namespace taapp
variable {Key : Type}
open NodeTree

/-- C35: in a well-linked tree, for a node `g` (record `gn`) whose child on the
side opposite to `d` is `p`, which has the child `x` on the side `d`:
`rotate<Opposite>(p)` returns `x`, `rotate<d>(g)` on the state it leaves
returns `x`, and `double_rotate<d>(g)` returns `x` with the same state.
Afterwards `x` is BLACK, has the former parent of `g` (which points to `x`, or
`root_` does if `g` had no parent), has `g` as its child on the side `d` and `p`
as its child on the opposite side; `p` and `g` are RED and have the parent
`x`. -/
theorem double_rotate_composes (d : Bool) (s : set Key) (T : NodeTree Key) (h : Rep s T)
    (g p x : Nat) (hg : IsNode s g) (hp : get_child (!d) s (some g) = some (some p))
    (hx : get_child d s (some p) = some (some x)) :
    ∃ s1 s2 gn xn pn2 gn2, s.mem g = some gn ∧
      rotate (!d) s (some p) = some (s1, some x) ∧
      rotate d s1 (some g) = some (s2, some x) ∧
      double_rotate d s (some g) = some (s2, some x) ∧
      s2.mem x = some xn ∧ xn.color = BLACK ∧ xn.parent = gn.parent ∧
      (if d = LEFT then xn.left else xn.right) = some g ∧
      (if d = LEFT then xn.right else xn.left) = some p ∧
      s2.mem p = some pn2 ∧ pn2.color = RED ∧ pn2.parent = some x ∧
      s2.mem g = some gn2 ∧ gn2.color = RED ∧ gn2.parent = some x ∧
      (gn.parent = none → s2.root_ = some x) ∧
      (∀ a, gn.parent = some a →
        ∃ an, s2.mem a = some an ∧ (an.left = some x ∨ an.right = some x)) := by
  obtain ⟨ctx, cg, A, vg, cp, cx, B, vx, C, vp, D, rfl⟩ := double_rotate_decomp d h hg hp hx
  have hgm := lookup_mk h
  -- first rotation: at `p`, away from `d`, below the frame of `g`
  have h1 : Rep s (plug ({ id := g, c := cg, v := vg, dir := !d, sib := A } :: ctx)
      (mk (!d) p cp D vp (mk (!d) x cx C vx B))) := h.cast (by cases d <;> rfl)
  obtain ⟨s1, e1, r1, -⟩ := rotate_spec (!d) h1
  have h2 : Rep s1 (plug ctx (mk d g cg A vg (mk d x BLACK B vx (mk d p RED C vp D)))) :=
    r1.cast (by cases d <;> rfl)
  obtain ⟨s2, e2, r2, -⟩ := rotate_spec d h2
  have e3 : double_rotate d s (some g) = some (s2, some x) := by
    cases d <;> simp only [Bool.not_false, Bool.not_true] at e1 <;>
      simp only [double_rotate, get_child, deref, hgm, bind, Option.bind, root_mk, e1, e2,
        Bool.not_false, Bool.not_true, ↓reduceIte, Bool.true_eq_false]
  have hxm := lookup_mk r2
  have hgm2 := lookup_mk (show Rep s2 (plug ((⟨x, BLACK, vx, d, mk d p RED C vp D⟩ :
    Frame Key) :: ctx) (mk d g RED A vg B)) from r2)
  have hpm2 := lookup_mk (show Rep s2 (plug ((⟨x, BLACK, vx, !d, mk d g RED A vg B⟩ :
    Frame Key) :: ctx) (mk d p RED C vp D)) from r2.cast (by cases d <;> rfl))
  refine ⟨s1, s2, _, _, _, _, hgm, e1, e2, e3, hxm, rfl, rfl, ?_, ?_, hpm2, rfl, rfl, hgm2, rfl,
    rfl, ?_, ?_⟩
  · cases d <;> simp
  · cases d <;> simp
  · intro hpar
    cases ctx with
    | nil => rw [r2.root]; simp [plug]
    | cons f ctx => cases hpar
  · intro a hpar
    cases ctx with
    | nil => cases hpar
    | cons f ctx =>
      simp only [cpar, Option.some.injEq] at hpar
      have hf := lookup_mk (show Rep s2 (plug ctx (mk f.dir f.id f.c
        (mk d x BLACK (mk d g RED A vg B) vx (mk d p RED C vp D)) f.v f.sib)) from r2)
      rw [hpar] at hf
      refine ⟨_, hf, ?_⟩
      rcases f with ⟨fi, fc, fv, fd, fs⟩
      cases fd <;> simp

end taapp

namespace taapp
variable {Key : Type}
open NodeTree

/-! ## The two branches of `operator++` -/

theorem leftmost_of_RepT {s : set Key} {t : NodeTree Key} :
    ∀ {par : Option Nat} {a : Nat}, RepT s.mem par t → t.root = some a →
      ∃ b, Leftmost s a b ∧ t.nodes.head?.map Prod.fst = some b := by
  induction t with
  | nil =>
    intro par a _ hr
    cases hr
  | node i c l v r ihl _ =>
    intro par a h hr
    simp only [root_node, Option.some.injEq] at hr
    subst hr
    cases l with
    | nil => exact ⟨i, Leftmost.stop h.1 rfl, by simp [nodes]⟩
    | node j cj jl jv jr =>
      obtain ⟨b, hb, hh⟩ := ihl h.2.1 rfl
      refine ⟨b, Leftmost.step h.1 rfl hb, ?_⟩
      simp only [nodes] at hh ⊢
      cases hjl : jl.nodes <;> simp [hjl] at hh ⊢ <;> exact hh

theorem ascent_of_RepC {s : set Key} {ctx : List (Frame Key)} :
    ∀ {a : Nat} {n : rbnode Key}, RepC s.mem ctx (some a) → s.mem a = some n →
      n.parent = cpar ctx → (a :: cids ctx).Nodup →
      Ascent s a ((ctxAfter ctx).head?.map Prod.fst) := by
  induction ctx with
  | nil =>
    intro a n _ hn hp _
    exact Ascent.top hn hp
  | cons f ctx ih =>
    intro a n h hn hp hnd
    have hnd1 : (a :: f.id :: (f.sib.ids ++ cids ctx)).Nodup :=
      (List.Perm.cons a (cids_perm f ctx)).nodup_iff.1 hnd
    simp only [List.nodup_cons, List.mem_cons, List.mem_append, not_or] at hnd1
    obtain ⟨⟨haf, hasib, hactx⟩, ⟨hfsib, hfctx⟩, hrest⟩ := hnd1
    have hrec := ih h.2.2 h.1 rfl (List.nodup_cons.2 ⟨hfctx, (List.nodup_append.1 hrest).2.1⟩)
    have hf := h.1
    rcases f with ⟨i, c, v, d, sib⟩
    cases d
    · simp only [ctxAfter, LEFT, ↓reduceIte, List.cons_append, List.head?_cons,
        Option.map_some']
      exact Ascent.found hn hp hf (by simp)
    · have hsr : sib.root ≠ some a := root_ne_of_not_mem hasib
      simp only [ctxAfter, LEFT, Bool.true_eq_false, ↓reduceIte, List.nil_append]
      exact Ascent.up hn hp hf (by simpa using hsr) hrec

end taapp

namespace taapp
variable {Key : Type}
open NodeTree

/-- C36: in a well-linked tree with the right `size_`, for a node `x` (record
`xn`): the in-order sequence of the nodes is `pre ++ (x, key) :: post`, and
`operator++` on an iterator at `x` returns (so its loops terminate) the node
that follows `x` in it, null if none follows.  If `x` has a right child this
is the leftmost node below that child; otherwise it is the first ancestor that
is entered from its left child on the way up, null if there is none.  In a
search tree (the in-order keys increase strictly) the key of the node returned
is greater than the key of `x`, and if no key of the tree is greater than the
key of `x`, the result is `end()`. -/
theorem increment_is_successor (lt : Key → Key → Bool) (s : set Key) (T : NodeTree Key)
    (h : Model s T) (x : Nat) (xn : rbnode Key) (hx : IsNode s x) (hxn : s.mem x = some xn) :
    ∃ pre post, InorderN s s.root_ (pre ++ (x, xn.value) :: post) ∧
      increment s (some x) = some (post.head?.map Prod.fst) ∧
      (∀ r0, xn.right = some r0 →
        ∃ y, Leftmost s r0 y ∧ post.head?.map Prod.fst = some y) ∧
      (xn.right = none → Ascent s x (post.head?.map Prod.fst)) ∧
      (Sorted lt ((pre ++ (x, xn.value) :: post).map Prod.snd) →
        (∀ y, post.head? = some y → lt xn.value y.2 = true) ∧
        ((∀ y ∈ pre ++ (x, xn.value) :: post, lt xn.value y.2 = false) →
          increment s (some x) = some (end_ s))) := by
  obtain ⟨ctx, c, l, v, r, rfl⟩ := node_decomp h.rep hx
  have hl := h.rep.lookup
  have e := hl.symm.trans hxn
  simp only [Option.some.injEq] at e
  subst e
  have hinc := increment_spec h.rep h.size
  have hin := InorderN_of_RepT h.rep.tree
  rw [← h.rep.root, plug_nodes] at hin
  have ht := (RepT_plug ctx _).1 h.rep.tree
  refine ⟨ctxBefore ctx ++ l.nodes, r.nodes ++ ctxAfter ctx, ?_, hinc, ?_, ?_, ?_⟩
  · simpa [nodes, List.append_assoc] using hin
  · intro r0 hr0
    obtain ⟨b, hb, hh⟩ := leftmost_of_RepT ht.2.2.2 hr0
    refine ⟨b, hb, ?_⟩
    cases hrn : r.nodes with
    | nil => rw [hrn] at hh; cases hh
    | cons y ys => rw [hrn] at hh; simpa using hh
  · intro hr0
    have hr : r = nil := by
      cases r with
      | nil => rfl
      | node => cases hr0
    subst hr
    have hnd := plug_nodup.1 h.rep.nodup
    simp only [ids_node, ids_nil, List.append_assoc, List.cons_append, List.nil_append]
      at hnd
    have hnd2 : (x :: cids ctx).Nodup := (List.nodup_append.1 hnd).2.1
    simpa [nodes] using ascent_of_RepC ht.1 hl rfl hnd2
  · intro hs
    have hpw : ((x, v) :: (r.nodes ++ ctxAfter ctx)).Pairwise
        (fun a b : Nat × Key => lt a.2 b.2 = true) := by
      unfold Sorted at hs
      rw [List.pairwise_map] at hs
      exact (List.pairwise_append.1 hs).2.1
    have hgt : ∀ y ∈ r.nodes ++ ctxAfter ctx, lt v y.2 = true :=
      (List.pairwise_cons.1 hpw).1
    refine ⟨fun y hy => hgt y (List.mem_of_mem_head? hy), fun hmax => ?_⟩
    rw [hinc]
    cases hp : r.nodes ++ ctxAfter ctx with
    | nil => rfl
    | cons y ys =>
      have h1 := hgt y (by rw [hp]; simp)
      have hy : y ∈ r.nodes ++ ctxAfter ctx := by rw [hp]; simp
      have h2 := hmax y (List.mem_append_right _ (List.mem_cons_of_mem _ hy))
      rw [h1] at h2
      cases h2

end taapp

namespace taapp
variable {Key : Type}
open NodeTree

/-! ## The part of `erase(iterator)` before the rebalancing block -/

/-- Source function `erase(iterator)`: its unlinking part is `erase_detach` followed by the
rebalancing block. -/
theorem erase_unlink_detach (s : set Key) (n : Option Nat) :
    erase_unlink s n =
      match erase_detach s n with
      | none => none
      | some st => erase_rebalance st.1 st.2.1 st.2.2.1 st.2.2.2 := by
  unfold erase_unlink erase_detach
  dsimp only
  cases deref s n with
  | none => rfl
  | some rn =>
    dsimp only
    cases (if rn.left = none then some (s, n, rn.parent, rn.right, rn.color)
        else if rn.right ≠ none then erase_splice s n rn.parent rn.left
        else some (s, n, rn.parent, rn.left, rn.color)) with
    | none => rfl
    | some st =>
      dsimp only
      cases replace_child st.1 st.2.2.1 st.2.1 st.2.2.2.1 with
      | none => rfl
      | some s1 =>
        dsimp only
        cases (if st.2.2.2.1 ≠ none then set_parent s1 st.2.2.2.1 st.2.2.1 else some s1) <;> rfl

theorem ctxBefore_left {cr : List (Frame Key)} (h : ∀ f ∈ cr, f.dir = LEFT) :
    ctxBefore cr = [] := by
  induction cr with
  | nil => rfl
  | cons f cr ih =>
    have hf := h f (by simp)
    simp only [ctxBefore, hf, ↓reduceIte, List.append_nil]
    exact ih (fun g hg => h g (List.mem_cons_of_mem _ hg))

/-- Refinement of `erase_detach`: the node is taken out of the tree, and the
locals `parent`, `child` and `color` describe the gap. -/
theorem erase_detach_spec {s : set Key} {ctx : List (Frame Key)} {n : Nat} {c : Bool}
    {l : NodeTree Key} {v : Key} {r : NodeTree Key} (h : Rep s (plug ctx (node n c l v r)))
    (hsz : s.size_ = (plug ctx (node n c l v r)).ids.length) :
    ∃ s1, erase_detach s (some n) =
        some (s1, cpar (eraPos ctx (node n c l v r)).1, (eraPos ctx (node n c l v r)).2.1.root,
          (eraPos ctx (node n c l v r)).2.2) ∧
      Rep s1 (plug (eraPos ctx (node n c l v r)).1 (eraPos ctx (node n c l v r)).2.1) ∧
      s1.size_ = s.size_ ∧ s1.next = s.next := by
  have hn := h.lookup
  have hlen0 := plug_length ctx (node n c l v r)
  cases l with
  | nil =>
    obtain ⟨s1, s2, e1, e2, r2, z2, m2⟩ := transplant_spec (e := RIGHT) (X := r)
      (show Rep s (plug ctx (mk RIGHT n c r v nil)) from h)
    refine ⟨s2, ?_, by simpa [eraPos] using r2, z2, m2⟩
    simp only [erase_detach, deref, hn, root_nil, ↓reduceIte, e1, e2, eraPos]
  | node li lc ll lv lr =>
    cases r with
    | nil =>
      obtain ⟨s1, s2, e1, e2, r2, z2, m2⟩ := transplant_spec (e := LEFT)
        (X := node li lc ll lv lr)
        (show Rep s (plug ctx (mk LEFT n c (node li lc ll lv lr) v nil)) from h)
      refine ⟨s2, ?_, by simpa [eraPos] using r2, z2, m2⟩
      simp only [root_node, ne_eq, reduceCtorEq, not_false_eq_true, ↓reduceIte] at e1 e2
      simp only [erase_detach, deref, hn, root_nil, root_node, reduceCtorEq, ↓reduceIte,
        ne_eq, not_true_eq_false, not_false_eq_true, e1, e2, eraPos]
    | node ri rc rl rv rr =>
      obtain ⟨si, sc, sv, sr, cr, hz, hp, hd⟩ := zoomMin_spec (node ri rc rl rv rr) (by simp) []
      simp only [List.append_nil] at hz
      have hpos : eraPos ctx (node n c (node li lc ll lv lr) v (node ri rc rl rv rr)) =
          (cr ++ (⟨si, c, sv, RIGHT, node li lc ll lv lr⟩ : Frame Key) :: ctx, sr, sc) := by
        simp only [eraPos, hz]
      rw [hpos]
      simp only
      have hfuel : (node ri rc rl rv rr).height ≤ s.size_ + 1 := by
        have h1 := height_le_length (node ri rc rl rv rr)
        simp only [ids_node, List.length_append, List.length_cons] at hlen0 h1
        omega
      cases cr with
      | nil =>
        simp only [plug] at hp
        rw [hp] at h hn
        obtain ⟨s1, s2, s3, e1, e2, e3, r3, z3, m3⟩ := splice_direct h (by simp)
        refine ⟨s3, ?_, r3, z3, m3⟩
        simp only [root_node] at e1
        have hc : cpar ([] ++ (⟨si, c, sv, RIGHT, node li lc ll lv lr⟩ : Frame Key) :: ctx) =
            some si := rfl
        rw [hc]
        simp only [erase_detach, deref, hn, root_node, reduceCtorEq, ↓reduceIte, ne_eq,
          not_false_eq_true, e1, e2, e3]
      | cons f1 cr =>
        rw [hp] at h hn hfuel
        obtain ⟨s1, s2, s3, e1, e2, e3, r3, z3, m3⟩ := splice_far h (by simp) hd hfuel
        have r3' : Rep s3 (plug ((f1 :: cr) ++
            (⟨si, c, sv, RIGHT, node li lc ll lv lr⟩ : Frame Key) :: ctx) sr) := by
          rw [plug_append]; exact r3
        refine ⟨s3, ?_, r3', z3, m3⟩
        simp only [root_node] at e1
        obtain ⟨r0, hr0⟩ := croot_cons f1 cr (some si)
        simp only [plug_root, root_node, hr0] at hn
        have hc : cpar ((f1 :: cr) ++
            (⟨si, c, sv, RIGHT, node li lc ll lv lr⟩ : Frame Key) :: ctx) = some f1.id := rfl
        rw [hc]
        simp only [erase_detach, deref, hn, root_node, reduceCtorEq, ↓reduceIte, ne_eq,
          not_false_eq_true, e1, e2, e3]

end taapp

namespace taapp
variable {Key : Type}
open NodeTree

/-- The tree-level content of C37: the successor of a node with two children is
the leftmost node of its right subtree, and `erase_detach` puts it in the
place of the node. -/
theorem detach_two_children {s : set Key} {ctx : List (Frame Key)} {n : Nat} {c : Bool}
    {L : NodeTree Key} {v : Key} {R : NodeTree Key} (h : Model s (plug ctx (node n c L v R)))
    (hL : L ≠ nil) (hR : R ≠ nil) :
    ∃ si sc sv sr cr s1, R = plug cr (node si sc nil sv sr) ∧ (∀ f ∈ cr, f.dir = LEFT) ∧
      increment s (some n) = some (some si) ∧
      s.mem si = some ⟨sv, sc, cpar (cr ++ (⟨n, c, v, RIGHT, L⟩ : Frame Key) :: ctx), none,
        sr.root⟩ ∧
      erase_detach s (some n) =
        some (s1, cpar (cr ++ (⟨si, c, sv, RIGHT, L⟩ : Frame Key) :: ctx), sr.root, sc) ∧
      Rep s1 (plug (cr ++ (⟨si, c, sv, RIGHT, L⟩ : Frame Key) :: ctx) sr) ∧
      Rep s1 (plug ctx (node si c L sv (plug cr sr))) ∧ s1.size_ = s.size_ ∧
      s1.next = s.next := by
  obtain ⟨si, sc, sv, sr, cr, hz, hp, hd⟩ := zoomMin_spec R hR []
  simp only [List.append_nil] at hz
  obtain ⟨li, lc, ll, lv, lr, rfl⟩ : ∃ li lc ll lv lr, L = node li lc ll lv lr := by
    cases L with
    | nil => exact absurd rfl hL
    | node li lc ll lv lr => exact ⟨li, lc, ll, lv, lr, rfl⟩
  obtain ⟨ri, rc, rl, rv, rr, hRn⟩ : ∃ ri rc rl rv rr, R = node ri rc rl rv rr := by
    cases R with
    | nil => exact absurd rfl hR
    | node ri rc rl rv rr => exact ⟨ri, rc, rl, rv, rr, rfl⟩
  have hpos : eraPos ctx (node n c (node li lc ll lv lr) v R) =
      (cr ++ (⟨si, c, sv, RIGHT, node li lc ll lv lr⟩ : Frame Key) :: ctx, sr, sc) := by
    rw [hRn] at hz ⊢
    simp only [eraPos, hz]
  obtain ⟨s1, e1, r1, z1, m1⟩ := erase_detach_spec h.rep h.size
  rw [hpos] at e1 r1
  simp only at e1 r1
  have hinc := increment_spec h.rep h.size
  have hnodes : R.nodes = (si, sv) :: (sr.nodes ++ ctxAfter cr) := by
    rw [hp, plug_nodes, ctxBefore_left hd]
    simp [nodes]
  rw [hnodes] at hinc
  simp only [List.cons_append, List.head?_cons, Option.map_some'] at hinc
  have hS : Rep s (plug (cr ++ (⟨n, c, v, RIGHT, node li lc ll lv lr⟩ : Frame Key) :: ctx)
      (node si sc nil sv sr)) := by
    rw [plug_append]
    have := h.rep
    rw [hp] at this
    exact this
  refine ⟨si, sc, sv, sr, cr, s1, hp, hd, hinc, hS.lookup, e1, r1, ?_, z1, m1⟩
  rw [plug_append] at r1
  exact r1

/-- C37: in a well-linked tree with the right `size_`, for a node `n` (record
`nn`) with two children whose in-order successor (the result of `operator++`)
is the node `su` (record `sn`): the part of `erase` before the rebalancing
block returns, and hands the original colour and the original right child of
`su` to the rebalancing block, with `parent` being `su` itself if `su` is the
right child of `n` and the original parent of `su` otherwise.  Afterwards the
node `su` holds its own key, the colour, the parent and the left child of `n`,
and as right child its own original right child if it is the right child of
`n`, the right child of `n` otherwise; none of its three links refers to `su`
itself; the parent of `n` (or `root_`) refers to `su` where it referred to `n`;
the children of `su` have the parent `su`, the child handed to the rebalancing
block has the parent `parent`, and the original parent of `su`, if it is not
`n`, has that child as its left child. -/
theorem erase_splices_successor (s : set Key) (T : NodeTree Key) (h : Model s T) (n su : Nat)
    (nn sn : rbnode Key) (hn : IsNode s n) (hnn : s.mem n = some nn) (hl : nn.left ≠ none)
    (hr : nn.right ≠ none) (hsu : increment s (some n) = some (some su))
    (hsn : s.mem su = some sn) :
    ∃ s1 parent sn1,
      erase_detach s (some n) = some (s1, parent, sn.right, sn.color) ∧
      erase_unlink s (some n) = erase_rebalance s1 parent sn.right sn.color ∧
      parent = (if nn.right = some su then some su else sn.parent) ∧
      s1.mem su = some sn1 ∧
      sn1 = { value := sn.value, color := nn.color, parent := nn.parent, left := nn.left,
              right := if nn.right = some su then sn.right else nn.right } ∧
      sn1.left ≠ some su ∧ sn1.right ≠ some su ∧ sn1.parent ≠ some su ∧
      (nn.parent = none → s1.root_ = some su) ∧
      (∀ g gn, nn.parent = some g → s.mem g = some gn →
        s1.mem g = some (if gn.left = some n then { gn with left := some su }
                         else { gn with right := some su })) ∧
      (∀ a, (sn1.left = some a ∨ sn1.right = some a) →
        ∃ an, s1.mem a = some an ∧ an.parent = some su) ∧
      (∀ a, sn.right = some a → ∃ an, s1.mem a = some an ∧ an.parent = parent) ∧
      (nn.right ≠ some su → ∀ q, sn.parent = some q →
        ∃ qn, s1.mem q = some qn ∧ qn.left = sn.right) := by
  obtain ⟨ctx, c, L, v, R, rfl⟩ := node_decomp h.rep hn
  have hl0 := h.rep.lookup
  have e := hl0.symm.trans hnn
  simp only [Option.some.injEq] at e
  subst e
  have hL : L ≠ nil := by rintro rfl; exact hl rfl
  have hR : R ≠ nil := by rintro rfl; exact hr rfl
  obtain ⟨si, sc, sv, sr, cr, s1, hp, hd, hinc, hsm, e1, r1, r1', z1, -⟩ :=
    detach_two_children h hL hR
  have esu : su = si := by
    have := hinc.symm.trans hsu
    simpa using this.symm
  subst esu
  have e := hsm.symm.trans hsn
  simp only [Option.some.injEq] at e
  subst e
  have hsm1 := r1'.lookup
  have hnd1 := plug_nodup.1 r1'.nodup
  simp only [ids_node, List.append_assoc, List.cons_append] at hnd1
  have hnd2 : (L.ids ++ su :: (plug cr sr).ids).Nodup := by
    have := (List.nodup_append.1 (by simpa [List.append_assoc] using hnd1 :
      ((L.ids ++ su :: (plug cr sr).ids) ++ cids ctx).Nodup)).1
    exact this
  have hsuL : su ∉ L.ids := by
    have := List.nodup_middle.1 hnd2
    exact fun hm => (List.nodup_cons.1 this).1 (List.mem_append_left _ hm)
  have hsuR : su ∉ (plug cr sr).ids := by
    have := List.nodup_middle.1 hnd2
    exact fun hm => (List.nodup_cons.1 this).1 (List.mem_append_right _ hm)
  have hsuC : su ∉ cids ctx := by
    intro hm
    have := (List.nodup_append.1 (by simpa [List.append_assoc] using hnd1 :
      ((L.ids ++ su :: (plug cr sr).ids) ++ cids ctx).Nodup)).2.2
    exact this (by simp) hm
  -- the right child of the successor afterwards
  have hright : (plug cr sr).root =
      if (plug cr (node su sc nil sv sr)).root = some su then sr.root
      else (plug cr (node su sc nil sv sr)).root := by
    cases cr with
    | nil => simp [plug]
    | cons f1 cr =>
      have hne : (plug (f1 :: cr) (node su sc nil sv sr)).root ≠ some su := by
        rw [plug_root, croot_cons_eq f1 cr _ sr.root, ← plug_root]
        exact root_ne_of_not_mem hsuR
      rw [if_neg hne, plug_root, plug_root]
      rfl
  have hparent : cpar (cr ++ (⟨su, c, sv, RIGHT, L⟩ : Frame Key) :: ctx) =
      if (plug cr (node su sc nil sv sr)).root = some su then some su
      else cpar (cr ++ (⟨n, c, v, RIGHT, L⟩ : Frame Key) :: ctx) := by
    cases cr with
    | nil => simp [plug, cpar]
    | cons f1 cr =>
      have hne : (plug (f1 :: cr) (node su sc nil sv sr)).root ≠ some su := by
        rw [plug_root, croot_cons_eq f1 cr _ sr.root, ← plug_root]
        exact root_ne_of_not_mem hsuR
      rw [if_neg hne]
      rfl
  rw [hp] at hl0 hnn hr ⊢
  refine ⟨s1, _, _, e1, ?_, hparent, hsm1, ?_, ?_, ?_, ?_, ?_, ?_, ?_, ?_, ?_⟩
  · rw [erase_unlink_detach, e1]
  · simp only [rbnode.mk.injEq, true_and]
    exact hright
  · exact root_ne_of_not_mem hsuL
  · exact root_ne_of_not_mem hsuR
  · intro hpar
    cases ctx with
    | nil => cases hpar
    | cons f ctx =>
      simp only [cpar, Option.some.injEq] at hpar
      exact hsuC ((cids_cons f ctx su).2 (Or.inl hpar.symm))
  · intro hpar
    cases ctx with
    | nil => rw [r1'.root]; rfl
    | cons f ctx => cases hpar
  · intro g gn hg hgn
    cases ctx with
    | nil => cases hg
    | cons f ctx =>
      simp only [cpar, Option.some.injEq] at hg
      have h0 : Rep s (plug (f :: ctx) (node n c L v R)) := h.rep
      have hf := lookup_mk (show Rep s (plug ctx (mk f.dir f.id f.c
        (node n c L v R) f.v f.sib)) from h0)
      have hf1 := lookup_mk (show Rep s1 (plug ctx (mk f.dir f.id f.c
        (node su c L sv (plug cr sr)) f.v f.sib)) from r1')
      have hne : f.sib.root ≠ some n := by
        have := sib_root_ne h0 (by simp)
        simpa using this
      rw [hg] at hf hf1
      have eg := hf.symm.trans hgn
      simp only [Option.some.injEq] at eg
      subst eg
      rw [hf1]
      rcases f with ⟨fi, fc, fv, fd, fs⟩
      cases fd
      · simp
      · simp only at hne
        simp [hne]
  · intro a ha
    simp only at ha
    rcases ha with ha | ha
    · obtain ⟨m, hm, hpm, -⟩ := child_facts ((RepT_plug ctx _).1 r1'.tree).2.2.1 ha
      exact ⟨m, hm, hpm⟩
    · obtain ⟨m, hm, hpm, -⟩ := child_facts ((RepT_plug ctx _).1 r1'.tree).2.2.2 ha
      exact ⟨m, hm, hpm⟩
  · intro a ha
    simp only at ha
    obtain ⟨m, hm, hpm, -⟩ := child_facts ((RepT_plug _ _).1 r1.tree).2 ha
    exact ⟨m, hm, hpm⟩
  · intro hne q hq
    cases cr with
    | nil => exact absurd (by simp [plug]) hne
    | cons f1 cr =>
      simp only [List.cons_append, cpar, Option.some.injEq] at hq
      have hf1 := lookup_mk (show Rep s1 (plug (cr ++ (⟨su, c, sv, RIGHT, L⟩ : Frame Key) :: ctx)
        (mk f1.dir f1.id f1.c sr f1.v f1.sib)) from r1)
      rw [hq, hd f1 (by simp)] at hf1
      exact ⟨_, hf1, by simp⟩

end taapp

namespace taapp
variable {Key : Type}
open NodeTree

/-! ## Case 5 and 6 of `balance_erase` (claim C38) -/

theorem Bal_mk (d : Bool) (i : Nat) (c : Bool) (a : NodeTree Key) (v : Key)
    (b : NodeTree Key) : Bal (mk d i c a v b) ↔ Bal a ∧ Bal b ∧ bh a = bh b := by
  cases d
  · simp only [NodeTree.mk, Bal, LEFT, ↓reduceIte]
  · simp only [NodeTree.mk, Bal, LEFT, Bool.true_eq_false, ↓reduceIte]
    exact ⟨fun ⟨x, y, e⟩ => ⟨y, x, e.symm⟩, fun ⟨x, y, e⟩ => ⟨y, x, e.symm⟩⟩

theorem bh_mk (d : Bool) (i : Nat) (c : Bool) (a : NodeTree Key) (v : Key)
    (b : NodeTree Key) (h : bh a = bh b) :
    bh (mk d i c a v b) = bh a + (if c = BLACK then 1 else 0) := by
  cases d
  · simp only [NodeTree.mk, bh, LEFT, ↓reduceIte]
  · simp only [NodeTree.mk, bh, LEFT, Bool.true_eq_false, ↓reduceIte, h]

theorem recolor_mk (d : Bool) (x : Nat) (c0 c : Bool) (a : NodeTree Key) (v : Key)
    (b : NodeTree Key) :
    (((mk d x c0 a v b).paint c).setChild LEFT (((mk d x c0 a v b).child LEFT).paint BLACK)).setChild
      RIGHT (((mk d x c0 a v b).child RIGHT).paint BLACK) =
      mk d x c (a.paint BLACK) v (b.paint BLACK) := by
  cases d <;> rfl

/-- Case 5 and 6 of `balance_erase` on trees: with a BLACK sibling that has a
RED child, the new root of the subtree is the sibling if the far nephew is RED
and the near nephew otherwise, it gets the colour of the parent, its children
are BLACK nodes, and the black heights are restored. -/
theorem balEB_red_child (d : Bool) (i : Nat) (c : Bool) (v : Key) (t sib : NodeTree Key)
    (hbt : Bal t) (hbs : Bal sib) (hh : bh sib = bh t + 1) (hblack : sib.isRed = false)
    (hred : (sib.child d).isRed = true ∨ (sib.child (!d)).isRed = true) :
    ∃ u, balEB d i c v t sib = (u, true) ∧
      u.root = (if (sib.child (!d)).isRed then sib.root else (sib.child d).root) ∧
      u.isRed = c ∧ u.child LEFT ≠ nil ∧ u.child RIGHT ≠ nil ∧
      (u.child LEFT).isRed = false ∧ (u.child RIGHT).isRed = false ∧
      u.nodes = (mk d i c t v sib).nodes ∧
      Bal u ∧ bh u = bh sib + (if c = BLACK then 1 else 0) := by
  have hsn : sib ≠ nil := by
    rintro rfl
    simp [child] at hred
  obtain ⟨si, sc, N, sv, F, rfl⟩ := exists_mk_of_ne_nil d hsn
  simp only [isRed_mk] at hblack
  subst hblack
  simp only [child_mk_self, child_mk_other] at hred ⊢
  obtain ⟨hbN, hbF, hNF⟩ := (Bal_mk _ _ _ _ _ _).1 hbs
  rw [bh_mk _ _ _ _ _ _ hNF] at hh ⊢
  simp only [BLACK, ↓reduceIte] at hh
  cases hF : F.isRed
  · -- the far nephew is not RED: double rotation
    simp only [hF, Bool.false_eq_true, or_false] at hred
    obtain ⟨ni, N1, nv, N2, rfl⟩ := exists_mk_of_isRed d hred
    obtain ⟨hb1, hb2, h12⟩ := (Bal_mk _ _ _ _ _ _).1 hbN
    rw [bh_mk _ _ _ _ _ _ h12] at hNF hh ⊢
    simp only [RED, BLACK, Bool.true_eq_false, ↓reduceIte, Nat.add_zero] at hNF hh ⊢
    have e := balEB_drot d i c v t si BLACK ni N1 nv N2 sv F hF
    rw [recolor_mk, paint_mk, paint_mk] at e
    have hI : Bal (mk d i BLACK t v N1) := (Bal_mk _ _ _ _ _ _).2 ⟨hbt, hb1, by omega⟩
    have hS : Bal (mk d si BLACK N2 sv F) := (Bal_mk _ _ _ _ _ _).2 ⟨hb2, hbF, by omega⟩
    have hIS : bh (mk d i BLACK t v N1) = bh (mk d si BLACK N2 sv F) := by
      rw [bh_mk _ _ _ _ _ _ (by omega : bh t = bh N1),
        bh_mk _ _ _ _ _ _ (by omega : bh N2 = bh F)]
      omega
    refine ⟨_, e, by simp, by simp, ?_, ?_, ?_, ?_, ?_, (Bal_mk _ _ _ _ _ _).2 ⟨hI, hS, hIS⟩, ?_⟩
    · cases d <;> simp [NodeTree.mk, child]
    · cases d <;> simp [NodeTree.mk, child]
    · cases d <;> simp [NodeTree.mk, child]
    · cases d <;> simp [NodeTree.mk, child]
    · simp only [nodes_mk]
      cases d <;> simp
    · rw [bh_mk _ _ _ _ _ _ hIS, bh_mk _ _ _ _ _ _ (by omega : bh t = bh N1)]
      simp only [BLACK, ↓reduceIte]
      omega
  · -- the far nephew is RED: single rotation
    obtain ⟨fi, F1, fv, F2, rfl⟩ := exists_mk_of_isRed d hF
    obtain ⟨hb1, hb2, h12⟩ := (Bal_mk _ _ _ _ _ _).1 hbF
    rw [bh_mk _ _ _ _ _ _ h12] at hNF
    simp only [RED, BLACK, Bool.true_eq_false, ↓reduceIte, Nat.add_zero] at hNF
    have e := balEB_rot d i c v t si BLACK N sv _ hF
    rw [recolor_mk, paint_mk, paint_mk] at e
    have hI : Bal (mk d i BLACK t v N) := (Bal_mk _ _ _ _ _ _).2 ⟨hbt, hbN, by omega⟩
    have hS : Bal (mk d fi BLACK F1 fv F2) := (Bal_mk _ _ _ _ _ _).2 ⟨hb1, hb2, h12⟩
    have hIS : bh (mk d i BLACK t v N) = bh (mk d fi BLACK F1 fv F2) := by
      rw [bh_mk _ _ _ _ _ _ (by omega : bh t = bh N), bh_mk _ _ _ _ _ _ h12]
      omega
    refine ⟨_, e, by simp, by simp, ?_, ?_, ?_, ?_, ?_, (Bal_mk _ _ _ _ _ _).2 ⟨hI, hS, hIS⟩, ?_⟩
    · cases d <;> simp [NodeTree.mk, child]
    · cases d <;> simp [NodeTree.mk, child]
    · cases d <;> simp [NodeTree.mk, child]
    · cases d <;> simp [NodeTree.mk, child]
    · simp only [nodes_mk]
      cases d <;> simp
    · rw [bh_mk _ _ _ _ _ _ hIS, bh_mk _ _ _ _ _ _ (by omega : bh t = bh N)]
      simp only [BLACK, ↓reduceIte]
      omega

/-- C38: a parent `i` of colour `c` whose subtree `t` on the side `d` has black
height one less than its sibling `sib`, the sibling being BLACK with a RED
child: `balance_erase<d>(i, t)` returns `root_`, so the loop of `erase` stops
after this call; it rotates at `i`, once if the far nephew is RED and twice
otherwise, so the new root of the subtree is the sibling or the near nephew;
the new root has the colour `c` and two BLACK children that are nodes; the
in-order keys are as before; and in the new subtree every path to a null link
passes the number of BLACK nodes that the paths through the sibling passed
before, which is the count before the deletion. -/
theorem balance_erase_restores_black_count (d : Bool) (s : set Key) (ctx : List (Frame Key))
    (i : Nat) (c : Bool) (v : Key) (t sib : NodeTree Key)
    (h : Rep s (plug ctx (NodeTree.mk d i c t v sib)))
    (hbt : Bal t) (hbs : Bal sib) (hh : bh sib = bh t + 1) (hblack : sib.isRed = false)
    (hred : (sib.child d).isRed = true ∨ (sib.child (!d)).isRed = true) :
    ∃ s1 u, balance_erase d s (some i) t.root = some (s1, s1.root_) ∧
      Rep s1 (plug ctx u) ∧
      (∀ fuel, erase_loop (fuel + 1) s (some i) t.root = some s1) ∧
      u.root = (if (sib.child (!d)).isRed then sib.root else (sib.child d).root) ∧
      (∃ s0, (if (sib.child (!d)).isRed then rotate d s (some i)
              else double_rotate d s (some i)) = some (s0, u.root)) ∧
      u.isRed = c ∧ u.child LEFT ≠ nil ∧ u.child RIGHT ≠ nil ∧
      (u.child LEFT).isRed = false ∧ (u.child RIGHT).isRed = false ∧
      u.keys = (NodeTree.mk d i c t v sib).keys ∧
      Bal u ∧ bh u = bh sib + (if c = BLACK then 1 else 0) ∧
      (∀ k, BlackPath s1 u.root k ↔ k = bh sib + (if c = BLACK then 1 else 0)) ∧
      (∀ k, BlackPath s sib.root k → BlackPath s (some i) (k + (if c = BLACK then 1 else 0))) := by
  obtain ⟨u, eu, hroot, hc, hl, hr, hlr, hrr, hnodes, hbu, hbh⟩ :=
    balEB_red_child d i c v t sib hbt hbs hh hblack hred
  have hsn : sib ≠ nil := by
    rintro rfl
    simp [child] at hred
  have hf : Rep s (plug ((⟨i, c, v, d, sib⟩ : Frame Key) :: ctx) t) := h
  obtain ⟨s1, ret, e1, r1, hret, -, -⟩ := balance_erase_spec hf hsn
  have hE : balE (⟨i, c, v, d, sib⟩ : Frame Key) t = (u, true) := by
    obtain ⟨si, sc, N, sv, F, rfl⟩ := exists_mk_of_ne_nil LEFT hsn
    simp only [isRed_mk] at hblack
    subst hblack
    simp only [balE, NodeTree.mk, LEFT, ↓reduceIte, Bool.false_eq_true]
    exact eu
  rw [hE] at r1 hret
  simp only [↓reduceIte] at r1 hret
  subst hret
  have hfm := lookup_mk h
  have hune : u ≠ nil := by
    rintro rfl
    exact hl rfl
  have hloop : ∀ fuel, erase_loop (fuel + 1) s (some i) t.root = some s1 := by
    intro fuel
    have hdir : (if (if d = LEFT then t.root else sib.root) = t.root
        then balance_erase LEFT s (some i) t.root
        else balance_erase RIGHT s (some i) t.root) =
        balance_erase d s (some i) t.root := by
      have := sib_root_ne' hf hsn
      cases d
      · simp
      · simp only at this
        simp [this]
    obtain ⟨n2, hn2, hp2, -⟩ := lookup_root
      (show Rep _ (plug [] (plug ctx u)) from r1) (plug_ne_nil hune)
    rw [← r1.root] at hn2
    simp only [erase_loop, hfm, hdir, e1, hn2, hp2, cpar]
  have hrot : ∃ s0, (if (sib.child (!d)).isRed then rotate d s (some i)
      else double_rotate d s (some i)) = some (s0, u.root) := by
    obtain ⟨si, sc, N, sv, F, rfl⟩ := exists_mk_of_ne_nil d hsn
    simp only [child_mk_self, child_mk_other, root_mk] at hroot hred ⊢
    cases hF : F.isRed
    · simp only [hF, Bool.false_eq_true, or_false, ↓reduceIte] at hred hroot ⊢
      obtain ⟨ni, N1, nv, N2, rfl⟩ := exists_mk_of_isRed d hred
      obtain ⟨s0, e0, -⟩ := double_rotate_spec d h
      exact ⟨s0, by rw [e0, hroot, root_mk]⟩
    · simp only [hF, ↓reduceIte] at hroot ⊢
      obtain ⟨s0, e0, -⟩ := rotate_spec d h
      exact ⟨s0, by rw [e0, hroot]⟩
  have hu : RepT s1.mem (cpar ctx) u := ((RepT_plug ctx u).1 r1.tree).2
  have hsib : RepT s.mem (some i) sib := by
    have := ((RepT_plug ctx _).1 h.tree).2
    rw [RepT_mk] at this
    exact this.2.2
  refine ⟨s1, u, e1, r1, hloop, hroot, hrot, hc, hl, hr, hlr, hrr, ?_, hbu, hbh, ?_, ?_⟩
  · simp only [keys, hnodes]
  · intro k
    constructor
    · intro hk
      rw [BlackPath_eq hu hbu hk, hbh]
    · rintro rfl
      rw [← hbh]
      exact BlackPath_bh hu
  · intro k hk
    cases d
    · have := BlackPath.right hfm (by simpa using hk)
      simpa using this
    · have := BlackPath.left hfm (by simpa using hk)
      simpa using this

end taapp

namespace taapp
variable {Key : Type}
open NodeTree

/-! ## The loops with a record: the record is an addition, the effect is that of the source -/

theorem balance_insert_log_fst (d : Bool) (s : set Key) (root child : Option Nat) :
    (balance_insert_log d s root child).map Prod.fst = balance_insert d s root child := by
  simp only [balance_insert_log, balance_insert, bind, pure]
  cases get_child (!d) s root with
  | none => rfl
  | some sibling =>
    simp only [Option.bind]
    cases is_red s sibling with
    | none => rfl
    | some sr =>
      simp only
      cases sr
      · simp only [Bool.false_eq_true, ↓reduceIte]
        cases get_child d s child with
        | none => rfl
        | some c1 =>
          simp only
          cases is_red s c1 with
          | none => rfl
          | some r1 =>
            simp only
            cases r1
            · simp only [Bool.false_eq_true, ↓reduceIte]
              cases get_child (!d) s child with
              | none => rfl
              | some c2 =>
                simp only
                cases is_red s c2 with
                | none => rfl
                | some r2 =>
                  simp only
                  cases r2
                  · rfl
                  · simp only [↓reduceIte]
                    cases double_rotate (!d) s root <;> rfl
            · simp only [↓reduceIte]
              cases rotate (!d) s root <;> rfl
      · simp only [↓reduceIte]
        cases set_color s root RED with
        | none => rfl
        | some s1 =>
          simp only
          cases set_color s1 child BLACK with
          | none => rfl
          | some s2 =>
            simp only
            cases set_color s2 sibling BLACK <;> rfl

theorem insert_loop_log_fst : ∀ (fuel : Nat) (s : set Key) (p child : Option Nat),
    (insert_loop_log fuel s p child).map Prod.fst = insert_loop fuel s p child := by
  intro fuel
  induction fuel with
  | zero =>
    intro s p child
    cases p with
    | none => simp only [insert_loop_log, insert_loop, Option.map_some']
    | some a =>
      simp only [insert_loop_log, insert_loop]
      cases deref s child with
      | none => rfl
      | some cn =>
        simp only
        split <;> rfl
  | succ f ih =>
    intro s p child
    cases p with
    | none => simp only [insert_loop_log, insert_loop, Option.map_some']
    | some a =>
      simp only [insert_loop_log, insert_loop]
      cases deref s child with
      | none => rfl
      | some cn =>
        simp only
        split
        · cases s.mem a with
          | none => rfl
          | some pn =>
            simp only
            have key : (if pn.left = child then balance_insert_log LEFT s (some a) child
                else balance_insert_log RIGHT s (some a) child).map Prod.fst =
                (if pn.left = child then balance_insert LEFT s (some a) child
                else balance_insert RIGHT s (some a) child) := by
              split <;> exact balance_insert_log_fst _ _ _ _
            rw [← key]
            cases (if pn.left = child then balance_insert_log LEFT s (some a) child
                else balance_insert_log RIGHT s (some a) child) with
            | none => rfl
            | some r =>
              simp only [Option.map_some']
              cases deref r.1.1 r.1.2 with
              | none => rfl
              | some cn2 =>
                simp only
                rw [← ih r.1.1 cn2.parent r.1.2]
                cases insert_loop_log f r.1.1 cn2.parent r.1.2 <;> rfl
        · rfl

theorem insert_with_log_fst (lt : Key → Key → Bool) (t : Key) (s : set Key)
    (fresh : Option Nat) :
    (insert_with_log lt t s fresh).map Prod.fst = insert_with lt t s fresh := by
  simp only [insert_with_log, insert_with, bind, pure]
  cases insert_descend lt t s s.size_ s.root_ s.root_ with
  | none => rfl
  | some r =>
    simp only [Option.bind]
    by_cases h1 : r.2 = none
    · simp only [h1, ↓reduceIte]
      cases fresh with
      | none => rfl
      | some a =>
        simp only
        by_cases h2 : s.root_ = none
        · simp only [h2, ↓reduceIte]
          cases set_color _ (some a) BLACK <;> rfl
        · simp only [h2, ↓reduceIte]
          cases deref _ (some a) with
          | none => rfl
          | some nn =>
            simp only
            cases deref _ r.1 with
            | none => rfl
            | some pn =>
              simp only
              cases (if lt nn.value pn.value = true then set_left _ r.1 (some a)
                  else set_right _ r.1 (some a)) with
              | none => rfl
              | some s2 =>
                simp only
                cases deref s2 r.1 with
                | none => rfl
                | some cn =>
                  simp only
                  rw [← insert_loop_log_fst]
                  cases insert_loop_log s2.size_ s2 cn.parent r.1 with
                  | none => rfl
                  | some q =>
                    simp only [Option.map_some']
                    cases set_color q.1 q.1.root_ BLACK <;> rfl
    · simp only [h1, ↓reduceIte, Option.map_some']

theorem insert_log_fst (lt : Key → Key → Bool) (t : Key) (s : set Key) :
    (insert_log lt t s).map Prod.fst = insert lt t s :=
  insert_with_log_fst lt t s (some s.next)

theorem balance_erase_rotate_log_fst (d : Bool) (s : set Key) (parent sibling : Option Nat) :
    (balance_erase_rotate_log d s parent sibling).map Prod.fst =
      balance_erase_rotate d s parent sibling := by
  unfold balance_erase_rotate_log balance_erase_rotate
  cases deref s parent with
  | none => rfl
  | some pn =>
    simp only
    cases get_child (!d) s sibling with
    | none => rfl
    | some no =>
      simp only
      cases is_red s no with
      | none => rfl
      | some ro =>
        simp only
        have key : (if ro = true then (rotate d s parent).map (fun r => (r, 1))
            else (double_rotate d s parent).map (fun r => (r, 2))).map Prod.fst =
            (if ro = true then rotate d s parent else double_rotate d s parent) := by
          split
          · cases rotate d s parent <;> rfl
          · cases double_rotate d s parent <;> rfl
        rw [← key]
        cases (if ro = true then (rotate d s parent).map (fun r => (r, 1))
            else (double_rotate d s parent).map (fun r => (r, 2))) with
        | none => rfl
        | some q =>
          simp only [Option.map_some']
          cases set_color q.1.1 q.1.2 pn.color with
          | none => rfl
          | some s1 =>
            simp only
            cases deref s1 q.1.2 with
            | none => rfl
            | some pn1 =>
              simp only
              cases set_color s1 pn1.left BLACK with
              | none => rfl
              | some s2 =>
                simp only
                cases deref s2 q.1.2 with
                | none => rfl
                | some pn2 =>
                  simp only
                  cases set_color s2 pn2.right BLACK <;> rfl

theorem balance_erase_black_log_fst (d : Bool) (s : set Key) (root parent sibling : Option Nat) :
    (balance_erase_black_log d s root parent sibling).map Prod.fst =
      balance_erase_black d s root parent sibling := by
  unfold balance_erase_black_log balance_erase_black
  split
  · cases get_child d s sibling with
    | none => rfl
    | some nd =>
      simp only
      cases is_red s nd with
      | none => rfl
      | some rd =>
        simp only
        cases rd
        · simp only [Bool.false_eq_true, ↓reduceIte]
          cases get_child (!d) s sibling with
          | none => rfl
          | some no =>
            simp only
            cases is_red s no with
            | none => rfl
            | some ro =>
              simp only
              cases ro
              · simp only [Bool.not_false, ↓reduceIte]
                cases balance_erase_recolor s root parent sibling <;> rfl
              · simp only [Bool.not_true, Bool.false_eq_true, ↓reduceIte]
                exact balance_erase_rotate_log_fst d s parent sibling
        · simp only [↓reduceIte, Bool.false_eq_true]
          exact balance_erase_rotate_log_fst d s parent sibling
  · rfl

theorem balance_erase_log_fst (d : Bool) (s : set Key) (root child : Option Nat) :
    (balance_erase_log d s root child).map Prod.fst = balance_erase d s root child := by
  unfold balance_erase_log balance_erase
  simp only
  cases get_child (!d) s root with
  | none => rfl
  | some sibling =>
    simp only
    cases deref s sibling with
    | none => rfl
    | some sn =>
      simp only
      split
      · cases rotate d s root with
        | none => rfl
        | some r =>
          simp only
          cases get_child (!d) r.1 root with
          | none => rfl
          | some sib =>
            simp only
            rw [← balance_erase_black_log_fst]
            cases balance_erase_black_log d r.1 r.2 root sib <;> rfl
      · exact balance_erase_black_log_fst d s root root sibling

theorem erase_loop_log_fst : ∀ (fuel : Nat) (s : set Key) (p child : Option Nat),
    (erase_loop_log fuel s p child).map Prod.fst = erase_loop fuel s p child := by
  intro fuel
  induction fuel with
  | zero =>
    intro s p child
    cases p <;> simp only [erase_loop_log, erase_loop, Option.map_some', Option.map_none']
  | succ f ih =>
    intro s p child
    cases p with
    | none => simp only [erase_loop_log, erase_loop, Option.map_some']
    | some a =>
      simp only [erase_loop_log, erase_loop]
      cases s.mem a with
      | none => rfl
      | some pn =>
        simp only
        have key : (if pn.left = child then balance_erase_log LEFT s (some a) child
            else balance_erase_log RIGHT s (some a) child).map Prod.fst =
            (if pn.left = child then balance_erase LEFT s (some a) child
            else balance_erase RIGHT s (some a) child) := by
          split <;> exact balance_erase_log_fst _ _ _ _
        rw [← key]
        cases (if pn.left = child then balance_erase_log LEFT s (some a) child
            else balance_erase_log RIGHT s (some a) child) with
        | none => rfl
        | some r =>
          simp only [Option.map_some']
          cases deref r.1.1 r.1.2 with
          | none => rfl
          | some pn2 =>
            simp only
            rw [← ih r.1.1 pn2.parent r.1.2]
            cases erase_loop_log f r.1.1 pn2.parent r.1.2 <;> rfl

theorem erase_rebalance_log_fst (s : set Key) (parent child : Option Nat) (color : Bool) :
    (erase_rebalance_log s parent child color).map Prod.fst =
      erase_rebalance s parent child color := by
  unfold erase_rebalance_log erase_rebalance
  split
  · cases is_red s child with
    | none => rfl
    | some cr =>
      simp only
      split
      · cases set_color s child BLACK <;> rfl
      · exact erase_loop_log_fst _ _ _ _
  · rfl

theorem erase_log_fst (s : set Key) (itr : Option Nat) :
    (erase_log s itr).map Prod.fst = erase s itr := by
  unfold erase_log erase
  simp only
  cases increment s itr with
  | none => rfl
  | some nx =>
    simp only
    rw [erase_unlink_detach]
    cases erase_detach s itr with
    | none => rfl
    | some st =>
      simp only
      rw [← erase_rebalance_log_fst]
      cases erase_rebalance_log st.1 st.2.1 st.2.2.1 st.2.2.2 with
      | none => rfl
      | some q =>
        simp only [Option.map_some']
        cases erase_cleanup q.1 itr <;> rfl

end taapp

namespace taapp
variable {Key : Type}
open NodeTree

/-! ## The record of the re-balancing loop of `insert` -/

theorem some_of_map_fst {α β : Type} {o : Option (α × β)} {r : α}
    (h : o.map Prod.fst = some r) : ∃ n, o = some (r, n) := by
  cases o with
  | none => cases h
  | some x =>
    simp only [Option.map_some', Option.some.injEq] at h
    exact ⟨x.2, by rw [← h]⟩

theorem set_color_deref {s s1 : set Key} {p : Option Nat} {c : Bool}
    (h : set_color s p c = some s1) : ∃ x, deref s1 p = some x ∧ x.color = c := by
  cases p with
  | none => cases h
  | some a =>
    simp only [set_color] at h
    cases hm : s.mem a with
    | none => rw [hm] at h; cases h
    | some n =>
      rw [hm] at h
      simp only [Option.some.injEq] at h
      subst h
      exact ⟨{ n with color := c }, by simp [deref, write_mem], rfl⟩

/-- The node returned by `rotate` is BLACK: the last store of `rotate` is
`pivot->color = BLACK`. -/
theorem rotate_pivot_black {d : Bool} {s s1 : set Key} {root piv : Option Nat}
    (h : rotate d s root = some (s1, piv)) : ∃ x, deref s1 piv = some x ∧ x.color = BLACK := by
  simp only [rotate, bind, Option.bind_eq_some, pure, Option.some.injEq, Prod.mk.injEq] at h
  obtain ⟨pivot, -, rn, -, sa, -, sb, -, pc, -, sc, -, sd, -, se, -, sf, -, sg, -, sh, h1, rfl, rfl⟩
    := h
  exact set_color_deref h1

theorem double_rotate_pivot_black {d : Bool} {s s1 : set Key} {root piv : Option Nat}
    (h : double_rotate d s root = some (s1, piv)) :
    ∃ x, deref s1 piv = some x ∧ x.color = BLACK := by
  simp only [double_rotate, bind, Option.bind_eq_some] at h
  obtain ⟨other, -, r, -, h2⟩ := h
  exact rotate_pivot_black h2

/-- A call of `balance_insert` makes at most two calls of `rotate`, and if it
makes one, the node it returns is BLACK. -/
theorem balance_insert_log_count {d : Bool} {s : set Key} {root child : Option Nat}
    {r : set Key × Option Nat} {n : Nat}
    (h : balance_insert_log d s root child = some (r, n)) :
    n ≤ 2 ∧ (0 < n → ∃ x, deref r.1 r.2 = some x ∧ x.color = BLACK) := by
  simp only [balance_insert_log, bind, Option.bind_eq_some, pure] at h
  obtain ⟨sibling, -, sr, -, h⟩ := h
  split at h
  · simp only [Option.bind_eq_some, Option.some.injEq, Prod.mk.injEq] at h
    obtain ⟨_, -, _, -, _, -, -, rfl⟩ := h
    exact ⟨by omega, fun h0 => absurd h0 (by omega)⟩
  · simp only [Option.bind_eq_some] at h
    obtain ⟨c1, -, r1, -, h⟩ := h
    split at h
    · simp only [Option.map_eq_some', Prod.mk.injEq] at h
      obtain ⟨q, hq, rfl, rfl⟩ := h
      exact ⟨by omega, fun _ => rotate_pivot_black (show rotate (!d) s root = some (q.1, q.2)
        from hq)⟩
    · simp only [Option.bind_eq_some] at h
      obtain ⟨c2, -, r2, -, h⟩ := h
      split at h
      · simp only [Option.map_eq_some', Prod.mk.injEq] at h
        obtain ⟨q, hq, rfl, rfl⟩ := h
        exact ⟨by omega, fun _ => double_rotate_pivot_black
          (show double_rotate (!d) s root = some (q.1, q.2) from hq)⟩
      · simp only [Option.some.injEq, Prod.mk.injEq] at h
        obtain ⟨-, rfl⟩ := h
        exact ⟨by omega, fun h0 => absurd h0 (by omega)⟩

/-- The loop of `insert` stops at a BLACK `child`. -/
theorem insert_loop_log_black {s : set Key} {child : Option Nat} {cn : rbnode Key}
    (hc : deref s child = some cn) (hb : cn.color = BLACK) (fuel : Nat) (p : Option Nat) :
    insert_loop_log fuel s p child = some (s, []) := by
  cases p with
  | none => cases fuel <;> simp only [insert_loop_log]
  | some a =>
    cases fuel <;> simp [insert_loop_log, hc, hb]

theorem depth_of_RepC {s : set Key} {ctx : List (Frame Key)} :
    ∀ {f : Frame Key} {q : Option Nat}, RepC s.mem (f :: ctx) q → Depth s f.id ctx.length := by
  induction ctx with
  | nil =>
    intro f q h
    exact Depth.top h.1 rfl
  | cons g ctx ih =>
    intro f q h
    exact Depth.step h.1 rfl (ih h.2.2)

theorem depth_of_Rep {s : set Key} {ctx : List (Frame Key)} {f : Frame Key} {t : NodeTree Key}
    (h : Rep s (plug (f :: ctx) t)) : Depth s f.id ctx.length :=
  depth_of_RepC ((RepT_plug (f :: ctx) t).1 h.tree).1

/-- The record of the loop of `insert` started at the subtree `t` below the
path `ctx`: the iterations go up the path one frame at a time, only the last
one rotates, and there are at most two rotations. -/
theorem insert_loop_log_spec {ctx : List (Frame Key)} :
    ∀ {s : set Key} {t : NodeTree Key} (fuel : Nat), Rep s (plug ctx t) → t ≠ nil →
      ctx.length ≤ fuel →
      ∃ s1 log, insert_loop_log fuel s (cpar ctx) t.root = some (s1, log) ∧
        (∀ e, log.head? = some e → e.before = s ∧ ∃ f ctx1, ctx = f :: ctx1 ∧ e.parent = f.id) ∧
        StepsUp log ∧ (∀ e ∈ log, ∃ k, Depth e.before e.parent k) ∧
        (∀ e ∈ log.dropLast, e.rotations = 0) ∧ (log.map fix_step.rotations).sum ≤ 2 := by
  induction ctx with
  | nil =>
    intro s t fuel h _ _
    refine ⟨s, [], ?_, by simp, List.chain'_nil, by simp, by simp, by simp⟩
    cases fuel <;> simp [insert_loop_log, cpar]
  | cons f ctx ih =>
    intro s t fuel h hne hf
    obtain ⟨n, hn, -, hc, -, -⟩ := lookup_root h hne
    have hcp : cpar (f :: ctx) = some f.id := rfl
    by_cases hr : t.isRed = true
    · obtain ⟨k, rfl⟩ : ∃ k, fuel = k + 1 := ⟨fuel - 1, by simp at hf; omega⟩
      obtain ⟨s1, e1, r1, z1, n1⟩ := balance_insert_spec h hne
      obtain ⟨cnt, eL⟩ := some_of_map_fst
        ((balance_insert_log_fst f.dir s (some f.id) t.root).trans e1)
      have hfm := lookup_mk (show Rep s (plug ctx (mk f.dir f.id f.c t f.v f.sib)) from h)
      obtain ⟨n2, hn2, hp2, -, -, -⟩ := lookup_root r1 (balI_ne_nil f t)
      obtain ⟨s2, log1, e2, hhead, hup, hdep, hrot, hsum⟩ :=
        ih k r1 (balI_ne_nil f t) (by simp at hf; omega)
      have hcond : ((if f.dir = LEFT then t.root else f.sib.root) = t.root) ↔ f.dir = LEFT := by
        rcases f with ⟨g, cg, vg, d, sib⟩
        cases d
        · simp
        · have := sib_root_ne h hne
          simp only at this
          simp [this]
      have hdir : (if (if f.dir = LEFT then t.root else f.sib.root) = t.root
          then balance_insert_log LEFT s (some f.id) t.root
          else balance_insert_log RIGHT s (some f.id) t.root) =
          balance_insert_log f.dir s (some f.id) t.root := by
        by_cases hd : f.dir = LEFT
        · rw [if_pos (hcond.2 hd), hd]
        · rw [if_neg (fun e => hd (hcond.1 e))]
          have : f.dir = RIGHT := by
            cases hfd : f.dir
            · exact absurd hfd hd
            · rfl
          rw [this]
      have hdirv : (if (if f.dir = LEFT then t.root else f.sib.root) = t.root
          then LEFT else RIGHT) = f.dir := by
        by_cases hd : f.dir = LEFT
        · rw [if_pos (hcond.2 hd), hd]
        · rw [if_neg (fun e => hd (hcond.1 e))]
          cases hfd : f.dir
          · exact absurd hfd hd
          · rfl
      obtain ⟨hc2, hblack⟩ := balance_insert_log_count eL
      have hdepth := depth_of_Rep h
      refine ⟨s2, (⟨s, f.dir, f.id, t.root, cnt, s1⟩ : fix_step Key) :: log1,
        ?_, ?_, ?_, ?_, ?_, ?_⟩
      · simp only [insert_loop_log, hcp, hn, hc, hr, ↓reduceIte, hfm, hdir, hdirv, eL, hn2,
          hp2, e2]
      · intro e he
        simp only [List.head?_cons, Option.some.injEq] at he
        subst he
        exact ⟨rfl, f, ctx, rfl, rfl⟩
      · cases log1 with
        | nil => exact List.chain'_singleton _
        | cons y log2 =>
          refine List.chain'_cons.2 ⟨?_, hup⟩
          obtain ⟨hb, f1, ctx1, rfl, hpar⟩ := hhead y rfl
          refine ⟨ctx1.length, hdepth, ?_⟩
          rw [hb, hpar]
          exact depth_of_Rep r1
      · intro e he
        rcases List.mem_cons.1 he with rfl | he
        · exact ⟨_, hdepth⟩
        · exact hdep e he
      · -- a rotation ends the loop
        by_cases h0 : 0 < cnt
        · obtain ⟨x, hx, hxb⟩ := hblack h0
          have := insert_loop_log_black hx hxb k (cpar ctx)
          rw [e2] at this
          simp only [Option.some.injEq, Prod.mk.injEq] at this
          rw [this.2]
          simp
        · intro e he
          cases log1 with
          | nil => simp at he
          | cons y log2 =>
            simp only [List.dropLast_cons₂, List.mem_cons] at he
            rcases he with rfl | he
            · simp only
              omega
            · exact hrot e he
      · by_cases h0 : 0 < cnt
        · obtain ⟨x, hx, hxb⟩ := hblack h0
          have := insert_loop_log_black hx hxb k (cpar ctx)
          rw [e2] at this
          simp only [Option.some.injEq, Prod.mk.injEq] at this
          rw [this.2]
          simpa using hc2
        · simp only [List.map_cons, List.sum_cons]
          omega
    · refine ⟨s, [], ?_, by simp, List.chain'_nil, by simp, by simp, by simp⟩
      cases fuel <;> simp [insert_loop_log, cpar, hn, hc, hr]

end taapp

namespace taapp
variable {Key : Type}
open NodeTree

/-! ## The record of `insert` -/

/-- Source function `insert(t)` on a represented tree: the call returns, the iterations of its
loop go up one level each, only the last one rotates, and there are at most two
rotations. -/
theorem insert_log_spec (lt : Key → Key → Bool) (k : Key) {s : set Key} {T : NodeTree Key}
    (h : Model s T) :
    ∃ r log, insert_log lt k s = some (r, log) ∧ insert lt k s = some r ∧
      StepsUp log ∧ (∀ e ∈ log, ∃ j, Depth e.before e.parent j) ∧
      (∀ e ∈ log.dropLast, e.rotations = 0) ∧ (log.map fix_step.rotations).sum ≤ 2 := by
  have key : ∃ r log, insert_log lt k s = some (r, log) ∧
      StepsUp log ∧ (∀ e ∈ log, ∃ j, Depth e.before e.parent j) ∧
      (∀ e ∈ log.dropLast, e.rotations = 0) ∧ (log.map fix_step.rotations).sum ≤ 2 := by
    obtain ⟨hrep, hsize, hfresh⟩ := h
    have hdesc : insert_descend lt k s s.size_ s.root_ s.root_ =
        some (match (zoom lt k T []).1 with
              | nil => (cpar (zoom lt k T []).2, none)
              | node a _ _ _ _ => (some a, some a)) := by
      have := insert_descend_spec lt k s.size_ s.root_ (show Rep _ (plug [] _) from hrep)
        (by rw [hsize]; exact height_le_length T) (by rintro rfl; exact hrep.root)
      rwa [← hrep.root] at this
    have hroot := hrep.root
    have hanew : s.next ∉ T.ids := fun hm => Nat.lt_irrefl _ (hfresh _ hm)
    rcases zoom_cases lt k T with ⟨ctx, a, c, l, v, r, hz, hT⟩ | ⟨hz, hT⟩ | ⟨f, ctx, hz, hT, hdir⟩
    · -- duplicate
      rw [hz] at hdesc
      replace hdesc : insert_descend lt k s s.size_ s.root_ s.root_ =
        some (some a, some a) := hdesc
      refine ⟨(s, (some a, false)), [], ?_, List.chain'_nil, by simp, by simp, by simp⟩
      simp [insert_log, insert_with_log, hdesc, bind, Option.bind]
    · -- empty tree
      subst hT
      rw [hz] at hdesc
      have hr0 : s.root_ = none := hroot
      rw [hr0] at hdesc
      replace hdesc : insert_descend lt k s s.size_ none none = some (none, none) := hdesc
      have : ∃ r, insert_log lt k s = some (r, []) := by
        simp only [insert_log, insert_with_log, hr0, hdesc, bind, Option.bind, cpar, ↓reduceIte,
          write_root, set_color, write_mem, pure, Option.some.injEq, Prod.mk.injEq, ne_eq,
          reduceCtorEq, not_false_eq_true, decide_True, and_true, exists_eq_left', write_size,
          write_next, true_and]
        exact ⟨_, rfl⟩
      obtain ⟨r, hr⟩ := this
      exact ⟨r, [], hr, List.chain'_nil, by simp, by simp, by simp⟩
    · -- new node below `f`
      rw [hz] at hdesc
      subst hT
      obtain ⟨s1, e1, r1, z1, n1⟩ := link_spec k s.next hrep hanew
      have hf := lookup_mk (show Rep s1 (plug ctx (mk f.dir f.id f.c (node s.next RED nil k nil)
        f.v f.sib)) from r1)
      have hlen : ctx.length ≤ s1.size_ := by
        rw [z1, hsize, plug_length]
        have := length_le_cids (f :: ctx)
        simp only [List.length_cons] at this
        omega
      obtain ⟨s2, e2, r2, z2, n2⟩ := insert_loop_spec (t := f.fill (node s.next RED nil k nil))
        s1.size_ r1 (mk_ne_nil _ _ _ _ _ _) hlen
      obtain ⟨s2L, log, e2L, -, hup, hdep, hrot, hsum⟩ :=
        insert_loop_log_spec (t := f.fill (node s.next RED nil k nil))
          s1.size_ r1 (mk_ne_nil _ _ _ _ _ _) hlen
      have es : s2L = s2 := by
        have := (insert_loop_log_fst s1.size_ s1 (cpar ctx)
          (f.fill (node s.next RED nil k nil)).root).trans e2
        rw [e2L] at this
        simpa using this
      subst es
      obtain ⟨ri, rc, rl, rv, rr, hres⟩ : ∃ ri rc rl rv rr,
          insFix ctx (f.fill (node s.next RED nil k nil)) = node ri rc rl rv rr := by
        have : insFix ctx (f.fill (node s.next RED nil k nil)) ≠ nil :=
          insFix_ne_nil (mk_ne_nil f.dir f.id f.c (node s.next RED nil k nil) f.v f.sib)
        cases hh : insFix ctx (f.fill (node s.next RED nil k nil)) with
        | nil => exact absurd hh this
        | node ri rc rl rv rr => exact ⟨ri, rc, rl, rv, rr, rfl⟩
      rw [hres] at r2
      obtain ⟨s3, e3, r3, z3, n3⟩ := paint_spec BLACK (show Rep _ (plug [] _) from r2)
      have hroot2 : s2L.root_ = some ri := r2.root
      obtain ⟨g, hg⟩ : ∃ g, s.root_ = some g := by
        rw [hroot, plug_root]
        exact croot_cons f ctx _
      have hfm := lookup_mk (show Rep s (plug ctx (mk f.dir f.id f.c nil f.v f.sib)) from hrep)
      rw [hg] at hdesc
      replace hdesc : insert_descend lt k s s.size_ (some g) (some g) =
        some (some f.id, none) := hdesc
      have hfa : f.id ≠ s.next := by
        rintro e
        exact hanew (by rw [plug_ids, cids_cons]; exact Or.inr (Or.inl e.symm))
      refine ⟨({ s3 with size_ := s3.size_ + 1 }, (some s.next, true)), log, ?_, hup, hdep,
        hrot, hsum⟩
      have hlink : (if lt k f.v = true
          then set_left (set.write { s with next := s.next + 1 } s.next
              ⟨k, RED, some f.id, none, none⟩) (some f.id) (some s.next)
          else set_right (set.write { s with next := s.next + 1 } s.next
              ⟨k, RED, some f.id, none, none⟩) (some f.id) (some s.next)) = some s1 := by
        rw [← e1]
        by_cases hl : lt k f.v = true
        · simp [hl, hdir.1 hl]
        · have : f.dir ≠ LEFT := fun e => hl (hdir.2 e)
          simp [hl, this]
      have hcp : cpar (f :: ctx) = some f.id := rfl
      simp only [hg] at hlink
      simp only [Frame.fill, root_mk] at e2L
      simp only [insert_log, insert_with_log, hg, hdesc, bind, Option.bind, hcp, ↓reduceIte,
        reduceCtorEq, deref, write_mem, hfa, hfm, hlink, hf, e2L, hroot2, e3, pure,
        Option.some.injEq, ne_eq, not_false_eq_true, decide_True, hfa.symm]
  obtain ⟨r, log, e, hrest⟩ := key
  refine ⟨r, log, e, ?_, hrest⟩
  rw [← insert_log_fst, e]
  rfl

end taapp

namespace taapp
variable {Key : Type}
open NodeTree

/-! ## The record of a call of `balance_erase` -/

theorem final_rotation_heap {s1 : set Key} {ctx : List (Frame Key)} {d : Bool} {x : Nat}
    {c : Bool} {i : Nat} {t A : NodeTree Key} {v xv : Key} {B : NodeTree Key}
    (h : Rep s1 (plug ctx (mk d x c (mk d i BLACK t v A) xv B))) (hB : B ≠ nil) :
    FinalHeap s1 i := by
  have hx := lookup_mk h
  have hi := lookup_mk (show Rep s1 (plug ((⟨x, c, xv, d, B⟩ : Frame Key) :: ctx)
    (mk d i BLACK t v A)) from h)
  obtain ⟨b, cb, Bl, vb, Br, rfl⟩ := exists_mk_of_ne_nil d hB
  have hb := lookup_mk (show Rep s1 (plug ((⟨x, c, xv, !d, mk d i BLACK t v A⟩ : Frame Key) ::
    ctx) (mk d b cb Bl vb Br)) from h.cast (by cases d <;> rfl))
  cases d
  · exact ⟨_, x, _, i, b, hi, rfl, hx, by simp, by simp, by simp [hi], by simp [hb]⟩
  · exact ⟨_, x, _, b, i, hi, rfl, hx, by simp, by simp, by simp [hb], by simp [hi]⟩

theorem balEB_red_flag (d : Bool) (i : Nat) (v : Key) (t : NodeTree Key) {sib : NodeTree Key}
    (h : sib ≠ nil) : (balEB d i RED v t sib).2 = true := by
  cases sib with
  | nil => exact absurd rfl h
  | node si sc sl sv sr =>
    simp only [balEB]
    split_ifs <;> rfl

/-- Case 5 and 6 make one or two calls of `rotate`. -/
theorem balance_erase_rotate_log_count {d : Bool} {s : set Key} {parent sibling : Option Nat}
    {r : set Key × Option Nat} {n : Nat}
    (h : balance_erase_rotate_log d s parent sibling = some (r, n)) : 1 ≤ n ∧ n ≤ 2 := by
  unfold balance_erase_rotate_log at h
  revert h
  cases deref s parent with
  | none => intro h; cases h
  | some pn =>
    simp only
    cases get_child (!d) s sibling with
    | none => intro h; cases h
    | some no =>
      simp only
      cases is_red s no with
      | none => intro h; cases h
      | some ro =>
        simp only
        cases hq : (if ro = true then (rotate d s parent).map (fun r => (r, 1))
            else (double_rotate d s parent).map (fun r => (r, 2))) with
        | none => intro h; cases h
        | some q =>
          simp only
          have hq2 : q.2 = 1 ∨ q.2 = 2 := by
            split at hq
            · simp only [Option.map_eq_some'] at hq
              obtain ⟨a, -, rfl⟩ := hq
              exact Or.inl rfl
            · simp only [Option.map_eq_some'] at hq
              obtain ⟨a, -, rfl⟩ := hq
              exact Or.inr rfl
          cases set_color q.1.1 q.1.2 pn.color with
          | none => intro h; cases h
          | some s1 =>
            simp only
            cases deref s1 q.1.2 with
            | none => intro h; cases h
            | some pn1 =>
              simp only
              cases set_color s1 pn1.left BLACK with
              | none => intro h; cases h
              | some s2 =>
                simp only
                cases deref s2 q.1.2 with
                | none => intro h; cases h
                | some pn2 =>
                  simp only
                  cases set_color s2 pn2.right BLACK with
                  | none => intro h; cases h
                  | some s3 =>
                    intro h
                    simp only [Option.some.injEq, Prod.mk.injEq] at h
                    omega

/-- Which of the two branches the part of `balance_erase` after the
red-sibling rotation takes on a represented tree. -/
theorem black_log_branch {s : set Key} {ctx : List (Frame Key)} {d : Bool} {i : Nat}
    {c : Bool} {v : Key} {t : NodeTree Key} {si : Nat} {sc : Bool} {N : NodeTree Key} {sv : Key}
    {F : NodeTree Key} (root : Option Nat)
    (h : Rep s (plug ctx (mk d i c t v (mk d si sc N sv F)))) :
    balance_erase_black_log d s root (some i) (some si) =
      if N.isRed = false ∧ F.isRed = false then
        (balance_erase_recolor s root (some i) (some si)).map (fun r => (r, 0))
      else balance_erase_rotate_log d s (some i) (some si) := by
  have hS : Rep s (plug ((⟨i, c, v, !d, t⟩ : Frame Key) :: ctx) (mk d si sc N sv F)) :=
    h.cast (by cases d <;> rfl)
  have hsm := lookup_mk hS
  have hNR : is_red s N.root = some N.isRed :=
    is_red_node (hS.cast (by cases d <;> rfl) :
      Rep s (plug ((⟨si, sc, sv, d, F⟩ : Frame Key) :: (⟨i, c, v, !d, t⟩ : Frame Key) :: ctx) N))
  have hFR : is_red s F.root = some F.isRed :=
    is_red_node (hS.cast (by cases d <;> rfl) :
      Rep s (plug ((⟨si, sc, sv, !d, N⟩ : Frame Key) :: (⟨i, c, v, !d, t⟩ : Frame Key) :: ctx) F))
  have hgN : get_child d s (some si) = some N.root := by
    cases d <;> simp [get_child, deref, hsm]
  have hgF : get_child (!d) s (some si) = some F.root := by
    cases d <;> simp [get_child, deref, hsm]
  cases hN : N.isRed <;> cases hF : F.isRed <;> rw [hN] at hNR <;> rw [hF] at hFR <;>
    simp only [balance_erase_black_log, ne_eq, reduceCtorEq, not_false_eq_true, ↓reduceIte,
      hgN, hNR, hgF, hFR, Bool.false_eq_true, Bool.not_false, Bool.not_true, and_self,
      and_false, false_and, Bool.true_eq_false]

/-- The part of `balance_erase` after the red-sibling rotation, with its count
of rotations: at most two, and if there is one, the loop is done and the new
root of the subtree has two children. -/
theorem balance_erase_black_log_spec {s : set Key} {ctx : List (Frame Key)} {d : Bool}
    {i : Nat} {c : Bool} {v : Key} {t sib : NodeTree Key} (root : Option Nat)
    (h : Rep s (plug ctx (mk d i c t v sib))) :
    ∃ s1 ret n, balance_erase_black_log d s root (some i) sib.root = some ((s1, ret), n) ∧
      balance_erase_black d s root (some i) sib.root = some (s1, ret) ∧
      Rep s1 (plug ctx (balEB d i c v t sib).1) ∧
      ret = (if (balEB d i c v t sib).2 then s1.root_ else root) ∧
      s1.size_ = s.size_ ∧ s1.next = s.next ∧ n ≤ 2 ∧
      (0 < n → (balEB d i c v t sib).2 = true ∧ FinalHeap s1 i) := by
  obtain ⟨s1, ret, e1, r1, hret, z1, m1⟩ := balance_erase_black_spec root h
  obtain ⟨n, eL⟩ := some_of_map_fst
    ((balance_erase_black_log_fst d s root (some i) sib.root).trans e1)
  refine ⟨s1, ret, n, eL, e1, r1, hret, z1, m1, ?_⟩
  by_cases hsn : sib = nil
  · subst hsn
    simp only [balance_erase_black_log, root_nil, ne_eq, not_true_eq_false, ↓reduceIte,
      Option.some.injEq, Prod.mk.injEq] at eL
    obtain ⟨-, rfl⟩ := eL
    exact ⟨by omega, fun h0 => absurd h0 (by omega)⟩
  obtain ⟨si, sc, N, sv, F, rfl⟩ := exists_mk_of_ne_nil d hsn
  rw [root_mk, black_log_branch root h] at eL
  by_cases hboth : N.isRed = false ∧ F.isRed = false
  · rw [if_pos hboth] at eL
    simp only [Option.map_eq_some', Prod.mk.injEq] at eL
    obtain ⟨a, -, -, rfl⟩ := eL
    exact ⟨by omega, fun h0 => absurd h0 (by omega)⟩
  · rw [if_neg hboth] at eL
    refine ⟨(balance_erase_rotate_log_count eL).2, fun _ => ?_⟩
    cases hF : F.isRed
    · have hN : N.isRed = true := by
        cases hN : N.isRed
        · exact absurd ⟨hN, hF⟩ hboth
        · rfl
      obtain ⟨ni, N1, nv, N2, rfl⟩ := exists_mk_of_isRed d hN
      have e := balEB_drot d i c v t si sc ni N1 nv N2 sv F hF
      rw [recolor_mk, paint_mk, paint_mk] at e
      rw [e] at r1 ⊢
      exact ⟨rfl, final_rotation_heap r1 (mk_ne_nil _ _ _ _ _ _)⟩
    · have e := balEB_rot d i c v t si sc N sv F hF
      rw [recolor_mk, paint_mk] at e
      rw [e] at r1 ⊢
      exact ⟨rfl, final_rotation_heap r1 (paint_ne_nil _ (child_ne_nil_of_isRed hF))⟩

/-- With a RED sibling in a tree that is one BLACK node short on the other
side, both children of the sibling are nodes. -/
theorem red_sibling_children {f : Frame Key} {ctx : List (Frame Key)} {t : NodeTree Key}
    (h : EraInv (f :: ctx) t) (hr : f.sib.isRed = true) (d : Bool) : f.sib.child d ≠ nil := by
  obtain ⟨-, -, -, ⟨hsb, hh, -⟩, -⟩ := h
  cases hs : f.sib with
  | nil => rw [hs] at hr; cases hr
  | node si sc sl sv sr =>
    rw [hs] at hsb hh hr
    simp only [isRed_node] at hr
    subst hr
    simp only [bh, BLACK, Bool.true_eq_false, ↓reduceIte, add_zero] at hh
    obtain ⟨-, -, hlr⟩ := hsb
    cases d
    · simp only [child, ↓reduceIte]
      rintro rfl
      simp [bh] at hh
    · simp only [child, Bool.true_eq_false, ↓reduceIte]
      rintro rfl
      simp only [bh] at hlr
      omega

end taapp

namespace taapp
variable {Key : Type}
open NodeTree

/-! ## The record of the re-balancing loop of `erase` -/

/-- A call of `balance_erase` on a tree that is one BLACK node short returns,
makes at most three calls of `rotate`, ends the loop if there is one, and
reads and writes existing nodes only. -/
theorem balance_erase_log_spec {s : set Key} {ctx : List (Frame Key)} {f : Frame Key}
    {t : NodeTree Key} (h : Rep s (plug (f :: ctx) t)) (hI : EraInv (f :: ctx) t) :
    ∃ s1 ret n, balance_erase_log f.dir s (some f.id) t.root = some ((s1, ret), n) ∧
      balance_erase f.dir s (some f.id) t.root = some (s1, ret) ∧
      Rep s1 (plug ctx (balE f t).1) ∧
      ret = (if (balE f t).2 then s1.root_ else (balE f t).1.root) ∧
      s1.size_ = s.size_ ∧ s1.next = s.next ∧ n ≤ 3 ∧
      (0 < n → (balE f t).2 = true) ∧
      SafeCall (⟨s, f.dir, f.id, t.root, n, s1⟩ : fix_step Key) := by
  have hs := EraInv_sib f ctx t hI
  have hch := red_sibling_children hI
  obtain ⟨s9, ret, e9, r9, hret, z9, m9⟩ := balance_erase_spec h hs
  rcases f with ⟨g, cg, vg, d, sib⟩
  simp only at hs hch e9 r9 hret ⊢
  cases sib with
  | nil => exact absurd rfl hs
  | node si sc sl sv sr =>
    have h0 : Rep s (plug ctx (mk d g cg t vg (node si sc sl sv sr))) := h
    have hg := lookup_mk h0
    have hS : Rep s (plug ((⟨g, cg, vg, !d, t⟩ : Frame Key) :: ctx) (node si sc sl sv sr)) :=
      h0.cast (by cases d <;> rfl)
    have hsm := hS.lookup
    have hgs : get_child (!d) s (some g) = some (some si) := by
      cases d <;> simp [get_child, deref, hg]
    cases sc
    · -- the sibling is black
      obtain ⟨s1, ret1, n, eL, e1, r1, hret1, z1, m1, hn2, hfin⟩ :=
        balance_erase_black_log_spec (some g) h0
      have eB : balance_erase d s (some g) t.root = some (s1, ret1) := by
        simp only [balance_erase, hgs, deref, hsm, Bool.false_eq_true, ↓reduceIte]
        exact e1
      have e91 : (s9, ret) = (s1, ret1) := Option.some.inj (e9.symm.trans eB)
      simp only [Prod.mk.injEq] at e91
      obtain ⟨rfl, rfl⟩ := e91
      have hbal : balE (⟨g, cg, vg, d, node si BLACK sl sv sr⟩ : Frame Key) t =
          balEB d g cg vg t (node si BLACK sl sv sr) := by
        simp [balE]
      refine ⟨s9, ret, n, ?_, e9, r9, hret, z9, m9, by omega, ?_, ?_⟩
      · simp only [balance_erase_log, hgs, deref, hsm, Bool.false_eq_true, ↓reduceIte]
        exact eL
      · intro hn
        rw [hbal]
        exact (hfin hn).1
      · refine ⟨si, _, hgs, hsm, ?_, ?_, (s9, ret), e9, rfl⟩
        · intro hc
          simp at hc
        · intro hn
          simp only [Bool.false_eq_true, ↓reduceIte] at hn
          exact (hfin hn).2
    · -- case 2: the sibling is red
      have h1 : Rep s (plug ctx (mk d g cg t vg (mk d si RED
          ((node si RED sl sv sr).child d) sv ((node si RED sl sv sr).child (!d))))) :=
        h0.cast (by rw [← node_eq_mk d si RED sl sv sr])
      obtain ⟨s1, e1, r1, z1, m1, -⟩ := rotate_spec d h1
      have r1' : Rep s1 (plug ((⟨si, BLACK, sv, d, (node si RED sl sv sr).child (!d)⟩ :
          Frame Key) :: ctx) (mk d g RED t vg ((node si RED sl sv sr).child d))) := r1
      have hg1 := lookup_mk r1'
      have hgs1 : get_child (!d) s1 (some g) = some ((node si RED sl sv sr).child d).root := by
        cases d <;> simp [get_child, deref, hg1]
      obtain ⟨s2, ret2, n, eL, e2, r2, hret2, z2, m2, hn2, hfin⟩ :=
        balance_erase_black_log_spec (some si) r1'
      have eB : balance_erase d s (some g) t.root = some (s2, ret2) := by
        simp only [balance_erase, hgs, deref, hsm, ↓reduceIte, e1, hgs1]
        exact e2
      have e91 : (s9, ret) = (s2, ret2) := Option.some.inj (e9.symm.trans eB)
      simp only [Prod.mk.injEq] at e91
      obtain ⟨rfl, rfl⟩ := e91
      have hne := hch rfl d
      have hflag : (balE (⟨g, cg, vg, d, node si RED sl sv sr⟩ : Frame Key) t).2 = true := by
        simp only [balE, ↓reduceIte]
        exact balEB_red_flag d g vg t hne
      obtain ⟨x, cx, xl, xv, xr, hx⟩ := exists_mk_of_ne_nil d hne
      have hS2 : Rep s1 (plug ((⟨g, RED, vg, !d, t⟩ : Frame Key) ::
          (⟨si, BLACK, sv, d, (node si RED sl sv sr).child (!d)⟩ : Frame Key) :: ctx)
          ((node si RED sl sv sr).child d)) := r1'.cast (by cases d <;> rfl)
      rw [hx] at hS2 hgs1
      have hxm := lookup_mk hS2
      refine ⟨s9, ret, n + 1, ?_, e9, r9, hret, z9, m9, by omega, fun _ => hflag, ?_⟩
      · simp only [balance_erase_log, hgs, deref, hsm, ↓reduceIte, e1, hgs1]
        rw [← hx, eL]
        rfl
      · refine ⟨si, _, hgs, hsm, ?_, ?_, (s9, ret), e9, rfl⟩
        · intro _
          exact ⟨s1, some si, x, e1, by rw [hgs1, root_mk], by rw [hxm]; rfl⟩
        · intro hn
          simp only [↓reduceIte] at hn
          exact (hfin (by omega)).2

/-- The record of the loop of `erase` started at the subtree `t`, one BLACK
node short, below the path `ctx`: the iterations go up the path one frame at
a time, only the last one rotates, there are at most three rotations, and
every call of `balance_erase` reads and writes existing nodes only. -/
theorem erase_loop_log_spec {ctx : List (Frame Key)} :
    ∀ {s : set Key} {t : NodeTree Key} (fuel : Nat), Rep s (plug ctx t) → EraInv ctx t →
      ctx.length ≤ fuel →
      ∃ s1 log, erase_loop_log fuel s (cpar ctx) t.root = some (s1, log) ∧
        (∀ e, log.head? = some e → e.before = s ∧ ∃ f ctx1, ctx = f :: ctx1 ∧ e.parent = f.id) ∧
        StepsUp log ∧ (∀ e ∈ log, ∃ k, Depth e.before e.parent k) ∧
        (∀ e ∈ log.dropLast, e.rotations = 0) ∧ (log.map fix_step.rotations).sum ≤ 3 ∧
        ∀ e ∈ log, SafeCall e := by
  induction ctx with
  | nil =>
    intro s t fuel h _ _
    refine ⟨s, [], ?_, by simp, List.chain'_nil, by simp, by simp, by simp, by simp⟩
    cases fuel <;> simp [erase_loop_log, cpar]
  | cons f ctx ih =>
    intro s t fuel h hI hf
    obtain ⟨k, rfl⟩ : ∃ k, fuel = k + 1 := ⟨fuel - 1, by simp at hf; omega⟩
    have hsib := EraInv_sib f ctx t hI
    obtain ⟨s1, ret, n, eL, e1, r1, hret, z1, m1, hn3, hflag, hsafe⟩ :=
      balance_erase_log_spec h hI
    have hfm := lookup_mk (show Rep s (plug ctx (mk f.dir f.id f.c t f.v f.sib)) from h)
    have hcond : ((if f.dir = LEFT then t.root else f.sib.root) = t.root) ↔ f.dir = LEFT := by
      have := sib_root_ne' h hsib
      rcases f with ⟨g, cg, vg, d, sib⟩
      cases d
      · simp
      · simp only at this
        simp [this]
    have hdir : (if (if f.dir = LEFT then t.root else f.sib.root) = t.root
        then balance_erase_log LEFT s (some f.id) t.root
        else balance_erase_log RIGHT s (some f.id) t.root) =
        balance_erase_log f.dir s (some f.id) t.root := by
      by_cases hd : f.dir = LEFT
      · rw [if_pos (hcond.2 hd), hd]
      · rw [if_neg (fun e => hd (hcond.1 e))]
        have : f.dir = RIGHT := by
          cases hfd : f.dir
          · exact absurd hfd hd
          · rfl
        rw [this]
    have hdirv : (if (if f.dir = LEFT then t.root else f.sib.root) = t.root
        then LEFT else RIGHT) = f.dir := by
      by_cases hd : f.dir = LEFT
      · rw [if_pos (hcond.2 hd), hd]
      · rw [if_neg (fun e => hd (hcond.1 e))]
        cases hfd : f.dir
        · exact absurd hfd hd
        · rfl
    have hcp : cpar (f :: ctx) = some f.id := rfl
    have hne := balE_ne_nil f t
    have hdepth := depth_of_Rep h
    by_cases hd : (balE f t).2 = true
    · -- done: the loop continues at the root and stops
      rw [if_pos hd] at hret
      obtain ⟨n2, hn2, hp2, -⟩ := lookup_root
        (show Rep _ (plug [] (plug ctx (balE f t).1)) from r1) (plug_ne_nil hne)
      rw [← r1.root, ← hret] at hn2
      refine ⟨s1, [(⟨s, f.dir, f.id, t.root, n, s1⟩ : fix_step Key)], ?_, ?_,
        List.chain'_singleton _, ?_, by simp, by simpa using hn3, ?_⟩
      · simp only [erase_loop_log, hcp, hfm, hdir, hdirv, eL, hn2, hp2, cpar]
      · intro e he
        simp only [List.head?_cons, Option.some.injEq] at he
        subst he
        exact ⟨rfl, f, ctx, rfl, rfl⟩
      · intro e he
        rw [List.mem_singleton] at he
        subst he
        exact ⟨_, hdepth⟩
      · intro e he
        rw [List.mem_singleton] at he
        subst he
        exact hsafe
    · simp only [Bool.not_eq_true] at hd
      have hn0 : n = 0 := by
        by_contra hc
        have := hflag (by omega)
        rw [hd] at this
        cases this
      rw [hd] at hret
      simp only [Bool.false_eq_true, ↓reduceIte] at hret
      obtain ⟨n2, hn2, hp2, -⟩ := lookup_root r1 hne
      rw [← hret] at hn2
      obtain ⟨s2, log1, e2, hhead, hup, hdep, hrot, hsum, hsf⟩ :=
        ih k r1 (EraInv_step f ctx t hI hd) (by simp at hf; omega)
      rw [← hret] at e2
      refine ⟨s2, (⟨s, f.dir, f.id, t.root, n, s1⟩ : fix_step Key) :: log1,
        ?_, ?_, ?_, ?_, ?_, ?_, ?_⟩
      · simp only [erase_loop_log, hcp, hfm, hdir, hdirv, eL, hn2, hp2, e2]
      · intro e he
        simp only [List.head?_cons, Option.some.injEq] at he
        subst he
        exact ⟨rfl, f, ctx, rfl, rfl⟩
      · cases log1 with
        | nil => exact List.chain'_singleton _
        | cons y log2 =>
          refine List.chain'_cons.2 ⟨?_, hup⟩
          obtain ⟨hb, f1, ctx1, rfl, hpar⟩ := hhead y rfl
          refine ⟨ctx1.length, hdepth, ?_⟩
          rw [hb, hpar]
          exact depth_of_Rep r1
      · intro e he
        rcases List.mem_cons.1 he with rfl | he
        · exact ⟨_, hdepth⟩
        · exact hdep e he
      · intro e he
        cases log1 with
        | nil => simp at he
        | cons y log2 =>
          simp only [List.dropLast_cons₂, List.mem_cons] at he
          rcases he with rfl | he
          · exact hn0
          · exact hrot e he
      · simp only [List.map_cons, List.sum_cons]
        omega
      · intro e he
        rcases List.mem_cons.1 he with rfl | he
        · exact hsafe
        · exact hsf e he

/-- The record of the `// rebalancing` block of `erase`. -/
theorem erase_rebalance_log_spec {s : set Key} {ctx : List (Frame Key)} {t : NodeTree Key}
    (color : Bool) (h : Rep s (plug ctx t)) (hP : color = BLACK → t.isRed = false → EraInv ctx t)
    (hlen : ctx.length ≤ s.size_) :
    ∃ s1 log, erase_rebalance_log s (cpar ctx) t.root color = some (s1, log) ∧
      StepsUp log ∧ (∀ e ∈ log, ∃ k, Depth e.before e.parent k) ∧
      (∀ e ∈ log.dropLast, e.rotations = 0) ∧ (log.map fix_step.rotations).sum ≤ 3 ∧
      ∀ e ∈ log, SafeCall e := by
  cases color
  · have hR := is_red_node h
    cases hc : t.isRed
    · obtain ⟨s1, log, e1, -, hup, hdep, hrot, hsum, hsf⟩ :=
        erase_loop_log_spec s.size_ h (hP rfl hc) hlen
      refine ⟨s1, log, ?_, hup, hdep, hrot, hsum, hsf⟩
      simp only [erase_rebalance_log, ↓reduceIte, hR, hc, Bool.false_eq_true, e1]
    · obtain ⟨s1, e1, -⟩ := paint_root_spec BLACK h (child_ne_nil_of_isRed hc)
      refine ⟨s1, [], ?_, List.chain'_nil, by simp, by simp, by simp, by simp⟩
      simp only [erase_rebalance_log, ↓reduceIte, hR, hc, e1, Option.map_some']
  · exact ⟨s, [], by simp [erase_rebalance_log], List.chain'_nil, by simp, by simp, by simp,
      by simp⟩

theorem erase_log_inv {s : set Key} {itr : Option Nat} {r : set Key × Option Nat}
    {log : List (fix_step Key)} (h : erase_log s itr = some (r, log)) :
    ∃ st q, erase_detach s itr = some st ∧
      erase_rebalance_log st.1 st.2.1 st.2.2.1 st.2.2.2 = some q ∧ q.2 = log := by
  unfold erase_log at h
  revert h
  simp only
  cases increment s itr with
  | none => intro h; cases h
  | some x =>
    simp only
    cases erase_detach s itr with
    | none => intro h; cases h
    | some st =>
      simp only
      cases hq : erase_rebalance_log st.1 st.2.1 st.2.2.1 st.2.2.2 with
      | none => intro h; cases h
      | some q =>
        simp only
        cases erase_cleanup q.1 itr with
        | none => intro h; cases h
        | some s2 =>
          intro h
          simp only [Option.some.injEq, Prod.mk.injEq] at h
          exact ⟨st, q, rfl, hq, h.2⟩

/-- The record of `erase(iterator)` on a valid tree: the call returns, the
iterations of the loop go up one level at a time, only the last one rotates,
there are at most three rotations, and every call of `balance_erase` reads and
writes existing nodes only. -/
theorem erase_log_spec {s : set Key} {T : NodeTree Key} (h : Model s T) (hv : Valid T)
    {a : Nat} (ha : IsNode s a) :
    ∃ r log, erase_log s (some a) = some (r, log) ∧ erase s (some a) = some r ∧
      StepsUp log ∧ (∀ e ∈ log, ∃ k, Depth e.before e.parent k) ∧
      (∀ e ∈ log.dropLast, e.rotations = 0) ∧ (log.map fix_step.rotations).sum ≤ 3 ∧
      ∀ e ∈ log, SafeCall e := by
  obtain ⟨ctx, c, l, v, r, rfl⟩ := node_decomp h.1 ha
  obtain ⟨s1, x, e1, -⟩ := erase_model h hv
  obtain ⟨log, eL⟩ := some_of_map_fst ((erase_log_fst s (some a)).trans e1)
  obtain ⟨st, q, hst, hq, hlog⟩ := erase_log_inv eL
  obtain ⟨s2, e2, r2, z2, m2⟩ := erase_detach_spec h.1 h.2
  have hlenP : (eraPos ctx (node a c l v r)).1.length + 1 ≤ s.size_ := by
    have hlen0 := plug_length ctx (node a c l v r)
    have h1 := congrArg List.length (eraPos_length ctx a c l v r)
    have h2 := congrArg List.length (plug_nodes ctx (node a c l v r))
    have h3 := plug_length (eraPos ctx (node a c l v r)).1 (eraPos ctx (node a c l v r)).2.1
    have h4 := length_le_cids (eraPos ctx (node a c l v r)).1
    have hsz := h.2
    simp only [ids, List.length_map, List.length_append, nodes_node, List.length_cons]
      at h1 h2 h3 hsz
    omega
  obtain ⟨s3, log3, e3, hup, hdep, hrot, hsum, hsf⟩ :=
    erase_rebalance_log_spec (eraPos ctx (node a c l v r)).2.2 r2
      (eraT_inv hv.2.1 hv.2.2).1 (by rw [z2]; omega)
  have hst2 := Option.some.inj (hst.symm.trans e2)
  rw [hst2] at hq
  have hq3 := Option.some.inj (hq.symm.trans e3)
  rw [hq3] at hlog
  simp only at hlog
  subst hlog
  exact ⟨(s1, x), log3, eL, e1, hup, hdep, hrot, hsum, hsf⟩

end taapp

namespace taapp
variable {Key : Type}
open NodeTree

/-! ## The calls of `balance_erase` made by `erase` (claim C39) -/

/-- C39: on a state that holds a tree with the red-black conditions,
`erase(iterator)` at a node of the tree returns, and for every call
`balance_erase<Direction>(parent, child)` that its loop makes (the entries of
the record of `erase_log`, whose result is that of `erase`): the sibling on
the opposite side of `parent` is a node at entry; if it is RED, the rotation
returns and the sibling read again after it is a node; if there is a rotation
of case 5 and 6, the new root of the subtree has two children that are nodes;
and the call returns, which in this model means that no read or write in
`balance_erase` and `rotate` went through a null pointer or to an address that
holds no node. -/
theorem balance_erase_calls_are_safe (s : set Key) (T : NodeTree Key) (h : Model s T)
    (hv : Valid T) (a : Nat) (ha : IsNode s a) :
    ∃ r log, erase_log s (some a) = some (r, log) ∧ erase s (some a) = some r ∧
      ∀ e ∈ log, SafeCall e := by
  obtain ⟨r, log, eL, e1, -, -, -, -, hsf⟩ := erase_log_spec h hv ha
  exact ⟨r, log, eL, e1, hsf⟩

end taapp

namespace taapp
variable {Key : Type}
open NodeTree

/-! ## Termination and rotation counts of the two loops (claim C40) -/

/-- C40: on a state that holds a tree with the red-black conditions, `insert(k)`
for every key and `erase(iterator)` at every node of the tree return, with the
loops run on the fuel `size_`; in the record of the iterations of the loop
(one entry for each call of `balance_insert` or `balance_erase`) every entry
starts at a node of some depth, consecutive entries start at depths `k + 1`
and `k`, every entry but the last makes no rotation, and the calls of
`rotate` of all entries together are at most 2 for `insert` and at most 3 for
`erase(iterator)`. -/
theorem fixup_loops_terminate_with_bounded_rotations (lt : Key → Key → Bool) (s : set Key)
    (T : NodeTree Key) (h : Model s T) (hv : Valid T) :
    (∀ k, ∃ r log, insert_log lt k s = some (r, log) ∧ insert lt k s = some r ∧
      StepsUp log ∧ (∀ e ∈ log, ∃ j, Depth e.before e.parent j) ∧
      (∀ e ∈ log.dropLast, e.rotations = 0) ∧ (log.map fix_step.rotations).sum ≤ 2) ∧
    (∀ a, IsNode s a → ∃ r log, erase_log s (some a) = some (r, log) ∧
      erase s (some a) = some r ∧
      StepsUp log ∧ (∀ e ∈ log, ∃ j, Depth e.before e.parent j) ∧
      (∀ e ∈ log.dropLast, e.rotations = 0) ∧ (log.map fix_step.rotations).sum ≤ 3) := by
  refine ⟨fun k => insert_log_spec lt k h, fun a ha => ?_⟩
  obtain ⟨r, log, eL, e1, hup, hdep, hrot, hsum, -⟩ := erase_log_spec h hv ha
  exact ⟨r, log, eL, e1, hup, hdep, hrot, hsum⟩

end taapp

namespace taapp
namespace unordered_map
open list
variable {Key V : Type}

/-! ## The nodes and pairs of all buckets -/

theorem mem_all_nodes {m : unordered_map Key V} {nodes : Nat → List Nat} {x : Nat} :
    x ∈ all_nodes m nodes ↔ Stored m nodes x := by
  unfold all_nodes Stored
  rw [List.mem_flatMap]
  constructor
  · rintro ⟨a, ha, hx⟩
    obtain ⟨i, hi, rfl⟩ := mem_anchors.1 ha
    exact ⟨i, hi, hx⟩
  · rintro ⟨i, hi, hx⟩
    exact ⟨_, mem_anchors.2 ⟨i, hi, rfl⟩, hx⟩

theorem flatMap_values {T : Type} {mem : memory T} {nodes : Nat → List Nat}
    {vals : Nat → List T} : ∀ (L : List Nat),
    (∀ a ∈ L, (nodes a).map (value mem) = (vals a).map some) →
    (L.flatMap nodes).map (value mem) = (L.flatMap vals).map some := by
  intro L
  induction L with
  | nil => intro _; rfl
  | cons a L ih =>
    intro h
    rw [List.flatMap_cons, List.flatMap_cons, List.map_append, List.map_append,
      h a (List.mem_cons_self _ _), ih (fun b hb => h b (List.mem_cons_of_mem _ hb))]

theorem all_nodes_values {m : unordered_map Key V}
    {nodes : Nat → List Nat} {vals : Nat → List (Key × V)}
    (h : Layout { mem := m.mem, lists := anchors m.buckets_ m.numbuckets_ } nodes vals) :
    (all_nodes m nodes).map (value m.mem) = (all_vals m vals).map some :=
  flatMap_values _ (fun a ha => (h.2.1 a ha).1.2)

theorem all_nodes_nodup {m : unordered_map Key V}
    {nodes : Nat → List Nat} {vals : Nat → List (Key × V)}
    (h : Layout { mem := m.mem, lists := anchors m.buckets_ m.numbuckets_ } nodes vals) :
    (all_nodes m nodes).Nodup := by
  unfold all_nodes
  rw [List.nodup_flatMap]
  obtain ⟨hnd, hl, hd⟩ := h
  refine ⟨fun a ha => (List.nodup_cons.1 (hl a ha).1.1.2.1).2, ?_⟩
  refine List.Pairwise.imp_of_mem ?_ (List.Nodup.pairwise_of_forall_ne hnd (fun a _ b _ h => h))
  intro a b ha hb hab x hxa hxb
  exact hd a ha b hb hab x (List.mem_cons_of_mem _ hxa) (List.mem_cons_of_mem _ hxb)

theorem all_vals_length {m : unordered_map Key V}
    {nodes : Nat → List Nat} {vals : Nat → List (Key × V)}
    (h : Layout { mem := m.mem, lists := anchors m.buckets_ m.numbuckets_ } nodes vals) :
    (all_vals m vals).length = (all_nodes m nodes).length := by
  have := congrArg List.length (all_nodes_values h)
  simpa using this.symm

theorem length_le_flatMap {f : Nat → List Nat} : ∀ {L : List Nat} {a : Nat}, a ∈ L →
    (f a).length ≤ (L.flatMap f).length := by
  intro L
  induction L with
  | nil => intro a ha; cases ha
  | cons b L ih =>
    intro a ha
    rw [List.flatMap_cons, List.length_append]
    rcases List.mem_cons.1 ha with rfl | ha
    · omega
    · have := ih ha
      omega

theorem bucket_length_le (m : unordered_map Key V) (nodes : Nat → List Nat) {i : Nat}
    (hi : i < m.numbuckets_) :
    (nodes (m.buckets_ + i)).length ≤ (all_nodes m nodes).length :=
  length_le_flatMap (mem_anchors.2 ⟨i, hi, rfl⟩)

/-- The fuel `size_` is enough for every bucket. -/
theorem Counted.fuel {hasher : Key → Nat} {m : unordered_map Key V} {nodes : Nat → List Nat}
    {vals : Nat → List (Key × V)} (h : Counted hasher m nodes vals) {fuel : Nat}
    (hf : m.size_ ≤ fuel) :
    ∀ i, i < m.numbuckets_ → (nodes (m.buckets_ + i)).length ≤ fuel := by
  intro i hi
  have := bucket_length_le m nodes hi
  rw [← h.2] at this
  omega

/-- Two lists of nodes without repetition that have the same members hold
the same values, up to the order. -/
theorem perm_of_values {T : Type} {f : Nat → Option T} {l l1 : List Nat} {xs xs1 : List T}
    (hl : l.Nodup) (hl1 : l1.Nodup) (hm : ∀ x, x ∈ l1 ↔ x ∈ l)
    (hv : l.map f = xs.map some) (hv1 : l1.map f = xs1.map some) : xs1.Perm xs := by
  have hp : l1.Perm l := (List.perm_ext_iff_of_nodup hl1 hl).2 hm
  have h2 := (hp.map f).filterMap id
  rw [hv, hv1] at h2
  simpa [List.filterMap_map] using h2

theorem stored_value {hasher : Key → Nat} {m : unordered_map Key V} {nodes : Nat → List Nat}
    {vals : Nat → List (Key × V)} (h : MapInv hasher m nodes vals) {i x : Nat}
    (hi : i < m.numbuckets_) (hx : x ∈ nodes (m.buckets_ + i)) :
    ∃ kv, value m.mem x = some kv ∧ kv ∈ vals (m.buckets_ + i) ∧ x ≠ 0 := by
  obtain ⟨hil, h0⟩ := h.1.2.1 _ (mem_anchors.2 ⟨i, hi, rfl⟩)
  obtain ⟨l1, l2, e⟩ := List.append_of_mem hx
  dsimp only at hil h0
  rw [e] at hil
  obtain ⟨v, hv, hg⟩ := IsList_value hil
  refine ⟨v, hv, ?_, ?_⟩
  · obtain ⟨hlt, he⟩ := List.getElem?_eq_some.1 hg
    rw [← he]
    exact List.getElem_mem _
  · rintro rfl
    exact h0 (List.mem_cons_of_mem _ hx)

theorem mem_all_vals {m : unordered_map Key V} {vals : Nat → List (Key × V)} {kv : Key × V} :
    kv ∈ all_vals m vals ↔ ∃ i, i < m.numbuckets_ ∧ kv ∈ vals (m.buckets_ + i) := by
  unfold all_vals
  rw [List.mem_flatMap]
  constructor
  · rintro ⟨a, ha, hx⟩
    obtain ⟨i, hi, rfl⟩ := mem_anchors.1 ha
    exact ⟨i, hi, hx⟩
  · rintro ⟨i, hi, hx⟩
    exact ⟨_, mem_anchors.2 ⟨i, hi, rfl⟩, hx⟩

/-- A well-formed map whose `size_` is the number of its nodes, from the
parts of `MapInv` that do not follow from the count. -/
theorem Counted.mk_of_layout {hasher : Key → Nat} {m : unordered_map Key V}
    {nodes : Nat → List Nat} {vals : Nat → List (Key × V)}
    (hl : Layout { mem := m.mem, lists := anchors m.buckets_ m.numbuckets_ } nodes vals)
    (hh : ∀ i, i < m.numbuckets_ → ∀ kv ∈ vals (m.buckets_ + i),
      hasher kv.1 % m.numbuckets_ = i)
    (hz : m.numbuckets_ = 0 → m.buckets_ = 0) (hnz : 0 < m.numbuckets_ → m.buckets_ ≠ 0)
    (hs : m.size_ = (all_nodes m nodes).length) : Counted hasher m nodes vals := by
  refine ⟨⟨hl, hh, fun h0 => ⟨hz h0, ?_⟩, hnz, fun h0 i hi => ?_⟩, hs⟩
  · rw [hs]
    unfold all_nodes anchors
    rw [h0]
    rfl
  · have := bucket_length_le m nodes hi
    rw [← hs, h0] at this
    exact List.length_eq_zero.1 (by omega)

end unordered_map
end taapp

namespace taapp
namespace unordered_map
open list
variable {Key V : Type}

/-! ## `erase` -/

theorem removed_of_unlinked {T : Type} {m m1 m2 : memory T} {q n p : Nat}
    (hu : Unlinked m m1 q n p)
    (a2 : ∀ x, anext m2 x = if x = n then none else anext m1 x)
    (p2 : ∀ x, aprev m2 x = if x = n then none else aprev m1 x)
    (v2 : ∀ x, value m2 x = if x = n then none else value m1 x) : Removed m m2 q n p := by
  refine ⟨fun x => ?_, fun x => ?_, fun x => ?_⟩
  · rw [a2]
    by_cases hx : x = n
    · rw [if_pos hx, if_pos hx]
    · rw [if_neg hx, if_neg hx, hu.1 x hx]
  · rw [p2]
    by_cases hx : x = n
    · rw [if_pos hx, if_pos hx]
    · rw [if_neg hx, if_neg hx, hu.2.1 x hx]
  · rw [v2]
    by_cases hx : x = n
    · rw [if_pos hx, if_pos hx]
    · rw [if_neg hx, if_neg hx, hu.2.2 x hx]

/-- The call `erase(itr)` for an iterator at the stored node `n`: the node is
unlinked and released, `size_` is one less, and the other nodes stay. -/
theorem map_erase_spec (hasher : Key → Nat) {m : unordered_map Key V}
    {nodes : Nat → List Nat} {vals : Nat → List (Key × V)} (h : Counted hasher m nodes vals)
    {i n : Nat} (hi : i < m.numbuckets_) (hn : n ∈ nodes (m.buckets_ + i)) (itr : iterator)
    (hit : itr.node_ = n) :
    ∃ m1 nodes1 vals1 kv, erase m itr = some m1 ∧ Counted hasher m1 nodes1 vals1 ∧
      value m.mem n = some kv ∧ kv ∈ vals (m.buckets_ + i) ∧
      m1.buckets_ = m.buckets_ ∧ m1.numbuckets_ = m.numbuckets_ ∧ m1.size_ + 1 = m.size_ ∧
      (∀ x, Stored m1 nodes1 x ↔ (Stored m nodes x ∧ x ≠ n)) ∧
      (∀ x, x ≠ n → value m1.mem x = value m.mem x) ∧ m1.mem n = none ∧
      (kv :: all_vals m1 vals1).Perm (all_vals m vals) := by
  obtain ⟨hinv, hsz⟩ := h
  obtain ⟨hl, hh, hz, hnz, -⟩ := hinv
  have ha : m.buckets_ + i ∈ anchors m.buckets_ m.numbuckets_ := mem_anchors.2 ⟨i, hi, rfl⟩
  obtain ⟨hil0, h0⟩ := hl.2.1 _ ha
  dsimp only at hil0 h0
  obtain ⟨l1, l2, e⟩ := List.append_of_mem hn
  have hil := hil0
  rw [e] at hil
  obtain ⟨q, hq⟩ := getLast?_cons_some (m.buckets_ + i) l1
  obtain ⟨p, hp⟩ := head?_append_some l2 (m.buckets_ + i)
  obtain ⟨lq, lp, hqn, hpn, hna, -, -, hnd, hnn⟩ := Ring_links hil.1 hq hp
  obtain ⟨kv, hkv, hg⟩ := IsList_value hil
  have hkvm : kv ∈ vals (m.buckets_ + i) := by
    obtain ⟨hlt, he⟩ := List.getElem?_eq_some.1 hg
    rw [← he]
    exact List.getElem_mem _
  have hqm : q ∈ (m.buckets_ + i) :: nodes (m.buckets_ + i) := by
    have := mem_of_getLast? hq
    rw [e]
    simp only [List.mem_cons, List.mem_append] at this ⊢
    tauto
  have hpm : p ∈ (m.buckets_ + i) :: nodes (m.buckets_ + i) := by
    have := mem_of_head? hp
    rw [e]
    simp only [List.mem_cons, List.mem_append, List.mem_singleton] at this ⊢
    tauto
  have hpa := Ring_allocated hil0.1 hpm
  have hqa : (anext m.mem q).isSome = true := by rw [lq.1]; rfl
  obtain ⟨mem1, e1, hu, hv1, -⟩ := bucket_erase_effect itr.bucket_ lq.2 lp.1 hqn hqa hpa
  obtain ⟨mem2, e2, a2, p2, v2⟩ :=
    delete_node_spec (show value mem1 n = some kv by rw [hv1, hkv])
  have hrem : Removed m.mem mem2 q n p := removed_of_unlinked hu a2 p2 v2
  have h1 := IsList_remove hil hq hp hrem
  have hsub : ∀ x ∈ l1 ++ l2, x ∈ nodes (m.buckets_ + i) := by
    intro x hx
    rw [e]
    simp only [List.mem_append, List.mem_cons] at hx ⊢
    tauto
  have hlay := Layout_removed hl ha h1 hsub hrem hqm hpm hn
  have hst : ∀ x, (∃ j, j < m.numbuckets_ ∧
      x ∈ Function.update nodes (m.buckets_ + i) (l1 ++ l2) (m.buckets_ + j)) ↔
      (Stored m nodes x ∧ x ≠ n) := by
    intro x
    constructor
    · rintro ⟨j, hj, hx⟩
      by_cases hji : j = i
      · subst hji
        rw [Function.update_same] at hx
        refine ⟨⟨j, hj, hsub x hx⟩, ?_⟩
        rintro rfl
        exact hnn (List.mem_cons_of_mem _ hx)
      · rw [Function.update_noteq (by omega)] at hx
        refine ⟨⟨j, hj, hx⟩, ?_⟩
        rintro rfl
        exact hl.2.2 _ ha _ (mem_anchors.2 ⟨j, hj, rfl⟩) (by omega) x
          (List.mem_cons_of_mem _ hn) (List.mem_cons_of_mem _ hx)
    · rintro ⟨⟨j, hj, hx⟩, hxn⟩
      refine ⟨j, hj, ?_⟩
      by_cases hji : j = i
      · subst hji
        rw [Function.update_same]
        rw [e] at hx
        simp only [List.mem_append, List.mem_cons] at hx ⊢
        tauto
      · rw [Function.update_noteq (by omega)]
        exact hx
  let m1 : unordered_map Key V := ⟨mem2, m.buckets_, m.numbuckets_, m.size_ - 1⟩
  have hlay1 : Layout { mem := m1.mem, lists := anchors m1.buckets_ m1.numbuckets_ }
      (Function.update nodes (m.buckets_ + i) (l1 ++ l2))
      (Function.update vals (m.buckets_ + i)
        ((vals (m.buckets_ + i)).take l1.length ++ (vals (m.buckets_ + i)).drop (l1.length + 1))) :=
    hlay
  have hst1 : ∀ x, x ∈ all_nodes m1 (Function.update nodes (m.buckets_ + i) (l1 ++ l2)) ↔
      (Stored m nodes x ∧ x ≠ n) := fun x => mem_all_nodes.trans (hst x)
  have hnd1 := all_nodes_nodup hlay1
  have hnd0 := all_nodes_nodup hl
  have hnst : Stored m nodes n := ⟨i, hi, hn⟩
  have hnd2 : (n :: all_nodes m1 (Function.update nodes (m.buckets_ + i) (l1 ++ l2))).Nodup :=
    List.nodup_cons.2 ⟨fun hx => ((hst1 n).1 hx).2 rfl, hnd1⟩
  have hmem2 : ∀ x, x ∈ n :: all_nodes m1 (Function.update nodes (m.buckets_ + i) (l1 ++ l2)) ↔
      x ∈ all_nodes m nodes := by
    intro x
    rw [List.mem_cons, hst1, mem_all_nodes]
    constructor
    · rintro (rfl | ⟨hx, -⟩)
      · exact hnst
      · exact hx
    · intro hx
      by_cases hxn : x = n
      · exact Or.inl hxn
      · exact Or.inr ⟨hx, hxn⟩
  have hperm := (List.perm_ext_iff_of_nodup hnd2 hnd0).2 hmem2
  have hlen := hperm.length_eq
  rw [List.length_cons] at hlen
  have hval : ∀ x, x ≠ n → value mem2 x = value m.mem x := by
    intro x hx
    rw [v2, if_neg hx, hu.2.2 x hx]
  have hv2 : (n :: all_nodes m1 (Function.update nodes (m.buckets_ + i) (l1 ++ l2))).map
      (value m.mem) = (kv :: all_vals m1 (Function.update vals (m.buckets_ + i)
        ((vals (m.buckets_ + i)).take l1.length ++
          (vals (m.buckets_ + i)).drop (l1.length + 1)))).map some := by
    rw [List.map_cons, List.map_cons, hkv, ← all_nodes_values hlay1]
    congr 1
    refine List.map_congr_left (fun x hx => ?_)
    exact (hval x ((hst1 x).1 hx).2).symm
  refine ⟨m1, Function.update nodes (m.buckets_ + i) (l1 ++ l2),
    Function.update vals (m.buckets_ + i)
      ((vals (m.buckets_ + i)).take l1.length ++ (vals (m.buckets_ + i)).drop (l1.length + 1)),
    kv, ?_, ?_, hkv, hkvm, rfl, rfl, ?_, hst, hval, ?_, ?_⟩
  · unfold erase
    rw [hit, e1]
    simp only [e2]
  · refine Counted.mk_of_layout hlay1 ?_ (fun h0 => (hz h0).1) hnz ?_
    · intro j hj kv1 hk1
      show hasher kv1.1 % m.numbuckets_ = j
      by_cases hji : j = i
      · subst hji
        have hk2 : kv1 ∈ (vals (m.buckets_ + j)).take l1.length ++
            (vals (m.buckets_ + j)).drop (l1.length + 1) := by
          have := hk1
          simp only [m1] at this
          rw [Function.update_same] at this
          exact this
        rcases List.mem_append.1 hk2 with hk | hk
        · exact hh j hj kv1 (List.mem_of_mem_take hk)
        · exact hh j hj kv1 (List.mem_of_mem_drop hk)
      · have hk2 : kv1 ∈ vals (m.buckets_ + j) := by
          have := hk1
          simp only [m1] at this
          rw [Function.update_noteq (by omega)] at this
          exact this
        exact hh j hj kv1 hk2
    · show m.size_ - 1 = _
      omega
  · show m.size_ - 1 + 1 = m.size_
    omega
  · show mem2 n = none
    have := a2 n
    rw [if_pos rfl] at this
    have h2 := mem_isSome mem2 n
    rw [this] at h2
    cases hm : mem2 n with
    | none => rfl
    | some c => rw [hm] at h2; cases h2
  · exact perm_of_values hnd0 hnd2 hmem2 (all_nodes_values hl) hv2

end unordered_map
end taapp

namespace taapp
namespace unordered_map
open list
variable {Key V : Type}

/-! ## `clear` -/

theorem clear_bucket_loop_eq : ∀ (fuel : Nat) (mem : memory (Key × V)) (bitr n : Nat),
    clear_bucket_loop fuel mem bitr n = list.clear_loop fuel mem bitr n := by
  intro fuel
  induction fuel with
  | zero =>
    intro mem bitr n
    unfold clear_bucket_loop list.clear_loop
    rfl
  | succ f ih =>
    intro mem bitr n
    unfold clear_bucket_loop list.clear_loop
    by_cases h : n ≠ bitr
    · rw [if_pos h, if_pos h]
      simp only
      cases anext mem n with
      | none => rfl
      | some next =>
        simp only
        cases delete_node mem n with
        | none => rfl
        | some mem1 => exact ih mem1 bitr next
    · rw [if_neg h, if_neg h]

theorem anext_of_eq {T : Type} {m m1 : memory T} {x : Nat} (h : m1 x = m x) :
    anext m1 x = anext m x ∧ aprev m1 x = aprev m x ∧ value m1 x = value m x := by
  unfold anext aprev value
  rw [h]
  exact ⟨rfl, rfl, rfl⟩

/-- One iteration of the outer loop of `clear`: the nodes of the bucket are
released and the bucket is an empty ring. -/
theorem clear_bucket_step {mem : memory (Key × V)} {L : List Nat} {nodes : Nat → List Nat}
    {vals : Nat → List (Key × V)} (hl : Layout { mem := mem, lists := L } nodes vals)
    {b : Nat} (hb : b ∈ L) {fuel : Nat} (hf : (vals b).length ≤ fuel) :
    ∃ n mem1 mem2 mem3, anext mem b = some n ∧ clear_bucket_loop fuel mem b n = some mem1 ∧
      set_aprev mem1 b b = some mem2 ∧ set_anext mem2 b b = some mem3 ∧
      Layout { mem := mem3, lists := L } (Function.update nodes b [])
        (Function.update vals b []) := by
  obtain ⟨hil, h0⟩ := hl.2.1 b hb
  dsimp only at hil h0
  obtain ⟨m1, e1, hfree, hkeep⟩ := clear_spec hil hf
  have hbn : b ∉ nodes b := (List.nodup_cons.1 hil.1.2.1).1
  have hba := Ring_allocated hil.1 (List.mem_cons_self b (nodes b))
  obtain ⟨n, hn⟩ := Option.isSome_iff_exists.1 hba
  have hb1 := anext_of_eq (hkeep b hbn)
  obtain ⟨m2, e2, a2, p2, v2⟩ := set_aprev_spec (m := m1) (p := b) b (by rw [hb1.1]; exact hba)
  obtain ⟨m3, e3, a3, p3, v3⟩ := set_anext_spec (m := m2) (p := b) b
    (by rw [a2, hb1.1]; exact hba)
  refine ⟨n, m1, m2, m3, hn, ?_, e2, e3, ?_⟩
  · rw [clear_bucket_loop_eq]
    unfold list.clear at e1
    rw [hn] at e1
    exact e1
  · have h1 : IsList m3 b [] [] := by
      refine ⟨⟨?_, List.nodup_singleton b, ?_⟩, rfl⟩
      · have : b :: ([] : List Nat) ++ [b] = [b, b] := rfl
        rw [this, List.chain'_pair]
        refine ⟨?_, ?_⟩
        · rw [a3, if_pos rfl]
        · rw [p3, p2, if_pos rfl]
      · rw [v3, v2, hb1.2.2]
        exact hil.1.2.2
    refine Layout_update hl hb h1 (by simp) (fun x hx => by simp at hx) ?_
    intro c hc hcb x hx
    have hxb : x ∉ b :: nodes b := fun hxb => hl.2.2 c hc b hb hcb x hx hxb
    have hxb1 : x ≠ b := fun e => hxb (by rw [e]; exact List.mem_cons_self _ _)
    have hxb2 : x ∉ nodes b := fun e => hxb (List.mem_cons_of_mem _ e)
    have hx1 := anext_of_eq (hkeep x hxb2)
    refine ⟨?_, ?_, ?_⟩
    · show anext m3 x = anext mem x
      rw [a3, if_neg hxb1, a2, hx1.1]
    · show aprev m3 x = aprev mem x
      rw [p3, p2, if_neg hxb1, hx1.2.1]
    · show value m3 x = value mem x
      rw [v3, v2, hx1.2.2]

theorem clear_loop_spec2 {b0 n fuel : Nat} :
    ∀ (c i : Nat) (mem : memory (Key × V)) (nodes : Nat → List Nat)
      (vals : Nat → List (Key × V)), i + c = n →
    Layout { mem := mem, lists := anchors b0 n } nodes vals →
    (∀ j, i ≤ j → j < n → (vals (b0 + j)).length ≤ fuel) →
    (∀ j, j < i → nodes (b0 + j) = [] ∧ vals (b0 + j) = []) →
    ∃ mem1 nodes1 vals1, clear_loop fuel c mem (b0 + i) = some mem1 ∧
      Layout { mem := mem1, lists := anchors b0 n } nodes1 vals1 ∧
      ∀ j, j < n → nodes1 (b0 + j) = [] ∧ vals1 (b0 + j) = [] := by
  intro c
  induction c with
  | zero =>
    intro i mem nodes vals hic hl _ hdone
    refine ⟨mem, nodes, vals, ?_, hl, fun j hj => hdone j (by omega)⟩
    simp only [clear_loop]
  | succ c ih =>
    intro i mem nodes vals hic hl hf hdone
    have hb : b0 + i ∈ anchors b0 n := mem_anchors.2 ⟨i, by omega, rfl⟩
    obtain ⟨x, m1, m2, m3, e0, e1, e2, e3, hl3⟩ :=
      clear_bucket_step hl hb (hf i (Nat.le_refl _) (by omega))
    obtain ⟨mem1, nodes1, vals1, e4, hl4, hall⟩ := ih (i + 1) m3 _ _ (by omega) hl3
      (fun j hj1 hj2 => by
        rw [Function.update_noteq (by omega)]
        exact hf j (by omega) hj2)
      (fun j hj => by
        by_cases hji : j = i
        · subst hji
          rw [Function.update_same, Function.update_same]
          exact ⟨rfl, rfl⟩
        · rw [Function.update_noteq (by omega), Function.update_noteq (by omega)]
          exact hdone j (by omega))
    refine ⟨mem1, nodes1, vals1, ?_, hl4, hall⟩
    simp only [clear_loop, e0, e1, e2, e3]
    exact e4

theorem all_nodes_nil (m : unordered_map Key V) : all_nodes m (fun _ => []) = [] := by
  unfold all_nodes
  induction anchors m.buckets_ m.numbuckets_ with
  | nil => rfl
  | cons a L ih => rw [List.flatMap_cons, ih]; rfl

theorem all_vals_nil (m : unordered_map Key V) :
    all_vals m (fun _ => ([] : List (Key × V))) = [] := by
  unfold all_vals
  induction anchors m.buckets_ m.numbuckets_ with
  | nil => rfl
  | cons a L ih => rw [List.flatMap_cons, ih]; rfl

/-- The call `clear()` returns; all buckets are empty rings after it and
`size_` is zero. -/
theorem map_clear_spec (hasher : Key → Nat) {m : unordered_map Key V}
    {nodes : Nat → List Nat} {vals : Nat → List (Key × V)} (h : Counted hasher m nodes vals)
    {fuel : Nat} (hf : m.size_ ≤ fuel) :
    ∃ m1, clear fuel m = some m1 ∧ Counted hasher m1 (fun _ => []) (fun _ => []) ∧
      m1.size_ = 0 ∧ m1.buckets_ = m.buckets_ ∧ m1.numbuckets_ = m.numbuckets_ := by
  have hfu := h.fuel hf
  obtain ⟨⟨hl, hh, hz, hnz, -⟩, hsz⟩ := h
  obtain ⟨mem1, nodes1, vals1, e1, hl1, hall⟩ := @clear_loop_spec2 Key V m.buckets_ m.numbuckets_ fuel
    m.numbuckets_ 0 m.mem nodes vals (by omega) hl
    (fun j _ hj => by
      have := hfu j hj
      rw [← values_length (hl.2.1 _ (mem_anchors.2 ⟨j, hj, rfl⟩)).1.2]
      exact this)
    (fun j hj => absurd hj (by omega))
  have hl2 : Layout { mem := mem1, lists := anchors m.buckets_ m.numbuckets_ }
      (fun _ => []) (fun _ => ([] : List (Key × V))) := by
    refine Layout_ext hl1 (fun a ha => ?_)
    obtain ⟨j, hj, rfl⟩ := mem_anchors.1 ha
    exact ⟨(hall j hj).1.symm, (hall j hj).2.symm⟩
  refine ⟨⟨mem1, m.buckets_, m.numbuckets_, 0⟩, ?_, ?_, rfl, rfl, rfl⟩
  · unfold clear
    rw [Nat.add_zero] at e1
    rw [e1]
  · refine Counted.mk_of_layout hl2 (fun i _ kv hkv => by simp at hkv)
      (fun h0 => (hz h0).1) hnz ?_
    rw [all_nodes_nil]
    rfl

end unordered_map
end taapp

namespace taapp
namespace unordered_map
open list
variable {Key V : Type}

/-! ## The steps of a run at the level of the stored pairs -/

/-- A well-formed map with the nodes of a counted map, holding the same
pairs, is counted and has the same pairs. -/
theorem counted_of_same {hasher : Key → Nat} {m m1 : unordered_map Key V}
    {nodes nodes1 : Nat → List Nat} {vals vals1 : Nat → List (Key × V)}
    (h1 : MapInv hasher m1 nodes1 vals1) (h : Counted hasher m nodes vals)
    (hst : ∀ x, Stored m1 nodes1 x ↔ Stored m nodes x)
    (hv : ∀ x, Stored m nodes x → value m1.mem x = value m.mem x)
    (hs : m1.size_ = m.size_) :
    Counted hasher m1 nodes1 vals1 ∧ (all_vals m1 vals1).Perm (all_vals m vals) := by
  have hnd := all_nodes_nodup h.1.1
  have hnd1 := all_nodes_nodup h1.1
  have hm : ∀ x, x ∈ all_nodes m1 nodes1 ↔ x ∈ all_nodes m nodes := fun x =>
    mem_all_nodes.trans ((hst x).trans mem_all_nodes.symm)
  have hp := (List.perm_ext_iff_of_nodup hnd1 hnd).2 hm
  refine ⟨⟨h1, ?_⟩, ?_⟩
  · rw [hs, h.2, hp.length_eq]
  · refine perm_of_values hnd hnd1 hm (all_nodes_values h.1.1) ?_
    rw [← all_nodes_values h1.1]
    refine List.map_congr_left (fun x hx => ?_)
    exact (hv x (mem_all_nodes.1 ((hm x).1 hx))).symm

/-- A well-formed map with the nodes of a counted map and one more is
counted and has one more pair. -/
theorem counted_of_added {hasher : Key → Nat} {m m1 : unordered_map Key V}
    {nodes nodes1 : Nat → List Nat} {vals vals1 : Nat → List (Key × V)} {n : Nat} {v : Key × V}
    (h1 : MapInv hasher m1 nodes1 vals1) (h : Counted hasher m nodes vals)
    (hn : ¬ Stored m nodes n)
    (hst : ∀ x, Stored m1 nodes1 x ↔ (x = n ∨ Stored m nodes x))
    (hvn : value m1.mem n = some v)
    (hv : ∀ x, Stored m nodes x → value m1.mem x = value m.mem x)
    (hs : m1.size_ = m.size_ + 1) :
    Counted hasher m1 nodes1 vals1 ∧ (all_vals m1 vals1).Perm (v :: all_vals m vals) := by
  have hnd : (n :: all_nodes m nodes).Nodup :=
    List.nodup_cons.2 ⟨fun hx => hn (mem_all_nodes.1 hx), all_nodes_nodup h.1.1⟩
  have hnd1 := all_nodes_nodup h1.1
  have hm : ∀ x, x ∈ all_nodes m1 nodes1 ↔ x ∈ n :: all_nodes m nodes := by
    intro x
    rw [List.mem_cons, mem_all_nodes, mem_all_nodes]
    exact hst x
  have hp := (List.perm_ext_iff_of_nodup hnd1 hnd).2 hm
  refine ⟨⟨h1, ?_⟩, ?_⟩
  · rw [hs, h.2, hp.length_eq, List.length_cons]
  · refine perm_of_values (f := value m1.mem) hnd hnd1 hm ?_ (all_nodes_values h1.1)
    rw [List.map_cons, List.map_cons, hvn, ← all_nodes_values h.1.1]
    congr 1
    refine List.map_congr_left (fun x hx => ?_)
    exact hv x (mem_all_nodes.1 hx)

/-- The call `rehash(count)` on a counted map returns a counted map with the
same nodes and pairs. -/
theorem map_rehash_step (hasher : Key → Nat) {m : unordered_map Key V}
    {nodes : Nat → List Nat} {vals : Nat → List (Key × V)} (h : Counted hasher m nodes vals)
    {fuel : Nat} (hf : m.size_ ≤ fuel) {freshb count : Nat}
    (hal : count > m.numbuckets_ → freshb ≠ 0 ∧
      ∀ x, freshb ≤ x → x < freshb + count → m.mem x = none) :
    ∃ m1 nodes1 vals1, rehash hasher fuel freshb m count = some m1 ∧
      Counted hasher m1 nodes1 vals1 ∧ (all_vals m1 vals1).Perm (all_vals m vals) ∧
      (∀ x, Stored m1 nodes1 x ↔ Stored m nodes x) ∧
      (∀ x, Stored m nodes x → value m1.mem x = value m.mem x) ∧ m1.size_ = m.size_ ∧
      (0 < m.numbuckets_ → 0 < m1.numbuckets_) := by
  by_cases hc : count > m.numbuckets_
  · obtain ⟨hfb, hfree⟩ := hal hc
    obtain ⟨m1, nodes1, vals1, e1, hi1, -, hn1, hs1, hst, hv⟩ :=
      rehash_spec hasher h.1 (h.fuel hf) hc hfb hfree
    obtain ⟨hc1, hp1⟩ := counted_of_same hi1 h hst hv hs1
    exact ⟨m1, nodes1, vals1, e1, hc1, hp1, hst, hv, hs1, fun _ => by omega⟩
  · refine ⟨m, nodes, vals, ?_, h, List.Perm.refl _, fun _ => Iff.rfl, fun _ _ => rfl, rfl,
      fun h0 => h0⟩
    unfold rehash
    rw [if_neg hc]

/-- The statement of `insert` that may rehash, with the answer of the
allocator needed only if it does. -/
theorem reserve_step (hasher : Key → Nat) (full : Nat → Nat → Bool) {m : unordered_map Key V}
    {nodes : Nat → List Nat} {vals : Nat → List (Key × V)} (h : Counted hasher m nodes vals)
    {fuel : Nat} (hf : m.size_ ≤ fuel) {freshb : Nat}
    (hal : (m.size_ = 0 ∨ full m.size_ m.numbuckets_ = true) →
      m.numbuckets_ < calc_table_size (m.numbuckets_ + 1) →
      freshb ≠ 0 ∧ ∀ x, freshb ≤ x → x < freshb + calc_table_size (m.numbuckets_ + 1) →
        m.mem x = none) :
    ∃ m1 nodes1 vals1, reserve hasher full fuel freshb m = some m1 ∧
      Counted hasher m1 nodes1 vals1 ∧ (all_vals m1 vals1).Perm (all_vals m vals) ∧
      (∀ x, Stored m1 nodes1 x ↔ Stored m nodes x) ∧
      (∀ x, Stored m nodes x → value m1.mem x = value m.mem x) ∧ m1.size_ = m.size_ ∧
      0 < m1.numbuckets_ := by
  unfold reserve
  by_cases hr : m.size_ = 0 ∨ full m.size_ m.numbuckets_ = true
  · rw [if_pos hr]
    obtain ⟨m1, nodes1, vals1, e1, hc1, hp1, hst, hv, hs1, hpos⟩ :=
      @map_rehash_step Key V hasher m nodes vals h fuel hf freshb
        (calc_table_size (m.numbuckets_ + 1)) (fun hc => hal hr hc)
    refine ⟨m1, nodes1, vals1, e1, hc1, hp1, hst, hv, hs1, ?_⟩
    by_cases hc : calc_table_size (m.numbuckets_ + 1) > m.numbuckets_
    · obtain ⟨hfb, hfree⟩ := hal hr hc
      obtain ⟨m2, nodes2, vals2, e2, -, -, hn2, -⟩ :=
        rehash_spec hasher h.1 (h.fuel hf) hc hfb hfree
      rw [e1] at e2
      cases e2
      omega
    · have := calc_table_size_pos (m.numbuckets_ + 1)
      exact hpos (by omega)
  · rw [if_neg hr]
    refine ⟨m, nodes, vals, rfl, h, List.Perm.refl _, fun _ => Iff.rfl, fun _ _ => rfl, rfl, ?_⟩
    by_contra hc
    exact hr (Or.inl (h.1.2.2.1 (by omega)).2)

/-- The call `find(k)` on a counted map with the fuel `size_` at least. -/
theorem find_counted (hasher : Key → Nat) (equals : Key → Key → Bool)
    {m : unordered_map Key V} {nodes : Nat → List Nat} {vals : Nat → List (Key × V)}
    (h : Counted hasher m nodes vals) {fuel : Nat} (hf : m.size_ ≤ fuel) (k : Key) :
    ∃ it, find hasher equals fuel m k = some it ∧
      (it.node_ = 0 → m.numbuckets_ = 0 ∨
        ∀ kv ∈ vals (m.buckets_ + hasher k % m.numbuckets_), equals k kv.1 = false) ∧
      (it.node_ ≠ 0 → 0 < m.numbuckets_ ∧
        it.bucket_ = m.buckets_ + hasher k % m.numbuckets_ ∧
        it.bucketend_ = m.buckets_ + m.numbuckets_ ∧
        it.node_ ∈ nodes (m.buckets_ + hasher k % m.numbuckets_) ∧
        ∃ kv, kv ∈ vals (m.buckets_ + hasher k % m.numbuckets_) ∧
          value m.mem it.node_ = some kv ∧ equals k kv.1 = true) :=
  map_find_spec hasher equals h.1 (h.fuel hf) k

/-- The call `insert(v)` on a counted map: either a pair with an equal key is
found in the bucket of the key and the map stays, or none is there and the
map has the pair `v` in addition. -/
theorem map_insert_step (hasher : Key → Nat) (equals : Key → Key → Bool)
    (full : Nat → Nat → Bool) {m : unordered_map Key V} {nodes : Nat → List Nat}
    {vals : Nat → List (Key × V)} (h : Counted hasher m nodes vals) (v : Key × V)
    {freshb fresh : Nat} (hal : AllocOk hasher equals full m v freshb fresh) :
    ∃ m1 r nodes1 vals1,
      insert hasher equals full m.size_ freshb fresh m v = some (m1, r) ∧
      Counted hasher m1 nodes1 vals1 ∧
      ((r.2 = false ∧ (∃ kv ∈ all_vals m vals, equals v.1 kv.1 = true) ∧
          all_vals m1 vals1 = all_vals m vals ∧ value m.mem r.1.node_ ≠ none ∧
          Stored m nodes r.1.node_) ∨
       (r.2 = true ∧ (m.numbuckets_ = 0 ∨
          ∀ kv ∈ vals (m.buckets_ + hasher v.1 % m.numbuckets_), equals v.1 kv.1 = false) ∧
          (all_vals m1 vals1).Perm (v :: all_vals m vals) ∧
          value m1.mem r.1.node_ = some v)) := by
  obtain ⟨it, eit, hit0, hit1⟩ := find_counted hasher equals h (Nat.le_refl _) v.1
  by_cases hn0 : it.node_ = 0
  · obtain ⟨hA, hB⟩ := hal it eit hn0
    obtain ⟨m0, nodes0, vals0, e0, hc0, hp0, hst0, hv0, hs0, hpos⟩ :=
      reserve_step hasher full h (Nat.le_refl _) hA
    obtain ⟨hfr, hm⟩ := hB m0 e0
    obtain ⟨mem1, mem2, nodes1, vals1, e1, e2, hi1, hvf, hfm, hst1, hv1⟩ :=
      insert_push_spec hasher hc0.1 hpos hfr hm v
    have hns : ¬ Stored m0 nodes0 fresh := by
      rintro ⟨j, hj, hx⟩
      obtain ⟨kv, hkv, -, -⟩ := stored_value hc0.1 hj hx
      rw [value_none hm] at hkv
      cases hkv
    obtain ⟨hc1, hp1⟩ := counted_of_added hi1 hc0 hns hst1 hvf
      (fun x hx => hv1 x (by rintro rfl; exact hns hx)) rfl
    refine ⟨⟨mem2, m0.buckets_, m0.numbuckets_, m0.size_ + 1⟩,
      (⟨fresh, m0.buckets_ + hasher v.1 % m0.numbuckets_, m0.buckets_ + m0.numbuckets_⟩, true),
      nodes1, vals1, ?_, hc1, Or.inr ⟨rfl, hit0 hn0, ?_, hvf⟩⟩
    · unfold insert
      rw [eit]
      simp only [hn0, if_true, e0, get_bucket, Nat.ne_of_gt hpos, if_false, e1, e2]
    · exact hp1.trans (List.Perm.cons v hp0)
  · obtain ⟨hpos, -, -, hmem, kv, hkv, hval, he⟩ := hit1 hn0
    refine ⟨m, (it, false), nodes, vals, ?_, h,
      Or.inl ⟨rfl, ⟨kv, mem_all_vals.2 ⟨_, Nat.mod_lt _ hpos, hkv⟩, he⟩, rfl, ?_,
        ⟨_, Nat.mod_lt _ hpos, hmem⟩⟩⟩
    · unfold insert
      rw [eit]
      simp only [hn0, if_false]
    · show value m.mem it.node_ ≠ none
      rw [hval]
      exact Option.some_ne_none _

/-- The call `erase(k)` on a counted map: either no pair with an equal key is
in the bucket of the key, the map stays and the call returns 0, or the node
that `find(k)` returns is removed and the call returns 1. -/
theorem map_erase_key_step (hasher : Key → Nat) (equals : Key → Key → Bool)
    {m : unordered_map Key V} {nodes : Nat → List Nat} {vals : Nat → List (Key × V)}
    (h : Counted hasher m nodes vals) {fuel : Nat} (hf : m.size_ ≤ fuel) (k : Key) :
    ∃ m1 c nodes1 vals1, erase_key hasher equals fuel m k = some (m1, c) ∧
      Counted hasher m1 nodes1 vals1 ∧
      ((c = 0 ∧ m1 = m ∧ all_vals m1 vals1 = all_vals m vals ∧
          (m.numbuckets_ = 0 ∨
            ∀ kv ∈ vals (m.buckets_ + hasher k % m.numbuckets_), equals k kv.1 = false)) ∨
       (c = 1 ∧ ∃ kv, equals k kv.1 = true ∧
          (kv :: all_vals m1 vals1).Perm (all_vals m vals))) ∧
      (∀ itr, find hasher equals fuel m k = some itr → itr.node_ ≠ 0 →
        erase m itr = some m1 ∧ c = 1) := by
  obtain ⟨it, eit, hit0, hit1⟩ := find_counted hasher equals h hf k
  by_cases hn0 : it.node_ = 0
  · refine ⟨m, 0, nodes, vals, ?_, h, Or.inl ⟨rfl, rfl, rfl, hit0 hn0⟩, ?_⟩
    · unfold erase_key
      rw [eit]
      simp only [hn0, ne_eq, not_true_eq_false, if_false]
    · intro itr hitr hne
      rw [eit] at hitr
      cases hitr
      exact absurd hn0 hne
  · obtain ⟨hpos, -, -, hmem, kv, hkv, hval, he⟩ := hit1 hn0
    obtain ⟨m1, nodes1, vals1, kv1, e1, hc1, hv1, -, -, -, -, -, -, -, hp1⟩ :=
      map_erase_spec hasher h (Nat.mod_lt _ hpos) hmem it rfl
    have hkk : kv1 = kv := Option.some.inj (hv1.symm.trans hval)
    subst hkk
    refine ⟨m1, 1, nodes1, vals1, ?_, hc1, Or.inr ⟨rfl, kv1, he, hp1⟩, ?_⟩
    · unfold erase_key
      rw [eit]
      simp only [ne_eq, hn0, not_false_eq_true, if_true, e1]
    · intro itr hitr _
      rw [eit] at hitr
      cases hitr
      exact ⟨e1, rfl⟩

end unordered_map
end taapp

namespace taapp
namespace unordered_map
open list
variable {Key V : Type}

/-! ## The pairs of a reached map -/

theorem content_pairwise (equals : Key → Key → Bool) : ∀ (cs : List (call Key V)),
    (content equals cs).Pairwise (fun a b => equals a.1 b.1 = false) := by
  intro cs
  induction cs with
  | nil => exact List.Pairwise.nil
  | cons c cs ih =>
    cases c with
    | insert v =>
      simp only [content]
      split_ifs with hany
      · exact ih
      · refine List.Pairwise.cons (fun kv hkv => ?_) ih
        cases he : equals v.1 kv.1 with
        | false => rfl
        | true => exact absurd (List.any_eq_true.2 ⟨kv, hkv, he⟩) hany
    | erase k =>
      simp only [content]
      exact ih.filter _
    | clear => exact List.Pairwise.nil
    | rehash count => exact ih

/-- The key `k` was inserted and not erased since exactly when the pairs
of the calls have one with a key equal to `k`. -/
theorem live_iff {hasher : Key → Nat} {equals : Key → Key → Bool} (hk : KeyEq hasher equals)
    (k : Key) : ∀ (cs : List (call Key V)),
    Live equals cs k ↔ ∃ kv ∈ content equals cs, equals k kv.1 = true := by
  obtain ⟨-, hsymm, htrans, -⟩ := hk
  intro cs
  induction cs with
  | nil => simp [Live, content]
  | cons c cs ih =>
    cases c with
    | insert v =>
      simp only [Live, content]
      rw [ih]
      split_ifs with hany
      · constructor
        · rintro (he | h)
          · obtain ⟨kv, hkv, he2⟩ := List.any_eq_true.1 hany
            exact ⟨kv, hkv, htrans _ _ _ he he2⟩
          · exact h
        · exact fun h => Or.inr h
      · constructor
        · rintro (he | ⟨kv, hkv, he⟩)
          · exact ⟨v, List.mem_cons_self _ _, he⟩
          · exact ⟨kv, List.mem_cons_of_mem _ hkv, he⟩
        · rintro ⟨kv, hkv, he⟩
          rcases List.mem_cons.1 hkv with rfl | hkv
          · exact Or.inl he
          · exact Or.inr ⟨kv, hkv, he⟩
    | erase k1 =>
      simp only [Live, content]
      rw [ih]
      constructor
      · rintro ⟨hne, kv, hkv, he⟩
        refine ⟨kv, List.mem_filter.2 ⟨hkv, ?_⟩, he⟩
        cases h1 : equals k1 kv.1 with
        | false => rfl
        | true =>
          have := htrans _ _ _ h1 (hsymm _ _ he)
          rw [hne] at this
          cases this
      · rintro ⟨kv, hkv, he⟩
        obtain ⟨hkv1, hp⟩ := List.mem_filter.1 hkv
        refine ⟨?_, kv, hkv1, he⟩
        cases h1 : equals k1 k with
        | false => rfl
        | true =>
          have := htrans _ _ _ h1 he
          rw [this] at hp
          cases hp
    | clear => simp [Live, content]
    | rehash count =>
      simp only [Live, content]
      exact ih

/-- With equal keys hashing equally, a key that has no equal in its bucket
has no equal in the map. -/
theorem absent_all {hasher : Key → Nat} {equals : Key → Key → Bool} (hk : KeyEq hasher equals)
    {m : unordered_map Key V} {nodes : Nat → List Nat} {vals : Nat → List (Key × V)}
    (h : MapInv hasher m nodes vals) {k : Key}
    (ha : m.numbuckets_ = 0 ∨
      ∀ kv ∈ vals (m.buckets_ + hasher k % m.numbuckets_), equals k kv.1 = false) :
    ∀ kv ∈ all_vals m vals, equals k kv.1 = false := by
  intro kv hkv
  obtain ⟨i, hi, hm⟩ := mem_all_vals.1 hkv
  rcases ha with h0 | ha
  · omega
  · cases he : equals k kv.1 with
    | false => rfl
    | true =>
      have hh := h.2.1 i hi kv hm
      rw [← hk.2.2.2 _ _ he] at hh
      rw [hh] at ha
      rw [ha kv hm] at he
      cases he

theorem any_false_of_forall {equals : Key → Key → Bool} {k : Key} {l : List (Key × V)}
    (h : ∀ kv ∈ l, equals k kv.1 = false) : l.any (fun kv => equals k kv.1) = false := by
  cases ha : l.any (fun kv => equals k kv.1) with
  | false => rfl
  | true =>
    obtain ⟨kv, hkv, he⟩ := List.any_eq_true.1 ha
    rw [h kv hkv] at he
    cases he

/-- Every reached map is well formed, `size_` is the number of its nodes, and
(for an equivalence of keys that the hash function respects) its pairs are
those of the calls made. -/
theorem reaches_counted {hasher : Key → Nat} {equals : Key → Key → Bool}
    {full : Nat → Nat → Bool} {cs : List (call Key V)} {m : unordered_map Key V}
    (h : Reaches hasher equals full cs m) :
    ∃ nodes vals, Counted hasher m nodes vals ∧
      (KeyEq hasher equals → (all_vals m vals).Perm (content equals cs)) := by
  induction h with
  | empty =>
    refine ⟨fun _ => [], fun _ => [], ⟨⟨⟨List.nodup_nil, fun a ha => ?_, fun a ha => ?_⟩,
      fun i hi => ?_, fun _ => ⟨rfl, rfl⟩, fun h0 => ?_, fun _ i hi => ?_⟩, rfl⟩, fun _ => ?_⟩
    · exact absurd ha (List.not_mem_nil a)
    · exact absurd ha (List.not_mem_nil a)
    · exact absurd hi (Nat.not_lt_zero i)
    · exact absurd h0 (Nat.lt_irrefl 0)
    · exact absurd hi (Nat.not_lt_zero i)
    · exact List.Perm.refl _
  | @insert cs m m1 v freshb fresh r _ hal hi ih =>
    obtain ⟨nodes, vals, hc, hp⟩ := ih
    obtain ⟨m2, r2, nodes1, vals1, e, hc1, hcase⟩ :=
      map_insert_step hasher equals full hc v hal
    rw [e] at hi
    cases hi
    refine ⟨nodes1, vals1, hc1, fun hk => ?_⟩
    have hp0 := hp hk
    rcases hcase with ⟨-, ⟨kv, hkv, he⟩, hall, -, -⟩ | ⟨-, habs, hperm, -⟩
    · rw [hall]
      have hany : (content equals cs).any (fun kv => equals v.1 kv.1) = true :=
        List.any_eq_true.2 ⟨kv, hp0.mem_iff.1 hkv, he⟩
      simp only [content, hany, if_true]
      exact hp0
    · have hall := absent_all hk hc.1 habs
      have hany : (content equals cs).any (fun kv => equals v.1 kv.1) = false :=
        any_false_of_forall (fun kv hkv => hall kv (hp0.mem_iff.2 hkv))
      simp only [content, hany, Bool.false_eq_true, if_false]
      exact hperm.trans (List.Perm.cons v hp0)
  | @erase_key cs m m1 k c _ he ih =>
    obtain ⟨nodes, vals, hc, hp⟩ := ih
    obtain ⟨m2, c2, nodes1, vals1, e, hc1, hcase, -⟩ :=
      map_erase_key_step hasher equals hc (Nat.le_refl _) k
    rw [e] at he
    cases he
    refine ⟨nodes1, vals1, hc1, fun hk => ?_⟩
    have hp0 := hp hk
    rcases hcase with ⟨-, -, hall, habs⟩ | ⟨-, kv, hkv, hperm⟩
    · rw [hall]
      have hall2 := absent_all hk hc.1 habs
      simp only [content]
      rw [List.filter_eq_self.2]
      · exact hp0
      · intro kv hkv
        rw [hall2 kv (hp0.mem_iff.2 hkv)]
        rfl
    · simp only [content]
      have hpw := content_pairwise (V := V) equals cs
      have hsymR : ∀ {x y : Key × V}, equals x.1 y.1 = false → equals y.1 x.1 = false := by
        intro x y hxy
        cases hyx : equals y.1 x.1 with
        | false => rfl
        | true =>
          rw [hk.2.1 _ _ hyx] at hxy
          cases hxy
      have hpw2 := ((hperm.trans hp0).pairwise_iff hsymR).2 hpw
      have hne : ∀ kv1 ∈ all_vals m1 vals1, equals k kv1.1 = false := by
        intro kv1 hkv1
        cases h1 : equals k kv1.1 with
        | false => rfl
        | true =>
          have h2 := (List.pairwise_cons.1 hpw2).1 kv1 hkv1
          rw [hk.2.2.1 _ _ _ (hk.2.1 _ _ hkv) h1] at h2
          cases h2
      have hf := (hperm.trans hp0).filter (fun kv => !equals k kv.1)
      rw [List.filter_cons_of_neg (by simp [hkv]), List.filter_eq_self.2] at hf
      · exact hf
      · intro kv1 hkv1
        rw [hne kv1 hkv1]
        rfl
  | @erase cs m m1 k itr _ hf hne he ih =>
    obtain ⟨nodes, vals, hc, hp⟩ := ih
    obtain ⟨m2, c2, nodes1, vals1, e, hc1, hcase, hitr⟩ :=
      map_erase_key_step hasher equals hc (Nat.le_refl _) k
    obtain ⟨e2, hc2⟩ := hitr itr hf hne
    rw [e2] at he
    cases he
    refine ⟨nodes1, vals1, hc1, fun hk => ?_⟩
    have hp0 := hp hk
    rcases hcase with ⟨h0, -⟩ | ⟨-, kv, hkv, hperm⟩
    · rw [h0] at hc2
      cases hc2
    · simp only [content]
      have hpw := content_pairwise (V := V) equals cs
      have hsymR : ∀ {x y : Key × V}, equals x.1 y.1 = false → equals y.1 x.1 = false := by
        intro x y hxy
        cases hyx : equals y.1 x.1 with
        | false => rfl
        | true =>
          rw [hk.2.1 _ _ hyx] at hxy
          cases hxy
      have hpw2 := ((hperm.trans hp0).pairwise_iff hsymR).2 hpw
      have hne : ∀ kv1 ∈ all_vals m1 vals1, equals k kv1.1 = false := by
        intro kv1 hkv1
        cases h1 : equals k kv1.1 with
        | false => rfl
        | true =>
          have h2 := (List.pairwise_cons.1 hpw2).1 kv1 hkv1
          rw [hk.2.2.1 _ _ _ (hk.2.1 _ _ hkv) h1] at h2
          cases h2
      have hf := (hperm.trans hp0).filter (fun kv => !equals k kv.1)
      rw [List.filter_cons_of_neg (by simp [hkv]), List.filter_eq_self.2] at hf
      · exact hf
      · intro kv1 hkv1
        rw [hne kv1 hkv1]
        rfl
  | @clear cs m m1 _ hcl ih =>
    obtain ⟨nodes, vals, hc, -⟩ := ih
    obtain ⟨m2, e, hc1, -⟩ := map_clear_spec hasher hc (Nat.le_refl _)
    rw [e] at hcl
    cases hcl
    refine ⟨fun _ => [], fun _ => [], hc1, fun _ => ?_⟩
    rw [all_vals_nil]
    exact List.Perm.refl _
  | @rehash cs m m1 count freshb _ hal hre ih =>
    obtain ⟨nodes, vals, hc, hp⟩ := ih
    obtain ⟨m2, nodes1, vals1, e, hc1, hp1, -⟩ :=
      map_rehash_step hasher hc (Nat.le_refl _) hal
    rw [e] at hre
    cases hre
    exact ⟨nodes1, vals1, hc1, fun hk => hp1.trans (hp hk)⟩

end unordered_map
end taapp

namespace taapp
namespace unordered_map
open list
variable {Key V : Type}

/-! ## Iteration -/

theorem length_anchors (base count : Nat) : (anchors base count).length = count := by
  simp [anchors]

theorem drop_anchors {base count i : Nat} (hi : i < count) :
    (anchors base count).drop i = (base + i) :: (anchors base count).drop (i + 1) := by
  rw [List.drop_eq_getElem_cons (by rw [length_anchors]; exact hi)]
  congr 1
  simp [anchors]

theorem drop_anchors_nil {base count i : Nat} (hi : count ≤ i) :
    (anchors base count).drop i = [] :=
  List.drop_eq_nil_of_le (by rw [length_anchors]; exact hi)

theorem rest_cons {base count i : Nat} (hi : i < count) (nodes : Nat → List Nat) :
    ((anchors base count).drop i).flatMap nodes =
      nodes (base + i) ++ ((anchors base count).drop (i + 1)).flatMap nodes := by
  rw [drop_anchors hi, List.flatMap_cons]

/-- The loop of the iterators over the buckets from the `i`-th on: it stops at
the end with no node if these buckets are empty, and at the first node of the
first of them that is not. -/
theorem scan_loop_spec {mem : memory (Key × V)} {b0 n : Nat} {nodes : Nat → List Nat}
    {vals : Nat → List (Key × V)}
    (hl : Layout { mem := mem, lists := anchors b0 n } nodes vals) :
    ∀ (c i fuel : Nat), i + c = n → c ≤ fuel →
    ∃ r, scan_loop fuel mem (b0 + i) (b0 + n) = some r ∧
      ((r = (0, b0 + n) ∧ ((anchors b0 n).drop i).flatMap nodes = []) ∨
       (∃ j x xs, i ≤ j ∧ j < n ∧ nodes (b0 + j) = x :: xs ∧ r = (x, b0 + j) ∧
         ((anchors b0 n).drop i).flatMap nodes =
           (x :: xs) ++ ((anchors b0 n).drop (j + 1)).flatMap nodes)) := by
  intro c
  induction c with
  | zero =>
    intro i fuel hic _
    have hin : i = n := by omega
    subst hin
    refine ⟨(0, b0 + i), ?_, Or.inl ⟨rfl, ?_⟩⟩
    · unfold scan_loop
      rw [if_neg (by simp)]
    · rw [drop_anchors_nil (Nat.le_refl _)]
      rfl
  | succ c ih =>
    intro i fuel hic hf
    obtain ⟨f, rfl⟩ : ∃ f, fuel = f + 1 := ⟨fuel - 1, by omega⟩
    have hi : i < n := by omega
    have hb : b0 + i ∈ anchors b0 n := mem_anchors.2 ⟨i, hi, rfl⟩
    obtain ⟨hil, h0⟩ := hl.2.1 _ hb
    dsimp only at hil h0
    have hne : b0 + i ≠ b0 + n := by omega
    cases hnb : nodes (b0 + i) with
    | nil =>
      rw [hnb] at hil
      have hlk := Ring_nil_links hil.1
      obtain ⟨r, er, hr⟩ := ih (i + 1) f (by omega) (by omega)
      refine ⟨r, ?_, ?_⟩
      · unfold scan_loop
        rw [if_pos hne]
        simp only [hlk.1, ne_eq, not_true_eq_false, if_false]
        exact er
      · rw [rest_cons hi, hnb, List.nil_append]
        rcases hr with hr | ⟨j, x, xs, hj1, hj2, hx, hr, hrest⟩
        · exact Or.inl hr
        · exact Or.inr ⟨j, x, xs, by omega, hj2, hx, hr, hrest⟩
    | cons x xs =>
      rw [hnb] at hil
      have hq : ((b0 + i) :: ([] : List Nat)).getLast? = some (b0 + i) := rfl
      obtain ⟨p, hp⟩ := head?_append_some xs (b0 + i)
      have hr0 : Ring mem (b0 + i) ([] ++ x :: xs) := hil.1
      obtain ⟨lq, -, hqn, -⟩ := Ring_links hr0 hq hp
      refine ⟨(x, b0 + i), ?_, Or.inr ⟨i, x, xs, Nat.le_refl _, hi, hnb, rfl, ?_⟩⟩
      · unfold scan_loop
        rw [if_pos hne]
        simp only [lq.1, ne_eq, Ne.symm hqn, not_false_eq_true, if_true]
      · rw [rest_cons hi, hnb]

/-- The loop of the test started at the node `x` of the `j`-th bucket visits
`x`, the nodes after it in the bucket, and the nodes of the buckets after
that, in order. -/
theorem walk_loop_spec {mem : memory (Key × V)} {b0 n : Nat} {nodes : Nat → List Nat}
    {vals : Nat → List (Key × V)}
    (hl : Layout { mem := mem, lists := anchors b0 n } nodes vals) {sfuel : Nat}
    (hs : n ≤ sfuel) :
    ∀ (k fuel x j : Nat) (l1 l2 : List Nat), j < n → nodes (b0 + j) = l1 ++ x :: l2 →
      (x :: l2 ++ ((anchors b0 n).drop (j + 1)).flatMap nodes).length = k → k ≤ fuel →
      walk_loop sfuel fuel mem ⟨x, b0 + j, b0 + n⟩ =
        some (x :: l2 ++ ((anchors b0 n).drop (j + 1)).flatMap nodes) := by
  intro k
  induction k with
  | zero =>
    intro fuel x j l1 l2 _ _ hlen _
    simp at hlen
  | succ k ih =>
    intro fuel x j l1 l2 hj hnodes hlen hf
    obtain ⟨f, rfl⟩ : ∃ f, fuel = f + 1 := ⟨fuel - 1, by omega⟩
    have hb : b0 + j ∈ anchors b0 n := mem_anchors.2 ⟨j, hj, rfl⟩
    obtain ⟨hil, h0⟩ := hl.2.1 _ hb
    dsimp only at hil h0
    rw [hnodes] at hil h0
    have hx0 : x ≠ 0 := by
      rintro rfl
      exact h0 (by simp)
    obtain ⟨q, hq⟩ := getLast?_cons_some (b0 + j) l1
    obtain ⟨p, hp⟩ := head?_append_some l2 (b0 + j)
    obtain ⟨-, lp, -, -, -, -, -, hnd, -⟩ := Ring_links hil.1 hq hp
    cases l2 with
    | nil =>
      simp only [List.nil_append, List.head?_cons, Option.some.injEq] at hp
      subst hp
      obtain ⟨r, er, hr⟩ := scan_loop_spec hl (n - (j + 1)) (j + 1) sfuel (by omega) (by omega)
      rcases hr with ⟨hr, hrest⟩ | ⟨j1, y, ys, hj1, hj2, hy, hr, hrest⟩
      · rw [hrest]
        unfold walk_loop
        rw [if_pos (by simpa [end_] using hx0)]
        simp only [increment, lp.1, if_true]
        have er2 : scan_loop sfuel mem (b0 + j + 1) (b0 + n) = some r := er
        rw [er2, hr]
        simp only
        have : walk_loop sfuel f mem ⟨0, b0 + n, b0 + n⟩ = some [] := by
          unfold walk_loop
          rw [if_neg (by simp [end_])]
        rw [this]
        rfl
      · rw [hrest] at hlen ⊢
        have hrec := ih f y j1 [] ys hj2 hy (by simpa using hlen) (by omega)
        unfold walk_loop
        rw [if_pos (by simpa [end_] using hx0)]
        simp only [increment, lp.1, if_true]
        have er2 : scan_loop sfuel mem (b0 + j + 1) (b0 + n) = some r := er
        rw [er2, hr]
        simp only
        rw [hrec]
        rfl
    | cons y l2 =>
      simp only [List.cons_append, List.head?_cons, Option.some.injEq] at hp
      subst hp
      have hyb : y ≠ b0 + j := by
        intro e
        exact (List.nodup_cons.1 hnd).1 (by rw [← e]; simp)
      have hrec := ih f y j (l1 ++ [x]) l2 hj (by rw [hnodes]; simp)
        (by simpa using hlen) (by omega)
      unfold walk_loop
      rw [if_pos (by simpa [end_] using hx0)]
      simp only [increment, lp.1, hyb, if_false]
      rw [hrec]
      rfl

/-- Iteration from `begin()` on a counted map visits the nodes of all
buckets, bucket after bucket; with no node, `begin()` has the null node of
`end()`. -/
theorem map_walk_spec {hasher : Key → Nat} {m : unordered_map Key V} {nodes : Nat → List Nat}
    {vals : Nat → List (Key × V)} (h : Counted hasher m nodes vals) {fuel : Nat}
    (hf : m.size_ + m.numbuckets_ ≤ fuel) :
    walk fuel m = some (all_nodes m nodes) ∧
      ∃ itr, begin fuel m = some itr ∧ (itr.node_ = (end_).node_ ↔ m.size_ = 0) ∧
        (itr.node_ ≠ (end_).node_ → (all_nodes m nodes).head? = some itr.node_) := by
  obtain ⟨⟨hl, -⟩, hsz⟩ := h
  obtain ⟨r, er, hr⟩ := scan_loop_spec hl m.numbuckets_ 0 fuel (by omega) (by omega)
  rw [Nat.add_zero] at er
  have hall : all_nodes m nodes = ((anchors m.buckets_ m.numbuckets_).drop 0).flatMap nodes := rfl
  rcases hr with ⟨hr, hrest⟩ | ⟨j, x, xs, -, hj, hx, hr, hrest⟩
  · rw [← hall] at hrest
    have hs0 : m.size_ = 0 := by rw [hsz, hrest]; rfl
    refine ⟨?_, ⟨0, m.buckets_ + m.numbuckets_, m.buckets_ + m.numbuckets_⟩, ?_,
      ⟨fun _ => hs0, fun _ => rfl⟩, fun hne => absurd rfl hne⟩
    · unfold walk begin iterator_from
      rw [er, hr, hrest]
      simp only
      unfold walk_loop
      rw [if_neg (by simp [end_])]
    · unfold begin iterator_from
      rw [er, hr]
  · rw [← hall] at hrest
    have hx0 : x ≠ 0 := by
      obtain ⟨-, h0⟩ := hl.2.1 _ (mem_anchors.2 ⟨j, hj, rfl⟩)
      rw [hx] at h0
      rintro rfl
      exact h0 (by simp)
    have hlen : (x :: xs ++ ((anchors m.buckets_ m.numbuckets_).drop (j + 1)).flatMap nodes).length
        = m.size_ := by rw [← hrest, hsz]
    have hw := walk_loop_spec hl (show m.numbuckets_ ≤ fuel by omega) m.size_ fuel x j [] xs hj hx
      hlen
      (by omega)
    refine ⟨?_, ⟨x, m.buckets_ + j, m.buckets_ + m.numbuckets_⟩, ?_, ⟨fun h0 => ?_, fun h0 => ?_⟩,
      fun _ => ?_⟩
    · unfold walk begin iterator_from
      rw [er, hr]
      simp only
      rw [hw, hrest]
    · unfold begin iterator_from
      rw [er, hr]
    · exact absurd h0 hx0
    · rw [hsz, hrest] at h0
      simp at h0
    · rw [hrest]
      rfl

end unordered_map
end taapp

namespace taapp
namespace unordered_map
open list
variable {Key V : Type}

/-! ## `find` on a map with the pairs of the calls -/

theorem unequal_symm {hasher : Key → Nat} {equals : Key → Key → Bool}
    (hk : KeyEq hasher equals) {x y : Key × V} (h : equals x.1 y.1 = false) :
    equals y.1 x.1 = false := by
  cases hyx : equals y.1 x.1 with
  | false => rfl
  | true =>
    rw [hk.2.1 _ _ hyx] at h
    cases h

/-- With no two pairs of equal keys, the pairs other than the one with a
key equal to `k` have keys not equal to `k`. -/
theorem erased_absent {hasher : Key → Nat} {equals : Key → Key → Bool}
    (hk : KeyEq hasher equals) {kv : Key × V} {l c : List (Key × V)}
    (hp : (kv :: l).Perm c) (hpw : c.Pairwise (fun a b => equals a.1 b.1 = false)) {k : Key}
    (he : equals k kv.1 = true) : ∀ kv1 ∈ l, equals k kv1.1 = false := by
  have hpw2 := (hp.pairwise_iff (fun {x y} h => unequal_symm hk h)).2 hpw
  intro kv1 hkv1
  cases h1 : equals k kv1.1 with
  | false => rfl
  | true =>
    have h2 := (List.pairwise_cons.1 hpw2).1 kv1 hkv1
    rw [hk.2.2.1 _ _ _ (hk.2.1 _ _ he) h1] at h2
    cases h2

/-- With no two pairs of equal keys, two stored nodes with equal keys are
the same node. -/
theorem stored_unique {hasher : Key → Nat} {equals : Key → Key → Bool}
    (hk : KeyEq hasher equals) {m : unordered_map Key V} {nodes : Nat → List Nat}
    {vals : Nat → List (Key × V)} (h : MapInv hasher m nodes vals)
    (hpw : (all_vals m vals).Pairwise (fun a b => equals a.1 b.1 = false))
    {x y : Nat} {kx ky : Key × V} (hx : Stored m nodes x) (hy : Stored m nodes y)
    (hvx : value m.mem x = some kx) (hvy : value m.mem y = some ky)
    (he : equals kx.1 ky.1 = true) : x = y := by
  by_contra hne
  have h1 : ((all_vals m vals).map some).Pairwise (fun a b : Option (Key × V) =>
      ∀ ka kb, a = some ka → b = some kb → equals ka.1 kb.1 = false) := by
    rw [List.pairwise_map]
    refine hpw.imp ?_
    intro a b hab ka kb ha hb
    cases ha
    cases hb
    exact hab
  rw [← all_nodes_values h.1, List.pairwise_map] at h1
  have hsym : Symmetric (fun a b : Nat => ∀ ka kb, value m.mem a = some ka →
      value m.mem b = some kb → equals ka.1 kb.1 = false) := by
    intro a b hab ka kb ha hb
    exact unequal_symm hk (hab kb ka hb ha)
  have := List.Pairwise.forall hsym h1 (mem_all_nodes.2 hx) (mem_all_nodes.2 hy) hne
    kx ky hvx hvy
  rw [he] at this
  cases this

/-- The call `find(k)` on a counted map whose pairs are the list `c` with no
two equal keys: it returns a node exactly when `c` has a pair with a key equal
to `k`, and then the only stored node with such a key. -/
theorem find_content {hasher : Key → Nat} {equals : Key → Key → Bool}
    (hk : KeyEq hasher equals) {m : unordered_map Key V} {nodes : Nat → List Nat}
    {vals : Nat → List (Key × V)} (h : Counted hasher m nodes vals) {c : List (Key × V)}
    (hp : (all_vals m vals).Perm c) (hpw : c.Pairwise (fun a b => equals a.1 b.1 = false))
    {fuel : Nat} (hf : m.size_ ≤ fuel) (k : Key) :
    ∃ itr, find hasher equals fuel m k = some itr ∧
      (itr.node_ ≠ 0 ↔ ∃ kv ∈ c, equals k kv.1 = true) ∧
      (itr.node_ ≠ 0 → Stored m nodes itr.node_ ∧
        ∃ kv, value m.mem itr.node_ = some kv ∧ equals k kv.1 = true ∧ kv ∈ c) ∧
      (∀ x kv, Stored m nodes x → value m.mem x = some kv → equals k kv.1 = true →
        x = itr.node_) := by
  obtain ⟨it, eit, hit0, hit1⟩ := find_counted hasher equals h hf k
  have hfound : it.node_ ≠ 0 → Stored m nodes it.node_ ∧
      ∃ kv, value m.mem it.node_ = some kv ∧ equals k kv.1 = true ∧ kv ∈ c := by
    intro hne
    obtain ⟨hpos, -, -, hmem, kv, hkv, hval, he⟩ := hit1 hne
    exact ⟨⟨_, Nat.mod_lt _ hpos, hmem⟩, kv, hval, he,
      hp.mem_iff.1 (mem_all_vals.2 ⟨_, Nat.mod_lt _ hpos, hkv⟩)⟩
  have hnone : it.node_ = 0 → ∀ kv ∈ all_vals m vals, equals k kv.1 = false :=
    fun h0 => absent_all hk h.1 (hit0 h0)
  refine ⟨it, eit, ⟨fun hne => ?_, fun hex => ?_⟩, hfound, ?_⟩
  · obtain ⟨-, kv, -, he, hkc⟩ := hfound hne
    exact ⟨kv, hkc, he⟩
  · obtain ⟨kv, hkc, he⟩ := hex
    intro h0
    rw [hnone h0 kv (hp.mem_iff.2 hkc)] at he
    cases he
  · intro x kv hx hvx he
    obtain ⟨i, hi, hxi⟩ := hx
    obtain ⟨kv1, hv1, hkm, -⟩ := stored_value h.1 hi hxi
    have hkk : kv1 = kv := Option.some.inj (hv1.symm.trans hvx)
    subst hkk
    have hne : it.node_ ≠ 0 := by
      intro h0
      rw [hnone h0 kv1 (mem_all_vals.2 ⟨i, hi, hkm⟩)] at he
      cases he
    obtain ⟨hst, ky, hvy, hey, -⟩ := hfound hne
    have hpw2 := (hp.pairwise_iff (fun {x y} h => unequal_symm hk h)).2 hpw
    exact stored_unique hk h.1 hpw2 ⟨i, hi, hxi⟩ hst hvx hvy
      (hk.2.2.1 _ _ _ (hk.2.1 _ _ he) hey)

/-- Every stored node is in the bucket of the hash value of its key. -/
theorem stored_bucket {hasher : Key → Nat} {m : unordered_map Key V} {nodes : Nat → List Nat}
    {vals : Nat → List (Key × V)} (h : MapInv hasher m nodes vals) {x : Nat}
    (hx : Stored m nodes x) :
    ∃ kv, value m.mem x = some kv ∧ 0 < m.numbuckets_ ∧
      x ∈ nodes (m.buckets_ + hasher kv.1 % m.numbuckets_) := by
  obtain ⟨i, hi, hxi⟩ := hx
  obtain ⟨kv, hv, hkm, -⟩ := stored_value h hi hxi
  refine ⟨kv, hv, by omega, ?_⟩
  rw [h.2.1 i hi kv hkm]
  exact hxi

end unordered_map
end taapp

namespace taapp
namespace unordered_map
open list
variable {Key V : Type}

/-! ## `find`, `rehash` and `erase` on reached maps (claim C31) -/

/-- C31: for a map reached from the empty one by the calls `cs` of `insert`,
`erase`, `clear` and `rehash`, with `equals` an equivalence of keys that the
hash function respects.  The map is well formed, and every stored node is in
the bucket `hash(key) mod numbuckets_` of its key.  With the fuel `size_` at
least, `find(k)` returns; it returns a node, not `end()`, exactly when `k` was
inserted and not erased since (`Live`), and then the only stored node whose
key equals `k`, its pair being the one of the calls.  `rehash(count)`, the
allocator answering with a free block if asked, returns a map in which every
stored node holds its pair as before and is the node that `find` of its key
returns.  `erase(k)` returns, with 1 exactly when `k` was inserted and not
erased since and with 0 otherwise, and `find(k)` on the map after it returns
`end()`. -/
theorem find_returns_pair_iff_inserted (hasher : Key → Nat) (equals : Key → Key → Bool)
    (full : Nat → Nat → Bool) (cs : List (call Key V)) (m : unordered_map Key V)
    (hk : KeyEq hasher equals) (h : Reaches hasher equals full cs m) :
    ∃ nodes vals, MapInv hasher m nodes vals ∧
      (∀ x, Stored m nodes x → ∃ kv, value m.mem x = some kv ∧ 0 < m.numbuckets_ ∧
        x ∈ nodes (m.buckets_ + hasher kv.1 % m.numbuckets_)) ∧
      (∀ k fuel, m.size_ ≤ fuel → ∃ itr, find hasher equals fuel m k = some itr ∧
        (itr.node_ ≠ (end_).node_ ↔ Live equals cs k) ∧
        (itr.node_ ≠ (end_).node_ → Stored m nodes itr.node_ ∧
          ∃ kv, value m.mem itr.node_ = some kv ∧ equals k kv.1 = true ∧
            kv ∈ content equals cs) ∧
        (∀ x kv, Stored m nodes x → value m.mem x = some kv → equals k kv.1 = true →
          x = itr.node_)) ∧
      (∀ count freshb fuel, m.size_ ≤ fuel →
        (count > m.numbuckets_ → freshb ≠ 0 ∧
          ∀ x, freshb ≤ x → x < freshb + count → m.mem x = none) →
        ∃ m1, rehash hasher fuel freshb m count = some m1 ∧ m1.size_ = m.size_ ∧
          ∀ x kv, Stored m nodes x → value m.mem x = some kv →
            value m1.mem x = some kv ∧
            ∀ fuel1, m1.size_ ≤ fuel1 →
              ∃ itr, find hasher equals fuel1 m1 kv.1 = some itr ∧ itr.node_ = x) ∧
      (∀ k fuel, m.size_ ≤ fuel →
        ∃ m1 c, erase_key hasher equals fuel m k = some (m1, c) ∧
          (c = 1 ↔ Live equals cs k) ∧ (c = 0 ∨ c = 1) ∧
          ∀ fuel1, m1.size_ ≤ fuel1 →
            ∃ itr, find hasher equals fuel1 m1 k = some itr ∧ itr.node_ = (end_).node_) := by
  obtain ⟨nodes, vals, hc, hp⟩ := reaches_counted h
  have hp0 := hp hk
  have hpw := content_pairwise (V := V) equals cs
  refine ⟨nodes, vals, hc.1, fun x hx => stored_bucket hc.1 hx, ?_, ?_, ?_⟩
  · intro k fuel hf
    obtain ⟨itr, e, hiff, hfound, huniq⟩ := find_content hk hc hp0 hpw hf k
    exact ⟨itr, e, hiff.trans (live_iff hk k cs).symm, hfound, huniq⟩
  · intro count freshb fuel hf hal
    obtain ⟨m1, nodes1, vals1, e, hc1, hp1, hst, hv, hs, -⟩ := map_rehash_step hasher hc hf hal
    refine ⟨m1, e, hs, fun x kv hx hvx => ⟨by rw [hv x hx]; exact hvx, fun fuel1 hf1 => ?_⟩⟩
    obtain ⟨itr, e1, -, -, huniq⟩ := find_content hk hc1 (hp1.trans hp0) hpw hf1 kv.1
    exact ⟨itr, e1, (huniq x kv ((hst x).2 hx) (by rw [hv x hx]; exact hvx) (hk.1 _)).symm⟩
  · intro k fuel hf
    obtain ⟨m1, c, nodes1, vals1, e, hc1, hcase, -⟩ := map_erase_key_step hasher equals hc hf k
    rcases hcase with ⟨h0, hm, -, habs⟩ | ⟨h1, kv, he, hperm⟩
    · have hall := absent_all hk hc.1 habs
      have hnl : ¬ Live equals cs k := by
        intro hl
        obtain ⟨kv, hkv, he⟩ := (live_iff hk k cs).1 hl
        rw [hall kv (hp0.mem_iff.2 hkv)] at he
        cases he
      refine ⟨m1, c, e, ⟨fun hc1 => by omega, fun hl => absurd hl hnl⟩, Or.inl h0,
        fun fuel1 hf1 => ?_⟩
      subst hm
      obtain ⟨itr, e1, hiff, -, -⟩ := find_content hk hc hp0 hpw hf1 k
      refine ⟨itr, e1, ?_⟩
      by_contra hne
      exact hnl ((live_iff hk k cs).2 (hiff.1 hne))
    · have hl : Live equals cs k :=
        (live_iff hk k cs).2 ⟨kv, (hperm.trans hp0).mem_iff.1 (List.mem_cons_self _ _), he⟩
      refine ⟨m1, c, e, ⟨fun _ => hl, fun _ => h1⟩, Or.inr h1, fun fuel1 hf1 => ?_⟩
      have hpw2 := ((hperm.trans hp0).pairwise_iff (fun {x y} h => unequal_symm hk h)).2 hpw
      obtain ⟨itr, e1, hiff, -, -⟩ := find_content hk hc1 (List.Perm.refl _)
        (List.pairwise_cons.1 hpw2).2 hf1 k
      refine ⟨itr, e1, ?_⟩
      by_contra hne
      obtain ⟨kv1, hkv1, he1⟩ := hiff.1 hne
      rw [erased_absent hk (hperm.trans hp0) hpw he kv1 hkv1] at he1
      cases he1

end unordered_map
end taapp

namespace taapp
namespace unordered_map
open list
variable {Key V : Type}

/-! ## Iteration over a reached map (claim C32) -/

/-- C32: for a map reached from the empty one by calls of `insert`, `erase`,
`clear` and `rehash`, with the fuel `size_ + numbuckets_` at least: the loop
from `begin()` with `++` until the iterator equals `end()` returns; the nodes
it visits are the stored nodes, each one once, and they hold the pairs of the
buckets; the number of steps is `size()`; and `begin()` has the node of
`end()` exactly when `size()` is zero. -/
theorem iteration_visits_each_pair_once (hasher : Key → Nat) (equals : Key → Key → Bool)
    (full : Nat → Nat → Bool) (cs : List (call Key V)) (m : unordered_map Key V)
    (h : Reaches hasher equals full cs m) :
    ∃ nodes vals, MapInv hasher m nodes vals ∧
      ∀ fuel, m.size_ + m.numbuckets_ ≤ fuel →
        ∃ visited, walk fuel m = some visited ∧ visited.Nodup ∧
          (∀ x, x ∈ visited ↔ Stored m nodes x) ∧
          visited.map (value m.mem) = (all_vals m vals).map some ∧
          visited.length = size m ∧
          ∃ itr, begin fuel m = some itr ∧ (itr.node_ = (end_).node_ ↔ size m = 0) ∧
            (itr.node_ ≠ (end_).node_ → visited.head? = some itr.node_) := by
  obtain ⟨nodes, vals, hc, -⟩ := reaches_counted h
  refine ⟨nodes, vals, hc.1, fun fuel hf => ?_⟩
  obtain ⟨hw, itr, hb, hz, hhead⟩ := map_walk_spec hc hf
  exact ⟨all_nodes m nodes, hw, all_nodes_nodup hc.1.1, fun x => mem_all_nodes,
    all_nodes_values hc.1.1, hc.2.symm, itr, hb, hz, hhead⟩

end unordered_map
end taapp

namespace taapp
open NodeTree

/-! ## Instances on the example states: rotations, `erase` and the loops -/

theorem sc8_valid : Valid sc8_tree := by
  simp [Valid, sc8_tree, RR, Bal, bh, isRed, BLACK, RED]

theorem sc8_isNode_root : IsNode sc8 0 :=
  @Reach.here _ sc8 0 ⟨5, BLACK, none, some 1, some 2⟩ rfl

theorem sc8_isNode_four : IsNode sc8 4 :=
  @Reach.left _ sc8 0 4 ⟨5, BLACK, none, some 1, some 2⟩ rfl
    (@Reach.right _ sc8 1 4 ⟨3, RED, some 0, some 3, some 4⟩ rfl
      (@Reach.here _ sc8 4 ⟨4, BLACK, some 1, none, none⟩ rfl))

theorem sc8_inorder : Inorder sc8 sc8.root_ [1, 2, 3, 4, 5, 7, 8, 9] :=
  sc8_model.rep.inorder

theorem demo4_model : Model demo4 demo4_tree := by
  refine ⟨⟨?_, rfl, by decide⟩, rfl, by decide⟩
  simp only [demo4_tree, RepT, root, and_true, true_and]
  and_intros <;> rfl

theorem demo4_valid : Valid demo4_tree := by
  simp [Valid, demo4_tree, RR, Bal, bh, isRed, BLACK, RED]

theorem demo4_isNode_one : IsNode demo4 1 :=
  @Reach.left _ demo4 0 1 ⟨2, BLACK, none, some 1, some 2⟩ rfl
    (@Reach.here _ demo4 1 ⟨1, BLACK, some 0, none, none⟩ rfl)

theorem demo_deficit_rep : Rep demo_deficit
    (plug [] (NodeTree.mk LEFT 0 BLACK nil 2 (node 2 BLACK nil 3 (node 3 RED nil 4 nil)))) := by
  refine ⟨?_, rfl, by decide⟩
  simp only [plug, NodeTree.mk, LEFT, RepT, root, and_true, true_and, ↓reduceIte]
  and_intros <;> rfl

/-- Witness of C33 on the scenario's tree after 8 calls: `rotate<LEFT>` and
`double_rotate<LEFT>` at the root (key 5), whose right child is the node of
the key 8, with the left child of the key 7. -/
theorem rotation_preserves_inorder_witness :
    Rep sc8 sc8_tree ∧ IsNode sc8 0 ∧
    (∃ s1, rotate LEFT sc8 (some 0) = some (s1, some 2) ∧
      Inorder s1 s1.root_ [1, 2, 3, 4, 5, 7, 8, 9]) ∧
    (∃ s2, double_rotate LEFT sc8 (some 0) = some (s2, some 5) ∧
      Inorder s2 s2.root_ [1, 2, 3, 4, 5, 7, 8, 9]) := by
  obtain ⟨-, h1, h2⟩ := rotation_preserves_inorder LEFT sc8 sc8_tree sc8_model.rep 0
    sc8_isNode_root
  obtain ⟨s1, e1, -, i1⟩ := h1 2 rfl
  obtain ⟨s2, e2, -, i2⟩ := h2 2 5 rfl rfl
  exact ⟨sc8_model.rep, sc8_isNode_root, ⟨s1, e1, i1 _ sc8_inorder⟩, ⟨s2, e2, i2 _ sc8_inorder⟩⟩

/-- Witness of C34: `rotate<LEFT>` at the root of the scenario's tree after 8
calls. -/
theorem rotate_relinks_witness :
    Rep sc8 sc8_tree ∧ IsNode sc8 0 ∧
    ∃ s1, rotate LEFT sc8 (some 0) = some (s1, some 2) ∧
      s1.mem 2 = some ⟨8, BLACK, none, some 0, some 6⟩ ∧
      s1.mem 0 = some ⟨5, RED, some 2, some 1, some 5⟩ ∧
      s1.root_ = some 2 ∧ s1.size_ = 8 := by
  obtain ⟨s1, e1, hp, hr, -, hroot, -, -, hs⟩ := rotate_relinks LEFT sc8 sc8_tree
    sc8_model.rep 0 2 ⟨5, BLACK, none, some 1, some 2⟩ ⟨8, BLACK, some 0, some 5, some 6⟩
    sc8_isNode_root rfl rfl rfl
  exact ⟨sc8_model.rep, sc8_isNode_root, s1, e1, hp, hr, (hroot rfl).2, hs⟩

/-- Witness of C35: `double_rotate<LEFT>` at the root of the scenario's tree
after 8 calls. -/
theorem double_rotate_composes_witness :
    Rep sc8 sc8_tree ∧ IsNode sc8 0 ∧
    ∃ s1 s2, rotate RIGHT sc8 (some 2) = some (s1, some 5) ∧
      rotate LEFT s1 (some 0) = some (s2, some 5) ∧
      double_rotate LEFT sc8 (some 0) = some (s2, some 5) ∧ s2.root_ = some 5 := by
  obtain ⟨s1, s2, gn, xn, pn2, gn2, hg, e1, e2, e3, -, -, -, -, -, -, -, -, -, -, -, hroot, -⟩ :=
    double_rotate_composes LEFT sc8 sc8_tree sc8_model.rep 0 2 5 sc8_isNode_root rfl rfl
  have hgn : gn = ⟨5, BLACK, none, some 1, some 2⟩ := (Option.some.inj hg).symm
  exact ⟨sc8_model.rep, sc8_isNode_root, s1, s2, e1, e2, e3, hroot (by rw [hgn])⟩

/-- Witness of C36: `operator++` at the node of the key 4 of the scenario's
tree after 8 calls, which has no right child. -/
theorem increment_is_successor_witness :
    Model sc8 sc8_tree ∧ IsNode sc8 4 ∧
    ∃ pre post, InorderN sc8 sc8.root_ (pre ++ (4, 4) :: post) ∧
      increment sc8 (some 4) = some (post.head?.map Prod.fst) ∧
      Ascent sc8 4 (post.head?.map Prod.fst) := by
  obtain ⟨pre, post, hin, hinc, -, hasc, -⟩ := increment_is_successor ltN sc8 sc8_tree
    sc8_model 4 ⟨4, BLACK, some 1, none, none⟩ sc8_isNode_four rfl
  exact ⟨sc8_model, sc8_isNode_four, pre, post, hin, hinc, hasc rfl⟩

/-- Witness of C37: `erase` at the root (key 5) of the scenario's tree after 8
calls; the successor is the node of the key 7. -/
theorem erase_splices_successor_witness :
    Model sc8 sc8_tree ∧ IsNode sc8 0 ∧ increment sc8 (some 0) = some (some 5) ∧
    ∃ s1 sn1, erase_detach sc8 (some 0) = some (s1, some 2, none, RED) ∧
      s1.mem 5 = some sn1 ∧ sn1 = ⟨7, BLACK, none, some 1, some 2⟩ ∧
      s1.root_ = some 5 := by
  obtain ⟨s1, parent, sn1, e1, -, hpar, hm, hsn, -, -, -, hroot, -⟩ :=
    erase_splices_successor sc8 sc8_tree sc8_model 0 5 ⟨5, BLACK, none, some 1, some 2⟩
      ⟨7, RED, some 2, none, none⟩ sc8_isNode_root rfl (by decide) (by decide) rfl rfl
  have hp2 : parent = some 2 := hpar
  rw [hp2] at e1
  exact ⟨sc8_model, sc8_isNode_root, rfl, s1, sn1, e1, hm, hsn, hroot rfl⟩

/-- Witness of C38: the state of `erase` of the key 1 in the set holding 1, 2,
3, 4: the left subtree of the root is empty, its sibling (key 3) is BLACK with
the RED right child of the key 4. -/
theorem balance_erase_restores_black_count_witness :
    Rep demo_deficit
      (plug [] (NodeTree.mk LEFT 0 BLACK nil 2 (node 2 BLACK nil 3 (node 3 RED nil 4 nil)))) ∧
    ∃ s1 u, balance_erase LEFT demo_deficit (some 0) none = some (s1, s1.root_) ∧
      Rep s1 u ∧ u.root = some 2 ∧ Bal u ∧ bh u = 2 ∧ u.keys = [2, 3, 4] := by
  obtain ⟨s1, u, e1, r1, -, hroot, -, -, -, -, -, -, hkeys, hbal, hbh, -⟩ :=
    balance_erase_restores_black_count LEFT demo_deficit [] 0 BLACK 2 nil
      (node 2 BLACK nil 3 (node 3 RED nil 4 nil)) demo_deficit_rep trivial
      (by simp [Bal, bh]) (by simp [bh, BLACK, RED]) rfl (Or.inr rfl)
  exact ⟨demo_deficit_rep, s1, u, e1, r1, hroot, hbal, hbh, hkeys⟩

/-- Witness of C39: `erase` at the node of the key 1 in the set holding 1, 2,
3, 4, which calls `balance_erase<LEFT>` at the root. -/
theorem balance_erase_calls_are_safe_witness :
    Model demo4 demo4_tree ∧ Valid demo4_tree ∧ IsNode demo4 1 ∧
    ∃ r log, erase_log demo4 (some 1) = some (r, log) ∧ erase demo4 (some 1) = some r ∧
      log.length = 1 ∧ ∀ e ∈ log, SafeCall e := by
  obtain ⟨r, log, eL, e1, hsafe⟩ := balance_erase_calls_are_safe demo4 demo4_tree demo4_model
    demo4_valid 1 demo4_isNode_one
  refine ⟨demo4_model, demo4_valid, demo4_isNode_one, r, log, eL, e1, ?_, hsafe⟩
  have h2 : (erase_log demo4 (some 1)).map (fun q => q.2.length) = some 1 := rfl
  rw [eL] at h2
  exact Option.some.inj h2

/-- Witness of C40 on the scenario's tree after 8 calls. -/
theorem fixup_loops_terminate_with_bounded_rotations_witness :
    Model sc8 sc8_tree ∧ Valid sc8_tree ∧
    (∃ r log, insert_log ltN 6 sc8 = some (r, log) ∧ insert ltN 6 sc8 = some r ∧
      log.length = 2 ∧ StepsUp log ∧ (log.map fix_step.rotations).sum ≤ 2) ∧
    (∃ r log, erase_log sc8 (some 0) = some (r, log) ∧ erase sc8 (some 0) = some r ∧
      StepsUp log ∧ (log.map fix_step.rotations).sum ≤ 3) := by
  obtain ⟨hins, hera⟩ := fixup_loops_terminate_with_bounded_rotations ltN sc8 sc8_tree
    sc8_model sc8_valid
  obtain ⟨r, log, eL, e1, hup, -, -, hsum⟩ := hins 6
  obtain ⟨r2, log2, eL2, e2, hup2, -, -, hsum2⟩ := hera 0 sc8_isNode_root
  refine ⟨sc8_model, sc8_valid, ⟨r, log, eL, e1, ?_, hup, hsum⟩, ⟨r2, log2, eL2, e2, hup2, hsum2⟩⟩
  have h2 : (insert_log ltN 6 sc8).map (fun q => q.2.length) = some 2 := rfl
  rw [eL] at h2
  exact Option.some.inj h2

namespace unordered_map

open list

/-! ### The example map -/

theorem demo_keyEq : KeyEq demo_hasher demo_equals := by
  refine ⟨fun a => ?_, fun a b h => ?_, fun a b c h1 h2 => ?_, fun a b h => ?_⟩
  · simp [demo_equals]
  · simp only [demo_equals, decide_eq_true_eq] at h ⊢
    exact h.symm
  · simp only [demo_equals, decide_eq_true_eq] at h1 h2 ⊢
    exact h1.trans h2
  · simp only [demo_equals, decide_eq_true_eq] at h
    rw [h]

theorem demo_map1_reaches :
    Reaches demo_hasher demo_equals demo_full [call.insert (1, 10)] demo_map1 := by
  refine @Reaches.insert Nat Nat demo_hasher demo_equals demo_full [] empty_map demo_map1 (1, 10)
    100 200 (⟨200, 101, 113⟩, true) Reaches.empty ?_ rfl
  intro itr _ _
  refine ⟨fun _ _ => ⟨by decide, fun x _ _ => rfl⟩, fun m0 hm0 => ?_⟩
  have e : reserve demo_hasher demo_full (empty_map : unordered_map Nat Nat).size_ 100
      (empty_map : unordered_map Nat Nat) =
      some ((reserve demo_hasher demo_full 0 100 (empty_map : unordered_map Nat Nat)).getD
        empty_map) := rfl
  have hm : m0 = (reserve demo_hasher demo_full 0 100
      (empty_map : unordered_map Nat Nat)).getD empty_map :=
    (Option.some.inj (e.symm.trans hm0)).symm
  rw [hm]
  exact ⟨by decide, rfl⟩

theorem demo_map2_reaches :
    Reaches demo_hasher demo_equals demo_full [call.insert (14, 20), call.insert (1, 10)]
      demo_map2 := by
  refine @Reaches.insert Nat Nat demo_hasher demo_equals demo_full [call.insert (1, 10)]
    demo_map1 demo_map2 (14, 20) 0 201 (⟨201, 101, 113⟩, true) demo_map1_reaches ?_ rfl
  intro itr _ _
  refine ⟨fun h _ => ?_, fun m0 hm0 => ?_⟩
  · rcases h with h | h
    · exact absurd h (by decide)
    · exact absurd h (by decide)
  · have e : reserve demo_hasher demo_full demo_map1.size_ 0 demo_map1 = some demo_map1 := rfl
    have hm : m0 = demo_map1 := (Option.some.inj (e.symm.trans hm0)).symm
    rw [hm]
    exact ⟨by decide, rfl⟩

/-- Witness of C31 on the map after `insert((1, 10))` and `insert((14, 20))`,
whose keys share the bucket 1 of 13. -/
theorem find_returns_pair_iff_inserted_witness :
    KeyEq demo_hasher demo_equals ∧
    Reaches demo_hasher demo_equals demo_full [call.insert (14, 20), call.insert (1, 10)]
      demo_map2 ∧
    (∃ itr, find demo_hasher demo_equals 2 demo_map2 1 = some itr ∧
      itr.node_ ≠ (end_).node_ ∧
      ∃ kv, value demo_map2.mem itr.node_ = some kv ∧ demo_equals 1 kv.1 = true) ∧
    (∃ itr, find demo_hasher demo_equals 2 demo_map2 27 = some itr ∧
      itr.node_ = (end_).node_) ∧
    (∃ m1, erase_key demo_hasher demo_equals 2 demo_map2 1 = some (m1, 1) ∧
      ∃ itr, find demo_hasher demo_equals 2 m1 1 = some itr ∧ itr.node_ = (end_).node_) := by
  obtain ⟨nodes, vals, -, -, hfind, -, herase⟩ := find_returns_pair_iff_inserted demo_hasher
    demo_equals demo_full [call.insert (14, 20), call.insert (1, 10)] demo_map2 demo_keyEq
    demo_map2_reaches
  refine ⟨demo_keyEq, demo_map2_reaches, ?_, ?_, ?_⟩
  · obtain ⟨itr, e, hiff, hfound, -⟩ := hfind 1 2 (Nat.le_refl 2)
    have hne := hiff.2 (Or.inr (Or.inl rfl))
    obtain ⟨-, kv, hv, he, -⟩ := hfound hne
    exact ⟨itr, e, hne, kv, hv, he⟩
  · obtain ⟨itr, e, hiff, -, -⟩ := hfind 27 2 (Nat.le_refl 2)
    refine ⟨itr, e, ?_⟩
    by_contra hne
    rcases hiff.1 hne with h | h | h
    · exact absurd h (by decide)
    · exact absurd h (by decide)
    · exact h
  · obtain ⟨m1, c, e, hc, -, hf⟩ := herase 1 2 (Nat.le_refl 2)
    have hc1 : c = 1 := hc.2 (Or.inr (Or.inl rfl))
    subst hc1
    have hs : m1.size_ = 1 := by
      have h2 : (erase_key demo_hasher demo_equals 2 demo_map2 1).map (fun q => q.1.size_) =
          some 1 := rfl
      rw [e] at h2
      exact Option.some.inj h2
    obtain ⟨itr, e1, h1⟩ := hf 2 (by omega)
    exact ⟨m1, e, itr, e1, h1⟩

/-- Witness of C32 on the map after `insert((1, 10))` and `insert((14, 20))`:
the loop visits the node at 201 and then the node at 200. -/
theorem iteration_visits_each_pair_once_witness :
    Reaches demo_hasher demo_equals demo_full [call.insert (14, 20), call.insert (1, 10)]
      demo_map2 ∧
    walk 15 demo_map2 = some [201, 200] ∧
    ∃ visited, walk 15 demo_map2 = some visited ∧ visited.Nodup ∧
      visited.length = size demo_map2 := by
  obtain ⟨nodes, vals, -, hw⟩ := iteration_visits_each_pair_once demo_hasher demo_equals
    demo_full [call.insert (14, 20), call.insert (1, 10)] demo_map2 demo_map2_reaches
  obtain ⟨visited, e, hnd, -, -, hlen, -⟩ := hw 15 (by decide)
  exact ⟨demo_map2_reaches, rfl, visited, e, hnd, hlen⟩

end unordered_map

end taapp
